import Mathlib

/-!
Learn-LLVM17: the tinylang front end and its SSA construction.

A shallow embedding of

* `chapter8/tinylang/lib/CodeGen/CGProcedure.cpp` (on-the-fly SSA construction), and
* `tinylang/lib/Lexer/Lexer.cpp`, `tinylang/lib/Parser/Parser.cpp` (lexer and parser),

together with the theorems that settle the specification claims about them.

The LLVM objects the code generator manipulates (values, instructions with
use lists, basic blocks, `TrackingVH` handles, the `IRBuilder` insertion
point) are modelled as explicit data; every C++ member function becomes a
state transformer of the same name.  C++ `assert`s are modelled as enabled:
a failing assertion, a `report_fatal_error`, an access to an erased
instruction and an exhausted recursion budget all end the run with an
`Err`, and the state reached so far is kept.
-/

set_option autoImplicit false

namespace tinylang

/-! ## LLVM IR objects -/

abbrev BlockId := Nat
abbrev InstId := Nat

/-- LLVM types, as far as the code generator distinguishes them. -/
inductive Ty
  | int (bits : Nat)
  | ptr
  | aggregate
  | void
  deriving DecidableEq, Repr

/-- An `llvm::Value *`.  Constants are uniqued by LLVM, so pointer equality
of values is structural equality here. -/
inductive Value
  | constInt (bits : Nat) (val : Nat)
  | undef (ty : Ty)
  | poison (ty : Ty)
  | global (d : Nat)
  | arg (idx : Nat)
  | inst (id : InstId)
  deriving DecidableEq, Repr

/-- Whether the value is an `llvm::Constant` (anything but an argument or an
instruction). -/
def Value.isConstant : Value → Bool
  | .arg _ => false
  | .inst _ => false
  | _ => true

/-- Integer comparison predicates produced by `emitInfixExpr`. -/
inductive Pred
  | eq | ne | slt | sle | sgt | sge
  deriving DecidableEq, Repr

/-- Instruction opcodes produced by `CGProcedure`. -/
inductive Opcode
  | PHI | Add | Sub | Mul | SDiv | SRem | ICmp (p : Pred) | And | Or | Xor
  | Alloca | Load | Store | GetElementPtr | Br | Ret
  deriving DecidableEq, Repr

/-- The predicate `Instruction::isTerminator`. -/
def Opcode.isTerminator : Opcode → Bool
  | .Br => true
  | .Ret => true
  | _ => false

/-- One use of a value: the using instruction and the operand index. -/
abbrev Use := InstId × Nat

/-- An `llvm::Instruction`.  `operands` are the value operands; `blocks` are
the incoming blocks of a phi (parallel to `operands`) or the block operands
of a branch in operand order; `uses` is the use list of the result, most
recently added use first, as `Value::addUse` keeps it. -/
structure Instruction where
  op : Opcode
  ty : Ty
  operands : List Value
  blocks : List BlockId
  parent : BlockId
  uses : List Use
  deriving DecidableEq, Repr

/-! ## The tinylang AST, as far as CGProcedure inspects it -/

/-- Where a `VariableDeclaration` is declared, relative to the procedure
being compiled (`getEnclosingDecl() == Proc`, `== CGM.getModuleDeclaration()`,
or neither). -/
inductive Scope
  | proc | module | nested
  deriving DecidableEq, Repr

/-- The dynamic kind of a declaration (`llvm::dyn_cast` on `Decl`). -/
inductive DeclKind
  | Var (scope : Scope)
  | Param (IsVar : Bool)
  | Other
  deriving DecidableEq, Repr

/-- A declaration.  `ty` is the result of `CGModule::convertType` on the
declared type (`none` when `convertType` ends in
`report_fatal_error("Unsupported type")`). -/
structure Decl where
  id : Nat
  kind : DeclKind
  ty : Option Ty
  deriving DecidableEq, Repr

/-- The assertion of `readLocalVariable` / `writeLocalVariable`:
`isa<VariableDeclaration>(Decl) || isa<FormalParameterDeclaration>(Decl)`. -/
def Decl.isVarOrParam (D : Decl) : Bool :=
  match D.kind with
  | .Var _ => true
  | .Param _ => true
  | .Other => false

/-- Operator token kinds carried by `OperatorInfo`. -/
inductive OpKind
  | plus | minus | star | slash | kw_DIV | kw_MOD | equal | hash | less
  | lessequal | greater | greaterequal | kw_AND | kw_OR | kw_NOT | unknown
  deriving DecidableEq, Repr

mutual
/-- Expressions (`Expr` and its subclasses). -/
inductive Expr
  | InfixExpression (Left Right : Expr) (Op : OpKind)
  | PrefixExpression (E : Expr) (Op : OpKind)
  | IntegerLiteral (Value : Int)
  | BooleanLiteral (Value : Bool)
  | Designator (D : Decl) (Selectors : List Selector)
  | ConstantAccess (E : Expr)
  | FunctionCallExpr
/-- Selectors of a designator. -/
inductive Selector
  | IndexSelector (Index : Expr)
  | FieldSelector (Index : Nat)
  | DereferenceSelector
end

/-- Statements (`Stmt` and its subclasses). -/
inductive Stmt
  | AssignmentStatement (Var : Decl) (Selectors : List Selector) (E : Expr)
  | ProcedureCallStatement
  | IfStatement (Cond : Expr) (IfStmts ElseStmts : List Stmt)
  | WhileStatement (Cond : Expr) (WhileStmts : List Stmt)
  | ReturnStatement (RetVal : Option Expr)

/-- A `ProcedureDeclaration`: formal parameters, the converted return type
(`none`: no return type, `some none`: `convertType` fails on it), local
declarations and body. -/
structure ProcedureDeclaration where
  FormalParams : List Decl
  RetType : Option (Option Ty)
  Decls : List Decl
  Stmts : List Stmt

/-! ## Code generator state -/

/-- `CGProcedure::BasicBlockDef`.  `Defs` holds `TrackingVH` handles (they
follow `replaceAllUsesWith`); `IncompletePhis` is kept in insertion order. -/
structure BasicBlockDef where
  Defs : Decl → Option Value
  IncompletePhis : List (InstId × Decl)
  Sealed : Bool

/-- Control-flow events, recorded for the temporal claims (ghost state: no
operation reads it). -/
inductive Event
  | edge (src dst : BlockId)
  | seal (b : BlockId)
  deriving DecidableEq, Repr

/-- The function under construction together with the members of
`CGProcedure`.  Blocks are numbered in creation order, instructions get
fresh numbers; an erased instruction has no entry in `insts`. -/
structure CGState where
  insts : InstId → Option Instruction
  numInsts : Nat
  blockInsts : BlockId → List InstId
  blockUses : BlockId → List InstId
  numBlocks : Nat
  argTys : List Ty
  CurrentDef : BlockId → BasicBlockDef
  Curr : BlockId
  FormalParams : Decl → Option Value
  trace : List Event

/-- The state of a fresh `CGProcedure` (`Curr` is set by `run` before use). -/
def CGState.init : CGState where
  insts := fun _ => none
  numInsts := 0
  blockInsts := fun _ => []
  blockUses := fun _ => []
  numBlocks := 0
  argTys := []
  CurrentDef := fun _ => { Defs := fun _ => none, IncompletePhis := [], Sealed := false }
  Curr := 0
  FormalParams := fun _ => none
  trace := []

/-- Ways in which a run ends without returning. -/
inductive Err
  | assertValueDoesNotExist
  | assertDeclKind
  | assertAlreadySealed
  | fatalNestedProcedures
  | fatalUnsupportedDeclaration
  | fatalUnsupportedExpression
  | fatalUnsupportedType
  | fatalNotImplemented
  | fatalShouldNotHappen
  | unreachableWrongOperator
  | nullDereference
  | useAfterFree
  | optimizePhiOnErasedPhi
  | outOfFuel
  | assertStructElementsEmpty
  deriving DecidableEq, Repr

/-- Outcome of a state transformer: a result or an error, with the state
reached. -/
inductive Res (α : Type)
  | ok (a : α) (s : CGState)
  | fail (e : Err) (s : CGState)

/-- The final state of an outcome. -/
def Res.state {α : Type} : Res α → CGState
  | .ok _ s => s
  | .fail _ s => s

/-- The error of an outcome, if any. -/
def Res.error? {α : Type} : Res α → Option Err
  | .ok _ _ => none
  | .fail e _ => some e

/-- The result of an outcome, if any. -/
def Res.value? {α : Type} : Res α → Option α
  | .ok a _ => some a
  | .fail _ _ => none

/-- State transformers that may fail. -/
def M (α : Type) : Type := CGState → Res α

/-- Sequencing: an error ends the computation. -/
def M.bind {α β : Type} (x : M α) (f : α → M β) : M β := fun s =>
  match x s with
  | .ok a s' => f a s'
  | .fail e s' => .fail e s'

instance : Monad M where
  pure a := fun s => .ok a s
  bind := M.bind

/-- End the run with an error. -/
def M.throw {α : Type} (e : Err) : M α := fun s => .fail e s

/-- Read the state. -/
def M.get : M CGState := fun s => .ok s s

/-- Update the state. -/
def M.modify (f : CGState → CGState) : M Unit := fun s => .ok () (f s)

/-! ## LLVM primitives -/

namespace CGState

/-- Replace the entry of instruction `i`. -/
def setInst (s : CGState) (i : InstId) (x : Option Instruction) : CGState :=
  { s with insts := fun j => if j = i then x else s.insts j }

/-- The slot `Value::addUse`: put a use at the head of the use list of `v`
(use lists are only kept for instructions; nothing iterates the others). -/
def addUse (s : CGState) (v : Value) (u : Use) : CGState :=
  match v with
  | .inst i =>
    match s.insts i with
    | some x => s.setInst i (some { x with uses := u :: x.uses })
    | none => s
  | _ => s

/-- Register the operands `vs` of `user`, starting at operand index `k`, in
operand order. -/
def addUses (s : CGState) (user : InstId) : List Value → Nat → CGState
  | [], _ => s
  | v :: vs, k => addUses (s.addUse v (user, k)) user vs (k + 1)

/-- Put a branch at the head of the use list of block `b`. -/
def addBlockUse (s : CGState) (b : BlockId) (user : InstId) : CGState :=
  { s with blockUses := fun c => if c = b then user :: s.blockUses c else s.blockUses c }

/-- The type `Value::getType`. -/
def typeOf (s : CGState) : Value → Ty
  | .constInt b _ => .int b
  | .undef t => t
  | .poison t => t
  | .global _ => .ptr
  | .arg i => s.argTys.getD i .void
  | .inst i =>
    match s.insts i with
    | some x => x.ty
    | none => .void

/-- Whether `i` is a live phi (`llvm::dyn_cast<llvm::PHINode>`). -/
def isPHI (s : CGState) (i : InstId) : Bool :=
  match s.insts i with
  | some x => x.op == .PHI
  | none => false

/-- The range `llvm::pred_begin(BB) .. llvm::pred_end(BB)`: the parents of
the terminators on the use list of `BB`, in use-list order. -/
def predecessors (s : CGState) (BB : BlockId) : List BlockId :=
  (s.blockUses BB).filterMap fun u =>
    match s.insts u with
    | some x => if x.op.isTerminator then some x.parent else none
    | none => none

/-- `BasicBlock::getSinglePredecessor`: the predecessor when the range has
exactly one entry. -/
def getSinglePredecessor (s : CGState) (BB : BlockId) : Option BlockId :=
  match s.predecessors BB with
  | [p] => some p
  | _ => none

/-- `BasicBlock::empty`. -/
def blockEmpty (s : CGState) (BB : BlockId) : Bool :=
  (s.blockInsts BB).isEmpty

/-- `BasicBlock::getTerminator`: the last instruction when it is a
terminator. -/
def getTerminator (s : CGState) (BB : BlockId) : Option InstId :=
  match (s.blockInsts BB).getLast? with
  | some i =>
    match s.insts i with
    | some x => if x.op.isTerminator then some i else none
    | none => none
  | none => none

/-- Update the `BasicBlockDef` of one block (`CurrentDef[BB]`). -/
def updDef (s : CGState) (BB : BlockId) (f : BasicBlockDef → BasicBlockDef) : CGState :=
  { s with CurrentDef := fun b => if b = BB then f (s.CurrentDef b) else s.CurrentDef b }

/-- The assignment `CurrentDef[BB].Defs[Decl] = Val`. -/
def setDef (s : CGState) (BB : BlockId) (D : Decl) (Val : Value) : CGState :=
  s.updDef BB fun bd => { bd with Defs := fun d => if d = D then some Val else bd.Defs d }

/-- Substitute `New` for the result of instruction `Old`. -/
def substValue (Old : InstId) (New : Value) (v : Value) : Value :=
  if v = .inst Old then New else v

/-- `Value::replaceAllUsesWith` on the result of instruction `Old`: every
operand and every `TrackingVH` that holds `Old` now holds `New`; the uses
move, one by one from the head, to the head of the use list of `New`. -/
def replaceAllUsesWith (s : CGState) (Old : InstId) (New : Value) : CGState :=
  let moved : List Use :=
    match s.insts Old with
    | some x => x.uses.reverse
    | none => []
  { s with
    insts := fun j =>
      (s.insts j).map fun x =>
        { x with
          operands := x.operands.map (substValue Old New)
          uses := if j = Old then [] else if New = .inst j then moved ++ x.uses else x.uses }
    CurrentDef := fun b =>
      { s.CurrentDef b with
        Defs := fun d => ((s.CurrentDef b).Defs d).map (substValue Old New) } }

/-- `Instruction::eraseFromParent`: unlink from the block, drop the operand
uses, delete. -/
def eraseFromParent (s : CGState) (i : InstId) : CGState :=
  match s.insts i with
  | none => s
  | some x =>
    { s with
      insts := fun j =>
        if j = i then none
        else (s.insts j).map fun y => { y with uses := y.uses.filter fun u => u.1 != i }
      blockInsts := fun b =>
        if b = x.parent then (s.blockInsts b).filter (fun j => j != i) else s.blockInsts b }

/-- All instructions of the function, block by block. -/
def allInsts (s : CGState) : List InstId :=
  (List.range s.numBlocks).flatMap s.blockInsts

/-- The phi nodes of the function. -/
def phis (s : CGState) : List InstId :=
  s.allInsts.filter s.isPHI

end CGState

/-- Create an instruction: register its operand uses in operand order and
link it into block `BB`, at the front (`atFront`) or at the end. -/
def createInst (BB : BlockId) (atFront : Bool) (op : Opcode) (ty : Ty)
    (operands : List Value) (blocks : List BlockId) : M InstId := fun s =>
  let n := s.numInsts
  let x : Instruction :=
    { op := op, ty := ty, operands := operands, blocks := blocks, parent := BB, uses := [] }
  let s1 : CGState :=
    { s with
      insts := fun j => if j = n then some x else s.insts j
      numInsts := n + 1
      blockInsts := fun b =>
        if b = BB then (if atFront then n :: s.blockInsts b else s.blockInsts b ++ [n])
        else s.blockInsts b }
  let s2 := s1.addUses n operands 0
  let s3 := blocks.foldl (fun t b => t.addBlockUse b n) s2
  .ok n s3

/-- `llvm::BasicBlock::Create(Ctx, Name, Fn)`: a new block at the end of
the function. -/
def createBasicBlock : M BlockId := fun s =>
  .ok s.numBlocks { s with numBlocks := s.numBlocks + 1 }

/-- `PHINode::addIncoming(V, BB)`. -/
def addIncoming (Phi : InstId) (V : Value) (BB : BlockId) : M Unit := fun s =>
  match s.insts Phi with
  | none => .fail .useAfterFree s
  | some x =>
    let k := x.operands.length
    let s1 := s.setInst Phi (some { x with operands := x.operands ++ [V], blocks := x.blocks ++ [BB] })
    .ok () (s1.addUse V (Phi, k))

/-! ## What the code takes from the LLVM library

Two behaviours of LLVM that the C++ source relies on but does not fix are
parameters of the model: the iteration order of the `DenseMap`
`IncompletePhis` (unspecified by LLVM), and the constant folder of the
`IRBuilder`, which decides whether a `Create...` call inserts an
instruction or returns a constant. -/

/-- LLVM behaviours taken as parameters. -/
structure Env where
  order : List (InstId × Decl) → List (InstId × Decl)
  order_perm : ∀ l, (order l).Perm l
  fold : Opcode → List Value → Option Value
  fold_isConstant : ∀ op vs v, fold op vs = some v → v.isConstant = true

/-! ## CGProcedure: SSA construction -/

/-- `CGProcedure::mapType`. -/
def mapType (D : Decl) : M Ty :=
  match D.kind with
  | .Param IsVar =>
    match D.ty with
    | some Ty => pure (if IsVar then .ptr else Ty)
    | none => M.throw .fatalUnsupportedType
  | _ =>
    match D.ty with
    | some Ty => pure Ty
    | none => M.throw .fatalUnsupportedType

/-- `CGProcedure::writeLocalVariable`; `Val = none` is a null pointer. -/
def writeLocalVariable (BB : BlockId) (D : Decl) (Val : Option Value) : M Unit := fun s =>
  if !D.isVarOrParam then .fail .assertDeclKind s
  else
    match Val with
    | none => .fail .assertValueDoesNotExist s
    | some v => .ok () (s.setDef BB D v)

/-- `CGProcedure::addEmptyPhi`: the new phi becomes the first instruction
of `BB`. -/
def addEmptyPhi (BB : BlockId) (D : Decl) : M InstId := do
  let Ty ← mapType D
  createInst BB true .PHI Ty [] []

/-- The loop of `optimizePhi` over `Phi->incoming_values()`, started with
the current `Same` (`none` is the null pointer): `none` when the loop
returns `Phi`, else the final `Same`. -/
def sameIncoming (Phi : InstId) : List Value → Option Value → Option (Option Value)
  | [], Same => some Same
  | V :: Vs, Same =>
    if some V = Same ∨ V = .inst Phi then sameIncoming Phi Vs Same
    else if Same.isSome ∧ some V ≠ Same then none
    else sameIncoming Phi Vs (some V)

/-- The candidates collected by `optimizePhi`: for every use of `Phi`, in
use-list order, the user when it is a phi other than `Phi`. -/
def candidatePhis (s : CGState) (Phi : InstId) (uses : List Use) : List InstId :=
  uses.filterMap fun U => if s.isPHI U.1 ∧ U.1 ≠ Phi then some U.1 else none

/-- Run `f` on every candidate, in order, ignoring the results. -/
def forEachPhi (f : InstId → M Value) : List InstId → M Unit
  | [] => pure ()
  | P :: Ps => do
    let _ ← f P
    forEachPhi f Ps

/-- `CGProcedure::optimizePhi`.  The first argument bounds the recursion
depth; a call on a phi that has been erased reads freed memory and ends
the run with `optimizePhiOnErasedPhi`. -/
def optimizePhi : Nat → InstId → M Value
  | 0, _ => M.throw .outOfFuel
  | fuel + 1, Phi => fun s =>
    match s.insts Phi with
    | none => .fail .optimizePhiOnErasedPhi s
    | some x =>
      match sameIncoming Phi x.operands none with
      | none => .ok (.inst Phi) s
      | some Same? =>
        let Same := Same?.getD (.undef x.ty)
        let CandidatePhis := candidatePhis s Phi x.uses
        let s1 := (s.replaceAllUsesWith Phi Same).eraseFromParent Phi
        (do forEachPhi (optimizePhi fuel) CandidatePhis
            pure Same) s1

/-- The loop of `addPhiOperands` over the predecessors. -/
def addPhiOperandsLoop (rd : BlockId → Decl → M Value) (D : Decl) (Phi : InstId) :
    List BlockId → M Unit
  | [] => pure ()
  | I :: Is => do
    let V ← rd I D
    addIncoming Phi V I
    addPhiOperandsLoop rd D Phi Is

/-- `CGProcedure::addPhiOperands`, reading through `rd`.  `optimizePhi` gets
a recursion budget that it cannot exhaust. -/
def addPhiOperandsWith (rd : BlockId → Decl → M Value) (BB : BlockId) (D : Decl)
    (Phi : InstId) : M Value := do
  let s ← M.get
  addPhiOperandsLoop rd D Phi (s.predecessors BB)
  let s' ← M.get
  optimizePhi (s'.numInsts + 1) Phi

/-- `CGProcedure::readLocalVariableRecursive`, reading predecessors through
`rd`. -/
def readLocalVariableRecursiveWith (rd : BlockId → Decl → M Value) (BB : BlockId)
    (D : Decl) : M Value := do
  let s ← M.get
  let Val : Option Value ←
    if !(s.CurrentDef BB).Sealed then do
      let Phi ← addEmptyPhi BB D
      M.modify fun t =>
        t.updDef BB fun bd => { bd with IncompletePhis := bd.IncompletePhis ++ [(Phi, D)] }
      pure (some (.inst Phi))
    else
      match s.getSinglePredecessor BB with
      | some PredBB => do
        let V ← rd PredBB D
        pure (some V)
      | none => do
        let Phi ← addEmptyPhi BB D
        writeLocalVariable BB D none
        let V ← addPhiOperandsWith rd BB D Phi
        pure (some V)
  writeLocalVariable BB D Val
  match Val with
  | some V => pure V
  | none => M.throw .assertValueDoesNotExist

/-- `CGProcedure::readLocalVariable`; the first argument bounds the depth of
the recursion through predecessor blocks. -/
def readLocalVariable : Nat → BlockId → Decl → M Value
  | 0 => fun _ _ => M.throw .outOfFuel
  | fuel + 1 => fun BB D => do
    if !D.isVarOrParam then M.throw .assertDeclKind
    let s ← M.get
    match (s.CurrentDef BB).Defs D with
    | some Val => pure Val
    | none => readLocalVariableRecursiveWith (readLocalVariable fuel) BB D

/-- `CGProcedure::readLocalVariableRecursive`. -/
def readLocalVariableRecursive (fuel : Nat) (BB : BlockId) (D : Decl) : M Value :=
  readLocalVariableRecursiveWith (readLocalVariable fuel) BB D

/-- `CGProcedure::addPhiOperands`. -/
def addPhiOperands (fuel : Nat) (BB : BlockId) (D : Decl) (Phi : InstId) : M Value :=
  addPhiOperandsWith (readLocalVariable fuel) BB D Phi

/-- The loop of `sealBlock` over the incomplete phis. -/
def sealBlockLoop (fuel : Nat) (BB : BlockId) : List (InstId × Decl) → M Unit
  | [] => pure ()
  | PhiDecl :: rest => do
    let _ ← addPhiOperands fuel BB PhiDecl.2 PhiDecl.1
    sealBlockLoop fuel BB rest

/-- `CGProcedure::sealBlock`. -/
def sealBlock (E : Env) (fuel : Nat) (BB : BlockId) : M Unit := do
  let s ← M.get
  if (s.CurrentDef BB).Sealed then M.throw .assertAlreadySealed
  M.modify fun t => { t with trace := t.trace ++ [.seal BB] }
  sealBlockLoop fuel BB (E.order (s.CurrentDef BB).IncompletePhis)
  M.modify fun t => t.updDef BB fun bd => { bd with IncompletePhis := [], Sealed := true }

/-! ## CGProcedure: the IRBuilder calls -/

/-- Insert an instruction at the builder's insertion point, the end of
`Curr` (`setCurr` keeps the two together). -/
def Insert (op : Opcode) (ty : Ty) (operands : List Value) (blocks : List BlockId) :
    M Value := do
  let s ← M.get
  let i ← createInst s.Curr false op ty operands blocks
  pure (.inst i)

/-- A binary `Builder.Create...` call: the folder's constant when it folds,
else a new instruction. -/
def CreateBinOp (E : Env) (op : Opcode) (L R : Value) : M Value := do
  match E.fold op [L, R] with
  | some V => pure V
  | none =>
    let s ← M.get
    let ty : Ty :=
      match op with
      | .ICmp _ => .int 1
      | _ => s.typeOf L
    Insert op ty [L, R] []

/-- `Constant::getNullValue` (integers only; other types do not occur as
operands of `CreateNeg` in well-typed programs). -/
def getNullValue : Ty → Value
  | .int b => .constInt b 0
  | t => .undef t

/-- `Constant::getAllOnesValue` (integers only, as for `getNullValue`). -/
def getAllOnesValue : Ty → Value
  | .int b => .constInt b (2 ^ b - 1)
  | t => .undef t

/-- `Builder.CreateLoad(Ty, Ptr)`. -/
def CreateLoad (Ty : Ty) (Ptr : Value) : M Value :=
  Insert .Load Ty [Ptr] []

/-- `Builder.CreateStore(Val, Ptr)`. -/
def CreateStore (Val Ptr : Value) : M Value :=
  Insert .Store .void [Val, Ptr] []

/-- `Builder.CreateInBoundsGEP(Ty, Ptr, IdxList)`. -/
def CreateInBoundsGEP (E : Env) (Ptr : Value) (IdxList : List Value) : M Value := do
  match E.fold .GetElementPtr (Ptr :: IdxList) with
  | some V => pure V
  | none => Insert .GetElementPtr .ptr (Ptr :: IdxList) []

/-- `Builder.CreateBr(Dest)`. -/
def CreateBr (Dest : BlockId) : M Unit := do
  let s ← M.get
  let _ ← Insert .Br .void [] [Dest]
  M.modify fun t => { t with trace := t.trace ++ [.edge s.Curr Dest] }

/-- `Builder.CreateCondBr(Cond, True, False)`; the block operands are
`False`, `True` in operand order. -/
def CreateCondBr (Cond : Value) (True False : BlockId) : M Unit := do
  let s ← M.get
  let _ ← Insert .Br .void [Cond] [False, True]
  M.modify fun t => { t with trace := t.trace ++ [.edge s.Curr True, .edge s.Curr False] }

/-- `CGProcedure::setCurr`. -/
def setCurr (BB : BlockId) : M Unit :=
  M.modify fun t => { t with Curr := BB }

/-! ## CGProcedure: variables, expressions, statements -/

/-- `CGProcedure::readVariable`. -/
def readVariable (fuel : Nat) (BB : BlockId) (D : Decl) (LoadVal : Bool) : M Value := do
  match D.kind with
  | .Var .proc => readLocalVariable fuel BB D
  | .Var .module =>
    let Global := Value.global D.id
    if !LoadVal then pure Global
    else do
      let Ty ← mapType D
      CreateLoad Ty Global
  | .Var .nested => M.throw .fatalNestedProcedures
  | .Param true =>
    let s ← M.get
    match s.FormalParams D with
    | none => M.throw .nullDereference
    | some Arg =>
      if !LoadVal then pure Arg
      else do
        let Ty ← mapType D
        CreateLoad Ty Arg
  | .Param false => readLocalVariable fuel BB D
  | .Other => M.throw .fatalUnsupportedDeclaration

/-- `CGProcedure::writeVariable`.  In the branch for a parameter passed by
reference the source evaluates `V->getType()` with `V` null, after the store
has been created. -/
def writeVariable (BB : BlockId) (D : Decl) (Val : Value) : M Unit := do
  match D.kind with
  | .Var .proc => writeLocalVariable BB D (some Val)
  | .Var .module =>
    let _ ← CreateStore Val (.global D.id)
    pure ()
  | .Var .nested => M.throw .fatalNestedProcedures
  | .Param true =>
    let s ← M.get
    match s.FormalParams D with
    | none => M.throw .nullDereference
    | some Arg =>
      let _ ← CreateStore Val Arg
      M.throw .nullDereference
  | .Param false => writeLocalVariable BB D (some Val)
  | .Other => M.throw .fatalUnsupportedDeclaration

/-- The inner `while` of `emitExpr` that collects a run of index selectors,
emitting each index with `ee`. -/
def takeIndexSelectors (ee : Expr → M Value) : List Selector →
    M (List Value × List Selector)
  | .IndexSelector Index :: rest => do
    let V ← ee Index
    let r ← takeIndexSelectors ee rest
    pure (V :: r.1, r.2)
  | rest => pure ([], rest)

/-- The inner `while` of `emitExpr` that collects a run of field selectors
as 64-bit constants. -/
def takeFieldSelectors : List Selector → List Value × List Selector
  | .FieldSelector Index :: rest =>
    let r := takeFieldSelectors rest
    (.constInt 64 Index :: r.1, r.2)
  | rest => ([], rest)

/-- The selector loop of `emitExpr` for a designator; `n` bounds the number
of rounds (one round consumes at least one selector). -/
def emitSelectors (E : Env) (ee : Expr → M Value) : Nat → Value → List Selector → M Value
  | _, Val, [] => pure Val
  | 0, _, _ :: _ => M.throw .outOfFuel
  | n + 1, Val, .IndexSelector Index :: rest => do
    let r ← takeIndexSelectors ee (.IndexSelector Index :: rest)
    let P ← CreateInBoundsGEP E Val r.1
    let s ← M.get
    let V ← CreateLoad (s.typeOf P) P
    emitSelectors E ee n V r.2
  | n + 1, Val, .FieldSelector Index :: rest => do
    let r := takeFieldSelectors (.FieldSelector Index :: rest)
    let P ← CreateInBoundsGEP E Val r.1
    let s ← M.get
    let V ← CreateLoad (s.typeOf P) P
    emitSelectors E ee n V r.2
  | n + 1, Val, .DereferenceSelector :: rest => do
    let s ← M.get
    let V ← CreateLoad (s.typeOf Val) Val
    emitSelectors E ee n V rest

/-- `CGProcedure::emitInfixExpr`, after both operands have been emitted. -/
def emitInfixOp (E : Env) (Op : OpKind) (Left Right : Value) : M Value :=
  match Op with
  | .plus => CreateBinOp E .Add Left Right
  | .minus => CreateBinOp E .Sub Left Right
  | .star => CreateBinOp E .Mul Left Right
  | .kw_DIV => CreateBinOp E .SDiv Left Right
  | .kw_MOD => CreateBinOp E .SRem Left Right
  | .equal => CreateBinOp E (.ICmp .eq) Left Right
  | .hash => CreateBinOp E (.ICmp .ne) Left Right
  | .less => CreateBinOp E (.ICmp .slt) Left Right
  | .lessequal => CreateBinOp E (.ICmp .sle) Left Right
  | .greater => CreateBinOp E (.ICmp .sgt) Left Right
  | .greaterequal => CreateBinOp E (.ICmp .sge) Left Right
  | .kw_AND => CreateBinOp E .And Left Right
  | .kw_OR => CreateBinOp E .Or Left Right
  | _ => M.throw .unreachableWrongOperator

/-- `CGProcedure::emitPrefixExpr`, after the operand has been emitted. -/
def emitPrefixOp (E : Env) (Op : OpKind) (Result : Value) : M Value := do
  match Op with
  | .plus => pure Result
  | .minus =>
    let s ← M.get
    CreateBinOp E .Sub (getNullValue (s.typeOf Result)) Result
  | .kw_NOT =>
    let s ← M.get
    CreateBinOp E .Xor Result (getAllOnesValue (s.typeOf Result))
  | _ => M.throw .unreachableWrongOperator

/-- `CGProcedure::emitExpr` (with `emitInfixExpr` and `emitPrefixExpr`); the
first argument bounds the nesting depth of the expression. -/
def emitExpr (E : Env) : Nat → Expr → M Value
  | 0 => fun _ => M.throw .outOfFuel
  | fuel + 1 => fun e =>
    match e with
    | .InfixExpression L R Op => do
      let Left ← emitExpr E fuel L
      let Right ← emitExpr E fuel R
      emitInfixOp E Op Left Right
    | .PrefixExpression X Op => do
      let Result ← emitExpr E fuel X
      emitPrefixOp E Op Result
    | .Designator D Selectors => do
      let s ← M.get
      let Val ← readVariable fuel s.Curr D true
      emitSelectors E (emitExpr E fuel) Selectors.length Val Selectors
    | .ConstantAccess X => emitExpr E fuel X
    | .IntegerLiteral V => pure (.constInt 64 (V % 2 ^ 64).toNat)
    | .BooleanLiteral V => pure (.constInt 1 (if V then 1 else 0))
    | .FunctionCallExpr => M.throw .fatalUnsupportedExpression

/-- The selector loop of `emitStmt(AssignmentStatement *)`. -/
def assignmentIndexes (ee : Expr → M Value) : List Selector → M (List Value)
  | [] => pure []
  | .IndexSelector Index :: rest => do
    let V ← ee Index
    let r ← assignmentIndexes ee rest
    pure (V :: r)
  | .FieldSelector Index :: rest => do
    let r ← assignmentIndexes ee rest
    pure (.constInt 32 Index :: r)
  | .DereferenceSelector :: _ => M.throw .fatalNotImplemented

/-- `CGProcedure::emitStmt(AssignmentStatement *)`. -/
def emitAssignmentStatement (E : Env) (fuel : Nat) (D : Decl) (Selectors : List Selector)
    (X : Expr) : M Unit := do
  let Val ← emitExpr E fuel X
  let s ← M.get
  if Selectors.isEmpty then writeVariable s.Curr D Val
  else do
    let Base ← readVariable fuel s.Curr D false
    let Idx ← assignmentIndexes (emitExpr E fuel) Selectors
    let s' ← M.get
    if s'.typeOf Base = .ptr then do
      let P ← CreateInBoundsGEP E Base (.constInt 32 0 :: Idx)
      let _ ← CreateStore Val P
      pure ()
    else M.throw .fatalShouldNotHappen

/-- `CGProcedure::emitStmt(IfStatement *)`; `emit` lowers a statement
list. -/
def emitIfStatement (E : Env) (fuel : Nat) (emit : List Stmt → M Unit) (Cond : Expr)
    (IfStmts ElseStmts : List Stmt) : M Unit := do
  let HasElse := !ElseStmts.isEmpty
  let IfBB ← createBasicBlock
  let ElseBB ← if HasElse then createBasicBlock else pure 0
  let AfterIfBB ← createBasicBlock
  let C ← emitExpr E fuel Cond
  CreateCondBr C IfBB (if HasElse then ElseBB else AfterIfBB)
  let s ← M.get
  sealBlock E fuel s.Curr
  setCurr IfBB
  emit IfStmts
  let s1 ← M.get
  if (s1.getTerminator s1.Curr).isNone then CreateBr AfterIfBB
  sealBlock E fuel s1.Curr
  if HasElse then do
    setCurr ElseBB
    emit ElseStmts
    let s2 ← M.get
    if (s2.getTerminator s2.Curr).isNone then CreateBr AfterIfBB
    sealBlock E fuel s2.Curr
  setCurr AfterIfBB

/-- `CGProcedure::emitStmt(WhileStatement *)`. -/
def emitWhileStatement (E : Env) (fuel : Nat) (emit : List Stmt → M Unit) (Cond : Expr)
    (WhileStmts : List Stmt) : M Unit := do
  let WhileBodyBB ← createBasicBlock
  let AfterWhileBB ← createBasicBlock
  let s ← M.get
  let WhileCondBB ←
    if s.blockEmpty s.Curr then pure s.Curr
    else do
      let BB ← createBasicBlock
      CreateBr BB
      sealBlock E fuel s.Curr
      setCurr BB
      pure BB
  let C ← emitExpr E fuel Cond
  CreateCondBr C WhileBodyBB AfterWhileBB
  setCurr WhileBodyBB
  emit WhileStmts
  CreateBr WhileCondBB
  let s1 ← M.get
  sealBlock E fuel s1.Curr
  sealBlock E fuel WhileCondBB
  setCurr AfterWhileBB

/-- `CGProcedure::emitStmt(ReturnStatement *)`. -/
def emitReturnStatement (E : Env) (fuel : Nat) (RetVal : Option Expr) : M Unit := do
  match RetVal with
  | some X =>
    let V ← emitExpr E fuel X
    let _ ← Insert .Ret .void [V] []
    pure ()
  | none =>
    let _ ← Insert .Ret .void [] []
    pure ()

/-- The dispatch in the body of the loop of `CGProcedure::emit`. -/
def emitStmt (E : Env) (fuel : Nat) (emit : List Stmt → M Unit) : Stmt → M Unit
  | .AssignmentStatement D Selectors X => emitAssignmentStatement E fuel D Selectors X
  | .ProcedureCallStatement => M.throw .fatalNotImplemented
  | .IfStatement Cond IfStmts ElseStmts => emitIfStatement E fuel emit Cond IfStmts ElseStmts
  | .WhileStatement Cond WhileStmts => emitWhileStatement E fuel emit Cond WhileStmts
  | .ReturnStatement RetVal => emitReturnStatement E fuel RetVal

/-- Run `f` on every statement, in order. -/
def forEachStmt (f : Stmt → M Unit) : List Stmt → M Unit
  | [] => pure ()
  | S :: Ss => do
    f S
    forEachStmt f Ss

/-- `CGProcedure::emit`; the first argument bounds the nesting depth of the
statements, of their expressions and of the reads through predecessor
blocks. -/
def emit (E : Env) : Nat → List Stmt → M Unit
  | 0 => fun _ => M.throw .outOfFuel
  | fuel + 1 => fun Stmts => forEachStmt (emitStmt E fuel (emit E fuel)) Stmts

/-- The loop of `run` over the arguments of the function. -/
def runFormalParams : List Decl → Nat → M Unit
  | [], _ => pure ()
  | FP :: rest, Idx => do
    M.modify fun t =>
      { t with FormalParams := fun d => if d = FP then some (.arg Idx) else t.FormalParams d }
    let s ← M.get
    writeLocalVariable s.Curr FP (some (.arg Idx))
    runFormalParams rest (Idx + 1)

/-- The loop of `run` over the local declarations. -/
def runDecls : List Decl → M Unit
  | [] => pure ()
  | D :: rest => do
    match D.kind with
    | .Var _ =>
      let Ty ← mapType D
      if Ty = .aggregate then do
        let Val ← Insert .Alloca .ptr [] []
        let s ← M.get
        writeLocalVariable s.Curr D (some Val)
    | _ => pure ()
    runDecls rest

/-- The types computed by `createFunctionType`. -/
def createFunctionType : List Decl → M (List Ty)
  | [] => pure []
  | FP :: rest => do
    let Ty ← mapType FP
    let r ← createFunctionType rest
    pure (Ty :: r)

/-- `CGProcedure::run(ProcedureDeclaration *)` as a state transformer. -/
def runM (E : Env) (fuel : Nat) (Proc : ProcedureDeclaration) : M Unit := do
  match Proc.RetType with
  | some none => M.throw .fatalUnsupportedType
  | _ => pure ()
  let ParamTypes ← createFunctionType Proc.FormalParams
  M.modify fun t => { t with argTys := ParamTypes }
  let BB ← createBasicBlock
  setCurr BB
  runFormalParams Proc.FormalParams 0
  runDecls Proc.Decls
  emit E fuel Proc.Stmts
  let s ← M.get
  if (s.getTerminator s.Curr).isNone then do
    let _ ← Insert .Ret .void [] []
    pure ()
  sealBlock E fuel s.Curr

/-- `CGProcedure::run(ProcedureDeclaration *)` on a fresh `CGProcedure`. -/
def run (E : Env) (fuel : Nat) (Proc : ProcedureDeclaration) : Res Unit :=
  runM E fuel Proc CGState.init

/-! ## The constant folder of the IRBuilder on integer constants -/

/-- The signed reading of an unsigned `bits`-bit number. -/
def toSigned (bits val : Nat) : Int :=
  if val < 2 ^ (bits - 1) then (val : Int) else (val : Int) - 2 ^ bits

/-- The `bits`-bit representative of an integer. -/
def ofSigned (bits : Nat) (v : Int) : Nat :=
  (v % 2 ^ bits).toNat

/-- `ConstantFoldBinaryInstruction` / `ConstantFoldCompareInstruction` on
two `ConstantInt`s of width `b`. -/
def foldInt (op : Opcode) (b x y : Nat) : Option Value :=
  match op with
  | .Add => some (.constInt b ((x + y) % 2 ^ b))
  | .Sub => some (.constInt b ((x + 2 ^ b - y % 2 ^ b) % 2 ^ b))
  | .Mul => some (.constInt b ((x * y) % 2 ^ b))
  | .SDiv =>
    if y = 0 ∨ (y = 2 ^ b - 1 ∧ x = 2 ^ (b - 1)) then some (.poison (.int b))
    else some (.constInt b (ofSigned b (Int.tdiv (toSigned b x) (toSigned b y))))
  | .SRem =>
    if y = 0 ∨ (y = 2 ^ b - 1 ∧ x = 2 ^ (b - 1)) then some (.poison (.int b))
    else some (.constInt b (ofSigned b (Int.tmod (toSigned b x) (toSigned b y))))
  | .ICmp .eq => some (.constInt 1 (if x = y then 1 else 0))
  | .ICmp .ne => some (.constInt 1 (if x = y then 0 else 1))
  | .ICmp .slt => some (.constInt 1 (if toSigned b x < toSigned b y then 1 else 0))
  | .ICmp .sle => some (.constInt 1 (if toSigned b x ≤ toSigned b y then 1 else 0))
  | .ICmp .sgt => some (.constInt 1 (if toSigned b x > toSigned b y then 1 else 0))
  | .ICmp .sge => some (.constInt 1 (if toSigned b x ≥ toSigned b y then 1 else 0))
  | .And => some (.constInt b (Nat.land x y))
  | .Or => some (.constInt b (Nat.lor x y))
  | .Xor => some (.constInt b (Nat.xor x y))
  | _ => none

/-- The folder of the `IRBuilder` as used for the evaluations below: two
integer constants of the same width fold; every other operation is
inserted as an instruction (LLVM also folds some expressions over `undef`,
`poison` and global addresses; no evaluation below meets one). -/
def ConstantFolder (op : Opcode) (vs : List Value) : Option Value :=
  match vs with
  | [.constInt b x, .constInt b' y] => if b = b' then foldInt op b x y else none
  | _ => none

/-- The LLVM behaviours used for the evaluations below: `IncompletePhis`
visited in insertion order, integer constant folding. -/
def llvmEnv : Env where
  order := fun l => l
  order_perm := fun l => List.Perm.refl l
  fold := ConstantFolder
  fold_isConstant := by
    intro op vs v h
    unfold ConstantFolder at h
    split at h
    · split at h
      · unfold foldInt at h
        split at h <;> first
          | (split at h <;> (cases h; rfl))
          | (cases h; rfl)
          | cases h
      · cases h
    · cases h

/-! ## tinylang lexer (`tinylang/lib/Lexer/Lexer.cpp`) -/

/-- Modelled from the spec: the token kinds of `TokenKinds.def`, which is
not in the source tree; these are the kinds the lexer, the parser and the
code generator name (`tok::...`). -/
inductive TokenKind
  | unknown | eof | identifier | integer_literal | string_literal
  | plus | minus | star | slash | colonequal | period | comma | semi | colon
  | equal | hash | less | lessequal | greater | greaterequal
  | l_paren | r_paren | l_square | r_square | caret
  | kw_AND | kw_ARRAY | kw_BEGIN | kw_CONST | kw_DIV | kw_DO | kw_ELSE | kw_END
  | kw_FROM | kw_IF | kw_IMPORT | kw_MOD | kw_MODULE | kw_NOT | kw_OF | kw_OR
  | kw_POINTER | kw_PROCEDURE | kw_RECORD | kw_RETURN | kw_THEN | kw_TO | kw_TYPE
  | kw_VAR | kw_WHILE
  deriving DecidableEq, Repr

/-- Modelled from the spec: the keyword table that `KeywordFilter::addKeywords`
builds from `TokenKinds.def` (not in the source tree); the macro
`KEYWORD(NAME, FLAGS)` enters the spelling `NAME` for `tok::kw_NAME`. -/
def keywordTable : List (List Char × TokenKind) :=
  [("AND".toList, .kw_AND), ("ARRAY".toList, .kw_ARRAY), ("BEGIN".toList, .kw_BEGIN),
   ("CONST".toList, .kw_CONST), ("DIV".toList, .kw_DIV), ("DO".toList, .kw_DO),
   ("ELSE".toList, .kw_ELSE), ("END".toList, .kw_END), ("FROM".toList, .kw_FROM),
   ("IF".toList, .kw_IF), ("IMPORT".toList, .kw_IMPORT), ("MOD".toList, .kw_MOD),
   ("MODULE".toList, .kw_MODULE), ("NOT".toList, .kw_NOT), ("OF".toList, .kw_OF),
   ("OR".toList, .kw_OR), ("POINTER".toList, .kw_POINTER),
   ("PROCEDURE".toList, .kw_PROCEDURE), ("RECORD".toList, .kw_RECORD),
   ("RETURN".toList, .kw_RETURN), ("THEN".toList, .kw_THEN), ("TO".toList, .kw_TO),
   ("TYPE".toList, .kw_TYPE), ("VAR".toList, .kw_VAR), ("WHILE".toList, .kw_WHILE)]

/-- `KeywordFilter::getKeyword`. -/
def getKeyword (Name : List Char) (DefaultTokenCode : TokenKind) : TokenKind :=
  match keywordTable.lookup Name with
  | some K => K
  | none => DefaultTokenCode

namespace charinfo

/-- `charinfo::isASCII`. -/
def isASCII (Ch : Char) : Bool := Ch.toNat ≤ 127

/-- `charinfo::isVerticalWhitespace`. -/
def isVerticalWhitespace (Ch : Char) : Bool :=
  isASCII Ch && (Ch == '\r' || Ch == '\n')

/-- `charinfo::isHorizontalWhitespace` (`'\f'` is 12, `'\v'` is 11). -/
def isHorizontalWhitespace (Ch : Char) : Bool :=
  isASCII Ch && (Ch == ' ' || Ch == '\t' || Ch == Char.ofNat 12 || Ch == Char.ofNat 11)

/-- `charinfo::isWhitespace`. -/
def isWhitespace (Ch : Char) : Bool :=
  isHorizontalWhitespace Ch || isVerticalWhitespace Ch

/-- `charinfo::isDigit`. -/
def isDigit (Ch : Char) : Bool :=
  isASCII Ch && decide ('0'.toNat ≤ Ch.toNat) && decide (Ch.toNat ≤ '9'.toNat)

/-- `charinfo::isHexDigit`. -/
def isHexDigit (Ch : Char) : Bool :=
  isASCII Ch && (isDigit Ch || (decide ('A'.toNat ≤ Ch.toNat) && decide (Ch.toNat ≤ 'F'.toNat)))

/-- `charinfo::isIdentifierHead`. -/
def isIdentifierHead (Ch : Char) : Bool :=
  isASCII Ch &&
    ((Ch == '_' || (decide ('A'.toNat ≤ Ch.toNat) && decide (Ch.toNat ≤ 'Z'.toNat))) ||
      (decide ('a'.toNat ≤ Ch.toNat) && decide (Ch.toNat ≤ 'z'.toNat)))

/-- `charinfo::isIdentifierBody`. -/
def isIdentifierBody (Ch : Char) : Bool :=
  isIdentifierHead Ch || isDigit Ch

end charinfo

/-- Modelled from the spec: the diagnostics of `Diagnostic.def` (not in the
source tree) that the lexer and the parser report; all of them have kind
`DK_Error`. -/
inductive Diag
  | err_expected
  | err_hex_digit_in_decimal
  | err_unterminated_char_or_string
  | err_unterminated_block_comment
  deriving DecidableEq, Repr

/-- `DiagnosticsEngine`: the error counter, and the reports made (with
their location) in order. -/
structure DiagnosticsEngine where
  NumErrors : Nat
  reports : List (Nat × Diag)
  deriving DecidableEq, Repr

/-- `DiagnosticsEngine::report` for a diagnostic of kind `DK_Error`. -/
def DiagnosticsEngine.report (D : DiagnosticsEngine) (Loc : Nat) (DiagID : Diag) :
    DiagnosticsEngine :=
  { NumErrors := D.NumErrors + 1, reports := D.reports ++ [(Loc, DiagID)] }

/-- `Token`: `Ptr` is the offset of the token in the buffer. -/
structure Token where
  Ptr : Nat
  Length : Nat
  Kind : TokenKind
  deriving DecidableEq, Repr

/-- `Lexer`: the buffer (its terminating NUL is implicit), the cursor as an
offset, and the diagnostics engine it shares with the parser. -/
structure Lexer where
  CurBuf : List Char
  CurPtr : Nat
  Diags : DiagnosticsEngine
  deriving DecidableEq, Repr

namespace Lexer

/-- The character `*P`; the terminating NUL is read at and behind the end of
the buffer. -/
def charAt (L : Lexer) (P : Nat) : Char :=
  L.CurBuf.getD P (Char.ofNat 0)

/-- `Lexer::formToken`. -/
def formToken (L : Lexer) (TokEnd : Nat) (Kind : TokenKind) : Lexer × Token :=
  ({ L with CurPtr := TokEnd }, { Ptr := L.CurPtr, Length := TokEnd - L.CurPtr, Kind := Kind })

/-- The number of leading characters of `cs` that satisfy `p`. -/
def span (p : Char → Bool) (cs : List Char) : Nat :=
  (cs.takeWhile p).length

/-- `Lexer::identifier`. -/
def identifier (L : Lexer) : Lexer × Token :=
  let End := L.CurPtr + 1 + span charinfo.isIdentifierBody (L.CurBuf.drop (L.CurPtr + 1))
  let Name := (L.CurBuf.drop L.CurPtr).take (End - L.CurPtr)
  L.formToken End (getKeyword Name .identifier)

/-- `Lexer::number`. -/
def number (L : Lexer) : Lexer × Token :=
  let run := (L.CurBuf.drop (L.CurPtr + 1)).takeWhile
    fun c => c != Char.ofNat 0 && charinfo.isHexDigit c
  let IsHex := run.any fun c => !charinfo.isDigit c
  let End := L.CurPtr + 1 + run.length
  if L.charAt End = 'H' then L.formToken (End + 1) .integer_literal
  else
    let L' := if IsHex then { L with Diags := L.Diags.report L.CurPtr .err_hex_digit_in_decimal }
      else L
    L'.formToken End .integer_literal

/-- `Lexer::string`. -/
def string (L : Lexer) : Lexer × Token :=
  let Start := L.charAt L.CurPtr
  let End := L.CurPtr + 1 + span
    (fun c => c != Char.ofNat 0 && c != Start && !charinfo.isVerticalWhitespace c)
    (L.CurBuf.drop (L.CurPtr + 1))
  let L' := if charinfo.isVerticalWhitespace (L.charAt End)
    then { L with Diags := L.Diags.report L.CurPtr .err_unterminated_char_or_string }
    else L
  L'.formToken (End + 1) .string_literal

/-- The loop of `Lexer::comment` on the text from `End` on: the final
`End`, and whether the loop stopped at the terminating NUL. -/
def commentLoop : List Char → Nat → Nat → Nat × Bool
  | [], _, End => (End, true)
  | '(' :: '*' :: rest, Level, End =>
    if Level = 0 then (End, false) else commentLoop rest (Level + 1) (End + 2)
  | '*' :: ')' :: rest, Level, End =>
    if Level = 0 then (End, false) else commentLoop rest (Level - 1) (End + 2)
  | c :: rest, Level, End =>
    if c = Char.ofNat 0 then (End, true)
    else if Level = 0 then (End, false)
    else commentLoop rest Level (End + 1)

/-- `Lexer::comment`. -/
def comment (L : Lexer) : Lexer :=
  let r := commentLoop (L.CurBuf.drop (L.CurPtr + 2)) 1 (L.CurPtr + 2)
  let L' := if r.2 then { L with Diags := L.Diags.report L.CurPtr .err_unterminated_block_comment }
    else L
  { L' with CurPtr := r.1 }

/-- `Lexer::next`, writing into the token `Result`; the first argument
bounds the number of comments skipped.  For `tok::eof` and `tok::unknown` the
source only sets the kind of `Result`. -/
def nextFuel : Nat → Lexer → Token → Option (Lexer × Token)
  | 0, _, _ => none
  | fuel + 1, L0, Result =>
    let skipped := span (fun c => c != Char.ofNat 0 && charinfo.isWhitespace c)
      (L0.CurBuf.drop L0.CurPtr)
    let L : Lexer := { L0 with CurPtr := L0.CurPtr + skipped }
    let c := L.charAt L.CurPtr
    if c = Char.ofNat 0 then some (L, { Result with Kind := .eof })
    else if charinfo.isIdentifierHead c then some L.identifier
    else if charinfo.isDigit c then some L.number
    else if c = '"' ∨ c = '\'' then some L.string
    else if c = '=' then some (L.formToken (L.CurPtr + 1) .equal)
    else if c = '#' then some (L.formToken (L.CurPtr + 1) .hash)
    else if c = '+' then some (L.formToken (L.CurPtr + 1) .plus)
    else if c = '-' then some (L.formToken (L.CurPtr + 1) .minus)
    else if c = '*' then some (L.formToken (L.CurPtr + 1) .star)
    else if c = '/' then some (L.formToken (L.CurPtr + 1) .slash)
    else if c = ',' then some (L.formToken (L.CurPtr + 1) .comma)
    else if c = '.' then some (L.formToken (L.CurPtr + 1) .period)
    else if c = ';' then some (L.formToken (L.CurPtr + 1) .semi)
    else if c = ')' then some (L.formToken (L.CurPtr + 1) .r_paren)
    else if c = '(' then
      if L.charAt (L.CurPtr + 1) = '*' then nextFuel fuel L.comment Result
      else some (L.formToken (L.CurPtr + 1) .l_paren)
    else if c = ':' then
      if L.charAt (L.CurPtr + 1) = '=' then some (L.formToken (L.CurPtr + 2) .colonequal)
      else some (L.formToken (L.CurPtr + 1) .colon)
    else if c = '<' then
      if L.charAt (L.CurPtr + 1) = '=' then some (L.formToken (L.CurPtr + 2) .lessequal)
      else some (L.formToken (L.CurPtr + 1) .less)
    else if c = '>' then
      if L.charAt (L.CurPtr + 1) = '=' then some (L.formToken (L.CurPtr + 2) .greaterequal)
      else some (L.formToken (L.CurPtr + 1) .greater)
    else some (L, { Result with Kind := .unknown })

/-- `Lexer::next`: every comment consumes at least two characters, so the
recursion is bounded by the length of the buffer. -/
def next (L : Lexer) (Result : Token) : Option (Lexer × Token) :=
  nextFuel (L.CurBuf.length + 1) L Result

end Lexer

/-! ## tinylang parser (`Parser.h`, `Parser::parse`, `Parser::parseCompilationUnit`) -/

/-- `Parser`: the lexer, the lookahead token, and the module declaration
handed out by `Sema::actOnModuleDeclaration` (location and length of its
name), `none` for a null pointer. -/
structure Parser where
  Lex : Lexer
  Tok : Token
  ModDecl : Option (Nat × Nat)
  deriving DecidableEq, Repr

/-- The productions called by `parseCompilationUnit` and the semantic action
at the end of a module.  They are parameters here; a result `none` means
that the production does not return. -/
structure Productions where
  parseImport : Parser → Option (Bool × Parser)
  parseBlock : Parser → Option (Bool × Parser)
  actOnModuleDeclaration : Parser → Parser

namespace Parser

/-- `Parser::advance`. -/
def advance (P : Parser) : Option Parser :=
  match P.Lex.next P.Tok with
  | some (L, T) => some { P with Lex := L, Tok := T }
  | none => none

/-- `Parser::expect`. -/
def expect (P : Parser) (ExpectedTok : TokenKind) : Bool × Parser :=
  if P.Tok.Kind = ExpectedTok then (false, P)
  else
    (true, { P with Lex := { P.Lex with Diags := P.Lex.Diags.report P.Tok.Ptr .err_expected } })

/-- `Parser::consume`. -/
def consume (P : Parser) (ExpectedTok : TokenKind) : Option (Bool × Parser) :=
  if P.Tok.Kind = ExpectedTok then
    match P.advance with
    | some P' => some (false, P')
    | none => none
  else some (true, P)

/-- The recovery of `parseCompilationUnit`:
`while (!Tok.is(tok::eof)) advance(); return false;`.  The first argument
bounds the number of iterations. -/
def skipToEof : Nat → Parser → Option (Bool × Parser)
  | 0, _ => none
  | fuel + 1, P =>
    if P.Tok.Kind = .eof then some (false, P)
    else
      match P.advance with
      | some P' => skipToEof fuel P'
      | none => none

/-- The loop of `parseCompilationUnit` over the imports. -/
def parseImports (G : Productions) : Nat → Parser → Option (Bool × Parser)
  | 0, _ => none
  | fuel + 1, P =>
    if P.Tok.Kind = .kw_FROM ∨ P.Tok.Kind = .kw_IMPORT then
      match G.parseImport P with
      | some (true, P') => some (true, P')
      | some (false, P') => parseImports G fuel P'
      | none => none
    else some (false, P)

/-- `Parser::parseCompilationUnit`; the first argument bounds the number of
iterations of each loop. -/
def parseCompilationUnit (G : Productions) (fuel : Nat) (P : Parser) :
    Option (Bool × Parser) :=
  match P.consume .kw_MODULE with
  | none => none
  | some (true, P1) => skipToEof fuel P1
  | some (false, P1) =>
    match P1.expect .identifier with
    | (true, P2) => skipToEof fuel P2
    | (false, P2) =>
      let P3 : Parser := { P2 with ModDecl := some (P2.Tok.Ptr, P2.Tok.Length) }
      match P3.advance with
      | none => none
      | some P4 =>
        match P4.consume .semi with
        | none => none
        | some (true, P5) => skipToEof fuel P5
        | some (false, P5) =>
          match parseImports G fuel P5 with
          | none => none
          | some (true, P6) => skipToEof fuel P6
          | some (false, P6) =>
            match G.parseBlock P6 with
            | none => none
            | some (true, P7) => skipToEof fuel P7
            | some (false, P7) =>
              match P7.expect .identifier with
              | (true, P8) => skipToEof fuel P8
              | (false, P8) =>
                match (G.actOnModuleDeclaration P8).advance with
                | none => none
                | some P9 =>
                  match P9.consume .period with
                  | none => none
                  | some (true, P10) => skipToEof fuel P10
                  | some (false, P10) => some (false, P10)

/-- The constructor `Parser::Parser(Lexer &, Sema &)` on a buffer. -/
def create (Buffer : List Char) : Option Parser :=
  advance
    { Lex := { CurBuf := Buffer, CurPtr := 0, Diags := { NumErrors := 0, reports := [] } }
      Tok := { Ptr := 0, Length := 0, Kind := .unknown }
      ModDecl := none }

/-- `Parser::parse` on a buffer: the module declaration returned and the
diagnostics engine afterwards, or `none` when `parse` does not return within
`fuel` iterations of a loop. -/
def parse (G : Productions) (fuel : Nat) (Buffer : List Char) :
    Option (Option (Nat × Nat) × DiagnosticsEngine) :=
  match create Buffer with
  | none => none
  | some P =>
    match parseCompilationUnit G fuel P with
    | none => none
    | some (_, P') => some (P'.ModDecl, P'.Lex.Diags)

end Parser

/-! ## Notions used in the statements about `optimizePhi` -/

/-- The function is finite: instruction numbers from `numInsts` on are
unused. -/
def CGState.Finite (s : CGState) : Prop :=
  ∀ i, s.numInsts ≤ i → s.insts i = none

/-- The number of phi nodes of the function. -/
def CGState.phiCount (s : CGState) : Nat :=
  (List.range s.numInsts).countP s.isPHI

/-- The opcode of instruction `i`, when it is live. -/
def CGState.opOf (s : CGState) (i : InstId) : Option Opcode :=
  (s.insts i).map fun x => x.op

/-- From `s` to `s'` no instruction has been created and none has changed
its opcode: instructions have only been erased or rewritten. -/
def CGState.Shrinks (s s' : CGState) : Prop :=
  s'.numInsts = s.numInsts ∧ ∀ i, s'.opOf i = s.opOf i ∨ s'.opOf i = none

/-- Instruction `i` has been erased and nothing refers to it: no operand and
no recorded definition is its result. -/
def CGState.Gone (s : CGState) (i : InstId) : Prop :=
  s.insts i = none ∧
  (∀ j y, s.insts j = some y → Value.inst i ∉ y.operands) ∧
  (∀ b d, (s.CurrentDef b).Defs d ≠ some (Value.inst i))

/-- The incoming values contain two different values other than the phi
itself. -/
def distinctIncoming (Phi : InstId) (vs : List Value) : Prop :=
  ∃ v ∈ vs, ∃ w ∈ vs, v ≠ w ∧ v ≠ Value.inst Phi ∧ w ≠ Value.inst Phi

/-- The value `V` is the one incoming value other than the phi itself, or
the undefined value of type `ty` when there is none. -/
def uniqueIncoming (Phi : InstId) (ty : Ty) (vs : List Value) (V : Value) : Prop :=
  V ≠ Value.inst Phi ∧ (∀ v ∈ vs, v = Value.inst Phi ∨ v = V) ∧
  (V ∈ vs ∨ (V = Value.undef ty ∧ ∀ v ∈ vs, v = Value.inst Phi))

/-! ## Notions used in the statements about control flow -/

/-- No branch edge into a block is created after the block has been sealed:
of any two events, the earlier one is not the sealing of a block into which
the later one is an edge. -/
def NoEdgeAfterSeal (tr : List Event) : Prop :=
  tr.Pairwise fun earlier later => ∀ src b, earlier = Event.seal b → later ≠ Event.edge src b

/-- The control-flow part of the state is the same in `s` and `s'`: the
events so far, the blocks, the current block, the branches into each block
and the sealed flags. -/
def SameControl (s s' : CGState) : Prop :=
  s'.trace = s.trace ∧ s'.numBlocks = s.numBlocks ∧ s'.Curr = s.Curr ∧
  s'.blockUses = s.blockUses ∧ ∀ b, (s'.CurrentDef b).Sealed = (s.CurrentDef b).Sealed

/-- The state transformer leaves the control-flow part of the state as it
is, whether it returns or fails. -/
def KeepsControl {α : Type} (m : M α) : Prop :=
  ∀ s, SameControl s (m s).state

/-- The control-flow invariant between two statements: no edge has been
created into a sealed block so far, the current block exists and has not
been sealed, and only existing blocks have been sealed. -/
def ControlInv (s : CGState) : Prop :=
  NoEdgeAfterSeal s.trace ∧ Event.seal s.Curr ∉ s.trace ∧ s.Curr < s.numBlocks ∧
  ∀ b, Event.seal b ∈ s.trace → b < s.numBlocks

/-- What lowering statements does to the control flow, from `s` to `s'`: the
invariant holds again, the current block is the old one or a new one, the
blocks sealed meanwhile are the old current block and new blocks, and of
these every one but the new current block has been sealed. -/
structure ControlStep (s s' : CGState) : Prop where
  inv : ControlInv s'
  le : s.numBlocks ≤ s'.numBlocks
  curr : s'.Curr = s.Curr ∨ s.numBlocks ≤ s'.Curr
  origin : ∀ b, Event.seal b ∈ s'.trace →
    Event.seal b ∈ s.trace ∨ b = s.Curr ∨ s.numBlocks ≤ b
  mono : ∀ b, Event.seal b ∈ s.trace → Event.seal b ∈ s'.trace
  closed : ∀ b, (b = s.Curr ∨ s.numBlocks ≤ b) → b < s'.numBlocks →
    b = s'.Curr ∨ Event.seal b ∈ s'.trace

/-- The outcome `r` satisfies `Q` when it is a result, and when it is a
failure no edge has been created into a sealed block. -/
def OkOrSafe {α : Type} (Q : α → CGState → Prop) (r : Res α) : Prop :=
  match r with
  | .ok a s' => Q a s'
  | .fail _ s' => NoEdgeAfterSeal s'.trace

/-- The state transformer, when it returns, has kept `I`. -/
def Preserves (I : CGState → Prop) {α : Type} (m : M α) : Prop :=
  ∀ s, I s → ∀ a s', m s = .ok a s' → I s'

/-- The steps of `run` keep the property `I` of the state: the branches when
their targets exist and have not been sealed, the other steps always. -/
structure StepsKeep (E : Env) (I : CGState → Prop) : Prop where
  newBlock : ∀ s, I s → I { s with numBlocks := s.numBlocks + 1 }
  setCurr : ∀ s BB, I s → I { s with Curr := BB }
  br : ∀ s s' Dest, I s → Event.seal Dest ∉ s.trace → Dest < s.numBlocks →
    CreateBr Dest s = .ok () s' → I s'
  condBr : ∀ s s' C T F, I s → Event.seal T ∉ s.trace → Event.seal F ∉ s.trace →
    T < s.numBlocks → F < s.numBlocks → CreateCondBr C T F s = .ok () s' → I s'
  sealBlock : ∀ fuel BB, Preserves I (tinylang.sealBlock E fuel BB)
  expr : ∀ fuel e, Preserves I (emitExpr E fuel e)
  assign : ∀ fuel D Sel X, Preserves I (emitAssignmentStatement E fuel D Sel X)
  ret : ∀ fuel R, Preserves I (emitReturnStatement E fuel R)
  insertRet : Preserves I (Insert .Ret .void [] [])
  fnType : ∀ l, Preserves I (createFunctionType l)
  argTys : ∀ s l, I s → I { s with argTys := l }
  params : ∀ l k, Preserves I (runFormalParams l k)
  decls : ∀ l, Preserves I (runDecls l)

/-- The state transformer, started between two statements in a state with
`I`, either returns after a `ControlStep` in a state with `I`, or fails in a
state in which still no edge has been created into a sealed block. -/
def LowersSafely (I : CGState → Prop) {α : Type} (m : M α) : Prop :=
  ∀ s, ControlInv s → I s → OkOrSafe (fun _ s' => ControlStep s s' ∧ I s') (m s)

/-- The control-flow facts in the middle of lowering one statement that
started in state `s`: no edge has been created into a sealed block, the
blocks sealed since `s` are the current block of `s` and new blocks, the
blocks of `pend` (the targets of branches still to be created, and the
current block) exist and have not been sealed, and they are the only ones
among the current block of `s` and the new blocks. -/
structure Lowering (I : CGState → Prop) (s : CGState) (pend : List BlockId)
    (t : CGState) : Prop where
  noEdge : NoEdgeAfterSeal t.trace
  le : s.numBlocks ≤ t.numBlocks
  lt : ∀ b, Event.seal b ∈ t.trace → b < t.numBlocks
  origin : ∀ b, Event.seal b ∈ t.trace →
    Event.seal b ∈ s.trace ∨ b = s.Curr ∨ s.numBlocks ≤ b
  unsealed : ∀ p ∈ pend, Event.seal p ∉ t.trace ∧ p < t.numBlocks
  mono : ∀ b, Event.seal b ∈ s.trace → Event.seal b ∈ t.trace
  closed : ∀ b, (b = s.Curr ∨ s.numBlocks ≤ b) → b < t.numBlocks →
    b ∈ pend ∨ Event.seal b ∈ t.trace
  inv : I t

/-! ## Notions used in the statements about the incoming blocks of phi nodes -/

/-- What `predecessors` reads of a user `u` of a block: the parent of `u`
when `u` is a live terminator. -/
def CGState.termParent (s : CGState) (u : InstId) : Option BlockId :=
  match s.insts u with
  | some x => if x.op.isTerminator then some x.parent else none
  | none => none

/-- The state of the phi nodes during code generation; `F` is the phi that
`addPhiOperands` is filling, if any.  Every other live phi either sits in a
block whose sealing has started and has the predecessors of that block as its
incoming blocks, or has no incoming block and is recorded in the
`IncompletePhis` of its block. -/
structure PhiInv (F : Option InstId) (s : CGState) : Prop where
  fresh : ∀ i, s.numInsts ≤ i → s.insts i = none
  len : ∀ i x, s.insts i = some x → x.op = Opcode.PHI → x.operands.length = x.blocks.length
  blocks : ∀ i x, s.insts i = some x → x.op = Opcode.PHI → F ≠ some i →
    (Event.seal x.parent ∈ s.trace ∧ x.blocks = s.predecessors x.parent) ∨
    (x.blocks = [] ∧ ∃ d, (i, d) ∈ (s.CurrentDef x.parent).IncompletePhis)
  pending : ∀ b i d, (i, d) ∈ (s.CurrentDef b).IncompletePhis →
    (s.CurrentDef b).Defs d ≠ none ∧ i < s.numInsts ∧
    ∀ x, s.insts i = some x → x.op = Opcode.PHI ∧ x.parent = b
  nodup : ∀ b, ((s.CurrentDef b).IncompletePhis.map Prod.fst).Nodup
  users : ∀ b j, j ∈ s.blockUses b → j < s.numInsts
  sealed : ∀ b, (s.CurrentDef b).Sealed = true →
    Event.seal b ∈ s.trace ∧ (s.CurrentDef b).IncompletePhis = []

/-- From `s` to `s'` instructions have only been rewritten in their operands
and use lists, phi nodes may have been erased, and recorded definitions have
been replaced or added: what `replaceAllUsesWith`, `eraseFromParent` on a phi
and `writeLocalVariable` do. -/
def CGState.Rewrites (s s' : CGState) : Prop :=
  s'.numInsts = s.numInsts ∧ s'.blockUses = s.blockUses ∧ s'.trace = s.trace ∧
  (∀ j x', s'.insts j = some x' → ∃ x, s.insts j = some x ∧ x'.op = x.op ∧
    x'.blocks = x.blocks ∧ x'.parent = x.parent ∧ x'.operands.length = x.operands.length) ∧
  (∀ j x, s.insts j = some x → s'.insts j = none → x.op = Opcode.PHI) ∧
  ∀ b, (s'.CurrentDef b).IncompletePhis = (s.CurrentDef b).IncompletePhis ∧
    (s'.CurrentDef b).Sealed = (s.CurrentDef b).Sealed ∧
    ∀ d, (s.CurrentDef b).Defs d ≠ none → (s'.CurrentDef b).Defs d ≠ none

/-- From `s` to `s'` a read of `D` has taken place: the instructions of `s`
are unchanged, and so are the incomplete phis of the blocks that had a
definition of `D`. -/
def CGState.Extends (D : Decl) (s s' : CGState) : Prop :=
  s.numInsts ≤ s'.numInsts ∧ (∀ j, j < s.numInsts → s'.insts j = s.insts j) ∧
  s'.blockUses = s.blockUses ∧ s'.trace = s.trace ∧
  ∀ b, (s'.CurrentDef b).Sealed = (s.CurrentDef b).Sealed ∧
    ((s.CurrentDef b).Defs D ≠ none →
      (s'.CurrentDef b).IncompletePhis = (s.CurrentDef b).IncompletePhis) ∧
    ∀ d, (s.CurrentDef b).Defs d ≠ none → (s'.CurrentDef b).Defs d ≠ none

/-- The state in which an unsealed block has got an empty phi for `D`. -/
def CGState.withEmptyPhi (s : CGState) (BB : BlockId) (D : Decl) (ty : Ty) : CGState :=
  { s with
    insts := fun j => if j = s.numInsts then
      some { op := .PHI, ty := ty, operands := [], blocks := [], parent := BB, uses := [] }
      else s.insts j
    numInsts := s.numInsts + 1
    blockInsts := fun b => if b = BB then s.numInsts :: s.blockInsts b else s.blockInsts b
    CurrentDef := fun b =>
      if b = BB then
        { Defs := fun d => if d = D then some (.inst s.numInsts) else (s.CurrentDef b).Defs d
          IncompletePhis := (s.CurrentDef b).IncompletePhis ++ [(s.numInsts, D)]
          Sealed := (s.CurrentDef b).Sealed }
      else s.CurrentDef b }

/-- From `s` to `s'` the phi `Phi` has been given incoming values read for
`D`, or has been optimized: the other instructions of `s` that are left have
their incoming blocks, the blocks have their predecessors, and the blocks
that had a definition of `D` have their incomplete phis. -/
def CGState.Fills (Phi : InstId) (D : Decl) (s s' : CGState) : Prop :=
  s.numInsts ≤ s'.numInsts ∧
  (∀ j x', j < s.numInsts → j ≠ Phi → s'.insts j = some x' →
    ∃ x, s.insts j = some x ∧ x'.blocks = x.blocks) ∧
  (∀ b, s'.predecessors b = s.predecessors b) ∧ s'.trace = s.trace ∧
  ∀ b, ((s.CurrentDef b).Defs D ≠ none →
      (s'.CurrentDef b).IncompletePhis = (s.CurrentDef b).IncompletePhis) ∧
    ∀ d, (s.CurrentDef b).Defs d ≠ none → (s'.CurrentDef b).Defs d ≠ none

/-- Between two statements: a block whose sealing has started has been
sealed, and no branch leads to a block that has not been created. -/
def Closed (s : CGState) : Prop :=
  (∀ b, Event.seal b ∈ s.trace → (s.CurrentDef b).Sealed = true) ∧
  ∀ b, s.numBlocks ≤ b → s.blockUses b = []

/-! ## Procedures used in the evaluations -/

namespace Example

/-- `VAR i : INTEGER` of the procedure. -/
def i : Decl := { id := 0, kind := .Var .proc, ty := some (.int 64) }

/-- `VAR x : INTEGER` of the procedure. -/
def x : Decl := { id := 1, kind := .Var .proc, ty := some (.int 64) }

/-- `VAR y : INTEGER` of the procedure. -/
def y : Decl := { id := 2, kind := .Var .proc, ty := some (.int 64) }

/-- Formal parameter `a : INTEGER`. -/
def a : Decl := { id := 10, kind := .Param false, ty := some (.int 64) }

/-- Formal parameter `b : INTEGER`. -/
def b : Decl := { id := 11, kind := .Param false, ty := some (.int 64) }

/-- Formal parameter `c : BOOLEAN`. -/
def c : Decl := { id := 12, kind := .Param false, ty := some (.int 1) }

/-- Formal parameter `d : BOOLEAN`. -/
def d : Decl := { id := 13, kind := .Param false, ty := some (.int 1) }

/-- Formal parameter `e : BOOLEAN`. -/
def e : Decl := { id := 14, kind := .Param false, ty := some (.int 1) }

/-- The expression `v` for a variable or parameter `v`. -/
def var (v : Decl) : Expr := .Designator v []

/-- The statement `v := n`. -/
def setConst (v : Decl) (n : Int) : Stmt := .AssignmentStatement v [] (.IntegerLiteral n)

/-- The statement `v := v + 1`. -/
def increment (v : Decl) : Stmt :=
  .AssignmentStatement v [] (.InfixExpression (var v) (.IntegerLiteral 1) .plus)

/-- The loop `WHILE i < 10 DO i := i + 1 END`. -/
def countToTen : Stmt :=
  .WhileStatement (.InfixExpression (var i) (.IntegerLiteral 10) .less) [increment i]

/-- `PROCEDURE p; VAR i : INTEGER;
BEGIN i := 0; WHILE i < 10 DO i := i + 1 END END p`. -/
def whileConstInit : ProcedureDeclaration :=
  { FormalParams := [], RetType := none, Decls := [i],
    Stmts := [setConst i 0, countToTen] }

/-- `PROCEDURE p(a, b : INTEGER); VAR i : INTEGER;
BEGIN i := a + b; WHILE i < 10 DO i := i + 1 END END p`. -/
def whileComputedInit : ProcedureDeclaration :=
  { FormalParams := [a, b], RetType := none, Decls := [i],
    Stmts := [.AssignmentStatement i [] (.InfixExpression (var a) (var b) .plus), countToTen] }

/-- `PROCEDURE p(c : BOOLEAN); VAR i : INTEGER;
BEGIN WHILE c DO i := i + 1 END END p`. -/
def whileFirst : ProcedureDeclaration :=
  { FormalParams := [c], RetType := none, Decls := [i],
    Stmts := [.WhileStatement (var c) [increment i]] }

/-- `PROCEDURE p(c, d, e : BOOLEAN); VAR x, y : INTEGER;
BEGIN WHILE c DO IF d THEN y := 1 ELSE y := 2 END; WHILE e DO x := x + 1 END END
END p`. -/
def whileIfWhile : ProcedureDeclaration :=
  { FormalParams := [c, d, e], RetType := none, Decls := [x, y],
    Stmts :=
      [.WhileStatement (var c)
        [.IfStatement (var d) [setConst y 1] [setConst y 2],
         .WhileStatement (var e) [increment x]]] }

/-- `PROCEDURE p(c : BOOLEAN); VAR x : INTEGER;
BEGIN IF c THEN x := 1 ELSE x := 2 END END p`. -/
def ifThenElse : ProcedureDeclaration :=
  { FormalParams := [c], RetType := none, Decls := [x],
    Stmts := [.IfStatement (var c) [setConst x 1] [setConst x 2]] }

/-- `PROCEDURE p(c, d : BOOLEAN; a : INTEGER); VAR x, y : INTEGER;
BEGIN IF c THEN x := 1 ELSE x := 2 END; IF d THEN y := a END END p`. -/
def ifThenRead : ProcedureDeclaration :=
  { FormalParams := [c, d, a], RetType := none, Decls := [x, y],
    Stmts :=
      [.IfStatement (var c) [setConst x 1] [setConst x 2],
       .IfStatement (var d) [.AssignmentStatement y [] (var a)] []] }

/-- A function with two phi nodes that refer to each other: `%0 = phi [%1]`
in block 0 and `%1 = phi [arg0, %0]` in block 1, with the users
`%2 = add %1, 1` and `%3 = add %0, 1`. -/
def phiPair : CGState :=
  { CGState.init with
    insts := fun j =>
      match j with
      | 0 => some { op := .PHI, ty := .int 64, operands := [.inst 1], blocks := [1],
                    parent := 0, uses := [(3, 0), (1, 1)] }
      | 1 => some { op := .PHI, ty := .int 64, operands := [.arg 0, .inst 0], blocks := [2, 0],
                    parent := 1, uses := [(0, 0), (2, 0)] }
      | 2 => some { op := .Add, ty := .int 64, operands := [.inst 1, .constInt 64 1],
                    blocks := [], parent := 1, uses := [] }
      | 3 => some { op := .Add, ty := .int 64, operands := [.inst 0, .constInt 64 1],
                    blocks := [], parent := 0, uses := [] }
      | _ => none
    numInsts := 4
    blockInsts := fun b =>
      match b with
      | 0 => [0, 3]
      | 1 => [1, 2]
      | _ => []
    numBlocks := 3
    argTys := [.int 64] }

end Example

end tinylang

namespace tinylang

/-! ## tinylang parser: the productions (`tinylang/lib/Parser/Parser.cpp`)

`Sema` is not in the source tree.  The parser only calls its actions and, in
one place (`parseQualident`), asks whether a declaration that `Sema` returned
is a module.  The model keeps, for every object that the parser receives from
a semantic action or hands to one by reference, the term of the action calls
that produced it; the one question asked of `Sema` is a parameter.  The
diagnostics that `Sema` may report are not part of the model: the
diagnostics engine holds the reports of the lexer and of the parser. -/

/-- `llvm::StringRef` into the buffer: offset and length. -/
abbrev StringRef := Nat × Nat

/-- `IdentList`: `std::vector<std::pair<SMLoc, StringRef>>`. -/
abbrev IdentList := List (Nat × StringRef)

/-- `OperatorInfo`. -/
structure OperatorInfo where
  Loc : Nat
  Kind : TokenKind
  IsUnspecified : Bool
  deriving DecidableEq, Repr

/-- The default constructor `OperatorInfo()`. -/
def OperatorInfo.unspecified : OperatorInfo :=
  { Loc := 0, Kind := .unknown, IsUnspecified := true }

/-- `fromTok` of `Parser.cpp`. -/
def fromTok (Tok : Token) : OperatorInfo :=
  { Loc := Tok.Ptr, Kind := Tok.Kind, IsUnspecified := false }

/-- `Token::getIdentifier`. -/
def Token.getIdentifier (Tok : Token) : StringRef := (Tok.Ptr, Tok.Length)

/-- `Token::getLiteralData`. -/
def Token.getLiteralData (Tok : Token) : StringRef := (Tok.Ptr, Tok.Length)

namespace Sema

/-- Modelled from the spec: a `Decl *` in the parser: null, or the result of
`Sema::actOnQualIdentPart(D, Loc, Name)`. -/
inductive Decl
  | nullptr
  | actOnQualIdentPart (D : Decl) (Loc : Nat) (Name : StringRef)
  deriving DecidableEq, Repr

mutual
/-- Modelled from the spec: an `Expr *` in the parser: null, or the result of
the semantic action named by the constructor on the arguments given; the
selector actions take the designator by reference and change it. -/
inductive Expr
  | nullptr
  | actOnIntegerLiteral (Loc : Nat) (LiteralData : StringRef)
  | actOnDesignator (D : Decl)
  | actOnFunctionCall (D : Decl) (Exprs : ExprList)
  | actOnExpression (Left Right : Expr) (Op : OperatorInfo)
  | actOnSimpleExpression (Left Right : Expr) (Op : OperatorInfo)
  | actOnTerm (Left Right : Expr) (Op : OperatorInfo)
  | actOnPrefixExpression (E : Expr) (Op : OperatorInfo)
  | actOnDereferenceSelector (E : Expr) (Loc : Nat)
  | actOnIndexSelector (E : Expr) (Loc : Nat) (IndexE : Expr)
  | actOnFieldSelector (E : Expr) (Loc : Nat) (Name : StringRef)
  deriving DecidableEq, Repr
/-- Modelled from the spec: an `ExprList` in the parser: empty, or the
result of `push_back`. -/
inductive ExprList
  | nil
  | push_back (Exprs : ExprList) (E : Expr)
  deriving DecidableEq, Repr
end

/-- Modelled from the spec: a `StmtList` in the parser: empty, or the list
after the semantic action named by the constructor has been called on it. -/
inductive StmtList
  | nil
  | actOnAssignment (Stmts : StmtList) (Loc : Nat) (Desig E : Expr)
  | actOnProcCall (Stmts : StmtList) (Loc : Nat) (D : Decl) (Exprs : ExprList)
  | actOnIfStatement (Stmts : StmtList) (Loc : Nat) (E : Expr) (IfStmts ElseStmts : StmtList)
  | actOnWhileStatement (Stmts : StmtList) (Loc : Nat) (E : Expr) (WhileStmts : StmtList)
  | actOnReturnStatement (Stmts : StmtList) (Loc : Nat) (E : Expr)
  deriving DecidableEq, Repr

/-- Modelled from the spec: a `FieldList` in the parser. -/
inductive FieldList
  | nil
  | actOnFieldDeclaration (Fields : FieldList) (Ids : IdentList) (D : Decl)
  deriving DecidableEq, Repr

/-- Modelled from the spec: a `FormalParamList` in the parser. -/
inductive FormalParamList
  | nil
  | actOnFormalParameterDeclaration (Params : FormalParamList) (Ids : IdentList) (D : Decl)
      (IsVar : Bool)
  deriving DecidableEq, Repr

/-- Modelled from the spec: a `DeclList` in the parser: empty, or the list
after the semantic action named by the constructor has been called on it.
The last constructor stands for the calls made for a procedure:
`actOnProcedureDeclaration(Loc, Name)`, `actOnProcedureHeading(D, Params,
RetType)`, `actOnProcedureDeclaration(D, EndLoc, EndName, Decls, Stmts)` and
`ParentDecls.push_back(D)`. -/
inductive DeclList
  | nil
  | actOnConstantDeclaration (Decls : DeclList) (Loc : Nat) (Name : StringRef) (E : Expr)
  | actOnAliasTypeDeclaration (Decls : DeclList) (Loc : Nat) (Name : StringRef) (D : Decl)
  | actOnPointerTypeDeclaration (Decls : DeclList) (Loc : Nat) (Name : StringRef) (D : Decl)
  | actOnArrayTypeDeclaration (Decls : DeclList) (Loc : Nat) (Name : StringRef) (E : Expr)
      (D : Decl)
  | actOnRecordTypeDeclaration (Decls : DeclList) (Loc : Nat) (Name : StringRef)
      (Fields : FieldList)
  | actOnVariableDeclaration (Decls : DeclList) (Ids : IdentList) (D : Decl)
  | actOnProcedureDeclaration (ParentDecls : DeclList) (Loc : Nat) (Name : StringRef)
      (Params : FormalParamList) (RetType : Decl) (EndLoc : Nat) (EndName : StringRef)
      (Decls : DeclList) (Stmts : StmtList)
  deriving DecidableEq, Repr

end Sema

/-- What the parser asks of `Sema`: `isa<ModuleDeclaration>(D)` for a
declaration `D` that `actOnQualIdentPart` returned. -/
structure Sema where
  isaModuleDeclaration : Sema.Decl → Bool

namespace Parser

/-- The lambdas `_errorhandler` of the productions other than
`parseCompilationUnit`, for the set `Sync` of token kinds:
`while (!Tok.isOneOf(Sync)) { advance(); if (Tok.is(tok::eof)) return true; }
return false;`.  The second argument bounds the number of iterations. -/
def _errorhandler (Sync : List TokenKind) : Nat → Parser → Option (Bool × Parser)
  | 0, _ => none
  | fuel + 1, P =>
    if P.Tok.Kind ∈ Sync then some (false, P)
    else
      match P.advance with
      | none => none
      | some P' => if P'.Tok.Kind = .eof then some (true, P') else _errorhandler Sync fuel P'

/-- The statement `advance();` followed by `Rest`. -/
def next {β : Type} (P : Parser) (Rest : Parser → Option (Bool × Parser × β)) :
    Option (Bool × Parser × β) :=
  match P.advance with
  | none => none
  | some P' => Rest P'

/-- The statement `if (Step) return _errorhandler();` followed by `Rest`, for
a step without output parameter (`expect`, `consume`); `Out` are the output
parameters of the production at this point. -/
def check {β : Type} (Step : Option (Bool × Parser)) (H : Parser → Option (Bool × Parser))
    (Out : β) (Rest : Parser → Option (Bool × Parser × β)) : Option (Bool × Parser × β) :=
  match Step with
  | none => none
  | some (true, P) =>
    match H P with
    | none => none
    | some (b, P') => some (b, P', Out)
  | some (false, P) => Rest P

/-- The statement `if (Step) return _errorhandler();` followed by `Rest`, for
a call of a production with an output parameter; `Out` gives the output
parameters of the calling production when the call has failed. -/
def call {α β : Type} (Step : Option (Bool × Parser × α))
    (H : Parser → Option (Bool × Parser)) (Out : α → β)
    (Rest : Parser → α → Option (Bool × Parser × β)) : Option (Bool × Parser × β) :=
  match Step with
  | none => none
  | some (true, P, a) =>
    match H P with
    | none => none
    | some (b, P') => some (b, P', Out a)
  | some (false, P, a) => Rest P a

/-- The `/*ERROR*/` branch of a production: `return _errorhandler();`. -/
def fail {β : Type} (P : Parser) (H : Parser → Option (Bool × Parser)) (Out : β) :
    Option (Bool × Parser × β) :=
  match H P with
  | none => none
  | some (b, P') => some (b, P', Out)

/-- Inside a loop of a production: leave the loop towards
`return _errorhandler();`.  A loop returns true when one of its steps has
failed, with the parser as it is then; the production then returns what its
error handler returns. -/
def raise (P : Parser) : Option (Bool × Parser) := some (true, P)

/-- The loop of `parseIdentList`. -/
def parseIdentListLoop : Nat → Parser → IdentList → Option (Bool × Parser × IdentList)
  | 0, _, _ => none
  | fuel + 1, P, Ids =>
    if P.Tok.Kind = .comma then
      next P fun P =>
      check (some (P.expect .identifier)) raise Ids fun P =>
      next P fun P' =>
      parseIdentListLoop fuel P' (Ids ++ [(P.Tok.Ptr, P.Tok.getIdentifier)])
    else some (false, P, Ids)

/-- `Parser::parseIdentList`. -/
def parseIdentList (fuel : Nat) (P : Parser) (Ids : IdentList) :
    Option (Bool × Parser × IdentList) :=
  let H := _errorhandler [.colon, .semi] fuel
  check (some (P.expect .identifier)) H Ids fun P =>
  next P fun P' =>
  call (parseIdentListLoop fuel P' (Ids ++ [(P.Tok.Ptr, P.Tok.getIdentifier)])) H
    (fun Ids' => Ids') fun P Ids' =>
  some (false, P, Ids')

/-- The loop of `parseQualident`. -/
def parseQualidentLoop (S : Sema) :
    Nat → Parser → Sema.Decl → Option (Bool × Parser × Sema.Decl)
  | 0, _, _ => none
  | fuel + 1, P, D =>
    if P.Tok.Kind = .period ∧ S.isaModuleDeclaration D = true then
      next P fun P =>
      check (some (P.expect .identifier)) raise D fun P =>
      next P fun P' =>
      parseQualidentLoop S fuel P' (.actOnQualIdentPart D P.Tok.Ptr P.Tok.getIdentifier)
    else some (false, P, D)

/-- `Parser::parseQualident`. -/
def parseQualident (S : Sema) (fuel : Nat) (P : Parser) : Option (Bool × Parser × Sema.Decl) :=
  let H := _errorhandler
    [.hash, .l_paren, .r_paren, .star, .plus, .comma, .minus, .slash, .colonequal, .semi,
     .less, .lessequal, .equal, .greater, .greaterequal, .kw_AND, .kw_DIV, .kw_DO, .kw_ELSE,
     .kw_END, .kw_MOD, .kw_OR, .kw_THEN, .l_square, .r_square, .caret] fuel
  check (some (P.expect .identifier)) H .nullptr fun P =>
  next P fun P' =>
  call (parseQualidentLoop S fuel P'
    (.actOnQualIdentPart .nullptr P.Tok.Ptr P.Tok.getIdentifier)) H (fun D => D) fun P D =>
  some (false, P, D)

/-- The loop of `parseSelectors`; `pe` is `parseExpression`. -/
def parseSelectorsLoop (pe : Parser → Sema.Expr → Option (Bool × Parser × Sema.Expr)) :
    Nat → Parser → Sema.Expr → Option (Bool × Parser × Sema.Expr)
  | 0, _, _ => none
  | fuel + 1, P, E =>
    if P.Tok.Kind ∈ [TokenKind.period, .l_square, .caret] then
      if P.Tok.Kind = .caret then
        next P fun P' => parseSelectorsLoop pe fuel P' (.actOnDereferenceSelector E P.Tok.Ptr)
      else if P.Tok.Kind = .l_square then
        let Loc := P.Tok.Ptr
        next P fun P =>
        call (pe P .nullptr) raise (fun _ => E) fun P IndexE =>
        check (some (P.expect .r_square)) raise E fun P =>
        next P fun P' => parseSelectorsLoop pe fuel P' (.actOnIndexSelector E Loc IndexE)
      else if P.Tok.Kind = .period then
        next P fun P =>
        check (some (P.expect .identifier)) raise E fun P =>
        next P fun P' =>
        parseSelectorsLoop pe fuel P' (.actOnFieldSelector E P.Tok.Ptr P.Tok.getIdentifier)
      else parseSelectorsLoop pe fuel P E
    else some (false, P, E)

/-- `Parser::parseSelectors`. -/
def parseSelectors (pe : Parser → Sema.Expr → Option (Bool × Parser × Sema.Expr))
    (fuel : Nat) (P : Parser) (E : Sema.Expr) : Option (Bool × Parser × Sema.Expr) :=
  let H := _errorhandler
    [.hash, .r_paren, .star, .plus, .comma, .minus, .slash, .colonequal, .semi, .less,
     .lessequal, .equal, .greater, .greaterequal, .kw_AND, .kw_DIV, .kw_DO, .kw_ELSE, .kw_END,
     .kw_MOD, .kw_OR, .kw_THEN, .r_square] fuel
  call (parseSelectorsLoop pe fuel P E) H (fun E' => E') fun P E' =>
  some (false, P, E')

/-- The statement `if (E) Exprs.push_back(E);`. -/
def pushIfNotNull (Exprs : Sema.ExprList) (E : Sema.Expr) : Sema.ExprList :=
  if E = .nullptr then Exprs else .push_back Exprs E

/-- The loop of `parseExpList`. -/
def parseExpListLoop (pe : Parser → Sema.Expr → Option (Bool × Parser × Sema.Expr)) :
    Nat → Parser → Sema.ExprList → Option (Bool × Parser × Sema.ExprList)
  | 0, _, _ => none
  | fuel + 1, P, Exprs =>
    if P.Tok.Kind = .comma then
      next P fun P =>
      call (pe P .nullptr) raise (fun _ => Exprs) fun P E =>
      parseExpListLoop pe fuel P (pushIfNotNull Exprs E)
    else some (false, P, Exprs)

/-- `Parser::parseExpList`. -/
def parseExpList (pe : Parser → Sema.Expr → Option (Bool × Parser × Sema.Expr))
    (fuel : Nat) (P : Parser) (Exprs : Sema.ExprList) :
    Option (Bool × Parser × Sema.ExprList) :=
  let H := _errorhandler [.r_paren] fuel
  call (pe P .nullptr) H (fun _ => Exprs) fun P E =>
  call (parseExpListLoop pe fuel P (pushIfNotNull Exprs E)) H (fun Exprs' => Exprs')
    fun P Exprs' =>
  some (false, P, Exprs')

/-- The tokens that start an expression, as tested before the calls of
`parseExpList` and in `parseReturnStatement`. -/
def startsExpression : List TokenKind :=
  [.l_paren, .plus, .minus, .kw_NOT, .identifier, .integer_literal]

/-- `Parser::parseFactor`; `pe` is `parseExpression`, the argument after
`fuel` bounds the depth of the recursion through `NOT`. -/
def parseFactor (S : Sema) (pe : Parser → Sema.Expr → Option (Bool × Parser × Sema.Expr))
    (fuel : Nat) : Nat → Parser → Sema.Expr → Option (Bool × Parser × Sema.Expr)
  | 0, _, _ => none
  | depth + 1, P, E =>
    let H := _errorhandler
      [.hash, .r_paren, .star, .plus, .comma, .minus, .slash, .semi, .less, .lessequal,
       .equal, .greater, .greaterequal, .kw_AND, .kw_DIV, .kw_DO, .kw_ELSE, .kw_END, .kw_MOD,
       .kw_OR, .kw_THEN, .r_square] fuel
    if P.Tok.Kind = .integer_literal then
      next P fun P' => some (false, P', .actOnIntegerLiteral P.Tok.Ptr P.Tok.getLiteralData)
    else if P.Tok.Kind = .identifier then
      call (parseQualident S fuel P) H (fun _ => E) fun P D =>
      if P.Tok.Kind = .l_paren then
        next P fun P =>
        let args :=
          if P.Tok.Kind ∈ startsExpression then parseExpList pe fuel P .nil
          else some (false, P, .nil)
        call args H (fun _ => E) fun P Exprs =>
        check (some (P.expect .r_paren)) H E fun P =>
        next P fun P' => some (false, P', .actOnFunctionCall D Exprs)
      else
        call (parseSelectors pe fuel P (.actOnDesignator D)) H (fun E' => E') fun P E' =>
        some (false, P, E')
    else if P.Tok.Kind = .l_paren then
      next P fun P =>
      call (pe P E) H (fun E' => E') fun P E' =>
      check (P.consume .r_paren) H E' fun P =>
      some (false, P, E')
    else if P.Tok.Kind = .kw_NOT then
      let Op := fromTok P.Tok
      next P fun P =>
      call (parseFactor S pe fuel depth P E) H (fun E' => E') fun P E' =>
      some (false, P, .actOnPrefixExpression E' Op)
    else fail P H E

/-- `Parser::parseMulOperator`. -/
def parseMulOperator (fuel : Nat) (P : Parser) (Op : OperatorInfo) :
    Option (Bool × Parser × OperatorInfo) :=
  let H := _errorhandler [.l_paren, .kw_NOT, .identifier, .integer_literal] fuel
  if P.Tok.Kind = .star then next P fun P' => some (false, P', fromTok P.Tok)
  else if P.Tok.Kind = .slash then next P fun P' => some (false, P', fromTok P.Tok)
  else if P.Tok.Kind = .kw_DIV then next P fun P' => some (false, P', fromTok P.Tok)
  else if P.Tok.Kind = .kw_MOD then next P fun P' => some (false, P', fromTok P.Tok)
  else if P.Tok.Kind = .kw_AND then next P fun P' => some (false, P', fromTok P.Tok)
  else fail P H Op

/-- The loop of `parseTerm`. -/
def parseTermLoop (S : Sema) (pe : Parser → Sema.Expr → Option (Bool × Parser × Sema.Expr))
    (fuel : Nat) : Nat → Parser → Sema.Expr → Option (Bool × Parser × Sema.Expr)
  | 0, _, _ => none
  | n + 1, P, E =>
    if P.Tok.Kind ∈ [TokenKind.star, .slash, .kw_AND, .kw_DIV, .kw_MOD] then
      call (parseMulOperator fuel P .unspecified) raise (fun _ => E) fun P Op =>
      call (parseFactor S pe fuel fuel P .nullptr) raise (fun _ => E) fun P Right =>
      parseTermLoop S pe fuel n P (.actOnTerm E Right Op)
    else some (false, P, E)

/-- `Parser::parseTerm`. -/
def parseTerm (S : Sema) (pe : Parser → Sema.Expr → Option (Bool × Parser × Sema.Expr))
    (fuel : Nat) (P : Parser) (E : Sema.Expr) : Option (Bool × Parser × Sema.Expr) :=
  let H := _errorhandler
    [.hash, .r_paren, .plus, .comma, .minus, .semi, .less, .lessequal, .equal, .greater,
     .greaterequal, .kw_DO, .kw_ELSE, .kw_END, .kw_OR, .kw_THEN, .r_square] fuel
  call (parseFactor S pe fuel fuel P E) H (fun E' => E') fun P E' =>
  call (parseTermLoop S pe fuel fuel P E') H (fun E' => E') fun P E' =>
  some (false, P, E')

/-- `Parser::parseAddOperator`. -/
def parseAddOperator (fuel : Nat) (P : Parser) (Op : OperatorInfo) :
    Option (Bool × Parser × OperatorInfo) :=
  let H := _errorhandler [.l_paren, .kw_NOT, .identifier, .integer_literal] fuel
  if P.Tok.Kind = .plus then next P fun P' => some (false, P', fromTok P.Tok)
  else if P.Tok.Kind = .minus then next P fun P' => some (false, P', fromTok P.Tok)
  else if P.Tok.Kind = .kw_OR then next P fun P' => some (false, P', fromTok P.Tok)
  else fail P H Op

/-- The loop of `parseSimpleExpression`. -/
def parseSimpleExpressionLoop (S : Sema)
    (pe : Parser → Sema.Expr → Option (Bool × Parser × Sema.Expr)) (fuel : Nat) :
    Nat → Parser → Sema.Expr → Option (Bool × Parser × Sema.Expr)
  | 0, _, _ => none
  | n + 1, P, E =>
    if P.Tok.Kind ∈ [TokenKind.plus, .minus, .kw_OR] then
      call (parseAddOperator fuel P .unspecified) raise (fun _ => E) fun P Op =>
      call (parseTerm S pe fuel P .nullptr) raise (fun _ => E) fun P Right =>
      parseSimpleExpressionLoop S pe fuel n P (.actOnSimpleExpression E Right Op)
    else some (false, P, E)

/-- `Parser::parseSimpleExpression` from the call of `parseTerm` on, with the
prefix operator found. -/
def parseSimpleExpressionRest (S : Sema)
    (pe : Parser → Sema.Expr → Option (Bool × Parser × Sema.Expr))
    (fuel : Nat) (PrefixOp : OperatorInfo) (P : Parser) (E : Sema.Expr) :
    Option (Bool × Parser × Sema.Expr) :=
  let H := _errorhandler
    [.hash, .r_paren, .comma, .semi, .less, .lessequal, .equal, .greater, .greaterequal,
     .kw_DO, .kw_ELSE, .kw_END, .kw_THEN, .r_square] fuel
  call (parseTerm S pe fuel P E) H (fun E' => E') fun P E' =>
  call (parseSimpleExpressionLoop S pe fuel fuel P E') H (fun E' => E') fun P E' =>
  if !PrefixOp.IsUnspecified then some (false, P, .actOnPrefixExpression E' PrefixOp)
  else some (false, P, E')

/-- `Parser::parseSimpleExpression`. -/
def parseSimpleExpression (S : Sema)
    (pe : Parser → Sema.Expr → Option (Bool × Parser × Sema.Expr))
    (fuel : Nat) (P : Parser) (E : Sema.Expr) : Option (Bool × Parser × Sema.Expr) :=
  if P.Tok.Kind ∈ [TokenKind.plus, .minus] then
    if P.Tok.Kind = .plus then
      next P fun P' => parseSimpleExpressionRest S pe fuel (fromTok P.Tok) P' E
    else if P.Tok.Kind = .minus then
      next P fun P' => parseSimpleExpressionRest S pe fuel (fromTok P.Tok) P' E
    else parseSimpleExpressionRest S pe fuel .unspecified P E
  else parseSimpleExpressionRest S pe fuel .unspecified P E

/-- `Parser::parseRelation`. -/
def parseRelation (fuel : Nat) (P : Parser) (Op : OperatorInfo) :
    Option (Bool × Parser × OperatorInfo) :=
  let H := _errorhandler
    [.l_paren, .plus, .minus, .kw_NOT, .identifier, .integer_literal] fuel
  if P.Tok.Kind = .equal then next P fun P' => some (false, P', fromTok P.Tok)
  else if P.Tok.Kind = .hash then next P fun P' => some (false, P', fromTok P.Tok)
  else if P.Tok.Kind = .less then next P fun P' => some (false, P', fromTok P.Tok)
  else if P.Tok.Kind = .lessequal then next P fun P' => some (false, P', fromTok P.Tok)
  else if P.Tok.Kind = .greater then next P fun P' => some (false, P', fromTok P.Tok)
  else if P.Tok.Kind = .greaterequal then next P fun P' => some (false, P', fromTok P.Tok)
  else fail P H Op

/-- The body of `Parser::parseExpression`, with `pe` for the calls of
`parseExpression` from within the expression. -/
def parseExpressionWith (S : Sema)
    (pe : Parser → Sema.Expr → Option (Bool × Parser × Sema.Expr))
    (fuel : Nat) (P : Parser) (E : Sema.Expr) : Option (Bool × Parser × Sema.Expr) :=
  let H := _errorhandler
    [.r_paren, .comma, .semi, .kw_DO, .kw_ELSE, .kw_END, .kw_THEN, .r_square] fuel
  call (parseSimpleExpression S pe fuel P E) H (fun E' => E') fun P E' =>
  if P.Tok.Kind ∈ [TokenKind.hash, .less, .lessequal, .equal, .greater, .greaterequal] then
    call (parseRelation fuel P .unspecified) H (fun _ => E') fun P Op =>
    call (parseSimpleExpression S pe fuel P .nullptr) H (fun _ => E') fun P Right =>
    some (false, P, .actOnExpression E' Right Op)
  else some (false, P, E')

/-- `Parser::parseExpression`; the second argument bounds the nesting depth
of the expression and the number of iterations of each loop. -/
def parseExpression (S : Sema) : Nat → Parser → Sema.Expr → Option (Bool × Parser × Sema.Expr)
  | 0 => fun _ _ => none
  | fuel + 1 => parseExpressionWith S (parseExpression S fuel) (fuel + 1)

/-- `Parser::parseReturnStatement`. -/
def parseReturnStatement (S : Sema) (fuel : Nat) (P : Parser) (Stmts : Sema.StmtList) :
    Option (Bool × Parser × Sema.StmtList) :=
  let H := _errorhandler [.semi, .kw_ELSE, .kw_END] fuel
  let Loc := P.Tok.Ptr
  check (P.consume .kw_RETURN) H Stmts fun P =>
  if P.Tok.Kind ∈ startsExpression then
    call (parseExpression S fuel P .nullptr) H (fun _ => Stmts) fun P E =>
    some (false, P, .actOnReturnStatement Stmts Loc E)
  else some (false, P, .actOnReturnStatement Stmts Loc .nullptr)

/-- `Parser::parseWhileStatement`; `pss` is `parseStatementSequence`. -/
def parseWhileStatement (S : Sema)
    (pss : Parser → Sema.StmtList → Option (Bool × Parser × Sema.StmtList))
    (fuel : Nat) (P : Parser) (Stmts : Sema.StmtList) :
    Option (Bool × Parser × Sema.StmtList) :=
  let H := _errorhandler [.semi, .kw_ELSE, .kw_END] fuel
  let Loc := P.Tok.Ptr
  check (P.consume .kw_WHILE) H Stmts fun P =>
  call (parseExpression S fuel P .nullptr) H (fun _ => Stmts) fun P E =>
  check (P.consume .kw_DO) H Stmts fun P =>
  call (pss P .nil) H (fun _ => Stmts) fun P WhileStmts =>
  check (some (P.expect .kw_END)) H Stmts fun P =>
  next P fun P' => some (false, P', .actOnWhileStatement Stmts Loc E WhileStmts)

/-- `Parser::parseIfStatement`; `pss` is `parseStatementSequence`. -/
def parseIfStatement (S : Sema)
    (pss : Parser → Sema.StmtList → Option (Bool × Parser × Sema.StmtList))
    (fuel : Nat) (P : Parser) (Stmts : Sema.StmtList) :
    Option (Bool × Parser × Sema.StmtList) :=
  let H := _errorhandler [.semi, .kw_ELSE, .kw_END] fuel
  let Loc := P.Tok.Ptr
  check (P.consume .kw_IF) H Stmts fun P =>
  call (parseExpression S fuel P .nullptr) H (fun _ => Stmts) fun P E =>
  check (P.consume .kw_THEN) H Stmts fun P =>
  call (pss P .nil) H (fun _ => Stmts) fun P IfStmts =>
  let Else :=
    if P.Tok.Kind = .kw_ELSE then next P fun P => pss P .nil
    else some (false, P, .nil)
  call Else H (fun _ => Stmts) fun P ElseStmts =>
  check (some (P.expect .kw_END)) H Stmts fun P =>
  next P fun P' => some (false, P', .actOnIfStatement Stmts Loc E IfStmts ElseStmts)

/-- `Parser::parseStatement`; `pss` is `parseStatementSequence`. -/
def parseStatement (S : Sema)
    (pss : Parser → Sema.StmtList → Option (Bool × Parser × Sema.StmtList))
    (fuel : Nat) (P : Parser) (Stmts : Sema.StmtList) :
    Option (Bool × Parser × Sema.StmtList) :=
  let H := _errorhandler [.semi, .kw_ELSE, .kw_END] fuel
  if P.Tok.Kind = .identifier then
    let Loc := P.Tok.Ptr
    call (parseQualident S fuel P) H (fun _ => Stmts) fun P D =>
    if ¬ P.Tok.Kind = .l_paren then
      call (parseSelectors (parseExpression S fuel) fuel P (.actOnDesignator D)) H
        (fun _ => Stmts) fun P Desig =>
      check (P.consume .colonequal) H Stmts fun P =>
      call (parseExpression S fuel P .nullptr) H (fun _ => Stmts) fun P E =>
      some (false, P, .actOnAssignment Stmts Loc Desig E)
    else
      next P fun P =>
      let args :=
        if P.Tok.Kind ∈ startsExpression then parseExpList (parseExpression S fuel) fuel P .nil
        else some (false, P, .nil)
      call args H (fun _ => Stmts) fun P Exprs =>
      check (P.consume .r_paren) H Stmts fun P =>
      some (false, P, .actOnProcCall Stmts Loc D Exprs)
  else if P.Tok.Kind = .kw_IF then
    call (parseIfStatement S pss fuel P Stmts) H (fun Stmts' => Stmts') fun P Stmts' =>
    some (false, P, Stmts')
  else if P.Tok.Kind = .kw_WHILE then
    call (parseWhileStatement S pss fuel P Stmts) H (fun Stmts' => Stmts') fun P Stmts' =>
    some (false, P, Stmts')
  else if P.Tok.Kind = .kw_RETURN then
    call (parseReturnStatement S fuel P Stmts) H (fun Stmts' => Stmts') fun P Stmts' =>
    some (false, P, Stmts')
  else fail P H Stmts

/-- The loop of `parseStatementSequence`; `ps` is `parseStatement`. -/
def parseStatementSequenceLoop
    (ps : Parser → Sema.StmtList → Option (Bool × Parser × Sema.StmtList)) :
    Nat → Parser → Sema.StmtList → Option (Bool × Parser × Sema.StmtList)
  | 0, _, _ => none
  | n + 1, P, Stmts =>
    if P.Tok.Kind = .semi then
      next P fun P =>
      call (ps P Stmts) raise (fun Stmts' => Stmts') fun P Stmts' =>
      parseStatementSequenceLoop ps n P Stmts'
    else some (false, P, Stmts)

/-- `Parser::parseStatementSequence`; the second argument bounds the nesting
depth of the statements and of their expressions, and the number of
iterations of each loop. -/
def parseStatementSequence (S : Sema) :
    Nat → Parser → Sema.StmtList → Option (Bool × Parser × Sema.StmtList)
  | 0 => fun _ _ => none
  | fuel + 1 => fun P Stmts =>
    let H := _errorhandler [.kw_ELSE, .kw_END] (fuel + 1)
    let ps := parseStatement S (parseStatementSequence S fuel) (fuel + 1)
    call (ps P Stmts) H (fun Stmts' => Stmts') fun P Stmts' =>
    call (parseStatementSequenceLoop ps (fuel + 1) P Stmts') H (fun Stmts' => Stmts')
      fun P Stmts' =>
    some (false, P, Stmts')

/-- `Parser::parseFormalParameter` from the call of `parseIdentList` on. -/
def parseFormalParameterRest (S : Sema) (fuel : Nat) (IsVar : Bool) (P : Parser)
    (Params : Sema.FormalParamList) : Option (Bool × Parser × Sema.FormalParamList) :=
  let H := _errorhandler [.r_paren, .semi] fuel
  call (parseIdentList fuel P []) H (fun _ => Params) fun P Ids =>
  check (P.consume .colon) H Params fun P =>
  call (parseQualident S fuel P) H (fun _ => Params) fun P D =>
  some (false, P, .actOnFormalParameterDeclaration Params Ids D IsVar)

/-- `Parser::parseFormalParameter`. -/
def parseFormalParameter (S : Sema) (fuel : Nat) (P : Parser) (Params : Sema.FormalParamList) :
    Option (Bool × Parser × Sema.FormalParamList) :=
  if P.Tok.Kind = .kw_VAR then next P fun P' => parseFormalParameterRest S fuel true P' Params
  else parseFormalParameterRest S fuel false P Params

/-- The loop of `parseFormalParameterList`. -/
def parseFormalParameterListLoop (S : Sema) (fuel : Nat) :
    Nat → Parser → Sema.FormalParamList → Option (Bool × Parser × Sema.FormalParamList)
  | 0, _, _ => none
  | n + 1, P, Params =>
    if P.Tok.Kind = .semi then
      next P fun P =>
      call (parseFormalParameter S fuel P Params) raise (fun Params' => Params')
        fun P Params' =>
      parseFormalParameterListLoop S fuel n P Params'
    else some (false, P, Params)

/-- `Parser::parseFormalParameterList`. -/
def parseFormalParameterList (S : Sema) (fuel : Nat) (P : Parser)
    (Params : Sema.FormalParamList) : Option (Bool × Parser × Sema.FormalParamList) :=
  let H := _errorhandler [.r_paren] fuel
  call (parseFormalParameter S fuel P Params) H (fun Params' => Params') fun P Params' =>
  call (parseFormalParameterListLoop S fuel fuel P Params') H (fun Params' => Params')
    fun P Params' =>
  some (false, P, Params')

/-- `Parser::parseFormalParameters`; the output parameters are `Params` and
`RetType`. -/
def parseFormalParameters (S : Sema) (fuel : Nat) (P : Parser)
    (Params : Sema.FormalParamList) (RetType : Sema.Decl) :
    Option (Bool × Parser × Sema.FormalParamList × Sema.Decl) :=
  let H := _errorhandler [.semi] fuel
  check (P.consume .l_paren) H (Params, RetType) fun P =>
  let list :=
    if P.Tok.Kind ∈ [TokenKind.kw_VAR, .identifier] then parseFormalParameterList S fuel P Params
    else some (false, P, Params)
  call list H (fun Params' => (Params', RetType)) fun P Params' =>
  check (P.consume .r_paren) H (Params', RetType) fun P =>
  if P.Tok.Kind = .colon then
    next P fun P =>
    call (parseQualident S fuel P) H (fun D => (Params', D)) fun P D =>
    some (false, P, Params', D)
  else some (false, P, Params', RetType)

/-- `Parser::parseVariableDeclaration`. -/
def parseVariableDeclaration (S : Sema) (fuel : Nat) (P : Parser) (Decls : Sema.DeclList) :
    Option (Bool × Parser × Sema.DeclList) :=
  let H := _errorhandler [.semi] fuel
  call (parseIdentList fuel P []) H (fun _ => Decls) fun P Ids =>
  check (P.consume .colon) H Decls fun P =>
  call (parseQualident S fuel P) H (fun _ => Decls) fun P D =>
  some (false, P, .actOnVariableDeclaration Decls Ids D)

/-- `Parser::parseField`. -/
def parseField (S : Sema) (fuel : Nat) (P : Parser) (Fields : Sema.FieldList) :
    Option (Bool × Parser × Sema.FieldList) :=
  let H := _errorhandler [.semi, .kw_END] fuel
  call (parseIdentList fuel P []) H (fun _ => Fields) fun P Ids =>
  check (P.consume .colon) H Fields fun P =>
  call (parseQualident S fuel P) H (fun _ => Fields) fun P D =>
  some (false, P, .actOnFieldDeclaration Fields Ids D)

/-- The loop of `parseFieldList`. -/
def parseFieldListLoop (S : Sema) (fuel : Nat) :
    Nat → Parser → Sema.FieldList → Option (Bool × Parser × Sema.FieldList)
  | 0, _, _ => none
  | n + 1, P, Fields =>
    if P.Tok.Kind = .semi then
      next P fun P =>
      call (parseField S fuel P Fields) raise (fun Fields' => Fields') fun P Fields' =>
      parseFieldListLoop S fuel n P Fields'
    else some (false, P, Fields)

/-- `Parser::parseFieldList`. -/
def parseFieldList (S : Sema) (fuel : Nat) (P : Parser) (Fields : Sema.FieldList) :
    Option (Bool × Parser × Sema.FieldList) :=
  let H := _errorhandler [.kw_END] fuel
  call (parseField S fuel P Fields) H (fun Fields' => Fields') fun P Fields' =>
  call (parseFieldListLoop S fuel fuel P Fields') H (fun Fields' => Fields') fun P Fields' =>
  some (false, P, Fields')

/-- `Parser::parseTypeDeclaration`. -/
def parseTypeDeclaration (S : Sema) (fuel : Nat) (P : Parser) (Decls : Sema.DeclList) :
    Option (Bool × Parser × Sema.DeclList) :=
  let H := _errorhandler [.semi] fuel
  check (some (P.expect .identifier)) H Decls fun P =>
  let Loc := P.Tok.Ptr
  let Name := P.Tok.getIdentifier
  next P fun P =>
  check (P.consume .equal) H Decls fun P =>
  if P.Tok.Kind = .identifier then
    call (parseQualident S fuel P) H (fun _ => Decls) fun P D =>
    some (false, P, .actOnAliasTypeDeclaration Decls Loc Name D)
  else if P.Tok.Kind = .kw_POINTER then
    next P fun P =>
    check (some (P.expect .kw_TO)) H Decls fun P =>
    next P fun P =>
    call (parseQualident S fuel P) H (fun _ => Decls) fun P D =>
    some (false, P, .actOnPointerTypeDeclaration Decls Loc Name D)
  else if P.Tok.Kind = .kw_ARRAY then
    next P fun P =>
    check (some (P.expect .l_square)) H Decls fun P =>
    next P fun P =>
    call (parseExpression S fuel P .nullptr) H (fun _ => Decls) fun P E =>
    check (P.consume .r_square) H Decls fun P =>
    check (some (P.expect .kw_OF)) H Decls fun P =>
    next P fun P =>
    call (parseQualident S fuel P) H (fun _ => Decls) fun P D =>
    some (false, P, .actOnArrayTypeDeclaration Decls Loc Name E D)
  else if P.Tok.Kind = .kw_RECORD then
    next P fun P =>
    call (parseFieldList S fuel P .nil) H (fun _ => Decls) fun P Fields =>
    check (some (P.expect .kw_END)) H Decls fun P =>
    next P fun P' => some (false, P', .actOnRecordTypeDeclaration Decls Loc Name Fields)
  else fail P H Decls

/-- `Parser::parseConstantDeclaration`. -/
def parseConstantDeclaration (S : Sema) (fuel : Nat) (P : Parser) (Decls : Sema.DeclList) :
    Option (Bool × Parser × Sema.DeclList) :=
  let H := _errorhandler [.semi] fuel
  check (some (P.expect .identifier)) H Decls fun P =>
  let Loc := P.Tok.Ptr
  let Name := P.Tok.getIdentifier
  next P fun P =>
  check (some (P.expect .equal)) H Decls fun P =>
  next P fun P =>
  call (parseExpression S fuel P .nullptr) H (fun _ => Decls) fun P E =>
  some (false, P, .actOnConstantDeclaration Decls Loc Name E)

/-- `Parser::parseProcedureDeclaration`; `pb` is `parseBlock`. -/
def parseProcedureDeclaration (S : Sema)
    (pb : Parser → Sema.DeclList → Sema.StmtList →
      Option (Bool × Parser × Sema.DeclList × Sema.StmtList))
    (fuel : Nat) (P : Parser) (ParentDecls : Sema.DeclList) :
    Option (Bool × Parser × Sema.DeclList) :=
  let H := _errorhandler [.semi] fuel
  check (P.consume .kw_PROCEDURE) H ParentDecls fun P =>
  check (some (P.expect .identifier)) H ParentDecls fun P =>
  let Loc := P.Tok.Ptr
  let Name := P.Tok.getIdentifier
  next P fun P =>
  let heading :=
    if P.Tok.Kind = .l_paren then parseFormalParameters S fuel P .nil .nullptr
    else some (false, P, .nil, .nullptr)
  call heading H (fun _ => ParentDecls) fun P PR =>
  check (some (P.expect .semi)) H ParentDecls fun P =>
  next P fun P =>
  call (pb P .nil .nil) H (fun _ => ParentDecls) fun P DS =>
  check (some (P.expect .identifier)) H ParentDecls fun P =>
  next P fun P' =>
  some (false, P', .actOnProcedureDeclaration ParentDecls Loc Name PR.1 PR.2 P.Tok.Ptr
    P.Tok.getIdentifier DS.1 DS.2)

/-- The loop `while (Tok.is(tok::identifier))` of a branch of
`parseDeclaration`; `pd` is the production for one declaration. -/
def parseDeclarationLoop
    (pd : Parser → Sema.DeclList → Option (Bool × Parser × Sema.DeclList)) :
    Nat → Parser → Sema.DeclList → Option (Bool × Parser × Sema.DeclList)
  | 0, _, _ => none
  | n + 1, P, Decls =>
    if P.Tok.Kind = .identifier then
      call (pd P Decls) raise (fun Decls' => Decls') fun P Decls' =>
      check (P.consume .semi) raise Decls' fun P =>
      parseDeclarationLoop pd n P Decls'
    else some (false, P, Decls)

/-- `Parser::parseDeclaration`; `pb` is `parseBlock`. -/
def parseDeclaration (S : Sema)
    (pb : Parser → Sema.DeclList → Sema.StmtList →
      Option (Bool × Parser × Sema.DeclList × Sema.StmtList))
    (fuel : Nat) (P : Parser) (Decls : Sema.DeclList) :
    Option (Bool × Parser × Sema.DeclList) :=
  let H := _errorhandler [.kw_BEGIN, .kw_CONST, .kw_END, .kw_PROCEDURE, .kw_TYPE, .kw_VAR] fuel
  if P.Tok.Kind = .kw_CONST then
    next P fun P =>
    call (parseDeclarationLoop (parseConstantDeclaration S fuel) fuel P Decls) H
      (fun Decls' => Decls') fun P Decls' =>
    some (false, P, Decls')
  else if P.Tok.Kind = .kw_TYPE then
    next P fun P =>
    call (parseDeclarationLoop (parseTypeDeclaration S fuel) fuel P Decls) H
      (fun Decls' => Decls') fun P Decls' =>
    some (false, P, Decls')
  else if P.Tok.Kind = .kw_VAR then
    next P fun P =>
    call (parseDeclarationLoop (parseVariableDeclaration S fuel) fuel P Decls) H
      (fun Decls' => Decls') fun P Decls' =>
    some (false, P, Decls')
  else if P.Tok.Kind = .kw_PROCEDURE then
    call (parseProcedureDeclaration S pb fuel P Decls) H (fun Decls' => Decls')
      fun P Decls' =>
    check (P.consume .semi) H Decls' fun P =>
    some (false, P, Decls')
  else fail P H Decls

/-- The loop of `parseBlock` over the declarations; `pd` is
`parseDeclaration`. -/
def parseBlockLoop (pd : Parser → Sema.DeclList → Option (Bool × Parser × Sema.DeclList)) :
    Nat → Parser → Sema.DeclList → Option (Bool × Parser × Sema.DeclList)
  | 0, _, _ => none
  | n + 1, P, Decls =>
    if P.Tok.Kind ∈ [TokenKind.kw_CONST, .kw_PROCEDURE, .kw_TYPE, .kw_VAR] then
      call (pd P Decls) raise (fun Decls' => Decls') fun P Decls' =>
      parseBlockLoop pd n P Decls'
    else some (false, P, Decls)

/-- `Parser::parseBlock`; the second argument bounds the nesting depth of
procedures, statements and expressions, and the number of iterations of each
loop.  The output parameters are `Decls` and `Stmts`. -/
def parseBlock (S : Sema) : Nat → Parser → Sema.DeclList → Sema.StmtList →
    Option (Bool × Parser × Sema.DeclList × Sema.StmtList)
  | 0 => fun _ _ _ => none
  | fuel + 1 => fun P Decls Stmts =>
    let H := _errorhandler [.identifier] (fuel + 1)
    let pd := parseDeclaration S (parseBlock S fuel) (fuel + 1)
    call (parseBlockLoop pd (fuel + 1) P Decls) H (fun Decls' => (Decls', Stmts))
      fun P Decls' =>
    let body :=
      if P.Tok.Kind = .kw_BEGIN then next P fun P => parseStatementSequence S (fuel + 1) P Stmts
      else some (false, P, Stmts)
    call body H (fun Stmts' => (Decls', Stmts')) fun P Stmts' =>
    check (P.consume .kw_END) H (Decls', Stmts') fun P =>
    some (false, P, Decls', Stmts')

/-- `Parser::parseImport` from `consume(tok::kw_IMPORT)` on. -/
def parseImportRest (fuel : Nat) (P : Parser) : Option (Bool × Parser × Unit) :=
  let H := _errorhandler
    [.kw_BEGIN, .kw_CONST, .kw_END, .kw_FROM, .kw_IMPORT, .kw_PROCEDURE, .kw_TYPE, .kw_VAR] fuel
  check (P.consume .kw_IMPORT) H () fun P =>
  call (parseIdentList fuel P []) H (fun _ => ()) fun P _ =>
  check (some (P.expect .semi)) H () fun P =>
  next P fun P' => some (false, P', ())

/-- `Parser::parseImport`. -/
def parseImport (fuel : Nat) (P : Parser) : Option (Bool × Parser) :=
  let H := _errorhandler
    [.kw_BEGIN, .kw_CONST, .kw_END, .kw_FROM, .kw_IMPORT, .kw_PROCEDURE, .kw_TYPE, .kw_VAR] fuel
  let r :=
    if P.Tok.Kind = .kw_FROM then
      next P fun P =>
      check (some (P.expect .identifier)) H () fun P =>
      next P fun P' => parseImportRest fuel P'
    else parseImportRest fuel P
  r.map fun x => (x.1, x.2.1)

/-- The parser after `n` calls of `advance`. -/
def advances : Nat → Parser → Option Parser
  | 0, P => some P
  | n + 1, P =>
    match P.advance with
    | none => none
    | some P' => advances n P'

/-- The productions `parseImport` and `parseBlock` as `parseCompilationUnit`
calls them, with fresh lists `Decls` and `Stmts`. -/
def productions (S : Sema) (fuel : Nat) : Productions where
  parseImport := parseImport fuel
  parseBlock := fun P => (parseBlock S fuel P .nil .nil).map fun x => (x.1, x.2.1)
  actOnModuleDeclaration := fun P => P

end Parser

/-! ## Notions used in the statements about straight-line code and merges -/

/-- The statement is an assignment or a `RETURN`. -/
def Stmt.isAssignmentOrReturn : Stmt → Bool
  | .AssignmentStatement _ _ _ => true
  | .ReturnStatement _ => true
  | _ => false

/-- Code generation has stayed in block `c`: `c` is the current block, no
branch has been created, no block has been sealed, and no block but `c` has
incomplete phis. -/
def StraightLine (c : BlockId) (s : CGState) : Prop :=
  s.Curr = c ∧ s.trace = [] ∧ (∀ b, s.blockUses b = []) ∧
  (∀ b, (s.CurrentDef b).Sealed = false) ∧
  ∀ b, b ≠ c → (s.CurrentDef b).IncompletePhis = []

/-- The instruction without its use list. -/
def Instruction.withoutUses (x : Instruction) : Instruction :=
  { x with uses := [] }

namespace Example

/-- `PROCEDURE p() : INTEGER; VAR x, y : INTEGER;
BEGIN x := y + 1; RETURN x END p`: `y` is read before it is assigned. -/
def readBeforeAssign : ProcedureDeclaration :=
  { FormalParams := [], RetType := some (some (.int 64)), Decls := [x, y],
    Stmts :=
      [.AssignmentStatement x [] (.InfixExpression (var y) (.IntegerLiteral 1) .plus),
       .ReturnStatement (some (var x))] }

/-- `PROCEDURE p(c : BOOLEAN) : INTEGER; VAR x : INTEGER;
BEGIN IF c THEN x := 1 ELSE x := 1 END; RETURN x END p`. -/
def ifSameValue : ProcedureDeclaration :=
  { FormalParams := [c], RetType := some (some (.int 64)), Decls := [x],
    Stmts := [.IfStatement (var c) [setConst x 1] [setConst x 1],
      .ReturnStatement (some (var x))] }

/-- `PROCEDURE p(c : BOOLEAN); VAR x : INTEGER;
BEGIN IF c THEN x := 1 ELSE x := 1 END; WHILE x < 10 DO x := x + 1 END END p`. -/
def ifSameValueThenWhile : ProcedureDeclaration :=
  { FormalParams := [c], RetType := none, Decls := [x],
    Stmts := [.IfStatement (var c) [setConst x 1] [setConst x 1],
      .WhileStatement (.InfixExpression (var x) (.IntegerLiteral 10) .less) [increment x]] }

/-- `PROCEDURE p(c : BOOLEAN) : INTEGER; VAR x : INTEGER;
BEGIN IF c THEN x := 1; RETURN x ELSE x := 1; RETURN x END; RETURN x END p`. -/
def ifBothReturn : ProcedureDeclaration :=
  { FormalParams := [c], RetType := some (some (.int 64)), Decls := [x],
    Stmts :=
      [.IfStatement (var c) [setConst x 1, .ReturnStatement (some (var x))]
        [setConst x 1, .ReturnStatement (some (var x))],
       .ReturnStatement (some (var x))] }

/-- The state in which `run` calls `sealBlock(Curr)` at its end: `run`
without its last statement, on a fresh `CGProcedure`. -/
def beforeLastSeal (E : Env) (fuel : Nat) (Proc : ProcedureDeclaration) : CGState :=
  ((do
    match Proc.RetType with
    | some none => M.throw .fatalUnsupportedType
    | _ => pure ()
    let ParamTypes ← createFunctionType Proc.FormalParams
    M.modify fun t => { t with argTys := ParamTypes }
    let BB ← createBasicBlock
    setCurr BB
    runFormalParams Proc.FormalParams 0
    runDecls Proc.Decls
    emit E fuel Proc.Stmts
    let s ← M.get
    if (s.getTerminator s.Curr).isNone then do
      let _ ← Insert .Ret .void [] []
      pure () : M Unit) CGState.init).state

end Example

/-- A `Sema` for the evaluations: no declaration is a module, as in a program
without imports. -/
def Example.sema : Sema where
  isaModuleDeclaration := fun _ => false

/-- The parser on the text `Buffer` with the cursor of the lexer at `CurPtr`,
the lookahead `Tok` and no diagnostic so far. -/
def Example.parser (Buffer : String) (CurPtr : Nat) (Tok : Token) : Parser where
  Lex := { CurBuf := Buffer.toList, CurPtr := CurPtr, Diags := { NumErrors := 0, reports := [] } }
  Tok := Tok
  ModDecl := none

end tinylang

namespace tinylang

namespace Example

/-- `PROCEDURE p(a, b : INTEGER) : INTEGER; BEGIN RETURN a DIV b END p`. -/
def divParams : ProcedureDeclaration :=
  { FormalParams := [a, b], RetType := some (some (.int 64)), Decls := [],
    Stmts := [.ReturnStatement (some (.InfixExpression (var a) (var b) .kw_DIV))] }

/-- `PROCEDURE p(a, b : INTEGER) : INTEGER; BEGIN RETURN a MOD b END p`. -/
def modParams : ProcedureDeclaration :=
  { FormalParams := [a, b], RetType := some (some (.int 64)), Decls := [],
    Stmts := [.ReturnStatement (some (.InfixExpression (var a) (var b) .kw_MOD))] }

end Example

end tinylang

namespace Calc

/-! # calc

The second program of the repository: the expression calculator of
`src/calc/src` (`Lexer`, `Parser`, `CodeGen`). -/

/-! ## calc lexer (`Lexer.h`, `Lexer.cpp`) -/

/-- `Token::TokenKind`. -/
inductive TokenKind
  | eoi | unknown | ident | number | comma | colon | plus | minus | star | slash | rem | exp
  | l_paren | r_paren | KW_with
  deriving DecidableEq, Repr

/-- `Token`: the kind and the text (a `StringRef` into the buffer; here the
characters it refers to). -/
structure Token where
  Kind : TokenKind
  Text : List Char
  deriving DecidableEq, Repr

namespace charinfo

/-- `charinfo::isWhitespace` (`'\f'` is 12, `'\v'` is 11). -/
def isWhitespace (c : Char) : Bool :=
  c == ' ' || c == '\t' || c == Char.ofNat 12 || c == Char.ofNat 11 || c == '\r' || c == '\n'

/-- `charinfo::isDigit`. -/
def isDigit (c : Char) : Bool :=
  decide ('0'.toNat ≤ c.toNat) && decide (c.toNat ≤ '9'.toNat)

/-- `charinfo::isLetter`. -/
def isLetter (c : Char) : Bool :=
  (decide ('a'.toNat ≤ c.toNat) && decide (c.toNat ≤ 'z'.toNat)) ||
    (decide ('A'.toNat ≤ c.toNat) && decide (c.toNat ≤ 'Z'.toNat))

end charinfo

/-- `Lexer`: the text at `BufferStart` (its terminating NUL is implicit) and
`BufferPtr` as an offset into it. -/
structure Lexer where
  BufferStart : List Char
  BufferPtr : Nat
  deriving DecidableEq, Repr

namespace Lexer

/-- The character `*P`; the terminating NUL is read at the end of the
buffer. -/
def charAt (L : Lexer) (P : Nat) : Char :=
  L.BufferStart.getD P (Char.ofNat 0)

/-- The number of leading characters of `cs` that satisfy `p`. -/
def span (p : Char → Bool) (cs : List Char) : Nat :=
  (cs.takeWhile p).length

/-- `Lexer::formToken`. -/
def formToken (L : Lexer) (TokEnd : Nat) (Kind : TokenKind) : Lexer × Token :=
  ({ L with BufferPtr := TokEnd },
    { Kind := Kind, Text := (L.BufferStart.drop L.BufferPtr).take (TokEnd - L.BufferPtr) })

/-- `Lexer::next`, writing into `token`; at the end of the input only the
kind of `token` is set. -/
def next (L0 : Lexer) (token : Token) : Lexer × Token :=
  let skipped := span (fun c => c != Char.ofNat 0 && charinfo.isWhitespace c)
    (L0.BufferStart.drop L0.BufferPtr)
  let L : Lexer := { L0 with BufferPtr := L0.BufferPtr + skipped }
  let c := L.charAt L.BufferPtr
  if c = Char.ofNat 0 then (L, { token with Kind := .eoi })
  else if charinfo.isLetter c then
    let end' := L.BufferPtr + 1 + span charinfo.isLetter (L.BufferStart.drop (L.BufferPtr + 1))
    let Name := (L.BufferStart.drop L.BufferPtr).take (end' - L.BufferPtr)
    let kind := if Name = "with".toList then TokenKind.KW_with else TokenKind.ident
    L.formToken end' kind
  else if charinfo.isDigit c then
    let end' := L.BufferPtr + 1 + span charinfo.isDigit (L.BufferStart.drop (L.BufferPtr + 1))
    L.formToken end' .number
  else if c = '+' then L.formToken (L.BufferPtr + 1) .plus
  else if c = '-' then L.formToken (L.BufferPtr + 1) .minus
  else if c = '*' then L.formToken (L.BufferPtr + 1) .star
  else if c = '/' then L.formToken (L.BufferPtr + 1) .slash
  else if c = '%' then L.formToken (L.BufferPtr + 1) .rem
  else if c = '^' then L.formToken (L.BufferPtr + 1) .exp
  else if c = '(' then L.formToken (L.BufferPtr + 1) .l_paren
  else if c = ')' then L.formToken (L.BufferPtr + 1) .r_paren
  else if c = ':' then L.formToken (L.BufferPtr + 1) .colon
  else if c = ',' then L.formToken (L.BufferPtr + 1) .comma
  else L.formToken (L.BufferPtr + 1) .unknown

end Lexer

/-! ## calc AST (`AST.h`) -/

/-- `BinaryOp::Operator`. -/
inductive Operator
  | Plus | Minus | Mul | Rem | Div | Exp
  deriving DecidableEq, Repr

/-- `Factor::ValueKind`. -/
inductive ValueKind
  | Ident | Number
  deriving DecidableEq, Repr

/-- An `Expr *`: a null pointer, a `Factor` or a `BinaryOp`. -/
inductive Expr
  | nullptr
  | Factor (Kind : ValueKind) (Val : List Char)
  | BinaryOp (Op : Operator) (Left Right : Expr)
  deriving DecidableEq, Repr

/-- An `AST *`: an expression (possibly the null pointer) or a `WithDecl`. -/
inductive AST
  | expr (E : Expr)
  | WithDecl (Vars : List (List Char)) (E : Expr)
  deriving DecidableEq, Repr

/-! ## calc parser (`Parser.h`, `Parser.cpp`) -/

/-- `Parser`: the lexer, the lookahead token and the error flag; `Errs` are
the texts printed by `error()` after `Unexpected: `, in order. -/
structure Parser where
  Lex : Lexer
  Tok : Token
  HasError : Bool
  Errs : List (List Char)
  deriving DecidableEq, Repr

namespace Parser

/-- `Parser::error`. -/
def error (P : Parser) : Parser :=
  { P with Errs := P.Errs ++ [P.Tok.Text], HasError := true }

/-- `Parser::advance`. -/
def advance (P : Parser) : Parser :=
  { P with Lex := (P.Lex.next P.Tok).1, Tok := (P.Lex.next P.Tok).2 }

/-- `Parser::expect`. -/
def expect (P : Parser) (Kind : TokenKind) : Bool × Parser :=
  if P.Tok.Kind ≠ Kind then (true, P.error) else (false, P)

/-- `Parser::consume`. -/
def consume (P : Parser) (Kind : TokenKind) : Bool × Parser :=
  if (P.expect Kind).1 then (true, (P.expect Kind).2)
  else (false, (P.expect Kind).2.advance)

/-- The constructor `Parser(Lexer &Lex)`: `Tok` is default-constructed (empty
text; its kind is not initialised and is set by the first `advance`), then
the first token is read. -/
def create (Buffer : List Char) : Parser :=
  advance { Lex := { BufferStart := Buffer, BufferPtr := 0 }, Tok := { Kind := .unknown, Text := [] },
            HasError := false, Errs := [] }

/-- The loop at the end of `parseFactor`:
`while (!Tok.isOneOf(r_paren, star, plus, minus, slash, rem, exp, eoi)) advance();`.
The first argument bounds the number of iterations. -/
def skipToFollow : Nat → Parser → Option Parser
  | 0, _ => none
  | fuel + 1, P =>
    if P.Tok.Kind ∈ [TokenKind.r_paren, .star, .plus, .minus, .slash, .rem, .exp, .eoi] then some P
    else skipToFollow fuel P.advance

/-- `Parser::parseFactor`; `pe` is `parseExpr`. -/
def parseFactor (pe : Parser → Option (Parser × Expr)) (fuel : Nat) (P : Parser) :
    Option (Parser × Expr) :=
  let r : Option (Parser × Expr) :=
    match P.Tok.Kind with
    | .number => some (P.advance, Expr.Factor .Number P.Tok.Text)
    | .ident => some (P.advance, Expr.Factor .Ident P.Tok.Text)
    | .l_paren =>
      match pe P.advance with
      | none => none
      | some (P1, Res) =>
        if !(P1.consume .r_paren).1 then some ((P1.consume .r_paren).2, Res)
        else if Res = .nullptr then some ((P1.consume .r_paren).2.error, Res)
        else some ((P1.consume .r_paren).2, Res)
    | _ => some (P.error, Expr.nullptr)
  match r with
  | none => none
  | some (P', Res) =>
    match skipToFollow fuel P' with
    | none => none
    | some P'' => some (P'', Res)

/-- The loop of `parseTerm`; `pt` is `parseTerm` (called for the right
operand of `^`). -/
def parseTermLoop (pe pt : Parser → Option (Parser × Expr)) (fuel : Nat) :
    Nat → Parser → Expr → Option (Parser × Expr)
  | 0, _, _ => none
  | n + 1, P, Left =>
    if P.Tok.Kind ∈ [TokenKind.star, .slash, .rem, .exp] then
      let Op : Operator :=
        if P.Tok.Kind = .star then .Mul
        else if P.Tok.Kind = .slash then .Div
        else if P.Tok.Kind = .rem then .Rem
        else .Exp
      match (if Op = .Exp then pt P.advance else parseFactor pe fuel P.advance) with
      | none => none
      | some (P', Right) => parseTermLoop pe pt fuel n P' (.BinaryOp Op Left Right)
    else some (P, Left)

/-- `Parser::parseTerm`; the first argument bounds the nesting of `^`, the
iterations of the loops and the tokens skipped. -/
def parseTerm (pe : Parser → Option (Parser × Expr)) : Nat → Parser → Option (Parser × Expr)
  | 0, _ => none
  | fuel + 1, P =>
    match parseFactor pe (fuel + 1) P with
    | none => none
    | some (P', Left) => parseTermLoop pe (parseTerm pe fuel) (fuel + 1) (fuel + 1) P' Left

/-- The loop of `parseExpr`. -/
def parseExprLoop (pt : Parser → Option (Parser × Expr)) :
    Nat → Parser → Expr → Option (Parser × Expr)
  | 0, _, _ => none
  | n + 1, P, Left =>
    if P.Tok.Kind ∈ [TokenKind.plus, .minus] then
      let Op : Operator := if P.Tok.Kind = .plus then .Plus else .Minus
      match pt P.advance with
      | none => none
      | some (P', Right) => parseExprLoop pt n P' (.BinaryOp Op Left Right)
    else some (P, Left)

/-- `Parser::parseExpr`; the first argument bounds the nesting of
parentheses, the iterations of the loops and the tokens skipped. -/
def parseExpr : Nat → Parser → Option (Parser × Expr)
  | 0, _ => none
  | fuel + 1, P =>
    match parseTerm (parseExpr fuel) (fuel + 1) P with
    | none => none
    | some (P', Left) => parseExprLoop (parseTerm (parseExpr fuel) (fuel + 1)) (fuel + 1) P' Left

/-- The loop of `parseCalc` over `"," ident`; the result `true` is the jump
to `_error`. -/
def parseCalcVars : Nat → Parser → List (List Char) → Option (Bool × Parser × List (List Char))
  | 0, _, _ => none
  | n + 1, P, Vars =>
    if P.Tok.Kind = .comma then
      if (P.advance.expect .ident).1 then some (true, (P.advance.expect .ident).2, Vars)
      else parseCalcVars n P.advance.advance (Vars ++ [P.advance.Tok.Text])
    else some (false, P, Vars)

/-- The label `_error` of `parseCalc`:
`while (!Tok.is(Token::eoi)) advance(); return nullptr;`. -/
def skipToEoi : Nat → Parser → Option Parser
  | 0, _ => none
  | fuel + 1, P => if P.Tok.Kind = .eoi then some P else skipToEoi fuel P.advance

/-- `Parser::parseCalc`. -/
def parseCalc (fuel : Nat) (P : Parser) : Option (Parser × AST) :=
  let _error (P : Parser) : Option (Parser × AST) :=
    match skipToEoi fuel P with
    | none => none
    | some P' => some (P', AST.expr .nullptr)
  let body (P : Parser) (Vars : List (List Char)) : Option (Parser × AST) :=
    match parseExpr fuel P with
    | none => none
    | some (P', E) => if Vars.isEmpty then some (P', AST.expr E) else some (P', AST.WithDecl Vars E)
  if P.Tok.Kind = .KW_with then
    if (P.advance.expect .ident).1 then _error (P.advance.expect .ident).2
    else
      match parseCalcVars fuel P.advance.advance [P.advance.Tok.Text] with
      | none => none
      | some (true, P1, _) => _error P1
      | some (false, P1, Vars) =>
        if (P1.consume .colon).1 then _error (P1.consume .colon).2
        else body (P1.consume .colon).2 Vars
  else body P []

/-- `Parser::parse`: the tree and the parser afterwards (`hasError()` is its
field `HasError`). -/
def parse (fuel : Nat) (P : Parser) : Option (Parser × AST) :=
  match parseCalc fuel P with
  | none => none
  | some (P', Res) => some ((P'.expect .eoi).2, Res)

end Parser

/-! ## LLVM IR as built by calc

`CodeGen.cpp` builds one function, `main`, through an `IRBuilder<>`.  The
classes of LLVM are not part of the source tree; what follows models the
part of them that `ToIRVisitor` uses.  The insertion point of the builder is
always the end of a block (`SetInsertPoint(BasicBlock *)`), so that the
instructions of a block are the instructions with that `parent`, in creation
order. -/

abbrev InstId := Nat

abbrev BlockId := Nat

/-- The types used: `VoidTy`, integer types, `PtrTy` and the struct
`{ ptr, i32 }` of the landing pad. -/
inductive Ty
  | void
  | int (bits : Nat)
  | ptr
  | landingpad
  deriving DecidableEq, Repr

/-- A `Value *`: the C++ null pointer, the constants calc creates, and
instructions (numbered in creation order). -/
inductive Value
  | nullptr
  | constInt (bits : Nat) (val : Nat)
  | poison (ty : Ty)
  | ConstantPointerNull
  | global (Name : String)
  | function (Name : String)
  | inst (id : InstId)
  deriving DecidableEq, Repr

/-- The comparison predicates used. -/
inductive Pred
  | ICMP_EQ | ICMP_SGT
  deriving DecidableEq, Repr

/-- The instructions created by `ToIRVisitor`. -/
inductive Opcode
  | Add | Sub | Mul | SDiv | SRem | ICmp (P : Pred) | PHI | Alloca | Load | Store
  | Br | Ret | Call | Invoke | LandingPad | ExtractValue (Idx : Nat) | Resume | Unreachable
  deriving DecidableEq, Repr

/-- An `llvm::Instruction`.  `operands` are the value operands (for a call or
invoke the arguments followed by the callee, for a landing pad its clauses);
`blocks` are the successors of a branch or invoke (for an invoke the normal
destination, then the unwind destination) or the incoming blocks of a phi,
parallel to `operands`; `nsw` is the no-signed-wrap flag. -/
structure Instruction where
  op : Opcode
  nsw : Bool
  ty : Ty
  operands : List Value
  blocks : List BlockId
  parent : BlockId
  deriving DecidableEq, Repr

/-- An `llvm::Function` of the module: a declaration, but for `main`. -/
structure Function where
  Name : String
  Result : Ty
  Params : List Ty
  IsVarArgs : Bool
  deriving DecidableEq, Repr

/-- `ToIRVisitor` together with the module `M` and the `IRBuilder`:
the functions and global variables of the module, the personality function
of `main`, the blocks (by name) and instructions of `main`, the insertion
block of the builder, and the members `V`, `nameMap` (latest entry first),
`TypeInfo`, `AllocEHFn`, `ThrowEHFn`, `LPadBB`, `UnreachableBB`. -/
structure ToIRVisitor where
  functions : List Function
  globals : List String
  personality : Value
  blocks : List String
  insts : List Instruction
  InsertBB : BlockId
  V : Value
  nameMap : List (List Char × Value)
  TypeInfo : Value
  AllocEHFn : Value
  ThrowEHFn : Value
  LPadBB : Option BlockId
  UnreachableBB : Option BlockId
  deriving DecidableEq, Repr

/-- The visitor after its constructor, on an empty module; `V` is not
initialised by the source (it is written before it is read). -/
def ToIRVisitor.init : ToIRVisitor where
  functions := []
  globals := []
  personality := .nullptr
  blocks := []
  insts := []
  InsertBB := 0
  V := .nullptr
  nameMap := []
  TypeInfo := .nullptr
  AllocEHFn := .nullptr
  ThrowEHFn := .nullptr
  LPadBB := none
  UnreachableBB := none

/-- `Value::getType`, for a value of a function with the instructions
`insts`. -/
def Value.getType (insts : List Instruction) : Value → Ty
  | .nullptr => .void
  | .constInt b _ => .int b
  | .poison t => t
  | .ConstantPointerNull => .ptr
  | .global _ => .ptr
  | .function _ => .ptr
  | .inst i =>
    match insts[i]? with
    | some x => x.ty
    | none => .void

/-- `Value::getType` in the state `s`. -/
def ToIRVisitor.typeOf (s : ToIRVisitor) (v : Value) : Ty :=
  v.getType s.insts

/-- State transformers on the visitor. -/
def G (α : Type) : Type := ToIRVisitor → α × ToIRVisitor

instance : Monad G where
  pure a := fun s => (a, s)
  bind x f := fun s => f (x s).1 (x s).2

/-- Read the state. -/
def G.get : G ToIRVisitor := fun s => (s, s)

/-- Update the state. -/
def G.modify (f : ToIRVisitor → ToIRVisitor) : G Unit := fun s => ((), f s)

/-- `BasicBlock::Create(Ctx, Name, Fn)`: a new block at the end of `main`. -/
def BasicBlock.Create (Name : String) : G BlockId := fun s =>
  (s.blocks.length, { s with blocks := s.blocks ++ [Name] })

/-- `Builder.SetInsertPoint(BB)`: insert at the end of `BB`. -/
def SetInsertPoint (BB : BlockId) : G Unit :=
  G.modify fun s => { s with InsertBB := BB }

/-- `Builder.GetInsertBlock()`. -/
def GetInsertBlock : G BlockId := fun s => (s.InsertBB, s)

/-- `Builder.Insert`: the instruction is appended to the insertion block. -/
def Insert (op : Opcode) (nsw : Bool) (ty : Ty) (operands : List Value) (blocks : List BlockId) :
    G Value := fun s =>
  (.inst s.insts.length,
    { s with insts := s.insts ++
        [{ op := op, nsw := nsw, ty := ty, operands := operands, blocks := blocks,
           parent := s.InsertBB }] })

/-- The signed reading of an unsigned `bits`-bit number. -/
def toSigned (bits val : Nat) : Int :=
  if val < 2 ^ (bits - 1) then (val : Int) else (val : Int) - 2 ^ bits

/-- The `bits`-bit representative of an integer. -/
def ofSigned (bits : Nat) (v : Int) : Nat :=
  (v % 2 ^ bits).toNat

/-- `ConstantFoldBinaryInstruction` on two `ConstantInt`s of width `b`: a
division by zero and the overflowing division fold to poison. -/
def foldInt (op : Opcode) (b x y : Nat) : Option Value :=
  match op with
  | .Add => some (.constInt b ((x + y) % 2 ^ b))
  | .Sub => some (.constInt b ((x + 2 ^ b - y % 2 ^ b) % 2 ^ b))
  | .Mul => some (.constInt b ((x * y) % 2 ^ b))
  | .SDiv =>
    if y = 0 ∨ (y = 2 ^ b - 1 ∧ x = 2 ^ (b - 1)) then some (.poison (.int b))
    else some (.constInt b (ofSigned b (Int.tdiv (toSigned b x) (toSigned b y))))
  | .SRem =>
    if y = 0 ∨ (y = 2 ^ b - 1 ∧ x = 2 ^ (b - 1)) then some (.poison (.int b))
    else some (.constInt b (ofSigned b (Int.tmod (toSigned b x) (toSigned b y))))
  | .ICmp .ICMP_EQ => some (.constInt 1 (if x = y then 1 else 0))
  | .ICmp .ICMP_SGT => some (.constInt 1 (if toSigned b x > toSigned b y then 1 else 0))
  | _ => none

/-- The folder of `IRBuilder<>` (`ConstantFolder`) on the operands that calc
hands to arithmetic and comparisons: it folds when both operands are
constants, that is `ConstantInt`s or poison (poison propagates), and returns
a null pointer, here `none`, when one of them is an instruction. -/
def ConstantFolder (op : Opcode) (L R : Value) : Option Value :=
  match L, R with
  | .constInt b x, .constInt b' y => if b = b' then foldInt op b x y else none
  | .poison t, .constInt _ _ => some (.poison (match op with | .ICmp _ => .int 1 | _ => t))
  | .constInt _ _, .poison t => some (.poison (match op with | .ICmp _ => .int 1 | _ => t))
  | .poison t, .poison _ => some (.poison (match op with | .ICmp _ => .int 1 | _ => t))
  | _, _ => none

/-- A binary `Builder.Create...` call: the constant of the folder when it
folds, else a new instruction. -/
def CreateBinOp (op : Opcode) (nsw : Bool) (L R : Value) : G Value := fun s =>
  match ConstantFolder op L R with
  | some V => (V, s)
  | none => Insert op nsw (s.typeOf L) [L, R] [] s

/-- `Builder.CreateNSWAdd`. -/
def CreateNSWAdd (L R : Value) : G Value := CreateBinOp .Add true L R

/-- `Builder.CreateNSWSub`. -/
def CreateNSWSub (L R : Value) : G Value := CreateBinOp .Sub true L R

/-- `Builder.CreateNSWMul`. -/
def CreateNSWMul (L R : Value) : G Value := CreateBinOp .Mul true L R

/-- `Builder.CreateSub`. -/
def CreateSub (L R : Value) : G Value := CreateBinOp .Sub false L R

/-- `Builder.CreateSDiv`. -/
def CreateSDiv (L R : Value) : G Value := CreateBinOp .SDiv false L R

/-- `Builder.CreateSRem`. -/
def CreateSRem (L R : Value) : G Value := CreateBinOp .SRem false L R

/-- `Builder.CreateCmp` / `CreateICmpSGT`. -/
def CreateCmp (P : Pred) (L R : Value) : G Value := fun s =>
  match ConstantFolder (.ICmp P) L R with
  | some V => (V, s)
  | none => Insert (.ICmp P) false (.int 1) [L, R] [] s

/-- `Builder.CreateBr`. -/
def CreateBr (Dest : BlockId) : G Value := Insert .Br false .void [] [Dest]

/-- `Builder.CreateCondBr`. -/
def CreateCondBr (Cond : Value) (True False : BlockId) : G Value :=
  Insert .Br false .void [Cond] [True, False]

/-- `Builder.CreateAlloca(Ty)`. -/
def CreateAlloca (_Ty : Ty) : G Value := Insert .Alloca false .ptr [] []

/-- `Builder.CreateStore(Val, Ptr)`. -/
def CreateStore (Val Ptr : Value) : G Value := Insert .Store false .void [Val, Ptr] []

/-- `Builder.CreateLoad(Ty, Ptr)`. -/
def CreateLoad (Ty : Ty) (Ptr : Value) : G Value := Insert .Load false Ty [Ptr] []

/-- `Builder.CreatePHI(Ty, NumReservedValues)`. -/
def CreatePHI (Ty : Ty) : G Value := Insert .PHI false Ty [] []

/-- `PHINode::addIncoming(V, BB)` and `LandingPadInst::addClause(V)` (with no
block): one more operand of an existing instruction. -/
def addOperand (I : Value) (V : Value) (BB : List BlockId) : G Unit :=
  G.modify fun s =>
    match I with
    | .inst i =>
      let f : Instruction → Instruction :=
        fun x => { x with operands := x.operands ++ [V], blocks := x.blocks ++ BB }
      { s with insts := s.insts.modify f i }
    | _ => s

/-- `PHINode::addIncoming(V, BB)`. -/
def addIncoming (Phi : Value) (V : Value) (BB : BlockId) : G Unit := addOperand Phi V [BB]

/-- `LandingPadInst::addClause(V)`. -/
def addClause (LPad : Value) (V : Value) : G Unit := addOperand LPad V []

/-- `Builder.CreateCall(FTy, Callee, Args)`. -/
def CreateCall (Result : Ty) (Callee : Value) (Args : List Value) : G Value :=
  Insert .Call false Result (Args ++ [Callee]) []

/-- `Builder.CreateInvoke(FTy, Callee, NormalDest, UnwindDest, Args)`. -/
def CreateInvoke (Result : Ty) (Callee : Value) (NormalDest UnwindDest : Option BlockId)
    (Args : List Value) : G Value :=
  Insert .Invoke false Result (Args ++ [Callee]) (NormalDest.toList ++ UnwindDest.toList)

/-- `Builder.CreateLandingPad(Ty, NumClauses)`. -/
def CreateLandingPad (Ty : Ty) : G Value := Insert .LandingPad false Ty [] []

/-- `Builder.CreateExtractValue(Agg, {Idx})` on an instruction. -/
def CreateExtractValue (Agg : Value) (Idx : Nat) : G Value :=
  Insert (.ExtractValue Idx) false (if Idx = 0 then .ptr else .int 32) [Agg] []

/-- `Builder.CreateResume`. -/
def CreateResume (Exn : Value) : G Value := Insert .Resume false .void [Exn] []

/-- `Builder.CreateUnreachable`. -/
def CreateUnreachable : G Value := Insert .Unreachable false .void [] []

/-- `Builder.CreateRet`. -/
def CreateRet (V : Value) : G Value := Insert .Ret false .void [V] []

/-- `Builder.CreateBitCast(V, DestTy)` and `ConstantExpr::getBitCast`, which
return `V` itself when it has the type `DestTy` already; calc casts pointers
to `PtrTy` only. -/
def CreateBitCast (V : Value) (_DestTy : Ty) : G Value := pure V

/-- `Function::Create(Fty, ExternalLinkage, N, M)` with
`Fty = FunctionType::get(Result, Params, IsVarArgs)`. -/
def Function.Create (N : String) (Result : Ty) (Params : List Ty) (IsVarArgs : Bool) :
    G Value := fun s =>
  (.function N,
    { s with functions := s.functions ++
        [{ Name := N, Result := Result, Params := Params, IsVarArgs := IsVarArgs }] })

/-- `new GlobalVariable(*M, ..., Name)` and `Builder.CreateGlobalString`. -/
def GlobalVariable.Create (Name : String) : G Value := fun s =>
  (.global Name, { s with globals := s.globals ++ [Name] })

/-! ## calc code generator (`CodeGen.cpp`) -/

/-- `Int32Zero`. -/
def Int32Zero : Value := .constInt 32 0

/-- `ToIRVisitor::createICmpEq`. -/
def createICmpEq (Left Right : Value) (TrueLabel FalseLabel : String) : G (BlockId × BlockId) := do
  let TrueDest ← BasicBlock.Create TrueLabel
  let FalseDest ← BasicBlock.Create FalseLabel
  let Cmp ← CreateCmp .ICMP_EQ Left Right
  let _ ← CreateCondBr Cmp TrueDest FalseDest
  pure (TrueDest, FalseDest)

/-- `ToIRVisitor::createFunc`. -/
def createFunc (N : String) (Result : Ty) (Params : List Ty) (IsVarArgs : Bool) : G Value :=
  Function.Create N Result Params IsVarArgs

/-- `ToIRVisitor::addLandingPad`. -/
def addLandingPad : G Unit := do
  let TypeIdFn ← createFunc "llvm.eh.typeid.for" (.int 32) [.ptr] false
  let BeginCatchFn ← createFunc "__cxa_begin_catch" .ptr [.ptr] false
  let EndCatchFn ← createFunc "__cxa_end_catch" .void [] false
  let PutsFn ← createFunc "puts" (.int 32) [.ptr] false
  let Exc ← CreateLandingPad .landingpad
  let s ← G.get
  let TypeInfoPtr ← CreateBitCast s.TypeInfo .ptr
  addClause Exc TypeInfoPtr
  let Sel ← CreateExtractValue Exc 1
  let Id ← CreateCall (.int 32) TypeIdFn [TypeInfoPtr]
  let Dests ← createICmpEq Sel Id "match" "resume"
  SetInsertPoint Dests.2
  let _ ← CreateResume Exc
  SetInsertPoint Dests.1
  let Ptr ← CreateExtractValue Exc 0
  let _ ← CreateCall .ptr BeginCatchFn [Ptr]
  let MsgPtr ← GlobalVariable.Create "msg"
  let _ ← CreateCall (.int 32) PutsFn [MsgPtr]
  let _ ← CreateCall .void EndCatchFn []
  let _ ← CreateRet Int32Zero
  pure ()

/-- `ToIRVisitor::addThrow`. -/
def addThrow (PayloadVal : Nat) : G Unit := do
  let s ← G.get
  if s.TypeInfo = .nullptr then do
    let TypeInfo ← GlobalVariable.Create "_ZTIi"
    G.modify fun t => { t with TypeInfo := TypeInfo }
    let AllocEHFn ← createFunc "__cxa_allocate_exception" .ptr [.int 64] false
    G.modify fun t => { t with AllocEHFn := AllocEHFn }
    let ThrowEHFn ← createFunc "__cxa_throw" .void [.ptr, .ptr, .ptr] false
    G.modify fun t => { t with ThrowEHFn := ThrowEHFn }
    let PersFn ← createFunc "__gxx_personality_v0" (.int 32) [] true
    G.modify fun t => { t with personality := PersFn }
    let SaveBB ← GetInsertBlock
    let LPadBB ← BasicBlock.Create "lpad"
    G.modify fun t => { t with LPadBB := some LPadBB }
    SetInsertPoint LPadBB
    addLandingPad
    let UnreachableBB ← BasicBlock.Create "unreachable"
    G.modify fun t => { t with UnreachableBB := some UnreachableBB }
    SetInsertPoint UnreachableBB
    let _ ← CreateUnreachable
    SetInsertPoint SaveBB
  let PayloadSz : Value := .constInt 64 4
  let s ← G.get
  let EH ← CreateCall .ptr s.AllocEHFn [PayloadSz]
  let PayloadPtr ← CreateBitCast EH .ptr
  let _ ← CreateStore (.constInt 32 PayloadVal) PayloadPtr
  let TypeInfoPtr ← CreateBitCast s.TypeInfo .ptr
  let _ ← CreateInvoke .void s.ThrowEHFn s.UnreachableBB s.LPadBB
    [EH, TypeInfoPtr, .ConstantPointerNull]
  pure ()

/-- The loop `for (uint64_t i = 1; i < exp_val; i++) result =
Builder.CreateNSWMul(result, base);` of `generateExponent`, with the number
of iterations as first argument. -/
def mulLoop : Nat → Value → Value → G Value
  | 0, result, _ => pure result
  | n + 1, result, base => do
    let result ← CreateNSWMul result base
    mulLoop n result base

/-- `ToIRVisitor::generateExponent`. -/
def generateExponent (base exponent : Value) : G Value :=
  match exponent with
  | .constInt _ exp_val =>
    if exp_val = 0 then pure (.constInt 32 1)
    else if exp_val < 10 then
      match exp_val with
      | 1 => pure base
      | 2 => CreateNSWMul base base
      | 3 => do
        let temp ← CreateNSWMul base base
        CreateNSWMul temp base
      | 4 => do
        let temp ← CreateNSWMul base base
        CreateNSWMul temp temp
      | 5 => do
        let temp ← CreateNSWMul base base
        let temp2 ← CreateNSWMul temp temp
        CreateNSWMul temp2 base
      | _ => mulLoop (exp_val - 1) base base
    else do
      let currentBlock ← GetInsertBlock
      let loopBlock ← BasicBlock.Create "exp.loop"
      let exitBlock ← BasicBlock.Create "exp.exit"
      let counter ← CreateAlloca (.int 32)
      let _ ← CreateStore exponent counter
      let result := base
      let _ ← CreateBr loopBlock
      SetInsertPoint loopBlock
      let s ← G.get
      let resultPhi ← CreatePHI (s.typeOf base)
      addIncoming resultPhi result currentBlock
      let newResult ← CreateNSWMul resultPhi base
      let currentCount ← CreateLoad (.int 32) counter
      let newCount ← CreateSub currentCount (.constInt 32 1)
      let _ ← CreateStore newCount counter
      addIncoming resultPhi newResult loopBlock
      let condition ← CreateCmp .ICMP_SGT newCount (.constInt 32 1)
      let _ ← CreateCondBr condition loopBlock exitBlock
      SetInsertPoint exitBlock
      pure newResult
  | _ => do
    let loopBlock ← BasicBlock.Create "exp.loop"
    let exitBlock ← BasicBlock.Create "exp.exit"
    let Dests ← createICmpEq exponent Int32Zero "" ""
    let zeroTrueBlock := Dests.1
    let zeroFalseBlock := Dests.2
    SetInsertPoint zeroTrueBlock
    let s ← G.get
    let one : Value := .constInt (match s.typeOf base with | .int b => b | _ => 32) 1
    let _ ← CreateBr exitBlock
    SetInsertPoint zeroFalseBlock
    let counter ← CreateAlloca (.int 32)
    let _ ← CreateStore exponent counter
    let result := base
    let _ ← CreateBr loopBlock
    SetInsertPoint loopBlock
    let resultPhi ← CreatePHI (s.typeOf base)
    addIncoming resultPhi result zeroFalseBlock
    let newResult ← CreateNSWMul resultPhi base
    let currentCount ← CreateLoad (.int 32) counter
    let newCount ← CreateSub currentCount (.constInt 32 1)
    let _ ← CreateStore newCount counter
    addIncoming resultPhi newResult loopBlock
    let condition ← CreateCmp .ICMP_SGT newCount (.constInt 32 1)
    let _ ← CreateCondBr condition loopBlock exitBlock
    SetInsertPoint exitBlock
    let finalResult ← CreatePHI (s.typeOf base)
    addIncoming finalResult one zeroTrueBlock
    addIncoming finalResult newResult loopBlock
    pure finalResult

/-- The switch of `ToIRVisitor::visit(BinaryOp &)`, after both operands have
been visited; the result is the new `V`. -/
def visitBinaryOp (Op : Operator) (Left Right : Value) : G Value :=
  match Op with
  | .Plus => CreateNSWAdd Left Right
  | .Minus => CreateNSWSub Left Right
  | .Mul => CreateNSWMul Left Right
  | .Div => do
    let Dests ← createICmpEq Right Int32Zero "divbyzero" "notzero"
    SetInsertPoint Dests.1
    addThrow 42
    SetInsertPoint Dests.2
    CreateSDiv Left Right
  | .Rem => do
    let Dests ← createICmpEq Right Int32Zero "rembyzero" "remnotzero"
    SetInsertPoint Dests.1
    addThrow 42
    SetInsertPoint Dests.2
    CreateSRem Left Right
  | .Exp => generateExponent Left Right

/-- `StringRef::getAsInteger(10, intval)` for `int intval` on the text of a
number token: the value when the text is a decimal number that fits `int`,
`none` when the call fails (it returns true and leaves `intval` as it is). -/
def getAsInteger (Val : List Char) : Option Nat :=
  if Val ≠ [] ∧ Val.all Char.isDigit ∧ (String.mk Val).toNat! < 2 ^ 31 then
    some (String.mk Val).toNat!
  else none

/-- `ToIRVisitor::visit(Factor &)` and `visit(BinaryOp &)`, by recursion over
the tree.  The result `none` stands for undefined behaviour of the source:
`accept` on a null pointer, a variable that is not in `nameMap` (the null
pointer that `nameMap[...]` then yields is dereferenced at its use), and a
literal for which `getAsInteger` fails (`intval` is not initialised). -/
def visit : Expr → ToIRVisitor → Option ToIRVisitor
  | .nullptr, _ => none
  | .Factor .Ident Val, s =>
    match s.nameMap.lookup Val with
    | some v => some { s with V := v }
    | none => none
  | .Factor .Number Val, s =>
    match getAsInteger Val with
    | some intval => some { s with V := .constInt 32 intval }
    | none => none
  | .BinaryOp Op L R, s =>
    match visit L s with
    | none => none
    | some s1 =>
      match visit R s1 with
      | none => none
      | some s2 =>
        some { (visitBinaryOp Op s1.V s2.V s2).2 with V := (visitBinaryOp Op s1.V s2.V s2).1 }

/-- The loop of `ToIRVisitor::visit(WithDecl &)` over the variables. -/
def readVars (ReadFn : Value) : List (List Char) → G Unit
  | [] => pure ()
  | Var :: Vars => do
    let Str ← GlobalVariable.Create (String.mk Var ++ ".str")
    let Call ← CreateCall (.int 32) ReadFn [Str]
    G.modify fun t => { t with nameMap := (Var, Call) :: t.nameMap }
    readVars ReadFn Vars

/-- `Tree->accept(*this)`: `visit(WithDecl &)` or the visit of an
expression. -/
def accept : AST → ToIRVisitor → Option ToIRVisitor
  | .expr E, s => visit E s
  | .WithDecl Vars E, s =>
    visit E ((do
      let ReadFn ← Function.Create "calc_read" (.int 32) [.ptr] false
      readVars ReadFn Vars : G Unit) s).2

/-- `ToIRVisitor::run`, on a fresh visitor. -/
def run (Tree : AST) : Option ToIRVisitor :=
  match accept Tree
      ((do
        let _ ← Function.Create "main" (.int 32) [.int 32, .ptr] false
        let BB ← BasicBlock.Create "entry"
        SetInsertPoint BB : G Unit) ToIRVisitor.init).2 with
  | none => none
  | some s =>
    some ((do
      let CalcWriteFn ← Function.Create "calc_write" .void [.int 32] false
      let _ ← CreateCall .void CalcWriteFn [s.V]
      let _ ← CreateRet Int32Zero : G Unit) s).2

/-! ## Execution of the generated code

Modelled from the LLVM Language Reference, which is not part of the source
tree: the meaning of the instructions that `generateExponent` emits, on
integers.  A register holds the result of an executed instruction, a memory
cell belongs to an executed `alloca`.  An instruction whose result is poison
or undefined (signed overflow under `nsw`, division by zero, a load from a
cell never stored to), and every instruction not described here, stops the
machine: `step` returns `none`. -/

/-- The number is a signed `bits`-bit number. -/
def fits (bits : Nat) (x : Int) : Bool :=
  decide (-(2 ^ (bits - 1) : Int) ≤ x) && decide (x < (2 ^ (bits - 1) : Int))

/-- The result of an arithmetic instruction of width `bits` on the signed
operands `a` and `b`. -/
def arith (op : Opcode) (nsw : Bool) (bits : Nat) (a b : Int) : Option Int :=
  match op with
  | .Add => if nsw && !fits bits (a + b) then none else some (toSigned bits (ofSigned bits (a + b)))
  | .Sub => if nsw && !fits bits (a - b) then none else some (toSigned bits (ofSigned bits (a - b)))
  | .Mul => if nsw && !fits bits (a * b) then none else some (toSigned bits (ofSigned bits (a * b)))
  | .SDiv => if b = 0 || !fits bits (Int.tdiv a b) then none else some (Int.tdiv a b)
  | .SRem => if b = 0 || !fits bits (Int.tdiv a b) then none else some (Int.tmod a b)
  | .ICmp .ICMP_EQ => some (if a = b then 1 else 0)
  | .ICmp .ICMP_SGT => some (if a > b then 1 else 0)
  | _ => none

/-- The state of an execution of `main`: the registers, the memory cells of
the `alloca`s, the block left last, the current block, and the position in
it (the instructions of the current block with a number below `pc` have been
executed). -/
structure Machine where
  regs : InstId → Option Int
  mem : InstId → Option Int
  prev : BlockId
  block : BlockId
  pc : Nat

/-- The value of an operand: a constant integer (signed reading) or the
register of an instruction. -/
def Machine.val (m : Machine) : Value → Option Int
  | .constInt b v => some (toSigned b v)
  | .inst i => m.regs i
  | _ => none

/-- The first instruction of block `b` in `xs`, numbered from `i`. -/
def fetchFrom (b : BlockId) : List Instruction → Nat → Option (InstId × Instruction)
  | [], _ => none
  | x :: xs, i => if x.parent = b then some (i, x) else fetchFrom b xs (i + 1)

/-- The instruction to execute next: the first one of the current block with
a number from `pc` on. -/
def fetch (insts : List Instruction) (m : Machine) : Option (InstId × Instruction) :=
  fetchFrom m.block (insts.drop m.pc) m.pc

/-- Write a register and go on behind instruction `i`. -/
def Machine.setReg (m : Machine) (i : InstId) (v : Int) : Machine :=
  { m with regs := fun j => if j = i then some v else m.regs j, pc := i + 1 }

/-- Execute the `alloca` with the number `i`: its cell holds no value yet. -/
def Machine.alloca (m : Machine) (i : InstId) : Machine :=
  { m with mem := fun j => if j = i then none else m.mem j, pc := i + 1 }

/-- Execute the store with the number `i`, of `r` to the cell of the `alloca`
with the number `a`. -/
def Machine.store (m : Machine) (i a : InstId) (r : Int) : Machine :=
  { m with mem := fun j => if j = a then some r else m.mem j, pc := i + 1 }

/-- Enter block `b`. -/
def Machine.jump (m : Machine) (b : BlockId) : Machine :=
  { m with prev := m.block, block := b, pc := 0 }

/-- Execute one instruction. -/
def step (insts : List Instruction) (m : Machine) : Option Machine :=
  match fetch insts m with
  | none => none
  | some (i, x) =>
    match x.op, x.operands, x.blocks with
    | .PHI, vs, bs =>
      match (bs.zip vs).lookup m.prev with
      | some v =>
        match m.val v with
        | some r => some (m.setReg i r)
        | none => none
      | none => none
    | .Alloca, [], [] => some (m.alloca i)
    | .Store, [v, .inst a], [] =>
      match m.val v with
      | some r => some (m.store i a r)
      | none => none
    | .Load, [.inst a], [] =>
      match m.mem a with
      | some r => some (m.setReg i r)
      | none => none
    | .Br, [], [Dest] => some (m.jump Dest)
    | .Br, [Cond], [True, False] =>
      match m.val Cond with
      | some c => some (m.jump (if c ≠ 0 then True else False))
      | none => none
    | op, [a, b], [] =>
      match x.ty, m.val a, m.val b with
      | .int bits, some va, some vb =>
        match arith op x.nsw (match op with | .ICmp _ => 32 | _ => bits) va vb with
        | some r => some (m.setReg i r)
        | none => none
      | _, _, _ => none
    | _, _, _ => none

/-- Execute `n` instructions. -/
def exec (insts : List Instruction) : Nat → Machine → Option Machine
  | 0, m => some m
  | n + 1, m =>
    match step insts m with
    | none => none
    | some m' => exec insts n m'

/-- The machine has arrived at the insertion point of the builder: it is in
the insertion block and has executed all its instructions. -/
def Machine.AtInsertPoint (s : ToIRVisitor) (m : Machine) : Prop :=
  m.block = s.InsertBB ∧ m.pc ≤ s.insts.length ∧ fetch s.insts m = none

/-- The blocks named by the visitor and by its instructions exist, and the
operand `v` has been created. -/
def ToIRVisitor.WellFormed (s : ToIRVisitor) (v : Value) : Prop :=
  s.InsertBB < s.blocks.length ∧ (∀ x ∈ s.insts, x.parent < s.blocks.length) ∧
  ∀ i, v = .inst i → i < s.insts.length

/-- Run from `m`, at the insertion point of `s`, the code that `s'` holds
in addition: the machine arrives at the insertion point of `s'`, the value
`v` is `r` there, and the registers of `s` and the memory cells of `s` are
as before. -/
def Computes (s s' : ToIRVisitor) (m : Machine) (v : Value) (r : Int) : Prop :=
  ∃ n m', exec s'.insts n m = some m' ∧ m'.AtInsertPoint s' ∧ m'.val v = some r ∧
    (∀ i, i < s.insts.length → m'.regs i = m.regs i ∧ m'.mem i = m.mem i)

/-- The instructions of the block `exp.loop` that `generateExponent` emits,
the first of them with the number `n`: the phi of the result (the base from
the block `P` before the loop, the product from the loop `B`), the
multiplication, the decrement of the counter cell, and the branch back while
the counter is above one, else to `X`. -/
def expLoop (n : InstId) (ty : Ty) (base : Value) (counter : InstId) (P B X : BlockId) :
    List Instruction :=
  [ Instruction.mk .PHI false ty [base, .inst (n + 1)] [P, B] B,
    Instruction.mk .Mul true ty [.inst n, base] [] B,
    Instruction.mk .Load false (.int 32) [.inst counter] [] B,
    Instruction.mk .Sub false (.int 32) [.inst (n + 2), .constInt 32 1] [] B,
    Instruction.mk .Store false .void [.inst (n + 3), .inst counter] [] B,
    Instruction.mk (.ICmp .ICMP_SGT) false (.int 1) [.inst (n + 3), .constInt 32 1] [] B,
    Instruction.mk .Br false .void [.inst (n + 5)] [B, X] B ]

/-- Run from `m`, at the insertion point of `s`, the code that `s'` holds in
addition to `s`: the machine arrives in `m'` at the insertion point of `s'`,
and the registers and memory cells of the instructions of `s` are as
before. -/
def Runs (s s' : ToIRVisitor) (m m' : Machine) : Prop :=
  (∃ new, s'.insts = s.insts ++ new) ∧ (∃ n, exec s'.insts n m = some m') ∧
    m'.AtInsertPoint s' ∧
    ∀ i, i < s.insts.length → m'.regs i = m.regs i ∧ m'.mem i = m.mem i

/-- From `s` to `s'` at most `n` instructions have been added, all of them
`mul nsw` in the insertion block, and no block. -/
def MulChain (s s' : ToIRVisitor) (n : Nat) : Prop :=
  s'.blocks = s.blocks ∧ s'.InsertBB = s.InsertBB ∧
    ∃ new, s'.insts = s.insts ++ new ∧ new.length ≤ n ∧
      ∀ x ∈ new, x.op = .Mul ∧ x.nsw = true ∧ x.parent = s.InsertBB ∧ x.blocks = []

/-! ## Notions used in the statements about calc -/

/-- The number of `/` and `%` operators of an expression. -/
def Expr.divRems : Expr → Nat
  | .nullptr => 0
  | .Factor _ _ => 0
  | .BinaryOp Op L R => L.divRems + R.divRems + (if Op = .Div ∨ Op = .Rem then 1 else 0)

/-- The number of `/` and `%` operators of a tree. -/
def AST.divRems : AST → Nat
  | .expr E => E.divRems
  | .WithDecl _ E => E.divRems

/-- The expression is one that semantic analysis accepts and `visit` can
translate: no null pointer, every variable among `Vars`, every literal a
decimal number that fits `int`. -/
def Expr.Valid (Vars : List (List Char)) : Expr → Bool
  | .nullptr => false
  | .Factor .Ident Val => Vars.contains Val
  | .Factor .Number Val => (getAsInteger Val).isSome
  | .BinaryOp _ L R => L.Valid Vars && R.Valid Vars

/-- The tree is one that semantic analysis accepts. -/
def AST.Valid : AST → Bool
  | .expr E => E.Valid []
  | .WithDecl Vars E => E.Valid Vars

/-- The number of instructions with opcode `op`. -/
def ToIRVisitor.count (s : ToIRVisitor) (op : Opcode) : Nat :=
  s.insts.countP fun x => x.op = op

/-- The number of functions of the module with the name `N`. -/
def ToIRVisitor.declared (s : ToIRVisitor) (N : String) : Nat :=
  s.functions.countP fun f => f.Name = N

/-- From `s` to `s'` code has been added that has no part in exception
handling: the instructions of `s` are unchanged, none of the new ones is an
invoke, a landing pad or an `unreachable`, and the functions of the module
and the members for exception handling are as they were. -/
def Grows (s s' : ToIRVisitor) : Prop :=
  (∃ new, s'.insts = s.insts ++ new ∧
    ∀ x ∈ new, x.op ≠ .Invoke ∧ x.op ≠ .LandingPad ∧ x.op ≠ .Unreachable) ∧
  s'.functions = s.functions ∧
  s'.TypeInfo = s.TypeInfo ∧ s'.AllocEHFn = s.AllocEHFn ∧ s'.ThrowEHFn = s.ThrowEHFn ∧
  s'.LPadBB = s.LPadBB ∧ s'.UnreachableBB = s.UnreachableBB ∧ s'.nameMap = s.nameMap

/-- The state of the exception handling after `k` divisions and remainders
have been translated: `k` invokes; for `k = 0` nothing of it exists and the
module has no function but `main` and `calc_read`; for
`k ≥ 1` there is one landing pad, in block `LPadBB`, one `unreachable`, in
block `UnreachableBB`, one declaration each of the two functions, and every
invoke calls `__cxa_throw` and leads to these two blocks. -/
def ExcInv (s : ToIRVisitor) (k : Nat) : Prop :=
  s.count .Invoke = k ∧
  (k = 0 → s.TypeInfo = .nullptr ∧ s.count .LandingPad = 0 ∧ s.count .Unreachable = 0 ∧
    (∀ f ∈ s.functions, f.Name = "main" ∨ f.Name = "calc_read") ∧
    s.LPadBB = none ∧ s.UnreachableBB = none) ∧
  (0 < k → s.TypeInfo ≠ .nullptr ∧ s.ThrowEHFn = .function "__cxa_throw" ∧
    ∃ l u, s.LPadBB = some l ∧ s.UnreachableBB = some u ∧ l ≠ u ∧
      (s.insts.filter fun x => x.op = .LandingPad).map (fun x => x.parent) = [l] ∧
      (s.insts.filter fun x => x.op = .Unreachable).map (fun x => x.parent) = [u] ∧
      s.declared "__cxa_allocate_exception" = 1 ∧ s.declared "__cxa_throw" = 1 ∧
      ∀ x ∈ s.insts, x.op = .Invoke →
        x.blocks = [u, l] ∧ x.operands.getLast? = some (.function "__cxa_throw"))

namespace Example

/-- The tree of `with a, b: a / b % 2`. -/
def divRem : AST :=
  .WithDecl ["a".toList, "b".toList]
    (.BinaryOp .Rem (.BinaryOp .Div (.Factor .Ident "a".toList) (.Factor .Ident "b".toList))
      (.Factor .Number "2".toList))

/-- The visitor of `run` on a tree `with Vars: E`, at the visit of `E`: `main`
with its block `entry`, and the calls of `calc_read`. -/
def afterReads (Vars : List (List Char)) : ToIRVisitor :=
  ((do
    let ReadFn ← Function.Create "calc_read" (.int 32) [.ptr] false
    readVars ReadFn Vars : G Unit)
    ((do
      let _ ← Function.Create "main" (.int 32) [.int 32, .ptr] false
      let BB ← BasicBlock.Create "entry"
      SetInsertPoint BB : G Unit) ToIRVisitor.init).2).2

/-- The tree of `with x: x / 0`. -/
def divByZero : AST :=
  .WithDecl ["x".toList] (.BinaryOp .Div (.Factor .Ident "x".toList) (.Factor .Number "0".toList))

/-- The tree of `3 + 4 * 2`. -/
def sumOfProduct : AST :=
  .expr (.BinaryOp .Plus (.Factor .Number "3".toList)
    (.BinaryOp .Mul (.Factor .Number "4".toList) (.Factor .Number "2".toList)))

/-- The tree of `with b: b ^ 12`. -/
def powTwelve : AST :=
  .WithDecl ["b".toList] (.BinaryOp .Exp (.Factor .Ident "b".toList) (.Factor .Number "12".toList))

/-- The tree of `with b, n: b ^ n`. -/
def powVar : AST :=
  .WithDecl ["b".toList, "n".toList]
    (.BinaryOp .Exp (.Factor .Ident "b".toList) (.Factor .Ident "n".toList))

/-- A machine that has executed the calls of `calc_read`: register `i` holds
the `i`-th number of `inputs`; it is at position `pc` of block `block`. -/
def machine (inputs : List Int) (block : BlockId) (pc : Nat) : Machine where
  regs := fun i => inputs.get? i
  mem := fun _ => none
  prev := 0
  block := block
  pc := pc

end Example

end Calc

namespace tinylang

namespace Example

/-- Formal parameter `VAR r : INTEGER`, passed by reference. -/
def r : Decl := { id := 20, kind := .Param true, ty := some (.int 64) }

/-- `PROCEDURE p(VAR r : INTEGER); BEGIN r := 1 END p`. -/
def assignVarParam : ProcedureDeclaration :=
  { FormalParams := [r], RetType := none, Decls := [], Stmts := [setConst r 1] }

/-- The state in which the body of `assignVarParam` is emitted: one block, the
entry block, and the parameter `r` bound to the first argument. -/
def varParamState : CGState :=
  { CGState.init with numBlocks := 1, FormalParams := fun D => if D = r then some (.arg 0) else none }

/-- `PROCEDURE p(c : BOOLEAN); BEGIN WHILE c DO RETURN END END p`. -/
def whileReturn : ProcedureDeclaration :=
  { FormalParams := [c], RetType := none, Decls := [],
    Stmts := [.WhileStatement (var c) [.ReturnStatement none]] }

/-- `PROCEDURE p(a, b : INTEGER) : INTEGER; BEGIN RETURN a; RETURN a + b END p`. -/
def returnTwice : ProcedureDeclaration :=
  { FormalParams := [a, b], RetType := some (some (.int 64)), Decls := [],
    Stmts := [.ReturnStatement (some (var a)),
      .ReturnStatement (some (.InfixExpression (var a) (var b) .plus))] }

end Example

/-- The opcodes of the instructions of block `BB`, first instruction first. -/
def CGState.blockOps (s : CGState) (BB : BlockId) : List Opcode :=
  (s.blockInsts BB).filterMap fun i => (s.insts i).map fun x => x.op

/-- Block `BB` holds exactly one terminator, and it is the last instruction
of the block. -/
def CGState.terminatedOnce (s : CGState) (BB : BlockId) : Bool :=
  match (s.blockOps BB).reverse with
  | [] => false
  | t :: l => t.isTerminator && l.all fun o => !o.isTerminator

/-- The sealings recorded so far agree with the flags `Sealed`: a block whose
flag is set has been sealed once, a block whose flag is not set has not been
sealed. -/
def SealedOnce (s : CGState) : Prop :=
  ∀ b, s.trace.count (Event.seal b) = if (s.CurrentDef b).Sealed then 1 else 0

/-- The state transformer never fails with the assertion of `sealBlock`
that the block has not been sealed yet. -/
def NoSealAssert {α : Type} (m : M α) : Prop :=
  ∀ s, (m s).error? ≠ some Err.assertAlreadySealed

/-- The outcome is a return in a state with `Q`, or a failure other than the
assertion of `sealBlock` that the block has not been sealed yet. -/
def OkOrOther {α : Type} (Q : α → CGState → Prop) (r : Res α) : Prop :=
  match r with
  | .ok a s' => Q a s'
  | .fail e _ => e ≠ Err.assertAlreadySealed

/-- The state transformer, started between two statements in a state with
`I`, either returns after a `ControlStep` in a state with `I`, or fails with
an error other than the assertion of `sealBlock`. -/
def LowersSealing (I : CGState → Prop) {α : Type} (m : M α) : Prop :=
  ∀ s, ControlInv s → I s → OkOrOther (fun _ s' => ControlStep s s' ∧ I s') (m s)

/-- In every state with `I`, the flag `Sealed` of a block is not set before
the sealing of the block has been recorded. -/
def UnsealedUnflagged (I : CGState → Prop) : Prop :=
  ∀ t, I t → ∀ b, Event.seal b ∉ t.trace → (t.CurrentDef b).Sealed = false

/-! ## Notions used in the statement about the merge block of an `IF` -/

/-- The definition of `D` that a read in block `BB` finds without creating a
phi: the definition recorded for the block or, when the block has none and is
sealed with a single predecessor, what a read in that predecessor finds in
the same way.  The first argument bounds the number of blocks followed. -/
def CGState.visibleDef (s : CGState) : Nat → BlockId → Decl → Option Value
  | 0, _, _ => none
  | n + 1, BB, D =>
    match (s.CurrentDef BB).Defs D with
    | some V => some V
    | none =>
      if (s.CurrentDef BB).Sealed then
        match s.getSinglePredecessor BB with
        | some PredBB => s.visibleDef n PredBB D
        | none => none
      else none

/-- From `s` to `s'` values have only been replaced the way
`replaceAllUsesWith` does it, `σ` telling what each value has become: an
operand and a recorded definition that held `w` hold `σ w`; a definition
recorded meanwhile is what `σ` makes of the definition that was visible there;
the value of an instruction is replaced only when the instruction is erased,
an erased instruction stays erased, and only phi nodes are erased; the
instructions keep their opcodes, the blocks their predecessors and their flags
`Sealed`. -/
structure CGState.Substituted (σ : Value → Value) (s s' : CGState) : Prop where
  fin : ∀ j, s.numInsts ≤ j → s.insts j = none
  le : s.numInsts ≤ s'.numInsts
  gone : ∀ j, j < s.numInsts → s.insts j = none → s'.insts j = none
  ops : ∀ j y y', s.insts j = some y → s'.insts j = some y' →
    ∀ (k : Nat) (w : Value), y.operands[k]? = some w → y'.operands[k]? = some (σ w)
  kind : ∀ j y, s.insts j = some y →
    (∃ y', s'.insts j = some y' ∧ y'.op = y.op) ∨ (s'.insts j = none ∧ y.op = Opcode.PHI)
  defs : ∀ b d w, (s.CurrentDef b).Defs d = some w → (s'.CurrentDef b).Defs d = some (σ w)
  fresh : ∀ b d, (s.CurrentDef b).Defs d = none →
    (s'.CurrentDef b).Defs d = none ∨
    ∃ v', (s'.CurrentDef b).Defs d = some v' ∧ ∀ n w, s.visibleDef n b d = some w → v' = σ w
  sealed : ∀ b, (s'.CurrentDef b).Sealed = (s.CurrentDef b).Sealed
  preds : ∀ b, s'.predecessors b = s.predecessors b
  moved : ∀ i, σ (.inst i) ≠ .inst i → s'.insts i = none ∧ i < s'.numInsts
  const : ∀ w, (∀ i, w ≠ .inst i) → σ w = w

namespace Example

/-- `PROCEDURE p(c : BOOLEAN; a : INTEGER) : INTEGER; VAR x : INTEGER;
BEGIN IF c THEN x := 1 ELSE x := 1 END; RETURN x + a END p`: the block after
the `IF` reads `x` and `a`. -/
def ifSameValueThenSum : ProcedureDeclaration :=
  { FormalParams := [c, a], RetType := some (some (.int 64)), Decls := [x],
    Stmts := [.IfStatement (var c) [setConst x 1] [setConst x 1],
      .ReturnStatement (some (.InfixExpression (var x) (var a) .plus))] }

/-- `PROCEDURE p(c : BOOLEAN; a : INTEGER) : INTEGER; VAR x, y : INTEGER;
BEGIN x := a; IF c THEN y := 1 ELSE y := 2 END; RETURN x + y END p`: neither
branch assigns `x`. -/
def ifKeepsValue : ProcedureDeclaration :=
  { FormalParams := [c, a], RetType := some (some (.int 64)), Decls := [x, y],
    Stmts := [.AssignmentStatement x [] (var a),
      .IfStatement (var c) [setConst y 1] [setConst y 2],
      .ReturnStatement (some (.InfixExpression (var x) (var y) .plus))] }

/-- The state in which `run` starts to emit the statements of the procedure:
the entry block is the current block and the formal parameters are bound to
the arguments. -/
def atBody (Proc : ProcedureDeclaration) : CGState :=
  ((do
    let ParamTypes ← createFunctionType Proc.FormalParams
    M.modify fun t => { t with argTys := ParamTypes }
    let BB ← createBasicBlock
    setCurr BB
    runFormalParams Proc.FormalParams 0
    runDecls Proc.Decls : M Unit) CGState.init).state

/-- The state in which `emit` has lowered the first statement of the
procedure. -/
def afterFirstStmt (E : Env) (fuel : Nat) (Proc : ProcedureDeclaration) : CGState :=
  match Proc.Stmts with
  | S :: _ => (emitStmt E fuel (emit E fuel) S (atBody Proc)).state
  | [] => atBody Proc

/-- The state in which `emit` has lowered all statements of the procedure. -/
def afterStmts (E : Env) (fuel : Nat) (Proc : ProcedureDeclaration) : CGState :=
  match Proc.Stmts with
  | _ :: Post =>
    (forEachStmt (emitStmt E fuel (emit E fuel)) Post (afterFirstStmt E fuel Proc)).state
  | [] => atBody Proc

end Example

/-! ## Mangled names (`CGModule::mangleName`, `CGModule.cpp`) -/

/-- A `Decl *` as `mangleName` uses it: the null pointer, or a declaration
with its name (`getName()`) and its enclosing declaration
(`getEnclosingDecl()`). -/
inductive DeclPtr
  | nullptr
  | decl (Name : List Char) (EnclosingDecL : DeclPtr)
  deriving DecidableEq, Repr

/-- Modelled from LLVM (`StringExtras.h`): the loop of `llvm::utostr`,
`while (X) { *--BufPtr = '0' + char(X % 10); X /= 10; }`.  The first argument
bounds the number of rounds. -/
def utostrLoop : Nat → Nat → List Char → List Char
  | 0, _, Buf => Buf
  | fuel + 1, X, Buf =>
    if X = 0 then Buf else utostrLoop fuel (X / 10) (Char.ofNat (48 + X % 10) :: Buf)

/-- Modelled from LLVM (`StringExtras.h`): `llvm::utostr(uint64_t X, bool isNeg)`.
The loop ends after at most `X` rounds. -/
def utostr (X : Nat) (isNeg : Bool) : List Char :=
  let Buffer := utostrLoop X X (if X = 0 then ['0'] else [])
  if isNeg then '-' :: Buffer else Buffer

/-- Modelled from LLVM (`StringExtras.h`): `llvm::itostr(int64_t X)`; for
negative `X` the argument of `utostr` is `1 + ~X` in 64 bits. -/
def itostr (X : Int) : List Char :=
  if X < 0 then utostr (X.natAbs % 2 ^ 64) true else utostr X.toNat false

/-- The conversion of a `size_t` to the parameter type `int64_t` of `itostr`. -/
def sizeToInt64 (n : Nat) : Int :=
  if n % 2 ^ 64 < 2 ^ 63 then ((n % 2 ^ 64 : Nat) : Int) else ((n % 2 ^ 64 : Nat) : Int) - 2 ^ 64

/-- The characters of `SmallString::c_str()` as a `const char *` is read:
up to the first NUL. -/
def c_str (Tmp : List Char) : List Char :=
  Tmp.takeWhile fun c => c != Char.ofNat 0

/-- The loop of `mangleName`, from `D` outwards; each round puts the
fragment of `D` in front of `Mangled`. -/
def mangleLoop : DeclPtr → List Char → List Char
  | .nullptr, Mangled => Mangled
  | .decl Name EnclosingDecL, Mangled =>
    mangleLoop EnclosingDecL (c_str (itostr (sizeToInt64 Name.length) ++ Name) ++ Mangled)

/-- `CGModule::mangleName`. -/
def mangleName (D : DeclPtr) : List Char :=
  "_t".toList ++ mangleLoop D []

/-- The names on the chain of enclosing declarations of `D`, from the
outermost declaration to `D` itself. -/
def DeclPtr.chain : DeclPtr → List (List Char)
  | .nullptr => []
  | .decl Name EnclosingDecL => EnclosingDecL.chain ++ [Name]

/-- What `mangleName` needs of a name: it is not empty, does not start with a
digit, holds no NUL and is shorter than `2 ^ 63`.  Identifiers are such
names. -/
def IsName (n : List Char) : Prop :=
  (∃ c cs, n = c :: cs ∧ charinfo.isDigit c = false) ∧ Char.ofNat 0 ∉ n ∧ n.length < 2 ^ 63

/-- The number that a row of decimal digits stands for. -/
def decimalValue (l : List Char) : Nat :=
  l.foldl (fun a c => 10 * a + (c.toNat - 48)) 0

namespace Example

/-- The procedure `Sq` of the module `Gcd`. -/
def declSq : DeclPtr := .decl "Sq".toList (.decl "Gcd".toList .nullptr)

/-- The procedure `Gcd1` of the module `S`. -/
def declGcd1 : DeclPtr := .decl "Gcd1".toList (.decl "S".toList .nullptr)

end Example

end tinylang

namespace tinylang

/-! ## Types (`CGModule::convertType`, `CGModule.cpp`) -/

mutual
/-- Modelled from LLVM: the types that `convertType` hands out: `Int1Ty` and
`Int64Ty`, `ArrayType::get(Component, NumElements)` and
`StructType::create(Elements, Name, false)`. -/
inductive LLVMType
  | IntegerType (NumBits : Nat)
  | ArrayType (ElementType : LLVMType) (NumElements : Nat)
  | StructType (Name : List Char) (Elements : LLVMTypes)
/-- The element types of a struct type, in order. -/
inductive LLVMTypes
  | nil
  | cons (T : LLVMType) (Rest : LLVMTypes)
end

mutual
/-- A `TypeDeclaration` (`AST.h`) with its name.  `Nums` of an array type is
what `dyn_cast<IntegerLiteral>(Nums)` sees: the value of the literal
(`getValue().getExtValue()`, an `int64_t`), or `none` for any other
expression. -/
inductive TypeDeclaration
  | AliasTypeDeclaration (Name : List Char) (Ty : TypeDeclaration)
  | ArrayTypeDeclaration (Name : List Char) (Nums : Option Int) (Ty : TypeDeclaration)
  | PervasiveTypeDeclaration (Name : List Char)
  | PointerTypeDeclaration (Name : List Char) (Ty : TypeDeclaration)
  | RecordTypeDeclaration (Name : List Char) (Fields : FieldList)
/-- The fields of a record type (`Field`: name and type), in order. -/
inductive FieldList
  | nil
  | cons (Name : List Char) (Ty : TypeDeclaration) (Rest : FieldList)
end

deriving instance DecidableEq, Repr for LLVMType, LLVMTypes

deriving instance DecidableEq, Repr for TypeDeclaration, FieldList

/-- The member `TypeCache` of `CGModule`.  Declarations are told apart by their
content here; entries with a null pointer (left by `TypeCache[Ty]`) are not
kept. -/
abbrev TypeCache := List (TypeDeclaration × LLVMType)

mutual
/-- `CGModule::convertType`.  The error `fatalUnsupportedType` is
`report_fatal_error("Unsupported type")`; the error
`assertStructElementsEmpty` is the assertion `!Elements.empty()` of
`llvm::StructType::create(Elements, Name, false)` (modelled from LLVM), which
otherwise goes on with `Elements[0]`. -/
def convertType : TypeDeclaration → TypeCache → Except Err (LLVMType × TypeCache)
  | .PervasiveTypeDeclaration Name, C =>
    match C.lookup (.PervasiveTypeDeclaration Name) with
    | some T => .ok (T, C)
    | none =>
      if Name = "INTEGER".toList then .ok (.IntegerType 64, C)
      else if Name = "BOOLEAN".toList then .ok (.IntegerType 1, C)
      else .error .fatalUnsupportedType
  | .AliasTypeDeclaration Name Ty, C =>
    match C.lookup (.AliasTypeDeclaration Name Ty) with
    | some T => .ok (T, C)
    | none =>
      match convertType Ty C with
      | .error e => .error e
      | .ok (T, C1) => .ok (T, (.AliasTypeDeclaration Name Ty, T) :: C1)
  | .ArrayTypeDeclaration Name Nums Ty, C =>
    match C.lookup (.ArrayTypeDeclaration Name Nums Ty) with
    | some T => .ok (T, C)
    | none =>
      match convertType Ty C with
      | .error e => .error e
      | .ok (Component, C1) =>
        let NumElements : Nat :=
          match Nums with
          | some Value => (Value % 2 ^ 64).toNat
          | none => 5
        .ok (.ArrayType Component NumElements,
          (.ArrayTypeDeclaration Name Nums Ty, .ArrayType Component NumElements) :: C1)
  | .RecordTypeDeclaration Name Fields, C =>
    match C.lookup (.RecordTypeDeclaration Name Fields) with
    | some T => .ok (T, C)
    | none =>
      match convertFields Fields C with
      | .error e => .error e
      | .ok (Elements, C1) =>
        match Elements with
        | .nil => .error .assertStructElementsEmpty
        | .cons T Ts =>
          .ok (.StructType Name (.cons T Ts),
            (.RecordTypeDeclaration Name Fields, .StructType Name (.cons T Ts)) :: C1)
  | .PointerTypeDeclaration Name Ty, C =>
    match C.lookup (.PointerTypeDeclaration Name Ty) with
    | some T => .ok (T, C)
    | none => .error .fatalUnsupportedType
/-- The loop of `convertType` over the fields of a record:
`Elements.push_back(convertType(F.getType()))`. -/
def convertFields : FieldList → TypeCache → Except Err (LLVMTypes × TypeCache)
  | .nil, C => .ok (.nil, C)
  | .cons _ Ty Rest, C =>
    match convertType Ty C with
    | .error e => .error e
    | .ok (T, C1) =>
      match convertFields Rest C1 with
      | .error e => .error e
      | .ok (Ts, C2) => .ok (.cons T Ts, C2)
end

mutual
/-- The type declaration, followed through aliases, array element types and
record field types, reaches a pointer type declaration or a pervasive type
whose name is neither `INTEGER` nor `BOOLEAN`. -/
def TypeDeclaration.Unsupported : TypeDeclaration → Bool
  | .PervasiveTypeDeclaration Name => Name ≠ "INTEGER".toList && Name ≠ "BOOLEAN".toList
  | .AliasTypeDeclaration _ Ty => Ty.Unsupported
  | .ArrayTypeDeclaration _ _ Ty => Ty.Unsupported
  | .RecordTypeDeclaration _ Fields => Fields.Unsupported
  | .PointerTypeDeclaration _ _ => true
/-- One of the field types is unsupported. -/
def FieldList.Unsupported : FieldList → Bool
  | .nil => false
  | .cons _ Ty Rest => Ty.Unsupported || Rest.Unsupported
end

mutual
/-- The LLVM type that stands for a supported type declaration: 64 bits for
`INTEGER`, 1 bit for `BOOLEAN`, the type of the aliased declaration for an
alias, `n` elements for an array with the literal bound `n` and 5 elements for
any other bound, a struct of the field types for a record. -/
def TypeDeclaration.llvmType : TypeDeclaration → LLVMType
  | .PervasiveTypeDeclaration Name =>
    if Name = "INTEGER".toList then .IntegerType 64 else .IntegerType 1
  | .AliasTypeDeclaration _ Ty => Ty.llvmType
  | .ArrayTypeDeclaration _ (some n) Ty => .ArrayType Ty.llvmType (n % 2 ^ 64).toNat
  | .ArrayTypeDeclaration _ none Ty => .ArrayType Ty.llvmType 5
  | .RecordTypeDeclaration Name Fields => .StructType Name Fields.llvmTypes
  | .PointerTypeDeclaration _ _ => .IntegerType 0
/-- The LLVM types of the fields. -/
def FieldList.llvmTypes : FieldList → LLVMTypes
  | .nil => .nil
  | .cons _ Ty Rest => .cons Ty.llvmType Rest.llvmTypes
end

mutual
/-- The way in which the conversion of the type declaration ends without a
type, if it does: the first failure met when the declaration is followed
through aliases, array element types and record field types in the order of
`convertType`.  A pointer type declaration and a pervasive type other than
`INTEGER` and `BOOLEAN` end in the fatal error; a record type without fields,
whose element list is empty, ends in the assertion of `StructType::create`. -/
def TypeDeclaration.failure : TypeDeclaration → Option Err
  | .PervasiveTypeDeclaration Name =>
    if Name = "INTEGER".toList ∨ Name = "BOOLEAN".toList then none
    else some .fatalUnsupportedType
  | .AliasTypeDeclaration _ Ty => Ty.failure
  | .ArrayTypeDeclaration _ _ Ty => Ty.failure
  | .RecordTypeDeclaration _ Fields =>
    match Fields.failure with
    | some e => some e
    | none =>
      match Fields with
      | .nil => some .assertStructElementsEmpty
      | .cons _ _ _ => none
  | .PointerTypeDeclaration _ _ => some .fatalUnsupportedType
/-- The first failure among the field types, in order. -/
def FieldList.failure : FieldList → Option Err
  | .nil => none
  | .cons _ Ty Rest =>
    match Ty.failure with
    | some e => some e
    | none => Rest.failure
end

/-- Every entry of the cache stems from a conversion: the conversion of the
declaration does not fail and the entry is its type. -/
def TypeCache.Sound (C : TypeCache) : Prop :=
  ∀ Ty T, C.lookup Ty = some T → Ty.failure = none ∧ T = Ty.llvmType

namespace Example

/-- The pervasive type `INTEGER`. -/
def INTEGER : TypeDeclaration := .PervasiveTypeDeclaration "INTEGER".toList

/-- The pervasive type `BOOLEAN`. -/
def BOOLEAN : TypeDeclaration := .PervasiveTypeDeclaration "BOOLEAN".toList

/-- `TYPE Point = RECORD x : INTEGER; set : BOOLEAN END`. -/
def Point : TypeDeclaration :=
  .RecordTypeDeclaration "Point".toList (.cons ['x'] INTEGER (.cons "set".toList BOOLEAN .nil))

/-- `TYPE Points = ARRAY [10] OF Point`. -/
def Points : TypeDeclaration := .ArrayTypeDeclaration "Points".toList (some 10) Point

/-- `TYPE Row = ARRAY [N] OF Points`, with a constant `N`, and an alias
`TYPE Line = Row`. -/
def Line : TypeDeclaration :=
  .AliasTypeDeclaration "Line".toList (.ArrayTypeDeclaration "Row".toList none Points)

/-- `TYPE R = RECORD x END`: the parser leaves the field list empty (the
colon is missing behind `x`) and reports nothing. -/
def EmptyRecord : TypeDeclaration := .RecordTypeDeclaration ['R'] .nil

/-- `TYPE Pair = RECORD first : R; second : INTEGER END` with the record `R`
without fields. -/
def Pair : TypeDeclaration :=
  .RecordTypeDeclaration "Pair".toList
    (.cons "first".toList EmptyRecord (.cons "second".toList INTEGER .nil))

/-- `TYPE Ref = POINTER TO INTEGER; TYPE Node = RECORD v : INTEGER; next : Ref END`. -/
def Node : TypeDeclaration :=
  .RecordTypeDeclaration "Node".toList
    (.cons ['v'] INTEGER (.cons "next".toList (.PointerTypeDeclaration "Ref".toList INTEGER) .nil))

end Example

end tinylang

namespace tinylang

/-! ## Notions used in the statement about the termination of the parser -/

/-- A token source that hands out the tokens of a finite sequence, one per
call, and the end of the input on every call after the last.  `R n P` reads:
at most `n` tokens are left before the end of the input, the lookahead of `P`
included.  Every call of `advance` returns and takes one of them away; when
none is left the lookahead is `eof`.  What has been reported and the module
declaration do not matter. -/
structure TokenSource (R : Nat → Parser → Prop) : Prop where
  advance : ∀ n P, R n P → ∃ P', P.advance = some P' ∧ R (n - 1) P'
  eof : ∀ P, R 0 P → P.Tok.Kind = .eof
  mono : ∀ n m P, R n P → n ≤ m → R m P
  report : ∀ n P D, R n P → R n { P with Lex := { P.Lex with Diags := D } }
  module : ∀ n P M, R n P → R n { P with ModDecl := M }

namespace Parser

/-- The production returns, with at most `n` tokens left. -/
def Returns (R : Nat → Parser → Prop) (n : Nat) {β : Type} (r : Option (Bool × Parser × β)) :
    Prop :=
  ∃ b P' out, r = some (b, P', out) ∧ R n P'

/-- The step without output parameter returns, with at most `n` tokens left. -/
def Recovers (R : Nat → Parser → Prop) (n : Nat) (r : Option (Bool × Parser)) : Prop :=
  ∃ b P', r = some (b, P') ∧ R n P'

/-- The error handler returns when at most `n` tokens are left, and leaves at
most `n`. -/
def Handler (R : Nat → Parser → Prop) (n : Nat) (H : Parser → Option (Bool × Parser)) : Prop :=
  ∀ P, R n P → Recovers R n (H P)

/-- The production `f` returns whenever fewer than `n` tokens are left, and
leaves no more than it found. -/
def ReturnsBelow (R : Nat → Parser → Prop) (n : Nat) {α β : Type}
    (f : Parser → α → Option (Bool × Parser × β)) : Prop :=
  ∀ k, k < n → ∀ P a, R k P → Returns R k (f P a)

/-- What the token source of `P` is made of: the buffer, the cursor and the
lookahead. -/
def source (P : Parser) : List Char × Nat × Token :=
  (P.Lex.CurBuf, P.Lex.CurPtr, P.Tok)

/-- The lexer of `P` hands out at most `n` more tokens and then the end of
the input: any number of calls of `advance` returns, and after `n` calls or
more the lookahead is `eof`. -/
def EndsWithin (n : Nat) (P : Parser) : Prop :=
  ∀ k, ∃ P', P.advances k = some P' ∧ (n ≤ k → P'.Tok.Kind = .eof)

end Parser

namespace Example

/-- The text of a module with a procedure, declarations and statements. -/
def moduleText : List Char :=
  ("MODULE m; VAR x : INTEGER; " ++
    "PROCEDURE p(a : INTEGER) : INTEGER; BEGIN WHILE a < 3 DO a := a + 1 END; RETURN a END p; " ++
    "BEGIN x := p(x) END m.").toList

end Example

end tinylang

namespace Calc

/-! ## calc semantic analysis (`Sema.cpp`) -/

/-- `DeclCheck::ErrorType`. -/
inductive ErrorType
  | Twice | Not
  deriving DecidableEq, Repr

/-- The visitor `DeclCheck`: the set `Scope`, the flag `HasError`, and the
lines written to `llvm::errs()` so far, in order; `(ET, V)` stands for the
line `Variable V already declared` (`Twice`) or `Variable V not declared`
(`Not`). -/
structure DeclCheck where
  Scope : List (List Char)
  HasError : Bool
  Errs : List (ErrorType × List Char)
  deriving DecidableEq, Repr

namespace DeclCheck

/-- The constructor `DeclCheck()`. -/
def init : DeclCheck := { Scope := [], HasError := false, Errs := [] }

/-- `DeclCheck::error`. -/
def error (C : DeclCheck) (ET : ErrorType) (V : List Char) : DeclCheck :=
  { C with Errs := C.Errs ++ [(ET, V)], HasError := true }

/-- `DeclCheck::visit(Factor &)` and `DeclCheck::visit(BinaryOp &)`, through
`accept`.  `accept` is never called on a null pointer. -/
def visit : Expr → DeclCheck → DeclCheck
  | .nullptr, C => C
  | .Factor .Ident Val, C => if Val ∈ C.Scope then C else C.error .Not Val
  | .Factor .Number _, C => C
  | .BinaryOp _ Left Right, C =>
    let C1 := if Left = .nullptr then { C with HasError := true } else visit Left C
    if Right = .nullptr then { C1 with HasError := true } else visit Right C1

/-- The loop of `DeclCheck::visit(WithDecl &)` over the variables:
`if (!Scope.insert(*I).second) error(Twice, *I);`. -/
def declare : List (List Char) → DeclCheck → DeclCheck
  | [], C => C
  | I :: Vars, C =>
    declare Vars (if I ∈ C.Scope then C.error .Twice I else { C with Scope := I :: C.Scope })

/-- `DeclCheck::visit(WithDecl &)`. -/
def visitWithDecl (Vars : List (List Char)) (E : Expr) (C : DeclCheck) : DeclCheck :=
  let C1 := declare Vars C
  if E = .nullptr then { C1 with HasError := true } else visit E C1

end DeclCheck

/-- `Sema::semantic`: the visitor after the check, for a tree that is not the
null pointer. -/
def Sema.check : AST → DeclCheck
  | .expr E => DeclCheck.visit E DeclCheck.init
  | .WithDecl Vars E => DeclCheck.visitWithDecl Vars E DeclCheck.init

/-- `Sema::semantic`: the result, and the lines written to `llvm::errs()`.
The null pointer is the tree `AST.expr .nullptr`. -/
def Sema.semantic (Tree : AST) : Bool × List (ErrorType × List Char) :=
  if Tree = .expr .nullptr then (false, [])
  else ((Sema.check Tree).HasError, (Sema.check Tree).Errs)

/-- The names of the identifier factors of an expression, from left to
right. -/
def Expr.idents : Expr → List (List Char)
  | .nullptr => []
  | .Factor .Ident Val => [Val]
  | .Factor .Number _ => []
  | .BinaryOp _ Left Right => Left.idents ++ Right.idents

/-- An operand of a binary operation of the expression is missing. -/
def Expr.missingOperand : Expr → Bool
  | .BinaryOp _ Left Right =>
    Left = .nullptr || Right = .nullptr || Left.missingOperand || Right.missingOperand
  | _ => false

/-- The with-list of a tree. -/
def AST.vars : AST → List (List Char)
  | .expr _ => []
  | .WithDecl Vars _ => Vars

/-- The names of the identifier factors of a tree. -/
def AST.idents : AST → List (List Char)
  | .expr E => E.idents
  | .WithDecl _ E => E.idents

/-- An operand subtree of the tree is missing: an operand of a binary
operation, or the expression of a `WithDecl`. -/
def AST.missingOperand : AST → Bool
  | .expr E => E.missingOperand
  | .WithDecl _ E => E = .nullptr || E.missingOperand

namespace Example

/-- The tree of `with x, y, x, x: x + z * z`. -/
def redeclared : AST :=
  .WithDecl [['x'], ['y'], ['x'], ['x']]
    (.BinaryOp .Plus (.Factor .Ident ['x'])
      (.BinaryOp .Mul (.Factor .Ident ['z']) (.Factor .Ident ['z'])))

end Example

end Calc

namespace tinylang

/-! ## Reasoning about state transformers -/

@[simp] theorem M.pure_apply {α : Type} (a : α) (s : CGState) :
    (pure a : M α) s = .ok a s := rfl

@[simp] theorem M.bind_apply {α β : Type} (x : M α) (f : α → M β) (s : CGState) :
    (x >>= f) s = M.bind x f s := rfl

@[simp] theorem M.get_apply (s : CGState) : M.get s = .ok s s := rfl

@[simp] theorem M.modify_apply (f : CGState → CGState) (s : CGState) :
    M.modify f s = .ok () (f s) := rfl

@[simp] theorem M.throw_apply {α : Type} (e : Err) (s : CGState) :
    (M.throw e : M α) s = .fail e s := rfl

theorem M.bind_ok {α β : Type} {x : M α} {f : α → M β} {s s' : CGState} {a : α}
    (h : x s = .ok a s') : M.bind x f s = f a s' := by
  simp [M.bind, h]

theorem M.bind_fail {α β : Type} {x : M α} {f : α → M β} {s s' : CGState} {e : Err}
    (h : x s = .fail e s') : M.bind x f s = .fail e s' := by
  simp [M.bind, h]

@[simp] theorem M.bind_pure_left {α β : Type} (a : α) (f : α → M β) (s : CGState) :
    M.bind (pure a) f s = f a s := rfl

@[simp] theorem M.bind_get {β : Type} (f : CGState → M β) (s : CGState) :
    M.bind M.get f s = f s s := rfl

@[simp] theorem M.bind_modify {β : Type} (g : CGState → CGState) (f : Unit → M β) (s : CGState) :
    M.bind (M.modify g) f s = f () (g s) := rfl

@[simp] theorem M.bind_throw {α β : Type} (e : Err) (f : α → M β) (s : CGState) :
    M.bind (M.throw e : M α) f s = .fail e s := rfl

@[simp] theorem Res.state_ok {α : Type} (a : α) (s : CGState) : (Res.ok a s).state = s := rfl

@[simp] theorem Res.state_fail {α : Type} (e : Err) (s : CGState) :
    (Res.fail e s : Res α).state = s := rfl

end tinylang

namespace tinylang

/-! ## Evaluations of `CGProcedure::run` -/

set_option maxRecDepth 100000 in
/-- C1 (fails on the code): for
`i := 0; WHILE i < 10 DO i := i + 1 END` the entry block is still empty at
the loop, so `emitStmt(WhileStatement *)` reuses it as the condition block:
the condition reads the definition `0` recorded there, the phi created in
the body is filled from that block alone and removed, and `run` returns a
function without any phi, whose branch condition is the constant `true`
and whose increment is `0 + 1`. -/
theorem run_whileConstInit_has_no_phi :
    (run llvmEnv 20 Example.whileConstInit).error? = none ∧
    (run llvmEnv 20 Example.whileConstInit).state.phis = [] ∧
    (run llvmEnv 20 Example.whileConstInit).state.blockInsts 0 = [0] ∧
    (run llvmEnv 20 Example.whileConstInit).state.insts 0 =
      some { op := .Br, ty := .void, operands := [.constInt 1 1], blocks := [2, 1],
             parent := 0, uses := [] } ∧
    (run llvmEnv 20 Example.whileConstInit).state.blockInsts 1 = [2, 3] ∧
    (run llvmEnv 20 Example.whileConstInit).state.insts 2 =
      some { op := .Add, ty := .int 64, operands := [.constInt 64 0, .constInt 64 1],
             blocks := [], parent := 1, uses := [] } := by
  decide!

set_option maxRecDepth 100000 in
/-- When code has been emitted into the current block before the loop
(`i := a + b`), the loop gets a condition block of its own and `run` leaves
exactly one phi, in that block, merging the incremented and the initial
value; the comparison reads it. -/
theorem run_whileComputedInit_has_one_phi :
    (run llvmEnv 20 Example.whileComputedInit).error? = none ∧
    (run llvmEnv 20 Example.whileComputedInit).state.phis = [2] ∧
    (run llvmEnv 20 Example.whileComputedInit).state.blockInsts 3 = [2, 3, 4] ∧
    (run llvmEnv 20 Example.whileComputedInit).state.predecessors 3 = [1, 0] ∧
    (run llvmEnv 20 Example.whileComputedInit).state.insts 2 =
      some { op := .PHI, ty := .int 64, operands := [.inst 6, .inst 0], blocks := [1, 0],
             parent := 3, uses := [(6, 0), (3, 0)] } ∧
    (run llvmEnv 20 Example.whileComputedInit).state.insts 3 =
      some { op := .ICmp .slt, ty := .int 1, operands := [.inst 2, .constInt 64 10],
             blocks := [], parent := 3, uses := [(4, 0)] } ∧
    (run llvmEnv 20 Example.whileComputedInit).state.insts 6 =
      some { op := .Add, ty := .int 64, operands := [.inst 2, .constInt 64 1],
             blocks := [], parent := 1, uses := [(2, 0)] } := by
  decide!

set_option maxRecDepth 100000 in
/-- C6 (fails on the code): for `WHILE c DO i := i + 1 END` as the first
statement, the entry block is reused as the condition block; its only
predecessor edge is the back edge, the phi for `i` placed in it gets the
incremented value as its only operand and is replaced by it, and `run`
returns a function in which the addition `%2` has its own result as an
operand. -/
theorem run_whileFirst_self_reference :
    (run llvmEnv 20 Example.whileFirst).error? = none ∧
    (run llvmEnv 20 Example.whileFirst).state.phis = [] ∧
    (run llvmEnv 20 Example.whileFirst).state.blockInsts 1 = [2, 3] ∧
    (run llvmEnv 20 Example.whileFirst).state.insts 2 =
      some { op := .Add, ty := .int 64, operands := [.inst 2, .constInt 64 1],
             blocks := [], parent := 1, uses := [(2, 0)] } := by
  decide!

set_option maxRecDepth 100000 in
/-- C9 (fails on the code): in
`WHILE c DO IF d THEN y := 1 ELSE y := 2 END; WHILE e DO x := x + 1 END END`
the phi for `x` in the inner condition block has three predecessors and
reads the phi of the outer condition block through two of them.  When the
outer phi is removed, that user is collected twice as a candidate; the first
call erases it and the second call of `optimizePhi` is made on the erased
phi. -/
theorem run_whileIfWhile_optimizes_erased_phi :
    (run llvmEnv 20 Example.whileIfWhile).error? = some .optimizePhiOnErasedPhi := by
  decide!

set_option maxRecDepth 100000 in
/-- Reading, at a sealed block with two predecessors, a variable that the
block does not define ends `run` in the assertion of `writeLocalVariable`
(`a` is read in the block after the first `IF`, once that block is
sealed). -/
theorem run_ifThenRead_trips_assertion :
    (run llvmEnv 20 Example.ifThenRead).error? = some .assertValueDoesNotExist := by
  decide!

end tinylang

namespace tinylang

/-! ## `readLocalVariableRecursive` at a sealed join block -/

/-- A block with two or more predecessors has no single predecessor. -/
theorem getSinglePredecessor_eq_none_of_two (s : CGState) (BB : BlockId)
    (h : 2 ≤ (s.predecessors BB).length) : s.getSinglePredecessor BB = none := by
  unfold CGState.getSinglePredecessor
  match hp : s.predecessors BB with
  | [] => rfl
  | [p] => rw [hp] at h; simp at h
  | _ :: _ :: _ => rfl

/-- C2 (fails on the code): at a sealed block with two or more predecessors,
`readLocalVariableRecursive` creates the empty phi at the head of the block
and then calls `writeLocalVariable(BB, Decl, Val)` with `Val` still null
instead of the phi: the assertion "Value does not exist" ends the call, no
predecessor has been read, and no definition of the declaration has been
recorded. -/
theorem readLocalVariableRecursive_sealed_join_asserts (fuel : Nat) (s : CGState)
    (BB : BlockId) (D : Decl) (T : Ty)
    (hSealed : (s.CurrentDef BB).Sealed = true)
    (hPreds : 2 ≤ (s.predecessors BB).length)
    (hKind : D.isVarOrParam = true) (hTy : D.ty = some T) :
    ∃ s', readLocalVariableRecursive fuel BB D s = .fail .assertValueDoesNotExist s' ∧
      s'.isPHI s.numInsts = true ∧
      (s'.insts s.numInsts).map (fun x => x.operands) = some [] ∧
      s'.blockInsts BB = s.numInsts :: s.blockInsts BB ∧
      s'.CurrentDef = s.CurrentDef := by
  have hsp := getSinglePredecessor_eq_none_of_two s BB hPreds
  have hmap : ∃ T', mapType D s = .ok T' s := by
    unfold mapType
    cases hk : D.kind with
    | Var sc => simp [hTy]
    | Param v => simp [hTy]
    | Other => simp [Decl.isVarOrParam, hk] at hKind
  obtain ⟨T', hT'⟩ := hmap
  have hc : ∃ s1, createInst BB true .PHI T' [] [] s = .ok s.numInsts s1 := ⟨_, rfl⟩
  obtain ⟨s1, hs1⟩ := hc
  refine ⟨s1, ?_, ?_⟩
  · have hphi : addEmptyPhi BB D s = .ok s.numInsts s1 := by
      simp [addEmptyPhi, M.bind_ok hT', hs1]
    have hw : writeLocalVariable BB D none s1 = .fail .assertValueDoesNotExist s1 := by
      simp [writeLocalVariable, hKind]
    simp [readLocalVariableRecursive, readLocalVariableRecursiveWith, hSealed, hsp,
      M.bind_ok hphi, M.bind_fail hw]
  · simp only [createInst] at hs1
    cases hs1
    simp [CGState.isPHI, CGState.addUses]

set_option maxRecDepth 100000 in
/-- Witness for C2: the block after `IF c THEN x := 1 ELSE x := 2 END`, sealed
with its two predecessors, and the parameter `a`, which it does not define. -/
theorem readLocalVariableRecursive_sealed_join_asserts_witness :
    ((run llvmEnv 20 Example.ifThenElse).state.CurrentDef 3).Sealed = true ∧
    (run llvmEnv 20 Example.ifThenElse).state.predecessors 3 = [2, 1] ∧
    ∃ s', readLocalVariableRecursive 5 3 Example.a (run llvmEnv 20 Example.ifThenElse).state =
        .fail .assertValueDoesNotExist s' ∧
      s'.isPHI (run llvmEnv 20 Example.ifThenElse).state.numInsts = true ∧
      (s'.insts (run llvmEnv 20 Example.ifThenElse).state.numInsts).map (fun x => x.operands)
        = some [] ∧
      s'.blockInsts 3 = (run llvmEnv 20 Example.ifThenElse).state.numInsts ::
        (run llvmEnv 20 Example.ifThenElse).state.blockInsts 3 ∧
      s'.CurrentDef = (run llvmEnv 20 Example.ifThenElse).state.CurrentDef :=
  ⟨by decide!, by decide!,
    readLocalVariableRecursive_sealed_join_asserts 5 _ 3 Example.a (.int 64)
      (by decide!) (by decide!) (by decide!) rfl⟩

/-! ## The parser on inputs it cannot accept -/

/-- On the buffer `@` the lexer returns `unknown` and leaves the cursor
where it is. -/
theorem advance_at_unknown_character :
    ∀ P : Parser, Parser.create ['@'] = some P → P.advance = some P ∧ P.Tok.Kind = .unknown := by
  intro P h
  have : P = { Lex := { CurBuf := ['@'], CurPtr := 0, Diags := { NumErrors := 0, reports := [] } },
               Tok := { Ptr := 0, Length := 0, Kind := .unknown }, ModDecl := none } := by
    have h' : Parser.create ['@'] = some
        { Lex := { CurBuf := ['@'], CurPtr := 0, Diags := { NumErrors := 0, reports := [] } },
          Tok := { Ptr := 0, Length := 0, Kind := .unknown }, ModDecl := none } := by decide!
    rw [h'] at h
    exact (Option.some.inj h).symm
  subst this
  constructor
  · decide!
  · rfl

/-- The recovery loop of `parseCompilationUnit` never ends when `advance`
returns the same non-eof token. -/
theorem skipToEof_stuck (P : Parser) (hadv : P.advance = some P) (hk : P.Tok.Kind ≠ .eof) :
    ∀ fuel, Parser.skipToEof fuel P = none := by
  intro fuel
  induction fuel with
  | zero => rfl
  | succ n ih => simp [Parser.skipToEof, hk, hadv, ih]

/-- C3 (fails on the code): on the buffer `@`, a character that starts no
token, `Lexer::next` sets the kind `unknown` without moving the cursor, so
the recovery loop `while (!Tok.is(tok::eof)) advance();` of
`parseCompilationUnit` consumes nothing: `parse` does not return, whatever
the number of iterations allowed and whatever the other productions do. -/
theorem parse_unknown_character_never_returns (G : Productions) (fuel : Nat) :
    Parser.parse G fuel ['@'] = none := by
  have hc : Parser.create ['@'] = some
      { Lex := { CurBuf := ['@'], CurPtr := 0, Diags := { NumErrors := 0, reports := [] } },
        Tok := { Ptr := 0, Length := 0, Kind := .unknown }, ModDecl := none } := by decide!
  obtain ⟨hadv, hk⟩ := advance_at_unknown_character _ hc
  have hstuck := skipToEof_stuck _ hadv (by rw [hk]; decide) fuel
  simp only [Parser.parse, hc, Parser.parseCompilationUnit, Parser.consume]
  simp [hstuck]

/-- C4 (fails on the code): `consume` returns "had error" without reporting.
On the empty buffer `parse` returns no module and `numErrors()` is 0; on
`MODULE m`, whose `;` is missing, `parse` returns the module declaration
created for `m` (name at offset 7, length 1) and `numErrors()` is 0 as
well. -/
theorem parse_reports_nothing (G : Productions) (fuel : Nat) :
    Parser.parse G (fuel + 1) [] = some (none, { NumErrors := 0, reports := [] }) ∧
    Parser.parse G (fuel + 1) ['M', 'O', 'D', 'U', 'L', 'E', ' ', 'm'] =
      some (some (7, 1), { NumErrors := 0, reports := [] }) := by
  constructor <;> rfl

end tinylang

namespace tinylang

/-! ## `optimizePhi`: termination -/

theorem CGState.isPHI_eq_opOf (s : CGState) (i : InstId) :
    s.isPHI i = (s.opOf i == some Opcode.PHI) := by
  unfold CGState.isPHI CGState.opOf
  cases s.insts i <;> simp

theorem CGState.Shrinks.refl (s : CGState) : s.Shrinks s :=
  ⟨rfl, fun _ => Or.inl rfl⟩

theorem CGState.Shrinks.trans {s t u : CGState} (h1 : s.Shrinks t) (h2 : t.Shrinks u) :
    s.Shrinks u := by
  refine ⟨h2.1.trans h1.1, fun i => ?_⟩
  rcases h2.2 i with h | h
  · rcases h1.2 i with h' | h'
    · exact Or.inl (h.trans h')
    · exact Or.inr (h.trans h')
  · exact Or.inr h

theorem CGState.Shrinks.isPHI {s t : CGState} (h : s.Shrinks t) (i : InstId)
    (hi : t.isPHI i = true) : s.isPHI i = true := by
  rw [CGState.isPHI_eq_opOf] at hi ⊢
  rcases h.2 i with h' | h'
  · rw [← h']; exact hi
  · rw [h'] at hi; simp at hi

theorem CGState.Shrinks.phiOrErased {s t : CGState} (h : s.Shrinks t) (i : InstId)
    (hi : s.isPHI i = true ∨ s.insts i = none) : t.isPHI i = true ∨ t.insts i = none := by
  rcases h.2 i with h' | h'
  · rcases hi with hi | hi
    · left
      rw [CGState.isPHI_eq_opOf] at hi ⊢
      rw [h']; exact hi
    · right
      have : s.opOf i = none := by simp [CGState.opOf, hi]
      rw [this] at h'
      simpa [CGState.opOf] using h'
  · right
    simpa [CGState.opOf] using h'

theorem CGState.Shrinks.finite {s t : CGState} (h : s.Shrinks t) (hf : s.Finite) : t.Finite := by
  intro i hi
  rw [h.1] at hi
  have hs := hf i hi
  rcases h.2 i with h' | h'
  · have : s.opOf i = none := by simp [CGState.opOf, hs]
    rw [this] at h'
    simpa [CGState.opOf] using h'
  · simpa [CGState.opOf] using h'

theorem countP_le_of_imp' {α : Type} (p q : α → Bool) (l : List α)
    (h : ∀ a ∈ l, p a = true → q a = true) : l.countP p ≤ l.countP q := by
  induction l with
  | nil => simp
  | cons a l ih =>
    have ih' := ih (fun b hb => h b (List.mem_cons_of_mem _ hb))
    have ha := h a (List.mem_cons_self _ _)
    by_cases hp : p a = true
    · have hq := ha hp
      simp [List.countP_cons, hp, hq, ih']
    · by_cases hq : q a = true
      · simp [List.countP_cons, hp, hq]; omega
      · simp [List.countP_cons, hp, hq, ih']

theorem CGState.Shrinks.phiCount_le {s t : CGState} (h : s.Shrinks t) :
    t.phiCount ≤ s.phiCount := by
  unfold CGState.phiCount
  rw [h.1]
  exact countP_le_of_imp' _ _ _ (fun a _ ha => h.isPHI a ha)

/-- Removing one element that satisfies the predicate lowers the count. -/
theorem countP_lt_of_removed {α : Type} (p q : α → Bool) (l : List α) (x : α)
    (hx : x ∈ l) (hqx : q x = true) (hpx : p x = false)
    (h : ∀ a ∈ l, p a = true → q a = true) : l.countP p < l.countP q := by
  induction l with
  | nil => simp at hx
  | cons a l ih =>
    have hrest : l.countP p ≤ l.countP q :=
      countP_le_of_imp' _ _ _ (fun b hb => h b (List.mem_cons_of_mem _ hb))
    rcases List.mem_cons.mp hx with rfl | hx'
    · simp [List.countP_cons, hqx, hpx]; omega
    · have ih' := ih hx' (fun b hb => h b (List.mem_cons_of_mem _ hb))
      have ha := h a (List.mem_cons_self _ _)
      by_cases hp : p a = true
      · simp [List.countP_cons, hp, ha hp]; omega
      · by_cases hq : q a = true
        · simp [List.countP_cons, hp, hq]; omega
        · simp [List.countP_cons, hp, hq]; omega

theorem CGState.opOf_replaceAllUsesWith (s : CGState) (Old : InstId) (New : Value) (i : InstId) :
    (s.replaceAllUsesWith Old New).opOf i = s.opOf i := by
  unfold CGState.replaceAllUsesWith CGState.opOf
  cases h : s.insts i <;> simp [h]

theorem CGState.numInsts_replaceAllUsesWith (s : CGState) (Old : InstId) (New : Value) :
    (s.replaceAllUsesWith Old New).numInsts = s.numInsts := rfl

theorem CGState.opOf_eraseFromParent (s : CGState) (j i : InstId) :
    (s.eraseFromParent j).opOf i = if i = j then none else s.opOf i := by
  unfold CGState.eraseFromParent CGState.opOf
  cases hj : s.insts j with
  | none =>
    by_cases hij : i = j
    · subst hij; simp [hj]
    · simp [hij]
  | some x =>
    by_cases hij : i = j
    · simp [hij]
    · cases h : s.insts i <;> simp [hij, h]

theorem CGState.numInsts_eraseFromParent (s : CGState) (j : InstId) :
    (s.eraseFromParent j).numInsts = s.numInsts := by
  unfold CGState.eraseFromParent
  cases s.insts j <;> rfl

/-- The step of `optimizePhi` that replaces and erases the phi only shrinks
the function. -/
theorem CGState.shrinks_replace_erase (s : CGState) (Phi : InstId) (Same : Value) :
    s.Shrinks ((s.replaceAllUsesWith Phi Same).eraseFromParent Phi) := by
  refine ⟨by rw [CGState.numInsts_eraseFromParent, CGState.numInsts_replaceAllUsesWith], ?_⟩
  intro i
  rw [CGState.opOf_eraseFromParent, CGState.opOf_replaceAllUsesWith]
  by_cases h : i = Phi
  · right; simp [h]
  · left; simp [h]

/-- Each call of `optimizePhi` that recurses has first removed one phi: the
state handed to the candidates has fewer phi nodes. -/
theorem CGState.phiCount_replace_erase_lt (s : CGState) (Phi : InstId) (Same : Value)
    (hfin : s.Finite) (hphi : s.isPHI Phi = true) :
    ((s.replaceAllUsesWith Phi Same).eraseFromParent Phi).phiCount < s.phiCount := by
  have hsh := s.shrinks_replace_erase Phi Same
  unfold CGState.phiCount
  rw [hsh.1]
  have hlt : Phi < s.numInsts := by
    by_contra hge
    have := hfin Phi (Nat.le_of_not_lt hge)
    simp [CGState.isPHI, this] at hphi
  refine countP_lt_of_removed _ _ _ Phi (List.mem_range.mpr hlt) hphi ?_
    (fun a _ ha => hsh.isPHI a ha)
  rw [CGState.isPHI_eq_opOf, CGState.opOf_eraseFromParent]
  simp

theorem candidatePhis_isPHI (s : CGState) (Phi : InstId) (uses : List Use) :
    ∀ P ∈ candidatePhis s Phi uses, s.isPHI P = true := by
  intro P hP
  unfold candidatePhis at hP
  rw [List.mem_filterMap] at hP
  obtain ⟨U, _, hU⟩ := hP
  by_cases hc : s.isPHI U.1 = true ∧ U.1 ≠ Phi
  · simp [hc] at hU
    rw [← hU]; exact hc.1
  · simp [hc] at hU

/-- The outcome of the loop over the candidates, given the outcome of each
call. -/
theorem forEachPhi_spec (f : InstId → M Value) (Inv : CGState → Prop)
    (Rel : CGState → CGState → Prop) (good : Err → Prop)
    (hrefl : ∀ s, Rel s s) (htrans : ∀ s t u, Rel s t → Rel t u → Rel s u)
    (hinv : ∀ s t, Inv s → Rel s t → Inv t) :
    ∀ (cs : List InstId),
      (∀ P ∈ cs, ∀ s, Inv s →
        (∀ e s', f P s = .fail e s' → good e) ∧ Rel s (f P s).state) →
      ∀ (s : CGState), Inv s →
      (∀ e s', forEachPhi f cs s = .fail e s' → good e) ∧ Rel s (forEachPhi f cs s).state := by
  intro cs
  induction cs with
  | nil =>
    intro _ s _
    exact ⟨fun e s' h => by simp [forEachPhi] at h, by simpa [forEachPhi] using hrefl s⟩
  | cons P Ps ih =>
    intro hf s hs
    obtain ⟨hg, hr⟩ := hf P (List.mem_cons_self _ _) s hs
    have ih' := ih (fun Q hQ => hf Q (List.mem_cons_of_mem _ hQ))
    cases hP : f P s with
    | fail e s1 =>
      have : forEachPhi f (P :: Ps) s = .fail e s1 := by
        simp [forEachPhi, M.bind_fail hP]
      rw [this]
      rw [hP] at hr
      refine ⟨fun e' s' h => ?_, hr⟩
      cases h
      exact hg e s1 hP
    | ok v s1 =>
      have : forEachPhi f (P :: Ps) s = forEachPhi f Ps s1 := by
        simp [forEachPhi, M.bind_ok hP]
      rw [this]
      rw [hP] at hr
      simp at hr
      obtain ⟨hg', hr'⟩ := ih' s1 (hinv s s1 hs hr)
      exact ⟨hg', htrans _ _ _ hr hr'⟩

/-- Unfolding of `optimizePhi` on a live phi whose incoming values do not
contain two different values other than itself. -/
theorem optimizePhi_succ_remove (fuel : Nat) (s : CGState) (Phi : InstId) (x : Instruction)
    (Same? : Option Value) (hx : s.insts Phi = some x)
    (hs : sameIncoming Phi x.operands none = some Same?) :
    optimizePhi (fuel + 1) Phi s =
      M.bind (forEachPhi (optimizePhi fuel) (candidatePhis s Phi x.uses))
        (fun _ => pure (Same?.getD (.undef x.ty)))
        ((s.replaceAllUsesWith Phi (Same?.getD (.undef x.ty))).eraseFromParent Phi) := by
  simp [optimizePhi, hx, hs]

/-- Unfolding of `optimizePhi` on a live phi that is kept. -/
theorem optimizePhi_succ_keep (fuel : Nat) (s : CGState) (Phi : InstId) (x : Instruction)
    (hx : s.insts Phi = some x) (hs : sameIncoming Phi x.operands none = none) :
    optimizePhi (fuel + 1) Phi s = .ok (.inst Phi) s := by
  simp [optimizePhi, hx, hs]

/-- Unfolding of `optimizePhi` on an erased phi. -/
theorem optimizePhi_succ_erased (fuel : Nat) (s : CGState) (Phi : InstId)
    (hx : s.insts Phi = none) :
    optimizePhi (fuel + 1) Phi s = .fail .optimizePhiOnErasedPhi s := by
  simp [optimizePhi, hx]

/-- With a budget above the number of phi nodes, `optimizePhi` ends without
exhausting it; the only error it can end in is the call on an erased phi,
and the function only shrinks. -/
theorem optimizePhi_fuel (fuel : Nat) : ∀ (s : CGState) (Phi : InstId), s.Finite →
    (s.isPHI Phi = true ∨ s.insts Phi = none) → s.phiCount < fuel →
    (∀ e s', optimizePhi fuel Phi s = .fail e s' → e = .optimizePhiOnErasedPhi) ∧
      s.Shrinks (optimizePhi fuel Phi s).state := by
  induction fuel with
  | zero => intro s Phi _ _ h; omega
  | succ fuel ih =>
    intro s Phi hfin hPhi hfuel
    cases hx : s.insts Phi with
    | none =>
      rw [optimizePhi_succ_erased fuel s Phi hx]
      exact ⟨fun e s' h => by cases h; rfl, CGState.Shrinks.refl s⟩
    | some x =>
      have hisphi : s.isPHI Phi = true := by
        rcases hPhi with h | h
        · exact h
        · rw [hx] at h; cases h
      cases hs : sameIncoming Phi x.operands none with
      | none =>
        rw [optimizePhi_succ_keep fuel s Phi x hx hs]
        exact ⟨fun e s' h => (by cases h), CGState.Shrinks.refl s⟩
      | some Same? =>
        rw [optimizePhi_succ_remove fuel s Phi x Same? hx hs]
        generalize hS : Same?.getD (.undef x.ty) = Same
        have hsh := s.shrinks_replace_erase Phi Same
        have hlt := s.phiCount_replace_erase_lt Phi Same hfin hisphi
        have hloop := forEachPhi_spec (optimizePhi fuel)
          (fun t => t.Finite ∧ t.phiCount < fuel ∧
            ∀ P ∈ candidatePhis s Phi x.uses, t.isPHI P = true ∨ t.insts P = none)
          CGState.Shrinks (fun e => e = .optimizePhiOnErasedPhi)
          CGState.Shrinks.refl (fun _ _ _ => CGState.Shrinks.trans)
          (fun a b ha hab => ⟨hab.finite ha.1, Nat.lt_of_le_of_lt hab.phiCount_le ha.2.1,
            fun P hP => hab.phiOrErased P (ha.2.2 P hP)⟩)
          (candidatePhis s Phi x.uses)
          (fun P hP t ht => ih t P ht.1 (ht.2.2 P hP) ht.2.1)
          ((s.replaceAllUsesWith Phi Same).eraseFromParent Phi)
          ⟨hsh.finite hfin, by omega,
            fun P hP => hsh.phiOrErased P (Or.inl (candidatePhis_isPHI s Phi x.uses P hP))⟩
        obtain ⟨hg, hr⟩ := hloop
        cases hl : forEachPhi (optimizePhi fuel) (candidatePhis s Phi x.uses)
            ((s.replaceAllUsesWith Phi Same).eraseFromParent Phi) with
        | fail e s1 =>
          rw [M.bind_fail hl]
          rw [hl] at hr
          exact ⟨fun e' s' h => by cases h; exact hg e s1 hl, hsh.trans hr⟩
        | ok v s1 =>
          rw [M.bind_ok hl]
          rw [hl] at hr
          exact ⟨fun e' s' h => (by cases h), hsh.trans hr⟩

/-- C10: on a finite function, `optimizePhi` called on a phi (live or
erased) with a recursion budget above the number of phi nodes ends without
exhausting the budget, and the function has no more phi nodes afterwards
than before.  The reason is the one the claim gives: the state handed to the
recursive calls is the one in which the phi has been replaced and erased, and
it has strictly fewer phi nodes. -/
theorem optimizePhi_terminates (fuel : Nat) (s : CGState) (Phi : InstId)
    (hfin : s.Finite) (hPhi : s.isPHI Phi = true ∨ s.insts Phi = none)
    (hfuel : s.phiCount < fuel) :
    (optimizePhi fuel Phi s).error? ≠ some .outOfFuel ∧
    (optimizePhi fuel Phi s).state.phiCount ≤ s.phiCount ∧
    (∀ Same, s.isPHI Phi = true →
      ((s.replaceAllUsesWith Phi Same).eraseFromParent Phi).phiCount < s.phiCount) := by
  obtain ⟨hg, hsh⟩ := optimizePhi_fuel fuel s Phi hfin hPhi hfuel
  refine ⟨?_, hsh.phiCount_le, fun Same h => s.phiCount_replace_erase_lt Phi Same hfin h⟩
  cases h : optimizePhi fuel Phi s with
  | ok v s' => simp [Res.error?]
  | fail e s' =>
    have := hg e s' h
    subst this
    simp [Res.error?]

/-- The example function `phiPair` is finite. -/
theorem Example.phiPair_finite : Example.phiPair.Finite := by
  intro i hi
  match i, hi with
  | 0, hi => simp [Example.phiPair] at hi
  | 1, hi => simp [Example.phiPair] at hi
  | 2, hi => simp [Example.phiPair] at hi
  | 3, hi => simp [Example.phiPair] at hi
  | n + 4, _ => rfl

set_option maxRecDepth 100000 in
/-- Witness for C10: `optimizePhi` on the phi `%0` of `phiPair`, which has two
phi nodes, with budget 3. -/
theorem optimizePhi_terminates_witness :
    Example.phiPair.phiCount = 2 ∧
    (optimizePhi 3 0 Example.phiPair).error? ≠ some .outOfFuel ∧
    (optimizePhi 3 0 Example.phiPair).state.phiCount ≤ Example.phiPair.phiCount ∧
    (∀ Same, Example.phiPair.isPHI 0 = true →
      ((Example.phiPair.replaceAllUsesWith 0 Same).eraseFromParent 0).phiCount <
        Example.phiPair.phiCount) :=
  ⟨by decide!,
    optimizePhi_terminates 3 Example.phiPair 0 Example.phiPair_finite (Or.inl (by decide!))
      (by decide!)⟩

/-! ## `optimizePhi`: what it returns and what it leaves -/

/-- The loop over the incoming values, started with a value already seen:
it ends with that value, or reports a second one. -/
theorem sameIncoming_some (Phi : InstId) (V : Value) :
    ∀ vs : List Value,
      (sameIncoming Phi vs (some V) = some (some V) ∧ ∀ v ∈ vs, v = .inst Phi ∨ v = V) ∨
      (sameIncoming Phi vs (some V) = none ∧ ∃ w ∈ vs, w ≠ V ∧ w ≠ .inst Phi) := by
  intro vs
  induction vs with
  | nil => left; simp [sameIncoming]
  | cons v vs ih =>
    by_cases h1 : some v = some V ∨ v = .inst Phi
    · have : sameIncoming Phi (v :: vs) (some V) = sameIncoming Phi vs (some V) := by
        simp only [sameIncoming]; rw [if_pos h1]
      rw [this]
      rcases ih with ⟨e, hall⟩ | ⟨e, w, hw, hne⟩
      · left
        refine ⟨e, fun u hu => ?_⟩
        rcases List.mem_cons.mp hu with rfl | hu
        · rcases h1 with h | h
          · right; exact Option.some.inj h
          · left; exact h
        · exact hall u hu
      · right
        exact ⟨e, w, List.mem_cons_of_mem _ hw, hne⟩
    · right
      have hvV : v ≠ V := fun h => h1 (Or.inl (by rw [h]))
      have hvP : v ≠ .inst Phi := fun h => h1 (Or.inr h)
      refine ⟨?_, v, List.mem_cons_self _ _, hvV, hvP⟩
      simp only [sameIncoming]
      rw [if_neg h1]
      have h2 : (some V).isSome = true ∧ some v ≠ some V := ⟨rfl, fun h => hvV (Option.some.inj h)⟩
      rw [if_pos h2]

/-- The loop over the incoming values from the start: it reports two
different values other than the phi exactly when there are two, and
otherwise ends with the one value other than the phi, if any. -/
theorem sameIncoming_none (Phi : InstId) :
    ∀ vs : List Value,
      (sameIncoming Phi vs none = none ∧ distinctIncoming Phi vs) ∨
      (sameIncoming Phi vs none = some none ∧ ∀ v ∈ vs, v = .inst Phi) ∨
      (∃ V, sameIncoming Phi vs none = some (some V) ∧ V ≠ .inst Phi ∧ V ∈ vs ∧
        ∀ v ∈ vs, v = .inst Phi ∨ v = V) := by
  intro vs
  induction vs with
  | nil => right; left; simp [sameIncoming]
  | cons v vs ih =>
    by_cases h1 : v = .inst Phi
    · have : sameIncoming Phi (v :: vs) none = sameIncoming Phi vs none := by
        simp only [sameIncoming]
        rw [if_pos (Or.inr h1)]
      rw [this]
      rcases ih with ⟨e, a, ha, b, hb, hne⟩ | ⟨e, hall⟩ | ⟨V, e, hV, hmem, hall⟩
      · left
        exact ⟨e, a, List.mem_cons_of_mem _ ha, b, List.mem_cons_of_mem _ hb, hne⟩
      · right; left
        refine ⟨e, fun u hu => ?_⟩
        rcases List.mem_cons.mp hu with rfl | hu
        · exact h1
        · exact hall u hu
      · right; right
        refine ⟨V, e, hV, List.mem_cons_of_mem _ hmem, fun u hu => ?_⟩
        rcases List.mem_cons.mp hu with rfl | hu
        · left; exact h1
        · exact hall u hu
    · have hc1 : ¬ (some v = (none : Option Value) ∨ v = .inst Phi) := by
        intro h
        rcases h with h | h
        · cases h
        · exact h1 h
      have hc2 : ¬ ((none : Option Value).isSome = true ∧ some v ≠ (none : Option Value)) := by
        intro h
        cases h.1
      have : sameIncoming Phi (v :: vs) none = sameIncoming Phi vs (some v) := by
        simp only [sameIncoming]
        rw [if_neg hc1, if_neg hc2]
      rw [this]
      rcases sameIncoming_some Phi v vs with ⟨e, hall⟩ | ⟨e, w, hw, hwv, hwP⟩
      · right; right
        refine ⟨v, e, h1, List.mem_cons_self _ _, fun u hu => ?_⟩
        rcases List.mem_cons.mp hu with rfl | hu
        · right; rfl
        · exact hall u hu
      · left
        exact ⟨e, v, List.mem_cons_self _ _, w, List.mem_cons_of_mem _ hw,
          fun h => hwv h.symm, h1, hwP⟩

/-- When the incoming values contain two different values other than the
phi, the loop cannot end with a single one. -/
theorem distinctIncoming_not_unique (Phi : InstId) (vs : List Value) (V : Value)
    (hd : distinctIncoming Phi vs) (hall : ∀ v ∈ vs, v = .inst Phi ∨ v = V) : False := by
  obtain ⟨a, ha, b, hb, hab, haP, hbP⟩ := hd
  rcases hall a ha with h | h
  · exact haP h
  · rcases hall b hb with h' | h'
    · exact hbP h'
    · exact hab (h.trans h'.symm)

theorem CGState.insts_replaceAllUsesWith (s : CGState) (Old : InstId) (New : Value)
    (j : InstId) (y : Instruction) (h : (s.replaceAllUsesWith Old New).insts j = some y) :
    ∃ y0, s.insts j = some y0 ∧ y.operands = y0.operands.map (CGState.substValue Old New) := by
  unfold CGState.replaceAllUsesWith at h
  simp only at h
  cases hj : s.insts j with
  | none => rw [hj] at h; simp at h
  | some y0 =>
    rw [hj] at h
    simp at h
    exact ⟨y0, rfl, by rw [← h]⟩

theorem CGState.insts_eraseFromParent (s : CGState) (i j : InstId) (y : Instruction)
    (h : (s.eraseFromParent i).insts j = some y) :
    ∃ y0, s.insts j = some y0 ∧ y.operands = y0.operands := by
  unfold CGState.eraseFromParent at h
  cases hi : s.insts i with
  | none => rw [hi] at h; exact ⟨y, h, rfl⟩
  | some x =>
    rw [hi] at h
    simp only at h
    by_cases hji : j = i
    · simp [hji] at h
    · simp only [hji, if_false] at h
      cases hj : s.insts j with
      | none => rw [hj] at h; simp at h
      | some y0 =>
        rw [hj] at h
        simp at h
        exact ⟨y0, rfl, by rw [← h]⟩

theorem CGState.insts_eraseFromParent_self (s : CGState) (i : InstId) (x : Instruction)
    (hi : s.insts i = some x) : (s.eraseFromParent i).insts i = none := by
  unfold CGState.eraseFromParent
  rw [hi]
  simp

theorem CGState.insts_eraseFromParent_none (s : CGState) (i j : InstId)
    (hj : s.insts j = none) : (s.eraseFromParent i).insts j = none := by
  unfold CGState.eraseFromParent
  cases hi : s.insts i with
  | none => exact hj
  | some x =>
    simp only
    by_cases hji : j = i
    · simp [hji]
    · simp [hji, hj]

theorem CGState.insts_replaceAllUsesWith_none (s : CGState) (Old : InstId) (New : Value)
    (j : InstId) (hj : s.insts j = none) : (s.replaceAllUsesWith Old New).insts j = none := by
  unfold CGState.replaceAllUsesWith
  simp [hj]

theorem CGState.Defs_eraseFromParent (s : CGState) (i : InstId) :
    (s.eraseFromParent i).CurrentDef = s.CurrentDef := by
  unfold CGState.eraseFromParent
  cases s.insts i <;> rfl

theorem CGState.substValue_ne (Old i : InstId) (New v : Value) (hN : New ≠ .inst i)
    (hv : v ≠ .inst i) : CGState.substValue Old New v ≠ .inst i := by
  unfold CGState.substValue
  split
  · exact hN
  · exact hv

/-- Replacing and erasing a phi `P` keeps an erased, unreferenced
instruction `i` erased and unreferenced, when the replacement is not `i`. -/
theorem CGState.Gone.replace_erase {s : CGState} {i : InstId} (h : s.Gone i)
    (P : InstId) (Same : Value) (hS : Same ≠ .inst i) :
    ((s.replaceAllUsesWith P Same).eraseFromParent P).Gone i := by
  obtain ⟨h1, h2, h3⟩ := h
  refine ⟨?_, ?_, ?_⟩
  · exact CGState.insts_eraseFromParent_none _ _ _
      (CGState.insts_replaceAllUsesWith_none _ _ _ _ h1)
  · intro j y hy hmem
    obtain ⟨y1, hy1, e1⟩ := CGState.insts_eraseFromParent _ _ _ _ hy
    obtain ⟨y0, hy0, e0⟩ := CGState.insts_replaceAllUsesWith _ _ _ _ _ hy1
    rw [e1, e0, List.mem_map] at hmem
    obtain ⟨v, hv, hvi⟩ := hmem
    exact CGState.substValue_ne P i Same v hS (fun hh => h2 j y0 hy0 (hh ▸ hv)) hvi
  · intro b d hbd
    rw [CGState.Defs_eraseFromParent] at hbd
    unfold CGState.replaceAllUsesWith at hbd
    simp only at hbd
    cases hd : (s.CurrentDef b).Defs d with
    | none => rw [hd] at hbd; simp at hbd
    | some v =>
      rw [hd] at hbd
      simp at hbd
      exact CGState.substValue_ne P i Same v hS (fun hh => h3 b d (hh ▸ hd)) hbd

/-- The value that replaces a removed phi is one of its operands or an
undefined value. -/
theorem sameIncoming_getD_mem (Phi : InstId) (vs : List Value) (r : Option Value) (ty : Ty)
    (h : sameIncoming Phi vs none = some r) :
    r.getD (.undef ty) ∈ vs ∨ r.getD (.undef ty) = .undef ty := by
  rcases sameIncoming_none Phi vs with ⟨e, _⟩ | ⟨e, _⟩ | ⟨V, e, _, hmem, _⟩
  · rw [e] at h; cases h
  · rw [e] at h; cases h; right; rfl
  · rw [e] at h; cases h; left; exact hmem

/-- `optimizePhi`, on whatever phi, keeps an erased and unreferenced
instruction erased and unreferenced. -/
theorem optimizePhi_gone (i : InstId) (fuel : Nat) : ∀ (s : CGState) (P : InstId),
    s.Gone i → (optimizePhi fuel P s).state.Gone i := by
  induction fuel with
  | zero => intro s P h; simpa [optimizePhi] using h
  | succ fuel ih =>
    intro s P h
    cases hx : s.insts P with
    | none => rw [optimizePhi_succ_erased fuel s P hx]; exact h
    | some x =>
      cases hs : sameIncoming P x.operands none with
      | none => rw [optimizePhi_succ_keep fuel s P x hx hs]; exact h
      | some Same? =>
        rw [optimizePhi_succ_remove fuel s P x Same? hx hs]
        have hS : Same?.getD (.undef x.ty) ≠ .inst i := by
          rcases sameIncoming_getD_mem P x.operands Same? x.ty hs with hm | hu
          · exact fun hh => h.2.1 P x hx (hh ▸ hm)
          · rw [hu]; simp
        have h1 := h.replace_erase P _ hS
        have hloop := forEachPhi_spec (optimizePhi fuel) (fun t => t.Gone i)
          (fun a b => a.Gone i → b.Gone i) (fun _ => True)
          (fun _ h => h) (fun _ _ _ f g h => g (f h)) (fun _ _ ha hab => hab ha)
          (candidatePhis s P x.uses)
          (fun Q _ t _ => ⟨fun _ _ _ => trivial, fun ht => ih t Q ht⟩)
          _ h1
        have hfin := hloop.2 h1
        cases hl : forEachPhi (optimizePhi fuel) (candidatePhis s P x.uses)
            ((s.replaceAllUsesWith P (Same?.getD (.undef x.ty))).eraseFromParent P) with
        | fail e s1 => rw [M.bind_fail hl]; rw [hl] at hfin; exact hfin
        | ok v s1 => rw [M.bind_ok hl]; rw [hl] at hfin; exact hfin

theorem CGState.substValue_self_ne (Old : InstId) (New v : Value) (hN : New ≠ .inst Old) :
    CGState.substValue Old New v ≠ .inst Old := by
  unfold CGState.substValue
  split
  · exact hN
  · assumption

/-- After its uses have been replaced by another value and it has been
erased, a phi is erased and unreferenced. -/
theorem CGState.gone_replace_erase_self (s : CGState) (Phi : InstId) (x : Instruction)
    (Same : Value) (hx : s.insts Phi = some x) (hS : Same ≠ .inst Phi) :
    ((s.replaceAllUsesWith Phi Same).eraseFromParent Phi).Gone Phi := by
  refine ⟨?_, ?_, ?_⟩
  · have : ∃ x', (s.replaceAllUsesWith Phi Same).insts Phi = some x' := by
      unfold CGState.replaceAllUsesWith
      simp [hx]
    obtain ⟨x', hx'⟩ := this
    exact CGState.insts_eraseFromParent_self _ _ x' hx'
  · intro j y hy hmem
    obtain ⟨y1, hy1, e1⟩ := CGState.insts_eraseFromParent _ _ _ _ hy
    obtain ⟨y0, _, e0⟩ := CGState.insts_replaceAllUsesWith _ _ _ _ _ hy1
    rw [e1, e0, List.mem_map] at hmem
    obtain ⟨v, _, hvi⟩ := hmem
    exact CGState.substValue_self_ne Phi Same v hS hvi
  · intro b d hbd
    rw [CGState.Defs_eraseFromParent] at hbd
    unfold CGState.replaceAllUsesWith at hbd
    simp only at hbd
    cases hd : (s.CurrentDef b).Defs d with
    | none => rw [hd] at hbd; simp at hbd
    | some v =>
      rw [hd] at hbd
      simp at hbd
      exact CGState.substValue_self_ne Phi Same v hS hbd

/-- The outcome of `optimizePhi` on a live phi that it removes. -/
theorem optimizePhi_remove_outcome (fuel : Nat) (s : CGState) (Phi : InstId)
    (x : Instruction) (Same? : Option Value) (hfin : s.Finite) (hx : s.insts Phi = some x)
    (hphi : x.op = .PHI) (hs : sameIncoming Phi x.operands none = some Same?)
    (hfuel : s.phiCount < fuel + 1) (hS : Same?.getD (.undef x.ty) ≠ .inst Phi) :
    ∃ s', (optimizePhi (fuel + 1) Phi s = .ok (Same?.getD (.undef x.ty)) s' ∨
        optimizePhi (fuel + 1) Phi s = .fail .optimizePhiOnErasedPhi s') ∧ s'.Gone Phi := by
  have hisphi : s.isPHI Phi = true := by simp [CGState.isPHI, hx, hphi]
  obtain ⟨hg, _⟩ := optimizePhi_fuel (fuel + 1) s Phi hfin (Or.inl hisphi) hfuel
  rw [optimizePhi_succ_remove fuel s Phi x Same? hx hs] at hg ⊢
  have h1 := s.gone_replace_erase_self Phi x _ hx hS
  have hloop := forEachPhi_spec (optimizePhi fuel) (fun t => t.Gone Phi)
    (fun a b => a.Gone Phi → b.Gone Phi) (fun _ => True)
    (fun _ h => h) (fun _ _ _ f g h => g (f h)) (fun _ _ ha hab => hab ha)
    (candidatePhis s Phi x.uses)
    (fun Q _ t _ => ⟨fun _ _ _ => trivial, fun ht => optimizePhi_gone Phi fuel t Q ht⟩)
    _ h1
  have hfinal := hloop.2 h1
  cases hl : forEachPhi (optimizePhi fuel) (candidatePhis s Phi x.uses)
      ((s.replaceAllUsesWith Phi (Same?.getD (.undef x.ty))).eraseFromParent Phi) with
  | fail e s1 =>
    rw [hl] at hfinal
    rw [M.bind_fail hl] at hg ⊢
    have := hg e s1 rfl
    subst this
    exact ⟨s1, Or.inr rfl, hfinal⟩
  | ok v s1 =>
    rw [hl] at hfinal
    rw [M.bind_ok hl]
    exact ⟨s1, Or.inl rfl, hfinal⟩

/-- The state after `Phi->replaceAllUsesWith(Same)` and
`Phi->eraseFromParent()`: the phi is erased, every other instruction is as it
was but for its operands, in which `Same` stands for the phi, and so do the
recorded definitions. -/
theorem CGState.replace_erase_spec (s : CGState) (Phi : InstId) (x : Instruction)
    (Same : Value) (hx : s.insts Phi = some x) :
    ((s.replaceAllUsesWith Phi Same).eraseFromParent Phi).insts Phi = none ∧
    (∀ j y, j ≠ Phi → s.insts j = some y →
      ∃ y', ((s.replaceAllUsesWith Phi Same).eraseFromParent Phi).insts j = some y' ∧
        y'.op = y.op ∧ y'.ty = y.ty ∧ y'.blocks = y.blocks ∧ y'.parent = y.parent ∧
        y'.operands = y.operands.map (CGState.substValue Phi Same)) ∧
    (∀ j, s.insts j = none →
      ((s.replaceAllUsesWith Phi Same).eraseFromParent Phi).insts j = none) ∧
    (∀ b d, (((s.replaceAllUsesWith Phi Same).eraseFromParent Phi).CurrentDef b).Defs d =
      ((s.CurrentDef b).Defs d).map (CGState.substValue Phi Same)) := by
  have hlive : ∃ x1, (s.replaceAllUsesWith Phi Same).insts Phi = some x1 := by
    simp [CGState.replaceAllUsesWith, hx]
  obtain ⟨x1, hx1⟩ := hlive
  refine ⟨CGState.insts_eraseFromParent_self _ Phi x1 hx1, ?_, ?_, ?_⟩
  · intro j y hj hy
    simp only [CGState.eraseFromParent, hx1, hj, if_false]
    simp only [CGState.replaceAllUsesWith, hy, Option.map_some']
    exact ⟨_, rfl, rfl, rfl, rfl, rfl, rfl⟩
  · intro j hj
    exact CGState.insts_eraseFromParent_none _ _ _
      (CGState.insts_replaceAllUsesWith_none _ _ _ _ hj)
  · intro b d
    rw [CGState.Defs_eraseFromParent]
    rfl

theorem mem_candidatePhis (s : CGState) (Phi : InstId) (uses : List Use) (Q : InstId) :
    Q ∈ candidatePhis s Phi uses ↔ Q ≠ Phi ∧ s.isPHI Q = true ∧ ∃ k, (Q, k) ∈ uses := by
  unfold candidatePhis
  rw [List.mem_filterMap]
  constructor
  · rintro ⟨U, hU, h⟩
    split at h
    · next hc =>
      cases h
      exact ⟨hc.2, hc.1, U.2, hU⟩
    · cases h
  · rintro ⟨h1, h2, k, hk⟩
    exact ⟨(Q, k), hk, by simp [h1, h2]⟩

/-- C8 (amended): `optimizePhi(phi)` returns `phi` itself, leaving the
function unchanged, if and only if the incoming values of `phi` contain two
different values other than `phi` itself.  Otherwise, with `Same` the one
incoming value other than `phi` (the undefined value of the phi's type when
there is none), it replaces every use of `phi` by `Same` and erases `phi`
(state `s1`: every other instruction has `Same` for `phi` in its operands and
is unchanged otherwise, and so have the recorded definitions), then
re-optimizes, in the order of the use list, the phi nodes other than `phi`
that used it, and returns `Same`.  The call returns unless this
re-optimization reaches an already erased phi; it returns at once in `s1` when
no phi used `phi`.  However the call ends, `phi` has been erased and no
operand and no recorded definition refers to it; what the re-optimization has
made of `Same` in the former uses of `phi`, and of `Same` itself, is not
said. -/
theorem optimizePhi_contract (fuel : Nat) (s : CGState) (Phi : InstId) (x : Instruction)
    (hfin : s.Finite) (hx : s.insts Phi = some x) (hphi : x.op = .PHI)
    (hfuel : s.phiCount < fuel) :
    ((optimizePhi fuel Phi s).value? = some (.inst Phi) ↔ distinctIncoming Phi x.operands) ∧
    (distinctIncoming Phi x.operands → optimizePhi fuel Phi s = .ok (.inst Phi) s) ∧
    (¬ distinctIncoming Phi x.operands →
      ∃ Same s1, uniqueIncoming Phi x.ty x.operands Same ∧
        s1.insts Phi = none ∧
        (∀ j y, j ≠ Phi → s.insts j = some y →
          ∃ y', s1.insts j = some y' ∧ y'.op = y.op ∧ y'.ty = y.ty ∧ y'.blocks = y.blocks ∧
            y'.parent = y.parent ∧
            y'.operands = y.operands.map (CGState.substValue Phi Same)) ∧
        (∀ j, s.insts j = none → s1.insts j = none) ∧
        (∀ b d, (s1.CurrentDef b).Defs d =
          ((s.CurrentDef b).Defs d).map (CGState.substValue Phi Same)) ∧
        (∀ Q, Q ∈ candidatePhis s Phi x.uses ↔
          Q ≠ Phi ∧ s.isPHI Q = true ∧ ∃ k, (Q, k) ∈ x.uses) ∧
        optimizePhi fuel Phi s =
          (forEachPhi (optimizePhi (fuel - 1)) (candidatePhis s Phi x.uses) >>=
            fun _ => pure Same) s1 ∧
        (candidatePhis s Phi x.uses = [] → optimizePhi fuel Phi s = .ok Same s1) ∧
        (∀ v s', optimizePhi fuel Phi s = .ok v s' → v = Same ∧ s'.Gone Phi) ∧
        (∀ e s', optimizePhi fuel Phi s = .fail e s' →
          e = .optimizePhiOnErasedPhi ∧ s'.Gone Phi ∧
          forEachPhi (optimizePhi (fuel - 1)) (candidatePhis s Phi x.uses) s1 =
            .fail .optimizePhiOnErasedPhi s')) := by
  obtain ⟨f, rfl⟩ : ∃ f, fuel = f + 1 := ⟨fuel - 1, by omega⟩
  have key : ∀ (Same? : Option Value), sameIncoming Phi x.operands none = some Same? →
      Same?.getD (.undef x.ty) ≠ .inst Phi →
      uniqueIncoming Phi x.ty x.operands (Same?.getD (.undef x.ty)) →
      ∃ Same s1, uniqueIncoming Phi x.ty x.operands Same ∧
        s1.insts Phi = none ∧
        (∀ j y, j ≠ Phi → s.insts j = some y →
          ∃ y', s1.insts j = some y' ∧ y'.op = y.op ∧ y'.ty = y.ty ∧ y'.blocks = y.blocks ∧
            y'.parent = y.parent ∧
            y'.operands = y.operands.map (CGState.substValue Phi Same)) ∧
        (∀ j, s.insts j = none → s1.insts j = none) ∧
        (∀ b d, (s1.CurrentDef b).Defs d =
          ((s.CurrentDef b).Defs d).map (CGState.substValue Phi Same)) ∧
        (∀ Q, Q ∈ candidatePhis s Phi x.uses ↔
          Q ≠ Phi ∧ s.isPHI Q = true ∧ ∃ k, (Q, k) ∈ x.uses) ∧
        optimizePhi (f + 1) Phi s =
          (forEachPhi (optimizePhi (f + 1 - 1)) (candidatePhis s Phi x.uses) >>=
            fun _ => pure Same) s1 ∧
        (candidatePhis s Phi x.uses = [] → optimizePhi (f + 1) Phi s = .ok Same s1) ∧
        (∀ v s', optimizePhi (f + 1) Phi s = .ok v s' → v = Same ∧ s'.Gone Phi) ∧
        (∀ e s', optimizePhi (f + 1) Phi s = .fail e s' →
          e = .optimizePhiOnErasedPhi ∧ s'.Gone Phi ∧
          forEachPhi (optimizePhi (f + 1 - 1)) (candidatePhis s Phi x.uses) s1 =
            .fail .optimizePhiOnErasedPhi s') := by
    intro Same? e hS huniq
    obtain ⟨a1, a2, a3, a4⟩ := s.replace_erase_spec Phi x (Same?.getD (.undef x.ty)) hx
    obtain ⟨s', hout, hgone⟩ :=
      optimizePhi_remove_outcome f s Phi x Same? hfin hx hphi e hfuel hS
    have heq := optimizePhi_succ_remove f s Phi x Same? hx e
    refine ⟨_, _, huniq, a1, a2, a3, a4, mem_candidatePhis s Phi x.uses, heq, ?_, ?_, ?_⟩
    · intro hc
      rw [heq, hc]
      rfl
    · intro v t hv
      rcases hout with h | h
      · rw [h] at hv
        cases hv
        exact ⟨rfl, hgone⟩
      · rw [h] at hv
        cases hv
    · intro e' t he
      rcases hout with h | h
      · rw [h] at he
        cases he
      · rw [h] at he
        cases he
        refine ⟨rfl, hgone, ?_⟩
        rw [heq] at h
        cases hl : forEachPhi (optimizePhi f) (candidatePhis s Phi x.uses)
            ((s.replaceAllUsesWith Phi (Same?.getD (.undef x.ty))).eraseFromParent Phi) with
        | ok u t1 =>
          rw [M.bind_ok hl] at h
          cases h
        | fail e1 t1 =>
          rw [M.bind_fail hl] at h
          cases h
          exact hl
  rcases sameIncoming_none Phi x.operands with ⟨e, hd⟩ | ⟨e, hall⟩ | ⟨V, e, hV, hmem, hall⟩
  · have hk := optimizePhi_succ_keep f s Phi x hx e
    refine ⟨?_, fun _ => hk, fun hnd => absurd hd hnd⟩
    rw [hk]
    simp [Res.value?, hd]
  · have hnd : ¬ distinctIncoming Phi x.operands := fun hd =>
      distinctIncoming_not_unique Phi x.operands (.undef x.ty) hd (fun v hv => Or.inl (hall v hv))
    have hS : (none : Option Value).getD (.undef x.ty) ≠ .inst Phi := by simp
    have huniq : uniqueIncoming Phi x.ty x.operands (.undef x.ty) :=
      ⟨by simp, fun v hv => Or.inl (hall v hv), Or.inr ⟨rfl, hall⟩⟩
    obtain ⟨s', hout, _⟩ :=
      optimizePhi_remove_outcome f s Phi x none hfin hx hphi e hfuel hS
    refine ⟨?_, fun hd => absurd hd hnd, fun _ => key none e hS huniq⟩
    constructor
    · intro hv
      rcases hout with h | h <;> rw [h] at hv <;> simp [Res.value?] at hv
    · intro hd; exact absurd hd hnd
  · have hnd : ¬ distinctIncoming Phi x.operands := fun hd =>
      distinctIncoming_not_unique Phi x.operands V hd hall
    have hS : (some V).getD (.undef x.ty) ≠ .inst Phi := by simpa using hV
    have huniq : uniqueIncoming Phi x.ty x.operands V := ⟨hV, hall, Or.inl hmem⟩
    obtain ⟨s', hout, _⟩ :=
      optimizePhi_remove_outcome f s Phi x (some V) hfin hx hphi e hfuel hS
    refine ⟨?_, fun hd => absurd hd hnd, fun _ => key (some V) e hS huniq⟩
    constructor
    · intro hv
      rcases hout with h | h <;> rw [h] at hv <;> simp [Res.value?] at hv
      exact absurd hv hV
    · intro hd; exact absurd hd hnd

set_option maxRecDepth 100000 in
/-- Witness for C8 (amended): the phi `%0` of `phiPair`, whose only incoming
value is `%1`; its users are the phi `%1` and the addition `%3`. -/
theorem optimizePhi_contract_witness :
    Example.phiPair.insts 0 = some
      { op := .PHI, ty := .int 64, operands := [.inst 1], blocks := [1], parent := 0,
        uses := [(3, 0), (1, 1)] } ∧
    ¬ distinctIncoming 0 [Value.inst 1] ∧
    ∃ Same s1, uniqueIncoming 0 (.int 64) [Value.inst 1] Same ∧ s1.insts 0 = none ∧
      (∀ Q, Q ∈ candidatePhis Example.phiPair 0 [(3, 0), (1, 1)] ↔
        Q ≠ 0 ∧ Example.phiPair.isPHI Q = true ∧ ∃ k, (Q, k) ∈ [((3 : InstId), 0), (1, 1)]) ∧
      optimizePhi 3 0 Example.phiPair =
        (forEachPhi (optimizePhi (3 - 1)) (candidatePhis Example.phiPair 0 [(3, 0), (1, 1)]) >>=
          fun _ => pure Same) s1 ∧
      (∀ v s', optimizePhi 3 0 Example.phiPair = .ok v s' → v = Same ∧ s'.Gone 0) := by
  have hnd : ¬ distinctIncoming 0 [Value.inst 1] := by
    rintro ⟨v, hv, w, hw, hne, _, _⟩
    simp only [List.mem_singleton] at hv hw
    exact hne (hv.trans hw.symm)
  refine ⟨rfl, hnd, ?_⟩
  obtain ⟨Same, s1, h1, h2, _, _, _, h6, h7, _, h9, _⟩ :=
    (optimizePhi_contract 3 Example.phiPair 0
      { op := .PHI, ty := .int 64, operands := [.inst 1], blocks := [1], parent := 0,
        uses := [(3, 0), (1, 1)] }
      Example.phiPair_finite rfl rfl (by decide!)).2.2 hnd
  exact ⟨Same, s1, h1, h2, h6, h7, h9⟩

set_option maxRecDepth 100000 in
/-- C8 (fails as stated): on `phiPair`, `optimizePhi(%0)` replaces the uses of
`%0` by its only incoming value `%1` and returns `%1`; but the cascade has
then removed `%1` in turn, so at return the value returned is an erased phi
and the former use of `%0` in `%3 = add %0, 1` holds `arg0`, not the
returned value. -/
theorem optimizePhi_returns_erased_value :
    (Example.phiPair.insts 0).map (fun y => y.operands) = some [.inst 1] ∧
    (Example.phiPair.insts 3).map (fun y => y.operands) = some [.inst 0, .constInt 64 1] ∧
    (optimizePhi 3 0 Example.phiPair).value? = some (.inst 1) ∧
    (optimizePhi 3 0 Example.phiPair).state.insts 1 = none ∧
    ((optimizePhi 3 0 Example.phiPair).state.insts 3).map (fun y => y.operands) =
      some [.arg 0, .constInt 64 1] := by
  decide!

end tinylang

namespace tinylang

/-! ## Operations that leave the control-flow part of the state alone -/

theorem SameControl.unchanged (s : CGState) : SameControl s s :=
  ⟨rfl, rfl, rfl, rfl, fun _ => rfl⟩

theorem SameControl.andThen {s t u : CGState} (h1 : SameControl s t) (h2 : SameControl t u) :
    SameControl s u :=
  ⟨h2.1.trans h1.1, h2.2.1.trans h1.2.1, h2.2.2.1.trans h1.2.2.1, h2.2.2.2.1.trans h1.2.2.2.1,
    fun b => (h2.2.2.2.2 b).trans (h1.2.2.2.2 b)⟩

theorem KeepsControl.pure {α : Type} (a : α) : KeepsControl (pure a : M α) :=
  fun s => SameControl.unchanged s

theorem KeepsControl.throw {α : Type} (e : Err) : KeepsControl (M.throw e : M α) :=
  fun s => SameControl.unchanged s

theorem KeepsControl.get : KeepsControl M.get :=
  fun s => SameControl.unchanged s

theorem KeepsControl.modify (f : CGState → CGState) (h : ∀ s, SameControl s (f s)) :
    KeepsControl (M.modify f) :=
  fun s => h s

theorem KeepsControl.bind {α β : Type} {x : M α} {f : α → M β} (hx : KeepsControl x)
    (hf : ∀ a, KeepsControl (f a)) : KeepsControl (x >>= f) := by
  intro s
  have h1 := hx s
  show SameControl s (M.bind x f s).state
  cases h : x s with
  | ok a s1 =>
    rw [M.bind_ok h]
    rw [h] at h1
    exact h1.andThen (hf a s1)
  | fail e s1 =>
    rw [M.bind_fail h]
    rw [h] at h1
    exact h1

theorem KeepsControl.ite {α : Type} {c : Prop} [Decidable c] {x y : M α}
    (hx : KeepsControl x) (hy : KeepsControl y) : KeepsControl (if c then x else y) := by
  split
  · exact hx
  · exact hy

theorem CGState.sameControl_setInst (s : CGState) (i : InstId) (x : Option Instruction) :
    SameControl s (s.setInst i x) :=
  ⟨rfl, rfl, rfl, rfl, fun _ => rfl⟩

theorem CGState.sameControl_addUse (s : CGState) (v : Value) (u : Use) :
    SameControl s (s.addUse v u) := by
  unfold CGState.addUse
  split
  · split
    · exact s.sameControl_setInst _ _
    · exact SameControl.unchanged s
  · exact SameControl.unchanged s

theorem CGState.sameControl_addUses (user : InstId) :
    ∀ (vs : List Value) (s : CGState) (k : Nat), SameControl s (s.addUses user vs k) := by
  intro vs
  induction vs with
  | nil => intro s k; exact SameControl.unchanged s
  | cons v vs ih =>
    intro s k
    exact (s.sameControl_addUse v (user, k)).andThen (ih _ _)

theorem keepsControl_createInst (BB : BlockId) (atFront : Bool) (op : Opcode) (ty : Ty)
    (operands : List Value) : KeepsControl (createInst BB atFront op ty operands []) := by
  intro s
  simp only [createInst, Res.state_ok, List.foldl_nil]
  refine SameControl.andThen ?_ (CGState.sameControl_addUses _ _ _ _)
  exact ⟨rfl, rfl, rfl, rfl, fun _ => rfl⟩

theorem keepsControl_addIncoming (Phi : InstId) (V : Value) (BB : BlockId) :
    KeepsControl (addIncoming Phi V BB) := by
  intro s
  unfold addIncoming
  split
  · exact SameControl.unchanged s
  · exact (s.sameControl_setInst _ _).andThen (CGState.sameControl_addUse _ _ _)

theorem keepsControl_mapType (D : Decl) : KeepsControl (mapType D) := by
  unfold mapType
  repeat' first
    | exact KeepsControl.throw _
    | exact KeepsControl.pure _
    | split

theorem keepsControl_writeLocalVariable (BB : BlockId) (D : Decl) (Val : Option Value) :
    KeepsControl (writeLocalVariable BB D Val) := by
  intro s
  unfold writeLocalVariable
  split
  · exact SameControl.unchanged s
  · split
    · exact SameControl.unchanged s
    · exact ⟨rfl, rfl, rfl, rfl, fun b => by simp [CGState.setDef, CGState.updDef]; split <;> rfl⟩

theorem keepsControl_addEmptyPhi (BB : BlockId) (D : Decl) : KeepsControl (addEmptyPhi BB D) := by
  unfold addEmptyPhi
  exact KeepsControl.bind (keepsControl_mapType D) (fun _ => keepsControl_createInst _ _ _ _ _)

theorem CGState.sameControl_updDef (s : CGState) (BB : BlockId)
    (f : BasicBlockDef → BasicBlockDef) (hf : ∀ bd, (f bd).Sealed = bd.Sealed) :
    SameControl s (s.updDef BB f) := by
  refine ⟨rfl, rfl, rfl, rfl, fun b => ?_⟩
  simp only [CGState.updDef]
  split
  · exact hf _
  · rfl

theorem CGState.sameControl_replaceAllUsesWith (s : CGState) (Old : InstId) (New : Value) :
    SameControl s (s.replaceAllUsesWith Old New) :=
  ⟨rfl, rfl, rfl, rfl, fun _ => rfl⟩

theorem CGState.sameControl_eraseFromParent (s : CGState) (i : InstId) :
    SameControl s (s.eraseFromParent i) := by
  unfold CGState.eraseFromParent
  split
  · exact SameControl.unchanged s
  · exact ⟨rfl, rfl, rfl, rfl, fun _ => rfl⟩

theorem keepsControl_forEachPhi (f : InstId → M Value) (hf : ∀ P, KeepsControl (f P)) :
    ∀ cs : List InstId, KeepsControl (forEachPhi f cs) := by
  intro cs
  induction cs with
  | nil => exact KeepsControl.pure _
  | cons P Ps ih =>
    unfold forEachPhi
    exact KeepsControl.bind (hf P) (fun _ => ih)

theorem keepsControl_optimizePhi (fuel : Nat) : ∀ Phi : InstId,
    KeepsControl (optimizePhi fuel Phi) := by
  induction fuel with
  | zero => intro Phi; exact KeepsControl.throw _
  | succ fuel ih =>
    intro Phi s
    cases hx : s.insts Phi with
    | none => rw [optimizePhi_succ_erased fuel s Phi hx]; exact SameControl.unchanged s
    | some x =>
      cases hs : sameIncoming Phi x.operands none with
      | none => rw [optimizePhi_succ_keep fuel s Phi x hx hs]; exact SameControl.unchanged s
      | some Same? =>
        rw [optimizePhi_succ_remove fuel s Phi x Same? hx hs]
        have h1 : SameControl s
            ((s.replaceAllUsesWith Phi (Same?.getD (.undef x.ty))).eraseFromParent Phi) :=
          (s.sameControl_replaceAllUsesWith _ _).andThen (CGState.sameControl_eraseFromParent _ _)
        have h2 : KeepsControl
            (forEachPhi (optimizePhi fuel) (candidatePhis s Phi x.uses) >>=
              fun _ => (pure (Same?.getD (.undef x.ty)) : M Value)) :=
          KeepsControl.bind (keepsControl_forEachPhi _ ih _) (fun _ => KeepsControl.pure _)
        exact h1.andThen (h2 _)

theorem keepsControl_addPhiOperandsLoop (rd : BlockId → Decl → M Value)
    (hrd : ∀ BB D, KeepsControl (rd BB D)) (D : Decl) (Phi : InstId) :
    ∀ Is : List BlockId, KeepsControl (addPhiOperandsLoop rd D Phi Is) := by
  intro Is
  induction Is with
  | nil => exact KeepsControl.pure _
  | cons I Is ih =>
    unfold addPhiOperandsLoop
    exact KeepsControl.bind (hrd I D) (fun _ =>
      KeepsControl.bind (keepsControl_addIncoming _ _ _) (fun _ => ih))

theorem keepsControl_addPhiOperandsWith (rd : BlockId → Decl → M Value)
    (hrd : ∀ BB D, KeepsControl (rd BB D)) (BB : BlockId) (D : Decl) (Phi : InstId) :
    KeepsControl (addPhiOperandsWith rd BB D Phi) := by
  unfold addPhiOperandsWith
  repeat' first
    | exact KeepsControl.get
    | exact keepsControl_addPhiOperandsLoop rd hrd _ _ _
    | exact keepsControl_optimizePhi _ _
    | apply KeepsControl.bind
    | intro _

theorem keepsControl_readLocalVariableRecursiveWith (rd : BlockId → Decl → M Value)
    (hrd : ∀ BB D, KeepsControl (rd BB D)) (BB : BlockId) (D : Decl) :
    KeepsControl (readLocalVariableRecursiveWith rd BB D) := by
  unfold readLocalVariableRecursiveWith
  repeat' first
    | exact KeepsControl.throw _
    | exact KeepsControl.pure _
    | exact KeepsControl.get
    | exact hrd _ _
    | exact keepsControl_addEmptyPhi _ _
    | exact keepsControl_writeLocalVariable _ _ _
    | exact keepsControl_addPhiOperandsWith rd hrd _ _ _
    | exact KeepsControl.modify _ (fun t => t.sameControl_updDef _ _ (fun _ => rfl))
    | apply KeepsControl.bind
    | split
    | intro _

theorem keepsControl_readLocalVariable (fuel : Nat) : ∀ (BB : BlockId) (D : Decl),
    KeepsControl (readLocalVariable fuel BB D) := by
  induction fuel with
  | zero => intro BB D; exact KeepsControl.throw _
  | succ fuel ih =>
    intro BB D
    unfold readLocalVariable
    repeat' first
      | exact KeepsControl.throw _
      | exact KeepsControl.pure _
      | exact KeepsControl.get
      | exact keepsControl_readLocalVariableRecursiveWith _ ih _ _
      | apply KeepsControl.bind
      | split
      | intro _

theorem keepsControl_addPhiOperands (fuel : Nat) (BB : BlockId) (D : Decl) (Phi : InstId) :
    KeepsControl (addPhiOperands fuel BB D Phi) :=
  keepsControl_addPhiOperandsWith _ (keepsControl_readLocalVariable fuel) _ _ _

theorem keepsControl_sealBlockLoop (fuel : Nat) (BB : BlockId) :
    ∀ l : List (InstId × Decl), KeepsControl (sealBlockLoop fuel BB l) := by
  intro l
  induction l with
  | nil => exact KeepsControl.pure _
  | cons pd rest ih =>
    unfold sealBlockLoop
    exact KeepsControl.bind (keepsControl_addPhiOperands _ _ _ _) (fun _ => ih)

theorem keepsControl_Insert (op : Opcode) (ty : Ty) (operands : List Value) :
    KeepsControl (Insert op ty operands []) := by
  unfold Insert
  repeat' first
    | exact KeepsControl.throw _
    | exact KeepsControl.pure _
    | exact KeepsControl.get
    | assumption
    | exact keepsControl_mapType _
    | exact keepsControl_writeLocalVariable _ _ _
    | exact keepsControl_readLocalVariable _ _ _
    | exact keepsControl_createInst _ _ _ _ _
    | apply KeepsControl.bind
    | split
    | intro _

theorem keepsControl_CreateBinOp (E : Env) (op : Opcode) (L R : Value) :
    KeepsControl (CreateBinOp E op L R) := by
  unfold CreateBinOp
  repeat' first
    | exact KeepsControl.pure _
    | exact KeepsControl.get
    | exact keepsControl_Insert _ _ _
    | apply KeepsControl.bind
    | split
    | intro _

theorem keepsControl_CreateLoad (Ty : Ty) (Ptr : Value) : KeepsControl (CreateLoad Ty Ptr) :=
  keepsControl_Insert _ _ _

theorem keepsControl_CreateStore (Val Ptr : Value) : KeepsControl (CreateStore Val Ptr) :=
  keepsControl_Insert _ _ _

theorem keepsControl_CreateInBoundsGEP (E : Env) (Ptr : Value) (IdxList : List Value) :
    KeepsControl (CreateInBoundsGEP E Ptr IdxList) := by
  unfold CreateInBoundsGEP
  repeat' first
    | exact KeepsControl.pure _
    | exact keepsControl_Insert _ _ _
    | split

theorem keepsControl_readVariable (fuel : Nat) (BB : BlockId) (D : Decl) (LoadVal : Bool) :
    KeepsControl (readVariable fuel BB D LoadVal) := by
  unfold readVariable
  repeat' first
    | exact KeepsControl.throw _
    | exact KeepsControl.pure _
    | exact KeepsControl.get
    | exact keepsControl_mapType _
    | exact keepsControl_readLocalVariable _ _ _
    | exact keepsControl_CreateLoad _ _
    | apply KeepsControl.bind
    | split
    | intro _

theorem keepsControl_writeVariable (BB : BlockId) (D : Decl) (Val : Value) :
    KeepsControl (writeVariable BB D Val) := by
  unfold writeVariable
  repeat' first
    | exact KeepsControl.throw _
    | exact KeepsControl.pure _
    | exact KeepsControl.get
    | exact keepsControl_writeLocalVariable _ _ _
    | exact keepsControl_CreateStore _ _
    | apply KeepsControl.bind
    | split
    | intro _

theorem keepsControl_takeIndexSelectors (ee : Expr → M Value)
    (hee : ∀ e, KeepsControl (ee e)) :
    ∀ l : List Selector, KeepsControl (takeIndexSelectors ee l) := by
  intro l
  induction l with
  | nil => unfold takeIndexSelectors; exact KeepsControl.pure _
  | cons sel rest ih =>
    cases sel with
    | IndexSelector Index =>
      unfold takeIndexSelectors
      exact KeepsControl.bind (hee _) (fun _ => KeepsControl.bind ih (fun _ => KeepsControl.pure _))
    | FieldSelector Index => unfold takeIndexSelectors; exact KeepsControl.pure _
    | DereferenceSelector => unfold takeIndexSelectors; exact KeepsControl.pure _

theorem keepsControl_emitSelectors (E : Env) (ee : Expr → M Value)
    (hee : ∀ e, KeepsControl (ee e)) :
    ∀ (n : Nat) (Val : Value) (l : List Selector), KeepsControl (emitSelectors E ee n Val l) := by
  intro n
  induction n with
  | zero =>
    intro Val l
    cases l with
    | nil => unfold emitSelectors; exact KeepsControl.pure _
    | cons sel rest => unfold emitSelectors; exact KeepsControl.throw _
  | succ n ih =>
    intro Val l
    cases l with
    | nil => unfold emitSelectors; exact KeepsControl.pure _
    | cons sel rest =>
      cases sel <;> unfold emitSelectors <;>
      repeat' first
        | exact KeepsControl.pure _
        | exact KeepsControl.get
        | exact ih _ _
        | exact keepsControl_takeIndexSelectors ee hee _
        | exact keepsControl_CreateInBoundsGEP _ _ _
        | exact keepsControl_CreateLoad _ _
        | apply KeepsControl.bind
        | split
        | intro _

theorem keepsControl_emitInfixOp (E : Env) (Op : OpKind) (Left Right : Value) :
    KeepsControl (emitInfixOp E Op Left Right) := by
  unfold emitInfixOp
  repeat' first
    | exact KeepsControl.throw _
    | exact keepsControl_CreateBinOp _ _ _ _
    | split

theorem keepsControl_emitPrefixOp (E : Env) (Op : OpKind) (Result : Value) :
    KeepsControl (emitPrefixOp E Op Result) := by
  unfold emitPrefixOp
  repeat' first
    | exact KeepsControl.throw _
    | exact KeepsControl.pure _
    | exact KeepsControl.get
    | exact keepsControl_CreateBinOp _ _ _ _
    | apply KeepsControl.bind
    | split
    | intro _

theorem keepsControl_emitExpr (E : Env) (fuel : Nat) : ∀ e : Expr,
    KeepsControl (emitExpr E fuel e) := by
  induction fuel with
  | zero => intro e; exact KeepsControl.throw _
  | succ fuel ih =>
    intro e
    unfold emitExpr
    repeat' first
      | exact KeepsControl.throw _
      | exact KeepsControl.pure _
      | exact KeepsControl.get
      | exact ih _
      | exact keepsControl_emitInfixOp _ _ _ _
      | exact keepsControl_emitPrefixOp _ _ _
      | exact keepsControl_readVariable _ _ _ _
      | exact keepsControl_emitSelectors E _ ih _ _ _
      | apply KeepsControl.bind
      | split
      | intro _

theorem keepsControl_assignmentIndexes (ee : Expr → M Value)
    (hee : ∀ e, KeepsControl (ee e)) :
    ∀ l : List Selector, KeepsControl (assignmentIndexes ee l) := by
  intro l
  induction l with
  | nil => unfold assignmentIndexes; exact KeepsControl.pure _
  | cons sel rest ih =>
    cases sel <;> unfold assignmentIndexes <;>
    repeat' first
      | exact KeepsControl.throw _
      | exact KeepsControl.pure _
      | exact hee _
      | exact ih
      | apply KeepsControl.bind
      | intro _

theorem keepsControl_emitAssignmentStatement (E : Env) (fuel : Nat) (D : Decl)
    (Selectors : List Selector) (X : Expr) :
    KeepsControl (emitAssignmentStatement E fuel D Selectors X) := by
  unfold emitAssignmentStatement
  repeat' first
    | exact KeepsControl.throw _
    | exact KeepsControl.pure _
    | exact KeepsControl.get
    | exact keepsControl_emitExpr _ _ _
    | exact keepsControl_writeVariable _ _ _
    | exact keepsControl_readVariable _ _ _ _
    | exact keepsControl_assignmentIndexes _ (keepsControl_emitExpr _ _) _
    | exact keepsControl_CreateInBoundsGEP _ _ _
    | exact keepsControl_CreateStore _ _
    | apply KeepsControl.bind
    | split
    | intro _

theorem keepsControl_emitReturnStatement (E : Env) (fuel : Nat) (RetVal : Option Expr) :
    KeepsControl (emitReturnStatement E fuel RetVal) := by
  unfold emitReturnStatement
  repeat' first
    | exact KeepsControl.pure _
    | exact keepsControl_emitExpr _ _ _
    | exact keepsControl_Insert _ _ _
    | apply KeepsControl.bind
    | split
    | intro _

end tinylang

namespace tinylang

/-! ## Control flow of `emit`: no edge into a sealed block -/

theorem NoEdgeAfterSeal.append_seal {tr : List Event} (h : NoEdgeAfterSeal tr) (b : BlockId) :
    NoEdgeAfterSeal (tr ++ [Event.seal b]) := by
  unfold NoEdgeAfterSeal at *
  rw [List.pairwise_append]
  refine ⟨h, List.pairwise_singleton _ _, ?_⟩
  intro a _ c hc src d _
  rw [List.mem_singleton] at hc
  rw [hc]
  simp

theorem NoEdgeAfterSeal.append_edge {tr : List Event} (h : NoEdgeAfterSeal tr)
    (src d : BlockId) (hd : Event.seal d ∉ tr) :
    NoEdgeAfterSeal (tr ++ [Event.edge src d]) := by
  unfold NoEdgeAfterSeal at *
  rw [List.pairwise_append]
  refine ⟨h, List.pairwise_singleton _ _, ?_⟩
  intro a ha c hc src' d' hsd
  rw [List.mem_singleton] at hc
  rw [hc]
  intro heq
  cases heq
  rw [hsd] at ha
  exact hd ha

theorem mem_append_seal {tr : List Event} {b c : BlockId} :
    Event.seal b ∈ tr ++ [Event.seal c] ↔ Event.seal b ∈ tr ∨ b = c := by
  simp

theorem mem_append_edge {tr : List Event} {b src d : BlockId} :
    Event.seal b ∈ tr ++ [Event.edge src d] ↔ Event.seal b ∈ tr := by
  simp

theorem mem_append_edges {tr : List Event} {b src d src' d' : BlockId} :
    Event.seal b ∈ tr ++ [Event.edge src d, Event.edge src' d'] ↔ Event.seal b ∈ tr := by
  simp

/-- `createInst`, also for a branch, leaves the events, the blocks and the
current block as they are. -/
theorem createInst_control (BB : BlockId) (atFront : Bool) (op : Opcode) (ty : Ty)
    (operands : List Value) (blocks : List BlockId) (s : CGState) :
    ∃ i s', createInst BB atFront op ty operands blocks s = .ok i s' ∧
      s'.trace = s.trace ∧ s'.numBlocks = s.numBlocks ∧ s'.Curr = s.Curr := by
  refine ⟨_, _, rfl, ?_⟩
  have hfold : ∀ (bs : List BlockId) (t : CGState) (n : InstId),
      (bs.foldl (fun t b => t.addBlockUse b n) t).trace = t.trace ∧
      (bs.foldl (fun t b => t.addBlockUse b n) t).numBlocks = t.numBlocks ∧
      (bs.foldl (fun t b => t.addBlockUse b n) t).Curr = t.Curr := by
    intro bs
    induction bs with
    | nil => intro t n; exact ⟨rfl, rfl, rfl⟩
    | cons b bs ih =>
      intro t n
      simp only [List.foldl_cons]
      obtain ⟨h1, h2, h3⟩ := ih (t.addBlockUse b n) n
      exact ⟨h1, h2, h3⟩
  obtain ⟨h1, h2, h3⟩ := hfold blocks
    (CGState.addUses
      { s with
        insts := fun j => if j = s.numInsts then
          some { op := op, ty := ty, operands := operands, blocks := blocks, parent := BB,
                 uses := [] } else s.insts j
        numInsts := s.numInsts + 1
        blockInsts := fun b =>
          if b = BB then (if atFront then s.numInsts :: s.blockInsts b
            else s.blockInsts b ++ [s.numInsts])
          else s.blockInsts b } s.numInsts operands 0) s.numInsts
  have hu := CGState.sameControl_addUses s.numInsts operands
    { s with
        insts := fun j => if j = s.numInsts then
          some { op := op, ty := ty, operands := operands, blocks := blocks, parent := BB,
                 uses := [] } else s.insts j
        numInsts := s.numInsts + 1
        blockInsts := fun b =>
          if b = BB then (if atFront then s.numInsts :: s.blockInsts b
            else s.blockInsts b ++ [s.numInsts])
          else s.blockInsts b } 0
  exact ⟨h1.trans hu.1, h2.trans hu.2.1, h3.trans hu.2.2.1⟩

/-- `Insert` returns and leaves the events, the blocks and the current block
as they are. -/
theorem Insert_control (op : Opcode) (ty : Ty) (operands : List Value)
    (blocks : List BlockId) (s : CGState) :
    ∃ v s', Insert op ty operands blocks s = .ok v s' ∧
      s'.trace = s.trace ∧ s'.numBlocks = s.numBlocks ∧ s'.Curr = s.Curr := by
  obtain ⟨i, s1, h1, ht, hn, hc⟩ := createInst_control s.Curr false op ty operands blocks s
  refine ⟨.inst i, s1, ?_, ht, hn, hc⟩
  simp only [Insert, M.bind_apply, M.bind_get]
  rw [M.bind_ok h1]
  rfl

/-- `CreateBr` returns, having recorded one edge from the current block. -/
theorem CreateBr_control (Dest : BlockId) (s : CGState) :
    ∃ s', CreateBr Dest s = .ok () s' ∧ s'.trace = s.trace ++ [Event.edge s.Curr Dest] ∧
      s'.numBlocks = s.numBlocks ∧ s'.Curr = s.Curr := by
  obtain ⟨v, s1, h1, ht, hn, hc⟩ := Insert_control .Br .void [] [Dest] s
  refine ⟨{ s1 with trace := s1.trace ++ [Event.edge s.Curr Dest] }, ?_, ?_, hn, hc⟩
  · simp only [CreateBr, M.bind_apply, M.bind_get]
    rw [M.bind_ok h1]
    rfl
  · simp [ht]

/-- `CreateCondBr` returns, having recorded two edges from the current
block. -/
theorem CreateCondBr_control (Cond : Value) (True False : BlockId) (s : CGState) :
    ∃ s', CreateCondBr Cond True False s = .ok () s' ∧
      s'.trace = s.trace ++ [Event.edge s.Curr True, Event.edge s.Curr False] ∧
      s'.numBlocks = s.numBlocks ∧ s'.Curr = s.Curr := by
  obtain ⟨v, s1, h1, ht, hn, hc⟩ := Insert_control .Br .void [Cond] [False, True] s
  refine ⟨{ s1 with trace := s1.trace ++ [Event.edge s.Curr True, Event.edge s.Curr False] },
    ?_, ?_, hn, hc⟩
  · simp only [CreateCondBr, M.bind_apply, M.bind_get]
    rw [M.bind_ok h1]
    rfl
  · simp [ht]

/-- `sealBlock` records the sealing, if the assertion holds, and leaves the
blocks and the current block as they are; it creates no edge. -/
theorem sealBlock_control (E : Env) (fuel : Nat) (BB : BlockId) (s : CGState) :
    match sealBlock E fuel BB s with
    | .ok _ s' => s'.trace = s.trace ++ [Event.seal BB] ∧ s'.numBlocks = s.numBlocks ∧
        s'.Curr = s.Curr
    | .fail _ s' => s'.trace = s.trace ∨ s'.trace = s.trace ++ [Event.seal BB] := by
  unfold sealBlock
  simp only [M.bind_apply, M.bind_get]
  by_cases hS : (s.CurrentDef BB).Sealed = true
  · simp [hS]
  · simp only [hS, if_false, Bool.false_eq_true]
    simp only [M.bind_apply, M.bind_pure_left, M.bind_modify]
    have hk := keepsControl_sealBlockLoop fuel BB (E.order (s.CurrentDef BB).IncompletePhis)
      { s with trace := s.trace ++ [Event.seal BB] }
    cases hl : sealBlockLoop fuel BB (E.order (s.CurrentDef BB).IncompletePhis)
        { s with trace := s.trace ++ [Event.seal BB] } with
    | ok a s1 =>
      rw [hl] at hk
      rw [M.bind_ok hl]
      simp only [M.modify_apply]
      exact ⟨hk.1, hk.2.1, hk.2.2.1⟩
    | fail e s1 =>
      rw [hl] at hk
      rw [M.bind_fail hl]
      exact Or.inr hk.1

end tinylang

namespace tinylang

/-! ## Lowering of statements: the order of edges and sealings -/

theorem OkOrSafe.bindM {α β : Type} {x : M α} {f : α → M β} {s : CGState}
    {Q : α → CGState → Prop} {R : β → CGState → Prop} (hx : OkOrSafe Q (x s))
    (hf : ∀ a s', Q a s' → OkOrSafe R (f a s')) : OkOrSafe R (M.bind x f s) := by
  unfold M.bind
  cases h : x s with
  | ok a s' =>
    rw [h] at hx
    exact hf a s' hx
  | fail e s' =>
    rw [h] at hx
    exact hx

theorem OkOrSafe.mono {α : Type} {Q R : α → CGState → Prop} {r : Res α}
    (h : OkOrSafe Q r) (hQ : ∀ a s', Q a s' → R a s') : OkOrSafe R r := by
  cases r with
  | ok a s' => exact hQ a s' h
  | fail e s' => exact h

theorem OkOrSafe.state {α : Type} {Q : α → CGState → Prop} {r : Res α}
    (h : OkOrSafe Q r) (hQ : ∀ a s', Q a s' → NoEdgeAfterSeal s'.trace) :
    NoEdgeAfterSeal r.state.trace := by
  cases r with
  | ok a s' => exact hQ a s' h
  | fail e s' => exact h

theorem M.bind_createBasicBlock {β : Type} (f : BlockId → M β) (s : CGState) :
    M.bind createBasicBlock f s = f s.numBlocks { s with numBlocks := s.numBlocks + 1 } := rfl

theorem M.bind_setCurr {β : Type} (BB : BlockId) (f : Unit → M β) (s : CGState) :
    M.bind (setCurr BB) f s = f () { s with Curr := BB } := rfl

theorem Lowering.start {I : CGState → Prop} {s : CGState} (h : ControlInv s)
    (hI : I s) : Lowering I s [s.Curr] s := by
  obtain ⟨h1, h2, h3, h4⟩ := h
  refine ⟨h1, Nat.le_refl _, h4, fun b hb => Or.inl hb, ?_, fun _ hb => hb, ?_, hI⟩
  · intro p hp
    rw [List.mem_singleton] at hp
    rw [hp]
    exact ⟨h2, h3⟩
  · intro b hb hlt
    rcases hb with hb | hb
    · exact Or.inl (List.mem_singleton.2 hb)
    · exact absurd hlt (Nat.not_lt.2 hb)

theorem Lowering.frame {I : CGState → Prop} {s0 t t' : CGState} {pend : List BlockId}
    (h : Lowering I s0 pend t) (ht : t'.trace = t.trace) (hn : t'.numBlocks = t.numBlocks)
    (hI : I t') : Lowering I s0 pend t' := by
  obtain ⟨h1, h2, h3, h4, h5, h6, h7, _⟩ := h
  refine ⟨?_, ?_, ?_, ?_, ?_, ?_, ?_, hI⟩
  · rw [ht]
    exact h1
  · rw [hn]
    exact h2
  · rw [ht, hn]
    exact h3
  · rw [ht]
    exact h4
  · rw [ht, hn]
    exact h5
  · rw [ht]
    exact h6
  · rw [ht, hn]
    exact h7

theorem Lowering.same {I : CGState → Prop} {s0 t : CGState} {pend pend' : List BlockId}
    (h : Lowering I s0 pend t) (hp : ∀ p, p ∈ pend' ↔ p ∈ pend) : Lowering I s0 pend' t := by
  obtain ⟨h1, h2, h3, h4, h5, h6, h7, h8⟩ := h
  refine ⟨h1, h2, h3, h4, fun p hp' => h5 p ((hp p).1 hp'), h6, ?_, h8⟩
  intro b hb hlt
  rcases h7 b hb hlt with h | h
  · exact Or.inl ((hp b).2 h)
  · exact Or.inr h

theorem Lowering.newBlock {I : CGState → Prop} {s0 t : CGState} {pend : List BlockId}
    (h : Lowering I s0 pend t) (hI : I { t with numBlocks := t.numBlocks + 1 }) :
    Lowering I s0 (t.numBlocks :: pend) { t with numBlocks := t.numBlocks + 1 } ∧
      s0.numBlocks ≤ t.numBlocks ∧ ∀ p ∈ pend, p ≠ t.numBlocks := by
  obtain ⟨h1, h2, h3, h4, h5, h6, h7, _⟩ := h
  refine ⟨⟨h1, Nat.le_succ_of_le h2, fun b hb => Nat.lt_succ_of_lt (h3 b hb), h4, ?_, h6, ?_,
    hI⟩, h2, ?_⟩
  · intro p hp
    rw [List.mem_cons] at hp
    rcases hp with hp | hp
    · rw [hp]
      exact ⟨fun hb => Nat.lt_irrefl _ (h3 _ hb), Nat.lt_succ_self _⟩
    · exact ⟨(h5 p hp).1, Nat.lt_succ_of_lt (h5 p hp).2⟩
  · intro b hb hlt
    have hlt' : b < t.numBlocks + 1 := hlt
    rcases Nat.lt_succ_iff_lt_or_eq.1 hlt' with hlt'' | heq
    · rcases h7 b hb hlt'' with h | h
      · exact Or.inl (List.mem_cons_of_mem _ h)
      · exact Or.inr h
    · rw [heq]
      exact Or.inl (List.mem_cons_self _ _)
  · intro p hp
    exact Nat.ne_of_lt (h5 p hp).2

theorem Lowering.edge {I : CGState → Prop} {s0 t t' : CGState} {pend : List BlockId}
    (h : Lowering I s0 pend t) {src d : BlockId} (hd : d ∈ pend)
    (ht : t'.trace = t.trace ++ [Event.edge src d]) (hn : t'.numBlocks = t.numBlocks)
    (hI : I t') : Lowering I s0 pend t' := by
  obtain ⟨h1, h2, h3, h4, h5, h6, h7, _⟩ := h
  refine ⟨?_, ?_, ?_, ?_, ?_, ?_, ?_, hI⟩
  · rw [ht]
    exact h1.append_edge src d (h5 d hd).1
  · rw [hn]
    exact h2
  · intro b hb
    rw [ht] at hb
    rw [hn]
    exact h3 b (mem_append_edge.1 hb)
  · intro b hb
    rw [ht] at hb
    exact h4 b (mem_append_edge.1 hb)
  · intro p hp
    rw [ht, hn]
    exact ⟨fun hb => (h5 p hp).1 (mem_append_edge.1 hb), (h5 p hp).2⟩
  · intro b hb
    rw [ht]
    exact mem_append_edge.2 (h6 b hb)
  · intro b hb hlt
    rw [hn] at hlt
    rw [ht]
    rcases h7 b hb hlt with h | h
    · exact Or.inl h
    · exact Or.inr (mem_append_edge.2 h)

theorem Lowering.seal {I : CGState → Prop} {s0 t t' : CGState} {pend pend' : List BlockId}
    (h : Lowering I s0 pend t) {X : BlockId} (hX : X ∈ pend)
    (hX' : X = s0.Curr ∨ s0.numBlocks ≤ X) (ht : t'.trace = t.trace ++ [Event.seal X])
    (hn : t'.numBlocks = t.numBlocks) (hp : ∀ p, p ∈ pend' ↔ p ∈ pend ∧ p ≠ X)
    (hI : I t') : Lowering I s0 pend' t' := by
  obtain ⟨h1, h2, h3, h4, h5, h6, h7, _⟩ := h
  refine ⟨?_, ?_, ?_, ?_, ?_, ?_, ?_, hI⟩
  · rw [ht]
    exact h1.append_seal X
  · rw [hn]
    exact h2
  · intro b hb
    rw [ht] at hb
    rw [hn]
    rcases mem_append_seal.1 hb with hb | hb
    · exact h3 b hb
    · rw [hb]
      exact (h5 X hX).2
  · intro b hb
    rw [ht] at hb
    rcases mem_append_seal.1 hb with hb | hb
    · exact h4 b hb
    · rw [hb]
      exact Or.inr hX'
  · intro p hp'
    obtain ⟨hp1, hp2⟩ := (hp p).1 hp'
    rw [ht, hn]
    refine ⟨fun hb => ?_, (h5 p hp1).2⟩
    rcases mem_append_seal.1 hb with hb | hb
    · exact (h5 p hp1).1 hb
    · exact hp2 hb
  · intro b hb
    rw [ht]
    exact mem_append_seal.2 (Or.inl (h6 b hb))
  · intro b hb hlt
    rw [hn] at hlt
    rw [ht]
    by_cases hbX : b = X
    · exact Or.inr (mem_append_seal.2 (Or.inr hbX))
    · rcases h7 b hb hlt with h | h
      · exact Or.inl ((hp b).2 ⟨h, hbX⟩)
      · exact Or.inr (mem_append_seal.2 (Or.inl h))

theorem Lowering.controlInv {I : CGState → Prop} {s0 t : CGState} {pend : List BlockId}
    (h : Lowering I s0 pend t) (hc : t.Curr ∈ pend) : ControlInv t :=
  ⟨h.noEdge, (h.unsealed _ hc).1, (h.unsealed _ hc).2, h.lt⟩

theorem Lowering.finish {I : CGState → Prop} {s0 t : CGState} {pend : List BlockId}
    (h : Lowering I s0 pend t) (hc : ∀ p, p ∈ pend ↔ p = t.Curr)
    (hc' : t.Curr = s0.Curr ∨ s0.numBlocks ≤ t.Curr) : ControlStep s0 t ∧ I t := by
  refine ⟨⟨h.controlInv ((hc _).2 rfl), h.le, hc', h.origin, h.mono, ?_⟩, h.inv⟩
  intro b hb hlt
  rcases h.closed b hb hlt with h' | h'
  · exact Or.inl ((hc b).1 h')
  · exact Or.inr h'

theorem Lowering.step {I : CGState → Prop} {s0 t t' : CGState} {pend pend' : List BlockId}
    (h : Lowering I s0 pend t) (hs : ControlStep t t') (hI : I t')
    (hc' : t.Curr = s0.Curr ∨ s0.numBlocks ≤ t.Curr)
    (hp : ∀ p, p ∈ pend' ↔ p ∈ pend ∧ p ≠ t.Curr) :
    Lowering I s0 (t'.Curr :: pend') t' ∧ (t'.Curr = s0.Curr ∨ s0.numBlocks ≤ t'.Curr) ∧
      ∀ p ∈ pend', p ≠ t'.Curr := by
  obtain ⟨h1, h2, h3, h4, h5, h6, h7, _⟩ := h
  obtain ⟨⟨g1, g2, g3, g4⟩, gn, gc, gs, gm, gcl⟩ := hs
  have hpend : ∀ p ∈ pend', Event.seal p ∉ t'.trace ∧ p < t'.numBlocks ∧ p ≠ t'.Curr := by
    intro p hp'
    obtain ⟨hp1, hp2⟩ := (hp p).1 hp'
    obtain ⟨hp3, hp4⟩ := h5 p hp1
    refine ⟨fun hb => ?_, Nat.lt_of_lt_of_le hp4 gn, fun he => ?_⟩
    · rcases gs p hb with hb | hb | hb
      · exact hp3 hb
      · exact hp2 hb
      · exact Nat.lt_irrefl _ (Nat.lt_of_lt_of_le hp4 hb)
    · rcases gc with gc | gc
      · exact hp2 (he.trans gc)
      · rw [← he] at gc
        exact Nat.lt_irrefl _ (Nat.lt_of_lt_of_le hp4 gc)
  refine ⟨⟨g1, Nat.le_trans h2 gn, g4, ?_, ?_, fun b hb => gm b (h6 b hb), ?_, hI⟩, ?_,
    fun p hp' => (hpend p hp').2.2⟩
  · intro b hb
    rcases gs b hb with hb | hb | hb
    · exact h4 b hb
    · rw [hb]
      exact Or.inr hc'
    · exact Or.inr (Or.inr (Nat.le_trans h2 hb))
  · intro p hp'
    rw [List.mem_cons] at hp'
    rcases hp' with hp' | hp'
    · rw [hp']
      exact ⟨g2, g3⟩
    · exact ⟨(hpend p hp').1, (hpend p hp').2.1⟩
  · intro b hb hlt
    by_cases hbt : b < t.numBlocks
    · rcases h7 b hb hbt with h | h
      · by_cases hbc : b = t.Curr
        · rcases gcl b (Or.inl hbc) hlt with h' | h'
          · exact Or.inl (List.mem_cons.2 (Or.inl h'))
          · exact Or.inr h'
        · exact Or.inl (List.mem_cons_of_mem _ ((hp b).2 ⟨h, hbc⟩))
      · exact Or.inr (gm b h)
    · rcases gcl b (Or.inr (Nat.le_of_not_lt hbt)) hlt with h' | h'
      · exact Or.inl (List.mem_cons.2 (Or.inl h'))
      · exact Or.inr h'
  · rcases gc with gc | gc
    · rw [gc]
      exact hc'
    · exact Or.inr (Nat.le_trans h2 gc)

/-! ### The steps of a statement -/

theorem KeepsControl.okOrSafe {I : CGState → Prop} {α : Type} {m : M α}
    (h : KeepsControl m) (hm : Preserves I m) {s0 t : CGState} {pend : List BlockId}
    (hL : Lowering I s0 pend t) :
    OkOrSafe (fun _ t' => Lowering I s0 pend t' ∧ t'.Curr = t.Curr) (m t) := by
  have hk := h t
  cases hmt : m t with
  | ok a t' =>
    rw [hmt] at hk
    exact ⟨hL.frame hk.1 hk.2.1 (hm t hL.inv a t' hmt), hk.2.2.1⟩
  | fail e t' =>
    rw [hmt] at hk
    show NoEdgeAfterSeal t'.trace
    rw [show t'.trace = t.trace from hk.1]
    exact hL.noEdge

theorem CreateBr_okOrSafe {E : Env} {I : CGState → Prop} (K : StepsKeep E I)
    {s0 t : CGState} {pend : List BlockId} (hL : Lowering I s0 pend t) {Dest : BlockId}
    (hd : Dest ∈ pend) :
    OkOrSafe (fun _ t' => Lowering I s0 pend t' ∧ t'.Curr = t.Curr) (CreateBr Dest t) := by
  obtain ⟨t', h, ht, hn, hc⟩ := CreateBr_control Dest t
  rw [h]
  exact ⟨hL.edge hd ht hn (K.br t t' Dest hL.inv (hL.unsealed _ hd).1 (hL.unsealed _ hd).2 h),
    hc⟩

theorem CreateCondBr_okOrSafe {E : Env} {I : CGState → Prop} (K : StepsKeep E I)
    {s0 t : CGState} {pend : List BlockId} (hL : Lowering I s0 pend t) (Cond : Value)
    {True False : BlockId} (hT : True ∈ pend) (hF : False ∈ pend) :
    OkOrSafe (fun _ t' => Lowering I s0 pend t' ∧ t'.Curr = t.Curr)
      (CreateCondBr Cond True False t) := by
  obtain ⟨t', h, ht, hn, hc⟩ := CreateCondBr_control Cond True False t
  rw [h]
  have hI := K.condBr t t' Cond True False hL.inv (hL.unsealed _ hT).1 (hL.unsealed _ hF).1
    (hL.unsealed _ hT).2 (hL.unsealed _ hF).2 h
  have h1 : Lowering (fun _ => I t') s0 pend
      { t with trace := t.trace ++ [Event.edge t.Curr True] } :=
    Lowering.edge
      ⟨hL.noEdge, hL.le, hL.lt, hL.origin, hL.unsealed, hL.mono, hL.closed, hI⟩ hT rfl rfl hI
  have h2 : t'.trace =
      (t.trace ++ [Event.edge t.Curr True]) ++ [Event.edge t.Curr False] := by
    rw [ht]
    simp
  have h3 := h1.edge hF h2 hn hI
  exact ⟨⟨h3.noEdge, h3.le, h3.lt, h3.origin, h3.unsealed, h3.mono, h3.closed, hI⟩, hc⟩

theorem sealBlock_okOrSafe {I : CGState → Prop} (E : Env) (K : StepsKeep E I) (fuel : Nat)
    {s0 t : CGState} {pend : List BlockId} (pend' : List BlockId)
    (hL : Lowering I s0 pend t) {X : BlockId} (hX : X ∈ pend)
    (hX' : X = s0.Curr ∨ s0.numBlocks ≤ X) (hp : ∀ p, p ∈ pend' ↔ p ∈ pend ∧ p ≠ X) :
    OkOrSafe (fun _ t' => Lowering I s0 pend' t' ∧ t'.Curr = t.Curr)
      (sealBlock E fuel X t) := by
  have h := sealBlock_control E fuel X t
  cases hm : sealBlock E fuel X t with
  | ok a t' =>
    rw [hm] at h
    exact ⟨hL.seal hX hX' h.1 h.2.1 hp (K.sealBlock fuel X t hL.inv a t' hm), h.2.2⟩
  | fail e t' =>
    rw [hm] at h
    show NoEdgeAfterSeal t'.trace
    rcases h with h | h
    · rw [h]
      exact hL.noEdge
    · rw [h]
      exact hL.noEdge.append_seal X

theorem LowersSafely.okOrSafe_step {I : CGState → Prop} {m : M Unit}
    (hm : LowersSafely I m) {s0 t : CGState} {pend : List BlockId} (pend' : List BlockId)
    (hL : Lowering I s0 pend t) (hc : t.Curr ∈ pend)
    (hc' : t.Curr = s0.Curr ∨ s0.numBlocks ≤ t.Curr)
    (hp : ∀ p, p ∈ pend' ↔ p ∈ pend ∧ p ≠ t.Curr) :
    OkOrSafe (fun _ t' => Lowering I s0 (t'.Curr :: pend') t' ∧
      (t'.Curr = s0.Curr ∨ s0.numBlocks ≤ t'.Curr) ∧ ∀ p ∈ pend', p ≠ t'.Curr) (m t) :=
  (hm t (hL.controlInv hc) hL.inv).mono fun _ _ hs => hL.step hs.1 hs.2 hc' hp

theorem LowersSafely.of_keepsControl {I : CGState → Prop} {α : Type} {m : M α}
    (h : KeepsControl m) (hm : Preserves I m) : LowersSafely I m := by
  intro s hs hI
  exact (h.okOrSafe hm (Lowering.start hs hI)).mono fun _ t' ht =>
    ht.1.finish (by intro p; rw [ht.2]; exact List.mem_singleton) (Or.inl ht.2)

theorem ControlStep.followedBy {s s1 s2 : CGState} (h1 : ControlStep s s1)
    (h2 : ControlStep s1 s2) : ControlStep s s2 := by
  obtain ⟨_, an, ac, as, am, acl⟩ := h1
  obtain ⟨bi, bn, bc, bs, bm, bcl⟩ := h2
  refine ⟨bi, Nat.le_trans an bn, ?_, ?_, fun b hb => bm b (am b hb), ?_⟩
  · rcases bc with bc | bc
    · rw [bc]
      exact ac
    · exact Or.inr (Nat.le_trans an bc)
  · intro b hb
    rcases bs b hb with hb | hb | hb
    · exact as b hb
    · rw [hb]
      exact Or.inr ac
    · exact Or.inr (Or.inr (Nat.le_trans an hb))
  · intro b hb hlt
    by_cases hb1 : b < s1.numBlocks
    · rcases acl b hb hb1 with h | h
      · exact bcl b (Or.inl h) hlt
      · exact Or.inr (bm b h)
    · exact bcl b (Or.inr (Nat.le_of_not_lt hb1)) hlt

theorem ControlStep.stay {s : CGState} (hs : ControlInv s) : ControlStep s s := by
  refine ⟨hs, Nat.le_refl _, Or.inl rfl, fun b hb => Or.inl hb, fun _ hb => hb, ?_⟩
  intro b hb hlt
  rcases hb with hb | hb
  · exact Or.inl hb
  · exact absurd hlt (Nat.not_lt.2 hb)

theorem LowersSafely.forEachStmt {I : CGState → Prop} {f : Stmt → M Unit}
    (hf : ∀ S, LowersSafely I (f S)) :
    ∀ Stmts : List Stmt, LowersSafely I (forEachStmt f Stmts) := by
  intro Stmts
  induction Stmts with
  | nil =>
    intro s hs hI
    exact ⟨ControlStep.stay hs, hI⟩
  | cons S Ss ih =>
    intro s hs hI
    show OkOrSafe _ (M.bind (f S) (fun _ => tinylang.forEachStmt f Ss) s)
    refine OkOrSafe.bindM (hf S s hs hI) ?_
    intro _ s1 h1
    exact (ih s1 h1.1.inv h1.2).mono fun _ s2 h2 => ⟨h1.1.followedBy h2.1, h2.2⟩

end tinylang

namespace tinylang

/-! ### IF, WHILE and the statement list -/

theorem OkOrSafe.bind_do {α β : Type} {x : M α} {f : α → M β} {s : CGState}
    {Q : α → CGState → Prop} {R : β → CGState → Prop} (hx : OkOrSafe Q (x s))
    (hf : ∀ a s', Q a s' → OkOrSafe R (f a s')) : OkOrSafe R ((x >>= f) s) :=
  OkOrSafe.bindM hx hf

theorem OkOrSafe.get_do {β : Type} {f : CGState → M β} {s : CGState}
    {R : β → CGState → Prop} (hf : OkOrSafe R (f s s)) : OkOrSafe R ((M.get >>= f) s) :=
  hf

theorem OkOrSafe.pure_do {α β : Type} {a : α} {f : α → M β} {s : CGState}
    {R : β → CGState → Prop} (hf : OkOrSafe R (f a s)) :
    OkOrSafe R ((pure a >>= f) s) :=
  hf

theorem mem_without {l l' : List BlockId} {X : BlockId}
    (hfwd : ∀ p ∈ l', p ∈ l ∧ p ≠ X) (hback : ∀ p ∈ l, p = X ∨ p ∈ l') :
    ∀ p, p ∈ l' ↔ p ∈ l ∧ p ≠ X := by
  intro p
  constructor
  · exact hfwd p
  · rintro ⟨h1, h2⟩
    rcases hback p h1 with h | h
    · exact absurd h h2
    · exact h

theorem createBasicBlock_okOrSafe {E : Env} {I : CGState → Prop} (K : StepsKeep E I)
    {s0 t : CGState} {pend : List BlockId} (hL : Lowering I s0 pend t) :
    OkOrSafe (fun b t' => Lowering I s0 (b :: pend) t' ∧ t'.Curr = t.Curr ∧
      s0.numBlocks ≤ b ∧ ∀ p ∈ pend, p ≠ b) (createBasicBlock t) := by
  obtain ⟨h1, h2, h3⟩ := hL.newBlock (K.newBlock t hL.inv)
  exact ⟨h1, rfl, h2, h3⟩

theorem setCurr_okOrSafe {E : Env} {I : CGState → Prop} (K : StepsKeep E I)
    {s0 t : CGState} {pend : List BlockId} (hL : Lowering I s0 pend t) (BB : BlockId) :
    OkOrSafe (fun _ t' => Lowering I s0 pend t' ∧ t'.Curr = BB) (setCurr BB t) :=
  ⟨hL.frame rfl rfl (K.setCurr t BB hL.inv), rfl⟩

/-- `emitStmt(WhileStatement *)` creates its edges before it seals their
targets, if the lowering of the body does. -/
theorem lowersSafely_emitWhileStatement (E : Env) {I : CGState → Prop}
    (K : StepsKeep E I) (fuel : Nat) {emit' : List Stmt → M Unit}
    (hemit : ∀ Stmts, LowersSafely I (emit' Stmts)) (Cond : Expr) (WhileStmts : List Stmt) :
    LowersSafely I (emitWhileStatement E fuel emit' Cond WhileStmts) := by
  intro s0 h0 hI0
  unfold emitWhileStatement
  have hL0 : Lowering I s0 [s0.Curr] s0 := Lowering.start h0 hI0
  refine OkOrSafe.bind_do (createBasicBlock_okOrSafe K hL0) ?_
  intro Body t1 ⟨hL1, hc1, hB, hB'⟩
  refine OkOrSafe.bind_do (createBasicBlock_okOrSafe K hL1) ?_
  intro After t2 ⟨hL2, hc2, hA, hA'⟩
  refine OkOrSafe.get_do ?_
  have hcur : t2.Curr = s0.Curr := hc2.trans hc1
  have h1 : s0.Curr ≠ Body := hB' _ (by simp)
  have h2 : s0.Curr ≠ After := hA' _ (by simp)
  have h3 : Body ≠ After := hA' _ (by simp)
  split
  case' isTrue =>
    refine OkOrSafe.bind_do
      (Q := fun CondBB t' => Lowering I s0 [CondBB, After, Body] t' ∧ t'.Curr = CondBB ∧
        (CondBB = s0.Curr ∨ s0.numBlocks ≤ CondBB) ∧ CondBB ≠ After ∧ CondBB ≠ Body)
      (by
        refine ⟨hL2.same ?_, rfl, Or.inl hcur, ?_, ?_⟩
        · intro p
          rw [hcur]
          simp only [List.mem_cons, List.mem_singleton, List.not_mem_nil, or_false]
          tauto
        · rw [hcur]
          exact h2
        · rw [hcur]
          exact h1) ?_
  case' isFalse =>
    refine OkOrSafe.bind_do (createBasicBlock_okOrSafe K hL2) ?_
    intro BB t3 ⟨hL3, hc3, hC, hC'⟩
    have h4 : After ≠ BB := hC' _ (by simp)
    have h5 : Body ≠ BB := hC' _ (by simp)
    have h6 : s0.Curr ≠ BB := hC' _ (by simp)
    refine OkOrSafe.bind_do (CreateBr_okOrSafe K hL3 (List.mem_cons_self _ _)) ?_
    intro _ t4 ⟨hL4, hc4⟩
    refine OkOrSafe.bind_do
      (sealBlock_okOrSafe E K fuel [BB, After, Body] hL4 (X := t2.Curr)
        (by rw [hcur]; simp) (Or.inl hcur)
        (mem_without (by
          intro p hp
          rw [hcur]
          simp only [List.mem_cons, List.mem_singleton, List.not_mem_nil, or_false] at hp ⊢
          rcases hp with hp | hp | hp
          · exact ⟨Or.inl hp, hp ▸ h6.symm⟩
          · exact ⟨Or.inr (Or.inl hp), hp ▸ h2.symm⟩
          · exact ⟨Or.inr (Or.inr (Or.inl hp)), hp ▸ h1.symm⟩)
        (by
          intro p hp
          rw [hcur]
          simp only [List.mem_cons, List.mem_singleton, List.not_mem_nil, or_false] at hp ⊢
          tauto))) ?_
    intro _ t5 ⟨hL5, hc5⟩
    refine OkOrSafe.bind_do (setCurr_okOrSafe K hL5 BB) ?_
    intro _ t6 ⟨hL6, hc6⟩
    refine OkOrSafe.bind_do
      (Q := fun CondBB t' => Lowering I s0 [CondBB, After, Body] t' ∧ t'.Curr = CondBB ∧
        (CondBB = s0.Curr ∨ s0.numBlocks ≤ CondBB) ∧ CondBB ≠ After ∧ CondBB ≠ Body)
      (show _ ∧ _ from ⟨hL6, hc6, Or.inr hC, h4.symm, h5.symm⟩) ?_
  all_goals
    intro CondBB t3 ⟨hL3, hc3, hC, hCA, hCB⟩
    refine OkOrSafe.bind_do ((keepsControl_emitExpr E fuel Cond).okOrSafe (K.expr fuel Cond) hL3) ?_
    intro C t4 ⟨hL4, hc4⟩
    refine OkOrSafe.bind_do (CreateCondBr_okOrSafe K hL4 C (by simp) (by simp)) ?_
    intro _ t5 ⟨hL5, hc5⟩
    refine OkOrSafe.bind_do (setCurr_okOrSafe K hL5 Body) ?_
    intro _ t6 ⟨hL6, hc6⟩
    refine OkOrSafe.bind_do
      ((hemit WhileStmts).okOrSafe_step [CondBB, After] hL6 ?_ ?_ ?_) ?_
    · rw [hc6]
      simp
    · rw [hc6]
      exact Or.inr hB
    · refine mem_without ?_ ?_
      · intro p hp
        rw [hc6]
        simp only [List.mem_cons, List.mem_singleton, List.not_mem_nil, or_false] at hp ⊢
        rcases hp with hp | hp
        · exact ⟨Or.inl hp, hp ▸ hCB⟩
        · exact ⟨Or.inr (Or.inl hp), hp ▸ h3.symm⟩
      · intro p hp
        rw [hc6]
        simp only [List.mem_cons, List.mem_singleton, List.not_mem_nil, or_false] at hp ⊢
        tauto
    intro _ t7 ⟨hL7, hc7, hp7⟩
    have h7 : CondBB ≠ t7.Curr := hp7 _ (by simp)
    have h8 : After ≠ t7.Curr := hp7 _ (by simp)
    refine OkOrSafe.bind_do (CreateBr_okOrSafe K hL7 (by simp)) ?_
    intro _ t8 ⟨hL8, hc8⟩
    refine OkOrSafe.get_do ?_
    refine OkOrSafe.bind_do
      (sealBlock_okOrSafe E K fuel [CondBB, After] hL8 (X := t8.Curr) ?_ ?_ ?_) ?_
    · rw [hc8]
      simp
    · rw [hc8]
      exact hc7
    · refine mem_without ?_ ?_
      · intro p hp
        rw [hc8]
        simp only [List.mem_cons, List.mem_singleton, List.not_mem_nil, or_false] at hp ⊢
        rcases hp with hp | hp
        · exact ⟨Or.inr (Or.inl hp), hp ▸ h7⟩
        · exact ⟨Or.inr (Or.inr hp), hp ▸ h8⟩
      · intro p hp
        rw [hc8]
        simp only [List.mem_cons, List.mem_singleton, List.not_mem_nil, or_false] at hp ⊢
        tauto
    intro _ t9 ⟨hL9, hc9⟩
    refine OkOrSafe.bind_do
      (sealBlock_okOrSafe E K fuel [After] hL9 (X := CondBB) (by simp) hC ?_) ?_
    · refine mem_without ?_ ?_
      · intro p hp
        simp only [List.mem_cons, List.mem_singleton, List.not_mem_nil, or_false] at hp ⊢
        exact ⟨Or.inr hp, hp ▸ hCA.symm⟩
      · intro p hp
        simp only [List.mem_cons, List.mem_singleton, List.not_mem_nil, or_false] at hp ⊢
        tauto
    intro _ t10 ⟨hL10, hc10⟩
    exact (setCurr_okOrSafe K hL10 After).mono fun _ t hh =>
      hh.1.finish (by intro p; rw [hh.2]; exact List.mem_singleton) (Or.inr (hh.2 ▸ hA))

/-- `emitStmt(IfStatement *)` creates its edges before it seals their
targets, if the lowering of the two statement lists does. -/
theorem lowersSafely_emitIfStatement (E : Env) {I : CGState → Prop}
    (K : StepsKeep E I) (fuel : Nat) {emit' : List Stmt → M Unit}
    (hemit : ∀ Stmts, LowersSafely I (emit' Stmts)) (Cond : Expr)
    (IfStmts ElseStmts : List Stmt) :
    LowersSafely I (emitIfStatement E fuel emit' Cond IfStmts ElseStmts) := by
  intro s0 h0 hI0
  unfold emitIfStatement
  have hL0 : Lowering I s0 [s0.Curr] s0 := Lowering.start h0 hI0
  cases hE : ElseStmts.isEmpty
  · simp only [Bool.not_false, if_true]
    refine OkOrSafe.bind_do (createBasicBlock_okOrSafe K hL0) ?_
    intro IfBB t1 ⟨hL1, hc1, hI, hI'⟩
    refine OkOrSafe.bind_do (createBasicBlock_okOrSafe K hL1) ?_
    intro ElseBB t2 ⟨hL2, hc2, hEl, hEl'⟩
    refine OkOrSafe.bind_do (createBasicBlock_okOrSafe K hL2) ?_
    intro After t3 ⟨hL3, hc3, hA, hA'⟩
    have hcur : t3.Curr = s0.Curr := hc3.trans (hc2.trans hc1)
    have h1 : s0.Curr ≠ IfBB := hI' _ (by simp)
    have h2 : s0.Curr ≠ ElseBB := hEl' _ (by simp)
    have h3 : s0.Curr ≠ After := hA' _ (by simp)
    have h4 : IfBB ≠ ElseBB := hEl' _ (by simp)
    have h5 : IfBB ≠ After := hA' _ (by simp)
    have h6 : ElseBB ≠ After := hA' _ (by simp)
    refine OkOrSafe.bind_do ((keepsControl_emitExpr E fuel Cond).okOrSafe (K.expr fuel Cond) hL3) ?_
    intro C t4 ⟨hL4, hc4⟩
    refine OkOrSafe.bind_do (CreateCondBr_okOrSafe K hL4 C (by simp) (by simp)) ?_
    intro _ t5 ⟨hL5, hc5⟩
    refine OkOrSafe.get_do ?_
    have hcur5 : t5.Curr = s0.Curr := hc5.trans (hc4.trans hcur)
    refine OkOrSafe.bind_do
      (sealBlock_okOrSafe E K fuel [After, ElseBB, IfBB] hL5 (X := t5.Curr)
        (by rw [hcur5]; simp) (Or.inl hcur5)
        (mem_without (by
          intro p hp
          rw [hcur5]
          simp only [List.mem_cons, List.mem_singleton, List.not_mem_nil, or_false] at hp ⊢
          rcases hp with hp | hp | hp
          · exact ⟨Or.inl hp, hp ▸ h3.symm⟩
          · exact ⟨Or.inr (Or.inl hp), hp ▸ h2.symm⟩
          · exact ⟨Or.inr (Or.inr (Or.inl hp)), hp ▸ h1.symm⟩)
        (by
          intro p hp
          rw [hcur5]
          simp only [List.mem_cons, List.mem_singleton, List.not_mem_nil, or_false] at hp ⊢
          tauto))) ?_
    intro _ t6 ⟨hL6, hc6⟩
    refine OkOrSafe.bind_do (setCurr_okOrSafe K hL6 IfBB) ?_
    intro _ t7 ⟨hL7, hc7⟩
    refine OkOrSafe.bind_do
      ((hemit IfStmts).okOrSafe_step [After, ElseBB] hL7 (by rw [hc7]; simp)
        (by rw [hc7]; exact Or.inr hI)
        (mem_without (by
          intro p hp
          rw [hc7]
          simp only [List.mem_cons, List.mem_singleton, List.not_mem_nil, or_false] at hp ⊢
          rcases hp with hp | hp
          · exact ⟨Or.inl hp, hp ▸ h5.symm⟩
          · exact ⟨Or.inr (Or.inl hp), hp ▸ h4.symm⟩)
        (by
          intro p hp
          rw [hc7]
          simp only [List.mem_cons, List.mem_singleton, List.not_mem_nil, or_false] at hp ⊢
          tauto))) ?_
    intro _ t8 ⟨hL8, hc8, hp8⟩
    have h7 : After ≠ t8.Curr := hp8 _ (by simp)
    have h8 : ElseBB ≠ t8.Curr := hp8 _ (by simp)
    refine OkOrSafe.get_do ?_
    split
    case' isTrue => refine OkOrSafe.bind_do (CreateBr_okOrSafe K hL8 (by simp)) ?_
    case' isFalse =>
      refine OkOrSafe.bind_do
        (Q := fun _ t' => Lowering I s0 [t8.Curr, After, ElseBB] t' ∧ t'.Curr = t8.Curr)
        (show _ ∧ _ from ⟨hL8, rfl⟩) ?_
    all_goals
      intro _ t9 ⟨hL9, hc9⟩
      refine OkOrSafe.bind_do
        (sealBlock_okOrSafe E K fuel [After, ElseBB] hL9 (X := t8.Curr) (by simp) hc8
          (mem_without (by
            intro p hp
            simp only [List.mem_cons, List.mem_singleton, List.not_mem_nil, or_false] at hp ⊢
            rcases hp with hp | hp
            · exact ⟨Or.inr (Or.inl hp), hp ▸ h7⟩
            · exact ⟨Or.inr (Or.inr hp), hp ▸ h8⟩)
          (by
            intro p hp
            simp only [List.mem_cons, List.mem_singleton, List.not_mem_nil, or_false] at hp ⊢
            tauto))) ?_
      intro _ t10 ⟨hL10, hc10⟩
      refine OkOrSafe.bind_do (setCurr_okOrSafe K hL10 ElseBB) ?_
      intro _ t11 ⟨hL11, hc11⟩
      refine OkOrSafe.bind_do
        ((hemit ElseStmts).okOrSafe_step [After] hL11 (by rw [hc11]; simp)
          (by rw [hc11]; exact Or.inr hEl)
          (mem_without (by
            intro p hp
            rw [hc11]
            simp only [List.mem_cons, List.mem_singleton, List.not_mem_nil, or_false] at hp ⊢
            exact ⟨Or.inl hp, hp ▸ h6.symm⟩)
          (by
            intro p hp
            rw [hc11]
            simp only [List.mem_cons, List.mem_singleton, List.not_mem_nil, or_false] at hp ⊢
            tauto))) ?_
      intro _ t12 ⟨hL12, hc12, hp12⟩
      have h9 : After ≠ t12.Curr := hp12 _ (by simp)
      refine OkOrSafe.get_do ?_
      split
      case' isTrue => refine OkOrSafe.bind_do (CreateBr_okOrSafe K hL12 (by simp)) ?_
      case' isFalse =>
        refine OkOrSafe.bind_do
          (Q := fun _ t' => Lowering I s0 [t12.Curr, After] t' ∧ t'.Curr = t12.Curr)
          (show _ ∧ _ from ⟨hL12, rfl⟩) ?_
      all_goals
        intro _ t13 ⟨hL13, hc13⟩
        refine OkOrSafe.bind_do
          (sealBlock_okOrSafe E K fuel [After] hL13 (X := t12.Curr) (by simp) hc12
            (mem_without (by
              intro p hp
              simp only [List.mem_cons, List.mem_singleton, List.not_mem_nil, or_false] at hp ⊢
              exact ⟨Or.inr hp, hp ▸ h9⟩)
            (by
              intro p hp
              simp only [List.mem_cons, List.mem_singleton, List.not_mem_nil, or_false] at hp ⊢
              tauto))) ?_
        intro _ t14 ⟨hL14, hc14⟩
        exact (setCurr_okOrSafe K hL14 After).mono fun _ t hh =>
          hh.1.finish (by intro p; rw [hh.2]; exact List.mem_singleton) (Or.inr (hh.2 ▸ hA))
  · simp only [Bool.not_true, Bool.false_eq_true, if_false]
    refine OkOrSafe.bind_do (createBasicBlock_okOrSafe K hL0) ?_
    intro IfBB t1 ⟨hL1, hc1, hI, hI'⟩
    refine OkOrSafe.pure_do ?_
    refine OkOrSafe.bind_do (createBasicBlock_okOrSafe K hL1) ?_
    intro After t3 ⟨hL3, hc3, hA, hA'⟩
    have hcur : t3.Curr = s0.Curr := hc3.trans hc1
    have h1 : s0.Curr ≠ IfBB := hI' _ (by simp)
    have h3 : s0.Curr ≠ After := hA' _ (by simp)
    have h5 : IfBB ≠ After := hA' _ (by simp)
    refine OkOrSafe.bind_do ((keepsControl_emitExpr E fuel Cond).okOrSafe (K.expr fuel Cond) hL3) ?_
    intro C t4 ⟨hL4, hc4⟩
    refine OkOrSafe.bind_do (CreateCondBr_okOrSafe K hL4 C (by simp) (by simp)) ?_
    intro _ t5 ⟨hL5, hc5⟩
    refine OkOrSafe.get_do ?_
    have hcur5 : t5.Curr = s0.Curr := hc5.trans (hc4.trans hcur)
    refine OkOrSafe.bind_do
      (sealBlock_okOrSafe E K fuel [After, IfBB] hL5 (X := t5.Curr)
        (by rw [hcur5]; simp) (Or.inl hcur5)
        (mem_without (by
          intro p hp
          rw [hcur5]
          simp only [List.mem_cons, List.mem_singleton, List.not_mem_nil, or_false] at hp ⊢
          rcases hp with hp | hp
          · exact ⟨Or.inl hp, hp ▸ h3.symm⟩
          · exact ⟨Or.inr (Or.inl hp), hp ▸ h1.symm⟩)
        (by
          intro p hp
          rw [hcur5]
          simp only [List.mem_cons, List.mem_singleton, List.not_mem_nil, or_false] at hp ⊢
          tauto))) ?_
    intro _ t6 ⟨hL6, hc6⟩
    refine OkOrSafe.bind_do (setCurr_okOrSafe K hL6 IfBB) ?_
    intro _ t7 ⟨hL7, hc7⟩
    refine OkOrSafe.bind_do
      ((hemit IfStmts).okOrSafe_step [After] hL7 (by rw [hc7]; simp)
        (by rw [hc7]; exact Or.inr hI)
        (mem_without (by
          intro p hp
          rw [hc7]
          simp only [List.mem_cons, List.mem_singleton, List.not_mem_nil, or_false] at hp ⊢
          exact ⟨Or.inl hp, hp ▸ h5.symm⟩)
        (by
          intro p hp
          rw [hc7]
          simp only [List.mem_cons, List.mem_singleton, List.not_mem_nil, or_false] at hp ⊢
          tauto))) ?_
    intro _ t8 ⟨hL8, hc8, hp8⟩
    have h7 : After ≠ t8.Curr := hp8 _ (by simp)
    refine OkOrSafe.get_do ?_
    split
    case' isTrue => refine OkOrSafe.bind_do (CreateBr_okOrSafe K hL8 (by simp)) ?_
    case' isFalse =>
      refine OkOrSafe.bind_do
        (Q := fun _ t' => Lowering I s0 [t8.Curr, After] t' ∧ t'.Curr = t8.Curr)
        (show _ ∧ _ from ⟨hL8, rfl⟩) ?_
    all_goals
      intro _ t9 ⟨hL9, hc9⟩
      refine OkOrSafe.bind_do
        (sealBlock_okOrSafe E K fuel [After] hL9 (X := t8.Curr) (by simp) hc8
          (mem_without (by
            intro p hp
            simp only [List.mem_cons, List.mem_singleton, List.not_mem_nil, or_false] at hp ⊢
            exact ⟨Or.inr hp, hp ▸ h7⟩)
          (by
            intro p hp
            simp only [List.mem_cons, List.mem_singleton, List.not_mem_nil, or_false] at hp ⊢
            tauto))) ?_
      intro _ t10 ⟨hL10, hc10⟩
      refine OkOrSafe.pure_do ?_
      exact (setCurr_okOrSafe K hL10 After).mono fun _ t hh =>
        hh.1.finish (by intro p; rw [hh.2]; exact List.mem_singleton) (Or.inr (hh.2 ▸ hA))

end tinylang

namespace tinylang

/-! ### `emit` and `run` -/

theorem lowersSafely_emitStmt (E : Env) {I : CGState → Prop} (K : StepsKeep E I)
    (fuel : Nat) {emit' : List Stmt → M Unit}
    (hemit : ∀ Stmts, LowersSafely I (emit' Stmts)) (S : Stmt) :
    LowersSafely I (emitStmt E fuel emit' S) := by
  cases S with
  | AssignmentStatement D Selectors X =>
    exact LowersSafely.of_keepsControl
      (keepsControl_emitAssignmentStatement E fuel D Selectors X) (K.assign fuel D Selectors X)
  | ProcedureCallStatement =>
    exact LowersSafely.of_keepsControl (KeepsControl.throw _)
      (fun _ _ _ _ h => by cases h)
  | IfStatement Cond IfStmts ElseStmts =>
    exact lowersSafely_emitIfStatement E K fuel hemit Cond IfStmts ElseStmts
  | WhileStatement Cond WhileStmts =>
    exact lowersSafely_emitWhileStatement E K fuel hemit Cond WhileStmts
  | ReturnStatement RetVal =>
    exact LowersSafely.of_keepsControl (keepsControl_emitReturnStatement E fuel RetVal)
      (K.ret fuel RetVal)

theorem lowersSafely_emit (E : Env) {I : CGState → Prop} (K : StepsKeep E I) (fuel : Nat) :
    ∀ Stmts : List Stmt, LowersSafely I (emit E fuel Stmts) := by
  induction fuel with
  | zero =>
    intro Stmts
    exact LowersSafely.of_keepsControl (KeepsControl.throw _) (fun _ _ _ _ h => by cases h)
  | succ fuel ih =>
    intro Stmts
    exact LowersSafely.forEachStmt (fun S => lowersSafely_emitStmt E K fuel ih S) Stmts

theorem keepsControl_createFunctionType : ∀ FormalParams : List Decl,
    KeepsControl (createFunctionType FormalParams) := by
  intro FormalParams
  induction FormalParams with
  | nil => exact KeepsControl.pure _
  | cons FP rest ih =>
    unfold createFunctionType
    exact KeepsControl.bind (keepsControl_mapType FP) fun _ =>
      KeepsControl.bind ih fun _ => KeepsControl.pure _

theorem keepsControl_runFormalParams : ∀ (FormalParams : List Decl) (Idx : Nat),
    KeepsControl (runFormalParams FormalParams Idx) := by
  intro FormalParams
  induction FormalParams with
  | nil => intro Idx; exact KeepsControl.pure _
  | cons FP rest ih =>
    intro Idx
    unfold runFormalParams
    refine KeepsControl.bind (KeepsControl.modify _ ?_) fun _ =>
      KeepsControl.bind KeepsControl.get fun _ =>
        KeepsControl.bind (keepsControl_writeLocalVariable _ _ _) fun _ => ih _
    intro s
    exact ⟨rfl, rfl, rfl, rfl, fun _ => rfl⟩

theorem keepsControl_runDecls : ∀ Decls : List Decl, KeepsControl (runDecls Decls) := by
  intro Decls
  induction Decls with
  | nil => exact KeepsControl.pure _
  | cons D rest ih =>
    unfold runDecls
    show KeepsControl (match D.kind with
      | DeclKind.Var _ => _
      | _ => _)
    split
    · refine KeepsControl.bind (keepsControl_mapType D) fun _ => ?_
      split
      · exact KeepsControl.bind (keepsControl_Insert _ _ _) fun _ =>
          KeepsControl.bind KeepsControl.get fun _ =>
            KeepsControl.bind (keepsControl_writeLocalVariable _ _ _) fun _ => ih
      · exact KeepsControl.bind (KeepsControl.pure _) fun _ => ih
    · exact KeepsControl.bind (KeepsControl.pure _) fun _ => ih

theorem KeepsControl.okOrSafe_fresh {I : CGState → Prop} {α : Type} {m : M α}
    (h : KeepsControl m) (hm : Preserves I m) {t : CGState} (ht : t.trace = []) (hI : I t) :
    OkOrSafe (fun _ t' => t'.trace = [] ∧ I t' ∧ t'.numBlocks = t.numBlocks) (m t) := by
  have hk := h t
  cases hmt : m t with
  | ok a t' =>
    rw [hmt] at hk
    exact ⟨hk.1.trans ht, hm t hI a t' hmt, hk.2.1⟩
  | fail e t' =>
    rw [hmt] at hk
    show NoEdgeAfterSeal t'.trace
    rw [show t'.trace = [] from hk.1.trans ht]
    exact List.Pairwise.nil

/-- `run` on a fresh `CGProcedure`: when it returns, `I` holds, no edge has
been created into a sealed block, and every block has been sealed; when it
fails, no edge has been created into a sealed block. -/
theorem run_okOrSafe (E : Env) {I : CGState → Prop} (K : StepsKeep E I)
    (hI : I CGState.init) (fuel : Nat) (Proc : ProcedureDeclaration) :
    OkOrSafe (fun _ t => I t ∧ NoEdgeAfterSeal t.trace ∧
      ∀ b, b < t.numBlocks → Event.seal b ∈ t.trace) (run E fuel Proc) := by
  unfold run runM
  have hthrow : ∀ (k : Unit → M Unit),
      OkOrSafe (fun _ t => I t ∧ NoEdgeAfterSeal t.trace ∧
        ∀ b, b < t.numBlocks → Event.seal b ∈ t.trace)
        ((M.throw Err.fatalUnsupportedType >>= k) CGState.init) :=
    fun _ => List.Pairwise.nil
  suffices hrest : ∀ (u : Unit),
      OkOrSafe (fun _ t => I t ∧ NoEdgeAfterSeal t.trace ∧
        ∀ b, b < t.numBlocks → Event.seal b ∈ t.trace)
      ((pure u >>= fun _ => do
        let ParamTypes ← createFunctionType Proc.FormalParams
        M.modify fun t => { t with argTys := ParamTypes }
        let BB ← createBasicBlock
        setCurr BB
        runFormalParams Proc.FormalParams 0
        runDecls Proc.Decls
        emit E fuel Proc.Stmts
        let s ← M.get
        if (s.getTerminator s.Curr).isNone then do
          let _ ← Insert .Ret .void [] []
          pure ()
        sealBlock E fuel s.Curr : M Unit) CGState.init) by
    rcases hR : Proc.RetType with _ | _ | ty
    · exact hrest ()
    · exact hthrow _
    · exact hrest ()
  intro u
  refine OkOrSafe.pure_do ?_
  refine OkOrSafe.bind_do
    ((keepsControl_createFunctionType Proc.FormalParams).okOrSafe_fresh
      (K.fnType Proc.FormalParams) rfl hI) ?_
  intro ParamTypes t1 ⟨h1, hI1, hn1⟩
  refine OkOrSafe.bind_do
    (Q := fun _ t => t.trace = [] ∧ I t ∧ t.numBlocks = 0)
    (show _ ∧ _ from ⟨h1, K.argTys t1 ParamTypes hI1, hn1⟩) ?_
  intro _ t2 ⟨h2, hI2, hn2⟩
  refine OkOrSafe.bind_do
    (Q := fun BB t => t.trace = [] ∧ I t ∧ BB = 0 ∧ t.numBlocks = 1)
    (show _ ∧ _ from ⟨h2, K.newBlock t2 hI2, hn2, by show t2.numBlocks + 1 = 1; rw [hn2]⟩) ?_
  intro BB t3 ⟨h3, hI3, hBB, hn3⟩
  refine OkOrSafe.bind_do
    (Q := fun _ t => ControlInv t ∧ I t ∧ t.Curr = 0 ∧ t.numBlocks = 1) ?_ ?_
  · show ControlInv { t3 with Curr := BB } ∧ _
    refine ⟨⟨?_, ?_, ?_, ?_⟩, K.setCurr t3 BB hI3, hBB, hn3⟩
    · show NoEdgeAfterSeal t3.trace
      rw [h3]
      exact List.Pairwise.nil
    · show Event.seal BB ∉ t3.trace
      rw [h3]
      exact List.not_mem_nil _
    · show BB < t3.numBlocks
      rw [hBB, hn3]
      exact Nat.zero_lt_one
    · intro b hb
      have hb' : Event.seal b ∈ t3.trace := hb
      rw [h3] at hb'
      exact absurd hb' (List.not_mem_nil _)
  intro _ s0 ⟨h0, hI0, hc0, hn0⟩
  have hL0 : Lowering I s0 [s0.Curr] s0 := Lowering.start h0 hI0
  refine OkOrSafe.bind_do
    ((keepsControl_runFormalParams Proc.FormalParams 0).okOrSafe
      (K.params Proc.FormalParams 0) hL0) ?_
  intro _ t5 ⟨hL5, hc5⟩
  refine OkOrSafe.bind_do
    ((keepsControl_runDecls Proc.Decls).okOrSafe (K.decls Proc.Decls) hL5) ?_
  intro _ t6 ⟨hL6, hc6⟩
  refine OkOrSafe.bind_do
    ((lowersSafely_emit E K fuel Proc.Stmts).okOrSafe_step [] hL6
      (by rw [hc6, hc5]; simp) (Or.inl (hc6.trans hc5))
      (by
        intro p
        rw [hc6, hc5]
        simp only [List.mem_singleton, List.not_mem_nil, false_iff, not_and, not_not]
        exact fun h => h)) ?_
  intro _ t7 ⟨hL7, hc7, _⟩
  refine OkOrSafe.get_do ?_
  dsimp only
  split
  case' isTrue =>
    refine OkOrSafe.bind_do
      ((keepsControl_Insert .Ret .void []).okOrSafe K.insertRet hL7) ?_
    intro _ t8 ⟨hL8, hc8⟩
    refine OkOrSafe.pure_do ?_
  case' isFalse =>
    refine OkOrSafe.pure_do ?_
    have hL8 := hL7
  all_goals
    refine (sealBlock_okOrSafe E K fuel [] hL8 (X := t7.Curr) (by simp) hc7
      (by
        intro p
        simp only [List.mem_singleton, List.not_mem_nil, false_iff, not_and, not_not]
        exact fun h => h)).mono fun _ t hh => ⟨hh.1.inv, hh.1.noEdge, ?_⟩
    intro b hb
    rcases hh.1.closed b (by
      rw [hc0, hn0]
      rcases Nat.eq_zero_or_pos b with h | h
      · exact Or.inl h
      · exact Or.inr h) hb with h | h
    · exact absurd h (List.not_mem_nil _)
    · exact h

set_option maxRecDepth 100000 in
/-- The events of `run` on `i := a + b; WHILE i < 10 DO i := i + 1 END`
(entry 0, body 1, after 2, condition 3): the condition block is sealed after
the back edge from the body has been created. -/
theorem run_whileComputedInit_trace :
    (run llvmEnv 20 Example.whileComputedInit).state.trace =
      [.edge 0 3, .seal 0, .edge 3 1, .edge 3 2, .edge 1 3, .seal 1, .seal 3, .seal 2] := by
  decide!

/-- The steps of `run` keep the trivial property. -/
theorem stepsKeep_true (E : Env) : StepsKeep E (fun _ => True) :=
  ⟨fun _ _ => trivial, fun _ _ _ => trivial, fun _ _ _ _ _ _ _ => trivial,
    fun _ _ _ _ _ _ _ _ _ _ _ => trivial, fun _ _ _ _ _ _ _ => trivial,
    fun _ _ _ _ _ _ _ => trivial, fun _ _ _ _ _ _ _ _ _ => trivial,
    fun _ _ _ _ _ _ _ => trivial, fun _ _ _ _ _ => trivial, fun _ _ _ _ _ _ => trivial,
    fun _ _ _ => trivial, fun _ _ _ _ _ _ _ => trivial, fun _ _ _ _ _ _ => trivial⟩

/-- C7: during `CGProcedure::run`, on every procedure and whether the run
completes or stops at an assertion or a fatal error, no branch edge is
created whose target block has been sealed before: in the sequence of the
edges created and the blocks sealed, no sealing of a block is followed by an
edge into that block. -/
theorem run_no_edge_into_sealed_block (E : Env) (fuel : Nat) (Proc : ProcedureDeclaration) :
    NoEdgeAfterSeal (run E fuel Proc).state.trace :=
  (run_okOrSafe E (stepsKeep_true E) trivial fuel Proc).state fun _ _ h => h.2.1

end tinylang

namespace tinylang

/-! ## The incoming blocks of phi nodes -/

theorem CGState.predecessors_eq_filterMap (s : CGState) (b : BlockId) :
    s.predecessors b = (s.blockUses b).filterMap s.termParent := rfl

theorem CGState.predecessors_congr {s s' : CGState} {b : BlockId}
    (hu : s'.blockUses b = s.blockUses b)
    (ht : ∀ j ∈ s.blockUses b, s'.termParent j = s.termParent j) :
    s'.predecessors b = s.predecessors b := by
  rw [CGState.predecessors_eq_filterMap, CGState.predecessors_eq_filterMap, hu]
  exact List.filterMap_congr ht

theorem CGState.Rewrites.idle (s : CGState) : s.Rewrites s :=
  ⟨rfl, rfl, rfl, fun _ x' h => ⟨x', h, rfl, rfl, rfl, rfl⟩,
    fun _ _ h h' => (by rw [h] at h'; cases h'), fun _ => ⟨rfl, rfl, fun _ h => h⟩⟩

theorem CGState.Rewrites.andNext {s t u : CGState} (h1 : s.Rewrites t) (h2 : t.Rewrites u) :
    s.Rewrites u := by
  obtain ⟨a1, a2, a3, a4, a5, a6⟩ := h1
  obtain ⟨b1, b2, b3, b4, b5, b6⟩ := h2
  refine ⟨b1.trans a1, b2.trans a2, b3.trans a3, ?_, ?_, ?_⟩
  · intro j x'' h
    obtain ⟨x', hx', e1, e2, e3, e4⟩ := b4 j x'' h
    obtain ⟨x, hx, f1, f2, f3, f4⟩ := a4 j x' hx'
    exact ⟨x, hx, e1.trans f1, e2.trans f2, e3.trans f3, e4.trans f4⟩
  · intro j x hx hu
    cases ht : t.insts j with
    | none => exact a5 j x hx ht
    | some x' =>
      obtain ⟨y, hy, f1, _, _, _⟩ := a4 j x' ht
      rw [hx] at hy
      cases hy
      rw [← f1]
      exact b5 j x' ht hu
  · intro b
    obtain ⟨c1, c2, c3⟩ := a6 b
    obtain ⟨d1, d2, d3⟩ := b6 b
    exact ⟨d1.trans c1, d2.trans c2, fun d hd => d3 d (c3 d hd)⟩

theorem CGState.Rewrites.termParent_eq {s s' : CGState} (h : s.Rewrites s') (j : InstId) :
    s'.termParent j = s.termParent j := by
  obtain ⟨_, _, _, a4, a5, _⟩ := h
  unfold CGState.termParent
  cases h' : s'.insts j with
  | some x' =>
    obtain ⟨x, hx, e1, _, e3, _⟩ := a4 j x' h'
    rw [hx]
    simp only [e1, e3]
  | none =>
    cases hs : s.insts j with
    | none => rfl
    | some x =>
      have := a5 j x hs h'
      simp [this, Opcode.isTerminator]

theorem CGState.Rewrites.predecessors_eq {s s' : CGState} (h : s.Rewrites s') (b : BlockId) :
    s'.predecessors b = s.predecessors b :=
  CGState.predecessors_congr (by rw [h.2.1]) fun j _ => h.termParent_eq j

/-- The state of the phi nodes survives rewriting. -/
theorem PhiInv.rewrites {F : Option InstId} {s s' : CGState} (hs : PhiInv F s)
    (h : s.Rewrites s') : PhiInv F s' := by
  have hp := h.predecessors_eq
  obtain ⟨a1, a2, a3, a4, a5, a6⟩ := h
  refine ⟨?_, ?_, ?_, ?_, ?_, ?_, ?_⟩
  · intro i hi
    rw [a1] at hi
    cases h' : s'.insts i with
    | none => rfl
    | some x' =>
      obtain ⟨x, hx, _⟩ := a4 i x' h'
      rw [hs.fresh i hi] at hx
      cases hx
  · intro i x' h' hop
    obtain ⟨x, hx, e1, e2, _, e4⟩ := a4 i x' h'
    rw [e4, e2]
    exact hs.len i x hx (e1 ▸ hop)
  · intro i x' h' hop hF
    obtain ⟨x, hx, e1, e2, e3, _⟩ := a4 i x' h'
    rw [a3, e2, e3, hp, (a6 x.parent).1]
    exact hs.blocks i x hx (e1 ▸ hop) hF
  · intro b i d hm
    rw [(a6 b).1] at hm
    obtain ⟨p1, p2, p3⟩ := hs.pending b i d hm
    refine ⟨(a6 b).2.2 d p1, a1 ▸ p2, ?_⟩
    intro x' h'
    obtain ⟨x, hx, e1, _, e3, _⟩ := a4 i x' h'
    rw [e1, e3]
    exact p3 x hx
  · intro b
    rw [(a6 b).1]
    exact hs.nodup b
  · intro b j hj
    rw [a2] at hj
    rw [a1]
    exact hs.users b j hj
  · intro b hb
    rw [(a6 b).2.1] at hb
    rw [a3, (a6 b).1]
    exact hs.sealed b hb

theorem CGState.rewrites_setInst_uses (s : CGState) (i : InstId) (x : Instruction)
    (us : List Use) (hx : s.insts i = some x) :
    s.Rewrites (s.setInst i (some { x with uses := us })) := by
  refine ⟨rfl, rfl, rfl, ?_, ?_, fun _ => ⟨rfl, rfl, fun _ h => h⟩⟩
  · intro j x' h'
    simp only [CGState.setInst] at h'
    split at h'
    · next hj =>
      cases h'
      exact ⟨x, hj ▸ hx, rfl, rfl, rfl, rfl⟩
    · exact ⟨x', h', rfl, rfl, rfl, rfl⟩
  · intro j y hy h'
    simp only [CGState.setInst] at h'
    split at h'
    · cases h'
    · rw [hy] at h'
      cases h'

theorem CGState.rewrites_addUse (s : CGState) (v : Value) (u : Use) :
    s.Rewrites (s.addUse v u) := by
  unfold CGState.addUse
  split
  · split
    · next x hx => exact s.rewrites_setInst_uses _ x _ hx
    · exact CGState.Rewrites.idle s
  · exact CGState.Rewrites.idle s

theorem CGState.rewrites_addUses (user : InstId) : ∀ (vs : List Value) (s : CGState) (k : Nat),
    s.Rewrites (s.addUses user vs k) := by
  intro vs
  induction vs with
  | nil => intro s k; exact CGState.Rewrites.idle s
  | cons v vs ih =>
    intro s k
    exact (s.rewrites_addUse v (user, k)).andNext (ih _ _)

theorem CGState.rewrites_setDef (s : CGState) (BB : BlockId) (D : Decl) (V : Value) :
    s.Rewrites (s.setDef BB D V) := by
  refine ⟨rfl, rfl, rfl, fun _ x' h => ⟨x', h, rfl, rfl, rfl, rfl⟩,
    fun _ _ h h' => (by rw [show (s.setDef BB D V).insts = s.insts from rfl, h] at h'; cases h'),
    ?_⟩
  intro b
  simp only [CGState.setDef, CGState.updDef]
  split
  · refine ⟨rfl, rfl, ?_⟩
    intro d hd
    simp only
    split
    · simp
    · exact hd
  · exact ⟨rfl, rfl, fun _ h => h⟩

theorem CGState.rewrites_replaceAllUsesWith (s : CGState) (Old : InstId) (New : Value) :
    s.Rewrites (s.replaceAllUsesWith Old New) := by
  refine ⟨rfl, rfl, rfl, ?_, ?_, ?_⟩
  · intro j x' h'
    simp only [CGState.replaceAllUsesWith] at h'
    cases hj : s.insts j with
    | none => simp [hj] at h'
    | some x =>
      simp only [hj, Option.map_some', Option.some.injEq] at h'
      subst h'
      exact ⟨x, rfl, rfl, rfl, rfl, by simp⟩
  · intro j x hx h'
    simp [CGState.replaceAllUsesWith, hx] at h'
  · intro b
    refine ⟨rfl, rfl, ?_⟩
    intro d hd
    simp only [CGState.replaceAllUsesWith]
    cases hv : (s.CurrentDef b).Defs d with
    | none => exact absurd hv hd
    | some v => simp

theorem CGState.rewrites_eraseFromParent (s : CGState) (i : InstId)
    (hphi : ∀ x, s.insts i = some x → x.op = Opcode.PHI) :
    s.Rewrites (s.eraseFromParent i) := by
  unfold CGState.eraseFromParent
  cases hi : s.insts i with
  | none => exact CGState.Rewrites.idle s
  | some x =>
    refine ⟨rfl, rfl, rfl, ?_, ?_, fun _ => ⟨rfl, rfl, fun _ h => h⟩⟩
    · intro j x' h'
      simp only at h'
      split at h'
      · cases h'
      · cases hj : s.insts j with
        | none => simp [hj] at h'
        | some y =>
          simp only [hj, Option.map_some', Option.some.injEq] at h'
          subst h'
          exact ⟨y, rfl, rfl, rfl, rfl, rfl⟩
    · intro j y hy h'
      simp only at h'
      split at h'
      · next hj =>
        rw [hj, hi] at hy
        cases hy
        exact hphi x hi
      · simp [hy] at h'

theorem M.bind_eq_ok {α β : Type} {x : M α} {f : α → M β} {s s' : CGState} {b : β} :
    M.bind x f s = .ok b s' ↔ ∃ a s1, x s = .ok a s1 ∧ f a s1 = .ok b s' := by
  unfold M.bind
  cases h : x s with
  | ok a s1 =>
    constructor
    · intro h'
      exact ⟨a, s1, rfl, h'⟩
    · rintro ⟨a', s1', h1, h2⟩
      cases h1
      exact h2
  | fail e s1 =>
    constructor
    · intro h'
      cases h'
    · rintro ⟨a', s1', h1, _⟩
      cases h1

theorem M.do_eq_ok {α β : Type} {x : M α} {f : α → M β} {s s' : CGState} {b : β} :
    (x >>= f) s = .ok b s' ↔ ∃ a s1, x s = .ok a s1 ∧ f a s1 = .ok b s' :=
  M.bind_eq_ok

theorem CGState.Rewrites.phiOrGone {s s' : CGState} (h : s.Rewrites s') {P : InstId}
    (hP : ∀ x, s.insts P = some x → x.op = Opcode.PHI) :
    ∀ x, s'.insts P = some x → x.op = Opcode.PHI := by
  intro x' h'
  obtain ⟨x, hx, e1, _⟩ := h.2.2.2.1 P x' h'
  rw [e1]
  exact hP x hx

theorem forEachPhi_rewrites (f : InstId → M Value) : ∀ (cs : List InstId),
    (∀ P ∈ cs, ∀ s, (∀ x, s.insts P = some x → x.op = Opcode.PHI) →
      ∀ v s', f P s = .ok v s' → s.Rewrites s') →
    ∀ s, (∀ P ∈ cs, ∀ x, s.insts P = some x → x.op = Opcode.PHI) →
    ∀ u s', forEachPhi f cs s = .ok u s' → s.Rewrites s' := by
  intro cs
  induction cs with
  | nil =>
    intro _ s _ u s' h
    cases h
    exact CGState.Rewrites.idle s
  | cons P Ps ih =>
    intro hf s hs u s' h
    unfold forEachPhi at h
    obtain ⟨v, s1, h1, h2⟩ := M.do_eq_ok.1 h
    have r1 := hf P (List.mem_cons_self _ _) s (hs P (List.mem_cons_self _ _)) v s1 h1
    exact r1.andNext (ih (fun Q hQ => hf Q (List.mem_cons_of_mem _ hQ)) s1
      (fun Q hQ => r1.phiOrGone (hs Q (List.mem_cons_of_mem _ hQ))) u s' h2)

/-- When `optimizePhi` returns, it has only rewritten operands and
definitions and erased phi nodes. -/
theorem optimizePhi_rewrites (fuel : Nat) : ∀ (Phi : InstId) (s : CGState),
    (∀ x, s.insts Phi = some x → x.op = Opcode.PHI) →
    ∀ v s', optimizePhi fuel Phi s = .ok v s' → s.Rewrites s' := by
  induction fuel with
  | zero =>
    intro Phi s _ v s' h
    cases h
  | succ fuel ih =>
    intro Phi s hphi v s' h
    cases hx : s.insts Phi with
    | none =>
      rw [optimizePhi_succ_erased fuel s Phi hx] at h
      cases h
    | some x =>
      cases hs : sameIncoming Phi x.operands none with
      | none =>
        rw [optimizePhi_succ_keep fuel s Phi x hx hs] at h
        cases h
        exact CGState.Rewrites.idle s
      | some Same? =>
        rw [optimizePhi_succ_remove fuel s Phi x Same? hx hs] at h
        obtain ⟨u, s2, h1, h2⟩ := M.bind_eq_ok.1 h
        cases h2
        have r1 : s.Rewrites (s.replaceAllUsesWith Phi (Same?.getD (.undef x.ty))) :=
          s.rewrites_replaceAllUsesWith _ _
        have r2 : s.Rewrites
            ((s.replaceAllUsesWith Phi (Same?.getD (.undef x.ty))).eraseFromParent Phi) :=
          r1.andNext (CGState.rewrites_eraseFromParent _ _ (r1.phiOrGone hphi))
        refine r2.andNext (forEachPhi_rewrites _ _ (fun P _ t ht w t' hw => ih P t ht w t' hw)
          _ ?_ u _ h1)
        intro P hP
        refine r2.phiOrGone ?_
        intro y hy
        have := candidatePhis_isPHI s Phi x.uses P hP
        simp only [CGState.isPHI, hy] at this
        simpa using this

end tinylang

namespace tinylang

/-! ### New instructions, new edges, new incomplete phis -/

theorem PhiInv.live_lt {F : Option InstId} {s : CGState} (hs : PhiInv F s) {i : InstId}
    {x : Instruction} (hx : s.insts i = some x) : i < s.numInsts := by
  by_contra hlt
  rw [hs.fresh i (Nat.le_of_not_lt hlt)] at hx
  cases hx

theorem PhiInv.filling {s : CGState} (hs : PhiInv none s) (F : Option InstId) : PhiInv F s :=
  ⟨hs.fresh, hs.len, fun i x hx hop _ => hs.blocks i x hx hop (by simp), hs.pending, hs.nodup,
    hs.users, hs.sealed⟩

theorem PhiInv.filled {s : CGState} {P : InstId} (hs : PhiInv (some P) s)
    (hP : ∀ x, s.insts P = some x → x.op = Opcode.PHI →
      (Event.seal x.parent ∈ s.trace ∧ x.blocks = s.predecessors x.parent) ∨
      (x.blocks = [] ∧ ∃ d, (P, d) ∈ (s.CurrentDef x.parent).IncompletePhis)) :
    PhiInv none s := by
  refine ⟨hs.fresh, hs.len, ?_, hs.pending, hs.nodup, hs.users, hs.sealed⟩
  intro i x hx hop _
  by_cases hi : i = P
  · subst hi
    exact hP x hx hop
  · exact hs.blocks i x hx hop (by simpa using Ne.symm hi)

/-- A new instruction other than a phi, not yet registered with its
operands. -/
theorem PhiInv.insertInst {F : Option InstId} {s s1 : CGState} (hs : PhiInv F s)
    (x : Instruction) (hop : x.op ≠ Opcode.PHI)
    (hi : s1.insts = fun j => if j = s.numInsts then some x else s.insts j)
    (hn : s1.numInsts = s.numInsts + 1) (hb : s1.blockUses = s.blockUses)
    (ht : s1.trace = s.trace) (hd : s1.CurrentDef = s.CurrentDef) : PhiInv F s1 := by
  have hold : ∀ j, j < s.numInsts → s1.insts j = s.insts j := by
    intro j hj
    rw [hi]
    simp [Nat.ne_of_lt hj]
  have hlive : ∀ j y, s1.insts j = some y → j ≠ s.numInsts → s.insts j = some y := by
    intro j y hy hj
    rw [hi] at hy
    simpa [hj] using hy
  have hpred : ∀ b, s1.predecessors b = s.predecessors b := by
    intro b
    refine CGState.predecessors_congr (by rw [hb]) ?_
    intro j hj
    unfold CGState.termParent
    rw [hold j (hs.users b j hj)]
  refine ⟨?_, ?_, ?_, ?_, ?_, ?_, ?_⟩
  · intro i hi'
    rw [hn] at hi'
    rw [hi]
    simp only [show i ≠ s.numInsts by omega, if_false]
    exact hs.fresh i (by omega)
  · intro i y hy hop'
    by_cases hin : i = s.numInsts
    · rw [hi] at hy
      simp only [hin, if_true, Option.some.injEq] at hy
      rw [← hy] at hop'
      exact absurd hop' hop
    · exact hs.len i y (hlive i y hy hin) hop'
  · intro i y hy hop' hF
    by_cases hin : i = s.numInsts
    · rw [hi] at hy
      simp only [hin, if_true, Option.some.injEq] at hy
      rw [← hy] at hop'
      exact absurd hop' hop
    · rw [ht, hpred, hd]
      exact hs.blocks i y (hlive i y hy hin) hop' hF
  · intro b i d hm
    rw [hd] at hm ⊢
    obtain ⟨p1, p2, p3⟩ := hs.pending b i d hm
    refine ⟨p1, by rw [hn]; exact Nat.lt_succ_of_lt p2, ?_⟩
    intro y hy
    rw [hold i p2] at hy
    exact p3 y hy
  · intro b
    rw [hd]
    exact hs.nodup b
  · intro b j hj
    rw [hb] at hj
    rw [hn]
    exact Nat.lt_succ_of_lt (hs.users b j hj)
  · intro b hb'
    rw [hd] at hb' ⊢
    rw [ht]
    exact hs.sealed b hb'

/-- `createInst` of an instruction other than a phi, without block
operands. -/
theorem PhiInv.createInst {F : Option InstId} {s : CGState} (hs : PhiInv F s) (BB : BlockId)
    (atFront : Bool) (op : Opcode) (ty : Ty) (operands : List Value) (hop : op ≠ Opcode.PHI)
    (i : InstId) (s' : CGState)
    (h : tinylang.createInst BB atFront op ty operands [] s = .ok i s') : PhiInv F s' := by
  unfold tinylang.createInst at h
  simp only [List.foldl_nil, Res.ok.injEq] at h
  rw [← h.2]
  refine PhiInv.rewrites ?_ (CGState.rewrites_addUses _ _ _ _)
  exact hs.insertInst
    { op := op, ty := ty, operands := operands, blocks := [], parent := BB, uses := [] } hop
    rfl rfl rfl rfl rfl

theorem mapType_ok {D : Decl} {s s' : CGState} {Ty : Ty} (h : mapType D s = .ok Ty s') :
    s' = s := by
  unfold mapType at h
  cases hk : D.kind <;> cases hty : D.ty <;> simp only [hk, hty] at h <;> cases h <;> rfl

theorem writeLocalVariable_ok {BB : BlockId} {D : Decl} {Val : Option Value} {s s' : CGState}
    (h : writeLocalVariable BB D Val s = .ok () s') :
    ∃ V, Val = some V ∧ s' = s.setDef BB D V := by
  unfold writeLocalVariable at h
  split at h
  · cases h
  · split at h
    · cases h
    · next V =>
      cases h
      exact ⟨V, rfl, rfl⟩

/-- The two ways in which `readLocalVariableRecursive` returns: with a new
empty phi in an unsealed block, or with the value read in the single
predecessor of a sealed block. -/
theorem readLocalVariableRecursiveWith_ok {rd : BlockId → Decl → M Value} {BB : BlockId}
    {D : Decl} {s s' : CGState} {v : Value}
    (h : readLocalVariableRecursiveWith rd BB D s = .ok v s') :
    ((s.CurrentDef BB).Sealed = false ∧ ∃ ty, v = .inst s.numInsts ∧
      s' = s.withEmptyPhi BB D ty) ∨
    ((s.CurrentDef BB).Sealed = true ∧ ∃ PredBB s1, rd PredBB D s = .ok v s1 ∧
      s' = s1.setDef BB D v) := by
  unfold readLocalVariableRecursiveWith at h
  obtain ⟨s0, s0', hg, h⟩ := M.do_eq_ok.1 h
  cases hg
  dsimp only at h
  split at h
  · next hS =>
    left
    refine ⟨by simpa using hS, ?_⟩
    obtain ⟨Phi, s1, h1, h⟩ := M.do_eq_ok.1 h
    unfold addEmptyPhi at h1
    obtain ⟨ty, t, hty, hc⟩ := M.do_eq_ok.1 h1
    have := mapType_ok hty
    subst this
    unfold createInst at hc
    cases hc
    obtain ⟨_, s2, hm, h⟩ := M.do_eq_ok.1 h
    cases hm
    obtain ⟨_, s3, hm, h⟩ := M.do_eq_ok.1 h
    cases hm
    obtain ⟨_, s4, hw, h⟩ := M.do_eq_ok.1 h
    obtain ⟨V, hV, hs4⟩ := writeLocalVariable_ok hw
    cases hV
    cases h
    refine ⟨ty, rfl, ?_⟩
    rw [hs4]
    simp only [CGState.withEmptyPhi, CGState.setDef, CGState.updDef, CGState.addUses,
      List.foldl_nil]
    congr 1
    funext b
    by_cases hb : b = BB
    · simp [hb]
    · simp [hb]
  · next hS =>
    right
    refine ⟨by simpa using hS, ?_⟩
    cases hp : s.getSinglePredecessor BB with
    | some PredBB =>
      simp only [hp] at h
      obtain ⟨V, s1, h1, h⟩ := M.do_eq_ok.1 h
      obtain ⟨_, s2, hm, h⟩ := M.do_eq_ok.1 h
      cases hm
      obtain ⟨_, s4, hw, h⟩ := M.do_eq_ok.1 h
      obtain ⟨V', hV, hs4⟩ := writeLocalVariable_ok hw
      cases hV
      cases h
      exact ⟨PredBB, s1, h1, hs4⟩
    | none =>
      simp only [hp] at h
      obtain ⟨Phi, s1, h1, h⟩ := M.do_eq_ok.1 h
      obtain ⟨_, s2, hw, h⟩ := M.do_eq_ok.1 h
      obtain ⟨V', hV, _⟩ := writeLocalVariable_ok hw
      cases hV

end tinylang

namespace tinylang

/-! ### Reads -/

theorem CGState.Extends.noRead (D : Decl) (s : CGState) : s.Extends D s :=
  ⟨Nat.le_refl _, fun _ _ => rfl, rfl, rfl, fun _ => ⟨rfl, fun _ => rfl, fun _ h => h⟩⟩

theorem CGState.Extends.andRead {D : Decl} {s t u : CGState} (h1 : s.Extends D t)
    (h2 : t.Extends D u) : s.Extends D u := by
  obtain ⟨a1, a2, a3, a4, a5⟩ := h1
  obtain ⟨b1, b2, b3, b4, b5⟩ := h2
  refine ⟨Nat.le_trans a1 b1, ?_, b3.trans a3, b4.trans a4, ?_⟩
  · intro j hj
    rw [b2 j (Nat.lt_of_lt_of_le hj a1), a2 j hj]
  · intro b
    obtain ⟨c1, c2, c3⟩ := a5 b
    obtain ⟨d1, d2, d3⟩ := b5 b
    exact ⟨d1.trans c1, fun hd => (d2 (c3 D hd)).trans (c2 hd), fun d hd => d3 d (c3 d hd)⟩

theorem CGState.extends_setDef (D : Decl) (s : CGState) (BB : BlockId) (D' : Decl)
    (V : Value) : s.Extends D (s.setDef BB D' V) := by
  have h := s.rewrites_setDef BB D' V
  exact ⟨Nat.le_refl _, fun _ _ => rfl, rfl, rfl,
    fun b => ⟨(h.2.2.2.2.2 b).2.1, fun _ => (h.2.2.2.2.2 b).1, (h.2.2.2.2.2 b).2.2⟩⟩

theorem CGState.extends_withEmptyPhi (s : CGState) (BB : BlockId) (D : Decl) (ty : Ty)
    (hD : (s.CurrentDef BB).Defs D = none) : s.Extends D (s.withEmptyPhi BB D ty) := by
  refine ⟨Nat.le_succ _, ?_, rfl, rfl, ?_⟩
  · intro j hj
    simp [CGState.withEmptyPhi, Nat.ne_of_lt hj]
  · intro b
    by_cases hb : b = BB
    · subst hb
      refine ⟨by simp [CGState.withEmptyPhi], fun hd => absurd hD hd, ?_⟩
      intro d hd
      simp only [CGState.withEmptyPhi, if_true]
      split
      · simp
      · exact hd
    · refine ⟨by simp [CGState.withEmptyPhi, hb], fun _ => by simp [CGState.withEmptyPhi, hb],
        ?_⟩
      intro d hd
      simpa [CGState.withEmptyPhi, hb] using hd

/-- An unsealed block gets an empty phi, recorded as incomplete and as the
definition of `D`. -/
theorem PhiInv.withEmptyPhi {F : Option InstId} {s : CGState} (hs : PhiInv F s)
    (BB : BlockId) (D : Decl) (ty : Ty) (hS : (s.CurrentDef BB).Sealed = false) :
    PhiInv F (s.withEmptyPhi BB D ty) := by
  have hold : ∀ j, j < s.numInsts → (s.withEmptyPhi BB D ty).insts j = s.insts j := by
    intro j hj
    simp [CGState.withEmptyPhi, Nat.ne_of_lt hj]
  have hnew : (s.withEmptyPhi BB D ty).insts s.numInsts =
      some { op := .PHI, ty := ty, operands := [], blocks := [], parent := BB, uses := [] } := by
    simp [CGState.withEmptyPhi]
  have hlive : ∀ j y, (s.withEmptyPhi BB D ty).insts j = some y → j ≠ s.numInsts →
      s.insts j = some y := by
    intro j y hy hj
    simpa [CGState.withEmptyPhi, hj] using hy
  have hpred : ∀ b, (s.withEmptyPhi BB D ty).predecessors b = s.predecessors b := by
    intro b
    refine CGState.predecessors_congr rfl ?_
    intro j hj
    unfold CGState.termParent
    rw [hold j (hs.users b j hj)]
  have hmem : ∀ b i d, (i, d) ∈ (s.CurrentDef b).IncompletePhis →
      (i, d) ∈ ((s.withEmptyPhi BB D ty).CurrentDef b).IncompletePhis := by
    intro b i d hm
    simp only [CGState.withEmptyPhi]
    split
    · exact List.mem_append_left _ hm
    · exact hm
  have hdefs : ∀ b d, (s.CurrentDef b).Defs d ≠ none →
      ((s.withEmptyPhi BB D ty).CurrentDef b).Defs d ≠ none := by
    intro b d hd
    simp only [CGState.withEmptyPhi]
    split
    · simp only
      split
      · simp
      · exact hd
    · exact hd
  refine ⟨?_, ?_, ?_, ?_, ?_, ?_, ?_⟩
  · intro i hi
    have hi' : s.numInsts + 1 ≤ i := hi
    simp only [CGState.withEmptyPhi, show i ≠ s.numInsts by omega, if_false]
    exact hs.fresh i (by omega)
  · intro i y hy hop
    by_cases hin : i = s.numInsts
    · rw [hin, hnew] at hy
      cases hy
      rfl
    · exact hs.len i y (hlive i y hy hin) hop
  · intro i y hy hop hF
    by_cases hin : i = s.numInsts
    · rw [hin, hnew] at hy
      cases hy
      right
      refine ⟨rfl, D, ?_⟩
      simp [CGState.withEmptyPhi, hin]
    · rw [hpred]
      rcases hs.blocks i y (hlive i y hy hin) hop hF with h | ⟨h1, d, h2⟩
      · exact Or.inl h
      · exact Or.inr ⟨h1, d, hmem _ _ _ h2⟩
  · intro b i d hm
    have hcases : (i, d) ∈ (s.CurrentDef b).IncompletePhis ∨ (b = BB ∧ i = s.numInsts ∧ d = D) := by
      simp only [CGState.withEmptyPhi] at hm
      split at hm
      · next hb =>
        rcases List.mem_append.1 hm with h | h
        · exact Or.inl h
        · simp only [List.mem_singleton, Prod.mk.injEq] at h
          exact Or.inr ⟨hb, h.1, h.2⟩
      · exact Or.inl hm
    rcases hcases with h | ⟨hb, hi, hd⟩
    · obtain ⟨p1, p2, p3⟩ := hs.pending b i d h
      refine ⟨hdefs b d p1, Nat.lt_succ_of_lt p2, ?_⟩
      intro y hy
      rw [hold i p2] at hy
      exact p3 y hy
    · subst hb hi hd
      refine ⟨by simp [CGState.withEmptyPhi], Nat.lt_succ_self _, ?_⟩
      intro y hy
      rw [hnew] at hy
      cases hy
      exact ⟨rfl, rfl⟩
  · intro b
    simp only [CGState.withEmptyPhi]
    split
    · next hb =>
      rw [List.map_append, List.nodup_append]
      refine ⟨hs.nodup b, by simp, ?_⟩
      intro a ha hb'
      simp only [List.map_cons, List.map_nil, List.mem_singleton] at hb'
      rw [List.mem_map] at ha
      obtain ⟨⟨i, d⟩, hm, hi⟩ := ha
      have := (hs.pending b i d hm).2.1
      simp only at hi
      rw [hi, hb'] at this
      exact Nat.lt_irrefl _ this
    · exact hs.nodup b
  · intro b j hj
    exact Nat.lt_succ_of_lt (hs.users b j hj)
  · intro b hb
    by_cases hbb : b = BB
    · subst hbb
      simp only [CGState.withEmptyPhi, if_true] at hb
      rw [hS] at hb
      cases hb
    · simp only [CGState.withEmptyPhi, hbb, if_false] at hb ⊢
      exact hs.sealed b hb

/-- The two ways in which `readLocalVariable` returns. -/
theorem readLocalVariable_ok {fuel : Nat} {BB : BlockId} {D : Decl} {s s' : CGState}
    {v : Value} (h : readLocalVariable (fuel + 1) BB D s = .ok v s') :
    ((s.CurrentDef BB).Defs D = some v ∧ s' = s) ∨
    ((s.CurrentDef BB).Defs D = none ∧
      readLocalVariableRecursiveWith (readLocalVariable fuel) BB D s = .ok v s') := by
  unfold readLocalVariable at h
  dsimp only at h
  split at h
  · obtain ⟨_, _, ht, _⟩ := M.do_eq_ok.1 h
    cases ht
  · obtain ⟨_, s1, hp, h⟩ := M.do_eq_ok.1 h
    cases hp
    obtain ⟨s0, s0', hg, h⟩ := M.do_eq_ok.1 h
    cases hg
    cases hD : (s.CurrentDef BB).Defs D with
    | some Val =>
      simp only [hD] at h
      cases h
      exact Or.inl ⟨rfl, rfl⟩
    | none =>
      simp only [hD] at h
      exact Or.inr ⟨rfl, h⟩

/-- When a read of `D` returns, the phi nodes are as they should be and the
instructions that existed are unchanged. -/
theorem readLocalVariable_spec (fuel : Nat) : ∀ (BB : BlockId) (D : Decl) (F : Option InstId)
    (s : CGState) (v : Value) (s' : CGState), PhiInv F s →
    readLocalVariable fuel BB D s = .ok v s' → PhiInv F s' ∧ s.Extends D s' := by
  induction fuel with
  | zero =>
    intro BB D F s v s' _ h
    cases h
  | succ fuel ih =>
    intro BB D F s v s' hs h
    rcases readLocalVariable_ok h with ⟨_, h'⟩ | ⟨hD, h'⟩
    · rw [h']
      exact ⟨hs, CGState.Extends.noRead D s⟩
    · rcases readLocalVariableRecursiveWith_ok h' with ⟨hS, ty, _, h''⟩ | ⟨_, PredBB, s1, h1, h''⟩
      · rw [h'']
        exact ⟨hs.withEmptyPhi BB D ty hS, s.extends_withEmptyPhi BB D ty hD⟩
      · obtain ⟨i1, i2⟩ := ih PredBB D F s v s1 hs h1
        rw [h'']
        exact ⟨i1.rewrites (s1.rewrites_setDef BB D v), i2.andRead (s1.extends_setDef D BB D v)⟩

end tinylang

namespace tinylang

/-! ### Filling a phi -/

theorem CGState.Fills.noFill (Phi : InstId) (D : Decl) (s : CGState) : s.Fills Phi D s :=
  ⟨Nat.le_refl _, fun _ x' _ _ h => ⟨x', h, rfl⟩, fun _ => rfl, rfl,
    fun _ => ⟨fun _ => rfl, fun _ h => h⟩⟩

theorem CGState.Fills.andMore {Phi : InstId} {D : Decl} {s t u : CGState}
    (h1 : s.Fills Phi D t) (h2 : t.Fills Phi D u) : s.Fills Phi D u := by
  obtain ⟨a1, a2, a3, a4, a5⟩ := h1
  obtain ⟨b1, b2, b3, b4, b5⟩ := h2
  refine ⟨Nat.le_trans a1 b1, ?_, fun b => (b3 b).trans (a3 b), b4.trans a4, ?_⟩
  · intro j x'' hj hne hu
    obtain ⟨x', hx', e1⟩ := b2 j x'' (Nat.lt_of_lt_of_le hj a1) hne hu
    obtain ⟨x, hx, e2⟩ := a2 j x' hj hne hx'
    exact ⟨x, hx, e1.trans e2⟩
  · intro b
    obtain ⟨c1, c2⟩ := a5 b
    obtain ⟨d1, d2⟩ := b5 b
    exact ⟨fun hd => (d1 (c2 D hd)).trans (c1 hd), fun d hd => d2 d (c2 d hd)⟩

theorem CGState.Extends.toFills {F : Option InstId} {D : Decl} {s s' : CGState}
    (hs : PhiInv F s) (h : s.Extends D s') (Phi : InstId) : s.Fills Phi D s' := by
  obtain ⟨a1, a2, a3, a4, a5⟩ := h
  refine ⟨a1, ?_, ?_, a4, fun b => ⟨(a5 b).2.1, (a5 b).2.2⟩⟩
  · intro j x' hj _ hx'
    rw [a2 j hj] at hx'
    exact ⟨x', hx', rfl⟩
  · intro b
    refine CGState.predecessors_congr (by rw [a3]) ?_
    intro j hj
    unfold CGState.termParent
    rw [a2 j (hs.users b j hj)]

theorem CGState.Rewrites.fills {s s' : CGState} (h : s.Rewrites s') (Phi : InstId)
    (D : Decl) : s.Fills Phi D s' := by
  have hp := h.predecessors_eq
  obtain ⟨a1, a2, a3, a4, a5, a6⟩ := h
  refine ⟨Nat.le_of_eq a1.symm, ?_, hp, a3, fun b => ⟨fun _ => (a6 b).1, (a6 b).2.2⟩⟩
  intro j x' _ _ hx'
  obtain ⟨x, hx, _, e2, _, _⟩ := a4 j x' hx'
  exact ⟨x, hx, e2⟩

theorem CGState.addUse_live (s : CGState) (v : Value) (u : Use) {j : InstId}
    {x : Instruction} (hx : s.insts j = some x) :
    ∃ x', (s.addUse v u).insts j = some x' ∧ x'.blocks = x.blocks ∧ x'.op = x.op ∧
      x'.parent = x.parent := by
  unfold CGState.addUse
  split
  · next i =>
    split
    · next y hy =>
      simp only [CGState.setInst]
      split
      · next hji =>
        rw [hji, hy] at hx
        cases hx
        exact ⟨_, rfl, rfl, rfl, rfl⟩
      · exact ⟨x, hx, rfl, rfl, rfl⟩
    · exact ⟨x, hx, rfl, rfl, rfl⟩
  · exact ⟨x, hx, rfl, rfl, rfl⟩

theorem addIncoming_ok {Phi : InstId} {V : Value} {I : BlockId} {s s' : CGState}
    (h : addIncoming Phi V I s = .ok () s') :
    ∃ x x1, s.insts Phi = some x ∧
      x1 = { x with operands := x.operands ++ [V], blocks := x.blocks ++ [I] } ∧
      s' = (s.setInst Phi (some x1)).addUse V (Phi, x.operands.length) := by
  unfold addIncoming at h
  split at h
  · cases h
  · next x hx =>
    cases h
    exact ⟨x, _, hx, rfl, rfl⟩

/-- One incoming pair more for the phi that is being filled. -/
theorem addIncoming_spec {Phi : InstId} {V : Value} {I : BlockId} {s s' : CGState} (D : Decl)
    (hs : PhiInv (some Phi) s) (h : addIncoming Phi V I s = .ok () s') :
    PhiInv (some Phi) s' ∧ s.Fills Phi D s' ∧
      ∃ x x', s.insts Phi = some x ∧ s'.insts Phi = some x' ∧ x'.blocks = x.blocks ++ [I] ∧
        x'.op = x.op ∧ x'.parent = x.parent := by
  obtain ⟨x, x1, hx, hx1, hs'⟩ := addIncoming_ok h
  have hother : ∀ j, j ≠ Phi → (s.setInst Phi (some x1)).insts j = s.insts j := by
    intro j hj
    simp [CGState.setInst, hj]
  have hself : (s.setInst Phi (some x1)).insts Phi = some x1 := by
    simp [CGState.setInst]
  have hterm : ∀ j, (s.setInst Phi (some x1)).termParent j = s.termParent j := by
    intro j
    unfold CGState.termParent
    by_cases hj : j = Phi
    · rw [hj, hself, hx, hx1]
    · rw [hother j hj]
  have hpred : ∀ b, (s.setInst Phi (some x1)).predecessors b = s.predecessors b :=
    fun b => CGState.predecessors_congr rfl fun j _ => hterm j
  have h1 : PhiInv (some Phi) (s.setInst Phi (some x1)) := by
    refine ⟨?_, ?_, ?_, ?_, hs.nodup, hs.users, hs.sealed⟩
    · intro i hi
      have hne : i ≠ Phi := by
        intro he
        rw [he] at hi
        exact absurd (hs.live_lt hx) (Nat.not_lt.2 hi)
      rw [hother i hne]
      exact hs.fresh i hi
    · intro i y hy hop
      by_cases hi : i = Phi
      · rw [hi, hself] at hy
        cases hy
        have := hs.len Phi x hx (by rw [hx1] at hop; exact hop)
        rw [hx1]
        simp only [List.length_append, List.length_singleton]
        omega
      · rw [hother i hi] at hy
        exact hs.len i y hy hop
    · intro i y hy hop hF
      have hi : i ≠ Phi := fun he => hF (by rw [he])
      rw [hother i hi] at hy
      rw [hpred]
      exact hs.blocks i y hy hop hF
    · intro b i d hm
      obtain ⟨p1, p2, p3⟩ := hs.pending b i d hm
      refine ⟨p1, p2, ?_⟩
      intro y hy
      by_cases hi : i = Phi
      · rw [hi, hself] at hy
        cases hy
        rw [hx1]
        exact p3 x (hi ▸ hx)
      · rw [hother i hi] at hy
        exact p3 y hy
  have f1 : s.Fills Phi D (s.setInst Phi (some x1)) := by
    refine ⟨Nat.le_refl _, ?_, hpred, rfl, fun _ => ⟨fun _ => rfl, fun _ h => h⟩⟩
    intro j x' _ hj hx'
    rw [hother j hj] at hx'
    exact ⟨x', hx', rfl⟩
  have r := (s.setInst Phi (some x1)).rewrites_addUse V (Phi, x.operands.length)
  obtain ⟨x', hx', e1, e2, e3⟩ :=
    (s.setInst Phi (some x1)).addUse_live V (Phi, x.operands.length) hself
  rw [hs']
  refine ⟨h1.rewrites r, f1.andMore (r.fills Phi D), x, x', hx, hx', ?_, ?_, ?_⟩
  · rw [e1, hx1]
  · rw [e2, hx1]
  · rw [e3, hx1]

/-- The loop of `addPhiOperands`: when it returns, the phi has one more
incoming block for each block of the list, in order. -/
theorem addPhiOperandsLoop_spec (fuel : Nat) (D : Decl) (Phi : InstId) :
    ∀ (preds : List BlockId) (s s' : CGState) (x : Instruction), PhiInv (some Phi) s →
    s.insts Phi = some x →
    addPhiOperandsLoop (readLocalVariable fuel) D Phi preds s = .ok () s' →
    PhiInv (some Phi) s' ∧ s.Fills Phi D s' ∧
      ∃ x', s'.insts Phi = some x' ∧ x'.blocks = x.blocks ++ preds ∧ x'.op = x.op ∧
        x'.parent = x.parent := by
  intro preds
  induction preds with
  | nil =>
    intro s s' x hs hx h
    cases h
    exact ⟨hs, CGState.Fills.noFill Phi D s, x, hx, by simp, rfl, rfl⟩
  | cons I Is ih =>
    intro s s' x hs hx h
    unfold addPhiOperandsLoop at h
    obtain ⟨V, s1, h1, h⟩ := M.do_eq_ok.1 h
    obtain ⟨_, s2, h2, h⟩ := M.do_eq_ok.1 h
    obtain ⟨i1, e1⟩ := readLocalVariable_spec fuel I D (some Phi) s V s1 hs h1
    have hx1 : s1.insts Phi = some x := by
      rw [e1.2.1 Phi (hs.live_lt hx)]
      exact hx
    obtain ⟨i2, f2, y, x2, hy, hx2, b2, o2, p2⟩ := addIncoming_spec D i1 h2
    rw [hx1] at hy
    cases hy
    obtain ⟨i3, f3, x3, hx3, b3, o3, p3⟩ := ih s2 s' x2 i2 hx2 h
    refine ⟨i3, ((e1.toFills hs Phi).andMore f2).andMore f3, x3, hx3, ?_, o3.trans o2,
      p3.trans p2⟩
    rw [b3, b2]
    simp

end tinylang

namespace tinylang

/-! ### Sealing a block -/

theorem M.get_ok {s a s' : CGState} (h : M.get s = .ok a s') : a = s ∧ s' = s := by
  cases h
  exact ⟨rfl, rfl⟩

theorem addPhiOperandsLoop_erased (fuel : Nat) (D : Decl) (Phi : InstId) :
    ∀ (preds : List BlockId) (s s' : CGState), PhiInv (some Phi) s → Phi < s.numInsts →
    s.insts Phi = none →
    addPhiOperandsLoop (readLocalVariable fuel) D Phi preds s = .ok () s' → s' = s := by
  intro preds s s' hs hlt hx h
  cases preds with
  | nil =>
    cases h
    rfl
  | cons I Is =>
    unfold addPhiOperandsLoop at h
    obtain ⟨V, s1, h1, h⟩ := M.do_eq_ok.1 h
    obtain ⟨_, s2, h2, h⟩ := M.do_eq_ok.1 h
    obtain ⟨_, e1⟩ := readLocalVariable_spec fuel I D (some Phi) s V s1 hs h1
    obtain ⟨x, _, hx', _⟩ := addIncoming_ok h2
    rw [e1.2.1 Phi hlt, hx] at hx'
    cases hx'

/-- When `addPhiOperands` returns for an empty phi of a block whose sealing
has started, the phi, if it is left, has the predecessors of the block as its
incoming blocks. -/
theorem addPhiOperands_spec (fuel : Nat) (BB : BlockId) (D : Decl) (Phi : InstId)
    {s s' : CGState} {v : Value} (hs : PhiInv none s) (hseal : Event.seal BB ∈ s.trace)
    (hlt : Phi < s.numInsts)
    (hphi : ∀ x, s.insts Phi = some x →
      x.op = Opcode.PHI ∧ x.parent = BB ∧ x.blocks = [])
    (h : addPhiOperands fuel BB D Phi s = .ok v s') :
    PhiInv none s' ∧ s.Fills Phi D s' ∧
      ∀ x', s'.insts Phi = some x' → x'.blocks = s'.predecessors BB := by
  unfold addPhiOperands addPhiOperandsWith at h
  obtain ⟨s0, s0', hg, h2⟩ := M.do_eq_ok.1 h
  rw [(M.get_ok hg).1, (M.get_ok hg).2] at h2
  obtain ⟨_, s1, hl, h3⟩ := M.do_eq_ok.1 h2
  obtain ⟨s1', s1'', hg', h4⟩ := M.do_eq_ok.1 h3
  rw [(M.get_ok hg').1, (M.get_ok hg').2] at h4
  clear h h2 h3 hg hg'
  have h := h4
  cases hx : s.insts Phi with
  | none =>
    have := addPhiOperandsLoop_erased fuel D Phi _ s s1 (hs.filling _) hlt hx hl
    rw [this, optimizePhi_succ_erased _ s Phi hx] at h
    cases h
  | some x =>
    obtain ⟨hop, hpar, hbl⟩ := hphi x hx
    obtain ⟨i1, f1, x1, hx1, b1, o1, p1⟩ :=
      addPhiOperandsLoop_spec fuel D Phi _ s s1 x (hs.filling _) hx hl
    rw [hbl, List.nil_append] at b1
    have i1' : PhiInv none s1 := by
      refine i1.filled ?_
      intro y hy _
      rw [hx1] at hy
      cases hy
      left
      rw [p1, hpar, f1.2.2.2.1, b1, f1.2.2.1]
      exact ⟨hseal, rfl⟩
    have r := optimizePhi_rewrites _ Phi s1
      (fun y hy => by rw [hx1] at hy; cases hy; rw [o1]; exact hop) v s' h
    refine ⟨i1'.rewrites r, f1.andMore (r.fills Phi D), ?_⟩
    intro x' hx'
    obtain ⟨y, hy, _, e2, _, _⟩ := r.2.2.2.1 Phi x' hx'
    rw [hx1] at hy
    cases hy
    rw [e2, b1, r.predecessors_eq, f1.2.2.1]

/-- The loop of `sealBlock`: when it returns, every incomplete phi of the
block that is left has the predecessors of the block as its incoming blocks,
and the block has got no further incomplete phi. -/
theorem sealBlockLoop_spec (fuel : Nat) (BB : BlockId) (snap : List (InstId × Decl)) :
    ∀ (rest : List (InstId × Decl)) (s s' : CGState), PhiInv none s →
    Event.seal BB ∈ s.trace → (s.CurrentDef BB).IncompletePhis = snap →
    (∀ p ∈ rest, p ∈ snap) → (rest.map Prod.fst).Nodup →
    (∀ p ∈ rest, ∀ x, s.insts p.1 = some x → x.blocks = []) →
    (∀ p ∈ snap, p.1 ∉ rest.map Prod.fst →
      ∀ x, s.insts p.1 = some x → x.blocks = s.predecessors BB) →
    sealBlockLoop fuel BB rest s = .ok () s' →
    PhiInv none s' ∧ (s'.CurrentDef BB).IncompletePhis = snap ∧ s'.trace = s.trace ∧
      ∀ p ∈ snap, ∀ x, s'.insts p.1 = some x → x.blocks = s'.predecessors BB := by
  intro rest
  induction rest with
  | nil =>
    intro s s' hs _ hsnap _ _ _ hdone h
    cases h
    exact ⟨hs, hsnap, rfl, fun p hp x hx => hdone p hp (by simp) x hx⟩
  | cons PD rest ih =>
    intro s s' hs hseal hsnap hsub hnd hempty hdone h
    unfold sealBlockLoop at h
    obtain ⟨v, s2, h1, h⟩ := M.do_eq_ok.1 h
    have hPD : (PD.1, PD.2) ∈ (s.CurrentDef BB).IncompletePhis := by
      rw [hsnap]
      exact hsub PD (List.mem_cons_self _ _)
    obtain ⟨p1, p2, p3⟩ := hs.pending BB PD.1 PD.2 hPD
    obtain ⟨i2, f2, hfill⟩ := addPhiOperands_spec fuel BB PD.2 PD.1 hs hseal p2
      (fun x hx => ⟨(p3 x hx).1, (p3 x hx).2, hempty PD (List.mem_cons_self _ _) x hx⟩) h1
    rw [List.map_cons, List.nodup_cons] at hnd
    have hsnap2 : (s2.CurrentDef BB).IncompletePhis = snap :=
      ((f2.2.2.2.2 BB).1 p1).trans hsnap
    obtain ⟨i3, k1, k2, k3⟩ := ih s2 s' i2 (by rw [f2.2.2.2.1]; exact hseal) hsnap2
      (fun p hp => hsub p (List.mem_cons_of_mem _ hp)) hnd.2
      (by
        intro p hp x' hx'
        have hne : p.1 ≠ PD.1 := fun he => hnd.1 (he ▸ List.mem_map_of_mem Prod.fst hp)
        have hp' : (p.1, p.2) ∈ (s.CurrentDef BB).IncompletePhis := by
          rw [hsnap]
          exact hsub p (List.mem_cons_of_mem _ hp)
        obtain ⟨x, hx, e⟩ := f2.2.1 p.1 x' (hs.pending BB p.1 p.2 hp').2.1 hne hx'
        rw [e]
        exact hempty p (List.mem_cons_of_mem _ hp) x hx)
      (by
        intro p hp hnot x' hx'
        by_cases he : p.1 = PD.1
        · rw [he] at hx'
          exact hfill x' hx'
        · have hp' : (p.1, p.2) ∈ (s.CurrentDef BB).IncompletePhis := by
            rw [hsnap]
            exact hp
          obtain ⟨x, hx, e⟩ := f2.2.1 p.1 x' (hs.pending BB p.1 p.2 hp').2.1 he hx'
          rw [e, f2.2.2.1]
          refine hdone p hp ?_ x hx
          rw [List.map_cons, List.mem_cons]
          rintro (h' | h')
          · exact he h'
          · exact hnot h')
      h
    exact ⟨i3, k1, k2.trans f2.2.2.2.1, k3⟩

end tinylang

namespace tinylang

/-! ### `sealBlock` and the branches -/

theorem PhiInv.appendTrace {F : Option InstId} {s : CGState} (hs : PhiInv F s)
    (l : List Event) : PhiInv F { s with trace := s.trace ++ l } := by
  refine ⟨hs.fresh, hs.len, ?_, hs.pending, hs.nodup, hs.users, ?_⟩
  · intro i x hx hop hF
    rcases hs.blocks i x hx hop hF with ⟨h1, h2⟩ | h
    · exact Or.inl ⟨List.mem_append_left _ h1, h2⟩
    · exact Or.inr h
  · intro b hb
    exact ⟨List.mem_append_left _ (hs.sealed b hb).1, (hs.sealed b hb).2⟩

theorem sealBlock_ok {E : Env} {fuel : Nat} {BB : BlockId} {s s' : CGState}
    (h : sealBlock E fuel BB s = .ok () s') :
    (s.CurrentDef BB).Sealed = false ∧
    ∃ s1, sealBlockLoop fuel BB (E.order (s.CurrentDef BB).IncompletePhis)
        { s with trace := s.trace ++ [Event.seal BB] } = .ok () s1 ∧
      s' = s1.updDef BB fun bd => { bd with IncompletePhis := [], Sealed := true } := by
  unfold sealBlock at h
  obtain ⟨s0, s0', hg, h2⟩ := M.do_eq_ok.1 h
  rw [(M.get_ok hg).1, (M.get_ok hg).2] at h2
  dsimp only at h2
  split at h2
  · obtain ⟨_, _, ht, _⟩ := M.do_eq_ok.1 h2
    cases ht
  · next hS =>
    refine ⟨by simpa using hS, ?_⟩
    obtain ⟨_, s1, hp, h3⟩ := M.do_eq_ok.1 h2
    cases hp
    obtain ⟨_, s2, hm, h4⟩ := M.do_eq_ok.1 h3
    cases hm
    obtain ⟨_, s3, hl, h5⟩ := M.do_eq_ok.1 h4
    cases h5
    exact ⟨s3, hl, rfl⟩

/-- When `sealBlock` returns, the phi nodes of the block have its
predecessors as their incoming blocks, and the block is marked as sealed. -/
theorem sealBlock_spec (E : Env) (fuel : Nat) (BB : BlockId) {s s' : CGState}
    (hs : PhiInv none s) (hc : ∀ b, Event.seal b ∈ s.trace → (s.CurrentDef b).Sealed = true)
    (h : sealBlock E fuel BB s = .ok () s') :
    PhiInv none s' ∧ (∀ b, Event.seal b ∈ s'.trace → (s'.CurrentDef b).Sealed = true) ∧
      s'.blockUses = s.blockUses ∧ s'.numBlocks = s.numBlocks := by
  obtain ⟨hS, s1, hl, hs'⟩ := sealBlock_ok h
  have hnot : Event.seal BB ∉ s.trace := by
    intro hm
    rw [hc BB hm] at hS
    cases hS
  have hperm := E.order_perm (s.CurrentDef BB).IncompletePhis
  have hk := keepsControl_sealBlockLoop fuel BB (E.order (s.CurrentDef BB).IncompletePhis)
    { s with trace := s.trace ++ [Event.seal BB] }
  rw [hl] at hk
  obtain ⟨k1, k2, _, k4, k5⟩ := hk
  obtain ⟨i1, e1, e2, e3⟩ := sealBlockLoop_spec fuel BB (s.CurrentDef BB).IncompletePhis
    (E.order (s.CurrentDef BB).IncompletePhis) { s with trace := s.trace ++ [Event.seal BB] } s1
    (hs.appendTrace _) (by simp) rfl (fun p hp => hperm.mem_iff.1 hp)
    ((hperm.map Prod.fst).nodup_iff.2 (hs.nodup BB))
    (by
      intro p hp x hx
      have hp' : (p.1, p.2) ∈ (s.CurrentDef BB).IncompletePhis := hperm.mem_iff.1 hp
      obtain ⟨_, _, p3⟩ := hs.pending BB p.1 p.2 hp'
      obtain ⟨hop, hpar⟩ := p3 x hx
      rcases hs.blocks p.1 x hx hop (by simp) with ⟨h1, _⟩ | ⟨h1, _⟩
      · rw [hpar] at h1
        exact absurd h1 hnot
      · exact h1)
    (by
      intro p hp hnot'
      exact absurd (List.mem_map_of_mem Prod.fst (hperm.mem_iff.2 hp)) hnot')
    hl
  have hpred : ∀ b, s'.predecessors b = s1.predecessors b := by
    intro b
    rw [hs']
    rfl
  refine ⟨?_, ?_, ?_, ?_⟩
  · refine ⟨?_, ?_, ?_, ?_, ?_, ?_, ?_⟩
    · rw [hs']
      exact i1.fresh
    · rw [hs']
      exact i1.len
    · intro i x hx hop hF
      have hx1 : s1.insts i = some x := by
        rw [hs'] at hx
        exact hx
      rw [hpred]
      rcases i1.blocks i x hx1 hop hF with ⟨h1, h2⟩ | ⟨h1, d, h2⟩
      · left
        rw [hs']
        exact ⟨h1, h2⟩
      · by_cases hp : x.parent = BB
        · left
          rw [hp] at h2 ⊢
          rw [e1] at h2
          refine ⟨?_, e3 (i, d) h2 x hx1⟩
          rw [hs']
          show Event.seal BB ∈ s1.trace
          rw [e2]
          simp
        · right
          refine ⟨h1, d, ?_⟩
          rw [hs']
          simpa [CGState.updDef, hp] using h2
    · intro b i d hm
      rw [hs'] at hm ⊢
      by_cases hb : b = BB
      · simp [CGState.updDef, hb] at hm
      · simp only [CGState.updDef, hb, if_false] at hm ⊢
        exact i1.pending b i d hm
    · intro b
      rw [hs']
      by_cases hb : b = BB
      · simp [CGState.updDef, hb]
      · simp only [CGState.updDef, hb, if_false]
        exact i1.nodup b
    · rw [hs']
      exact i1.users
    · intro b hb
      rw [hs'] at hb ⊢
      by_cases hbb : b = BB
      · refine ⟨?_, by simp [CGState.updDef, hbb]⟩
        show Event.seal b ∈ s1.trace
        rw [e2, hbb]
        simp
      · simp only [CGState.updDef, hbb, if_false] at hb ⊢
        exact i1.sealed b hb
  · intro b hb
    rw [hs'] at hb ⊢
    by_cases hbb : b = BB
    · simp [CGState.updDef, hbb]
    · simp only [CGState.updDef, hbb, if_false]
      have hb' : Event.seal b ∈ s1.trace := hb
      rw [e2] at hb'
      rcases mem_append_seal.1 hb' with h1 | h1
      · exact (k5 b).trans (hc b h1)
      · exact absurd h1 hbb
  · rw [hs']
    exact k4
  · rw [hs']
    exact k2

/-- A branch to a block whose sealing has not started. -/
theorem PhiInv.addBlockUse {F : Option InstId} {s : CGState} (hs : PhiInv F s)
    (Dest : BlockId) (n : InstId) (hn : n < s.numInsts) (hd : Event.seal Dest ∉ s.trace) :
    PhiInv F (s.addBlockUse Dest n) := by
  refine ⟨hs.fresh, hs.len, ?_, hs.pending, hs.nodup, ?_, hs.sealed⟩
  · intro i x hx hop hF
    rcases hs.blocks i x hx hop hF with ⟨h1, h2⟩ | h
    · left
      refine ⟨h1, ?_⟩
      rw [h2]
      have hne : x.parent ≠ Dest := fun he => hd (he ▸ h1)
      symm
      refine CGState.predecessors_congr ?_ fun _ _ => rfl
      simp [CGState.addBlockUse, hne]
    · exact Or.inr h
  · intro b j hj
    simp only [CGState.addBlockUse] at hj
    split at hj
    · rcases List.mem_cons.1 hj with h | h
      · rw [h]
        exact hn
      · exact hs.users b j h
    · exact hs.users b j hj

theorem PhiInv.addBlockUses {F : Option InstId} (n : InstId) : ∀ (blocks : List BlockId)
    (s : CGState), PhiInv F s → n < s.numInsts → (∀ d ∈ blocks, Event.seal d ∉ s.trace) →
    PhiInv F (blocks.foldl (fun t b => t.addBlockUse b n) s) := by
  intro blocks
  induction blocks with
  | nil => intro s hs _ _; exact hs
  | cons b bs ih =>
    intro s hs hn hd
    simp only [List.foldl_cons]
    exact ih _ (hs.addBlockUse b n hn (hd b (List.mem_cons_self _ _))) hn
      (fun d hd' => hd d (List.mem_cons_of_mem _ hd'))

/-- `createInst` of a branch to blocks whose sealing has not started. -/
theorem PhiInv.createBranch {F : Option InstId} {s : CGState} (hs : PhiInv F s)
    (BB : BlockId) (atFront : Bool) (op : Opcode) (ty : Ty) (operands : List Value)
    (blocks : List BlockId) (hop : op ≠ Opcode.PHI)
    (hd : ∀ d ∈ blocks, Event.seal d ∉ s.trace) (i : InstId) (s' : CGState)
    (h : tinylang.createInst BB atFront op ty operands blocks s = .ok i s') : PhiInv F s' := by
  unfold tinylang.createInst at h
  simp only [Res.ok.injEq] at h
  rw [← h.2]
  refine PhiInv.addBlockUses _ blocks _ ?_ ?_ ?_
  · refine PhiInv.rewrites ?_ (CGState.rewrites_addUses _ _ _ _)
    exact hs.insertInst
      { op := op, ty := ty, operands := operands, blocks := blocks, parent := BB, uses := [] }
      hop rfl rfl rfl rfl rfl
  · rw [(CGState.rewrites_addUses _ _ _ _).1]
    exact Nat.lt_succ_self _
  · rw [(CGState.rewrites_addUses _ _ _ _).2.2.1]
    exact hd

theorem Insert_ok {op : Opcode} {ty : Ty} {operands : List Value} {blocks : List BlockId}
    {s s' : CGState} {v : Value} (h : Insert op ty operands blocks s = .ok v s') :
    ∃ i, createInst s.Curr false op ty operands blocks s = .ok i s' := by
  unfold Insert at h
  obtain ⟨s0, s0', hg, h2⟩ := M.do_eq_ok.1 h
  rw [(M.get_ok hg).1, (M.get_ok hg).2] at h2
  obtain ⟨i, s1, hc, h3⟩ := M.do_eq_ok.1 h2
  cases h3
  exact ⟨i, hc⟩

theorem blockUses_createInst {BB : BlockId} {atFront : Bool} {op : Opcode} {ty : Ty}
    {operands : List Value} {blocks : List BlockId} {s s' : CGState} {i : InstId}
    (h : createInst BB atFront op ty operands blocks s = .ok i s') (b : BlockId)
    (hb : b ∉ blocks) : s'.blockUses b = s.blockUses b := by
  unfold createInst at h
  simp only [Res.ok.injEq] at h
  rw [← h.2]
  have hfold : ∀ (bs : List BlockId) (t : CGState), b ∉ bs →
      (bs.foldl (fun t c => t.addBlockUse c s.numInsts) t).blockUses b = t.blockUses b := by
    intro bs
    induction bs with
    | nil => intro t _; rfl
    | cons c cs ih =>
      intro t hc
      simp only [List.foldl_cons]
      rw [ih _ (fun h' => hc (List.mem_cons_of_mem _ h'))]
      have : b ≠ c := fun h' => hc (h' ▸ List.mem_cons_self _ _)
      simp [CGState.addBlockUse, this]
  rw [hfold blocks _ hb, (CGState.rewrites_addUses _ _ _ _).2.1]

theorem sealed_createInst {BB : BlockId} {atFront : Bool} {op : Opcode} {ty : Ty}
    {operands : List Value} {blocks : List BlockId} {s s' : CGState} {i : InstId}
    (h : createInst BB atFront op ty operands blocks s = .ok i s') (b : BlockId) :
    (s'.CurrentDef b).Sealed = (s.CurrentDef b).Sealed := by
  unfold createInst at h
  simp only [Res.ok.injEq] at h
  rw [← h.2]
  have hfold : ∀ (bs : List BlockId) (t : CGState),
      (bs.foldl (fun t c => t.addBlockUse c s.numInsts) t).CurrentDef = t.CurrentDef := by
    intro bs
    induction bs with
    | nil => intro t; rfl
    | cons c cs ih =>
      intro t
      simp only [List.foldl_cons]
      rw [ih _]
      rfl
  rw [hfold blocks _]
  exact ((CGState.rewrites_addUses _ _ _ _).2.2.2.2.2 b).2.1

/-- The invariant between two statements. -/
theorem CreateBr_spec {Dest : BlockId} {s s' : CGState} (hs : PhiInv none s ∧ Closed s)
    (hd : Event.seal Dest ∉ s.trace) (hlt : Dest < s.numBlocks)
    (h : CreateBr Dest s = .ok () s') : PhiInv none s' ∧ Closed s' := by
  obtain ⟨hp, hc1, hc2⟩ := hs
  unfold CreateBr at h
  obtain ⟨s0, s0', hg, h2⟩ := M.do_eq_ok.1 h
  rw [(M.get_ok hg).1, (M.get_ok hg).2] at h2
  obtain ⟨v, s1, hi, h3⟩ := M.do_eq_ok.1 h2
  cases h3
  obtain ⟨i, hci⟩ := Insert_ok hi
  have i1 := hp.createBranch s.Curr false .Br .void [] [Dest] (by decide)
    (fun d hd' => by rw [List.mem_singleton.1 hd']; exact hd) i s1 hci
  obtain ⟨_, s1', hI, k1, k2, _⟩ := Insert_control .Br .void [] [Dest] s
  rw [hi] at hI
  cases hI
  refine ⟨i1.appendTrace _, ?_, ?_⟩
  · intro b hb
    have hb' : Event.seal b ∈ s1.trace ++ [Event.edge s.Curr Dest] := hb
    rw [mem_append_edge, k1] at hb'
    exact (sealed_createInst hci b).trans (hc1 b hb')
  · intro b hb
    have hb' : s.numBlocks ≤ b := by
      have : s1.numBlocks ≤ b := hb
      rw [k2] at this
      exact this
    show s1.blockUses b = []
    rw [blockUses_createInst hci b (by
      intro hm
      rw [List.mem_singleton.1 hm] at hb'
      exact absurd hlt (Nat.not_lt.2 hb'))]
    exact hc2 b hb'

end tinylang

namespace tinylang

/-! ### Expressions and assignments keep the phi nodes as they should be -/

theorem Preserves.ret {I : CGState → Prop} {α : Type} (a : α) : Preserves I (pure a : M α) := by
  intro s hs b s' h
  cases h
  exact hs

theorem Preserves.raise {I : CGState → Prop} {α : Type} (e : Err) :
    Preserves I (M.throw e : M α) := by
  intro s _ b s' h
  cases h

theorem Preserves.read {I : CGState → Prop} : Preserves I M.get := by
  intro s hs b s' h
  cases h
  exact hs

theorem Preserves.update {I : CGState → Prop} (f : CGState → CGState)
    (h : ∀ s, I s → I (f s)) : Preserves I (M.modify f) := by
  intro s hs b s' h'
  cases h'
  exact h s hs

theorem Preserves.seq {I : CGState → Prop} {α β : Type} {x : M α} {f : α → M β}
    (hx : Preserves I x) (hf : ∀ a, Preserves I (f a)) : Preserves I (x >>= f) := by
  intro s hs b s' h
  obtain ⟨a, s1, h1, h2⟩ := M.do_eq_ok.1 h
  exact hf a s1 (hx s hs a s1 h1) b s' h2

theorem keepsPhis_mapType (D : Decl) : Preserves (PhiInv none) (mapType D) := by
  intro s hs Ty s' h
  rw [mapType_ok h]
  exact hs

theorem keepsPhis_writeLocalVariable (BB : BlockId) (D : Decl) (Val : Option Value) :
    Preserves (PhiInv none) (writeLocalVariable BB D Val) := by
  intro s hs u s' h
  obtain ⟨V, _, hs'⟩ := writeLocalVariable_ok h
  rw [hs']
  exact hs.rewrites (s.rewrites_setDef BB D V)

theorem keepsPhis_readLocalVariable (fuel : Nat) (BB : BlockId) (D : Decl) :
    Preserves (PhiInv none) (readLocalVariable fuel BB D) :=
  fun s hs v s' h => (readLocalVariable_spec fuel BB D none s v s' hs h).1

theorem keepsPhis_Insert (op : Opcode) (ty : Ty) (operands : List Value)
    (hop : op ≠ Opcode.PHI) : Preserves (PhiInv none) (Insert op ty operands []) := by
  intro s hs v s' h
  obtain ⟨i, hc⟩ := Insert_ok h
  exact hs.createInst _ _ _ _ _ hop i s' hc

theorem keepsPhis_CreateBinOp (E : Env) (op : Opcode) (L R : Value)
    (hop : op ≠ Opcode.PHI) : Preserves (PhiInv none) (CreateBinOp E op L R) := by
  unfold CreateBinOp
  repeat' first
    | exact Preserves.ret _
    | exact Preserves.read
    | exact keepsPhis_Insert _ _ _ hop
    | apply Preserves.seq
    | split
    | intro _

theorem keepsPhis_CreateLoad (Ty : Ty) (Ptr : Value) :
    Preserves (PhiInv none) (CreateLoad Ty Ptr) :=
  keepsPhis_Insert _ _ _ (by intro h; cases h)

theorem keepsPhis_CreateStore (Val Ptr : Value) :
    Preserves (PhiInv none) (CreateStore Val Ptr) :=
  keepsPhis_Insert _ _ _ (by intro h; cases h)

theorem keepsPhis_CreateInBoundsGEP (E : Env) (Ptr : Value) (IdxList : List Value) :
    Preserves (PhiInv none) (CreateInBoundsGEP E Ptr IdxList) := by
  unfold CreateInBoundsGEP
  repeat' first
    | exact Preserves.ret _
    | exact keepsPhis_Insert _ _ _ (by intro h; cases h)
    | split

theorem keepsPhis_readVariable (fuel : Nat) (BB : BlockId) (D : Decl) (LoadVal : Bool) :
    Preserves (PhiInv none) (readVariable fuel BB D LoadVal) := by
  unfold readVariable
  repeat' first
    | exact Preserves.raise _
    | exact Preserves.ret _
    | exact Preserves.read
    | exact keepsPhis_mapType _
    | exact keepsPhis_readLocalVariable _ _ _
    | exact keepsPhis_CreateLoad _ _
    | apply Preserves.seq
    | split
    | intro _

theorem keepsPhis_writeVariable (BB : BlockId) (D : Decl) (Val : Value) :
    Preserves (PhiInv none) (writeVariable BB D Val) := by
  unfold writeVariable
  repeat' first
    | exact Preserves.raise _
    | exact Preserves.ret _
    | exact Preserves.read
    | exact keepsPhis_writeLocalVariable _ _ _
    | exact keepsPhis_CreateStore _ _
    | apply Preserves.seq
    | split
    | intro _

theorem keepsPhis_takeIndexSelectors (ee : Expr → M Value)
    (hee : ∀ e, Preserves (PhiInv none) (ee e)) :
    ∀ l : List Selector, Preserves (PhiInv none) (takeIndexSelectors ee l) := by
  intro l
  induction l with
  | nil => unfold takeIndexSelectors; exact Preserves.ret _
  | cons sel rest ih =>
    cases sel with
    | IndexSelector Index =>
      unfold takeIndexSelectors
      exact Preserves.seq (hee _) (fun _ => Preserves.seq ih (fun _ => Preserves.ret _))
    | FieldSelector Index => unfold takeIndexSelectors; exact Preserves.ret _
    | DereferenceSelector => unfold takeIndexSelectors; exact Preserves.ret _

theorem keepsPhis_emitSelectors (E : Env) (ee : Expr → M Value)
    (hee : ∀ e, Preserves (PhiInv none) (ee e)) :
    ∀ (n : Nat) (Val : Value) (l : List Selector), Preserves (PhiInv none) (emitSelectors E ee n Val l) := by
  intro n
  induction n with
  | zero =>
    intro Val l
    cases l with
    | nil => unfold emitSelectors; exact Preserves.ret _
    | cons sel rest => unfold emitSelectors; exact Preserves.raise _
  | succ n ih =>
    intro Val l
    cases l with
    | nil => unfold emitSelectors; exact Preserves.ret _
    | cons sel rest =>
      cases sel <;> unfold emitSelectors <;>
      repeat' first
        | exact Preserves.ret _
        | exact Preserves.read
        | exact ih _ _
        | exact keepsPhis_takeIndexSelectors ee hee _
        | exact keepsPhis_CreateInBoundsGEP _ _ _
        | exact keepsPhis_CreateLoad _ _
        | apply Preserves.seq
        | split
        | intro _

theorem keepsPhis_emitInfixOp (E : Env) (Op : OpKind) (Left Right : Value) :
    Preserves (PhiInv none) (emitInfixOp E Op Left Right) := by
  unfold emitInfixOp
  repeat' first
    | exact Preserves.raise _
    | exact keepsPhis_CreateBinOp _ _ _ _ (by intro h; cases h)
    | split

theorem keepsPhis_emitPrefixOp (E : Env) (Op : OpKind) (Result : Value) :
    Preserves (PhiInv none) (emitPrefixOp E Op Result) := by
  unfold emitPrefixOp
  repeat' first
    | exact Preserves.raise _
    | exact Preserves.ret _
    | exact Preserves.read
    | exact keepsPhis_CreateBinOp _ _ _ _ (by intro h; cases h)
    | apply Preserves.seq
    | split
    | intro _

theorem keepsPhis_emitExpr (E : Env) (fuel : Nat) : ∀ e : Expr,
    Preserves (PhiInv none) (emitExpr E fuel e) := by
  induction fuel with
  | zero => intro e; exact Preserves.raise _
  | succ fuel ih =>
    intro e
    unfold emitExpr
    repeat' first
      | exact Preserves.raise _
      | exact Preserves.ret _
      | exact Preserves.read
      | exact ih _
      | exact keepsPhis_emitInfixOp _ _ _ _
      | exact keepsPhis_emitPrefixOp _ _ _
      | exact keepsPhis_readVariable _ _ _ _
      | exact keepsPhis_emitSelectors E _ ih _ _ _
      | apply Preserves.seq
      | split
      | intro _

theorem keepsPhis_assignmentIndexes (ee : Expr → M Value)
    (hee : ∀ e, Preserves (PhiInv none) (ee e)) :
    ∀ l : List Selector, Preserves (PhiInv none) (assignmentIndexes ee l) := by
  intro l
  induction l with
  | nil => unfold assignmentIndexes; exact Preserves.ret _
  | cons sel rest ih =>
    cases sel <;> unfold assignmentIndexes <;>
    repeat' first
      | exact Preserves.raise _
      | exact Preserves.ret _
      | exact hee _
      | exact ih
      | apply Preserves.seq
      | intro _

theorem keepsPhis_emitAssignmentStatement (E : Env) (fuel : Nat) (D : Decl)
    (Selectors : List Selector) (X : Expr) :
    Preserves (PhiInv none) (emitAssignmentStatement E fuel D Selectors X) := by
  unfold emitAssignmentStatement
  repeat' first
    | exact Preserves.raise _
    | exact Preserves.ret _
    | exact Preserves.read
    | exact keepsPhis_emitExpr _ _ _
    | exact keepsPhis_writeVariable _ _ _
    | exact keepsPhis_readVariable _ _ _ _
    | exact keepsPhis_assignmentIndexes _ (keepsPhis_emitExpr _ _) _
    | exact keepsPhis_CreateInBoundsGEP _ _ _
    | exact keepsPhis_CreateStore _ _
    | apply Preserves.seq
    | split
    | intro _

theorem keepsPhis_emitReturnStatement (E : Env) (fuel : Nat) (RetVal : Option Expr) :
    Preserves (PhiInv none) (emitReturnStatement E fuel RetVal) := by
  unfold emitReturnStatement
  repeat' first
    | exact Preserves.ret _
    | exact keepsPhis_emitExpr _ _ _
    | exact keepsPhis_Insert _ _ _ (by intro h; cases h)
    | apply Preserves.seq
    | split
    | intro _


end tinylang

namespace tinylang

/-! ### The phi nodes of a completed run -/

theorem keepsPhis_createFunctionType : ∀ FormalParams : List Decl,
    Preserves (PhiInv none) (createFunctionType FormalParams) := by
  intro FormalParams
  induction FormalParams with
  | nil => exact Preserves.ret _
  | cons FP rest ih =>
    unfold createFunctionType
    exact Preserves.seq (keepsPhis_mapType FP) fun _ =>
      Preserves.seq ih fun _ => Preserves.ret _

theorem keepsPhis_runFormalParams : ∀ (FormalParams : List Decl) (Idx : Nat),
    Preserves (PhiInv none) (runFormalParams FormalParams Idx) := by
  intro FormalParams
  induction FormalParams with
  | nil => intro Idx; exact Preserves.ret _
  | cons FP rest ih =>
    intro Idx
    unfold runFormalParams
    refine Preserves.seq (Preserves.update _ ?_) fun _ =>
      Preserves.seq Preserves.read fun _ =>
        Preserves.seq (keepsPhis_writeLocalVariable _ _ _) fun _ => ih _
    intro s hs
    exact ⟨hs.fresh, hs.len, hs.blocks, hs.pending, hs.nodup, hs.users, hs.sealed⟩

theorem keepsPhis_runDecls : ∀ Decls : List Decl,
    Preserves (PhiInv none) (runDecls Decls) := by
  intro Decls
  induction Decls with
  | nil => exact Preserves.ret _
  | cons D rest ih =>
    unfold runDecls
    show Preserves (PhiInv none) (match D.kind with
      | DeclKind.Var _ => _
      | _ => _)
    split
    · refine Preserves.seq (keepsPhis_mapType D) fun _ => ?_
      split
      · exact Preserves.seq (keepsPhis_Insert _ _ _ (by intro h; cases h)) fun _ =>
          Preserves.seq Preserves.read fun _ =>
            Preserves.seq (keepsPhis_writeLocalVariable _ _ _) fun _ => ih
      · exact Preserves.seq (Preserves.ret _) fun _ => ih
    · exact Preserves.seq (Preserves.ret _) fun _ => ih

theorem Closed.sameControl {s s' : CGState} (hc : Closed s) (h : SameControl s s') :
    Closed s' := by
  obtain ⟨h1, h2, _, h4, h5⟩ := h
  refine ⟨?_, ?_⟩
  · intro b hb
    rw [h1] at hb
    rw [h5 b]
    exact hc.1 b hb
  · intro b hb
    rw [h2] at hb
    rw [h4]
    exact hc.2 b hb

/-- Steps that leave the control flow as it is keep the invariant between
two statements, if they keep the phi nodes. -/
theorem Preserves.closed {α : Type} {m : M α} (hk : KeepsControl m)
    (hm : Preserves (PhiInv none) m) : Preserves (fun s => PhiInv none s ∧ Closed s) m := by
  intro s hs a s' h
  have hk' := hk s
  rw [h] at hk'
  exact ⟨hm s hs.1 a s' h, hs.2.sameControl hk'⟩

theorem CreateCondBr_spec {C : Value} {T F : BlockId} {s s' : CGState}
    (hs : PhiInv none s ∧ Closed s) (hT : Event.seal T ∉ s.trace)
    (hF : Event.seal F ∉ s.trace) (hTlt : T < s.numBlocks) (hFlt : F < s.numBlocks)
    (h : CreateCondBr C T F s = .ok () s') : PhiInv none s' ∧ Closed s' := by
  obtain ⟨hp, hc1, hc2⟩ := hs
  unfold CreateCondBr at h
  obtain ⟨s0, s0', hg, h2⟩ := M.do_eq_ok.1 h
  rw [(M.get_ok hg).1, (M.get_ok hg).2] at h2
  obtain ⟨v, s1, hi, h3⟩ := M.do_eq_ok.1 h2
  cases h3
  obtain ⟨i, hci⟩ := Insert_ok hi
  have i1 := hp.createBranch s.Curr false .Br .void [C] [F, T] (by decide)
    (fun d hd' => by
      rcases List.mem_cons.1 hd' with h' | h'
      · rw [h']
        exact hF
      · rw [List.mem_singleton.1 h']
        exact hT) i s1 hci
  obtain ⟨_, s1', hI, k1, k2, _⟩ := Insert_control .Br .void [C] [F, T] s
  rw [hi] at hI
  cases hI
  refine ⟨i1.appendTrace _, ?_, ?_⟩
  · intro b hb
    have hb' : Event.seal b ∈ s1.trace ++ [Event.edge s.Curr T, Event.edge s.Curr F] := hb
    rw [mem_append_edges, k1] at hb'
    exact (sealed_createInst hci b).trans (hc1 b hb')
  · intro b hb
    have hb' : s.numBlocks ≤ b := by
      have : s1.numBlocks ≤ b := hb
      rw [k2] at this
      exact this
    show s1.blockUses b = []
    rw [blockUses_createInst hci b (by
      intro hm
      rcases List.mem_cons.1 hm with h' | h'
      · rw [h'] at hb'
        exact absurd hFlt (Nat.not_lt.2 hb')
      · rw [List.mem_singleton.1 h'] at hb'
        exact absurd hTlt (Nat.not_lt.2 hb'))]
    exact hc2 b hb'

/-- The steps of `run` keep the invariant between two statements. -/
theorem stepsKeep_phis (E : Env) : StepsKeep E (fun s => PhiInv none s ∧ Closed s) where
  newBlock := fun s hs =>
    ⟨⟨hs.1.fresh, hs.1.len, hs.1.blocks, hs.1.pending, hs.1.nodup, hs.1.users, hs.1.sealed⟩,
      hs.2.1, fun b hb => hs.2.2 b (Nat.le_of_succ_le hb)⟩
  setCurr := fun s _ hs =>
    ⟨⟨hs.1.fresh, hs.1.len, hs.1.blocks, hs.1.pending, hs.1.nodup, hs.1.users, hs.1.sealed⟩,
      hs.2.1, hs.2.2⟩
  br := fun _ _ _ hs hd hlt h => CreateBr_spec hs hd hlt h
  condBr := fun _ _ _ _ _ hs hT hF hTlt hFlt h => CreateCondBr_spec hs hT hF hTlt hFlt h
  sealBlock := fun fuel BB s hs _ s' h => by
    obtain ⟨i1, c1, c2, c3⟩ := sealBlock_spec E fuel BB hs.1 hs.2.1 h
    refine ⟨i1, c1, ?_⟩
    intro b hb
    rw [c3] at hb
    rw [c2]
    exact hs.2.2 b hb
  expr := fun fuel e => Preserves.closed (keepsControl_emitExpr E fuel e) (keepsPhis_emitExpr E fuel e)
  assign := fun fuel D Sel X =>
    Preserves.closed (keepsControl_emitAssignmentStatement E fuel D Sel X)
      (keepsPhis_emitAssignmentStatement E fuel D Sel X)
  ret := fun fuel R =>
    Preserves.closed (keepsControl_emitReturnStatement E fuel R)
      (keepsPhis_emitReturnStatement E fuel R)
  insertRet :=
    Preserves.closed (keepsControl_Insert _ _ _) (keepsPhis_Insert _ _ _ (by intro h; cases h))
  fnType := fun l => Preserves.closed (keepsControl_createFunctionType l)
    (keepsPhis_createFunctionType l)
  argTys := fun s _ hs =>
    ⟨⟨hs.1.fresh, hs.1.len, hs.1.blocks, hs.1.pending, hs.1.nodup, hs.1.users, hs.1.sealed⟩,
      hs.2.1, hs.2.2⟩
  params := fun l k => Preserves.closed (keepsControl_runFormalParams l k)
    (keepsPhis_runFormalParams l k)
  decls := fun l => Preserves.closed (keepsControl_runDecls l) (keepsPhis_runDecls l)

theorem phiInv_init : PhiInv none CGState.init ∧ Closed CGState.init := by
  refine ⟨⟨fun _ _ => rfl, ?_, ?_, ?_, ?_, ?_, ?_⟩, ?_, fun _ _ => rfl⟩
  · intro i x hx
    cases hx
  · intro i x hx
    cases hx
  · intro b i d hm
    cases hm
  · intro b
    exact List.nodup_nil
  · intro b j hj
    cases hj
  · intro b hb
    cases hb
  · intro b hb
    cases hb

/-- C5: when `CGProcedure::run` completes, every phi node that is left has
the predecessors of its block as its incoming blocks, one incoming pair for
each predecessor edge, in the order of the edges, and none for another
block; and it has as many incoming values as incoming blocks. -/
theorem run_phis_match_predecessors (E : Env) (fuel : Nat) (Proc : ProcedureDeclaration)
    (h : (run E fuel Proc).error? = none) (i : InstId) (x : Instruction)
    (hx : (run E fuel Proc).state.insts i = some x) (hop : x.op = Opcode.PHI) :
    x.blocks = (run E fuel Proc).state.predecessors x.parent ∧
      x.operands.length = x.blocks.length := by
  have hr := run_okOrSafe E (stepsKeep_phis E) phiInv_init fuel Proc
  cases hrun : run E fuel Proc with
  | fail e s =>
    rw [hrun] at h
    cases h
  | ok u s =>
    rw [hrun] at hr hx
    obtain ⟨⟨hp, hc1, hc2⟩, _, hall⟩ := hr
    have hx' : s.insts i = some x := hx
    refine ⟨?_, hp.len i x hx' hop⟩
    show x.blocks = s.predecessors x.parent
    rcases hp.blocks i x hx' hop (by simp) with ⟨_, h2⟩ | ⟨h1, d, h2⟩
    · exact h2
    · by_cases hlt : x.parent < s.numBlocks
      · rw [(hp.sealed _ (hc1 _ (hall _ hlt))).2] at h2
        cases h2
      · rw [h1, CGState.predecessors_eq_filterMap, hc2 _ (Nat.le_of_not_lt hlt)]
        rfl

set_option maxRecDepth 100000 in
/-- The phi of `i := a + b; WHILE i < 10 DO i := i + 1 END` has the two
predecessors of the condition block, the body and the entry block, as its
incoming blocks. -/
theorem run_phis_match_predecessors_witness :
    (run llvmEnv 20 Example.whileComputedInit).error? = none ∧
    (run llvmEnv 20 Example.whileComputedInit).state.insts 2 =
      some { op := .PHI, ty := .int 64, operands := [.inst 6, .inst 0], blocks := [1, 0],
             parent := 3, uses := [(6, 0), (3, 0)] } ∧
    ([1, 0] = (run llvmEnv 20 Example.whileComputedInit).state.predecessors 3 ∧ 2 = 2) :=
  ⟨by decide!, by decide!,
    run_phis_match_predecessors llvmEnv 20 Example.whileComputedInit (by decide!) 2
      { op := .PHI, ty := .int 64, operands := [.inst 6, .inst 0], blocks := [1, 0],
        parent := 3, uses := [(6, 0), (3, 0)] } (by decide!) rfl⟩

end tinylang

namespace tinylang

/-! ## The lexer at a character that starts no token, and at an open string -/

theorem Lexer.drop_at_cursor (pre rest : List Char) :
    (pre ++ rest).drop pre.length = rest := by
  simp

theorem Lexer.charAt_cursor (pre post : List Char) (c : Char) (D : DiagnosticsEngine) (n : Nat)
    (hn : n = pre.length) :
    Lexer.charAt { CurBuf := pre ++ c :: post, CurPtr := n, Diags := D } n = c := by
  subst hn
  simp only [Lexer.charAt, List.getD_eq_getElem?_getD]
  rw [List.getElem?_append_right (Nat.le_refl _)]
  simp

theorem Lexer.span_stop (p : Char → Bool) (c : Char) (rest : List Char) (h : p c = false) :
    Lexer.span p (c :: rest) = 0 := by
  simp [Lexer.span, List.takeWhile, h]

theorem Lexer.span_all (p : Char → Bool) (l : List Char) (h : ∀ c ∈ l, p c = true) :
    Lexer.span p l = l.length := by
  unfold Lexer.span
  rw [List.takeWhile_eq_self_iff.2 h]

/-- At a character that is no whitespace, starts no identifier, number or
string and is none of the punctuators, `Lexer::next` takes the default case
of the switch. -/
theorem Lexer.next_default (pre post : List Char) (c : Char) (D : DiagnosticsEngine)
    (Result : Token) (h0 : c ≠ Char.ofNat 0) (hw : charinfo.isWhitespace c = false)
    (hi : charinfo.isIdentifierHead c = false) (hd : charinfo.isDigit c = false)
    (hp : c ∉ ['"', '\'', '=', '#', '+', '-', '*', '/', ',', '.', ';', ')', '(', ':', '<', '>']) :
    Lexer.next { CurBuf := pre ++ c :: post, CurPtr := pre.length, Diags := D } Result =
      some ({ CurBuf := pre ++ c :: post, CurPtr := pre.length, Diags := D },
        { Result with Kind := .unknown }) := by
  simp only [List.mem_cons, List.mem_singleton, not_or, List.not_mem_nil, not_false_eq_true,
    and_true] at hp
  obtain ⟨p1, p2, p3, p4, p5, p6, p7, p8, p9, p10, p11, p12, p13, p14, p15, p16⟩ := hp
  have hs : Lexer.span (fun c => c != Char.ofNat 0 && charinfo.isWhitespace c) (c :: post) = 0 :=
    Lexer.span_stop _ _ _ (by simp [hw])
  unfold Lexer.next Lexer.nextFuel
  simp only [Lexer.drop_at_cursor, hs, Nat.add_zero]
  simp only [Lexer.charAt_cursor pre post c D pre.length rfl]
  simp [h0, hi, hd, p1, p2, p3, p4, p5, p6, p7, p8, p9, p10, p11, p12, p13, p14, p15, p16]

/-- C19 (fails on the code): at a character that starts no token (`@`, and
also `[`, `]` and `^`) `Lexer::next` only sets the kind of the token to
`unknown`.  It forms no token: the start and the length in `Result` are
those of the token before, and the cursor stays at the character, so that
the next call returns the same again and lexing never continues behind the
character. -/
theorem next_unknown_character_keeps_cursor (pre post : List Char) (c : Char)
    (D : DiagnosticsEngine) (Result : Token)
    (hc : c ∈ ['@', '[', ']', '^', '!', '?', '&', '|', '~', '$', '%', '{', '}']) :
    Lexer.next { CurBuf := pre ++ c :: post, CurPtr := pre.length, Diags := D } Result =
      some ({ CurBuf := pre ++ c :: post, CurPtr := pre.length, Diags := D },
        { Ptr := Result.Ptr, Length := Result.Length, Kind := .unknown }) ∧
    Lexer.next { CurBuf := pre ++ c :: post, CurPtr := pre.length, Diags := D }
        { Ptr := Result.Ptr, Length := Result.Length, Kind := .unknown } =
      some ({ CurBuf := pre ++ c :: post, CurPtr := pre.length, Diags := D },
        { Ptr := Result.Ptr, Length := Result.Length, Kind := .unknown }) := by
  have key : ∀ R : Token,
      Lexer.next { CurBuf := pre ++ c :: post, CurPtr := pre.length, Diags := D } R =
        some ({ CurBuf := pre ++ c :: post, CurPtr := pre.length, Diags := D },
          { R with Kind := .unknown }) := by
    intro R
    simp only [List.mem_cons, List.mem_singleton, List.not_mem_nil, or_false] at hc
    rcases hc with h | h | h | h | h | h | h | h | h | h | h | h | h <;> subst h <;>
      exact Lexer.next_default pre post _ D R (by decide) (by decide) (by decide) (by decide)
        (by decide)
  exact ⟨key Result, key _⟩

/-- Witness for C19: the buffer `a @ b` after the identifier `a` has been
lexed (cursor at offset 2, token `a` at offset 0 with length 1); the
character `@` is at offset 2. -/
theorem next_unknown_character_keeps_cursor_witness :
    '@' ∈ ['@', '[', ']', '^', '!', '?', '&', '|', '~', '$', '%', '{', '}'] ∧
    Lexer.next (Lexer.mk (['a', ' '] ++ '@' :: [' ', 'b']) 2 (DiagnosticsEngine.mk 0 []))
        (Token.mk 0 1 .identifier) =
      some (Lexer.mk (['a', ' '] ++ '@' :: [' ', 'b']) 2 (DiagnosticsEngine.mk 0 []),
        Token.mk 0 1 .unknown) ∧
    Lexer.next (Lexer.mk (['a', ' '] ++ '@' :: [' ', 'b']) 2 (DiagnosticsEngine.mk 0 []))
        (Token.mk 0 1 .unknown) =
      some (Lexer.mk (['a', ' '] ++ '@' :: [' ', 'b']) 2 (DiagnosticsEngine.mk 0 []),
        Token.mk 0 1 .unknown) :=
  ⟨by decide,
    next_unknown_character_keeps_cursor ['a', ' '] [' ', 'b'] '@' (DiagnosticsEngine.mk 0 [])
      (Token.mk 0 1 .identifier) (by decide)⟩

/-- C20 (fails on the code): a string literal that is still open at the end
of the input is not reported.  `Lexer::string` stops at the terminating NUL,
tests only `isVerticalWhitespace(*End)`, reports nothing and forms a
`string_literal` token that reaches one character behind the NUL. -/
theorem string_open_at_end_of_input_not_reported (pre body : List Char) (q : Char)
    (D : DiagnosticsEngine) (Result : Token) (hq : q = '"' ∨ q = '\'')
    (hbody : ∀ c ∈ body, c ≠ q ∧ c ≠ Char.ofNat 0 ∧ charinfo.isVerticalWhitespace c = false) :
    Lexer.next { CurBuf := pre ++ q :: body, CurPtr := pre.length, Diags := D } Result =
      some ({ CurBuf := pre ++ q :: body, CurPtr := pre.length + 1 + body.length + 1,
              Diags := D },
        { Ptr := pre.length, Length := body.length + 2, Kind := .string_literal }) := by
  have hs : Lexer.span (fun c => c != Char.ofNat 0 && charinfo.isWhitespace c) (q :: body) = 0 :=
    Lexer.span_stop _ _ _ (by rcases hq with h | h <;> subst h <;> decide)
  have hb : Lexer.span
      (fun c => c != Char.ofNat 0 && c != q && !charinfo.isVerticalWhitespace c) body
        = body.length :=
    Lexer.span_all _ _ (fun c hc => by
      obtain ⟨h1, h2, h3⟩ := hbody c hc
      simp [h1, h2, h3])
  have hdrop : (pre ++ q :: body).drop (pre.length + 1) = body := by
    rw [← List.drop_drop]
    simp
  have hend : Lexer.charAt { CurBuf := pre ++ q :: body, CurPtr := pre.length, Diags := D }
      (pre.length + 1 + body.length) = Char.ofNat 0 := by
    simp only [Lexer.charAt]
    rw [List.getD_eq_default]
    simp
    omega
  have h0 : q ≠ Char.ofNat 0 := by rcases hq with h | h <;> subst h <;> decide
  have hi : charinfo.isIdentifierHead q = false := by rcases hq with h | h <;> subst h <;> decide
  have hd : charinfo.isDigit q = false := by rcases hq with h | h <;> subst h <;> decide
  unfold Lexer.next Lexer.nextFuel
  simp only [Lexer.drop_at_cursor, hs, Nat.add_zero]
  simp only [Lexer.charAt_cursor pre body q D pre.length rfl]
  have hstr : Lexer.string { CurBuf := pre ++ q :: body, CurPtr := pre.length, Diags := D } =
      ({ CurBuf := pre ++ q :: body, CurPtr := pre.length + 1 + body.length + 1, Diags := D },
        { Ptr := pre.length, Length := body.length + 2, Kind := .string_literal }) := by
    unfold Lexer.string
    simp only [Lexer.charAt_cursor pre body q D pre.length rfl, hdrop, hb, hend]
    simp [Lexer.formToken, charinfo.isVerticalWhitespace]
    omega
  simp [h0, hi, hd, hq, hstr]

/-- Witness for C20: the buffer `x := "abc`, with the cursor at the quote. -/
theorem string_open_at_end_of_input_not_reported_witness :
    ('"' = '"' ∨ '"' = '\'') ∧
    (∀ c ∈ ['a', 'b', 'c'],
      c ≠ '"' ∧ c ≠ Char.ofNat 0 ∧ charinfo.isVerticalWhitespace c = false) ∧
    Lexer.next
        (Lexer.mk (['x', ' ', ':', '=', ' '] ++ '"' :: ['a', 'b', 'c']) 5
          (DiagnosticsEngine.mk 0 []))
        (Token.mk 2 2 .colonequal) =
      some (Lexer.mk (['x', ' ', ':', '=', ' '] ++ '"' :: ['a', 'b', 'c']) 10
          (DiagnosticsEngine.mk 0 []),
        Token.mk 5 5 .string_literal) :=
  ⟨by decide, by decide,
    string_open_at_end_of_input_not_reported ['x', ' ', ':', '=', ' '] ['a', 'b', 'c'] '"'
      (DiagnosticsEngine.mk 0 []) (Token.mk 2 2 .colonequal) (by decide) (by decide)⟩

end tinylang

namespace tinylang

/-! ## Writing and reading the definition of a variable in one block -/

theorem writeLocalVariable_some (BB : BlockId) (D : Decl) (V : Value) (s : CGState)
    (hD : D.isVarOrParam = true) :
    writeLocalVariable BB D (some V) s = .ok () (s.setDef BB D V) := by
  simp [writeLocalVariable, hD]

theorem readLocalVariable_defined (fuel : Nat) (BB : BlockId) (D : Decl) (V : Value)
    (s : CGState) (hD : D.isVarOrParam = true) (hV : (s.CurrentDef BB).Defs D = some V) :
    readLocalVariable (fuel + 1) BB D s = .ok V s := by
  unfold readLocalVariable
  simp [hD, hV, M.bind]

/-- C11: after `writeLocalVariable(BB, D, V)` and `writeLocalVariable(BB, D,
V')`, `readLocalVariable(BB, D)` returns `V'`, whether `BB` is sealed or
not; no instruction (so no phi) has been created or changed, the incomplete
phis and the sealed flags are as before, and the definition recorded for
every other pair of a block and a declaration is unchanged. -/
theorem write_write_read (fuel : Nat) (BB : BlockId) (D : Decl) (V V' : Value) (s : CGState)
    (hD : D.isVarOrParam = true) :
    ∃ s', (do writeLocalVariable BB D (some V)
              writeLocalVariable BB D (some V')
              readLocalVariable (fuel + 1) BB D) s = .ok V' s' ∧
      s'.insts = s.insts ∧ s'.numInsts = s.numInsts ∧ s'.blockInsts = s.blockInsts ∧
      (s'.CurrentDef BB).Defs D = some V' ∧
      (∀ b d, b ≠ BB ∨ d ≠ D → (s'.CurrentDef b).Defs d = (s.CurrentDef b).Defs d) ∧
      (∀ b, (s'.CurrentDef b).IncompletePhis = (s.CurrentDef b).IncompletePhis ∧
        (s'.CurrentDef b).Sealed = (s.CurrentDef b).Sealed) := by
  have hdef : (((s.setDef BB D V).setDef BB D V').CurrentDef BB).Defs D = some V' := by
    simp [CGState.setDef, CGState.updDef]
  refine ⟨(s.setDef BB D V).setDef BB D V', ?_, rfl, rfl, rfl, hdef, ?_, ?_⟩
  · simp only [M.bind_apply]
    rw [M.bind_ok (writeLocalVariable_some BB D V s hD)]
    simp only [M.bind_apply]
    rw [M.bind_ok (writeLocalVariable_some BB D V' _ hD)]
    exact readLocalVariable_defined fuel BB D V' _ hD hdef
  · intro b d h
    by_cases hb : b = BB
    · subst hb
      have hd : d ≠ D := by
        rcases h with h | h
        · exact absurd rfl h
        · exact h
      simp [CGState.setDef, CGState.updDef, hd]
    · simp [CGState.setDef, CGState.updDef, hb]
  · intro b
    by_cases hb : b = BB
    · subst hb
      simp [CGState.setDef, CGState.updDef]
    · simp [CGState.setDef, CGState.updDef, hb]

/-- Witness for C11: in the state of a fresh `CGProcedure`, block 0 and the
variable `x`, written with the constants 1 and 2. -/
theorem write_write_read_witness :
    Example.x.isVarOrParam = true ∧
    ∃ s', (do writeLocalVariable 0 Example.x (some (.constInt 64 1))
              writeLocalVariable 0 Example.x (some (.constInt 64 2))
              readLocalVariable (0 + 1) 0 Example.x) CGState.init = .ok (.constInt 64 2) s' ∧
      s'.insts = CGState.init.insts ∧ s'.numInsts = CGState.init.numInsts ∧
      s'.blockInsts = CGState.init.blockInsts ∧
      (s'.CurrentDef 0).Defs Example.x = some (.constInt 64 2) ∧
      (∀ b d, b ≠ 0 ∨ d ≠ Example.x →
        (s'.CurrentDef b).Defs d = (CGState.init.CurrentDef b).Defs d) ∧
      (∀ b, (s'.CurrentDef b).IncompletePhis = (CGState.init.CurrentDef b).IncompletePhis ∧
        (s'.CurrentDef b).Sealed = (CGState.init.CurrentDef b).Sealed) :=
  ⟨rfl, write_write_read 0 0 Example.x (.constInt 64 1) (.constInt 64 2) CGState.init rfl⟩

/-! ## Reading a variable that an unsealed block does not define -/

theorem mapType_typed (D : Decl) (Ty : Ty) (s : CGState) (hD : D.isVarOrParam = true)
    (hTy : D.ty = some Ty) :
    mapType D s = .ok (if D.kind = DeclKind.Param true then .ptr else Ty) s := by
  unfold mapType
  cases hk : D.kind with
  | Var sc => simp [hTy]
  | Param v => cases v <;> simp [hTy]
  | Other => simp [Decl.isVarOrParam, hk] at hD

theorem readLocalVariableRecursiveWith_unsealed (rd : BlockId → Decl → M Value) (BB : BlockId)
    (D : Decl) (ty : Ty) (s : CGState) (hD : D.isVarOrParam = true)
    (hmap : mapType D s = .ok ty s) (hU : (s.CurrentDef BB).Sealed = false) :
    readLocalVariableRecursiveWith rd BB D s =
      .ok (.inst s.numInsts) (s.withEmptyPhi BB D ty) := by
  have hphi : ∃ s1, addEmptyPhi BB D s = .ok s.numInsts s1 ∧
      createInst BB true .PHI ty [] [] s = .ok s.numInsts s1 := by
    refine ⟨_, ?_, rfl⟩
    simp only [addEmptyPhi, M.bind_apply]
    rw [M.bind_ok hmap]
    rfl
  obtain ⟨s1, hphi, hc⟩ := hphi
  unfold readLocalVariableRecursiveWith
  simp only [M.bind_apply, M.bind_get, hU, Bool.not_false, if_true]
  simp only [M.bind, hphi, M.modify_apply, M.pure_apply, bind, pure]
  rw [writeLocalVariable_some _ _ _ _ hD]
  simp only [M.pure_apply]
  unfold createInst at hc
  cases hc
  simp only [CGState.withEmptyPhi, CGState.setDef, CGState.updDef, CGState.addUses,
    List.foldl_nil]
  congr 1
  congr 1
  funext b
  by_cases hb : b = BB
  · simp [hb]
  · simp [hb]

/-- C12: in a state in which block `BB` is unsealed and has no definition of
the variable or parameter `D` (whose type `convertType` maps),
`readLocalVariable(BB, D)` returns a new phi: exactly one instruction is
created, a phi without incoming values that is the first instruction of
`BB`; `(phi, D)` is appended to the incomplete phis of `BB`, and the phi is
the definition of `D` in `BB`; nothing else changes.  A second
`readLocalVariable(BB, D)` returns the same phi and leaves the state as it
is. -/
theorem readLocalVariable_unsealed_creates_phi (fuel : Nat) (BB : BlockId) (D : Decl) (Ty : Ty)
    (s : CGState) (hD : D.isVarOrParam = true) (hTy : D.ty = some Ty)
    (hU : (s.CurrentDef BB).Sealed = false) (hN : (s.CurrentDef BB).Defs D = none) :
    ∃ s', readLocalVariable (fuel + 1) BB D s = .ok (.inst s.numInsts) s' ∧
      readLocalVariable (fuel + 1) BB D s' = .ok (.inst s.numInsts) s' ∧
      s'.numInsts = s.numInsts + 1 ∧
      s'.insts s.numInsts = some
        { op := .PHI, ty := if D.kind = DeclKind.Param true then .ptr else Ty,
          operands := [], blocks := [], parent := BB, uses := [] } ∧
      (∀ j, j ≠ s.numInsts → s'.insts j = s.insts j) ∧
      s'.blockInsts BB = s.numInsts :: s.blockInsts BB ∧
      (∀ b, b ≠ BB → s'.blockInsts b = s.blockInsts b ∧ s'.CurrentDef b = s.CurrentDef b) ∧
      (s'.CurrentDef BB).IncompletePhis = (s.CurrentDef BB).IncompletePhis ++ [(s.numInsts, D)] ∧
      (s'.CurrentDef BB).Defs D = some (.inst s.numInsts) ∧
      (∀ d, d ≠ D → (s'.CurrentDef BB).Defs d = (s.CurrentDef BB).Defs d) ∧
      (s'.CurrentDef BB).Sealed = false ∧
      s'.blockUses = s.blockUses ∧ s'.numBlocks = s.numBlocks ∧ s'.Curr = s.Curr ∧
      s'.trace = s.trace := by
  have hmap := mapType_typed D Ty s hD hTy
  have hdef : ((s.withEmptyPhi BB D
      (if D.kind = DeclKind.Param true then .ptr else Ty)).CurrentDef BB).Defs D =
        some (.inst s.numInsts) := by
    simp [CGState.withEmptyPhi]
  refine ⟨s.withEmptyPhi BB D (if D.kind = DeclKind.Param true then .ptr else Ty),
    ?_, ?_, rfl, ?_, ?_, ?_, ?_, ?_, hdef, ?_, ?_, rfl, rfl, rfl, rfl⟩
  · unfold readLocalVariable
    simp only [hD, Bool.not_true, M.bind_apply]
    simp only [if_false, Bool.false_eq_true]
    show M.bind (pure PUnit.unit) _ s = _
    rw [M.bind_pure_left]
    show M.bind M.get _ s = _
    rw [M.bind_get]
    simp only [hN]
    exact readLocalVariableRecursiveWith_unsealed _ BB D _ s hD hmap hU
  · exact readLocalVariable_defined fuel BB D _ _ hD hdef
  · simp [CGState.withEmptyPhi]
  · intro j hj
    simp [CGState.withEmptyPhi, hj]
  · simp [CGState.withEmptyPhi]
  · intro b hb
    simp [CGState.withEmptyPhi, hb]
  · simp [CGState.withEmptyPhi]
  · intro d hd
    simp [CGState.withEmptyPhi, hd]
  · simp [CGState.withEmptyPhi, hU]

/-- Witness for C12: the variable `x` in block 0 of a fresh `CGProcedure`. -/
theorem readLocalVariable_unsealed_creates_phi_witness :
    Example.x.isVarOrParam = true ∧ Example.x.ty = some (.int 64) ∧
    (CGState.init.CurrentDef 0).Sealed = false ∧
    (CGState.init.CurrentDef 0).Defs Example.x = none ∧
    ∃ s', readLocalVariable (0 + 1) 0 Example.x CGState.init = .ok (.inst 0) s' ∧
      readLocalVariable (0 + 1) 0 Example.x s' = .ok (.inst 0) s' ∧
      s'.numInsts = 0 + 1 ∧
      s'.insts 0 = some
        { op := .PHI, ty := .int 64, operands := [], blocks := [], parent := 0, uses := [] } ∧
      s'.blockInsts 0 = [0] ∧
      (s'.CurrentDef 0).IncompletePhis = [(0, Example.x)] ∧
      (s'.CurrentDef 0).Defs Example.x = some (.inst 0) := by
  refine ⟨rfl, rfl, rfl, rfl, ?_⟩
  obtain ⟨s', h1, h2, h3, h4, _, h6, _, h8, h9, _⟩ :=
    readLocalVariable_unsealed_creates_phi 0 0 Example.x (.int 64) CGState.init rfl rfl rfl rfl
  exact ⟨s', h1, h2, h3, h4, h6, h8, h9⟩

end tinylang

namespace tinylang

open Parser

/-! ## The productions of the parser -/

theorem Parser.next_eq {β : Type} {P P' : Parser} {Rest : Parser → Option (Bool × Parser × β)}
    (h : P.advance = some P') : Parser.next P Rest = Rest P' := by
  simp [Parser.next, h]

theorem Parser.expect_eq {P : Parser} {K : TokenKind} (h : P.Tok.Kind = K) :
    P.expect K = (false, P) := by
  simp [Parser.expect, h]

theorem Parser.consume_eq {P P' : Parser} {K : TokenKind} (h : P.Tok.Kind = K)
    (ha : P.advance = some P') : P.consume K = some (false, P') := by
  simp [Parser.consume, h, ha]

theorem Parser.consume_ne {P : Parser} {K : TokenKind} (h : P.Tok.Kind ≠ K) :
    P.consume K = some (true, P) := by
  simp [Parser.consume, h]

theorem Parser.errorhandler_sync {Sync : List TokenKind} {fuel : Nat} {P : Parser}
    (h : P.Tok.Kind ∈ Sync) : Parser._errorhandler Sync (fuel + 1) P = some (false, P) := by
  simp [Parser._errorhandler, h]

theorem Parser.call_ok {α β : Type} (P : Parser) (a : α) (H : Parser → Option (Bool × Parser))
    (Out : α → β) (Rest : Parser → α → Option (Bool × Parser × β)) :
    Parser.call (some (false, P, a)) H Out Rest = Rest P a := rfl

theorem Parser.check_ok {β : Type} (P : Parser) (H : Parser → Option (Bool × Parser))
    (Out : β) (Rest : Parser → Option (Bool × Parser × β)) :
    Parser.check (some (false, P)) H Out Rest = Rest P := rfl

/-- C18: a block `BEGIN END` without statements and an empty parameter list
`()` are accepted.  With `BEGIN` as lookahead and `END` as the token after
it, `parseBlock` returns false with `Decls` and `Stmts` as they were (empty
when they were empty); with `(` as lookahead, `)` after it and no `:` after
that, `parseFormalParameters` returns false with `Params` and `RetType` as
they were.  In both cases the parser is left as the two calls of `advance`
leave it: the tokens have been consumed and the parser has reported
nothing. -/
theorem empty_block_and_empty_parameter_list_accepted (S : Sema) (fuel : Nat)
    (P P1 P2 Q Q1 Q2 : Parser) (Decls : Sema.DeclList) (Stmts : Sema.StmtList)
    (Params : Sema.FormalParamList) (RetType : Sema.Decl)
    (hP : P.Tok.Kind = .kw_BEGIN) (hP1 : P.advance = some P1) (hEND : P1.Tok.Kind = .kw_END)
    (hP2 : P1.advance = some P2)
    (hQ : Q.Tok.Kind = .l_paren) (hQ1 : Q.advance = some Q1) (hR : Q1.Tok.Kind = .r_paren)
    (hQ2 : Q1.advance = some Q2) (hC : Q2.Tok.Kind ≠ .colon) :
    parseBlock S (fuel + 1) P Decls Stmts = some (false, P2, Decls, Stmts) ∧
    parseFormalParameters S fuel Q Params RetType = some (false, Q2, Params, RetType) := by
  constructor
  · have hst : parseStatement S (parseStatementSequence S fuel) (fuel + 1) P1 Stmts =
        some (false, P1, Stmts) := by
      simp [parseStatement, hEND, Parser.fail, Parser._errorhandler]
    have hseq : parseStatementSequence S (fuel + 1) P1 Stmts = some (false, P1, Stmts) := by
      simp [parseStatementSequence, hst, Parser.call, parseStatementSequenceLoop, hEND]
    simp [parseBlock, parseBlockLoop, hP, Parser.call, Parser.next, hP1, hseq, Parser.check,
      Parser.consume, hEND, hP2]
  · simp [parseFormalParameters, Parser.check, Parser.consume, hQ, hQ1, hR, hQ2, hC,
      Parser.call]

set_option maxRecDepth 100000 in
/-- Witness for C18: the texts `BEGIN END` and `();`, with empty lists. -/
theorem empty_block_and_empty_parameter_list_accepted_witness :
    Parser.create "BEGIN END".toList = some (Example.parser "BEGIN END" 5 ⟨0, 5, .kw_BEGIN⟩) ∧
    Parser.create "();".toList = some (Example.parser "();" 1 ⟨0, 1, .l_paren⟩) ∧
    parseBlock Example.sema (0 + 1) (Example.parser "BEGIN END" 5 ⟨0, 5, .kw_BEGIN⟩) .nil .nil =
      some (false, Example.parser "BEGIN END" 9 ⟨6, 3, .eof⟩, .nil, .nil) ∧
    parseFormalParameters Example.sema 0 (Example.parser "();" 1 ⟨0, 1, .l_paren⟩) .nil .nullptr =
      some (false, Example.parser "();" 3 ⟨2, 1, .semi⟩, .nil, .nullptr) :=
  ⟨by decide!, by decide!,
    empty_block_and_empty_parameter_list_accepted Example.sema 0
      (Example.parser "BEGIN END" 5 ⟨0, 5, .kw_BEGIN⟩)
      (Example.parser "BEGIN END" 9 ⟨6, 3, .kw_END⟩)
      (Example.parser "BEGIN END" 9 ⟨6, 3, .eof⟩)
      (Example.parser "();" 1 ⟨0, 1, .l_paren⟩)
      (Example.parser "();" 2 ⟨1, 1, .r_paren⟩)
      (Example.parser "();" 3 ⟨2, 1, .semi⟩)
      .nil .nil .nil .nullptr
      (by decide!) (by decide!) (by decide!) (by decide!)
      (by decide!) (by decide!) (by decide!) (by decide!) (by decide!)⟩

set_option maxRecDepth 100000 in
/-- A whole module with both: in
`MODULE m; PROCEDURE p(); BEGIN END p; BEGIN END m.` the procedure has an
empty parameter list and both blocks are empty.  `parseBlock` hands an empty
parameter list and empty statement lists to the semantic actions, and `parse`
returns the module with no diagnostic. -/
theorem parse_empty_procedure_accepted :
    (Parser.create "PROCEDURE p(); BEGIN END p; BEGIN END".toList).bind
        (fun P => parseBlock Example.sema 6 P .nil .nil) =
      some (false, Example.parser "PROCEDURE p(); BEGIN END p; BEGIN END" 37 ⟨34, 3, .eof⟩,
        .actOnProcedureDeclaration .nil 10 (10, 1) .nil .nullptr 25 (25, 1) .nil .nil, .nil) ∧
    Parser.parse (Parser.productions Example.sema 6) 6
        "MODULE m; PROCEDURE p(); BEGIN END p; BEGIN END m.".toList =
      some (some (7, 1), DiagnosticsEngine.mk 0 []) := by
  constructor <;> decide!

theorem Parser.parseAddOperator_eq (fuel : Nat) (P P' : Parser) (Op : OperatorInfo)
    (h : P.Tok.Kind = .plus ∨ P.Tok.Kind = .minus ∨ P.Tok.Kind = .kw_OR)
    (ha : P.advance = some P') :
    parseAddOperator fuel P Op = some (false, P', fromTok P.Tok) := by
  rcases h with h | h | h <;> simp [parseAddOperator, h, Parser.next, ha]

/-- C17 (fails on the code): `parseSimpleExpression` applies a leading sign
to the whole sum, not to the first term.  With a sign as lookahead, a term
`A` after it, an additive operator, a term `B` and no further additive
operator, it returns `actOnPrefixExpression(actOnSimpleExpression(A, B, Op),
PrefixOp)`: the prefix action is called last, on the result of the infix
action, so `- a + b` becomes `-(a + b)`.  The claim asks for
`actOnSimpleExpression(actOnPrefixExpression(A, PrefixOp), B, Op)`. -/
theorem parseSimpleExpression_prefix_applies_to_sum (S : Sema)
    (pe : Parser → Sema.Expr → Option (Bool × Parser × Sema.Expr)) (fuel : Nat)
    (P P1 P2 P3 P4 : Parser) (E A B : Sema.Expr)
    (hP : P.Tok.Kind = .plus ∨ P.Tok.Kind = .minus) (hP1 : P.advance = some P1)
    (hA : parseTerm S pe (fuel + 2) P1 E = some (false, P2, A))
    (hOp : P2.Tok.Kind = .plus ∨ P2.Tok.Kind = .minus ∨ P2.Tok.Kind = .kw_OR)
    (hP3 : P2.advance = some P3)
    (hB : parseTerm S pe (fuel + 2) P3 .nullptr = some (false, P4, B))
    (hEnd : P4.Tok.Kind ∉ [TokenKind.plus, .minus, .kw_OR]) :
    parseSimpleExpression S pe (fuel + 2) P E =
      some (false, P4,
        .actOnPrefixExpression (.actOnSimpleExpression A B (fromTok P2.Tok)) (fromTok P.Tok)) ∧
    parseSimpleExpression S pe (fuel + 2) P E ≠
      some (false, P4,
        .actOnSimpleExpression (.actOnPrefixExpression A (fromTok P.Tok)) B (fromTok P2.Tok)) := by
  have hmem : P2.Tok.Kind ∈ [TokenKind.plus, .minus, .kw_OR] := by
    rcases hOp with h | h | h <;> simp [h]
  have hloop : parseSimpleExpressionLoop S pe (fuel + 2) (fuel + 2) P2 A =
      some (false, P4, .actOnSimpleExpression A B (fromTok P2.Tok)) := by
    rw [parseSimpleExpressionLoop]
    rw [if_pos hmem, Parser.parseAddOperator_eq _ _ _ _ hOp hP3, Parser.call_ok, hB,
      Parser.call_ok, parseSimpleExpressionLoop, if_neg hEnd]
  have hrest : parseSimpleExpressionRest S pe (fuel + 2) (fromTok P.Tok) P1 E =
      some (false, P4,
        .actOnPrefixExpression (.actOnSimpleExpression A B (fromTok P2.Tok)) (fromTok P.Tok)) := by
    simp [parseSimpleExpressionRest, hA, Parser.call, hloop, fromTok]
  have hres : parseSimpleExpression S pe (fuel + 2) P E =
      some (false, P4,
        .actOnPrefixExpression (.actOnSimpleExpression A B (fromTok P2.Tok)) (fromTok P.Tok)) := by
    rcases hP with h | h <;> simp [parseSimpleExpression, h, Parser.next, hP1, hrest]
  refine ⟨hres, ?_⟩
  rw [hres]
  intro h
  cases h

set_option maxRecDepth 100000 in
/-- Witness for C17: the text `- a + b`. -/
theorem parseSimpleExpression_prefix_applies_to_sum_witness :
    Parser.create "- a + b".toList = some (Example.parser "- a + b" 1 ⟨0, 1, .minus⟩) ∧
    parseSimpleExpression Example.sema (parseExpression Example.sema 2) (0 + 2)
        (Example.parser "- a + b" 1 ⟨0, 1, .minus⟩) .nullptr =
      some (false, Example.parser "- a + b" 7 ⟨6, 1, .eof⟩,
        .actOnPrefixExpression
          (.actOnSimpleExpression (.actOnDesignator (.actOnQualIdentPart .nullptr 2 (2, 1)))
            (.actOnDesignator (.actOnQualIdentPart .nullptr 6 (6, 1))) ⟨4, .plus, false⟩)
          ⟨0, .minus, false⟩) :=
  ⟨by decide!,
    (parseSimpleExpression_prefix_applies_to_sum Example.sema (parseExpression Example.sema 2) 0
      (Example.parser "- a + b" 1 ⟨0, 1, .minus⟩)
      (Example.parser "- a + b" 3 ⟨2, 1, .identifier⟩)
      (Example.parser "- a + b" 5 ⟨4, 1, .plus⟩)
      (Example.parser "- a + b" 7 ⟨6, 1, .identifier⟩)
      (Example.parser "- a + b" 7 ⟨6, 1, .eof⟩)
      .nullptr
      (.actOnDesignator (.actOnQualIdentPart .nullptr 2 (2, 1)))
      (.actOnDesignator (.actOnQualIdentPart .nullptr 6 (6, 1)))
      (by decide!) (by decide!) (by decide!) (by decide!) (by decide!) (by decide!)
      (by decide!)).1⟩

/-- C16 (fails on the code): a missing `)` of a parenthesised expression is
not reported at all.  `parseFactor` tests for the `)` with `consume`, which
returns true without reporting; when the token found instead belongs to the
synchronization set of `parseFactor` (as `;` does), the error handler
discards nothing and returns false, so that `parseFactor` returns false with
the parser exactly as the inner `parseExpression` left it: no diagnostic has
been added and the caller continues as after a complete factor.  (`expect`
in the same place would have reported one diagnostic.) -/
theorem parseFactor_missing_r_paren_not_reported (S : Sema)
    (pe : Parser → Sema.Expr → Option (Bool × Parser × Sema.Expr)) (fuel depth : Nat)
    (P P1 P2 : Parser) (E E' : Sema.Expr)
    (hP : P.Tok.Kind = .l_paren) (hP1 : P.advance = some P1)
    (hE : pe P1 E = some (false, P2, E'))
    (hMissing : P2.Tok.Kind ≠ .r_paren)
    (hSync : P2.Tok.Kind ∈ [TokenKind.hash, .r_paren, .star, .plus, .comma, .minus, .slash,
      .semi, .less, .lessequal, .equal, .greater, .greaterequal, .kw_AND, .kw_DIV, .kw_DO,
      .kw_ELSE, .kw_END, .kw_MOD, .kw_OR, .kw_THEN, .r_square]) :
    parseFactor S pe (fuel + 1) (depth + 1) P E = some (false, P2, E') ∧
    P2.consume .r_paren = some (true, P2) ∧
    (P2.expect .r_paren).2.Lex.Diags.NumErrors = P2.Lex.Diags.NumErrors + 1 := by
  refine ⟨?_, Parser.consume_ne hMissing, ?_⟩
  · rw [parseFactor]
    simp only [hP, if_true, if_false, reduceCtorEq]
    rw [Parser.next_eq hP1, hE, Parser.call_ok, Parser.consume_ne hMissing]
    simp only [Parser.check, Parser.errorhandler_sync hSync]
  · simp [Parser.expect, hMissing, DiagnosticsEngine.report]

set_option maxRecDepth 100000 in
/-- Witness for C16: the text `(1 + 2;`. -/
theorem parseFactor_missing_r_paren_not_reported_witness :
    Parser.create "(1 + 2;".toList = some (Example.parser "(1 + 2;" 1 ⟨0, 1, .l_paren⟩) ∧
    parseFactor Example.sema (parseExpression Example.sema 2) (0 + 1) (0 + 1)
        (Example.parser "(1 + 2;" 1 ⟨0, 1, .l_paren⟩) .nullptr =
      some (false, Example.parser "(1 + 2;" 7 ⟨6, 1, .semi⟩,
        .actOnSimpleExpression (.actOnIntegerLiteral 1 (1, 1)) (.actOnIntegerLiteral 5 (5, 1))
          ⟨3, .plus, false⟩) ∧
    (Example.parser "(1 + 2;" 7 ⟨6, 1, .semi⟩).Lex.Diags = { NumErrors := 0, reports := [] } :=
  ⟨by decide!,
    (parseFactor_missing_r_paren_not_reported Example.sema (parseExpression Example.sema 2) 0 0
      (Example.parser "(1 + 2;" 1 ⟨0, 1, .l_paren⟩)
      (Example.parser "(1 + 2;" 2 ⟨1, 1, .integer_literal⟩)
      (Example.parser "(1 + 2;" 7 ⟨6, 1, .semi⟩)
      .nullptr
      (.actOnSimpleExpression (.actOnIntegerLiteral 1 (1, 1)) (.actOnIntegerLiteral 5 (5, 1))
        ⟨3, .plus, false⟩)
      (by decide!) (by decide!) (by decide!) (by decide!) (by decide!)).1,
    rfl⟩

set_option maxRecDepth 100000 in
/-- The module `MODULE m; VAR x : INTEGER; BEGIN x := (1 + 2; END m.`, in
which a `)` is missing, is parsed without any diagnostic: `parse` returns the
module declaration and `numErrors()` is 0. -/
theorem parse_missing_r_paren_accepted :
    Parser.parse (Parser.productions Example.sema 5) 5
        "MODULE m; VAR x : INTEGER; BEGIN x := (1 + 2; END m.".toList =
      some (some (7, 1), { NumErrors := 0, reports := [] }) := by
  decide!

/-! ## Error recovery -/

/-- What `_errorhandler` returns: it stops at the first lookahead that is in
`Sync`, or that is end-of-input after at least one token has been discarded,
and returns true exactly in the second case. -/
theorem Parser.errorhandler_eq (Sync : List TokenKind) : ∀ (n fuel : Nat) (P P' : Parser),
    n < fuel → P.advances n = some P' →
    (∀ k Q, k < n → P.advances k = some Q →
      Q.Tok.Kind ∉ Sync ∧ (0 < k → Q.Tok.Kind ≠ .eof)) →
    (P'.Tok.Kind ∈ Sync ∨ (0 < n ∧ P'.Tok.Kind = .eof)) →
    Parser._errorhandler Sync fuel P = some (decide (0 < n ∧ P'.Tok.Kind = .eof), P') := by
  intro n
  induction n with
  | zero =>
    intro fuel P P' hf hn _ hstop
    cases hn
    cases fuel with
    | zero => exact absurd hf (Nat.lt_irrefl 0)
    | succ fuel =>
      rcases hstop with h | h
      · simp [Parser._errorhandler, h]
      · exact absurd h.1 (Nat.lt_irrefl 0)
  | succ m ih =>
    intro fuel P P' hf hn hskip hstop
    cases fuel with
    | zero => exact absurd hf (Nat.not_lt_zero _)
    | succ fuel =>
      have h0 := (hskip 0 P (Nat.succ_pos m) rfl).1
      cases ha : P.advance with
      | none => simp [Parser.advances, ha] at hn
      | some P1 =>
        have hn1 : P1.advances m = some P' := by simpa [Parser.advances, ha] using hn
        rw [Parser._errorhandler, if_neg h0]
        simp only [ha]
        by_cases he : P1.Tok.Kind = .eof
        · have hm : m = 0 := by
            by_contra hne
            have := (hskip 1 P1 (by omega) (by simp [Parser.advances, ha])).2 Nat.one_pos
            exact this he
          subst hm
          cases hn1
          simp [he]
        · rw [if_neg he, ih fuel P1 P' (Nat.lt_of_succ_lt_succ hf) hn1 ?_ ?_]
          · by_cases hm : m = 0
            · subst hm
              cases hn1
              simp [he]
            · have : 0 < m := Nat.pos_of_ne_zero hm
              simp [this]
          · intro k Q hk hQ
            have := hskip (k + 1) Q (Nat.succ_lt_succ hk) (by simpa [Parser.advances, ha] using hQ)
            refine ⟨this.1, fun _ => this.2 (Nat.succ_pos k)⟩
          · rcases hstop with h | h
            · exact Or.inl h
            · by_cases hm : m = 0
              · subst hm
                cases hn1
                exact absurd h.2 he
              · exact Or.inr ⟨Nat.pos_of_ne_zero hm, h.2⟩

/-- C15 (as corrected): a production that fails returns what its error
handler returns.  The handler discards tokens until the lookahead is in the
synchronization set of the production or, after at least one token has been
discarded, is end-of-input.  It returns true only when it has stopped at
end-of-input; when it stops at a synchronization token (at once, if the
lookahead is one already) it returns false, and so does the production: its
caller goes on as after a successful parse.  Here `P'` is the parser after
`n` tokens have been discarded; the statement is made for the error handler
of any production and for the failing branches of `parseStatement` and
`parseDeclaration`. -/
theorem errorhandler_returns_true_only_at_eof (Sync : List TokenKind) (n fuel : Nat)
    (P P' : Parser) (hfuel : n < fuel) (hn : P.advances n = some P')
    (hskip : ∀ k Q, k < n → P.advances k = some Q →
      Q.Tok.Kind ∉ Sync ∧ (0 < k → Q.Tok.Kind ≠ .eof))
    (hstop : P'.Tok.Kind ∈ Sync ∨ (0 < n ∧ P'.Tok.Kind = .eof)) :
    Parser._errorhandler Sync fuel P = some (decide (0 < n ∧ P'.Tok.Kind = .eof), P') ∧
    (∀ S pss Stmts, Sync = [.semi, .kw_ELSE, .kw_END] →
      P.Tok.Kind ∉ [TokenKind.identifier, .kw_IF, .kw_WHILE, .kw_RETURN] →
      parseStatement S pss fuel P Stmts =
        some (decide (0 < n ∧ P'.Tok.Kind = .eof), P', Stmts)) ∧
    (∀ S pb Decls, Sync = [.kw_BEGIN, .kw_CONST, .kw_END, .kw_PROCEDURE, .kw_TYPE, .kw_VAR] →
      P.Tok.Kind ∉ [TokenKind.kw_CONST, .kw_TYPE, .kw_VAR, .kw_PROCEDURE] →
      parseDeclaration S pb fuel P Decls =
        some (decide (0 < n ∧ P'.Tok.Kind = .eof), P', Decls)) := by
  have key := Parser.errorhandler_eq Sync n fuel P P' hfuel hn hskip hstop
  refine ⟨key, ?_, ?_⟩
  · intro S pss Stmts hS hk
    subst hS
    simp only [List.mem_cons, List.mem_singleton, not_or, List.not_mem_nil, not_false_eq_true,
      and_true] at hk
    simp [parseStatement, hk.1, hk.2.1, hk.2.2.1, hk.2.2, Parser.fail, key]
  · intro S pb Decls hS hk
    subst hS
    simp only [List.mem_cons, List.mem_singleton, not_or, List.not_mem_nil, not_false_eq_true,
      and_true] at hk
    simp [parseDeclaration, hk.1, hk.2.1, hk.2.2.1, hk.2.2, Parser.fail, key]

set_option maxRecDepth 100000 in
/-- Witness for C15: the text `5 ; x := 1` as a statement; the token `5` is
discarded and the handler stops at `;`. -/
theorem errorhandler_returns_true_only_at_eof_witness :
    Parser.create "5 ; x := 1".toList =
      some (Example.parser "5 ; x := 1" 1 ⟨0, 1, .integer_literal⟩) ∧
    Parser._errorhandler [.semi, .kw_ELSE, .kw_END] 2
        (Example.parser "5 ; x := 1" 1 ⟨0, 1, .integer_literal⟩) =
      some (false, Example.parser "5 ; x := 1" 3 ⟨2, 1, .semi⟩) :=
  ⟨by decide!,
    (errorhandler_returns_true_only_at_eof [.semi, .kw_ELSE, .kw_END] 1 2
      (Example.parser "5 ; x := 1" 1 ⟨0, 1, .integer_literal⟩)
      (Example.parser "5 ; x := 1" 3 ⟨2, 1, .semi⟩)
      (by decide) (by decide!)
      (fun k Q hk hQ => by
        have hk0 : k = 0 := Nat.lt_one_iff.1 hk
        subst hk0
        cases hQ
        exact ⟨by decide!, fun h => absurd h (Nat.lt_irrefl 0)⟩)
      (Or.inl (by decide!))).1⟩

set_option maxRecDepth 100000 in
/-- Counterexample for C15 as stated: on the text `5 ; x := 1`, which starts
with no statement, `parseStatement` discards `5`, stops at `;` and returns
false, with nothing reported; and the block `BEGIN 5; x := 1 END` is parsed
without any diagnostic, `parseBlock` returns false and the statement list
holds the assignment alone. -/
theorem parseStatement_returns_false_after_recovery :
    parseStatement Example.sema (parseStatementSequence Example.sema 2) 3
        (Example.parser "5 ; x := 1" 1 ⟨0, 1, .integer_literal⟩) .nil =
      some (false, Example.parser "5 ; x := 1" 3 ⟨2, 1, .semi⟩, .nil) ∧
    (Parser.create "BEGIN 5; x := 1 END".toList).bind
        (fun P => parseBlock Example.sema 3 P .nil .nil) =
      some (false, Example.parser "BEGIN 5; x := 1 END" 19 ⟨16, 3, .eof⟩, .nil,
        .actOnAssignment .nil 9 (.actOnDesignator (.actOnQualIdentPart .nullptr 9 (9, 1)))
          (.actOnIntegerLiteral 14 (14, 1))) := by
  constructor <;> decide!

end tinylang

namespace tinylang

/-! ## Straight-line code has no phi -/

theorem Preserves.readState {I : CGState → Prop} {β : Type} {f : CGState → M β}
    (hf : ∀ s, I s → ∀ b s', f s s = .ok b s' → I s') : Preserves I (M.get >>= f) := by
  intro s hs b s' h
  obtain ⟨a, s1, h1, h2⟩ := M.do_eq_ok.1 h
  rw [(M.get_ok h1).1, (M.get_ok h1).2] at h2
  exact hf s hs b s' h2

theorem Preserves.both {I J : CGState → Prop} {α : Type} {m : M α} (hI : Preserves I m)
    (hJ : Preserves J m) : Preserves (fun s => I s ∧ J s) m :=
  fun s hs a s' h => ⟨hI s hs.1 a s' h, hJ s hs.2 a s' h⟩

theorem StraightLine.keeps {c : BlockId} {α : Type} {m : M α} (hk : KeepsControl m)
    (hi : ∀ s a s', StraightLine c s → m s = .ok a s' → ∀ b, b ≠ c →
      (s'.CurrentDef b).IncompletePhis = (s.CurrentDef b).IncompletePhis) :
    Preserves (StraightLine c) m := by
  intro s hs a s' h
  have hc := hk s
  rw [h] at hc
  obtain ⟨c1, _, c3, c4, c5⟩ := hc
  refine ⟨c3.trans hs.1, c1.trans hs.2.1, ?_, ?_, ?_⟩
  · intro b
    rw [show s'.blockUses = s.blockUses from c4]
    exact hs.2.2.1 b
  · intro b
    exact (c5 b).trans (hs.2.2.2.1 b)
  · intro b hb
    rw [hi s a s' hs h b hb]
    exact hs.2.2.2.2 b hb

theorem incompletePhis_createInst {BB : BlockId} {atFront : Bool} {op : Opcode} {ty : Ty}
    {operands : List Value} {blocks : List BlockId} {s s' : CGState} {i : InstId}
    (h : createInst BB atFront op ty operands blocks s = .ok i s') (b : BlockId) :
    (s'.CurrentDef b).IncompletePhis = (s.CurrentDef b).IncompletePhis := by
  unfold createInst at h
  simp only [Res.ok.injEq] at h
  rw [← h.2]
  have hfold : ∀ (bs : List BlockId) (t : CGState),
      (bs.foldl (fun t c => t.addBlockUse c s.numInsts) t).CurrentDef = t.CurrentDef := by
    intro bs
    induction bs with
    | nil => intro t; rfl
    | cons c cs ih =>
      intro t
      simp only [List.foldl_cons]
      rw [ih _]
      rfl
  rw [hfold blocks _]
  exact ((CGState.rewrites_addUses _ _ _ _).2.2.2.2.2 b).1

theorem staysLocal_mapType (c : BlockId) (D : Decl) : Preserves (StraightLine c) (mapType D) := by
  intro s hs Ty s' h
  rw [mapType_ok h]
  exact hs

theorem staysLocal_writeLocalVariable (c : BlockId) (BB : BlockId) (D : Decl)
    (Val : Option Value) : Preserves (StraightLine c) (writeLocalVariable BB D Val) := by
  refine StraightLine.keeps (keepsControl_writeLocalVariable BB D Val) ?_
  intro s a s' _ h b _
  obtain ⟨V, _, hs'⟩ := writeLocalVariable_ok h
  rw [hs']
  exact ((s.rewrites_setDef BB D V).2.2.2.2.2 b).1

theorem staysLocal_readLocalVariable (c : BlockId) (fuel : Nat) (D : Decl) :
    Preserves (StraightLine c) (readLocalVariable fuel c D) := by
  refine StraightLine.keeps (keepsControl_readLocalVariable fuel c D) ?_
  intro s v s' hs h b hb
  cases fuel with
  | zero => cases h
  | succ fuel =>
    rcases readLocalVariable_ok h with ⟨_, e⟩ | ⟨_, hr⟩
    · rw [e]
    · rcases readLocalVariableRecursiveWith_ok hr with ⟨_, ty, _, e⟩ | ⟨hS, _⟩
      · rw [e]
        simp [CGState.withEmptyPhi, hb]
      · rw [hs.2.2.2.1 c] at hS
        cases hS

theorem staysLocal_Insert (c : BlockId) (op : Opcode) (ty : Ty) (operands : List Value) :
    Preserves (StraightLine c) (Insert op ty operands []) := by
  refine StraightLine.keeps (keepsControl_Insert op ty operands) ?_
  intro s v s' _ h b _
  obtain ⟨i, hc⟩ := Insert_ok h
  exact incompletePhis_createInst hc b

theorem staysLocal_CreateBinOp (c : BlockId) (E : Env) (op : Opcode) (L R : Value) :
    Preserves (StraightLine c) (CreateBinOp E op L R) := by
  unfold CreateBinOp
  repeat' first
    | exact Preserves.ret _
    | exact Preserves.read
    | exact staysLocal_Insert _ _ _ _
    | apply Preserves.seq
    | split
    | intro _

theorem staysLocal_CreateLoad (c : BlockId) (Ty : Ty) (Ptr : Value) :
    Preserves (StraightLine c) (CreateLoad Ty Ptr) :=
  staysLocal_Insert _ _ _ _

theorem staysLocal_CreateStore (c : BlockId) (Val Ptr : Value) :
    Preserves (StraightLine c) (CreateStore Val Ptr) :=
  staysLocal_Insert _ _ _ _

theorem staysLocal_CreateInBoundsGEP (c : BlockId) (E : Env) (Ptr : Value)
    (IdxList : List Value) : Preserves (StraightLine c) (CreateInBoundsGEP E Ptr IdxList) := by
  unfold CreateInBoundsGEP
  repeat' first
    | exact Preserves.ret _
    | exact staysLocal_Insert _ _ _ _
    | split

theorem staysLocal_readVariable (c : BlockId) (fuel : Nat) (D : Decl) (LoadVal : Bool) :
    Preserves (StraightLine c) (readVariable fuel c D LoadVal) := by
  unfold readVariable
  repeat' first
    | exact Preserves.raise _
    | exact Preserves.ret _
    | exact Preserves.read
    | exact staysLocal_mapType _ _
    | exact staysLocal_readLocalVariable _ _ _
    | exact staysLocal_CreateLoad _ _ _
    | apply Preserves.seq
    | split
    | intro _

theorem staysLocal_writeVariable (c : BlockId) (BB : BlockId) (D : Decl) (Val : Value) :
    Preserves (StraightLine c) (writeVariable BB D Val) := by
  unfold writeVariable
  repeat' first
    | exact Preserves.raise _
    | exact Preserves.ret _
    | exact Preserves.read
    | exact staysLocal_writeLocalVariable _ _ _ _
    | exact staysLocal_CreateStore _ _ _
    | apply Preserves.seq
    | split
    | intro _

theorem staysLocal_takeIndexSelectors (c : BlockId) (ee : Expr → M Value)
    (hee : ∀ e, Preserves (StraightLine c) (ee e)) :
    ∀ l : List Selector, Preserves (StraightLine c) (takeIndexSelectors ee l) := by
  intro l
  induction l with
  | nil => unfold takeIndexSelectors; exact Preserves.ret _
  | cons sel rest ih =>
    cases sel with
    | IndexSelector Index =>
      unfold takeIndexSelectors
      exact Preserves.seq (hee _) (fun _ => Preserves.seq ih (fun _ => Preserves.ret _))
    | FieldSelector Index => unfold takeIndexSelectors; exact Preserves.ret _
    | DereferenceSelector => unfold takeIndexSelectors; exact Preserves.ret _

theorem staysLocal_emitSelectors (c : BlockId) (E : Env) (ee : Expr → M Value)
    (hee : ∀ e, Preserves (StraightLine c) (ee e)) :
    ∀ (n : Nat) (Val : Value) (l : List Selector),
      Preserves (StraightLine c) (emitSelectors E ee n Val l) := by
  intro n
  induction n with
  | zero =>
    intro Val l
    cases l with
    | nil => unfold emitSelectors; exact Preserves.ret _
    | cons sel rest => unfold emitSelectors; exact Preserves.raise _
  | succ n ih =>
    intro Val l
    cases l with
    | nil => unfold emitSelectors; exact Preserves.ret _
    | cons sel rest =>
      cases sel <;> unfold emitSelectors <;>
      repeat' first
        | exact Preserves.ret _
        | exact Preserves.read
        | exact ih _ _
        | exact staysLocal_takeIndexSelectors c ee hee _
        | exact staysLocal_CreateInBoundsGEP _ _ _ _
        | exact staysLocal_CreateLoad _ _ _
        | apply Preserves.seq
        | split
        | intro _

theorem staysLocal_emitInfixOp (c : BlockId) (E : Env) (Op : OpKind) (Left Right : Value) :
    Preserves (StraightLine c) (emitInfixOp E Op Left Right) := by
  unfold emitInfixOp
  repeat' first
    | exact Preserves.raise _
    | exact staysLocal_CreateBinOp _ _ _ _ _
    | split

theorem staysLocal_emitPrefixOp (c : BlockId) (E : Env) (Op : OpKind) (Result : Value) :
    Preserves (StraightLine c) (emitPrefixOp E Op Result) := by
  unfold emitPrefixOp
  repeat' first
    | exact Preserves.raise _
    | exact Preserves.ret _
    | exact Preserves.read
    | exact staysLocal_CreateBinOp _ _ _ _ _
    | apply Preserves.seq
    | split
    | intro _

theorem staysLocal_emitExpr (c : BlockId) (E : Env) (fuel : Nat) : ∀ e : Expr,
    Preserves (StraightLine c) (emitExpr E fuel e) := by
  induction fuel with
  | zero => intro e; exact Preserves.raise _
  | succ fuel ih =>
    intro e
    unfold emitExpr
    cases e with
    | Designator D Selectors =>
      refine Preserves.readState ?_
      intro s hs
      rw [hs.1]
      exact (Preserves.seq (staysLocal_readVariable c fuel D true) fun _ =>
        staysLocal_emitSelectors c E _ ih _ _ _) s hs
    | _ =>
      repeat' first
        | exact Preserves.raise _
        | exact Preserves.ret _
        | exact ih _
        | exact staysLocal_emitInfixOp _ _ _ _ _
        | exact staysLocal_emitPrefixOp _ _ _ _
        | apply Preserves.seq
        | intro _

theorem staysLocal_assignmentIndexes (c : BlockId) (ee : Expr → M Value)
    (hee : ∀ e, Preserves (StraightLine c) (ee e)) :
    ∀ l : List Selector, Preserves (StraightLine c) (assignmentIndexes ee l) := by
  intro l
  induction l with
  | nil => unfold assignmentIndexes; exact Preserves.ret _
  | cons sel rest ih =>
    cases sel <;> unfold assignmentIndexes <;>
    repeat' first
      | exact Preserves.raise _
      | exact Preserves.ret _
      | exact hee _
      | exact ih
      | apply Preserves.seq
      | intro _

theorem staysLocal_emitAssignmentStatement (c : BlockId) (E : Env) (fuel : Nat) (D : Decl)
    (Selectors : List Selector) (X : Expr) :
    Preserves (StraightLine c) (emitAssignmentStatement E fuel D Selectors X) := by
  unfold emitAssignmentStatement
  refine Preserves.seq (staysLocal_emitExpr c E fuel X) fun Val => ?_
  refine Preserves.readState ?_
  intro s hs
  rw [hs.1]
  refine (?_ : Preserves (StraightLine c) _) s hs
  repeat' first
    | exact Preserves.raise _
    | exact Preserves.ret _
    | exact Preserves.read
    | exact staysLocal_writeVariable _ _ _ _
    | exact staysLocal_readVariable _ _ _ _
    | exact staysLocal_assignmentIndexes _ _ (staysLocal_emitExpr _ _ _) _
    | exact staysLocal_CreateInBoundsGEP _ _ _ _
    | exact staysLocal_CreateStore _ _ _
    | apply Preserves.seq
    | split
    | intro _

theorem staysLocal_emitReturnStatement (c : BlockId) (E : Env) (fuel : Nat)
    (RetVal : Option Expr) :
    Preserves (StraightLine c) (emitReturnStatement E fuel RetVal) := by
  unfold emitReturnStatement
  repeat' first
    | exact Preserves.ret _
    | exact staysLocal_emitExpr _ _ _ _
    | exact staysLocal_Insert _ _ _ _
    | apply Preserves.seq
    | split
    | intro _

theorem staysLocal_createFunctionType (c : BlockId) : ∀ FormalParams : List Decl,
    Preserves (StraightLine c) (createFunctionType FormalParams) := by
  intro FormalParams
  induction FormalParams with
  | nil => exact Preserves.ret _
  | cons FP rest ih =>
    unfold createFunctionType
    exact Preserves.seq (staysLocal_mapType c FP) fun _ =>
      Preserves.seq ih fun _ => Preserves.ret _

theorem staysLocal_runFormalParams (c : BlockId) : ∀ (FormalParams : List Decl) (Idx : Nat),
    Preserves (StraightLine c) (runFormalParams FormalParams Idx) := by
  intro FormalParams
  induction FormalParams with
  | nil => intro Idx; exact Preserves.ret _
  | cons FP rest ih =>
    intro Idx
    unfold runFormalParams
    refine Preserves.seq (Preserves.update _ ?_) fun _ =>
      Preserves.seq Preserves.read fun _ =>
        Preserves.seq (staysLocal_writeLocalVariable _ _ _ _) fun _ => ih _
    intro s hs
    exact hs

theorem staysLocal_runDecls (c : BlockId) : ∀ Decls : List Decl,
    Preserves (StraightLine c) (runDecls Decls) := by
  intro Decls
  induction Decls with
  | nil => exact Preserves.ret _
  | cons D rest ih =>
    unfold runDecls
    show Preserves (StraightLine c) (match D.kind with
      | DeclKind.Var _ => _
      | _ => _)
    split
    · refine Preserves.seq (staysLocal_mapType c D) fun _ => ?_
      split
      · exact Preserves.seq (staysLocal_Insert _ _ _ _) fun _ =>
          Preserves.seq Preserves.read fun _ =>
            Preserves.seq (staysLocal_writeLocalVariable _ _ _ _) fun _ => ih
      · exact Preserves.seq (Preserves.ret _) fun _ => ih
    · exact Preserves.seq (Preserves.ret _) fun _ => ih

/-- Assignments and `RETURN` statements keep code generation in the current
block, with the phi nodes as they should be. -/
theorem staysLocal_emit (c : BlockId) (E : Env) (fuel : Nat) (Stmts : List Stmt)
    (hS : ∀ S ∈ Stmts, S.isAssignmentOrReturn = true) :
    Preserves (fun s => StraightLine c s ∧ PhiInv none s) (emit E fuel Stmts) := by
  cases fuel with
  | zero => exact Preserves.raise _
  | succ fuel =>
    unfold emit
    induction Stmts with
    | nil => exact Preserves.ret _
    | cons S rest ih =>
      unfold forEachStmt
      refine Preserves.seq ?_ fun _ => ih fun T hT => hS T (List.mem_cons_of_mem _ hT)
      have h1 := hS S (List.mem_cons_self _ _)
      cases S with
      | AssignmentStatement D Sel X =>
        exact Preserves.both (staysLocal_emitAssignmentStatement c E fuel D Sel X)
          (keepsPhis_emitAssignmentStatement E fuel D Sel X)
      | ReturnStatement R =>
        exact Preserves.both (staysLocal_emitReturnStatement c E fuel R)
          (keepsPhis_emitReturnStatement E fuel R)
      | ProcedureCallStatement => cases h1
      | IfStatement _ _ _ => cases h1
      | WhileStatement _ _ => cases h1

/-! ### Sealing a block without predecessors -/

theorem addPhiOperands_no_predecessors (fuel : Nat) (BB : BlockId) (D : Decl) (Phi : InstId)
    (s : CGState) (hp : s.predecessors BB = []) :
    addPhiOperands fuel BB D Phi s = optimizePhi (s.numInsts + 1) Phi s := by
  unfold addPhiOperands addPhiOperandsWith
  show M.bind M.get _ s = _
  rw [M.bind_get, hp]
  unfold addPhiOperandsLoop
  show M.bind (pure ()) _ s = _
  rw [M.bind_pure_left]
  show M.bind M.get _ s = _
  rw [M.bind_get]

/-- When `optimizePhi` returns for a phi without incoming values, the phi has
been erased. -/
theorem optimizePhi_empty (fuel : Nat) (Phi : InstId) (s s' : CGState) (x : Instruction)
    (v : Value) (hx : s.insts Phi = some x) (hop : x.op = Opcode.PHI) (he : x.operands = [])
    (h : optimizePhi (fuel + 1) Phi s = .ok v s') : s'.insts Phi = none ∧ s.Rewrites s' := by
  have hr := optimizePhi_rewrites (fuel + 1) Phi s
    (fun y hy => by rw [hx] at hy; cases hy; exact hop) v s' h
  refine ⟨?_, hr⟩
  have hs : sameIncoming Phi x.operands none = some none := by
    rw [he]
    rfl
  rw [optimizePhi_succ_remove fuel s Phi x none hx hs] at h
  obtain ⟨u, s2, h1, h2⟩ := M.bind_eq_ok.1 h
  cases h2
  have r2 := forEachPhi_rewrites (optimizePhi fuel) (candidatePhis s Phi x.uses)
    (fun P _ t ht w t' hw => optimizePhi_rewrites fuel P t ht w t' hw) _ ?_ u _ h1
  · cases hn : s'.insts Phi with
    | none => rfl
    | some x' =>
      obtain ⟨y, hy, _⟩ := r2.2.2.2.1 Phi x' hn
      have hq : ∃ x1, (s.replaceAllUsesWith Phi ((none : Option Value).getD (.undef x.ty))).insts
          Phi = some x1 := by
        simp [CGState.replaceAllUsesWith, hx]
      obtain ⟨x1, hx1⟩ := hq
      rw [CGState.insts_eraseFromParent_self _ Phi x1 hx1] at hy
      cases hy
  · intro P hP
    have r1 : s.Rewrites
        ((s.replaceAllUsesWith Phi ((none : Option Value).getD (.undef x.ty))).eraseFromParent
          Phi) :=
      (s.rewrites_replaceAllUsesWith _ _).andNext (CGState.rewrites_eraseFromParent _ _
        ((s.rewrites_replaceAllUsesWith _ _).phiOrGone
          (fun y hy => by rw [hx] at hy; cases hy; exact hop)))
    refine r1.phiOrGone ?_
    intro y hy
    have := candidatePhis_isPHI s Phi x.uses P hP
    simp only [CGState.isPHI, hy] at this
    simpa using this

/-- The loop of `sealBlock` on a block without predecessors, in a state in
which no phi has an incoming value: when it returns, every phi it was run on
has been erased. -/
theorem sealBlockLoop_erases (fuel : Nat) (BB : BlockId) :
    ∀ (rest : List (InstId × Decl)) (s s' : CGState), s.predecessors BB = [] →
    (∀ j x, s.insts j = some x → x.op = Opcode.PHI → x.operands = []) →
    (∀ p ∈ rest, ∀ x, s.insts p.1 = some x → x.op = Opcode.PHI) →
    sealBlockLoop fuel BB rest s = .ok () s' →
    s.Rewrites s' ∧ ∀ p ∈ rest, s'.insts p.1 = none := by
  intro rest
  induction rest with
  | nil =>
    intro s s' _ _ _ h
    cases h
    exact ⟨CGState.Rewrites.idle s, fun p hp => by cases hp⟩
  | cons PD rest ih =>
    intro s s' hp he hphi h
    unfold sealBlockLoop at h
    obtain ⟨v, s2, h1, h2⟩ := M.do_eq_ok.1 h
    rw [addPhiOperands_no_predecessors fuel BB PD.2 PD.1 s hp] at h1
    cases hx : s.insts PD.1 with
    | none =>
      rw [optimizePhi_succ_erased _ s PD.1 hx] at h1
      cases h1
    | some x =>
      have hop := hphi PD (List.mem_cons_self _ _) x hx
      obtain ⟨hgone, r1⟩ := optimizePhi_empty _ PD.1 s s2 x v hx hop (he PD.1 x hx hop) h1
      obtain ⟨r2, hrest⟩ := ih s2 s' (by rw [r1.predecessors_eq, hp])
        (by
          intro j x' hx' hop'
          obtain ⟨y, hy, e1, _, _, e4⟩ := r1.2.2.2.1 j x' hx'
          have := he j y hy (e1 ▸ hop')
          rw [this] at e4
          exact List.length_eq_zero.1 e4)
        (fun p hp' => r1.phiOrGone (hphi p (List.mem_cons_of_mem _ hp')))
        h2
      refine ⟨r1.andNext r2, ?_⟩
      intro p hp'
      rcases List.mem_cons.1 hp' with e | hp'
      · cases hn : s'.insts p.1 with
        | none => rfl
        | some x' =>
          obtain ⟨y, hy, _⟩ := r2.2.2.2.1 p.1 x' hn
          rw [e, hgone] at hy
          cases hy
      · exact hrest p hp'

/-- C13: for a procedure whose statements are assignments and `RETURN`
statements only, the function that `run` has produced when it returns
contains no phi: no instruction that is left is a phi, also when a variable
is read before it is assigned (the phi created for the read is replaced by
an undefined value when the block is sealed). -/
theorem run_straight_line_no_phi (E : Env) (fuel : Nat) (Proc : ProcedureDeclaration)
    (hS : ∀ S ∈ Proc.Stmts, S.isAssignmentOrReturn = true)
    (h : (run E fuel Proc).error? = none) :
    (∀ i x, (run E fuel Proc).state.insts i = some x → x.op ≠ Opcode.PHI) ∧
    (run E fuel Proc).state.phis = [] := by
  have main : ∀ i x, (run E fuel Proc).state.insts i = some x → x.op ≠ Opcode.PHI := by
    cases hr : run E fuel Proc with
    | fail e t => rw [hr] at h; cases h
    | ok u t =>
      simp only [Res.state_ok]
      unfold run runM at hr
      have hrest : ∀ (v : Unit),
          ((pure v >>= fun _ => do
            let ParamTypes ← createFunctionType Proc.FormalParams
            M.modify fun t => { t with argTys := ParamTypes }
            let BB ← createBasicBlock
            setCurr BB
            runFormalParams Proc.FormalParams 0
            runDecls Proc.Decls
            emit E fuel Proc.Stmts
            let s ← M.get
            if (s.getTerminator s.Curr).isNone then do
              let _ ← Insert .Ret .void [] []
              pure ()
            sealBlock E fuel s.Curr : M Unit) CGState.init = .ok u t) →
          ∀ i x, t.insts i = some x → x.op ≠ Opcode.PHI := by
        intro v hr
        obtain ⟨_, s1, k1, hr⟩ := M.do_eq_ok.1 hr
        cases k1
        obtain ⟨tys, s2, k2, hr⟩ := M.do_eq_ok.1 hr
        have i0 : StraightLine 0 CGState.init ∧ PhiInv none CGState.init :=
          ⟨⟨rfl, rfl, fun _ => rfl, fun _ => rfl, fun _ _ => rfl⟩, phiInv_init.1⟩
        have i2 := (Preserves.both (staysLocal_createFunctionType 0 Proc.FormalParams)
          (keepsPhis_createFunctionType Proc.FormalParams)) _ i0 _ _ k2
        have n2 : s2.numBlocks = 0 := by
          have := keepsControl_createFunctionType Proc.FormalParams CGState.init
          rw [k2] at this
          exact this.2.1
        obtain ⟨_, s3, k3, hr⟩ := M.do_eq_ok.1 hr
        cases k3
        obtain ⟨BB, s4, k4, hr⟩ := M.do_eq_ok.1 hr
        cases k4
        obtain ⟨_, s5, k5, hr⟩ := M.do_eq_ok.1 hr
        cases k5
        obtain ⟨_, s6, k6, hr⟩ := M.do_eq_ok.1 hr
        have i6 : StraightLine 0 s6 ∧ PhiInv none s6 := by
          refine (Preserves.both (staysLocal_runFormalParams 0 Proc.FormalParams 0)
            (keepsPhis_runFormalParams Proc.FormalParams 0)) _ ?_ _ _ k6
          exact ⟨⟨n2, i2.1.2.1, i2.1.2.2.1, i2.1.2.2.2.1, i2.1.2.2.2.2⟩,
            ⟨i2.2.fresh, i2.2.len, i2.2.blocks, i2.2.pending, i2.2.nodup, i2.2.users,
              i2.2.sealed⟩⟩
        obtain ⟨_, s7, k7, hr⟩ := M.do_eq_ok.1 hr
        have i7 := (Preserves.both (staysLocal_runDecls 0 Proc.Decls)
          (keepsPhis_runDecls Proc.Decls)) _ i6 _ _ k7
        obtain ⟨_, s8, k8, hr⟩ := M.do_eq_ok.1 hr
        have i8 := staysLocal_emit 0 E fuel Proc.Stmts hS _ i7 _ _ k8
        obtain ⟨s9, s9', k9, hr⟩ := M.do_eq_ok.1 hr
        rw [(M.get_ok k9).1, (M.get_ok k9).2] at hr
        have hseal : ∃ s10, (StraightLine 0 s10 ∧ PhiInv none s10) ∧
            sealBlock E fuel 0 s10 = .ok u t := by
          dsimp only at hr
          rw [i8.1.1] at hr
          split at hr
          · obtain ⟨_, s11, k11, hr⟩ := M.do_eq_ok.1 hr
            obtain ⟨_, s12, k12, hr⟩ := M.do_eq_ok.1 hr
            cases k12
            exact ⟨s11, (Preserves.both (staysLocal_Insert 0 _ _ _)
              (keepsPhis_Insert _ _ _ (by intro h; cases h))) _ i8 _ _ k11, hr⟩
          · obtain ⟨_, s12, k12, hr⟩ := M.do_eq_ok.1 hr
            cases k12
            exact ⟨s8, i8, hr⟩
        obtain ⟨s10, i10, hr⟩ := hseal
        obtain ⟨_, s11, kl, e11⟩ := sealBlock_ok hr
        have hpred : ∀ b, s10.predecessors b = [] := by
          intro b
          simp [CGState.predecessors, i10.1.2.2.1 b]
        have hlive : ∀ j x, s10.insts j = some x → x.op = Opcode.PHI →
            x.operands = [] ∧ ∃ d, (j, d) ∈ (s10.CurrentDef 0).IncompletePhis := by
          intro j x hx hop
          rcases i10.2.blocks j x hx hop (by intro h; cases h) with ⟨hs, _⟩ | ⟨hb, d, hd⟩
          · rw [i10.1.2.1] at hs
            cases hs
          · have hpar : x.parent = 0 := by
              by_contra hne
              rw [i10.1.2.2.2.2 x.parent hne] at hd
              cases hd
            rw [hpar] at hd
            have hl := i10.2.len j x hx hop
            rw [hb] at hl
            exact ⟨List.length_eq_zero.1 hl, d, hd⟩
        obtain ⟨r, hgone⟩ := sealBlockLoop_erases fuel 0
          (E.order (s10.CurrentDef 0).IncompletePhis)
          { s10 with trace := s10.trace ++ [Event.seal 0] } s11 (hpred 0)
          (fun j x hx hop => (hlive j x hx hop).1)
          (fun p hp x hx =>
            ((i10.2.pending 0 p.1 p.2 ((E.order_perm _).mem_iff.1 hp)).2.2 x hx).1)
          kl
        intro i x hx
        rw [e11] at hx
        have hx' : s11.insts i = some x := hx
        intro hop
        obtain ⟨y, hy, e1, _⟩ := r.2.2.2.1 i x hx'
        obtain ⟨_, d, hd⟩ := hlive i y hy (e1 ▸ hop)
        have := hgone (i, d) ((E.order_perm _).mem_iff.2 hd)
        rw [hx'] at this
        cases this
      rcases hR : Proc.RetType with _ | _ | ty
      · rw [hR] at hr
        exact hrest () hr
      · rw [hR] at hr
        obtain ⟨_, _, k, _⟩ := M.do_eq_ok.1 hr
        cases k
      · rw [hR] at hr
        exact hrest () hr
  refine ⟨main, ?_⟩
  unfold CGState.phis
  rw [List.filter_eq_nil_iff]
  intro i _
  simp only [CGState.isPHI]
  cases hx : (run E fuel Proc).state.insts i with
  | none => simp
  | some x =>
    have := main i x hx
    simpa using this

set_option maxRecDepth 100000 in
/-- Witness for C13: the procedure `readBeforeAssign`
(`x := y + 1; RETURN x`, with `y` never assigned). -/
theorem run_straight_line_no_phi_witness :
    (∀ S ∈ Example.readBeforeAssign.Stmts, S.isAssignmentOrReturn = true) ∧
    (run llvmEnv 20 Example.readBeforeAssign).error? = none ∧
    (run llvmEnv 20 Example.readBeforeAssign).state.phis = [] ∧
    ((run llvmEnv 20 Example.readBeforeAssign).state.insts 1).map (fun x => x.operands) =
      some [.undef (.int 64), .constInt 64 1] :=
  ⟨by decide, by decide!,
    (run_straight_line_no_phi llvmEnv 20 Example.readBeforeAssign (by decide) (by decide!)).2,
    by decide!⟩

end tinylang

namespace tinylang

/-! ## A merge block whose predecessors all define the same value -/

theorem sameIncoming_replicate_some (Phi : InstId) (V : Value) :
    ∀ n, sameIncoming Phi (List.replicate n V) (some V) = some (some V) := by
  intro n
  induction n with
  | zero => rfl
  | succ n ih => simp [List.replicate_succ, sameIncoming, ih]

theorem sameIncoming_replicate (Phi : InstId) (V : Value) (hV : V ≠ .inst Phi) (n : Nat) :
    sameIncoming Phi (List.replicate (n + 1) V) none = some (some V) := by
  simp [List.replicate_succ, sameIncoming, hV, sameIncoming_replicate_some]

/-- The whole run on `IF c THEN x := 1 ELSE x := 1 END; RETURN x`: `run`
returns, the function has no phi and instruction 4, the `RETURN x`, returns
the constant 1. -/
theorem run_ifSameValue_returns_constant :
    (run llvmEnv 20 Example.ifSameValue).error? = none ∧
    (run llvmEnv 20 Example.ifSameValue).state.phis = [] ∧
    (run llvmEnv 20 Example.ifSameValue).state.insts 3 = none ∧
    ((run llvmEnv 20 Example.ifSameValue).state.insts 4).map
        (fun i => (i.op, i.operands, i.parent)) =
      some (.Ret, [.constInt 64 1], 3) := by
  set_option maxRecDepth 100000 in
  decide!

/-- Two procedures in which both branches of the `IF` leave the constant 1 as
the definition of `x` and the read after the `IF` does not yield it.
In `IF c THEN x := 1 ELSE x := 1 END; WHILE x < 10 DO x := x + 1 END` the
loop takes the merge block (block 3, still empty) as its condition block, so
the back edge of the loop becomes a third predecessor: the phi created for
`x` there (instruction 3) is kept with the incoming values `x + 1`, 1, 1
and the comparison reads the phi.  In
`IF c THEN x := 1; RETURN x ELSE x := 1; RETURN x END; RETURN x` no branch
reaches the merge block, which is sealed without predecessor: the phi is
removed and the last `RETURN x` returns `undef`. -/
theorem run_ifSameValueThenWhile_keeps_phi :
    (run llvmEnv 20 Example.ifSameValueThenWhile).error? = none ∧
    ((run llvmEnv 20 Example.ifSameValueThenWhile).state.CurrentDef 1).Defs Example.x =
      some (.constInt 64 1) ∧
    ((run llvmEnv 20 Example.ifSameValueThenWhile).state.CurrentDef 2).Defs Example.x =
      some (.constInt 64 1) ∧
    (run llvmEnv 20 Example.ifSameValueThenWhile).state.predecessors 3 = [4, 2, 1] ∧
    ((run llvmEnv 20 Example.ifSameValueThenWhile).state.insts 3).map
        (fun i => (i.op, i.operands, i.blocks, i.parent)) =
      some (.PHI, [.inst 7, .constInt 64 1, .constInt 64 1], [4, 2, 1], 3) ∧
    ((run llvmEnv 20 Example.ifSameValueThenWhile).state.insts 4).map
        (fun i => (i.op, i.operands)) =
      some (.ICmp .slt, [.inst 3, .constInt 64 10]) ∧
    (run llvmEnv 20 Example.ifBothReturn).error? = none ∧
    (run llvmEnv 20 Example.ifBothReturn).state.predecessors 3 = [] ∧
    (run llvmEnv 20 Example.ifBothReturn).state.phis = [] ∧
    ((run llvmEnv 20 Example.ifBothReturn).state.insts 4).map
        (fun i => (i.op, i.operands, i.parent)) =
      some (.Ret, [.undef (.int 64)], 3) := by
  set_option maxRecDepth 100000 in
  decide!

end tinylang

namespace tinylang

/-! ## Block comments -/

/-- The loop of `Lexer::comment` passes a character that is neither `(` nor
`*` nor NUL while the comment is open. -/
theorem Lexer.commentLoop_skip (c : Char) (rest : List Char) (Level End : Nat)
    (h1 : c ≠ '(') (h2 : c ≠ '*') (h0 : c ≠ Char.ofNat 0) (hL : Level ≠ 0) :
    Lexer.commentLoop (c :: rest) Level End = Lexer.commentLoop rest Level (End + 1) := by
  rw [Lexer.commentLoop]
  · simp [h0, hL]
  · intro rest' h _
    exact h1 h
  · intro rest' h _
    exact h2 h

theorem Lexer.commentLoop_body (body rest : List Char) (Level End : Nat)
    (hbody : ∀ c ∈ body, c ≠ '(' ∧ c ≠ '*' ∧ c ≠ Char.ofNat 0) (hL : Level ≠ 0) :
    Lexer.commentLoop (body ++ rest) Level End =
      Lexer.commentLoop rest Level (End + body.length) := by
  induction body generalizing End with
  | nil => simp
  | cons c body ih =>
    obtain ⟨h1, h2, h0⟩ := hbody c (List.mem_cons_self _ _)
    rw [List.cons_append, Lexer.commentLoop_skip c _ Level End h1 h2 h0 hL,
      ih _ (fun d hd => hbody d (List.mem_cons_of_mem _ hd))]
    simp only [List.length_cons]
    congr 1
    omega

/-- `Lexer::next` at a `(*`: the comment is skipped and the next token is
lexed from where `Lexer::comment` leaves the cursor. -/
theorem Lexer.next_comment (pre rest : List Char) (D : DiagnosticsEngine) (Result : Token) :
    Lexer.next { CurBuf := pre ++ '(' :: '*' :: rest, CurPtr := pre.length, Diags := D } Result =
      Lexer.nextFuel (pre ++ '(' :: '*' :: rest).length
        (Lexer.comment { CurBuf := pre ++ '(' :: '*' :: rest, CurPtr := pre.length, Diags := D })
        Result := by
  have hs : Lexer.span (fun c => c != Char.ofNat 0 && charinfo.isWhitespace c)
      ('(' :: '*' :: rest) = 0 := Lexer.span_stop _ _ _ (by decide)
  have h1 : Lexer.charAt { CurBuf := pre ++ '(' :: '*' :: rest, CurPtr := pre.length, Diags := D }
      (pre.length + 1) = '*' := by
    simp only [Lexer.charAt, List.getD_eq_getElem?_getD]
    rw [List.getElem?_append_right (Nat.le_add_right _ _)]
    simp
  unfold Lexer.next
  rw [Lexer.nextFuel]
  simp only [Lexer.drop_at_cursor, hs, Nat.add_zero]
  simp only [Lexer.charAt_cursor pre ('*' :: rest) '(' D pre.length rfl, h1]
  have e1 : ('(' = Char.ofNat 0) = False := by decide
  have e2 : charinfo.isIdentifierHead '(' = false := by decide
  have e3 : charinfo.isDigit '(' = false := by decide
  simp only [e1, e2, e3, if_false, Bool.false_eq_true]
  simp

/-- C21 (fails on the code): a block comment whose closing `*)` is the end
of the input is reported as unterminated.  The loop of `Lexer::comment`
stops behind the `*)` with the level at zero, and the test after the loop is
`if (!*End)`, not a test of the level: it reports
`err_unterminated_block_comment` at the comment, and `next` returns
end-of-input.  The same comment followed by one whitespace character is not
reported. -/
theorem comment_closed_at_end_of_input_reported (pre body : List Char) (D : DiagnosticsEngine)
    (Result : Token) (w : Char)
    (hbody : ∀ c ∈ body, c ≠ '(' ∧ c ≠ '*' ∧ c ≠ Char.ofNat 0)
    (hw : charinfo.isWhitespace w = true) :
    Lexer.next { CurBuf := pre ++ '(' :: '*' :: (body ++ ['*', ')']), CurPtr := pre.length,
                 Diags := D } Result =
      some ({ CurBuf := pre ++ '(' :: '*' :: (body ++ ['*', ')']),
              CurPtr := pre.length + 2 + body.length + 2,
              Diags := D.report pre.length .err_unterminated_block_comment },
        { Result with Kind := .eof }) ∧
    Lexer.next { CurBuf := pre ++ '(' :: '*' :: (body ++ ['*', ')', w]), CurPtr := pre.length,
                 Diags := D } Result =
      some ({ CurBuf := pre ++ '(' :: '*' :: (body ++ ['*', ')', w]),
              CurPtr := pre.length + 2 + body.length + 2 + 1, Diags := D },
        { Result with Kind := .eof }) := by
  have hw0 : w ≠ Char.ofNat 0 := by
    intro h
    subst h
    revert hw
    decide
  have hdrop : ∀ rest : List Char,
      (pre ++ '(' :: '*' :: rest).drop (pre.length + 2) = rest := by
    intro rest
    rw [← List.drop_drop]
    simp
  constructor
  · rw [Lexer.next_comment]
    have hc : Lexer.comment (Lexer.mk (pre ++ '(' :: '*' :: (body ++ ['*', ')'])) pre.length D) =
        Lexer.mk (pre ++ '(' :: '*' :: (body ++ ['*', ')'])) (pre.length + 2 + body.length + 2)
          (D.report pre.length .err_unterminated_block_comment) := by
      unfold Lexer.comment
      simp only [hdrop, Lexer.commentLoop_body body _ 1 _ hbody (by decide)]
      simp [Lexer.commentLoop]
    rw [hc]
    simp only [List.length_append, List.length_cons, List.length_nil]
    rw [show pre.length + (body.length + (0 + 1 + 1) + 1 + 1) =
      (pre.length + (body.length + (0 + 1 + 1) + 1)) + 1 from rfl]
    rw [Lexer.nextFuel]
    have hd : (pre ++ '(' :: '*' :: (body ++ ['*', ')'])).drop
        (pre.length + 2 + body.length + 2) = [] := by
      apply List.drop_eq_nil_of_le
      simp
      omega
    have hcz : (pre ++ '(' :: '*' :: (body ++ ['*', ')'])).getD
        (pre.length + 2 + body.length + 2) (Char.ofNat 0) = Char.ofNat 0 := by
      rw [List.getD_eq_default]
      simp
      omega
    simp only [hd, Lexer.span, List.takeWhile_nil, List.length_nil, Nat.add_zero, Lexer.charAt,
      hcz, if_true]
  · rw [Lexer.next_comment]
    have hc : Lexer.comment (Lexer.mk (pre ++ '(' :: '*' :: (body ++ ['*', ')', w])) pre.length D) =
        Lexer.mk (pre ++ '(' :: '*' :: (body ++ ['*', ')', w])) (pre.length + 2 + body.length + 2)
          D := by
      unfold Lexer.comment
      simp only [hdrop, Lexer.commentLoop_body body _ 1 _ hbody (by decide)]
      simp [Lexer.commentLoop, hw0]
    rw [hc]
    simp only [List.length_append, List.length_cons, List.length_nil]
    rw [show pre.length + (body.length + (0 + 1 + 1 + 1) + 1 + 1) =
      (pre.length + (body.length + (0 + 1 + 1 + 1) + 1)) + 1 from rfl]
    rw [Lexer.nextFuel]
    have hd : (pre ++ '(' :: '*' :: (body ++ ['*', ')', w])).drop
        (pre.length + 2 + body.length + 2) = [w] := by
      have : pre ++ '(' :: '*' :: (body ++ ['*', ')', w]) =
          (pre ++ '(' :: '*' :: (body ++ ['*', ')'])) ++ [w] := by simp
      rw [this]
      have hl : (pre ++ '(' :: '*' :: (body ++ ['*', ')'])).length =
          pre.length + 2 + body.length + 2 := by
        simp
        omega
      rw [← hl, List.drop_left]
    have hcz : (pre ++ '(' :: '*' :: (body ++ ['*', ')', w])).getD
        (pre.length + 2 + body.length + 2 + 1) (Char.ofNat 0) = Char.ofNat 0 := by
      rw [List.getD_eq_default]
      simp
      omega
    have hsp : Lexer.span (fun c => c != Char.ofNat 0 && charinfo.isWhitespace c) [w] = 1 := by
      have : (w != Char.ofNat 0) = true := by simp [hw0]
      simp [Lexer.span, List.takeWhile, hw, this]
    simp only [hd, hsp, Lexer.charAt, hcz, if_true]

set_option maxRecDepth 100000 in
/-- Witness for C21: the buffers `(* c *)` and `(* c *)` followed by a
blank. -/
theorem comment_closed_at_end_of_input_reported_witness :
    Lexer.next (Lexer.mk "(* c *)".toList 0 (DiagnosticsEngine.mk 0 [])) (Token.mk 0 0 .unknown) =
      some (Lexer.mk "(* c *)".toList 7
        (DiagnosticsEngine.mk 1 [(0, .err_unterminated_block_comment)]), Token.mk 0 0 .eof) ∧
    Lexer.next (Lexer.mk "(* c *) ".toList 0 (DiagnosticsEngine.mk 0 [])) (Token.mk 0 0 .unknown) =
      some (Lexer.mk "(* c *) ".toList 8 (DiagnosticsEngine.mk 0 []), Token.mk 0 0 .eof) :=
  comment_closed_at_end_of_input_reported [] [' ', 'c', ' '] (DiagnosticsEngine.mk 0 [])
    (Token.mk 0 0 .unknown) ' ' (by decide) (by decide)

/-! ## Numbers -/

/-- A decimal digit is one of the ten characters `0` to `9`. -/
theorem charinfo.isDigit_cases (d : Char) (h : charinfo.isDigit d = true) :
    d ∈ ['0', '1', '2', '3', '4', '5', '6', '7', '8', '9'] := by
  simp only [charinfo.isDigit, charinfo.isASCII, Bool.and_eq_true, decide_eq_true_eq] at h
  obtain ⟨⟨_, h1⟩, h2⟩ := h
  have h1' : 48 ≤ d.toNat := h1
  have h2' : d.toNat ≤ 57 := h2
  have hd : d = Char.ofNat d.toNat := (Char.ofNat_toNat d).symm
  generalize d.toNat = n at h1' h2' hd
  subst hd
  interval_cases n <;> decide

/-- C22: at a decimal digit `d`, followed by the longest run `run` of
characters in `[0-9A-F]`, `Lexer::next` produces one `integer_literal` token
that starts at the digit.  When the character after the run is `H`, the
token covers digit, run and `H` and nothing is reported.  Otherwise it covers
digit and run, and `err_hex_digit_in_decimal` is reported once, at the
start of the number, exactly when the run holds a character that is no
decimal digit.  In both cases the cursor is left at the end of the token and
the other diagnostics are unchanged. -/
theorem number_token (pre run rest : List Char) (d : Char) (D : DiagnosticsEngine)
    (Result : Token) (hd : charinfo.isDigit d = true)
    (hrun : ∀ c ∈ run, charinfo.isHexDigit c = true)
    (hrest : ∀ c, rest.head? = some c → charinfo.isHexDigit c = false) :
    Lexer.next { CurBuf := pre ++ d :: (run ++ rest), CurPtr := pre.length, Diags := D } Result =
      some
        (if rest.head? = some 'H' then
          (Lexer.mk (pre ++ d :: (run ++ rest)) (pre.length + 1 + run.length + 1) D,
            Token.mk pre.length (run.length + 2) .integer_literal)
        else
          (Lexer.mk (pre ++ d :: (run ++ rest)) (pre.length + 1 + run.length)
              (if run.any (fun c => !charinfo.isDigit c) then
                D.report pre.length .err_hex_digit_in_decimal else D),
            Token.mk pre.length (run.length + 1) .integer_literal)) := by
  have hd0 : d ≠ Char.ofNat 0 ∧ charinfo.isWhitespace d = false ∧
      charinfo.isIdentifierHead d = false := by
    have := charinfo.isDigit_cases d hd
    simp only [List.mem_cons, List.mem_singleton, List.not_mem_nil, or_false] at this
    rcases this with h | h | h | h | h | h | h | h | h | h <;> subst h <;> decide
  obtain ⟨h0, hw, hi⟩ := hd0
  have hs : Lexer.span (fun c => c != Char.ofNat 0 && charinfo.isWhitespace c)
      (d :: (run ++ rest)) = 0 := Lexer.span_stop _ _ _ (by simp [hw])
  have hdrop : (pre ++ d :: (run ++ rest)).drop (pre.length + 1) = run ++ rest := by
    rw [← List.drop_drop]
    simp
  have hnz : ∀ c, charinfo.isHexDigit c = true → (c != Char.ofNat 0) = true := by
    intro c hc
    simp only [bne_iff_ne, ne_eq]
    intro h
    subst h
    revert hc
    decide
  have htw : (run ++ rest).takeWhile (fun c => c != Char.ofNat 0 && charinfo.isHexDigit c) =
      run := by
    rw [List.takeWhile_append_of_pos (fun c hc => by simp [hrun c hc, hnz c (hrun c hc)])]
    cases rest with
    | nil => simp
    | cons c rest =>
      have := hrest c rfl
      simp [List.takeWhile, this]
  have hend : Lexer.charAt (Lexer.mk (pre ++ d :: (run ++ rest)) pre.length D)
      (pre.length + 1 + run.length) = (rest.head?).getD (Char.ofNat 0) := by
    simp only [Lexer.charAt, List.getD_eq_getElem?_getD]
    have e : pre ++ d :: (run ++ rest) = (pre ++ d :: run) ++ rest := by simp
    have hl : (pre ++ d :: run).length = pre.length + 1 + run.length := by
      simp
      omega
    rw [e, ← hl, List.getElem?_append_right (Nat.le_refl _)]
    cases rest <;> simp
  unfold Lexer.next
  rw [Lexer.nextFuel]
  simp only [Lexer.drop_at_cursor, hs, Nat.add_zero]
  simp only [Lexer.charAt_cursor pre (run ++ rest) d D pre.length rfl]
  simp only [h0, hi, hd, if_false, if_true, Bool.false_eq_true]
  unfold Lexer.number
  simp only [hdrop, htw, hend]
  by_cases hH : rest.head? = some 'H'
  · simp only [hH, Option.getD_some, if_true, Lexer.formToken]
    congr 3
    omega
  · have hne : ¬ (rest.head?).getD (Char.ofNat 0) = 'H' := by
      intro h
      cases hr : rest.head? with
      | none => rw [hr] at h; revert h; decide
      | some c => rw [hr] at h; simp only [Option.getD_some] at h; exact hH (by rw [hr, h])
    simp only [hH, hne, if_false]
    split <;> simp only [Lexer.formToken] <;> congr 3 <;> omega

set_option maxRecDepth 100000 in
/-- Witness for C22: the numbers `12AFH`, `12AF` and `12` before a `;`. -/
theorem number_token_witness :
    Lexer.next (Lexer.mk "12AFH;".toList 0 (DiagnosticsEngine.mk 0 [])) (Token.mk 0 0 .unknown) =
      some (Lexer.mk "12AFH;".toList 5 (DiagnosticsEngine.mk 0 []),
        Token.mk 0 5 .integer_literal) ∧
    Lexer.next (Lexer.mk "12AF;".toList 0 (DiagnosticsEngine.mk 0 [])) (Token.mk 0 0 .unknown) =
      some (Lexer.mk "12AF;".toList 4
        (DiagnosticsEngine.mk 1 [(0, .err_hex_digit_in_decimal)]),
        Token.mk 0 4 .integer_literal) ∧
    Lexer.next (Lexer.mk "12;".toList 0 (DiagnosticsEngine.mk 0 [])) (Token.mk 0 0 .unknown) =
      some (Lexer.mk "12;".toList 2 (DiagnosticsEngine.mk 0 []),
        Token.mk 0 2 .integer_literal) :=
  ⟨number_token [] ['2', 'A', 'F'] ['H', ';'] '1' (DiagnosticsEngine.mk 0 [])
      (Token.mk 0 0 .unknown) (by decide) (by decide) (by decide),
    number_token [] ['2', 'A', 'F'] [';'] '1' (DiagnosticsEngine.mk 0 [])
      (Token.mk 0 0 .unknown) (by decide) (by decide) (by decide),
    number_token [] ['2'] [';'] '1' (DiagnosticsEngine.mk 0 [])
      (Token.mk 0 0 .unknown) (by decide) (by decide) (by decide)⟩

/-! ## The tokens of the selectors -/

theorem List.mem_of_lookup_some {α β : Type} [BEq α] (k : α) (v : β) :
    ∀ l : List (α × β), l.lookup k = some v → v ∈ l.map (fun p => p.2)
  | [], h => by simp at h
  | (a, b) :: l, h => by
    simp only [List.lookup] at h
    split at h
    · cases h
      simp
    · simp only [List.map_cons, List.mem_cons]
      exact Or.inr (List.mem_of_lookup_some k v l h)

/-- The kinds that `KeywordFilter::getKeyword` returns for an identifier are
keywords or `identifier`. -/
theorem getKeyword_not_selector (Name : List Char) :
    getKeyword Name .identifier ≠ .l_square ∧ getKeyword Name .identifier ≠ .r_square ∧
      getKeyword Name .identifier ≠ .caret := by
  unfold getKeyword
  cases h : keywordTable.lookup Name with
  | none => exact ⟨by decide, by decide, by decide⟩
  | some K =>
    have hm := List.mem_of_lookup_some Name K keywordTable h
    have : ∀ K ∈ keywordTable.map (fun p => p.2),
        K ≠ TokenKind.l_square ∧ K ≠ TokenKind.r_square ∧ K ≠ TokenKind.caret := by decide
    exact this K hm

theorem Lexer.nextFuel_not_selector : ∀ (fuel : Nat) (L L' : Lexer) (Result T : Token),
    Lexer.nextFuel fuel L Result = some (L', T) →
      T.Kind ≠ .l_square ∧ T.Kind ≠ .r_square ∧ T.Kind ≠ .caret
  | 0, L, L', Result, T, h => by simp [Lexer.nextFuel] at h
  | fuel + 1, L, L', Result, T, h => by
    rw [Lexer.nextFuel] at h
    generalize (Lexer.mk L.CurBuf (L.CurPtr + Lexer.span
      (fun c => c != Char.ofNat 0 && charinfo.isWhitespace c) (L.CurBuf.drop L.CurPtr))
      L.Diags) = L1 at h
    generalize hc : L1.charAt L1.CurPtr = c at h
    by_cases c0 : c = Char.ofNat 0
    · rw [if_pos c0] at h
      cases h; simp [Lexer.formToken, Lexer.string]
    rw [if_neg c0] at h
    by_cases c1 : charinfo.isIdentifierHead c = true
    · rw [if_pos c1] at h
      cases h; exact getKeyword_not_selector _
    rw [if_neg c1] at h
    by_cases c2 : charinfo.isDigit c = true
    · rw [if_pos c2] at h
      simp only [Lexer.number, Lexer.formToken] at h
      split at h
      · cases h; simp [Lexer.formToken, Lexer.string]
      · cases h; simp [Lexer.formToken, Lexer.string]
    rw [if_neg c2] at h
    by_cases c3 : c = '"' ∨ c = '\''
    · rw [if_pos c3] at h
      cases h; simp [Lexer.formToken, Lexer.string]
    rw [if_neg c3] at h
    by_cases p0 : c = '='
    · rw [if_pos p0] at h
      cases h; simp [Lexer.formToken, Lexer.string]
    rw [if_neg p0] at h
    by_cases p1 : c = '#'
    · rw [if_pos p1] at h
      cases h; simp [Lexer.formToken, Lexer.string]
    rw [if_neg p1] at h
    by_cases p2 : c = '+'
    · rw [if_pos p2] at h
      cases h; simp [Lexer.formToken, Lexer.string]
    rw [if_neg p2] at h
    by_cases p3 : c = '-'
    · rw [if_pos p3] at h
      cases h; simp [Lexer.formToken, Lexer.string]
    rw [if_neg p3] at h
    by_cases p4 : c = '*'
    · rw [if_pos p4] at h
      cases h; simp [Lexer.formToken, Lexer.string]
    rw [if_neg p4] at h
    by_cases p5 : c = '/'
    · rw [if_pos p5] at h
      cases h; simp [Lexer.formToken, Lexer.string]
    rw [if_neg p5] at h
    by_cases p6 : c = ','
    · rw [if_pos p6] at h
      cases h; simp [Lexer.formToken, Lexer.string]
    rw [if_neg p6] at h
    by_cases p7 : c = '.'
    · rw [if_pos p7] at h
      cases h; simp [Lexer.formToken, Lexer.string]
    rw [if_neg p7] at h
    by_cases p8 : c = ';'
    · rw [if_pos p8] at h
      cases h; simp [Lexer.formToken, Lexer.string]
    rw [if_neg p8] at h
    by_cases p9 : c = ')'
    · rw [if_pos p9] at h
      cases h; simp [Lexer.formToken, Lexer.string]
    rw [if_neg p9] at h
    by_cases q0 : c = '('
    · rw [if_pos q0] at h
      by_cases r : L1.charAt (L1.CurPtr + 1) = '*'
      · rw [if_pos r] at h
        exact Lexer.nextFuel_not_selector fuel _ _ _ _ h
      · rw [if_neg r] at h
        cases h; simp [Lexer.formToken, Lexer.string]
    rw [if_neg q0] at h
    by_cases q1 : c = ':'
    · rw [if_pos q1] at h
      by_cases r : L1.charAt (L1.CurPtr + 1) = '='
      · rw [if_pos r] at h
        cases h; simp [Lexer.formToken, Lexer.string]
      · rw [if_neg r] at h
        cases h; simp [Lexer.formToken, Lexer.string]
    rw [if_neg q1] at h
    by_cases q2 : c = '<'
    · rw [if_pos q2] at h
      by_cases r : L1.charAt (L1.CurPtr + 1) = '='
      · rw [if_pos r] at h
        cases h; simp [Lexer.formToken, Lexer.string]
      · rw [if_neg r] at h
        cases h; simp [Lexer.formToken, Lexer.string]
    rw [if_neg q2] at h
    by_cases q3 : c = '>'
    · rw [if_pos q3] at h
      by_cases r : L1.charAt (L1.CurPtr + 1) = '='
      · rw [if_pos r] at h
        cases h; simp [Lexer.formToken, Lexer.string]
      · rw [if_neg r] at h
        cases h; simp [Lexer.formToken, Lexer.string]
    rw [if_neg q3] at h
    cases h; simp [Lexer.formToken, Lexer.string]

/-- C23 (fails on the code): `Lexer::next` never produces one of the token
kinds `l_square`, `r_square` and `caret`, with which `parseSelectors`
recognises `[index]` and `^`: the switch of `next` has no case for `[`, `]`
and `^`.  At each of these characters the kind of the token is set to
`unknown` and the cursor is not moved. -/
theorem next_never_yields_selector_token (L L' : Lexer) (Result T : Token)
    (h : L.next Result = some (L', T)) :
    T.Kind ≠ .l_square ∧ T.Kind ≠ .r_square ∧ T.Kind ≠ .caret ∧
    ∀ (pre post : List Char) (c : Char), c ∈ ['[', ']', '^'] →
      L.CurBuf = pre ++ c :: post → L.CurPtr = pre.length →
        L' = L ∧ T = { Result with Kind := .unknown } := by
  obtain ⟨h1, h2, h3⟩ := Lexer.nextFuel_not_selector _ L L' Result T h
  refine ⟨h1, h2, h3, ?_⟩
  intro pre post c hc hbuf hptr
  have hd : Lexer.next (Lexer.mk (pre ++ c :: post) pre.length L.Diags) Result =
      some (Lexer.mk (pre ++ c :: post) pre.length L.Diags, { Result with Kind := .unknown }) := by
    simp only [List.mem_cons, List.mem_singleton, List.not_mem_nil, or_false] at hc
    rcases hc with e | e | e <;> subst e <;>
      exact Lexer.next_default pre post _ L.Diags Result (by decide) (by decide) (by decide)
        (by decide) (by decide)
  have hL : L = Lexer.mk (pre ++ c :: post) pre.length L.Diags := by
    rw [← hbuf, ← hptr]
  rw [hL] at h
  rw [hd] at h
  cases h
  exact ⟨hL.symm, rfl⟩

set_option maxRecDepth 100000 in
/-- Witness for C23: the text `a[1]^` after the identifier `a` has been
lexed.  The next token is `unknown` and the cursor stays at the `[`, so that
the tokens `integer_literal`, `r_square`, `caret` are never reached. -/
theorem next_never_yields_selector_token_witness :
    Lexer.next (Lexer.mk "a[1]^".toList 0 (DiagnosticsEngine.mk 0 [])) (Token.mk 0 0 .unknown) =
      some (Lexer.mk "a[1]^".toList 1 (DiagnosticsEngine.mk 0 []), Token.mk 0 1 .identifier) ∧
    Lexer.next (Lexer.mk "a[1]^".toList 1 (DiagnosticsEngine.mk 0 [])) (Token.mk 0 1 .identifier) =
      some (Lexer.mk "a[1]^".toList 1 (DiagnosticsEngine.mk 0 []), Token.mk 0 1 .unknown) ∧
    (Token.mk 0 1 TokenKind.unknown).Kind ≠ .l_square := by
  refine ⟨by decide!, by decide!, ?_⟩
  exact (next_never_yields_selector_token (Lexer.mk "a[1]^".toList 1 (DiagnosticsEngine.mk 0 []))
    (Lexer.mk "a[1]^".toList 1 (DiagnosticsEngine.mk 0 [])) (Token.mk 0 1 .identifier)
    (Token.mk 0 1 .unknown) (by decide!)).1

end tinylang

namespace tinylang

/-! ## DIV and MOD in `emitInfixExpr` -/

theorem CGState.addUse_frame (s : CGState) (v : Value) (u : Use) :
    (∀ j, ((s.addUse v u).insts j).map Instruction.withoutUses =
      (s.insts j).map Instruction.withoutUses) ∧
    (s.addUse v u).numInsts = s.numInsts ∧ (s.addUse v u).blockInsts = s.blockInsts ∧
    (s.addUse v u).numBlocks = s.numBlocks ∧ (s.addUse v u).Curr = s.Curr ∧
    (s.addUse v u).blockUses = s.blockUses := by
  unfold CGState.addUse
  split
  · split
    · next i x hx =>
      refine ⟨?_, rfl, rfl, rfl, rfl, rfl⟩
      intro j
      simp only [CGState.setInst]
      split
      · next h => subst h; simp [hx, Instruction.withoutUses]
      · rfl
    · exact ⟨fun _ => rfl, rfl, rfl, rfl, rfl, rfl⟩
  · exact ⟨fun _ => rfl, rfl, rfl, rfl, rfl, rfl⟩

theorem CGState.addUses_frame (user : InstId) : ∀ (vs : List Value) (s : CGState) (k : Nat),
    (∀ j, ((s.addUses user vs k).insts j).map Instruction.withoutUses =
      (s.insts j).map Instruction.withoutUses) ∧
    (s.addUses user vs k).numInsts = s.numInsts ∧
    (s.addUses user vs k).blockInsts = s.blockInsts ∧
    (s.addUses user vs k).numBlocks = s.numBlocks ∧ (s.addUses user vs k).Curr = s.Curr ∧
    (s.addUses user vs k).blockUses = s.blockUses := by
  intro vs
  induction vs with
  | nil => intro s k; exact ⟨fun _ => rfl, rfl, rfl, rfl, rfl, rfl⟩
  | cons v vs ih =>
    intro s k
    obtain ⟨a1, a2, a3, a4, a5, a6⟩ := ih (s.addUse v (user, k)) (k + 1)
    obtain ⟨b1, b2, b3, b4, b5, b6⟩ := s.addUse_frame v (user, k)
    exact ⟨fun j => (a1 j).trans (b1 j), a2.trans b2, a3.trans b3, a4.trans b4, a5.trans b5,
      a6.trans b6⟩

/-- C25 (as corrected): for `DIV` and `MOD`, `emitInfixExpr` calls
`CreateSDiv` / `CreateSRem` on the two operands and nothing else: the code
generator of tinylang has no zero check and no fault-raising path.  When the
folder of the builder does not fold the operation (the divisor is computed
at run time), exactly one instruction is created, the signed division or
remainder itself, appended to the current block: no comparison of the
divisor with zero, no branch and no further block.  All other instructions
are unchanged (up to their use lists), no block is created, no edge is added
and the current block stays the same. -/
theorem emitInfixOp_div_emits_no_zero_check (E : Env) (Op : OpKind) (Left Right : Value)
    (s : CGState) (hOp : Op = .kw_DIV ∨ Op = .kw_MOD)
    (hfold : E.fold (if Op = .kw_DIV then Opcode.SDiv else Opcode.SRem) [Left, Right] = none) :
    ∃ s', emitInfixOp E Op Left Right s = .ok (.inst s.numInsts) s' ∧
      s'.numInsts = s.numInsts + 1 ∧
      (s'.insts s.numInsts).map Instruction.withoutUses = some
        { op := if Op = .kw_DIV then Opcode.SDiv else Opcode.SRem, ty := s.typeOf Left,
          operands := [Left, Right], blocks := [], parent := s.Curr, uses := [] } ∧
      (∀ j, j ≠ s.numInsts →
        (s'.insts j).map Instruction.withoutUses = (s.insts j).map Instruction.withoutUses) ∧
      s'.blockInsts s.Curr = s.blockInsts s.Curr ++ [s.numInsts] ∧
      (∀ b, b ≠ s.Curr → s'.blockInsts b = s.blockInsts b) ∧
      s'.numBlocks = s.numBlocks ∧ s'.Curr = s.Curr ∧ s'.blockUses = s.blockUses := by
  have key : ∀ op : Opcode, (op = .SDiv ∨ op = .SRem) → E.fold op [Left, Right] = none →
      ∃ s', CreateBinOp E op Left Right s = .ok (.inst s.numInsts) s' ∧
        s'.numInsts = s.numInsts + 1 ∧
        (s'.insts s.numInsts).map Instruction.withoutUses = some
          { op := op, ty := s.typeOf Left,
            operands := [Left, Right], blocks := [], parent := s.Curr, uses := [] } ∧
        (∀ j, j ≠ s.numInsts →
          (s'.insts j).map Instruction.withoutUses = (s.insts j).map Instruction.withoutUses) ∧
        s'.blockInsts s.Curr = s.blockInsts s.Curr ++ [s.numInsts] ∧
        (∀ b, b ≠ s.Curr → s'.blockInsts b = s.blockInsts b) ∧
        s'.numBlocks = s.numBlocks ∧ s'.Curr = s.Curr ∧ s'.blockUses = s.blockUses := by
    intro op hop hf
    obtain ⟨a1, a2, a3, a4, a5, a6⟩ := CGState.addUses_frame s.numInsts [Left, Right]
      { s with
        insts := fun j => if j = s.numInsts then some
          { op := op, ty := s.typeOf Left, operands := [Left, Right], blocks := [],
            parent := s.Curr, uses := [] } else s.insts j
        numInsts := s.numInsts + 1
        blockInsts := fun b => if b = s.Curr then s.blockInsts b ++ [s.numInsts]
          else s.blockInsts b } 0
    refine ⟨_, ?_, a2, ?_, ?_, ?_, ?_, a4, a5, a6⟩
    · unfold CreateBinOp
      rw [hf]
      rcases hop with h | h <;> subst h <;> rfl
    · rw [a1]
      simp
      rfl
    · intro j hj
      rw [a1]
      simp [hj]
    · rw [a3]
      simp
    · intro b hb
      rw [a3]
      simp [hb]
  rcases hOp with h | h <;> subst h
  · simpa [emitInfixOp] using key .SDiv (Or.inl rfl) (by simpa using hfold)
  · simpa [emitInfixOp] using key .SRem (Or.inr rfl) (by simpa using hfold)

/-- Witness for C25: the division of the first parameter by the second in a
fresh function is instruction 0, and no block is created. -/
theorem emitInfixOp_div_emits_no_zero_check_witness :
    llvmEnv.fold Opcode.SDiv [.arg 0, .arg 1] = none ∧
    ∃ s', emitInfixOp llvmEnv .kw_DIV (.arg 0) (.arg 1) CGState.init = .ok (.inst 0) s' ∧
      s'.numInsts = 1 ∧ s'.numBlocks = 0 ∧ s'.blockUses = CGState.init.blockUses := by
  refine ⟨by decide, ?_⟩
  obtain ⟨s', h1, h2, _, _, _, _, h7, _, h9⟩ :=
    emitInfixOp_div_emits_no_zero_check llvmEnv .kw_DIV (.arg 0) (.arg 1) CGState.init
      (Or.inl rfl) (by decide)
  exact ⟨s', h1, h2, h7, h9⟩

set_option maxRecDepth 100000 in
/-- C25 (fails as stated): `PROCEDURE p(a, b : INTEGER) : INTEGER; BEGIN RETURN
a DIV b END p` and the same with `MOD`.  The divisor is a parameter, so it is
known at run time only; the whole function is one block with the division
(or remainder) and the return: no comparison, no branch (no edge has been
created), no second block. -/
theorem run_division_by_parameter_emits_no_zero_check :
    (run llvmEnv 20 Example.divParams).error? = none ∧
    (run llvmEnv 20 Example.divParams).state.numBlocks = 1 ∧
    (run llvmEnv 20 Example.divParams).state.numInsts = 2 ∧
    ((run llvmEnv 20 Example.divParams).state.insts 0).map (fun x => (x.op, x.operands)) =
      some (.SDiv, [.arg 0, .arg 1]) ∧
    ((run llvmEnv 20 Example.divParams).state.insts 1).map (fun x => (x.op, x.operands)) =
      some (.Ret, [.inst 0]) ∧
    (run llvmEnv 20 Example.divParams).state.trace = [Event.seal 0] ∧
    (run llvmEnv 20 Example.modParams).error? = none ∧
    (run llvmEnv 20 Example.modParams).state.numBlocks = 1 ∧
    (run llvmEnv 20 Example.modParams).state.numInsts = 2 ∧
    ((run llvmEnv 20 Example.modParams).state.insts 0).map (fun x => (x.op, x.operands)) =
      some (.SRem, [.arg 0, .arg 1]) ∧
    (run llvmEnv 20 Example.modParams).state.trace = [Event.seal 0] := by
  decide!

end tinylang

namespace Calc

/-! # calc: the parser -/

theorem Parser.skipToFollow_flags : ∀ (fuel : Nat) (P P' : Parser),
    Parser.skipToFollow fuel P = some P' →
      P'.HasError = P.HasError ∧ P'.Errs = P.Errs ∧
      P'.Tok.Kind ∈ [TokenKind.r_paren, .star, .plus, .minus, .slash, .rem, .exp, .eoi]
  | 0, P, P', h => by simp [Parser.skipToFollow] at h
  | fuel + 1, P, P', h => by
    rw [Parser.skipToFollow] at h
    split at h
    · next hk =>
      cases h
      exact ⟨rfl, rfl, hk⟩
    · exact Parser.skipToFollow_flags fuel P.advance P' h

theorem Parser.skipToFollow_stop (fuel : Nat) (P : Parser)
    (h : P.Tok.Kind ∈ [TokenKind.r_paren, .star, .plus, .minus, .slash, .rem, .exp, .eoi]) :
    Parser.skipToFollow (fuel + 1) P = some P := by
  rw [Parser.skipToFollow, if_pos h]

/-- `parseFactor` at a number or an identifier. -/
theorem Parser.parseFactor_token (pe : Parser → Option (Parser × Expr)) (fuel : Nat)
    (P P' : Parser) (hTok : P.Tok.Kind = .number ∨ P.Tok.Kind = .ident)
    (hSkip : Parser.skipToFollow fuel P.advance = some P') :
    Parser.parseFactor pe fuel P =
      some (P', .Factor (if P.Tok.Kind = .number then .Number else .Ident) P.Tok.Text) := by
  unfold Parser.parseFactor
  rcases hTok with h | h <;> simp [h, hSkip]

theorem Parser.parseTermLoop_stop (pe pt : Parser → Option (Parser × Expr)) (fuel n : Nat)
    (P : Parser) (Left : Expr)
    (h : P.Tok.Kind ∉ [TokenKind.star, .slash, .rem, .exp]) :
    Parser.parseTermLoop pe pt fuel (n + 1) P Left = some (P, Left) := by
  rw [Parser.parseTermLoop, if_neg h]

theorem Parser.parseExprLoop_stop (pt : Parser → Option (Parser × Expr)) (n : Nat)
    (P : Parser) (Left : Expr) (h : P.Tok.Kind ∉ [TokenKind.plus, .minus]) :
    Parser.parseExprLoop pt (n + 1) P Left = some (P, Left) := by
  rw [Parser.parseExprLoop, if_neg h]

/-- C30 (fails on the code): tokens are skipped without an error being
recorded.  When the lookahead is a number or an identifier, `parseFactor`
takes it as the factor and then discards every token up to the next `)`,
operator or end of input (`while (!Tok.isOneOf(...)) advance();`) without a
call of `error()`.  If the discarded tokens are followed by the end of the
input, `parse` returns the factor alone, `hasError()` is what it was before
(false after construction) and nothing has been printed: the input is not a
sentence of the grammar, at least one of its tokens has been dropped, and no
error is recorded. -/
theorem parse_skips_tokens_without_error (fuel : Nat) (P P' : Parser)
    (hTok : P.Tok.Kind = .number ∨ P.Tok.Kind = .ident)
    (hNext : P.advance.Tok.Kind ∉
      [TokenKind.r_paren, .star, .plus, .minus, .slash, .rem, .exp, .eoi])
    (hSkip : Parser.skipToFollow (fuel + 1) P.advance = some P')
    (hEnd : P'.Tok.Kind = .eoi) :
    Parser.parse (fuel + 1) P =
      some (P', .expr (.Factor (if P.Tok.Kind = .number then .Number else .Ident) P.Tok.Text)) ∧
    P'.HasError = P.HasError ∧ P'.Errs = P.Errs ∧ P' ≠ P.advance := by
  obtain ⟨f1, f2, _⟩ := Parser.skipToFollow_flags _ _ _ hSkip
  have hF := Parser.parseFactor_token (Parser.parseExpr fuel) (fuel + 1) P P' hTok hSkip
  have hT : Parser.parseTerm (Parser.parseExpr fuel) (fuel + 1) P =
      some (P', .Factor (if P.Tok.Kind = .number then .Number else .Ident) P.Tok.Text) := by
    rw [Parser.parseTerm, hF]
    exact Parser.parseTermLoop_stop _ _ _ _ _ _ (by rw [hEnd]; decide)
  have hE : Parser.parseExpr (fuel + 1) P =
      some (P', .Factor (if P.Tok.Kind = .number then .Number else .Ident) P.Tok.Text) := by
    rw [Parser.parseExpr, hT]
    exact Parser.parseExprLoop_stop _ _ _ _ (by rw [hEnd]; decide)
  have hW : P.Tok.Kind ≠ .KW_with := by
    rcases hTok with h | h <;> rw [h] <;> decide
  refine ⟨?_, f1, f2, ?_⟩
  · unfold Parser.parse Parser.parseCalc
    simp only [hW, if_false, hE, List.isEmpty_nil, if_true, Parser.expect, hEnd, ne_eq,
      not_true_eq_false]
  · intro h
    rw [h] at hEnd
    rw [hEnd] at hNext
    exact hNext (by decide)

set_option maxRecDepth 100000 in
/-- Witness for C30: the input `3 4`.  The second number is dropped, the tree
is the number 3 and `hasError()` is false. -/
theorem parse_skips_tokens_without_error_witness :
    Parser.create "3 4".toList =
      Parser.mk (Lexer.mk "3 4".toList 1) (Token.mk .number ['3']) false [] ∧
    Parser.parse (1 + 1) (Parser.create "3 4".toList) =
      some (Parser.mk (Lexer.mk "3 4".toList 3) (Token.mk .eoi ['4']) false [],
        .expr (.Factor .Number ['3'])) ∧
    Parser.parse (1 + 1) (Parser.create "3".toList) =
      some (Parser.mk (Lexer.mk "3".toList 1) (Token.mk .eoi ['3']) false [],
        .expr (.Factor .Number ['3'])) := by
  refine ⟨by decide!, ?_, by decide!⟩
  exact (parse_skips_tokens_without_error 1 (Parser.create "3 4".toList)
    (Parser.mk (Lexer.mk "3 4".toList 3) (Token.mk .eoi ['4']) false [])
    (by decide!) (by decide!) (by decide!) (by decide!)).1.trans (by decide!)

/-- `parseExpr` on `a + b * c`, for factors `a`, `b`, `c` as `parseFactor`
parses them (a number, an identifier or a parenthesised expression): the
product becomes the right operand of the sum. -/
theorem Parser.parseExpr_sum_of_product (fuel : Nat) (P P1 P2 P3 : Parser) (A B C : Expr)
    (hA : Parser.parseFactor (Parser.parseExpr (fuel + 1)) (fuel + 2) P = some (P1, A))
    (hPlus : P1.Tok.Kind = .plus)
    (hB : Parser.parseFactor (Parser.parseExpr (fuel + 1)) (fuel + 2) P1.advance = some (P2, B))
    (hStar : P2.Tok.Kind = .star)
    (hC : Parser.parseFactor (Parser.parseExpr (fuel + 1)) (fuel + 2) P2.advance = some (P3, C))
    (hEnd : P3.Tok.Kind ∉ [TokenKind.plus, .minus, .star, .slash, .rem, .exp]) :
    Parser.parseExpr (fuel + 2) P =
      some (P3, .BinaryOp .Plus A (.BinaryOp .Mul B C)) := by
  have hEnd1 : P3.Tok.Kind ∉ [TokenKind.star, .slash, .rem, .exp] := by
    intro h
    apply hEnd
    simp only [List.mem_cons, List.mem_singleton, List.not_mem_nil, or_false] at h ⊢
    tauto
  have hEnd2 : P3.Tok.Kind ∉ [TokenKind.plus, .minus] := by
    intro h
    apply hEnd
    simp only [List.mem_cons, List.mem_singleton, List.not_mem_nil, or_false] at h ⊢
    tauto
  have hT1 : Parser.parseTerm (Parser.parseExpr (fuel + 1)) (fuel + 2) P = some (P1, A) := by
    rw [Parser.parseTerm, hA]
    exact Parser.parseTermLoop_stop _ _ _ _ _ _ (by rw [hPlus]; decide)
  have hT2 : Parser.parseTerm (Parser.parseExpr (fuel + 1)) (fuel + 2) P1.advance =
      some (P3, .BinaryOp .Mul B C) := by
    rw [Parser.parseTerm, hB]
    show Parser.parseTermLoop _ _ _ (fuel + 1 + 1) P2 B = _
    rw [Parser.parseTermLoop]
    simp only [hStar, List.mem_cons, true_or, if_true]
    rw [if_neg (by decide), hC]
    exact Parser.parseTermLoop_stop _ _ _ _ _ _ hEnd1
  rw [Parser.parseExpr, hT1]
  show Parser.parseExprLoop _ (fuel + 1 + 1) P1 A = _
  rw [Parser.parseExprLoop]
  simp only [hPlus, List.mem_cons, true_or, if_true, hT2]
  exact Parser.parseExprLoop_stop _ _ _ _ hEnd2

end Calc

namespace Calc

/-! # calc: the code generator -/

@[simp] theorem G.pure_run {α : Type} (a : α) (s : ToIRVisitor) : (pure a : G α) s = (a, s) :=
  rfl

@[simp] theorem G.bind_run {α β : Type} (x : G α) (f : α → G β) (s : ToIRVisitor) :
    (x >>= f) s = f (x s).1 (x s).2 := rfl

@[simp] theorem G.get_run (s : ToIRVisitor) : G.get s = (s, s) := rfl

@[simp] theorem G.modify_run (f : ToIRVisitor → ToIRVisitor) (s : ToIRVisitor) :
    G.modify f s = ((), f s) := rfl

@[simp] theorem G.ite_run {α : Type} (c : Prop) [Decidable c] (x y : G α) (s : ToIRVisitor) :
    (if c then x else y) s = if c then x s else y s := by
  split <;> rfl

@[simp] theorem ConstantFolder_inst_left (op : Opcode) (i : InstId) (R : Value) :
    ConstantFolder op (.inst i) R = none := by
  cases R <;> rfl

@[simp] theorem ConstantFolder_inst_right (op : Opcode) (L : Value) (i : InstId) :
    ConstantFolder op L (.inst i) = none := by
  cases L <;> rfl

theorem List.modify_append_right {α : Type} (f : α → α) :
    ∀ (l₁ l₂ : List α) (k : Nat), (l₁ ++ l₂).modify f (l₁.length + k) = l₁ ++ l₂.modify f k
  | [], l₂, k => by simp
  | a :: l₁, l₂, k => by
    have h := List.modify_append_right f l₁ l₂ k
    simp only [List.cons_append, List.length_cons]
    rw [show l₁.length + 1 + k = (l₁.length + k) + 1 by omega, List.modify_succ_cons, h]

@[simp] theorem List.modify_append_length {α : Type} (f : α → α) (l₁ l₂ : List α) :
    (l₁ ++ l₂).modify f l₁.length = l₁ ++ l₂.modify f 0 := by
  simpa using List.modify_append_right f l₁ l₂ 0

/-- The code of `addLandingPad`. -/
theorem addLandingPad_apply (s : ToIRVisitor) :
    addLandingPad s = ((),
      { s with
        functions := s.functions ++
          [Function.mk "llvm.eh.typeid.for" (.int 32) [.ptr] false,
           Function.mk "__cxa_begin_catch" .ptr [.ptr] false,
           Function.mk "__cxa_end_catch" .void [] false,
           Function.mk "puts" (.int 32) [.ptr] false]
        globals := s.globals ++ ["msg"]
        blocks := s.blocks ++ ["match", "resume"]
        InsertBB := s.blocks.length
        insts := s.insts ++
          [Instruction.mk .LandingPad false .landingpad [s.TypeInfo] [] s.InsertBB,
           Instruction.mk (.ExtractValue 1) false (.int 32) [.inst s.insts.length] [] s.InsertBB,
           Instruction.mk .Call false (.int 32)
             [s.TypeInfo, .function "llvm.eh.typeid.for"] [] s.InsertBB,
           Instruction.mk (.ICmp .ICMP_EQ) false (.int 1)
             [.inst (s.insts.length + 1), .inst (s.insts.length + 2)] [] s.InsertBB,
           Instruction.mk .Br false .void [.inst (s.insts.length + 3)]
             [s.blocks.length, s.blocks.length + 1] s.InsertBB,
           Instruction.mk .Resume false .void [.inst s.insts.length] [] (s.blocks.length + 1),
           Instruction.mk (.ExtractValue 0) false .ptr [.inst s.insts.length] [] s.blocks.length,
           Instruction.mk .Call false .ptr
             [.inst (s.insts.length + 6), .function "__cxa_begin_catch"] [] s.blocks.length,
           Instruction.mk .Call false (.int 32) [.global "msg", .function "puts"] []
             s.blocks.length,
           Instruction.mk .Call false .void [.function "__cxa_end_catch"] [] s.blocks.length,
           Instruction.mk .Ret false .void [Int32Zero] [] s.blocks.length] }) := by
  simp [createICmpEq, BasicBlock.Create, CreateCmp, Insert, CreateCondBr,
      SetInsertPoint, CreateCall, CreateBitCast, addLandingPad, createFunc, Function.Create,
      GlobalVariable.Create, CreateLandingPad, addClause, addOperand, CreateExtractValue,
      CreateResume, CreateRet, Nat.add_assoc]

/-- The code of `addThrow` when the exception handling has been set up
before: the call of `__cxa_allocate_exception`, the store of the payload and
the invoke of `__cxa_throw`. -/
theorem addThrow_again (PayloadVal : Nat) (s : ToIRVisitor) (h : s.TypeInfo ≠ .nullptr) :
    addThrow PayloadVal s = ((),
      { s with
        insts := s.insts ++
          [Instruction.mk .Call false .ptr [.constInt 64 4, s.AllocEHFn] [] s.InsertBB,
           Instruction.mk .Store false .void [.constInt 32 PayloadVal, .inst s.insts.length] []
             s.InsertBB,
           Instruction.mk .Invoke false .void
             [.inst s.insts.length, s.TypeInfo, .ConstantPointerNull, s.ThrowEHFn]
             (s.UnreachableBB.toList ++ s.LPadBB.toList) s.InsertBB] }) := by
  simp [addThrow, h, CreateCall, CreateBitCast, CreateStore, CreateInvoke, Insert]

/-- The code of the first `addThrow`: the declarations, the landing pad with
its two successors, the `unreachable` block, and then the call, the store
and the invoke in the block where the builder was. -/
theorem addThrow_first (PayloadVal : Nat) (s : ToIRVisitor) (h : s.TypeInfo = .nullptr) :
    addThrow PayloadVal s = ((),
      { s with
        functions := s.functions ++
          [Function.mk "__cxa_allocate_exception" .ptr [.int 64] false,
           Function.mk "__cxa_throw" .void [.ptr, .ptr, .ptr] false,
           Function.mk "__gxx_personality_v0" (.int 32) [] true,
           Function.mk "llvm.eh.typeid.for" (.int 32) [.ptr] false,
           Function.mk "__cxa_begin_catch" .ptr [.ptr] false,
           Function.mk "__cxa_end_catch" .void [] false,
           Function.mk "puts" (.int 32) [.ptr] false]
        globals := s.globals ++ ["_ZTIi", "msg"]
        personality := .function "__gxx_personality_v0"
        blocks := s.blocks ++ ["lpad", "match", "resume", "unreachable"]
        TypeInfo := .global "_ZTIi"
        AllocEHFn := .function "__cxa_allocate_exception"
        ThrowEHFn := .function "__cxa_throw"
        LPadBB := some s.blocks.length
        UnreachableBB := some (s.blocks.length + 3)
        insts := s.insts ++
          [Instruction.mk .LandingPad false .landingpad [.global "_ZTIi"] [] s.blocks.length,
           Instruction.mk (.ExtractValue 1) false (.int 32) [.inst s.insts.length] []
             s.blocks.length,
           Instruction.mk .Call false (.int 32)
             [.global "_ZTIi", .function "llvm.eh.typeid.for"] [] s.blocks.length,
           Instruction.mk (.ICmp .ICMP_EQ) false (.int 1)
             [.inst (s.insts.length + 1), .inst (s.insts.length + 2)] [] s.blocks.length,
           Instruction.mk .Br false .void [.inst (s.insts.length + 3)]
             [s.blocks.length + 1, s.blocks.length + 2] s.blocks.length,
           Instruction.mk .Resume false .void [.inst s.insts.length] [] (s.blocks.length + 2),
           Instruction.mk (.ExtractValue 0) false .ptr [.inst s.insts.length] []
             (s.blocks.length + 1),
           Instruction.mk .Call false .ptr
             [.inst (s.insts.length + 6), .function "__cxa_begin_catch"] []
             (s.blocks.length + 1),
           Instruction.mk .Call false (.int 32) [.global "msg", .function "puts"] []
             (s.blocks.length + 1),
           Instruction.mk .Call false .void [.function "__cxa_end_catch"] []
             (s.blocks.length + 1),
           Instruction.mk .Ret false .void [Int32Zero] [] (s.blocks.length + 1),
           Instruction.mk .Unreachable false .void [] [] (s.blocks.length + 3),
           Instruction.mk .Call false .ptr
             [.constInt 64 4, .function "__cxa_allocate_exception"] [] s.InsertBB,
           Instruction.mk .Store false .void
             [.constInt 32 PayloadVal, .inst (s.insts.length + 12)] [] s.InsertBB,
           Instruction.mk .Invoke false .void
             [.inst (s.insts.length + 12), .global "_ZTIi", .ConstantPointerNull,
               .function "__cxa_throw"]
             [s.blocks.length + 3, s.blocks.length] s.InsertBB] }) := by
  simp [addThrow, h, CreateCall, CreateBitCast, CreateStore, CreateInvoke, Insert,
    addLandingPad_apply, createFunc, Function.Create, GlobalVariable.Create, GetInsertBlock,
    BasicBlock.Create, SetInsertPoint, CreateUnreachable, Nat.add_assoc]

/-- The code of `createICmpEq` when the comparison does not fold. -/
theorem createICmpEq_none (Left Right : Value) (TrueLabel FalseLabel : String)
    (s : ToIRVisitor) (h : ConstantFolder (.ICmp .ICMP_EQ) Left Right = none) :
    createICmpEq Left Right TrueLabel FalseLabel s = ((s.blocks.length, s.blocks.length + 1),
      { s with
        blocks := s.blocks ++ [TrueLabel, FalseLabel]
        insts := s.insts ++
          [Instruction.mk (.ICmp .ICMP_EQ) false (.int 1) [Left, Right] [] s.InsertBB,
           Instruction.mk .Br false .void [.inst s.insts.length]
             [s.blocks.length, s.blocks.length + 1] s.InsertBB] }) := by
  simp [createICmpEq, BasicBlock.Create, CreateCmp, h, Insert, CreateCondBr]

/-- The code of `createICmpEq` when the comparison folds to the constant
`Cmp`: the branch alone. -/
theorem createICmpEq_some (Left Right : Value) (TrueLabel FalseLabel : String)
    (s : ToIRVisitor) (Cmp : Value) (h : ConstantFolder (.ICmp .ICMP_EQ) Left Right = some Cmp) :
    createICmpEq Left Right TrueLabel FalseLabel s = ((s.blocks.length, s.blocks.length + 1),
      { s with
        blocks := s.blocks ++ [TrueLabel, FalseLabel]
        insts := s.insts ++
          [Instruction.mk .Br false .void [Cmp]
             [s.blocks.length, s.blocks.length + 1] s.InsertBB] }) := by
  simp [createICmpEq, BasicBlock.Create, CreateCmp, h, Insert, CreateCondBr]

/-! ## Division and remainder -/

set_option maxHeartbeats 4000000 in
/-- The code of `visit(BinaryOp &)` for `/` and `%`, after the operands. -/
theorem visitBinaryOp_divRem (Op : Operator) (Left Right : Value)
    (s : ToIRVisitor) (hB : s.InsertBB < s.blocks.length) (hOp : Op = .Div ∨ Op = .Rem) :
    ((visitBinaryOp Op Left Right s).2.insts =
      s.insts ++ (visitBinaryOp Op Left Right s).2.insts.drop s.insts.length) ∧
    (visitBinaryOp Op Left Right s).2.blocks =
      s.blocks ++ (if Op = .Div then ["divbyzero", "notzero"] else ["rembyzero", "remnotzero"]) ++
        (if s.TypeInfo = .nullptr then ["lpad", "match", "resume", "unreachable"] else []) ∧
    (visitBinaryOp Op Left Right s).2.InsertBB = s.blocks.length + 1 ∧
    ((visitBinaryOp Op Left Right s).2.insts.drop s.insts.length).filter
        (fun x => x.parent = s.InsertBB) =
      (match ConstantFolder (.ICmp .ICMP_EQ) Right Int32Zero with
      | none =>
        [Instruction.mk (.ICmp .ICMP_EQ) false (.int 1) [Right, Int32Zero] [] s.InsertBB,
         Instruction.mk .Br false .void [.inst s.insts.length]
           [s.blocks.length, s.blocks.length + 1] s.InsertBB]
      | some Cmp =>
        [Instruction.mk .Br false .void [Cmp]
           [s.blocks.length, s.blocks.length + 1] s.InsertBB]) ∧
    ((visitBinaryOp Op Left Right s).2.insts.drop s.insts.length).filter
        (fun x => x.parent = s.blocks.length) =
      [Instruction.mk .Call false .ptr
         [.constInt 64 4, (visitBinaryOp Op Left Right s).2.AllocEHFn] []
         s.blocks.length,
       Instruction.mk .Store false .void
         [.constInt 32 42, .inst (s.insts.length +
           (match ConstantFolder (.ICmp .ICMP_EQ) Right Int32Zero with | none => 2 | some _ => 1)
           + (if s.TypeInfo = .nullptr then 12 else 0))] [] s.blocks.length,
       Instruction.mk .Invoke false .void
         [.inst (s.insts.length +
           (match ConstantFolder (.ICmp .ICMP_EQ) Right Int32Zero with | none => 2 | some _ => 1)
           + (if s.TypeInfo = .nullptr then 12 else 0)),
          (visitBinaryOp Op Left Right s).2.TypeInfo, .ConstantPointerNull,
          (visitBinaryOp Op Left Right s).2.ThrowEHFn]
         ((visitBinaryOp Op Left Right s).2.UnreachableBB.toList ++
           (visitBinaryOp Op Left Right s).2.LPadBB.toList) s.blocks.length] ∧
    (((visitBinaryOp Op Left Right s).2.insts.drop s.insts.length).filter
        (fun x => x.parent = s.blocks.length + 1)).map
          (fun x => (x.op, x.nsw, x.operands, x.blocks)) =
      (match ConstantFolder (if Op = .Div then .SDiv else .SRem) Left Right with
      | none => [(if Op = .Div then .SDiv else .SRem, false, [Left, Right], [])]
      | some _ => []) ∧
    (∀ x ∈ (visitBinaryOp Op Left Right s).2.insts.drop s.insts.length,
      x.op = .SDiv ∨ x.op = .SRem → x.parent = s.blocks.length + 1) ∧
    (visitBinaryOp Op Left Right s).1 =
      (match ConstantFolder (if Op = .Div then .SDiv else .SRem) Left Right with
      | none => .inst ((visitBinaryOp Op Left Right s).2.insts.length - 1)
      | some v => v) := by
  have hB1 : s.InsertBB ≠ s.blocks.length := Nat.ne_of_lt hB
  have hB2 : ∀ k, s.InsertBB ≠ s.blocks.length + k :=
    fun k => Nat.ne_of_lt (Nat.lt_of_lt_of_le hB (Nat.le_add_right _ _))
  have hB3 : s.blocks.length ≠ s.InsertBB := Nat.ne_of_gt hB
  have hB4 : ∀ k, s.blocks.length + k ≠ s.InsertBB :=
    fun k => Nat.ne_of_gt (Nat.lt_of_lt_of_le hB (Nat.le_add_right _ _))
  rcases hOp with h | h <;> subst h <;>
  by_cases hT : s.TypeInfo = .nullptr <;>
  cases hc : ConstantFolder (.ICmp .ICMP_EQ) Right Int32Zero <;>
  cases hd : ConstantFolder .SDiv Left Right <;>
  cases hr : ConstantFolder .SRem Left Right <;>
  simp [visitBinaryOp, createICmpEq_none, createICmpEq_some, hc, addThrow_first,
    addThrow_again, hT, SetInsertPoint, CreateSDiv, CreateSRem, CreateBinOp, hd, hr, Insert,
    hB1, hB2, hB3, hB4, Nat.add_assoc]

/-- C24 (as corrected): what `visit(BinaryOp &)` emits for `/` and `%`, after
the operands have been visited (`Left` is `V` after the left operand, `Right`
is `V` after the right one).  Two blocks are created, one for a zero divisor
and one for the division.  In the block where the builder was, a conditional
branch to them is emitted on the comparison of `Right` with zero: the
comparison is an `icmp eq` instruction in front of the branch when `Right`
is not a constant, and the constant that the folder of the builder returns
when it is one (as for `x / 0`, where no comparison is emitted and the
branch is on `true`).  The block taken on equality holds the call of
`__cxa_allocate_exception`, the store of the payload 42 and the invoke of
`__cxa_throw`, and nothing else.  The block taken on inequality holds the
`sdiv` or `srem` of `Left` and `Right`, which is the new `V`, unless both are
constants and the folder folds it; no other block receives a division.  The
builder is left in the block taken on inequality. -/
theorem visit_division_checks_divisor (Op : Operator) (L R : Expr) (s s1 s2 : ToIRVisitor)
    (hOp : Op = .Div ∨ Op = .Rem)
    (hL : visit L s = some s1) (hR : visit R s1 = some s2)
    (hB : s2.InsertBB < s2.blocks.length) :
    ∃ s' new, visit (.BinaryOp Op L R) s = some s' ∧ s'.insts = s2.insts ++ new ∧
      (∃ more, s'.blocks = s2.blocks ++
        (if Op = .Div then ["divbyzero", "notzero"] else ["rembyzero", "remnotzero"]) ++ more) ∧
      s'.InsertBB = s2.blocks.length + 1 ∧
      new.filter (fun x => x.parent = s2.InsertBB) =
        (match ConstantFolder (.ICmp .ICMP_EQ) s2.V Int32Zero with
        | none =>
          [Instruction.mk (.ICmp .ICMP_EQ) false (.int 1) [s2.V, Int32Zero] [] s2.InsertBB,
           Instruction.mk .Br false .void [.inst s2.insts.length]
             [s2.blocks.length, s2.blocks.length + 1] s2.InsertBB]
        | some Cmp =>
          [Instruction.mk .Br false .void [Cmp]
             [s2.blocks.length, s2.blocks.length + 1] s2.InsertBB]) ∧
      (∃ EH, new.filter (fun x => x.parent = s2.blocks.length) =
        [Instruction.mk .Call false .ptr [.constInt 64 4, s'.AllocEHFn] [] s2.blocks.length,
         Instruction.mk .Store false .void [.constInt 32 42, .inst EH] [] s2.blocks.length,
         Instruction.mk .Invoke false .void
           [.inst EH, s'.TypeInfo, .ConstantPointerNull, s'.ThrowEHFn]
           (s'.UnreachableBB.toList ++ s'.LPadBB.toList) s2.blocks.length]) ∧
      (new.filter (fun x => x.parent = s2.blocks.length + 1)).map
          (fun x => (x.op, x.nsw, x.operands, x.blocks)) =
        (match ConstantFolder (if Op = .Div then .SDiv else .SRem) s1.V s2.V with
        | none => [(if Op = .Div then .SDiv else .SRem, false, [s1.V, s2.V], [])]
        | some _ => []) ∧
      (∀ x ∈ new, x.op = .SDiv ∨ x.op = .SRem → x.parent = s2.blocks.length + 1) ∧
      s'.V = (match ConstantFolder (if Op = .Div then .SDiv else .SRem) s1.V s2.V with
        | none => .inst (s'.insts.length - 1)
        | some v => v) := by
  obtain ⟨a1, a2, a3, a4, a5, a6, a7, a8⟩ := visitBinaryOp_divRem Op s1.V s2.V s2 hB hOp
  exact ⟨{ (visitBinaryOp Op s1.V s2.V s2).2 with V := (visitBinaryOp Op s1.V s2.V s2).1 },
    ((visitBinaryOp Op s1.V s2.V s2).2.insts.drop s2.insts.length),
    by simp only [visit, hL, hR], a1, ⟨_, a2⟩, a3, a4, ⟨_, a5⟩, a6, a7, a8⟩

end Calc

namespace Calc

/-! ## The builder calls, applied to a state -/

@[simp] theorem Insert_apply (op : Opcode) (nsw : Bool) (ty : Ty) (operands : List Value)
    (blocks : List BlockId) (s : ToIRVisitor) :
    Insert op nsw ty operands blocks s = (.inst s.insts.length,
      { s with insts := s.insts ++ [Instruction.mk op nsw ty operands blocks s.InsertBB] }) := rfl

@[simp] theorem BasicBlock.Create_block (Name : String) (s : ToIRVisitor) :
    BasicBlock.Create Name s = (s.blocks.length, { s with blocks := s.blocks ++ [Name] }) := rfl

@[simp] theorem SetInsertPoint_apply (BB : BlockId) (s : ToIRVisitor) :
    SetInsertPoint BB s = ((), { s with InsertBB := BB }) := rfl

@[simp] theorem GetInsertBlock_apply (s : ToIRVisitor) : GetInsertBlock s = (s.InsertBB, s) := rfl

@[simp] theorem Function.Create_function (N : String) (Result : Ty) (Params : List Ty)
    (IsVarArgs : Bool) (s : ToIRVisitor) :
    Function.Create N Result Params IsVarArgs s = (.function N,
      { s with functions := s.functions ++ [Function.mk N Result Params IsVarArgs] }) := rfl

@[simp] theorem GlobalVariable.Create_global (Name : String) (s : ToIRVisitor) :
    GlobalVariable.Create Name s = (.global Name, { s with globals := s.globals ++ [Name] }) :=
  rfl

@[simp] theorem ToIRVisitor.typeOf_eq (s : ToIRVisitor) (v : Value) :
    s.typeOf v = v.getType s.insts := rfl

@[simp] theorem List.modify_append_add {α : Type} (f : α → α) (l₁ l₂ : List α) (k : Nat) :
    (l₁ ++ l₂).modify f (l₁.length + k) = l₁ ++ l₂.modify f k :=
  List.modify_append_right f l₁ l₂ k

@[simp] theorem List.getElem?_append_add {α : Type} (l₁ l₂ : List α) (k : Nat) :
    (l₁ ++ l₂)[l₁.length + k]? = l₂[k]? := by
  rw [List.getElem?_append_right (Nat.le_add_right _ _)]
  simp

@[simp] theorem List.getElem?_append_length {α : Type} (l₁ l₂ : List α) :
    (l₁ ++ l₂)[l₁.length]? = l₂[0]? := by
  simpa using List.getElem?_append_add l₁ l₂ 0

/-- The type of a value that exists in a function is its type in every
extension of the function. -/
theorem Value.getType_append (v : Value) (l l' : List Instruction)
    (h : ∀ i, v = .inst i → i < l.length) : v.getType (l ++ l') = v.getType l := by
  cases v <;> simp [Value.getType]
  next i => rw [List.getElem?_append_left (h i rfl)]

theorem CreateBinOp_none (op : Opcode) (nsw : Bool) (L R : Value) (s : ToIRVisitor)
    (h : ConstantFolder op L R = none) :
    CreateBinOp op nsw L R s = Insert op nsw (s.typeOf L) [L, R] [] s := by
  simp [CreateBinOp, h]

theorem CreateBinOp_some (op : Opcode) (nsw : Bool) (L R V : Value) (s : ToIRVisitor)
    (h : ConstantFolder op L R = some V) :
    CreateBinOp op nsw L R s = (V, s) := by
  simp [CreateBinOp, h]

theorem CreateCmp_none (P : Pred) (L R : Value) (s : ToIRVisitor)
    (h : ConstantFolder (.ICmp P) L R = none) :
    CreateCmp P L R s = Insert (.ICmp P) false (.int 1) [L, R] [] s := by
  simp [CreateCmp, h]

theorem CreateCmp_some (P : Pred) (L R V : Value) (s : ToIRVisitor)
    (h : ConstantFolder (.ICmp P) L R = some V) :
    CreateCmp P L R s = (V, s) := by
  simp [CreateCmp, h]

/-! ## Code without exception handling -/

theorem Grows.growsRefl (s : ToIRVisitor) : Grows s s :=
  ⟨⟨[], by simp, by simp⟩, rfl, rfl, rfl, rfl, rfl, rfl, rfl⟩

theorem Grows.growsTrans {s t u : ToIRVisitor} (h1 : Grows s t) (h2 : Grows t u) : Grows s u := by
  obtain ⟨⟨n1, e1, p1⟩, a2, a3, a4, a5, a6, a7, a8⟩ := h1
  obtain ⟨⟨n2, e2, p2⟩, b2, b3, b4, b5, b6, b7, b8⟩ := h2
  refine ⟨⟨n1 ++ n2, by rw [e2, e1, List.append_assoc], ?_⟩, b2.trans a2,
    b3.trans a3, b4.trans a4, b5.trans a5, b6.trans a6, b7.trans a7, b8.trans a8⟩
  intro x hx
  rcases List.mem_append.1 hx with h | h
  · exact p1 x h
  · exact p2 x h

/-- A state that differs from `s` in new instructions without exception
handling, in the blocks, the insertion point and `V` only. -/
theorem Grows.of_insts (s s' : ToIRVisitor) (new : List Instruction)
    (hi : s'.insts = s.insts ++ new)
    (hn : ∀ x ∈ new, x.op ≠ .Invoke ∧ x.op ≠ .LandingPad ∧ x.op ≠ .Unreachable)
    (hf : s'.functions = s.functions) (h3 : s'.TypeInfo = s.TypeInfo)
    (h4 : s'.AllocEHFn = s.AllocEHFn) (h5 : s'.ThrowEHFn = s.ThrowEHFn)
    (h6 : s'.LPadBB = s.LPadBB) (h7 : s'.UnreachableBB = s.UnreachableBB)
    (h8 : s'.nameMap = s.nameMap) : Grows s s' :=
  ⟨⟨new, hi, hn⟩, hf, h3, h4, h5, h6, h7, h8⟩

theorem grows_CreateBinOp (op : Opcode) (nsw : Bool) (L R : Value) (s : ToIRVisitor)
    (hop : op ≠ .Invoke ∧ op ≠ .LandingPad ∧ op ≠ .Unreachable) :
    Grows s (CreateBinOp op nsw L R s).2 := by
  cases h : ConstantFolder op L R with
  | some V => rw [CreateBinOp_some _ _ _ _ _ _ h]; exact Grows.growsRefl s
  | none =>
    rw [CreateBinOp_none _ _ _ _ _ h]
    exact Grows.of_insts _ _ [_] rfl (by simpa using hop) rfl rfl rfl rfl rfl rfl rfl

theorem grows_mulLoop : ∀ (n : Nat) (result base : Value) (s : ToIRVisitor),
    Grows s (mulLoop n result base s).2
  | 0, _, _, s => Grows.growsRefl s
  | n + 1, result, base, s => by
    have h1 := grows_CreateBinOp .Mul true result base s (by decide)
    have h2 := grows_mulLoop n (CreateBinOp .Mul true result base s).1 base
      (CreateBinOp .Mul true result base s).2
    exact h1.growsTrans h2

end Calc

namespace Calc

/-! ## The code of `generateExponent` -/

@[simp] theorem Value.getType_inst_append_add (l₁ l₂ : List Instruction) (k : Nat) :
    (Value.inst (l₁.length + k)).getType (l₁ ++ l₂) = (Value.inst k).getType l₂ := by
  simp [Value.getType]

@[simp] theorem Value.getType_inst_append_length (l₁ l₂ : List Instruction) :
    (Value.inst l₁.length).getType (l₁ ++ l₂) = (Value.inst 0).getType l₂ := by
  simp [Value.getType]

@[simp] theorem Value.getType_inst_zero_cons (x : Instruction) (l : List Instruction) :
    (Value.inst 0).getType (x :: l) = x.ty := by
  simp [Value.getType]

@[simp] theorem Value.getType_inst_succ_cons (x : Instruction) (l : List Instruction) (k : Nat) :
    (Value.inst (k + 1)).getType (x :: l) = (Value.inst k).getType l := by
  simp [Value.getType]

/-- A constant exponent of ten or more: a counter cell, and the loop. -/
theorem generateExponent_const_loop (base : Value) (bits k : Nat) (s : ToIRVisitor)
    (hk : 10 ≤ k) (hbase : ∀ i, base = .inst i → i < s.insts.length) :
    generateExponent base (.constInt bits k) s = (.inst (s.insts.length + 4),
      { s with
        blocks := s.blocks ++ ["exp.loop", "exp.exit"]
        insts := s.insts ++ ([Instruction.mk .Alloca false .ptr [] [] s.InsertBB,
          Instruction.mk .Store false .void [.constInt bits k, .inst s.insts.length] [] s.InsertBB,
          Instruction.mk .Br false .void [] [s.blocks.length] s.InsertBB] ++
          expLoop (s.insts.length + 3) (base.getType s.insts) base s.insts.length s.InsertBB
            s.blocks.length (s.blocks.length + 1))
        InsertBB := s.blocks.length + 1 }) := by
  have h0 : k ≠ 0 := by omega
  have h1 : ¬ k < 10 := by omega
  have ht : ∀ l, base.getType (s.insts ++ l) = base.getType s.insts :=
    fun l => Value.getType_append base s.insts l hbase
  simp [generateExponent, h0, h1, CreateAlloca, CreateStore, CreateBr, CreatePHI, addIncoming,
    addOperand, CreateNSWMul, CreateBinOp_none, CreateLoad, CreateSub, CreateCmp_none,
    CreateCondBr, Nat.add_assoc, expLoop, ht]

/-- An exponent known at run time only: the comparison with zero, the block
of the result one, the counter cell, the loop, and the phi of the result. -/
theorem generateExponent_inst (base : Value) (e : InstId) (s : ToIRVisitor)
    (hbase : ∀ i, base = .inst i → i < s.insts.length) :
    generateExponent base (.inst e) s = (.inst (s.insts.length + 13),
      { s with
        blocks := s.blocks ++ ["exp.loop", "exp.exit", "", ""]
        insts := s.insts ++ ([
          Instruction.mk (.ICmp .ICMP_EQ) false (.int 1) [.inst e, .constInt 32 0] [] s.InsertBB,
          Instruction.mk .Br false .void [.inst s.insts.length]
            [s.blocks.length + 2, s.blocks.length + 3] s.InsertBB,
          Instruction.mk .Br false .void [] [s.blocks.length + 1] (s.blocks.length + 2),
          Instruction.mk .Alloca false .ptr [] [] (s.blocks.length + 3),
          Instruction.mk .Store false .void [.inst e, .inst (s.insts.length + 3)] []
            (s.blocks.length + 3),
          Instruction.mk .Br false .void [] [s.blocks.length] (s.blocks.length + 3)] ++
          expLoop (s.insts.length + 6) (base.getType s.insts) base (s.insts.length + 3)
            (s.blocks.length + 3) s.blocks.length (s.blocks.length + 1) ++
          [Instruction.mk .PHI false (base.getType s.insts)
            [.constInt (match base.getType s.insts with | .int b => b | _ => 32) 1,
              .inst (s.insts.length + 7)] [s.blocks.length + 2, s.blocks.length]
            (s.blocks.length + 1)])
        InsertBB := s.blocks.length + 1 }) := by
  have ht : ∀ l, base.getType (s.insts ++ l) = base.getType s.insts :=
    fun l => Value.getType_append base s.insts l hbase
  rw [generateExponent]
  · simp [createICmpEq_none, Int32Zero, ConstantFolder, CreateAlloca, CreateStore, CreateBr,
      CreatePHI, addIncoming, addOperand, CreateNSWMul, CreateBinOp_none, CreateLoad, CreateSub,
      CreateCmp_none, CreateCondBr, Nat.add_assoc, expLoop, ht]
    all_goals (cases base.getType s.insts <;> rfl)
  · intro _ _ h; cases h

/-! ## `generateExponent` adds no exception handling -/

theorem grows_generateExponent_small (base : Value) (bits k : Nat) (s : ToIRVisitor)
    (h1 : k < 10) : Grows s (generateExponent base (.constInt bits k) s).2 := by
  have hk : k = 0 ∨ k = 1 ∨ k = 2 ∨ k = 3 ∨ k = 4 ∨ k = 5 ∨ k = 6 ∨ k = 7 ∨ k = 8 ∨ k = 9 := by
    omega
  rcases hk with h | h | h | h | h | h | h | h | h | h <;> subst h <;>
    simp only [generateExponent, G.bind_run, G.pure_run, CreateNSWMul] <;>
    simp only [Nat.reduceLT, Nat.reduceEqDiff, if_true, if_false, OfNat.ofNat_ne_zero,
      Nat.reduceSub, ite_true, ite_false, reduceIte, G.bind_run, G.pure_run]
  · exact Grows.growsRefl s
  · exact Grows.growsRefl s
  · exact grows_CreateBinOp _ _ _ _ _ (by decide)
  · exact (grows_CreateBinOp _ _ _ _ _ (by decide)).growsTrans
      (grows_CreateBinOp _ _ _ _ _ (by decide))
  · exact (grows_CreateBinOp _ _ _ _ _ (by decide)).growsTrans
      (grows_CreateBinOp _ _ _ _ _ (by decide))
  · exact ((grows_CreateBinOp _ _ _ _ _ (by decide)).growsTrans
      (grows_CreateBinOp _ _ _ _ _ (by decide))).growsTrans
      (grows_CreateBinOp _ _ _ _ _ (by decide))
  all_goals exact grows_mulLoop _ _ _ _

set_option maxHeartbeats 2000000 in
theorem grows_generateExponent_loop (base : Value) (bits k : Nat) (s : ToIRVisitor)
    (h1 : ¬ k < 10) : Grows s (generateExponent base (.constInt bits k) s).2 := by
  have key : ∀ X, generateExponent base (.constInt bits k) s = X → Grows s X.2 := by
    intro X hX
    have h0 : k ≠ 0 := by omega
    simp [generateExponent, h0, h1, CreateAlloca, CreateStore, CreateBr, CreatePHI,
      addIncoming, addOperand, CreateNSWMul, CreateBinOp_none, CreateLoad, CreateSub,
      CreateCmp_none, CreateCondBr, Nat.add_assoc] at hX
    subst hX
    exact Grows.of_insts _ _ _ rfl (by simp) rfl rfl rfl rfl rfl rfl rfl
  exact key _ rfl

set_option maxHeartbeats 2000000 in
theorem grows_generateExponent_none (base exponent : Value) (s : ToIRVisitor)
    (hne : ∀ bits k, exponent = .constInt bits k → False)
    (hf : ConstantFolder (.ICmp .ICMP_EQ) exponent Int32Zero = none) :
    Grows s (generateExponent base exponent s).2 := by
  have key : ∀ X, generateExponent base exponent s = X → Grows s X.2 := by
    intro X hX
    rw [generateExponent] at hX
    · simp [createICmpEq_none _ _ _ _ _ hf, CreateAlloca, CreateStore, CreateBr,
        CreatePHI, addIncoming, addOperand, CreateNSWMul, CreateBinOp_none, CreateLoad,
        CreateSub, CreateCmp_none, CreateCondBr, Nat.add_assoc] at hX
      subst hX
      exact Grows.of_insts _ _ _ rfl (by simp) rfl rfl rfl rfl rfl rfl rfl
    · exact hne
  exact key _ rfl

set_option maxHeartbeats 2000000 in
theorem grows_generateExponent_some (base exponent Cmp : Value) (s : ToIRVisitor)
    (hne : ∀ bits k, exponent = .constInt bits k → False)
    (hf : ConstantFolder (.ICmp .ICMP_EQ) exponent Int32Zero = some Cmp) :
    Grows s (generateExponent base exponent s).2 := by
  have key : ∀ X, generateExponent base exponent s = X → Grows s X.2 := by
    intro X hX
    rw [generateExponent] at hX
    · simp [createICmpEq_some _ _ _ _ _ _ hf, CreateAlloca, CreateStore, CreateBr,
        CreatePHI, addIncoming, addOperand, CreateNSWMul, CreateBinOp_none, CreateLoad,
        CreateSub, CreateCmp_none, CreateCondBr, Nat.add_assoc] at hX
      subst hX
      exact Grows.of_insts _ _ _ rfl (by simp) rfl rfl rfl rfl rfl rfl rfl
    · exact hne
  exact key _ rfl

theorem grows_generateExponent (base exponent : Value) (s : ToIRVisitor) :
    Grows s (generateExponent base exponent s).2 := by
  by_cases hc : ∃ bits k, exponent = .constInt bits k
  · obtain ⟨bits, k, rfl⟩ := hc
    by_cases h1 : k < 10
    · exact grows_generateExponent_small base bits k s h1
    · exact grows_generateExponent_loop base bits k s h1
  · have hne : ∀ bits k, exponent = .constInt bits k → False := fun b k h => hc ⟨b, k, h⟩
    cases hf : ConstantFolder (.ICmp .ICMP_EQ) exponent Int32Zero with
    | none => exact grows_generateExponent_none base exponent s hne hf
    | some Cmp => exact grows_generateExponent_some base exponent Cmp s hne hf

end Calc

namespace Calc

/-! ## The exception handling is set up once -/

theorem grows_createICmpEq (Left Right : Value) (TrueLabel FalseLabel : String)
    (s : ToIRVisitor) : Grows s (createICmpEq Left Right TrueLabel FalseLabel s).2 := by
  cases h : ConstantFolder (.ICmp .ICMP_EQ) Left Right with
  | none =>
    rw [createICmpEq_none _ _ _ _ _ h]
    exact Grows.of_insts _ _ _ rfl (by simp) rfl rfl rfl rfl rfl rfl rfl
  | some Cmp =>
    rw [createICmpEq_some _ _ _ _ _ _ h]
    exact Grows.of_insts _ _ _ rfl (by simp) rfl rfl rfl rfl rfl rfl rfl

theorem grows_SetInsertPoint (BB : BlockId) (s : ToIRVisitor) :
    Grows s (SetInsertPoint BB s).2 :=
  Grows.of_insts _ _ [] (by simp) (by simp) rfl rfl rfl rfl rfl rfl rfl

theorem ToIRVisitor.count_append (s s' : ToIRVisitor) (new : List Instruction) (op : Opcode)
    (h : s'.insts = s.insts ++ new) :
    s'.count op = s.count op + new.countP fun x => x.op = op := by
  simp [ToIRVisitor.count, h]

/-- New instructions without the opcode `op` leave the instructions with
this opcode as they are. -/
theorem List.filter_append_of_none (l new : List Instruction) (op : Opcode)
    (h : ∀ x ∈ new, x.op ≠ op) :
    (l ++ new).filter (fun x => x.op = op) = l.filter (fun x => x.op = op) := by
  rw [List.filter_append]
  have : new.filter (fun x => x.op = op) = [] := by
    rw [List.filter_eq_nil_iff]
    intro x hx
    simpa using h x hx
  rw [this, List.append_nil]

theorem List.countP_of_none (new : List Instruction) (op : Opcode)
    (h : ∀ x ∈ new, x.op ≠ op) : new.countP (fun x => x.op = op) = 0 := by
  rw [List.countP_eq_zero]
  intro x hx
  simpa using h x hx

/-- Code without exception handling keeps the state of the exception
handling. -/
theorem ExcInv.of_new (s s' : ToIRVisitor) (k : Nat) (new : List Instruction)
    (hi : s'.insts = s.insts ++ new)
    (hn : ∀ x ∈ new, x.op ≠ .Invoke ∧ x.op ≠ .LandingPad ∧ x.op ≠ .Unreachable)
    (hf : s'.functions = s.functions)
    (h3 : s'.TypeInfo = s.TypeInfo) (h5 : s'.ThrowEHFn = s.ThrowEHFn)
    (h6 : s'.LPadBB = s.LPadBB) (h7 : s'.UnreachableBB = s.UnreachableBB)
    (h : ExcInv s k) : ExcInv s' k := by
  obtain ⟨hk, hz, hp⟩ := h
  have h1 : s'.declared "__cxa_allocate_exception" = s.declared "__cxa_allocate_exception" := by
    simp [ToIRVisitor.declared, hf]
  have h2 : s'.declared "__cxa_throw" = s.declared "__cxa_throw" := by
    simp [ToIRVisitor.declared, hf]
  have cI := List.countP_of_none new .Invoke fun x hx => (hn x hx).1
  have cL := List.countP_of_none new .LandingPad fun x hx => (hn x hx).2.1
  have cU := List.countP_of_none new .Unreachable fun x hx => (hn x hx).2.2
  have fL := List.filter_append_of_none s.insts new .LandingPad fun x hx => (hn x hx).2.1
  have fU := List.filter_append_of_none s.insts new .Unreachable fun x hx => (hn x hx).2.2
  refine ⟨?_, ?_, ?_⟩
  · rw [ToIRVisitor.count_append s s' new _ hi, cI, hk, Nat.add_zero]
  · intro h0
    obtain ⟨a1, a2, a3, a4, a6, a7⟩ := hz h0
    refine ⟨h3.trans a1, ?_, ?_, by rw [hf]; exact a4, h6.trans a6, h7.trans a7⟩
    · rw [ToIRVisitor.count_append s s' new _ hi, cL, a2]
    · rw [ToIRVisitor.count_append s s' new _ hi, cU, a3]
  · intro h0
    obtain ⟨a1, a2, l, u, a3, a4, a5, a6, a7, a8, a9, a10⟩ := hp h0
    refine ⟨by rw [h3]; exact a1, h5.trans a2, l, u, h6.trans a3, h7.trans a4, a5, ?_, ?_,
      h1.trans a8, h2.trans a9, ?_⟩
    · rw [hi, fL]; exact a6
    · rw [hi, fU]; exact a7
    · intro x hx hop
      rw [hi] at hx
      rcases List.mem_append.1 hx with hx | hx
      · exact a10 x hx hop
      · exact absurd hop (hn x hx).1

theorem Grows.of_excInv {s s' : ToIRVisitor} {k : Nat} (g : Grows s s') (h : ExcInv s k) :
    ExcInv s' k := by
  obtain ⟨⟨new, hi, hn⟩, hf, h3, _, h5, h6, h7, _⟩ := g
  exact ExcInv.of_new s s' k new hi hn hf h3 h5 h6 h7 h

theorem List.filter_eq_nil_of_countP (l : List Instruction) (op : Opcode)
    (h : l.countP (fun x => x.op = op) = 0) : l.filter (fun x => x.op = op) = [] := by
  rw [List.countP_eq_zero] at h
  rw [List.filter_eq_nil_iff]
  exact h

/-- Every `addThrow` adds one invoke; the first one sets up the exception
handling. -/
theorem excInv_addThrow (PayloadVal : Nat) (s : ToIRVisitor) (k : Nat) (h : ExcInv s k) :
    ExcInv (addThrow PayloadVal s).2 (k + 1) ∧ (addThrow PayloadVal s).2.nameMap = s.nameMap := by
  obtain ⟨hk, hz, hp⟩ := h
  by_cases hT : s.TypeInfo = .nullptr
  · have h0 : k = 0 := by
      by_contra hne
      exact (hp (Nat.pos_of_ne_zero hne)).1 hT
    subst h0
    obtain ⟨_, a2, a3, a45, _, _⟩ := hz rfl
    have a4 : s.declared "__cxa_allocate_exception" = 0 := by
      simp only [ToIRVisitor.declared, List.countP_eq_zero]
      intro f hf
      rcases a45 f hf with h | h <;> simp [h]
    have a5 : s.declared "__cxa_throw" = 0 := by
      simp only [ToIRVisitor.declared, List.countP_eq_zero]
      intro f hf
      rcases a45 f hf with h | h <;> simp [h]
    have fL := List.filter_eq_nil_of_countP s.insts .LandingPad a2
    have fU := List.filter_eq_nil_of_countP s.insts .Unreachable a3
    have nI : ∀ x ∈ s.insts, x.op ≠ .Invoke := by
      intro x hx
      have := List.countP_eq_zero.1 hk x hx
      simpa using this
    simp only [ToIRVisitor.declared] at a4 a5
    rw [addThrow_first _ _ hT]
    refine ⟨⟨?_, ?_, ?_⟩, rfl⟩
    · simp only [ToIRVisitor.count] at hk ⊢
      simp [List.countP_append, hk, List.countP_cons]
    · intro h; cases h
    · intro _
      refine ⟨by simp, rfl, s.blocks.length, s.blocks.length + 3, rfl, rfl,
        Nat.ne_of_lt (Nat.lt_add_of_pos_right (by decide)), ?_, ?_,
        ?_, ?_, ?_⟩
      · simp [List.filter_append, fL, List.filter_cons]
      · simp [List.filter_append, fU, List.filter_cons]
      · simp [ToIRVisitor.declared, List.countP_append, a4, List.countP_cons]
      · simp [ToIRVisitor.declared, List.countP_append, a5, List.countP_cons]
      · intro x hx hop
        simp only [List.mem_append] at hx
        rcases hx with hx | hx
        · exact absurd hop (nI x hx)
        · simp at hx
          rcases hx with h | h | h | h | h | h | h | h | h | h | h | h | h | h | h <;>
            subst h <;> cases hop
          exact ⟨rfl, rfl⟩
  · have hpos : 0 < k := by
      by_contra hne
      have h0 : k = 0 := by omega
      exact hT (hz h0).1
    obtain ⟨a1, a2, l, u, a3, a4, a5, a6, a7, a8, a9, a10⟩ := hp hpos
    rw [addThrow_again _ _ hT]
    refine ⟨⟨?_, ?_, ?_⟩, rfl⟩
    · simp only [ToIRVisitor.count] at hk ⊢
      simp [List.countP_append, hk, List.countP_cons]
    · intro h; cases h
    · intro _
      refine ⟨a1, a2, l, u, a3, a4, a5, ?_, ?_, a8, a9, ?_⟩
      · simp [List.filter_append, a6, List.filter_cons]
      · simp [List.filter_append, a7, List.filter_cons]
      · intro x hx hop
        simp only [List.mem_append] at hx
        rcases hx with hx | hx
        · exact a10 x hx hop
        · simp at hx
          rcases hx with h | h | h <;> subst h <;> cases hop
          exact ⟨by simp [a3, a4], by simp [a2]⟩

theorem excInv_visitBinaryOp (Op : Operator) (Left Right : Value) (s : ToIRVisitor) (k : Nat)
    (h : ExcInv s k) :
    ExcInv (visitBinaryOp Op Left Right s).2 (k + if Op = .Div ∨ Op = .Rem then 1 else 0) ∧
      (visitBinaryOp Op Left Right s).2.nameMap = s.nameMap := by
  cases Op with
  | Plus => exact ⟨(grows_CreateBinOp _ _ _ _ s (by decide)).of_excInv h,
      (grows_CreateBinOp .Add true Left Right s (by decide)).2.2.2.2.2.2.2⟩
  | Minus => exact ⟨(grows_CreateBinOp _ _ _ _ s (by decide)).of_excInv h,
      (grows_CreateBinOp .Sub true Left Right s (by decide)).2.2.2.2.2.2.2⟩
  | Mul => exact ⟨(grows_CreateBinOp _ _ _ _ s (by decide)).of_excInv h,
      (grows_CreateBinOp .Mul true Left Right s (by decide)).2.2.2.2.2.2.2⟩
  | Exp => exact ⟨(grows_generateExponent Left Right s).of_excInv h,
      (grows_generateExponent Left Right s).2.2.2.2.2.2.2⟩
  | Div =>
    simp only [visitBinaryOp, G.bind_run, CreateSDiv, true_or, if_true]
    have g1 := grows_createICmpEq Right Int32Zero "divbyzero" "notzero" s
    have g2 := grows_SetInsertPoint
      (createICmpEq Right Int32Zero "divbyzero" "notzero" s).1.1
      (createICmpEq Right Int32Zero "divbyzero" "notzero" s).2
    have a := excInv_addThrow 42 _ k ((g1.growsTrans g2).of_excInv h)
    have g3 := grows_SetInsertPoint
      (createICmpEq Right Int32Zero "divbyzero" "notzero" s).1.2
      (addThrow 42 (SetInsertPoint (createICmpEq Right Int32Zero "divbyzero" "notzero" s).1.1
        (createICmpEq Right Int32Zero "divbyzero" "notzero" s).2).2).2
    have g4 := grows_CreateBinOp .SDiv false Left Right _ (by decide) |> g3.growsTrans
    exact ⟨g4.of_excInv a.1, g4.2.2.2.2.2.2.2.trans
      (a.2.trans (g1.growsTrans g2).2.2.2.2.2.2.2)⟩
  | Rem =>
    simp only [visitBinaryOp, G.bind_run, CreateSRem, or_true, if_true]
    have g1 := grows_createICmpEq Right Int32Zero "rembyzero" "remnotzero" s
    have g2 := grows_SetInsertPoint
      (createICmpEq Right Int32Zero "rembyzero" "remnotzero" s).1.1
      (createICmpEq Right Int32Zero "rembyzero" "remnotzero" s).2
    have a := excInv_addThrow 42 _ k ((g1.growsTrans g2).of_excInv h)
    have g3 := grows_SetInsertPoint
      (createICmpEq Right Int32Zero "rembyzero" "remnotzero" s).1.2
      (addThrow 42 (SetInsertPoint (createICmpEq Right Int32Zero "rembyzero" "remnotzero" s).1.1
        (createICmpEq Right Int32Zero "rembyzero" "remnotzero" s).2).2).2
    have g4 := grows_CreateBinOp .SRem false Left Right _ (by decide) |> g3.growsTrans
    exact ⟨g4.of_excInv a.1, g4.2.2.2.2.2.2.2.trans
      (a.2.trans (g1.growsTrans g2).2.2.2.2.2.2.2)⟩

/-- The state of the exception handling depends on the instructions, the
functions and the members for it only. -/
theorem ExcInv.of_V (s : ToIRVisitor) (v : Value) (k : Nat) (h : ExcInv s k) :
    ExcInv { s with V := v } k := h

/-- A valid expression is translated, with one invoke more for each of its
divisions and remainders. -/
theorem visit_excInv (Vars : List (List Char)) : ∀ (E : Expr) (s : ToIRVisitor) (k : Nat),
    E.Valid Vars = true → (∀ v ∈ Vars, (s.nameMap.lookup v).isSome = true) → ExcInv s k →
    ∃ s', visit E s = some s' ∧ ExcInv s' (k + E.divRems) ∧ s'.nameMap = s.nameMap
  | .nullptr, _, _, hv, _, _ => by simp [Expr.Valid] at hv
  | .Factor .Ident Val, s, k, hv, hn, h => by
    simp only [Expr.Valid] at hv
    have := hn Val (by simpa using hv)
    cases hl : s.nameMap.lookup Val with
    | none => rw [hl] at this; cases this
    | some v => exact ⟨{ s with V := v }, by simp [visit, hl], h, rfl⟩
  | .Factor .Number Val, s, k, hv, _, h => by
    simp only [Expr.Valid] at hv
    cases hl : getAsInteger Val with
    | none => rw [hl] at hv; cases hv
    | some v => exact ⟨{ s with V := .constInt 32 v }, by simp [visit, hl], h, rfl⟩
  | .BinaryOp Op L R, s, k, hv, hn, h => by
    simp only [Expr.Valid, Bool.and_eq_true] at hv
    obtain ⟨s1, e1, i1, n1⟩ := visit_excInv Vars L s k hv.1 hn h
    obtain ⟨s2, e2, i2, n2⟩ := visit_excInv Vars R s1 _ hv.2 (by rw [n1]; exact hn) i1
    have hb := excInv_visitBinaryOp Op s1.V s2.V s2 _ i2
    refine ⟨{ (visitBinaryOp Op s1.V s2.V s2).2 with V := (visitBinaryOp Op s1.V s2.V s2).1 },
      by simp only [visit, e1, e2], ?_, ?_⟩
    · have := hb.1
      simp only [Expr.divRems]
      rw [← Nat.add_assoc, ← Nat.add_assoc]
      exact this
    · exact hb.2.trans (n2.trans n1)

/-- The calls of `calc_read` are no part of the exception handling, and
every variable read has a value in `nameMap`. -/
theorem readVars_excInv (ReadFn : Value) : ∀ (Vars : List (List Char)) (s : ToIRVisitor),
    ExcInv s 0 → ExcInv (readVars ReadFn Vars s).2 0 ∧
      ∀ v, (v ∈ Vars ∨ (s.nameMap.lookup v).isSome = true) →
        ((readVars ReadFn Vars s).2.nameMap.lookup v).isSome = true
  | [], s, h => ⟨h, fun v hv => by
      rcases hv with hv | hv
      · cases hv
      · exact hv⟩
  | Var :: Vars, s, h => by
    simp only [readVars, G.bind_run, GlobalVariable.Create_global, CreateCall, Insert_apply,
      G.modify_run]
    have h1 : ExcInv { s with globals := s.globals ++ [String.mk Var ++ ".str"], insts := s.insts ++ [Instruction.mk .Call false (.int 32) ([.global (String.mk Var ++ ".str")] ++ [ReadFn]) [] s.InsertBB], nameMap := (Var, .inst s.insts.length) :: s.nameMap } 0 :=
      ExcInv.of_new s _ 0 [_] rfl (by simp) rfl rfl rfl rfl rfl h
    obtain ⟨i, n⟩ := readVars_excInv ReadFn Vars _ h1
    refine ⟨i, fun v hv => n v ?_⟩
    rcases hv with hv | hv
    · rcases List.mem_cons.1 hv with hv | hv
      · right; subst hv; simp [List.lookup]
      · left; exact hv
    · right
      by_cases hvv : v = Var
      · subst hvv; simp [List.lookup]
      · have : (v == Var) = false := by simpa using hvv
        simp only [List.lookup, this]
        exact hv

/-- Before the tree is visited no exception handling exists. -/
theorem excInv_entry : ExcInv ((do
    let _ ← Function.Create "main" (.int 32) [.int 32, .ptr] false
    let BB ← BasicBlock.Create "entry"
    SetInsertPoint BB : G Unit) ToIRVisitor.init).2 0 := by
  refine ⟨rfl, fun _ => ⟨rfl, rfl, rfl, ?_, rfl, rfl⟩, fun h => absurd h (by decide)⟩
  intro f hf
  simp [ToIRVisitor.init] at hf
  left; rw [hf]

/-- A valid tree is translated, with one invoke for each of its divisions
and remainders. -/
theorem accept_excInv (Tree : AST) (hv : Tree.Valid = true) :
    ∃ s, accept Tree ((do
        let _ ← Function.Create "main" (.int 32) [.int 32, .ptr] false
        let BB ← BasicBlock.Create "entry"
        SetInsertPoint BB : G Unit) ToIRVisitor.init).2 = some s ∧ ExcInv s Tree.divRems := by
  cases Tree with
  | expr E =>
    obtain ⟨s, e, i, _⟩ := visit_excInv [] E _ 0 hv (fun v hv => by cases hv) excInv_entry
    exact ⟨s, e, by simpa [AST.divRems] using i⟩
  | WithDecl Vars E =>
    simp only [accept, G.bind_run, Function.Create_function]
    have h0 : ExcInv { ((do
        let _ ← Function.Create "main" (.int 32) [.int 32, .ptr] false
        let BB ← BasicBlock.Create "entry"
        SetInsertPoint BB : G Unit) ToIRVisitor.init).2 with functions := ((do
        let _ ← Function.Create "main" (.int 32) [.int 32, .ptr] false
        let BB ← BasicBlock.Create "entry"
        SetInsertPoint BB : G Unit) ToIRVisitor.init).2.functions ++ [Function.mk "calc_read" (.int 32) [.ptr] false] } 0 := by
      refine ⟨rfl, fun _ => ⟨rfl, rfl, rfl, ?_, rfl, rfl⟩, fun h => absurd h (by decide)⟩
      intro f hf
      simp [ToIRVisitor.init] at hf
      rcases hf with hf | hf <;> simp [hf]
    obtain ⟨i, n⟩ := readVars_excInv (.function "calc_read") Vars _ h0
    obtain ⟨s, e, i2, _⟩ := visit_excInv Vars E _ 0 hv (fun v hv => n v (Or.inl hv)) i
    exact ⟨s, e, by simpa [AST.divRems] using i2⟩

/-- C26: for a tree that semantic analysis accepts, with `k` operators `/`
and `%`, `run` returns, and the `main` it has generated contains exactly `k`
invoke instructions.  For `k = 0` it contains no landing pad and no
`unreachable`, and the module declares no function but `main`, `calc_read`
and `calc_write`.  For `k ≥ 1` there is exactly one landing pad instruction,
in a block `l`, exactly one `unreachable`, in a block `u` other than `l`, one
declaration each of `__cxa_allocate_exception` and `__cxa_throw`, and every
invoke calls `__cxa_throw` with `u` as its normal and `l` as its unwind
successor. -/
theorem run_sets_up_exception_handling_once (Tree : AST) (hv : Tree.Valid = true) :
    ∃ s, run Tree = some s ∧ s.count .Invoke = Tree.divRems ∧
      (Tree.divRems = 0 → s.count .LandingPad = 0 ∧ s.count .Unreachable = 0 ∧
        ∀ f ∈ s.functions, f.Name = "main" ∨ f.Name = "calc_read" ∨ f.Name = "calc_write") ∧
      (0 < Tree.divRems → ∃ l u, l ≠ u ∧
        (s.insts.filter fun x => x.op = .LandingPad).map (fun x => x.parent) = [l] ∧
        (s.insts.filter fun x => x.op = .Unreachable).map (fun x => x.parent) = [u] ∧
        s.declared "__cxa_allocate_exception" = 1 ∧ s.declared "__cxa_throw" = 1 ∧
        ∀ x ∈ s.insts, x.op = .Invoke →
          x.blocks = [u, l] ∧ x.operands.getLast? = some (.function "__cxa_throw")) := by
  obtain ⟨s, e, hk, hz, hp⟩ := accept_excInv Tree hv
  refine ⟨((do
      let CalcWriteFn ← Function.Create "calc_write" .void [.int 32] false
      let _ ← CreateCall .void CalcWriteFn [s.V]
      let _ ← CreateRet Int32Zero : G Unit) s).2, by simp only [run, e], ?_, ?_, ?_⟩
  · simp only [ToIRVisitor.count] at hk
    simp [ToIRVisitor.count, CreateCall, CreateRet, List.countP_append, hk, List.countP_cons]
  · intro h0
    obtain ⟨_, a2, a3, a4, _, _⟩ := hz h0
    simp only [ToIRVisitor.count] at a2 a3
    refine ⟨?_, ?_, ?_⟩
    · simp [ToIRVisitor.count, CreateCall, CreateRet, List.countP_append, a2, List.countP_cons]
    · simp [ToIRVisitor.count, CreateCall, CreateRet, List.countP_append, a3, List.countP_cons]
    · intro f hf
      simp [CreateCall, CreateRet] at hf
      rcases hf with hf | hf
      · rcases a4 f hf with h | h
        · exact Or.inl h
        · exact Or.inr (Or.inl h)
      · right; right; rw [hf]
  · intro h0
    obtain ⟨_, _, l, u, _, _, a5, a6, a7, a8, a9, a10⟩ := hp h0
    simp only [ToIRVisitor.declared] at a8 a9
    refine ⟨l, u, a5, ?_, ?_, ?_, ?_, ?_⟩
    · simp [CreateCall, CreateRet, List.filter_append, a6, List.filter_cons]
    · simp [CreateCall, CreateRet, List.filter_append, a7, List.filter_cons]
    · simp [ToIRVisitor.declared, CreateCall, CreateRet, List.countP_append, a8,
        List.countP_cons]
    · simp [ToIRVisitor.declared, CreateCall, CreateRet, List.countP_append, a9,
        List.countP_cons]
    · intro x hx hop
      simp [CreateCall, CreateRet] at hx
      rcases hx with hx | hx | hx
      · exact a10 x hx hop
      · subst hx; cases hop
      · subst hx; cases hop

set_option maxRecDepth 100000 in
theorem run_sets_up_exception_handling_once_witness :
    Example.divRem.Valid = true ∧
    ∃ s, run Example.divRem = some s ∧ s.count .Invoke = Example.divRem.divRems ∧
      (Example.divRem.divRems = 0 → s.count .LandingPad = 0 ∧ s.count .Unreachable = 0 ∧
        ∀ f ∈ s.functions, f.Name = "main" ∨ f.Name = "calc_read" ∨ f.Name = "calc_write") ∧
      (0 < Example.divRem.divRems → ∃ l u, l ≠ u ∧
        (s.insts.filter fun x => x.op = .LandingPad).map (fun x => x.parent) = [l] ∧
        (s.insts.filter fun x => x.op = .Unreachable).map (fun x => x.parent) = [u] ∧
        s.declared "__cxa_allocate_exception" = 1 ∧ s.declared "__cxa_throw" = 1 ∧
        ∀ x ∈ s.insts, x.op = .Invoke →
          x.blocks = [u, l] ∧ x.operands.getLast? = some (.function "__cxa_throw")) :=
  ⟨by decide!, run_sets_up_exception_handling_once Example.divRem (by decide!)⟩

end Calc

namespace Calc

/-! ## Examples of division, and sums of products -/

set_option maxRecDepth 100000 in
/-- Witness for C24: `a / b` in `with a, b: a / b`; the comparison of `b`
with zero and the division are instructions. -/
theorem visit_division_checks_divisor_witness :
    (Operator.Div = .Div ∨ Operator.Div = .Rem) ∧
    visit (.Factor .Ident "a".toList) (Example.afterReads ["a".toList, "b".toList]) =
      some { Example.afterReads ["a".toList, "b".toList] with V := .inst 0 } ∧
    (∃ s' new, visit (.BinaryOp .Div (.Factor .Ident "a".toList) (.Factor .Ident "b".toList))
        (Example.afterReads ["a".toList, "b".toList]) = some s' ∧
      s'.insts = (Example.afterReads ["a".toList, "b".toList]).insts ++ new ∧
      new.filter (fun x => x.parent = 0) =
        [Instruction.mk (.ICmp .ICMP_EQ) false (.int 1) [.inst 1, Int32Zero] [] 0,
         Instruction.mk .Br false .void [.inst 2] [1, 2] 0] ∧
      (new.filter (fun x => x.parent = 2)).map (fun x => (x.op, x.nsw, x.operands, x.blocks)) =
        [(.SDiv, false, [.inst 0, .inst 1], [])]) := by
  refine ⟨Or.inl rfl, by decide!, ?_⟩
  obtain ⟨s', new, h1, h2, _, _, h5, _, h7, _⟩ := visit_division_checks_divisor .Div
    (.Factor .Ident "a".toList) (.Factor .Ident "b".toList)
    (Example.afterReads ["a".toList, "b".toList])
    { Example.afterReads ["a".toList, "b".toList] with V := .inst 0 }
    { Example.afterReads ["a".toList, "b".toList] with V := .inst 1 }
    (Or.inl rfl) (by decide!) (by decide!) (by decide!)
  exact ⟨s', new, h1, h2, h5, h7⟩

set_option maxRecDepth 100000 in
/-- The input `with x: x / 0`: the divisor is a constant, so the builder
folds the comparison, and the block `entry` holds the call of `calc_read`
and a branch on the constant `true` only; no comparison is emitted in any
block but that of the landing pad. -/
theorem run_division_by_literal_zero_emits_no_comparison :
    Parser.parse 3 (Parser.create "with x: x / 0".toList) =
      some (Parser.mk (Lexer.mk "with x: x / 0".toList 13) (Token.mk .eoi ['0']) false [],
        Example.divByZero) ∧
    (run Example.divByZero).map (fun s => s.insts.filter fun x => x.parent = 0) =
      some [Instruction.mk .Call false (.int 32) [.global "x.str", .function "calc_read"] [] 0,
        Instruction.mk .Br false .void [.constInt 1 1] [1, 2] 0] ∧
    (run Example.divByZero).map (fun s => (s.insts.filter fun x =>
      x.op = .ICmp .ICMP_EQ).map fun x => x.parent) = some [3] ∧
    (run Example.divByZero).map (fun s => s.blocks) =
      some ["entry", "divbyzero", "notzero", "lpad", "match", "resume", "unreachable"] := by
  decide!

/-- C29 (as corrected): `parseExpr` on `a + b * c`, for factors `a`, `b`, `c`
as `parseFactor` parses them, returns `BinaryOp(Plus, a, BinaryOp(Mul, b,
c))`; and `visit` of this tree, where the visits of `a`, `b` and `c` return,
visits `a`, `b`, `c` and then adds to the insertion block the `mul nsw` of
the values of `b` and `c` and behind it the `add nsw` of the value of `a` and
the product, each one unless the folder of the builder folds it to a constant
(as for `3 + 4 * 2`, where both are folded and no instruction is emitted); no
other instruction, so no phi, and no block is created. -/
theorem sum_of_product_parsed_and_emitted (fuel : Nat) (P P1 P2 P3 : Parser) (A B C : Expr)
    (s s1 s2 s3 : ToIRVisitor)
    (hA : Parser.parseFactor (Parser.parseExpr (fuel + 1)) (fuel + 2) P = some (P1, A))
    (hPlus : P1.Tok.Kind = .plus)
    (hB : Parser.parseFactor (Parser.parseExpr (fuel + 1)) (fuel + 2) P1.advance = some (P2, B))
    (hStar : P2.Tok.Kind = .star)
    (hC : Parser.parseFactor (Parser.parseExpr (fuel + 1)) (fuel + 2) P2.advance = some (P3, C))
    (hEnd : P3.Tok.Kind ∉ [TokenKind.plus, .minus, .star, .slash, .rem, .exp])
    (vA : visit A s = some s1) (vB : visit B s1 = some s2) (vC : visit C s2 = some s3) :
    Parser.parseExpr (fuel + 2) P = some (P3, .BinaryOp .Plus A (.BinaryOp .Mul B C)) ∧
    ∃ s' Prod, visit (.BinaryOp .Plus A (.BinaryOp .Mul B C)) s = some s' ∧
      s'.blocks = s3.blocks ∧ s'.InsertBB = s3.InsertBB ∧
      Prod = (match ConstantFolder .Mul s2.V s3.V with
        | none => .inst s3.insts.length
        | some v => v) ∧
      (∃ tm ta, s'.insts = s3.insts ++
        (match ConstantFolder .Mul s2.V s3.V with
        | none => [Instruction.mk .Mul true tm [s2.V, s3.V] [] s3.InsertBB]
        | some _ => []) ++
        (match ConstantFolder .Add s1.V Prod with
        | none => [Instruction.mk .Add true ta [s1.V, Prod] [] s3.InsertBB]
        | some _ => [])) ∧
      s'.V = (match ConstantFolder .Add s1.V Prod with
        | none => .inst (s'.insts.length - 1)
        | some v => v) := by
  refine ⟨Parser.parseExpr_sum_of_product fuel P P1 P2 P3 A B C hA hPlus hB hStar hC hEnd, ?_⟩
  have hv : visit (.BinaryOp .Plus A (.BinaryOp .Mul B C)) s = some
      { (visitBinaryOp .Plus s1.V (visitBinaryOp .Mul s2.V s3.V s3).1
          { (visitBinaryOp .Mul s2.V s3.V s3).2 with V := (visitBinaryOp .Mul s2.V s3.V s3).1 }).2
        with V := (visitBinaryOp .Plus s1.V (visitBinaryOp .Mul s2.V s3.V s3).1
          { (visitBinaryOp .Mul s2.V s3.V s3).2 with
            V := (visitBinaryOp .Mul s2.V s3.V s3).1 }).1 } := by
    simp only [visit, vA, vB, vC]
  refine ⟨_, _, hv, ?_, ?_, rfl, ?_, ?_⟩
  all_goals cases hm : ConstantFolder .Mul s2.V s3.V
  all_goals simp only []
  case refine_3.none =>
    cases ha : ConstantFolder .Add s1.V (.inst s3.insts.length)
    · exact ⟨_, _, by
        simp [visitBinaryOp, CreateNSWMul, CreateNSWAdd, CreateBinOp, hm, ha]; exact ⟨rfl, rfl⟩⟩
    · exact ⟨_, .void, by simp [visitBinaryOp, CreateNSWMul, CreateNSWAdd, CreateBinOp, hm, ha]; rfl⟩
  case refine_3.some p =>
    cases ha : ConstantFolder .Add s1.V p
    · exact ⟨.void, _, by simp [visitBinaryOp, CreateNSWMul, CreateNSWAdd, CreateBinOp, hm, ha]; rfl⟩
    · exact ⟨.void, .void, by simp [visitBinaryOp, CreateNSWMul, CreateNSWAdd, CreateBinOp, hm, ha]⟩
  case refine_4.none =>
    cases ha : ConstantFolder .Add s1.V (.inst s3.insts.length) <;>
      simp [visitBinaryOp, CreateNSWMul, CreateNSWAdd, CreateBinOp, hm, ha]
  case refine_4.some p =>
    cases ha : ConstantFolder .Add s1.V p <;>
      simp [visitBinaryOp, CreateNSWMul, CreateNSWAdd, CreateBinOp, hm, ha]
  all_goals first
    | (cases ha : ConstantFolder .Add s1.V (.inst s3.insts.length) <;>
        simp [visitBinaryOp, CreateNSWMul, CreateNSWAdd, CreateBinOp, hm, ha]; done)
    | (rename_i p; cases ha : ConstantFolder .Add s1.V p <;>
        simp [visitBinaryOp, CreateNSWMul, CreateNSWAdd, CreateBinOp, hm, ha])

set_option maxRecDepth 100000 in
/-- Witness for C29: `a + b * c` with the variables of `with a, b, c`; the
product and the sum are instructions, in this order. -/
theorem sum_of_product_parsed_and_emitted_witness :
    Parser.parseExpr (1 + 2) (Parser.create "a + b * c".toList) =
      some (Parser.mk (Lexer.mk "a + b * c".toList 9) (Token.mk .eoi ['c']) false [],
        .BinaryOp .Plus (.Factor .Ident ['a'])
          (.BinaryOp .Mul (.Factor .Ident ['b']) (.Factor .Ident ['c']))) ∧
    (visit (.BinaryOp .Plus (.Factor .Ident ['a'])
        (.BinaryOp .Mul (.Factor .Ident ['b']) (.Factor .Ident ['c'])))
      (Example.afterReads [['a'], ['b'], ['c']])).map (fun s => (s.insts.drop 3, s.V)) =
      some ([Instruction.mk .Mul true (.int 32) [.inst 1, .inst 2] [] 0,
        Instruction.mk .Add true (.int 32) [.inst 0, .inst 3] [] 0], .inst 4) := by
  have h := sum_of_product_parsed_and_emitted 1 (Parser.create "a + b * c".toList)
    (Parser.mk (Lexer.mk "a + b * c".toList 3) (Token.mk .plus ['+']) false [])
    (Parser.mk (Lexer.mk "a + b * c".toList 7) (Token.mk .star ['*']) false [])
    (Parser.mk (Lexer.mk "a + b * c".toList 9) (Token.mk .eoi ['c']) false [])
    (.Factor .Ident ['a']) (.Factor .Ident ['b']) (.Factor .Ident ['c'])
    (Example.afterReads [['a'], ['b'], ['c']])
    { Example.afterReads [['a'], ['b'], ['c']] with V := .inst 0 }
    { Example.afterReads [['a'], ['b'], ['c']] with V := .inst 1 }
    { Example.afterReads [['a'], ['b'], ['c']] with V := .inst 2 }
    (by decide!) (by decide!) (by decide!) (by decide!) (by decide!) (by decide!)
    (by decide!) (by decide!) (by decide!)
  exact ⟨h.1, by decide!⟩

set_option maxRecDepth 100000 in
/-- The input `3 + 4 * 2`: the tree is the sum of 3 and the product, and
`main` holds no multiplication and no addition, only the call of
`calc_write` with the constant 11 and the return. -/
theorem run_sum_of_constant_product_emits_no_arithmetic :
    Parser.parse 3 (Parser.create "3 + 4 * 2".toList) =
      some (Parser.mk (Lexer.mk "3 + 4 * 2".toList 9) (Token.mk .eoi ['2']) false [],
        Example.sumOfProduct) ∧
    (run Example.sumOfProduct).map (fun s => s.insts) =
      some [Instruction.mk .Call false .void [.constInt 32 11, .function "calc_write"] [] 0,
        Instruction.mk .Ret false .void [.constInt 32 0] [] 0] := by
  decide!

end Calc

namespace Calc

/-! ## Execution of the generated code -/

theorem fetchFrom_eq_none (b : BlockId) : ∀ (l : List Instruction) (i : Nat),
    fetchFrom b l i = none ↔ ∀ x ∈ l, x.parent ≠ b
  | [], i => by simp [fetchFrom]
  | x :: l, i => by
    by_cases h : x.parent = b
    · simp [fetchFrom, h]
    · simp [fetchFrom, h, fetchFrom_eq_none b l (i + 1)]

theorem fetchFrom_append_skip (b : BlockId) : ∀ (l₁ l₂ : List Instruction) (i : Nat),
    (∀ x ∈ l₁, x.parent ≠ b) → fetchFrom b (l₁ ++ l₂) i = fetchFrom b l₂ (i + l₁.length)
  | [], l₂, i, _ => by simp
  | x :: l₁, l₂, i, h => by
    have hx : x.parent ≠ b := h x (List.mem_cons_self _ _)
    have := fetchFrom_append_skip b l₁ l₂ (i + 1) fun y hy => h y (List.mem_cons_of_mem _ hy)
    show (if x.parent = b then _ else fetchFrom b (l₁ ++ l₂) (i + 1)) = _
    rw [if_neg hx, this, List.length_cons, Nat.add_assoc, Nat.add_comm 1]

theorem fetchFrom_append_some (b : BlockId) : ∀ (l₁ l₂ : List Instruction) (i : Nat)
    (r : InstId × Instruction), fetchFrom b l₁ i = some r → fetchFrom b (l₁ ++ l₂) i = some r
  | [], _, _, _, h => by simp [fetchFrom] at h
  | x :: l₁, l₂, i, r, h => by
    by_cases hx : x.parent = b
    · simpa [fetchFrom, hx] using h
    · simp only [fetchFrom, hx, if_false, List.cons_append] at h ⊢
      exact fetchFrom_append_some b l₁ l₂ (i + 1) r h

/-- At the insertion point of a state, the machine goes on with the code
added to it. -/
theorem fetch_append_of_none (l₁ l₂ : List Instruction) (m : Machine) (hpc : m.pc ≤ l₁.length)
    (h : fetch l₁ m = none) : fetch (l₁ ++ l₂) m = fetchFrom m.block l₂ l₁.length := by
  unfold fetch at h ⊢
  rw [List.drop_append_of_le_length hpc,
    fetchFrom_append_skip _ _ _ _ ((fetchFrom_eq_none _ _ _).1 h), List.length_drop]
  congr 1
  omega

theorem fetch_append_add (l₁ l₂ : List Instruction) (m : Machine) (j : Nat)
    (hpc : m.pc = l₁.length + j) :
    fetch (l₁ ++ l₂) m = fetchFrom m.block (l₂.drop j) (l₁.length + j) := by
  unfold fetch
  rw [hpc, List.drop_append]

theorem fetch_append_some (l₁ l₂ : List Instruction) (m : Machine) (r : InstId × Instruction)
    (h : fetch l₁ m = some r) : fetch (l₁ ++ l₂) m = some r := by
  unfold fetch at h ⊢
  by_cases hpc : m.pc ≤ l₁.length
  · rw [List.drop_append_of_le_length hpc]
    exact fetchFrom_append_some _ _ _ _ _ h
  · rw [List.drop_eq_nil_of_le (by omega)] at h
    simp [fetchFrom] at h

theorem step_append (l₁ l₂ : List Instruction) (m m' : Machine) (h : step l₁ m = some m') :
    step (l₁ ++ l₂) m = some m' := by
  unfold step at h ⊢
  cases hf : fetch l₁ m with
  | none => rw [hf] at h; cases h
  | some r =>
    rw [fetch_append_some l₁ l₂ m r hf]
    rw [hf] at h
    exact h

/-- Code added to a function does not change an execution of it. -/
theorem exec_append (l₁ l₂ : List Instruction) : ∀ (n : Nat) (m m' : Machine),
    exec l₁ n m = some m' → exec (l₁ ++ l₂) n m = some m'
  | 0, _, _, h => h
  | n + 1, m, m', h => by
    simp only [exec] at h ⊢
    cases hs : step l₁ m with
    | none => rw [hs] at h; cases h
    | some m1 =>
      rw [step_append l₁ l₂ m m1 hs]
      rw [hs] at h
      exact exec_append l₁ l₂ n m1 m' h

theorem exec_add (l : List Instruction) : ∀ (n k : Nat) (m m1 m2 : Machine),
    exec l n m = some m1 → exec l k m1 = some m2 → exec l (n + k) m = some m2
  | 0, k, m, m1, m2, h1, h2 => by
    simp only [exec, Option.some.injEq] at h1
    subst h1
    simpa using h2
  | n + 1, k, m, m1, m2, h1, h2 => by
    rw [show n + 1 + k = (n + k) + 1 by omega]
    simp only [exec] at h1 ⊢
    cases hs : step l m with
    | none => rw [hs] at h1; cases h1
    | some m' =>
      rw [hs] at h1
      exact exec_add l n k m' m1 m2 h1 h2

theorem Runs.runsRefl (s : ToIRVisitor) (m : Machine) (hm : m.AtInsertPoint s) : Runs s s m m :=
  ⟨⟨[], by simp⟩, ⟨0, rfl⟩, hm, fun _ _ => ⟨rfl, rfl⟩⟩

theorem Runs.runsTrans {s t u : ToIRVisitor} {m m1 m2 : Machine} (h1 : Runs s t m m1)
    (h2 : Runs t u m1 m2) : Runs s u m m2 := by
  obtain ⟨⟨n1, e1⟩, ⟨k1, x1⟩, _, f1⟩ := h1
  obtain ⟨⟨n2, e2⟩, ⟨k2, x2⟩, a2, f2⟩ := h2
  refine ⟨⟨n1 ++ n2, by rw [e2, e1, List.append_assoc]⟩, ⟨k1 + k2, ?_⟩, a2, ?_⟩
  · refine exec_add _ _ _ _ _ _ ?_ x2
    rw [e2]
    exact exec_append _ _ _ _ _ x1
  · intro i hi
    have hi2 : i < t.insts.length := by
      rw [e1, List.length_append]
      omega
    exact ⟨(f2 i hi2).1.trans (f1 i hi).1, (f2 i hi2).2.trans (f1 i hi).2⟩

/-- The value of an operand depends on its register only. -/
theorem Machine.val_congr (m m' : Machine) (v : Value)
    (h : ∀ i, v = .inst i → m'.regs i = m.regs i) : m'.val v = m.val v := by
  cases v <;> simp [Machine.val]
  next i => exact h i rfl

theorem Runs.val {s s' : ToIRVisitor} {m m' : Machine} (h : Runs s s' m m') (v : Value)
    (hv : ∀ i, v = .inst i → i < s.insts.length) : m'.val v = m.val v :=
  Machine.val_congr m m' v fun i hi => (h.2.2.2 i (hv i hi)).1

/-! ### Arithmetic on 32 bits -/

theorem fits_iff (r : Int) : fits 32 r = true ↔ -2147483648 ≤ r ∧ r < 2147483648 := by
  simp [fits]

theorem toSigned_eq_of_fits (v : Nat) (r : Int) (hv : v < 4294967296)
    (hc : (v : Int) % 4294967296 = r % 4294967296) (hf : fits 32 r = true) :
    toSigned 32 v = r := by
  rw [fits_iff] at hf
  unfold toSigned
  norm_num
  split <;> omega

theorem toSigned_ofSigned (r : Int) (hf : fits 32 r = true) : toSigned 32 (ofSigned 32 r) = r := by
  apply toSigned_eq_of_fits _ _ _ _ hf
  · unfold ofSigned
    norm_num
    omega
  · unfold ofSigned
    norm_num
    omega

theorem toSigned_small (k : Nat) (hk : k < 2 ^ 31) : toSigned 32 k = k := by
  unfold toSigned
  norm_num at hk ⊢
  exact hk

theorem toSigned_mod (x : Nat) : (toSigned 32 x : Int) % 4294967296 = (x : Int) % 4294967296 := by
  unfold toSigned
  norm_num
  split <;> omega

/-- The folder multiplies exactly when the product fits. -/
theorem toSigned_foldMul (x y : Nat) (hf : fits 32 (toSigned 32 x * toSigned 32 y) = true) :
    toSigned 32 ((x * y) % 2 ^ 32) = toSigned 32 x * toSigned 32 y := by
  apply toSigned_eq_of_fits _ _ _ _ hf
  · exact Nat.mod_lt _ (by norm_num)
  · have h1 := toSigned_mod x
    have h2 := toSigned_mod y
    rw [Int.mul_emod (toSigned 32 x), h1, h2, ← Int.mul_emod]
    norm_num

theorem arith_mul (a b : Int) (hf : fits 32 (a * b) = true) :
    arith .Mul true 32 a b = some (a * b) := by
  simp [arith, hf, toSigned_ofSigned]

theorem arith_sub (a b : Int) (hf : fits 32 (a - b) = true) :
    arith .Sub false 32 a b = some (a - b) := by
  simp [arith, toSigned_ofSigned _ hf]

/-! ### One multiplication -/

/-- The step of an arithmetic instruction `x`, fetched as number `i`. -/
theorem step_mul (insts : List Instruction) (m : Machine) (i : InstId) (L R : Value)
    (P : BlockId) (a b : Int)
    (hfetch : fetch insts m = some (i, Instruction.mk .Mul true (.int 32) [L, R] [] P))
    (hL : m.val L = some a) (hR : m.val R = some b) (hf : fits 32 (a * b) = true) :
    step insts m = some (m.setReg i (a * b)) := by
  simp [step, hfetch, hL, hR, arith_mul a b hf]

theorem step_alloca (insts : List Instruction) (m : Machine) (i : InstId) (P : BlockId)
    (hfetch : fetch insts m = some (i, Instruction.mk .Alloca false .ptr [] [] P)) :
    step insts m = some (m.alloca i) := by
  simp only [step, hfetch]

theorem step_store (insts : List Instruction) (m : Machine) (i a : InstId) (v : Value)
    (P : BlockId) (r : Int)
    (hfetch : fetch insts m = some (i, Instruction.mk .Store false .void [v, .inst a] [] P))
    (hv : m.val v = some r) : step insts m = some (m.store i a r) := by
  simp only [step, hfetch, hv]

theorem step_br (insts : List Instruction) (m : Machine) (i : InstId) (P D : BlockId)
    (hfetch : fetch insts m = some (i, Instruction.mk .Br false .void [] [D] P)) :
    step insts m = some (m.jump D) := by
  simp only [step, hfetch]

theorem step_condbr (insts : List Instruction) (m : Machine) (i : InstId) (c : Value)
    (P T F : BlockId) (r : Int)
    (hfetch : fetch insts m = some (i, Instruction.mk .Br false .void [c] [T, F] P))
    (hv : m.val c = some r) : step insts m = some (m.jump (if r ≠ 0 then T else F)) := by
  simp only [step, hfetch, hv]

theorem step_icmp_eq (insts : List Instruction) (m : Machine) (i : InstId) (L R : Value)
    (P : BlockId) (a b : Int)
    (hfetch : fetch insts m =
      some (i, Instruction.mk (.ICmp .ICMP_EQ) false (.int 1) [L, R] [] P))
    (hL : m.val L = some a) (hR : m.val R = some b) :
    step insts m = some (m.setReg i (if a = b then 1 else 0)) := by
  simp [step, hfetch, hL, hR, arith]

theorem step_phi (insts : List Instruction) (m : Machine) (i : InstId) (ty : Ty)
    (vs : List Value) (bs : List BlockId) (P : BlockId) (v : Value) (r : Int)
    (hfetch : fetch insts m = some (i, Instruction.mk .PHI false ty vs bs P))
    (hl : (bs.zip vs).lookup m.prev = some v) (hv : m.val v = some r) :
    step insts m = some (m.setReg i r) := by
  simp only [step, hfetch, hl, hv]

theorem runs_CreateNSWMul (L R : Value) (s : ToIRVisitor) (m : Machine) (a b : Int)
    (hm : m.AtInsertPoint s) (hL : m.val L = some a) (hR : m.val R = some b)
    (tL : L.getType s.insts = .int 32) (hf : fits 32 (a * b) = true) :
    ∃ m', Runs s (CreateNSWMul L R s).2 m m' ∧
      m'.val (CreateNSWMul L R s).1 = some (a * b) ∧
      (CreateNSWMul L R s).1.getType (CreateNSWMul L R s).2.insts = .int 32 ∧
      (∀ i, (CreateNSWMul L R s).1 = .inst i → i < (CreateNSWMul L R s).2.insts.length) ∧
      (CreateNSWMul L R s).2.blocks = s.blocks ∧
      (CreateNSWMul L R s).2.InsertBB = s.InsertBB := by
  unfold CreateNSWMul
  cases hc : ConstantFolder .Mul L R with
  | some V =>
    rw [CreateBinOp_some _ _ _ _ _ _ hc]
    refine ⟨m, Runs.runsRefl s m hm, ?_⟩
    cases L <;> cases R <;> simp [ConstantFolder, Machine.val] at hc hL hR
    next bl x br y =>
      simp only [Value.getType, Ty.int.injEq] at tL
      subst tL
      obtain ⟨hbr, hV⟩ := hc
      subst hbr
      simp only [foldInt, Option.some.injEq] at hV
      subst hV hL hR
      refine ⟨?_, ?_, ?_, ?_, ?_⟩
      · simp only [Machine.val]
        rw [toSigned_foldMul x y hf]
      · rfl
      · intro i h; cases h
      · rfl
      · rfl
  | none =>
    rw [CreateBinOp_none _ _ _ _ _ hc]
    simp only [Insert_apply, ToIRVisitor.typeOf_eq, tL]
    obtain ⟨hb, hpc, hfe⟩ := hm
    have hfetch : fetch (s.insts ++ [Instruction.mk .Mul true (.int 32) [L, R] [] s.InsertBB]) m =
        some (s.insts.length, Instruction.mk .Mul true (.int 32) [L, R] [] s.InsertBB) := by
      rw [fetch_append_of_none _ _ _ hpc hfe]
      simp [fetchFrom, hb]
    have hstep := step_mul _ m _ L R _ a b hfetch hL hR hf
    refine ⟨m.setReg s.insts.length (a * b), ⟨⟨[_], rfl⟩, ⟨1, ?_⟩, ⟨hb, ?_, ?_⟩, ?_⟩, ?_⟩
    · simp only [exec, hstep]
    · simp [Machine.setReg]
    · rw [fetch_append_add _ _ _ 1 (by simp [Machine.setReg])]
      simp [fetchFrom]
    · intro i hi
      have : i ≠ s.insts.length := Nat.ne_of_lt hi
      simp [Machine.setReg, this]
    · simp [Machine.val, Machine.setReg]

/-! ### Powers that fit -/

/-- When a power fits 32 bits, so do the lower powers. -/
theorem fits_pow_le (b : Int) (j k : Nat) (hjk : j ≤ k) (hf : fits 32 (b ^ k) = true) :
    fits 32 (b ^ j) = true := by
  rcases Nat.eq_or_lt_of_le hjk with h | h
  · rw [h]; exact hf
  rw [fits_iff] at hf ⊢
  have hk : (b ^ k).natAbs ≤ 2147483648 := by omega
  rw [Int.natAbs_pow] at hk
  have hj : (b ^ j).natAbs ≤ 1073741824 := by
    rw [Int.natAbs_pow]
    by_cases hB : b.natAbs ≤ 1
    · have : b.natAbs ^ j ≤ 1 ^ j := Nat.pow_le_pow_left hB j
      simp only [one_pow] at this
      omega
    · have h2 : 2 ≤ b.natAbs := by omega
      have h3 : b.natAbs ^ (j + 1) ≤ b.natAbs ^ k :=
        Nat.pow_le_pow_right (by omega) h
      have h4 : b.natAbs ^ j * 2 ≤ b.natAbs ^ (j + 1) := by
        rw [pow_succ]
        exact Nat.mul_le_mul_left _ h2
      omega
  omega

theorem runs_mulLoop : ∀ (n : Nat) (result base : Value) (s : ToIRVisitor) (m : Machine)
    (a b : Int), m.AtInsertPoint s → m.val result = some a → m.val base = some b →
    result.getType s.insts = .int 32 → (∀ i, base = .inst i → i < s.insts.length) →
    (∀ j, j ≤ n → fits 32 (a * b ^ j) = true) →
    ∃ m', Runs s (mulLoop n result base s).2 m m' ∧
      m'.val (mulLoop n result base s).1 = some (a * b ^ n) ∧
      (mulLoop n result base s).1.getType (mulLoop n result base s).2.insts = .int 32 ∧
      (mulLoop n result base s).2.blocks = s.blocks ∧
      (mulLoop n result base s).2.InsertBB = s.InsertBB
  | 0, result, base, s, m, a, b, hm, hr, _, ht, _, _ =>
    ⟨m, Runs.runsRefl s m hm, by simpa [mulLoop] using hr, by simpa [mulLoop] using ht, rfl, rfl⟩
  | n + 1, result, base, s, m, a, b, hm, hr, hb, ht, hw, hf => by
    obtain ⟨m1, r1, v1, t1, _, b1, i1⟩ := runs_CreateNSWMul result base s m a b hm hr hb ht
      (by simpa using hf 1 (by omega))
    have hw1 : ∀ i, base = .inst i → i < (CreateNSWMul result base s).2.insts.length := by
      intro i hi
      obtain ⟨new, e⟩ := r1.1
      rw [e, List.length_append]
      exact Nat.lt_of_lt_of_le (hw i hi) (Nat.le_add_right _ _)
    obtain ⟨m2, r2, v2, t2, b2, i2⟩ := runs_mulLoop n (CreateNSWMul result base s).1 base
      (CreateNSWMul result base s).2 m1 (a * b) b r1.2.2.1 v1 ((r1.val base hw).trans hb) t1 hw1
      (by
        intro j hj
        have := hf (j + 1) (by omega)
        rw [pow_succ, mul_comm (b ^ j), ← mul_assoc] at this
        exact this)
    refine ⟨m2, r1.runsTrans r2, ?_, t2, b2.trans b1, i2.trans i1⟩
    rw [show mulLoop (n + 1) result base s =
      mulLoop n (CreateNSWMul result base s).1 base (CreateNSWMul result base s).2 from rfl, v2,
      pow_succ, mul_comm (b ^ n), ← mul_assoc]

end Calc

namespace Calc

/-! ## The loop of `generateExponent` -/

/-- An instruction of a block without instructions in `old` is fetched from
the code behind `old`. -/
theorem fetch_fresh (old new : List Instruction) (m : Machine)
    (hold : ∀ x ∈ old, x.parent ≠ m.block) (hpc : m.pc ≤ old.length) :
    fetch (old ++ new) m = fetchFrom m.block new old.length := by
  apply fetch_append_of_none _ _ _ hpc
  unfold fetch
  rw [fetchFrom_eq_none]
  intro x hx
  exact hold x (List.mem_of_mem_drop hx)

theorem exec_step {l : List Instruction} {n : Nat} {m m1 : Machine} {r : Option Machine}
    (h : step l m = some m1) (h2 : exec l n m1 = r) : exec l (n + 1) m = r := by
  simp only [exec, h]
  exact h2

set_option maxHeartbeats 1000000 in
/-- One pass through the loop, from its head: the accumulated product is
multiplied by the base, the counter is decremented, and the machine is at the
head again when the counter is above one, else in the exit block. -/
theorem expLoop_pass (old rest : List Instruction) (base : Value) (c : InstId) (P B X : BlockId)
    (m : Machine) (a b cnt : Int)
    (hold : ∀ x ∈ old, x.parent ≠ B) (hbase : ∀ i, base = .inst i → i < old.length)
    (hblock : m.block = B) (hpc : m.pc ≤ old.length)
    (hin : ∃ v, List.lookup m.prev [(P, base), (B, .inst (old.length + 1))] = some v ∧
      m.val v = some a)
    (hb : m.val base = some b) (hcnt : m.mem c = some cnt)
    (hf : fits 32 (a * b) = true) (hfc : fits 32 (cnt - 1) = true) :
    ∃ m', exec (old ++ (expLoop old.length (.int 32) base c P B X ++ rest)) 7 m = some m' ∧
      m'.block = (if cnt - 1 > 1 then B else X) ∧ m'.pc = 0 ∧ m'.prev = B ∧
      m'.regs (old.length + 1) = some (a * b) ∧ m'.mem c = some (cnt - 1) ∧
      (∀ i, i < old.length → m'.regs i = m.regs i) ∧
      (∀ i, i < old.length → i ≠ c → m'.mem i = m.mem i) := by
  obtain ⟨v, hlook, hv⟩ := hin
  have hvb : ∀ m' : Machine, (∀ i, i < old.length → m'.regs i = m.regs i) →
      m'.val base = some b := fun m' h =>
    (Machine.val_congr m m' base fun i hi => h i (hbase i hi)).trans hb
  have hne : ∀ (i k : Nat), i < old.length → ¬ i = old.length + k := fun i k h => by omega
  -- phi
  have f0 : fetch (old ++ (expLoop old.length (.int 32) base c P B X ++ rest)) m =
      some (old.length, Instruction.mk .PHI false (.int 32) [base, .inst (old.length + 1)]
        [P, B] B) := by
    rw [fetch_fresh _ _ _ (by rw [hblock]; exact hold) hpc]
    simp [expLoop, fetchFrom, hblock]
  have s0 : step (old ++ (expLoop old.length (.int 32) base c P B X ++ rest)) m =
      some (m.setReg old.length a) := by
    simp only [step, f0]
    simp [hlook, hv]
  -- mul
  have f1 : fetch (old ++ (expLoop old.length (.int 32) base c P B X ++ rest))
      (m.setReg old.length a) =
      some (old.length + 1, Instruction.mk .Mul true (.int 32) [.inst old.length, base] [] B) := by
    rw [fetch_append_add _ _ _ 1 (by simp [Machine.setReg, Machine.store])]
    simp [expLoop, fetchFrom, hblock, Machine.setReg, Machine.store]
  have s1 := step_mul _ _ _ _ _ _ a b f1 (by simp [Machine.val, Machine.setReg, Machine.store])
    (hvb _ (fun i hi => by simp [Machine.setReg, Machine.store, Nat.ne_of_lt hi])) hf
  -- load
  have f2 : fetch (old ++ (expLoop old.length (.int 32) base c P B X ++ rest))
      ((m.setReg old.length a).setReg (old.length + 1) (a * b)) =
      some (old.length + 2, Instruction.mk .Load false (.int 32) [.inst c] [] B) := by
    rw [fetch_append_add _ _ _ 2 (by simp [Machine.setReg, Machine.store, Nat.add_assoc])]
    simp [expLoop, fetchFrom, hblock, Machine.setReg, Machine.store]
  have s2 : step (old ++ (expLoop old.length (.int 32) base c P B X ++ rest))
      ((m.setReg old.length a).setReg (old.length + 1) (a * b)) =
      some (((m.setReg old.length a).setReg (old.length + 1) (a * b)).setReg
        (old.length + 2) cnt) := by
    simp only [step, f2]
    simp [Machine.setReg, Machine.store, hcnt]
  -- sub
  have f3 : fetch (old ++ (expLoop old.length (.int 32) base c P B X ++ rest))
      (((m.setReg old.length a).setReg (old.length + 1) (a * b)).setReg (old.length + 2) cnt) =
      some (old.length + 3, Instruction.mk .Sub false (.int 32)
        [.inst (old.length + 2), .constInt 32 1] [] B) := by
    rw [fetch_append_add _ _ _ 3 (by simp [Machine.setReg, Machine.store, Nat.add_assoc])]
    simp [expLoop, fetchFrom, hblock, Machine.setReg, Machine.store]
  have one : toSigned 32 1 = 1 := by decide
  have s3 : step (old ++ (expLoop old.length (.int 32) base c P B X ++ rest))
      (((m.setReg old.length a).setReg (old.length + 1) (a * b)).setReg (old.length + 2) cnt) =
      some ((((m.setReg old.length a).setReg (old.length + 1) (a * b)).setReg
        (old.length + 2) cnt).setReg (old.length + 3) (cnt - 1)) := by
    simp only [step, f3]
    simp [Machine.setReg, Machine.store, Machine.val, one, arith_sub cnt 1 hfc]
  -- store
  have f4 : fetch (old ++ (expLoop old.length (.int 32) base c P B X ++ rest))
      ((((m.setReg old.length a).setReg (old.length + 1) (a * b)).setReg
        (old.length + 2) cnt).setReg (old.length + 3) (cnt - 1)) =
      some (old.length + 4, Instruction.mk .Store false .void
        [.inst (old.length + 3), .inst c] [] B) := by
    rw [fetch_append_add _ _ _ 4 (by simp [Machine.setReg, Machine.store, Nat.add_assoc])]
    simp [expLoop, fetchFrom, hblock, Machine.setReg, Machine.store]
  have s4 : step (old ++ (expLoop old.length (.int 32) base c P B X ++ rest))
      ((((m.setReg old.length a).setReg (old.length + 1) (a * b)).setReg
        (old.length + 2) cnt).setReg (old.length + 3) (cnt - 1)) =
      some (((((m.setReg old.length a).setReg (old.length + 1) (a * b)).setReg
        (old.length + 2) cnt).setReg (old.length + 3) (cnt - 1)).store (old.length + 4) c
        (cnt - 1)) := by
    simp only [step, f4]
    simp [Machine.setReg, Machine.store, Machine.val]
  -- icmp
  have f5 : fetch (old ++ (expLoop old.length (.int 32) base c P B X ++ rest))
      (((((m.setReg old.length a).setReg (old.length + 1) (a * b)).setReg
        (old.length + 2) cnt).setReg (old.length + 3) (cnt - 1)).store (old.length + 4) c
        (cnt - 1)) =
      some (old.length + 5, Instruction.mk (.ICmp .ICMP_SGT) false (.int 1)
        [.inst (old.length + 3), .constInt 32 1] [] B) := by
    rw [fetch_append_add _ _ _ 5 (by simp [Machine.setReg, Machine.store, Nat.add_assoc])]
    simp [expLoop, fetchFrom, hblock, Machine.setReg, Machine.store]
  have s5 : step (old ++ (expLoop old.length (.int 32) base c P B X ++ rest))
      (((((m.setReg old.length a).setReg (old.length + 1) (a * b)).setReg
        (old.length + 2) cnt).setReg (old.length + 3) (cnt - 1)).store (old.length + 4) c
        (cnt - 1)) =
      some (Machine.setReg (((((m.setReg old.length a).setReg (old.length + 1) (a * b)).setReg
        (old.length + 2) cnt).setReg (old.length + 3) (cnt - 1)).store (old.length + 4) c
        (cnt - 1))
        (old.length + 5) (if cnt - 1 > 1 then 1 else 0)) := by
    simp only [step, f5]
    simp [Machine.setReg, Machine.store, Machine.val, one, arith]
  -- br
  have f6 : fetch (old ++ (expLoop old.length (.int 32) base c P B X ++ rest))
      (Machine.setReg (((((m.setReg old.length a).setReg (old.length + 1) (a * b)).setReg
        (old.length + 2) cnt).setReg (old.length + 3) (cnt - 1)).store (old.length + 4) c
        (cnt - 1))
        (old.length + 5) (if cnt - 1 > 1 then 1 else 0)) =
      some (old.length + 6, Instruction.mk .Br false .void [.inst (old.length + 5)] [B, X] B) := by
    rw [fetch_append_add _ _ _ 6 (by simp [Machine.setReg, Machine.store, Nat.add_assoc])]
    simp [expLoop, fetchFrom, hblock, Machine.setReg, Machine.store]
  have s6 : step (old ++ (expLoop old.length (.int 32) base c P B X ++ rest))
      (Machine.setReg (((((m.setReg old.length a).setReg (old.length + 1) (a * b)).setReg
        (old.length + 2) cnt).setReg (old.length + 3) (cnt - 1)).store (old.length + 4) c
        (cnt - 1))
        (old.length + 5) (if cnt - 1 > 1 then 1 else 0)) =
      some (Machine.jump (Machine.setReg (((((m.setReg old.length a).setReg (old.length + 1) (a * b)).setReg
        (old.length + 2) cnt).setReg (old.length + 3) (cnt - 1)).store (old.length + 4) c
        (cnt - 1))
        (old.length + 5) (if cnt - 1 > 1 then 1 else 0))
        (if (if cnt - 1 > 1 then (1 : Int) else 0) ≠ 0 then B else X)) := by
    simp only [step, f6]
    simp [Machine.setReg, Machine.store, Machine.val]
  refine ⟨_, exec_step s0 (exec_step s1 (exec_step s2 (exec_step s3 (exec_step s4
    (exec_step s5 (exec_step s6 rfl)))))), ?_, rfl, ?_, ?_, ?_, ?_, ?_⟩
  · by_cases h : cnt - 1 > 1 <;> simp [Machine.jump, h]
  · simp [Machine.jump, Machine.setReg, Machine.store, hblock]
  · simp [Machine.jump, Machine.setReg, Machine.store]
  · simp [Machine.jump, Machine.setReg, Machine.store]
  · intro i hi
    simp [Machine.jump, Machine.setReg, Machine.store, hne i _ hi, Nat.ne_of_lt hi]
  · intro i _ hic
    simp [Machine.jump, Machine.setReg, Machine.store, hic]

/-- The loop, from its head with the counter `c₀`: it is passed `c₀ - 1`
times, but once at least, and each pass multiplies by the base. -/
theorem expLoop_exec (old rest : List Instruction) (base : Value) (c : InstId) (P B X : BlockId)
    (b : Int) (hold : ∀ x ∈ old, x.parent ≠ B) (hbase : ∀ i, base = .inst i → i < old.length)
    (hPB : P ≠ B) : ∀ (c₀ : Nat) (m : Machine) (a : Int), c₀ < 2 ^ 31 →
    m.block = B → m.pc ≤ old.length →
    (∃ v, List.lookup m.prev [(P, base), (B, .inst (old.length + 1))] = some v ∧
      m.val v = some a) →
    m.val base = some b → m.mem c = some (c₀ : Int) →
    (∀ j, 1 ≤ j → j ≤ max (c₀ - 1) 1 → fits 32 (a * b ^ j) = true) →
    ∃ n m', exec (old ++ (expLoop old.length (.int 32) base c P B X ++ rest)) n m = some m' ∧
      m'.block = X ∧ m'.pc = 0 ∧ m'.prev = B ∧
      m'.regs (old.length + 1) = some (a * b ^ (max (c₀ - 1) 1)) ∧
      (∀ i, i < old.length → m'.regs i = m.regs i) ∧
      (∀ i, i < old.length → i ≠ c → m'.mem i = m.mem i)
  | c₀, m, a, hc, hblock, hpc, hin, hb, hcnt, hf => by
    have hfc : fits 32 ((c₀ : Int) - 1) = true := by
      rw [fits_iff]
      norm_num at hc
      omega
    obtain ⟨m1, e1, b1, p1, v1, r1, c1, fr1, fm1⟩ := expLoop_pass old rest base c P B X m a b c₀
      hold hbase hblock hpc hin hb hcnt (by simpa using hf 1 (le_refl _) (le_max_right _ _)) hfc
    by_cases h : c₀ ≤ 2
    · have hx : ¬ ((c₀ : Int) - 1 > 1) := by omega
      rw [if_neg hx] at b1
      have hmax : max (c₀ - 1) 1 = 1 := by omega
      exact ⟨7, m1, e1, b1, p1, v1, by rw [hmax, pow_one]; exact r1, fr1, fm1⟩
    · have hx : (c₀ : Int) - 1 > 1 := by omega
      rw [if_pos hx] at b1
      have hBP : (B == P) = false := by
        simpa using fun h => hPB h.symm
      have hb1 : m1.val base = some b :=
        (Machine.val_congr m m1 base fun i hi => fr1 i (hbase i hi)).trans hb
      have hcast : ((c₀ : Int) - 1) = ((c₀ - 1 : Nat) : Int) := by omega
      have hmax : max (c₀ - 1) 1 = max (c₀ - 1 - 1) 1 + 1 := by omega
      obtain ⟨n, m2, e2, b2, p2, v2, r2, fr2, fm2⟩ := expLoop_exec old rest base c P B X b hold
        hbase hPB (c₀ - 1) m1 (a * b) (by omega) b1 (by rw [p1]; exact Nat.zero_le _)
        ⟨.inst (old.length + 1), by simp [v1, List.lookup, hBP], by simpa [Machine.val] using r1⟩
        hb1 (by rw [c1, hcast])
        (by
          intro j hj1 hj2
          have := hf (j + 1) (by omega) (by omega)
          rw [pow_succ, mul_comm (b ^ j), ← mul_assoc] at this
          exact this)
      refine ⟨7 + n, m2, exec_add _ _ _ _ _ _ e1 e2, b2, p2, v2, ?_,
        fun i hi => (fr2 i hi).trans (fr1 i hi), fun i hi hic => (fm2 i hi hic).trans (fm1 i hi hic)⟩
      rw [r2, hmax, pow_succ, mul_comm (b ^ _), ← mul_assoc]
termination_by c₀ => c₀
decreasing_by omega

end Calc

namespace Calc

/-! ## Constant exponents -/

theorem Computes.of_runs {s s' : ToIRVisitor} {m m' : Machine} {v : Value} {r : Int}
    (h : Runs s s' m m') (hv : m'.val v = some r) : Computes s s' m v r := by
  obtain ⟨_, ⟨n, e⟩, a, f⟩ := h
  exact ⟨n, m', e, a, hv, f⟩

theorem runs_mulLoop_base (n : Nat) (base : Value) (s : ToIRVisitor) (m : Machine) (b : Int)
    (hw : ∀ i, base = .inst i → i < s.insts.length) (hty : base.getType s.insts = .int 32)
    (hm : m.AtInsertPoint s) (hb : m.val base = some b) (hfit : fits 32 (b ^ (n + 1)) = true) :
    ∃ m', Runs s (mulLoop n base base s).2 m m' ∧
      m'.val (mulLoop n base base s).1 = some (b ^ (n + 1)) ∧
      (mulLoop n base base s).2.blocks = s.blocks ∧
      (mulLoop n base base s).2.InsertBB = s.InsertBB := by
  obtain ⟨m', r, v, _, bb, ii⟩ := runs_mulLoop n base base s m b b hm hb hb hty hw (by
    intro j hj
    have := fits_pow_le b (j + 1) (n + 1) (by omega) hfit
    rwa [pow_succ, mul_comm] at this)
  exact ⟨m', r, by rw [v, ← pow_succ'], bb, ii⟩

/-- The chains of multiplications for the exponents 2 to 9. -/
theorem runs_generateExponent_small (base : Value) (bits k : Nat) (s : ToIRVisitor)
    (m : Machine) (b : Int) (hw : ∀ i, base = .inst i → i < s.insts.length)
    (hty : base.getType s.insts = .int 32) (hm : m.AtInsertPoint s) (hb : m.val base = some b)
    (h2 : 2 ≤ k) (h9 : k ≤ 9) (hfit : fits 32 (b ^ k) = true) :
    ∃ m', Runs s (generateExponent base (.constInt bits k) s).2 m m' ∧
      m'.val (generateExponent base (.constInt bits k) s).1 = some (b ^ k) ∧
      (generateExponent base (.constInt bits k) s).2.blocks = s.blocks ∧
      (generateExponent base (.constInt bits k) s).2.InsertBB = s.InsertBB := by
  have f2 : fits 32 (b * b) = true := by
    have := fits_pow_le b 2 k h2 hfit
    rwa [pow_two] at this
  obtain ⟨m1, r1, v1, t1, _, b1, i1⟩ := runs_CreateNSWMul base base s m b b hm hb hb hty f2
  have hb1 : m1.val base = some b := (r1.val base hw).trans hb
  have hk : k = 2 ∨ k = 3 ∨ k = 4 ∨ k = 5 ∨ k = 6 ∨ k = 7 ∨ k = 8 ∨ k = 9 := by omega
  rcases hk with h | h | h | h | h | h | h | h <;> subst h <;>
    simp only [generateExponent, G.bind_run, G.pure_run] <;>
    simp only [Nat.reduceLT, Nat.reduceEqDiff, if_true, if_false, OfNat.ofNat_ne_zero,
      Nat.reduceSub, ite_true, ite_false, reduceIte, G.bind_run, G.pure_run]
  · exact ⟨m1, r1, by rw [v1, pow_two], b1, i1⟩
  · have f3 : fits 32 (b * b * b) = true := by
      have := fits_pow_le b 3 3 (le_refl _) hfit
      rwa [show b ^ 3 = b * b * b by ring] at this
    obtain ⟨m2, r2, v2, _, _, b2, i2⟩ := runs_CreateNSWMul _ base _ m1 (b * b) b r1.2.2.1 v1 hb1
      t1 f3
    exact ⟨m2, r1.runsTrans r2, by rw [v2]; congr 1; ring, b2.trans b1, i2.trans i1⟩
  · have f4 : fits 32 (b * b * (b * b)) = true := by
      have := fits_pow_le b 4 4 (le_refl _) hfit
      rwa [show b ^ 4 = b * b * (b * b) by ring] at this
    obtain ⟨m2, r2, v2, _, _, b2, i2⟩ := runs_CreateNSWMul _ _ _ m1 (b * b) (b * b) r1.2.2.1 v1
      v1 t1 f4
    exact ⟨m2, r1.runsTrans r2, by rw [v2]; congr 1; ring, b2.trans b1, i2.trans i1⟩
  · have f4 : fits 32 (b * b * (b * b)) = true := by
      have := fits_pow_le b 4 5 (by decide) hfit
      rwa [show b ^ 4 = b * b * (b * b) by ring] at this
    have f5 : fits 32 (b * b * (b * b) * b) = true := by
      have := fits_pow_le b 5 5 (le_refl _) hfit
      rwa [show b ^ 5 = b * b * (b * b) * b by ring] at this
    obtain ⟨m2, r2, v2, t2, _, b2, i2⟩ := runs_CreateNSWMul _ _ _ m1 (b * b) (b * b) r1.2.2.1 v1
      v1 t1 f4
    have hb2 : m2.val base = some b := ((r1.runsTrans r2).val base hw).trans hb
    obtain ⟨m3, r3, v3, _, _, b3, i3⟩ := runs_CreateNSWMul _ base _ m2 _ b r2.2.2.1 v2 hb2 t2 f5
    exact ⟨m3, (r1.runsTrans r2).runsTrans r3, by rw [v3]; congr 1; ring, b3.trans (b2.trans b1),
      i3.trans (i2.trans i1)⟩
  all_goals exact runs_mulLoop_base _ base s m b hw hty hm hb hfit

set_option maxHeartbeats 1000000 in
/-- The counted loop for a constant exponent of ten or more. -/
theorem runs_generateExponent_loop (base : Value) (k : Nat) (s : ToIRVisitor) (m : Machine)
    (b : Int) (hs : s.WellFormed base) (hty : base.getType s.insts = .int 32)
    (hm : m.AtInsertPoint s) (hb : m.val base = some b) (h10 : 10 ≤ k) (hk : k < 2 ^ 31)
    (hfit : fits 32 (b ^ k) = true) :
    ∃ m', Runs s (generateExponent base (.constInt 32 k) s).2 m m' ∧
      m'.val (generateExponent base (.constInt 32 k) s).1 = some (b ^ k) := by
  obtain ⟨hB, hpar, hw⟩ := hs
  obtain ⟨hblock, hpc, hfe⟩ := hm
  rw [generateExponent_const_loop base 32 k s h10 hw, hty]
  simp only []
  have hPB : s.InsertBB ≠ s.blocks.length := Nat.ne_of_lt hB
  -- the counter cell
  have f0 : fetch (s.insts ++ ([Instruction.mk .Alloca false .ptr [] [] s.InsertBB,
      Instruction.mk .Store false .void [.constInt 32 k, .inst s.insts.length] [] s.InsertBB,
      Instruction.mk .Br false .void [] [s.blocks.length] s.InsertBB] ++
      expLoop (s.insts.length + 3) (.int 32) base s.insts.length s.InsertBB s.blocks.length
        (s.blocks.length + 1))) m =
      some (s.insts.length, Instruction.mk .Alloca false .ptr [] [] s.InsertBB) := by
    rw [fetch_append_of_none _ _ _ hpc hfe]
    simp [fetchFrom, hblock]
  have s0 := step_alloca _ _ _ _ f0
  have f1 : fetch (s.insts ++ ([Instruction.mk .Alloca false .ptr [] [] s.InsertBB,
      Instruction.mk .Store false .void [.constInt 32 k, .inst s.insts.length] [] s.InsertBB,
      Instruction.mk .Br false .void [] [s.blocks.length] s.InsertBB] ++
      expLoop (s.insts.length + 3) (.int 32) base s.insts.length s.InsertBB s.blocks.length
        (s.blocks.length + 1))) (m.alloca s.insts.length) =
      some (s.insts.length + 1, Instruction.mk .Store false .void
        [.constInt 32 k, .inst s.insts.length] [] s.InsertBB) := by
    rw [fetch_append_add _ _ _ 1 rfl]
    simp [fetchFrom, hblock, Machine.alloca]
  have s1 := step_store _ _ _ _ _ _ (k : Int) f1 (by simp [Machine.val, toSigned_small k hk])
  have f2 : fetch (s.insts ++ ([Instruction.mk .Alloca false .ptr [] [] s.InsertBB,
      Instruction.mk .Store false .void [.constInt 32 k, .inst s.insts.length] [] s.InsertBB,
      Instruction.mk .Br false .void [] [s.blocks.length] s.InsertBB] ++
      expLoop (s.insts.length + 3) (.int 32) base s.insts.length s.InsertBB s.blocks.length
        (s.blocks.length + 1)))
      ((m.alloca s.insts.length).store (s.insts.length + 1) s.insts.length k) =
      some (s.insts.length + 2, Instruction.mk .Br false .void [] [s.blocks.length]
        s.InsertBB) := by
    rw [fetch_append_add _ _ _ 2 rfl]
    simp [fetchFrom, hblock, Machine.alloca, Machine.store]
  have s2 := step_br _ _ _ _ _ f2
  -- the loop
  have hre : s.insts ++ ([Instruction.mk .Alloca false .ptr [] [] s.InsertBB,
      Instruction.mk .Store false .void [.constInt 32 k, .inst s.insts.length] [] s.InsertBB,
      Instruction.mk .Br false .void [] [s.blocks.length] s.InsertBB] ++
      expLoop (s.insts.length + 3) (.int 32) base s.insts.length s.InsertBB s.blocks.length
        (s.blocks.length + 1)) =
      (s.insts ++ [Instruction.mk .Alloca false .ptr [] [] s.InsertBB,
      Instruction.mk .Store false .void [.constInt 32 k, .inst s.insts.length] [] s.InsertBB,
      Instruction.mk .Br false .void [] [s.blocks.length] s.InsertBB]) ++
      (expLoop (s.insts ++ [Instruction.mk .Alloca false .ptr [] [] s.InsertBB,
      Instruction.mk .Store false .void [.constInt 32 k, .inst s.insts.length] [] s.InsertBB,
      Instruction.mk .Br false .void [] [s.blocks.length] s.InsertBB]).length (.int 32) base
        s.insts.length s.InsertBB s.blocks.length (s.blocks.length + 1) ++ []) := by
    simp
  have hold : ∀ x ∈ s.insts ++ [Instruction.mk .Alloca false .ptr [] [] s.InsertBB,
      Instruction.mk .Store false .void [.constInt 32 k, .inst s.insts.length] [] s.InsertBB,
      Instruction.mk .Br false .void [] [s.blocks.length] s.InsertBB],
      x.parent ≠ s.blocks.length := by
    intro x hx
    rcases List.mem_append.1 hx with h | h
    · exact Nat.ne_of_lt (hpar x h)
    · simp at h
      rcases h with h | h | h <;> subst h <;> exact hPB
  obtain ⟨n, m', e, bl, pc', _, v, fr, fm⟩ := expLoop_exec _ [] base s.insts.length s.InsertBB
    s.blocks.length (s.blocks.length + 1) b hold
    (fun i hi => by
      rw [List.length_append]
      exact Nat.lt_of_lt_of_le (hw i hi) (Nat.le_add_right _ _))
    hPB k (((m.alloca s.insts.length).store (s.insts.length + 1) s.insts.length k).jump
      s.blocks.length) b hk rfl
    (Nat.zero_le _)
    ⟨base, by simp [Machine.jump, Machine.store, Machine.alloca, hblock, List.lookup],
      (Machine.val_congr m _ base fun i _ => rfl).trans hb⟩
    ((Machine.val_congr m _ base fun i _ => rfl).trans hb)
    (by simp [Machine.jump, Machine.store])
    (by
      intro j _ hj
      have := fits_pow_le b (j + 1) k (by omega) hfit
      rwa [pow_succ, mul_comm] at this)
  rw [← hre] at e
  refine ⟨m', ⟨⟨_, rfl⟩, ⟨n + 3, exec_step s0 (exec_step s1 (exec_step s2 ?_))⟩, ⟨bl, ?_, ?_⟩, ?_⟩, ?_⟩
  · exact e
  · rw [pc']
    exact Nat.zero_le _
  · unfold fetch
    rw [fetchFrom_eq_none]
    intro x hx
    have hx := List.mem_of_mem_drop hx
    rw [bl]
    simp only [expLoop, List.mem_append, List.mem_cons, List.mem_singleton, List.not_mem_nil,
      or_false] at hx
    rcases hx with h | h | h
    · exact Nat.ne_of_lt (Nat.lt_succ_of_lt (hpar x h))
    · rcases h with h | h | h <;> subst h <;> exact Nat.ne_of_lt (Nat.lt_succ_of_lt hB)
    · rcases h with h | h | h | h | h | h | h <;> subst h <;>
        exact Nat.ne_of_lt (Nat.lt_succ_self _)
  · intro i hi
    have hi' : i < (s.insts ++ [Instruction.mk .Alloca false .ptr [] [] s.InsertBB,
      Instruction.mk .Store false .void [.constInt 32 k, .inst s.insts.length] [] s.InsertBB,
      Instruction.mk .Br false .void [] [s.blocks.length] s.InsertBB]).length := by
      rw [List.length_append]
      exact Nat.lt_of_lt_of_le hi (Nat.le_add_right _ _)
    have hne : i ≠ s.insts.length := Nat.ne_of_lt hi
    refine ⟨(fr i hi').trans rfl, (fm i hi' hne).trans ?_⟩
    simp [Machine.jump, Machine.store, Machine.alloca, hne]
  · have hmax : max (k - 1) 1 = k - 1 := by omega
    have hlen : (s.insts ++ [Instruction.mk .Alloca false .ptr [] [] s.InsertBB,
      Instruction.mk .Store false .void [.constInt 32 k, .inst s.insts.length] [] s.InsertBB,
      Instruction.mk .Br false .void [] [s.blocks.length] s.InsertBB]).length + 1 =
        s.insts.length + 4 := by simp
    rw [hlen, hmax] at v
    simp only [Machine.val, v]
    rw [← pow_succ', show k - 1 + 1 = k by omega]

/-! ### The chains are multiplications only -/

theorem MulChain.chainTrans {s t u : ToIRVisitor} {n k : Nat} (h1 : MulChain s t n)
    (h2 : MulChain t u k) : MulChain s u (n + k) := by
  obtain ⟨a1, a2, n1, e1, l1, p1⟩ := h1
  obtain ⟨b1, b2, n2, e2, l2, p2⟩ := h2
  refine ⟨b1.trans a1, b2.trans a2, n1 ++ n2, by rw [e2, e1, List.append_assoc], ?_, ?_⟩
  · rw [List.length_append]
    exact Nat.add_le_add l1 l2
  · intro x hx
    rcases List.mem_append.1 hx with h | h
    · exact p1 x h
    · rw [← a2]
      exact p2 x h

theorem MulChain.chainMono {s t : ToIRVisitor} {n k : Nat} (h : MulChain s t n) (hk : n ≤ k) :
    MulChain s t k := by
  obtain ⟨a1, a2, n1, e1, l1, p1⟩ := h
  exact ⟨a1, a2, n1, e1, Nat.le_trans l1 hk, p1⟩

theorem mulChain_CreateNSWMul (L R : Value) (s : ToIRVisitor) :
    MulChain s (CreateNSWMul L R s).2 1 := by
  unfold CreateNSWMul
  cases hc : ConstantFolder .Mul L R with
  | some V =>
    rw [CreateBinOp_some _ _ _ _ _ _ hc]
    exact ⟨rfl, rfl, [], by simp, by simp, by simp⟩
  | none =>
    rw [CreateBinOp_none _ _ _ _ _ hc]
    exact ⟨rfl, rfl, [_], rfl, by simp, by simp⟩

theorem mulChain_mulLoop : ∀ (n : Nat) (result base : Value) (s : ToIRVisitor),
    MulChain s (mulLoop n result base s).2 n
  | 0, _, _, s => ⟨rfl, rfl, [], by simp [mulLoop], by simp, by simp⟩
  | n + 1, result, base, s => by
    have h1 := mulChain_CreateNSWMul result base s
    have h2 := mulChain_mulLoop n (CreateNSWMul result base s).1 base (CreateNSWMul result base s).2
    have := h1.chainTrans h2
    rw [Nat.add_comm] at this
    exact this

theorem mulChain_generateExponent (base : Value) (bits k : Nat) (s : ToIRVisitor)
    (h2 : 2 ≤ k) (h9 : k ≤ 9) :
    MulChain s (generateExponent base (.constInt bits k) s).2 (k - 1) := by
  have hk : k = 2 ∨ k = 3 ∨ k = 4 ∨ k = 5 ∨ k = 6 ∨ k = 7 ∨ k = 8 ∨ k = 9 := by omega
  rcases hk with h | h | h | h | h | h | h | h <;> subst h <;>
    simp only [generateExponent, G.bind_run, G.pure_run] <;>
    simp only [Nat.reduceLT, Nat.reduceEqDiff, if_true, if_false, OfNat.ofNat_ne_zero,
      Nat.reduceSub, ite_true, ite_false, reduceIte, G.bind_run, G.pure_run]
  · exact mulChain_CreateNSWMul _ _ _
  · exact (mulChain_CreateNSWMul _ _ _).chainTrans (mulChain_CreateNSWMul _ _ _)
  · exact ((mulChain_CreateNSWMul _ _ _).chainTrans (mulChain_CreateNSWMul _ _ _)).chainMono (by decide)
  · exact (((mulChain_CreateNSWMul _ _ _).chainTrans (mulChain_CreateNSWMul _ _ _)).chainTrans
      (mulChain_CreateNSWMul _ _ _)).chainMono (by decide)
  all_goals exact mulChain_mulLoop _ _ _ _

/-- C27: the code that `generateExponent` emits for a constant exponent `k`
with `0 ≤ k` as a signed 32-bit number, run from the insertion point on a
machine in which the base has the value `b`, arrives at the new insertion
point with the value `b ^ k` in the result, when `b ^ k` fits 32 bits
(overflow aside); it leaves the registers and memory cells that existed
before as they were.  For `k = 0` the result is the constant 1 and nothing is
emitted; for `k = 1` it is the base itself and nothing is emitted; for
`2 ≤ k ≤ 9` at most `k - 1` instructions are emitted, all of them `mul nsw`
in the insertion block, and no block (the folder of the builder multiplies
constants itself); for `k ≥ 10` a counter cell holding `k` is emitted and the
loop block `exp.loop`, which multiplies by the base and decrements the
counter until it is one. -/
theorem generateExponent_constant_computes_power (base : Value) (k : Nat) (s : ToIRVisitor)
    (m : Machine) (b : Int) (hs : s.WellFormed base) (hty : base.getType s.insts = .int 32)
    (hm : m.AtInsertPoint s) (hb : m.val base = some b) (hk : k < 2 ^ 31)
    (hfit : fits 32 (b ^ k) = true) :
    Computes s (generateExponent base (.constInt 32 k) s).2 m
      (generateExponent base (.constInt 32 k) s).1 (b ^ k) ∧
    (k = 0 → generateExponent base (.constInt 32 k) s = (.constInt 32 1, s)) ∧
    (k = 1 → generateExponent base (.constInt 32 k) s = (base, s)) ∧
    (2 ≤ k → k ≤ 9 →
      (generateExponent base (.constInt 32 k) s).2.blocks = s.blocks ∧
      (generateExponent base (.constInt 32 k) s).2.InsertBB = s.InsertBB ∧
      ∃ new, (generateExponent base (.constInt 32 k) s).2.insts = s.insts ++ new ∧
        new.length ≤ k - 1 ∧
        ∀ x ∈ new, x.op = .Mul ∧ x.nsw = true ∧ x.parent = s.InsertBB ∧ x.blocks = []) ∧
    (10 ≤ k →
      (generateExponent base (.constInt 32 k) s).2.blocks =
        s.blocks ++ ["exp.loop", "exp.exit"] ∧
      (generateExponent base (.constInt 32 k) s).2.InsertBB = s.blocks.length + 1 ∧
      (generateExponent base (.constInt 32 k) s).2.insts = s.insts ++
        ([Instruction.mk .Alloca false .ptr [] [] s.InsertBB,
          Instruction.mk .Store false .void [.constInt 32 k, .inst s.insts.length] [] s.InsertBB,
          Instruction.mk .Br false .void [] [s.blocks.length] s.InsertBB] ++
          expLoop (s.insts.length + 3) (.int 32) base s.insts.length s.InsertBB
            s.blocks.length (s.blocks.length + 1))) := by
  have e0 : generateExponent base (.constInt 32 0) s = (.constInt 32 1, s) := by
    simp [generateExponent]
  have e1 : generateExponent base (.constInt 32 1) s = (base, s) := by
    simp [generateExponent]
  refine ⟨?_, fun h => by rw [h, e0], fun h => by rw [h, e1],
    fun h2 h9 => mulChain_generateExponent base 32 k s h2 h9, fun h10 => ?_⟩
  · by_cases h0 : k = 0
    · subst h0
      rw [e0]
      exact Computes.of_runs (Runs.runsRefl s m hm) (by simp [Machine.val]; decide)
    by_cases h1 : k = 1
    · subst h1
      rw [e1]
      exact Computes.of_runs (Runs.runsRefl s m hm) (by simpa using hb)
    by_cases h9 : k ≤ 9
    · obtain ⟨m', r, v, _, _⟩ := runs_generateExponent_small base 32 k s m b hs.2.2 hty hm hb
        (by omega) h9 hfit
      exact Computes.of_runs r v
    · obtain ⟨m', r, v⟩ := runs_generateExponent_loop base k s m b hs hty hm hb (by omega) hk
        hfit
      exact Computes.of_runs r v
  · rw [generateExponent_const_loop base 32 k s h10 hs.2.2, hty]
    exact ⟨rfl, rfl, rfl⟩

set_option maxRecDepth 100000 in
/-- Witness for C27: `b ^ 12` in `with b: b ^ 12`, for the input 3. -/
theorem generateExponent_constant_computes_power_witness :
    (Example.afterReads [['b']]).WellFormed (.inst 0) ∧
    (Example.machine [3] 0 1).AtInsertPoint (Example.afterReads [['b']]) ∧
    fits 32 ((3 : Int) ^ 12) = true ∧
    Computes (Example.afterReads [['b']])
      (generateExponent (.inst 0) (.constInt 32 12) (Example.afterReads [['b']])).2
      (Example.machine [3] 0 1)
      (generateExponent (.inst 0) (.constInt 32 12) (Example.afterReads [['b']])).1 531441 := by
  have hs : (Example.afterReads [['b']]).WellFormed (.inst 0) :=
    ⟨by decide!, by decide!, fun i h => by cases h; decide!⟩
  have hm : (Example.machine [3] 0 1).AtInsertPoint (Example.afterReads [['b']]) :=
    ⟨rfl, by decide!, by decide!⟩
  exact ⟨hs, hm, by decide!, (generateExponent_constant_computes_power (.inst 0) 12
    (Example.afterReads [['b']]) (Example.machine [3] 0 1) 3 hs (by decide!) hm (by decide!)
    (by decide) (by decide!)).1⟩

end Calc

namespace Calc

/-! ## Exponents known at run time -/

set_option maxHeartbeats 2000000 in
/-- The code for an exponent in the register `e`, run with the exponent `n`:
on `n = 0` the result is 1; else the loop is entered with the counter `n`,
is passed `n - 1` times but once at least, and the result is the base to the
power `max n 2`. -/
theorem runtime_exec (old I : List Instruction) (base : Value) (e : InstId) (P B : BlockId)
    (m : Machine) (b : Int) (n : Nat)
    (hI : I = old ++ ([
      Instruction.mk (.ICmp .ICMP_EQ) false (.int 1) [.inst e, .constInt 32 0] [] P,
      Instruction.mk .Br false .void [.inst old.length] [B + 2, B + 3] P,
      Instruction.mk .Br false .void [] [B + 1] (B + 2),
      Instruction.mk .Alloca false .ptr [] [] (B + 3),
      Instruction.mk .Store false .void [.inst e, .inst (old.length + 3)] [] (B + 3),
      Instruction.mk .Br false .void [] [B] (B + 3)] ++
      expLoop (old.length + 6) (.int 32) base (old.length + 3) (B + 3) B (B + 1) ++
      [Instruction.mk .PHI false (.int 32) [.constInt 32 1, .inst (old.length + 7)] [B + 2, B]
        (B + 1)]))
    (hpar : ∀ x ∈ old, x.parent < B) (hP : P < B) (hblock : m.block = P)
    (hpc : m.pc ≤ old.length) (hfe : fetch old m = none) (he : e < old.length)
    (hn : m.regs e = some (n : Int)) (hn31 : n < 2 ^ 31)
    (hbase : ∀ i, base = .inst i → i < old.length) (hb : m.val base = some b)
    (hfit : n ≠ 0 → fits 32 (b ^ max n 2) = true) :
    ∃ k m', exec I k m = some m' ∧ m'.block = B + 1 ∧ m'.pc = old.length + 14 ∧
      m'.regs (old.length + 13) = some (if n = 0 then 1 else b ^ max n 2) ∧
      ∀ i, i < old.length → m'.regs i = m.regs i ∧ m'.mem i = m.mem i := by
  have hPk : ∀ k, ¬ P = B + k := fun k => Nat.ne_of_lt (Nat.lt_of_lt_of_le hP (Nat.le_add_right _ _))
  have hold : ∀ k, ∀ x ∈ old, x.parent ≠ B + k := fun k x hx =>
    Nat.ne_of_lt (Nat.lt_of_lt_of_le (hpar x hx) (Nat.le_add_right _ _))
  have zero : toSigned 32 0 = 0 := by decide
  have one : toSigned 32 1 = 1 := by decide
  -- the comparison with zero and the branch
  have f0 : fetch I m = some (old.length,
      Instruction.mk (.ICmp .ICMP_EQ) false (.int 1) [.inst e, .constInt 32 0] [] P) := by
    rw [hI, fetch_append_of_none _ _ _ hpc hfe]
    simp [fetchFrom, hblock]
  have s0 := step_icmp_eq I m _ _ _ _ (n : Int) 0 f0 (by simpa [Machine.val] using hn)
    (by simp [Machine.val, zero])
  have f1 : fetch I (m.setReg old.length (if (n : Int) = 0 then 1 else 0)) =
      some (old.length + 1, Instruction.mk .Br false .void [.inst old.length] [B + 2, B + 3] P) := by
    rw [hI, fetch_append_add _ _ _ 1 rfl]
    simp [fetchFrom, hblock, Machine.setReg]
  have s1 := step_condbr I _ _ _ _ _ _ (if (n : Int) = 0 then 1 else 0) f1
    (by simp [Machine.val, Machine.setReg])
  by_cases h0 : n = 0
  · -- exponent zero
    subst h0
    simp only [Nat.cast_zero, if_true, ne_eq, one_ne_zero, not_false_eq_true] at s0 s1
    have f2 : fetch I ((m.setReg old.length 1).jump (B + 2)) =
        some (old.length + 2, Instruction.mk .Br false .void [] [B + 1] (B + 2)) := by
      rw [hI, fetch_fresh _ _ _ (hold 2) (Nat.zero_le _)]
      simp [fetchFrom, expLoop, Machine.jump, hPk]
    have s2 := step_br I _ _ _ _ f2
    have f3 : fetch I (((m.setReg old.length 1).jump (B + 2)).jump (B + 1)) =
        some (old.length + 13, Instruction.mk .PHI false (.int 32)
          [.constInt 32 1, .inst (old.length + 7)] [B + 2, B] (B + 1)) := by
      rw [hI, fetch_fresh _ _ _ (hold 1) (Nat.zero_le _)]
      simp [fetchFrom, expLoop, Machine.jump, hPk]
    have s3 := step_phi I _ _ _ _ _ _ (.constInt 32 1) 1 f3
      (by simp [Machine.jump, List.lookup]) (by simp [Machine.val, one])
    refine ⟨4, _, exec_step s0 (exec_step s1 (exec_step s2 (exec_step s3 rfl))), rfl,
      by simp [Machine.setReg, Nat.add_assoc], by simp [Machine.setReg], ?_⟩
    intro i hi
    have h1 : i ≠ old.length := Nat.ne_of_lt hi
    have h2 : i ≠ old.length + 13 := Nat.ne_of_lt (Nat.lt_of_lt_of_le hi (Nat.le_add_right _ _))
    simp [Machine.setReg, Machine.jump, h1, h2]
  · -- the loop
    have hz : ¬ ((n : Int) = 0) := by omega
    simp only [hz, if_false, ne_eq, not_true_eq_false] at s0 s1
    have f2 : fetch I ((m.setReg old.length 0).jump (B + 3)) =
        some (old.length + 3, Instruction.mk .Alloca false .ptr [] [] (B + 3)) := by
      rw [hI, fetch_fresh _ _ _ (hold 3) (Nat.zero_le _)]
      simp [fetchFrom, expLoop, Machine.jump, hPk]
    have s2 := step_alloca I _ _ _ f2
    have f3 : fetch I (((m.setReg old.length 0).jump (B + 3)).alloca (old.length + 3)) =
        some (old.length + 4, Instruction.mk .Store false .void
          [.inst e, .inst (old.length + 3)] [] (B + 3)) := by
      rw [hI, fetch_append_add _ _ _ 4 rfl]
      simp [fetchFrom, expLoop, Machine.jump, Machine.alloca]
    have s3 := step_store I _ _ _ _ _ (n : Int) f3
      (by simp [Machine.val, Machine.alloca, Machine.jump, Machine.setReg, Nat.ne_of_lt he, hn])
    have f4 : fetch I ((((m.setReg old.length 0).jump (B + 3)).alloca (old.length + 3)).store
        (old.length + 4) (old.length + 3) n) =
        some (old.length + 5, Instruction.mk .Br false .void [] [B] (B + 3)) := by
      rw [hI, fetch_append_add _ _ _ 5 rfl]
      simp [fetchFrom, expLoop, Machine.jump, Machine.alloca, Machine.store]
    have s4 := step_br I _ _ _ _ f4
    have hre : I = (old ++ [
        Instruction.mk (.ICmp .ICMP_EQ) false (.int 1) [.inst e, .constInt 32 0] [] P,
        Instruction.mk .Br false .void [.inst old.length] [B + 2, B + 3] P,
        Instruction.mk .Br false .void [] [B + 1] (B + 2),
        Instruction.mk .Alloca false .ptr [] [] (B + 3),
        Instruction.mk .Store false .void [.inst e, .inst (old.length + 3)] [] (B + 3),
        Instruction.mk .Br false .void [] [B] (B + 3)]) ++
        (expLoop (old ++ [
        Instruction.mk (.ICmp .ICMP_EQ) false (.int 1) [.inst e, .constInt 32 0] [] P,
        Instruction.mk .Br false .void [.inst old.length] [B + 2, B + 3] P,
        Instruction.mk .Br false .void [] [B + 1] (B + 2),
        Instruction.mk .Alloca false .ptr [] [] (B + 3),
        Instruction.mk .Store false .void [.inst e, .inst (old.length + 3)] [] (B + 3),
        Instruction.mk .Br false .void [] [B] (B + 3)]).length (.int 32) base (old.length + 3)
          (B + 3) B (B + 1) ++
        [Instruction.mk .PHI false (.int 32) [.constInt 32 1, .inst (old.length + 7)] [B + 2, B]
          (B + 1)]) := by
      rw [hI]
      simp
    have hold6 : ∀ x ∈ old ++ [
        Instruction.mk (.ICmp .ICMP_EQ) false (.int 1) [.inst e, .constInt 32 0] [] P,
        Instruction.mk .Br false .void [.inst old.length] [B + 2, B + 3] P,
        Instruction.mk .Br false .void [] [B + 1] (B + 2),
        Instruction.mk .Alloca false .ptr [] [] (B + 3),
        Instruction.mk .Store false .void [.inst e, .inst (old.length + 3)] [] (B + 3),
        Instruction.mk .Br false .void [] [B] (B + 3)], x.parent ≠ B := by
      intro x hx
      rcases List.mem_append.1 hx with h | h
      · exact Nat.ne_of_lt (hpar x h)
      · simp at h
        rcases h with h | h | h | h | h | h <;> subst h <;>
          first | exact Nat.ne_of_lt hP | exact Nat.ne_of_gt (Nat.lt_add_of_pos_right (by decide))
    have hmax : max (n - 1) 1 + 1 = max n 2 := by omega
    obtain ⟨k, m', ex, bl, pc', pv, v, fr, fm⟩ := expLoop_exec _
      [Instruction.mk .PHI false (.int 32) [.constInt 32 1, .inst (old.length + 7)] [B + 2, B]
        (B + 1)] base (old.length + 3) (B + 3) B (B + 1) b hold6
      (fun i hi => by
        rw [List.length_append]
        exact Nat.lt_of_lt_of_le (hbase i hi) (Nat.le_add_right _ _))
      (Nat.ne_of_gt (Nat.lt_add_of_pos_right (by decide))) n
      (((((m.setReg old.length 0).jump (B + 3)).alloca (old.length + 3)).store
        (old.length + 4) (old.length + 3) n).jump B) b hn31 rfl (Nat.zero_le _)
      ⟨base, by simp [Machine.jump, Machine.store, Machine.alloca, List.lookup],
        (Machine.val_congr m _ base fun i hi => by
          simp [Machine.jump, Machine.store, Machine.alloca, Machine.setReg,
            Nat.ne_of_lt (hbase i hi)]).trans hb⟩
      ((Machine.val_congr m _ base fun i hi => by
          simp [Machine.jump, Machine.store, Machine.alloca, Machine.setReg,
            Nat.ne_of_lt (hbase i hi)]).trans hb)
      (by simp [Machine.jump, Machine.store])
      (by
        intro j _ hj
        have := fits_pow_le b (j + 1) (max n 2) (by omega) (hfit h0)
        rwa [pow_succ, mul_comm] at this)
    rw [← hre] at ex
    have hl7 : (old ++ [
        Instruction.mk (.ICmp .ICMP_EQ) false (.int 1) [.inst e, .constInt 32 0] [] P,
        Instruction.mk .Br false .void [.inst old.length] [B + 2, B + 3] P,
        Instruction.mk .Br false .void [] [B + 1] (B + 2),
        Instruction.mk .Alloca false .ptr [] [] (B + 3),
        Instruction.mk .Store false .void [.inst e, .inst (old.length + 3)] [] (B + 3),
        Instruction.mk .Br false .void [] [B] (B + 3)]).length + 1 = old.length + 7 := by simp
    rw [hl7] at v
    have f5 : fetch I m' = some (old.length + 13, Instruction.mk .PHI false (.int 32)
        [.constInt 32 1, .inst (old.length + 7)] [B + 2, B] (B + 1)) := by
      rw [hI, fetch_fresh _ _ _ (by rw [bl]; exact hold 1) (by rw [pc']; exact Nat.zero_le _)]
      simp [fetchFrom, expLoop, bl, hPk]
    have s5 := step_phi I _ _ _ _ _ _ (.inst (old.length + 7)) _ f5
      (by
        have hB2 : (B == B + 2) = false := by simp
        simp [pv, List.lookup, hB2]) (by simpa [Machine.val] using v)
    refine ⟨5 + k + 1, _, exec_add _ _ _ _ _ _ (exec_add _ _ _ _ _ _
      (exec_step s0 (exec_step s1 (exec_step s2 (exec_step s3 (exec_step s4 rfl))))) ex)
      (exec_step s5 rfl), by simp [Machine.setReg, bl], by simp [Machine.setReg, Nat.add_assoc],
      ?_, ?_⟩
    · simp only [Machine.setReg, if_true, h0, if_false]
      rw [← hmax, pow_succ, mul_comm]
    · intro i hi
      have h1 : i ≠ old.length := Nat.ne_of_lt hi
      have h2 : i ≠ old.length + 13 := Nat.ne_of_lt (Nat.lt_of_lt_of_le hi (Nat.le_add_right _ _))
      have h3 : i ≠ old.length + 3 := Nat.ne_of_lt (Nat.lt_of_lt_of_le hi (Nat.le_add_right _ _))
      have h6 : i < (old ++ [
        Instruction.mk (.ICmp .ICMP_EQ) false (.int 1) [.inst e, .constInt 32 0] [] P,
        Instruction.mk .Br false .void [.inst old.length] [B + 2, B + 3] P,
        Instruction.mk .Br false .void [] [B + 1] (B + 2),
        Instruction.mk .Alloca false .ptr [] [] (B + 3),
        Instruction.mk .Store false .void [.inst e, .inst (old.length + 3)] [] (B + 3),
        Instruction.mk .Br false .void [] [B] (B + 3)]).length := by
        rw [List.length_append]
        exact Nat.lt_of_lt_of_le hi (Nat.le_add_right _ _)
      have r := fr i h6
      have q := fm i h6 h3
      simp only [Machine.setReg, h2, if_false, r, q]
      simp [Machine.jump, Machine.store, Machine.alloca, Machine.setReg, h1, h3]

/-- C28 (the code differs): the code that `generateExponent` emits for an
exponent known at run time only, run from the insertion point on a machine
in which the base has the value `b` and the exponent the value `n ≥ 0`,
arrives at the new insertion point with the result 1 when `n = 0` and with
`b ^ max n 2` otherwise (overflow aside): the loop multiplies once before it
tests the counter, so the result for `n = 1` is `b * b`, not `b`.  For
`n ≥ 2` it is `b ^ n`. -/
theorem generateExponent_runtime_multiplies_once_at_least (base : Value) (e : InstId)
    (s : ToIRVisitor) (m : Machine) (b : Int) (n : Nat) (hs : s.WellFormed base)
    (he : e < s.insts.length) (hty : base.getType s.insts = .int 32)
    (hm : m.AtInsertPoint s) (hb : m.val base = some b) (hn : m.regs e = some (n : Int))
    (hn31 : n < 2 ^ 31) (hfit : n ≠ 0 → fits 32 (b ^ max n 2) = true) :
    Computes s (generateExponent base (.inst e) s).2 m (generateExponent base (.inst e) s).1
      (if n = 0 then 1 else b ^ max n 2) := by
  obtain ⟨hB, hpar, hw⟩ := hs
  obtain ⟨hblock, hpc, hfe⟩ := hm
  rw [generateExponent_inst base e s hw, hty]
  obtain ⟨k, m', ex, bl, pc', v, fr⟩ := runtime_exec s.insts _ base e s.InsertBB s.blocks.length
    m b n rfl hpar hB hblock hpc hfe he hn hn31 hw hb hfit
  refine ⟨k, m', ex, ⟨bl, ?_, ?_⟩, by simpa [Machine.val] using v, fr⟩
  · rw [pc']
    simp [expLoop]
  · show fetch (s.insts ++ _) m' = none
    rw [fetch_append_add _ _ _ 14 pc']
    simp [expLoop, fetchFrom]

set_option maxRecDepth 100000 in
/-- Witness for C28: `b ^ n` in `with b, n: b ^ n`, for the inputs 3 and 1:
the result is 9. -/
theorem generateExponent_runtime_multiplies_once_at_least_witness :
    (Example.afterReads [['b'], ['n']]).WellFormed (.inst 0) ∧
    (Example.machine [3, 1] 0 2).AtInsertPoint (Example.afterReads [['b'], ['n']]) ∧
    Computes (Example.afterReads [['b'], ['n']])
      (generateExponent (.inst 0) (.inst 1) (Example.afterReads [['b'], ['n']])).2
      (Example.machine [3, 1] 0 2)
      (generateExponent (.inst 0) (.inst 1) (Example.afterReads [['b'], ['n']])).1 9 ∧
    ((exec (generateExponent (.inst 0) (.inst 1) (Example.afterReads [['b'], ['n']])).2.insts 13
      (Example.machine [3, 1] 0 2)).bind fun m =>
        m.val (generateExponent (.inst 0) (.inst 1) (Example.afterReads [['b'], ['n']])).1) =
      some 9 := by
  have hs : (Example.afterReads [['b'], ['n']]).WellFormed (.inst 0) :=
    ⟨by decide!, by decide!, fun i h => by cases h; decide!⟩
  have hm : (Example.machine [3, 1] 0 2).AtInsertPoint (Example.afterReads [['b'], ['n']]) :=
    ⟨rfl, by decide!, by decide!⟩
  exact ⟨hs, hm, generateExponent_runtime_multiplies_once_at_least (.inst 0) 1
    (Example.afterReads [['b'], ['n']]) (Example.machine [3, 1] 0 2) 3 1 hs (by decide!)
    (by decide!) hm (by decide!) (by decide!) (by decide) (fun _ => by decide!), by decide!⟩

end Calc

namespace tinylang

/-! ## Writing through a `VAR` parameter -/

theorem CGState.addUse_CurrentDef (s : CGState) (v : Value) (u : Use) :
    (s.addUse v u).CurrentDef = s.CurrentDef := by
  cases v <;> simp only [CGState.addUse]
  split <;> rfl

theorem CGState.addUses_CurrentDef (user : InstId) : ∀ (vs : List Value) (s : CGState) (k : Nat),
    (s.addUses user vs k).CurrentDef = s.CurrentDef := by
  intro vs
  induction vs with
  | nil => intro s k; rfl
  | cons v vs ih => intro s k; exact (ih _ _).trans (s.addUse_CurrentDef v _)

/-- C36 (fails on the code): `writeVariable` applied to a formal parameter
passed by reference does emit one store of the value through the pointer
argument of the parameter into the current block, and changes no definition
table, but it does not complete: the next step evaluates `V->getType()`, where
`V` is the result of the failed `dyn_cast<VariableDeclaration>(Decl)`, a null
pointer. -/
theorem writeVariable_var_parameter_dereferences_null (BB : BlockId) (D : Decl) (Val Arg : Value)
    (s : CGState) (hk : D.kind = .Param true) (hA : s.FormalParams D = some Arg) :
    ∃ s', writeVariable BB D Val s = .fail .nullDereference s' ∧
      s'.numInsts = s.numInsts + 1 ∧
      (s'.insts s.numInsts).map Instruction.withoutUses = some
        { op := .Store, ty := .void, operands := [Val, Arg], blocks := [], parent := s.Curr,
          uses := [] } ∧
      s'.blockInsts s.Curr = s.blockInsts s.Curr ++ [s.numInsts] ∧
      (∀ b, b ≠ s.Curr → s'.blockInsts b = s.blockInsts b) ∧
      s'.CurrentDef = s.CurrentDef := by
  obtain ⟨a1, a2, a3, a4, a5, a6⟩ := CGState.addUses_frame s.numInsts [Val, Arg]
    { s with
      insts := fun j => if j = s.numInsts then some
        { op := .Store, ty := .void, operands := [Val, Arg], blocks := [],
          parent := s.Curr, uses := [] } else s.insts j
      numInsts := s.numInsts + 1
      blockInsts := fun b => if b = s.Curr then s.blockInsts b ++ [s.numInsts]
        else s.blockInsts b } 0
  have a7 := CGState.addUses_CurrentDef s.numInsts [Val, Arg]
    { s with
      insts := fun j => if j = s.numInsts then some
        { op := .Store, ty := .void, operands := [Val, Arg], blocks := [],
          parent := s.Curr, uses := [] } else s.insts j
      numInsts := s.numInsts + 1
      blockInsts := fun b => if b = s.Curr then s.blockInsts b ++ [s.numInsts]
        else s.blockInsts b } 0
  refine ⟨_, ?_, a2, ?_, ?_, ?_, a7⟩
  · unfold writeVariable
    simp only [hk]
    show M.bind M.get _ s = _
    rw [M.bind_get]
    simp only [hA]
    rfl
  · rw [a1]
    simp
    rfl
  · rw [a3]
    simp
  · intro b hb
    rw [a3]
    simp [hb]

set_option maxRecDepth 100000 in
/-- Witness for C36: the parameter `VAR r : INTEGER` bound to the first
argument.  The procedure `PROCEDURE p(VAR r : INTEGER); BEGIN r := 1 END p`
is not lowered: its only statement stops at the absent declaration, after the
store has been emitted. -/
theorem writeVariable_var_parameter_dereferences_null_witness :
    (∃ s', writeVariable 0 Example.r (.constInt 64 1) Example.varParamState =
        .fail .nullDereference s' ∧ s'.numInsts = 1 ∧ s'.blockInsts 0 = [0]) ∧
    (run llvmEnv 20 Example.assignVarParam).error? = some .nullDereference ∧
    (run llvmEnv 20 Example.assignVarParam).state.numInsts = 1 ∧
    ((run llvmEnv 20 Example.assignVarParam).state.insts 0).map (fun x => (x.op, x.operands)) =
      some (.Store, [.constInt 64 1, .arg 0]) := by
  refine ⟨?_, by decide!, by decide!, by decide!⟩
  obtain ⟨s', h1, h2, _, h4, _, _⟩ :=
    writeVariable_var_parameter_dereferences_null 0 Example.r (.constInt 64 1) (.arg 0)
      Example.varParamState rfl (by decide)
  exact ⟨s', h1, h2, h4⟩

end tinylang

namespace tinylang

/-! ## The cursor after a token -/

/-- `Lexer::string` on a literal that is open at the end of the buffer: the
loop stops at the terminating NUL and the token is formed with `End + 1`. -/
theorem Lexer.string_stops_behind_terminator (pre body : List Char) (q : Char)
    (D : DiagnosticsEngine)
    (hbody : ∀ c ∈ body, c ≠ q ∧ c ≠ Char.ofNat 0 ∧ charinfo.isVerticalWhitespace c = false) :
    Lexer.string { CurBuf := pre ++ q :: body, CurPtr := pre.length, Diags := D } =
      ({ CurBuf := pre ++ q :: body, CurPtr := pre.length + 1 + body.length + 1, Diags := D },
        { Ptr := pre.length, Length := body.length + 2, Kind := .string_literal }) := by
  have hb : Lexer.span
      (fun c => c != Char.ofNat 0 && c != q && !charinfo.isVerticalWhitespace c) body
        = body.length :=
    Lexer.span_all _ _ (fun c hc => by
      obtain ⟨h1, h2, h3⟩ := hbody c hc
      simp [h1, h2, h3])
  have hdrop : (pre ++ q :: body).drop (pre.length + 1) = body := by
    rw [← List.drop_drop]
    simp
  have hend : Lexer.charAt { CurBuf := pre ++ q :: body, CurPtr := pre.length, Diags := D }
      (pre.length + 1 + body.length) = Char.ofNat 0 := by
    simp only [Lexer.charAt]
    rw [List.getD_eq_default]
    simp
    omega
  unfold Lexer.string
  simp only [Lexer.charAt_cursor pre body q D pre.length rfl, hdrop, hb, hend]
  simp [Lexer.formToken, charinfo.isVerticalWhitespace]
  omega

/-- C38 (fails on the code): the cursor does not stay inside the buffer.  The
buffer of the model is the text in front of the terminating NUL, so the NUL
sits at position `CurBuf.length`.  When `Lexer::next` meets a string literal
that is still open at the end of the input, `Lexer::string` stops at the NUL
and forms the token with `End + 1`: afterwards the cursor is one position
behind the NUL, and so is the end of the token. -/
theorem next_open_string_moves_cursor_behind_terminator (pre body : List Char) (q : Char)
    (D : DiagnosticsEngine) (Result : Token) (hq : q = '"' ∨ q = '\'')
    (hbody : ∀ c ∈ body, c ≠ q ∧ c ≠ Char.ofNat 0 ∧ charinfo.isVerticalWhitespace c = false) :
    ∃ L T, Lexer.next { CurBuf := pre ++ q :: body, CurPtr := pre.length, Diags := D } Result =
        some (L, T) ∧
      L.CurBuf = pre ++ q :: body ∧ T.Kind = .string_literal ∧
      L.CurPtr = L.CurBuf.length + 1 ∧ T.Ptr + T.Length = L.CurBuf.length + 1 := by
  have hs : Lexer.span (fun c => c != Char.ofNat 0 && charinfo.isWhitespace c) (q :: body) = 0 :=
    Lexer.span_stop _ _ _ (by rcases hq with h | h <;> subst h <;> decide)
  have h0 : q ≠ Char.ofNat 0 := by rcases hq with h | h <;> subst h <;> decide
  have hi : charinfo.isIdentifierHead q = false := by rcases hq with h | h <;> subst h <;> decide
  have hd : charinfo.isDigit q = false := by rcases hq with h | h <;> subst h <;> decide
  refine ⟨{ CurBuf := pre ++ q :: body, CurPtr := pre.length + 1 + body.length + 1, Diags := D },
    { Ptr := pre.length, Length := body.length + 2, Kind := .string_literal }, ?_, rfl, rfl, ?_, ?_⟩
  · unfold Lexer.next Lexer.nextFuel
    simp only [Lexer.drop_at_cursor, hs, Nat.add_zero]
    simp only [Lexer.charAt_cursor pre body q D pre.length rfl]
    simp [h0, hi, hd, hq, Lexer.string_stops_behind_terminator pre body q D hbody]
  · simp
    omega
  · simp
    omega

/-- Witness for C38: the buffer `"ab` of three characters, NUL at position 3:
the cursor and the end of the token are at position 4. -/
theorem next_open_string_moves_cursor_behind_terminator_witness :
    ('"' = '"' ∨ '"' = '\'') ∧
    (∀ c ∈ ['a', 'b'],
      c ≠ '"' ∧ c ≠ Char.ofNat 0 ∧ charinfo.isVerticalWhitespace c = false) ∧
    ∃ L T, Lexer.next (Lexer.mk ([] ++ '"' :: ['a', 'b']) 0 (DiagnosticsEngine.mk 0 []))
        (Token.mk 0 0 .unknown) = some (L, T) ∧
      L.CurBuf = [] ++ '"' :: ['a', 'b'] ∧ T.Kind = .string_literal ∧
      L.CurPtr = L.CurBuf.length + 1 ∧ T.Ptr + T.Length = L.CurBuf.length + 1 :=
  ⟨by decide, by decide,
    next_open_string_moves_cursor_behind_terminator [] ['a', 'b'] '"'
      (DiagnosticsEngine.mk 0 []) (Token.mk 0 0 .unknown) (by decide) (by decide)⟩

end tinylang

namespace Calc

/-! ## The level of `^` in the calc parser -/

/-- One pass of the loop of `parseTerm` at `^`: the right operand is what
`parseTerm` returns. -/
theorem Parser.parseTermLoop_exp (pe pt : Parser → Option (Parser × Expr)) (fuel n : Nat)
    (P P' : Parser) (Left Right : Expr) (h : P.Tok.Kind = .exp)
    (hR : pt P.advance = some (P', Right)) :
    Parser.parseTermLoop pe pt fuel (n + 1) P Left =
      Parser.parseTermLoop pe pt fuel n P' (.BinaryOp .Exp Left Right) := by
  rw [Parser.parseTermLoop]
  simp only [h, List.mem_cons, List.mem_singleton, or_true, if_true]
  simp [hR]

/-- One pass of the loop of `parseTerm` at `*`: the right operand is what
`parseFactor` returns. -/
theorem Parser.parseTermLoop_star (pe pt : Parser → Option (Parser × Expr)) (fuel n : Nat)
    (P P' : Parser) (Left Right : Expr) (h : P.Tok.Kind = .star)
    (hR : Parser.parseFactor pe fuel P.advance = some (P', Right)) :
    Parser.parseTermLoop pe pt fuel (n + 1) P Left =
      Parser.parseTermLoop pe pt fuel n P' (.BinaryOp .Mul Left Right) := by
  rw [Parser.parseTermLoop]
  simp only [h, List.mem_cons, true_or, if_true]
  simp [hR]

/-- The factor at an identifier that is followed by an operator, `)` or the
end of the input, whatever the fuel. -/
theorem Parser.parseFactor_ident (pe : Parser → Option (Parser × Expr)) (P P1 : Parser)
    (T : List Char) (h1 : P.Tok.Kind = .ident) (h2 : P.advance = P1)
    (h3 : P1.Tok.Kind ∈ [TokenKind.r_paren, .star, .plus, .minus, .slash, .rem, .exp, .eoi])
    (h4 : P.Tok.Text = T) :
    ∀ f, 1 ≤ f → Parser.parseFactor pe f P = some (P1, .Factor .Ident T) := by
  intro f hf
  obtain ⟨g, rfl⟩ : ∃ g, f = g + 1 := ⟨f - 1, by omega⟩
  rw [Parser.parseFactor_token pe (g + 1) P P1 (Or.inr h1)
    (by rw [h2]; exact Parser.skipToFollow_stop g P1 h3), h1, h4]
  simp

/-- C37: `^` sits on the level of `*`, `/` and `%`, and its right operand is a
whole term.  Let `a`, `b`, `c` be factors as `parseFactor` parses them (with
`k` or more fuel), at a first, a second and a third position of the input,
each one token behind the end of the factor before, and let no operator of the
level follow `c`.  Then `parseTerm` returns: for `a ^ b ^ c` the tree
`Exp(a, Exp(b, c))`, for `a ^ b * c` the tree `Exp(a, Mul(b, c))`, and for
`a * b ^ c` the tree `Exp(Mul(a, b), c)`. -/
theorem parseTerm_exponent_on_product_level (pe : Parser → Option (Parser × Expr)) (k : Nat)
    (P P1 P2 P3 : Parser) (A B C : Expr)
    (hA : ∀ f, k ≤ f → Parser.parseFactor pe f P = some (P1, A))
    (hB : ∀ f, k ≤ f → Parser.parseFactor pe f P1.advance = some (P2, B))
    (hC : ∀ f, k ≤ f → Parser.parseFactor pe f P2.advance = some (P3, C))
    (hEnd : P3.Tok.Kind ∉ [TokenKind.star, .slash, .rem, .exp]) :
    (P1.Tok.Kind = .exp → P2.Tok.Kind = .exp → ∀ fuel, k ≤ fuel + 1 →
      Parser.parseTerm pe (fuel + 3) P =
        some (P3, .BinaryOp .Exp A (.BinaryOp .Exp B C))) ∧
    (P1.Tok.Kind = .exp → P2.Tok.Kind = .star → ∀ fuel, k ≤ fuel + 1 →
      Parser.parseTerm pe (fuel + 3) P =
        some (P3, .BinaryOp .Exp A (.BinaryOp .Mul B C))) ∧
    (P1.Tok.Kind = .star → P2.Tok.Kind = .exp → ∀ fuel, k ≤ fuel + 1 →
      Parser.parseTerm pe (fuel + 3) P =
        some (P3, .BinaryOp .Exp (.BinaryOp .Mul A B) C)) := by
  have hc : ∀ fuel, k ≤ fuel + 1 → Parser.parseTerm pe (fuel + 1) P2.advance = some (P3, C) := by
    intro fuel hk
    rw [Parser.parseTerm, hC _ hk]
    exact Parser.parseTermLoop_stop _ _ _ _ _ _ hEnd
  refine ⟨?_, ?_, ?_⟩
  · intro h1 h2 fuel hk
    have hbc : Parser.parseTerm pe (fuel + 2) P1.advance = some (P3, .BinaryOp .Exp B C) := by
      rw [Parser.parseTerm, hB _ (by omega)]
      show Parser.parseTermLoop _ _ _ (fuel + 1 + 1) P2 B = _
      rw [Parser.parseTermLoop_exp pe _ _ _ P2 P3 B C h2 (hc fuel hk)]
      exact Parser.parseTermLoop_stop _ _ _ _ _ _ hEnd
    rw [Parser.parseTerm, hA _ (by omega)]
    show Parser.parseTermLoop _ _ _ (fuel + 1 + 1 + 1) P1 A = _
    rw [Parser.parseTermLoop_exp pe _ _ _ P1 P3 A _ h1 hbc]
    exact Parser.parseTermLoop_stop _ _ _ _ _ _ hEnd
  · intro h1 h2 fuel hk
    have hbc : Parser.parseTerm pe (fuel + 2) P1.advance = some (P3, .BinaryOp .Mul B C) := by
      rw [Parser.parseTerm, hB _ (by omega)]
      show Parser.parseTermLoop _ _ _ (fuel + 1 + 1) P2 B = _
      rw [Parser.parseTermLoop_star pe _ _ _ P2 P3 B C h2 (hC _ (by omega))]
      exact Parser.parseTermLoop_stop _ _ _ _ _ _ hEnd
    rw [Parser.parseTerm, hA _ (by omega)]
    show Parser.parseTermLoop _ _ _ (fuel + 1 + 1 + 1) P1 A = _
    rw [Parser.parseTermLoop_exp pe _ _ _ P1 P3 A _ h1 hbc]
    exact Parser.parseTermLoop_stop _ _ _ _ _ _ hEnd
  · intro h1 h2 fuel hk
    have hc2 : Parser.parseTerm pe (fuel + 2) P2.advance = some (P3, C) := hc (fuel + 1) (by omega)
    rw [Parser.parseTerm, hA _ (by omega)]
    show Parser.parseTermLoop _ _ _ (fuel + 1 + 1 + 1) P1 A = _
    rw [Parser.parseTermLoop_star pe _ _ _ P1 P2 A B h1 (hB _ (by omega))]
    rw [Parser.parseTermLoop_exp pe _ _ _ P2 P3 _ C h2 hc2]
    exact Parser.parseTermLoop_stop _ _ _ _ _ _ hEnd

set_option maxRecDepth 100000 in
/-- Witness for C37: the inputs `a ^ b ^ c`, `a ^ b * c` and `a * b ^ c`. -/
theorem parseTerm_exponent_on_product_level_witness :
    Parser.parseTerm (Parser.parseExpr 3) (1 + 3) (Parser.create "a ^ b ^ c".toList) =
      some (Parser.mk (Lexer.mk "a ^ b ^ c".toList 9) (Token.mk .eoi ['c']) false [],
        .BinaryOp .Exp (.Factor .Ident ['a'])
          (.BinaryOp .Exp (.Factor .Ident ['b']) (.Factor .Ident ['c']))) ∧
    Parser.parseTerm (Parser.parseExpr 3) (1 + 3) (Parser.create "a ^ b * c".toList) =
      some (Parser.mk (Lexer.mk "a ^ b * c".toList 9) (Token.mk .eoi ['c']) false [],
        .BinaryOp .Exp (.Factor .Ident ['a'])
          (.BinaryOp .Mul (.Factor .Ident ['b']) (.Factor .Ident ['c']))) ∧
    Parser.parseTerm (Parser.parseExpr 3) (1 + 3) (Parser.create "a * b ^ c".toList) =
      some (Parser.mk (Lexer.mk "a * b ^ c".toList 9) (Token.mk .eoi ['c']) false [],
        .BinaryOp .Exp (.BinaryOp .Mul (.Factor .Ident ['a']) (.Factor .Ident ['b']))
          (.Factor .Ident ['c'])) ∧
    (Parser.parse 4 (Parser.create "a ^ b ^ c".toList)).map Prod.snd =
      some (AST.expr (.BinaryOp .Exp (.Factor .Ident ['a'])
          (.BinaryOp .Exp (.Factor .Ident ['b']) (.Factor .Ident ['c'])))) := by
  refine ⟨?_, ?_, ?_, by decide!⟩
  · exact (parseTerm_exponent_on_product_level (Parser.parseExpr 3) 1
      (Parser.create "a ^ b ^ c".toList)
      (Parser.mk (Lexer.mk "a ^ b ^ c".toList 3) (Token.mk .exp ['^']) false [])
      (Parser.mk (Lexer.mk "a ^ b ^ c".toList 7) (Token.mk .exp ['^']) false [])
      (Parser.mk (Lexer.mk "a ^ b ^ c".toList 9) (Token.mk .eoi ['c']) false [])
      (.Factor .Ident ['a']) (.Factor .Ident ['b']) (.Factor .Ident ['c'])
      (Parser.parseFactor_ident _ _ _ _ (by decide!) (by decide!) (by decide!) (by decide!))
      (Parser.parseFactor_ident _ _ _ _ (by decide!) (by decide!) (by decide!) (by decide!))
      (Parser.parseFactor_ident _ _ _ _ (by decide!) (by decide!) (by decide!) (by decide!))
      (by decide!)).1 (by decide!) (by decide!) 1 (by decide)
  · exact (parseTerm_exponent_on_product_level (Parser.parseExpr 3) 1
      (Parser.create "a ^ b * c".toList)
      (Parser.mk (Lexer.mk "a ^ b * c".toList 3) (Token.mk .exp ['^']) false [])
      (Parser.mk (Lexer.mk "a ^ b * c".toList 7) (Token.mk .star ['*']) false [])
      (Parser.mk (Lexer.mk "a ^ b * c".toList 9) (Token.mk .eoi ['c']) false [])
      (.Factor .Ident ['a']) (.Factor .Ident ['b']) (.Factor .Ident ['c'])
      (Parser.parseFactor_ident _ _ _ _ (by decide!) (by decide!) (by decide!) (by decide!))
      (Parser.parseFactor_ident _ _ _ _ (by decide!) (by decide!) (by decide!) (by decide!))
      (Parser.parseFactor_ident _ _ _ _ (by decide!) (by decide!) (by decide!) (by decide!))
      (by decide!)).2.1 (by decide!) (by decide!) 1 (by decide)
  · exact (parseTerm_exponent_on_product_level (Parser.parseExpr 3) 1
      (Parser.create "a * b ^ c".toList)
      (Parser.mk (Lexer.mk "a * b ^ c".toList 3) (Token.mk .star ['*']) false [])
      (Parser.mk (Lexer.mk "a * b ^ c".toList 7) (Token.mk .exp ['^']) false [])
      (Parser.mk (Lexer.mk "a * b ^ c".toList 9) (Token.mk .eoi ['c']) false [])
      (.Factor .Ident ['a']) (.Factor .Ident ['b']) (.Factor .Ident ['c'])
      (Parser.parseFactor_ident _ _ _ _ (by decide!) (by decide!) (by decide!) (by decide!))
      (Parser.parseFactor_ident _ _ _ _ (by decide!) (by decide!) (by decide!) (by decide!))
      (Parser.parseFactor_ident _ _ _ _ (by decide!) (by decide!) (by decide!) (by decide!))
      (by decide!)).2.2 (by decide!) (by decide!) 1 (by decide)

end Calc

namespace tinylang

/-! ## Terminators -/

set_option maxRecDepth 100000 in
/-- C33 (fails on the code): blocks with two terminators come out of `run`.
`emitStmt(WhileStatement*)` appends the back-branch `Builder.CreateBr(WhileCondBB)`
after the body without looking at the terminator of the current block, and
`emit` goes on with the statements that follow a `RETURN`.  For
`WHILE c DO RETURN END` the lowering completes and the body block (block 1)
holds `ret void` followed by `br`; for `RETURN a; RETURN a + b` the entry block
holds `ret`, `add`, `ret`. -/
theorem run_emits_behind_terminator :
    (run llvmEnv 20 Example.whileReturn).error? = none ∧
    (run llvmEnv 20 Example.whileReturn).state.numBlocks = 3 ∧
    (run llvmEnv 20 Example.whileReturn).state.blockOps 1 = [.Ret, .Br] ∧
    ((run llvmEnv 20 Example.whileReturn).state.insts 2).map
      (fun x => (x.op, x.operands, x.blocks, x.parent)) = some (.Br, [], [0], 1) ∧
    (run llvmEnv 20 Example.whileReturn).state.terminatedOnce 1 = false ∧
    (run llvmEnv 20 Example.returnTwice).error? = none ∧
    (run llvmEnv 20 Example.returnTwice).state.numBlocks = 1 ∧
    (run llvmEnv 20 Example.returnTwice).state.blockOps 0 = [.Ret, .Add, .Ret] ∧
    (run llvmEnv 20 Example.returnTwice).state.terminatedOnce 0 = false := by
  decide!

end tinylang

namespace tinylang

/-! ## Mangled names -/

theorem utostrLoop_zero (fuel : Nat) (Buf : List Char) : utostrLoop fuel 0 Buf = Buf := by
  cases fuel <;> simp [utostrLoop]

/-- The buffer behind the digits is kept. -/
theorem utostrLoop_append : ∀ (fuel X : Nat) (Buf : List Char),
    utostrLoop fuel X Buf = utostrLoop fuel X [] ++ Buf := by
  intro fuel
  induction fuel with
  | zero => intro X Buf; rfl
  | succ f ih =>
    intro X Buf
    simp only [utostrLoop]
    split
    · rfl
    · rw [ih _ (_ :: Buf), ih _ [_]]
      simp

/-- The digits do not depend on the bound, once it is large enough. -/
theorem utostrLoop_fuel : ∀ (f g X : Nat) (Buf : List Char), X ≤ f → X ≤ g →
    utostrLoop f X Buf = utostrLoop g X Buf := by
  intro f
  induction f with
  | zero =>
    intro g X Buf hf _
    obtain rfl : X = 0 := by omega
    rw [utostrLoop_zero, utostrLoop_zero]
  | succ f ih =>
    intro g X Buf hf hg
    by_cases hX : X = 0
    · subst hX
      rw [utostrLoop_zero, utostrLoop_zero]
    · obtain ⟨g, rfl⟩ : ∃ g', g = g' + 1 := ⟨g - 1, by omega⟩
      simp only [utostrLoop, if_neg hX]
      exact ih g _ _ (by omega) (by omega)

/-- The digits of a number that is not zero: the digits of `X / 10`, then the
last digit. -/
theorem utostrLoop_step (X : Nat) (hX : X ≠ 0) :
    utostrLoop X X [] = utostrLoop (X / 10) (X / 10) [] ++ [Char.ofNat (48 + X % 10)] := by
  obtain ⟨f, rfl⟩ : ∃ f, X = f + 1 := ⟨X - 1, by omega⟩
  rw [utostrLoop, if_neg hX, utostrLoop_append]
  rw [utostrLoop_fuel f ((f + 1) / 10) ((f + 1) / 10) [] (by omega) (Nat.le_refl _)]

theorem decimalValue_append (l : List Char) (c : Char) :
    decimalValue (l ++ [c]) = 10 * decimalValue l + (c.toNat - 48) := by
  simp [decimalValue, List.foldl_append]

theorem digit_toNat : ∀ m, m < 10 → (Char.ofNat (48 + m)).toNat - 48 = m := by decide

theorem digit_isDigit : ∀ m, m < 10 → charinfo.isDigit (Char.ofNat (48 + m)) = true := by decide

theorem digit_ne_zero : ∀ m, m < 10 → Char.ofNat (48 + m) ≠ Char.ofNat 0 := by decide

/-- The digits written by the loop stand for the number. -/
theorem decimalValue_utostrLoop (X : Nat) : decimalValue (utostrLoop X X []) = X := by
  induction X using Nat.strong_induction_on with
  | _ X ih =>
    by_cases hX : X = 0
    · subst hX
      rfl
    · rw [utostrLoop_step X hX, decimalValue_append, ih (X / 10) (by omega),
        digit_toNat _ (Nat.mod_lt _ (by decide))]
      omega

/-- Every character written by the loop is a digit, and none is NUL. -/
theorem utostrLoop_digits (X : Nat) :
    ∀ c ∈ utostrLoop X X [], charinfo.isDigit c = true ∧ c ≠ Char.ofNat 0 := by
  induction X using Nat.strong_induction_on with
  | _ X ih =>
    by_cases hX : X = 0
    · subst hX
      intro c hc
      simp [utostrLoop] at hc
    · rw [utostrLoop_step X hX]
      intro c hc
      rcases List.mem_append.1 hc with h | h
      · exact ih (X / 10) (by omega) c h
      · rw [List.mem_singleton] at h
        subst h
        exact ⟨digit_isDigit _ (Nat.mod_lt _ (by decide)), digit_ne_zero _ (Nat.mod_lt _ (by decide))⟩

/-- The decimal rendering of a length. -/
theorem itostr_size (n : Nat) (h : n < 2 ^ 63) :
    itostr (sizeToInt64 n) = utostrLoop n n (if n = 0 then ['0'] else []) := by
  have h1 : n % 2 ^ 64 = n := Nat.mod_eq_of_lt (by omega)
  have h2 : sizeToInt64 n = (n : Int) := by
    simp only [sizeToInt64, h1, if_pos h]
  rw [h2]
  simp [itostr, utostr]

theorem decimalValue_itostr (n : Nat) (h : n < 2 ^ 63) :
    decimalValue (itostr (sizeToInt64 n)) = n := by
  rw [itostr_size n h]
  by_cases hn : n = 0
  · subst hn
    rfl
  · rw [if_neg hn]
    exact decimalValue_utostrLoop n

theorem itostr_digits (n : Nat) (h : n < 2 ^ 63) :
    ∀ c ∈ itostr (sizeToInt64 n), charinfo.isDigit c = true ∧ c ≠ Char.ofNat 0 := by
  rw [itostr_size n h]
  by_cases hn : n = 0
  · subst hn
    intro c hc
    simp [utostrLoop] at hc
    subst hc
    decide
  · rw [if_neg hn]
    exact utostrLoop_digits n

/-- The fragment of one name: its decimal length, then the name. -/
theorem c_str_fragment (n : List Char) (h : IsName n) :
    c_str (itostr (sizeToInt64 n.length) ++ n) = itostr (sizeToInt64 n.length) ++ n := by
  unfold c_str
  rw [List.takeWhile_eq_self_iff]
  intro c hc
  rcases List.mem_append.1 hc with h1 | h1
  · simpa using (itostr_digits n.length h.2.2 c h1).2
  · have : c ≠ Char.ofNat 0 := fun e => h.2.1 (e ▸ h1)
    simpa using this

/-- What the loop of `mangleName` builds: the fragments of the chain,
outermost first, in front of what was there. -/
theorem mangleLoop_eq : ∀ (D : DeclPtr) (Mangled : List Char), (∀ n ∈ D.chain, IsName n) →
    mangleLoop D Mangled =
      D.chain.flatMap (fun n => itostr (sizeToInt64 n.length) ++ n) ++ Mangled := by
  intro D
  induction D with
  | nullptr => intro Mangled _; rfl
  | decl Name Enc ih =>
    intro Mangled h
    have hN : IsName Name := h Name (by simp [DeclPtr.chain])
    have hE : ∀ n ∈ Enc.chain, IsName n := fun n hn => h n (by simp [DeclPtr.chain, hn])
    rw [mangleLoop, ih _ hE, c_str_fragment Name hN]
    simp [DeclPtr.chain, List.flatMap_append]

/-- A row of digits in front of a text that does not start with a digit can
be read off the whole. -/
theorem digits_prefix_unique : ∀ (d d' t t' : List Char),
    (∀ c ∈ d, charinfo.isDigit c = true) → (∀ c ∈ d', charinfo.isDigit c = true) →
    (∃ c cs, t = c :: cs ∧ charinfo.isDigit c = false) →
    (∃ c cs, t' = c :: cs ∧ charinfo.isDigit c = false) →
    d ++ t = d' ++ t' → d = d' ∧ t = t' := by
  intro d
  induction d with
  | nil =>
    intro d' t t' _ hd' ht _ h
    obtain ⟨c, cs, rfl, hc⟩ := ht
    cases d' with
    | nil => exact ⟨rfl, h⟩
    | cons x xs =>
      simp only [List.nil_append, List.cons_append, List.cons.injEq] at h
      have := hd' x (by simp)
      rw [← h.1, hc] at this
      cases this
  | cons x xs ih =>
    intro d' t t' hd hd' ht ht' h
    cases d' with
    | nil =>
      obtain ⟨c, cs, rfl, hc⟩ := ht'
      simp only [List.nil_append, List.cons_append, List.cons.injEq] at h
      have := hd x (by simp)
      rw [h.1, hc] at this
      cases this
    | cons y ys =>
      simp only [List.cons_append, List.cons.injEq] at h
      obtain ⟨r1, r2⟩ := ih ys t t' (fun c hc => hd c (by simp [hc]))
        (fun c hc => hd' c (by simp [hc])) ht ht' h.2
      exact ⟨by rw [h.1, r1], r2⟩

/-- The sequence of fragments determines the sequence of names. -/
theorem fragments_injective : ∀ (ns ns' : List (List Char)),
    (∀ n ∈ ns, IsName n) → (∀ n ∈ ns', IsName n) →
    ns.flatMap (fun n => itostr (sizeToInt64 n.length) ++ n) =
      ns'.flatMap (fun n => itostr (sizeToInt64 n.length) ++ n) → ns = ns' := by
  intro ns
  induction ns with
  | nil =>
    intro ns' _ h' h
    cases ns' with
    | nil => rfl
    | cons m ms =>
      obtain ⟨⟨c, cs, hm, _⟩, _, _⟩ := h' m (by simp)
      have := congrArg List.length h
      simp [hm] at this
      omega
  | cons n ns ih =>
    intro ns' hn h' h
    cases ns' with
    | nil =>
      obtain ⟨⟨c, cs, hm, _⟩, _, _⟩ := hn n (by simp)
      have := congrArg List.length h
      simp [hm] at this
    | cons m ms =>
      have hN := hn n (by simp)
      have hM := h' m (by simp)
      simp only [List.flatMap_cons, List.append_assoc] at h
      have ht : ∀ (x : List Char) (r : List Char), IsName x →
          ∃ c cs, x ++ r = c :: cs ∧ charinfo.isDigit c = false := by
        intro x r hx
        obtain ⟨⟨c, cs, e, hc⟩, _, _⟩ := hx
        exact ⟨c, cs ++ r, by rw [e]; rfl, hc⟩
      obtain ⟨e1, e2⟩ := digits_prefix_unique _ _ _ _
        (fun c hc => (itostr_digits n.length hN.2.2 c hc).1)
        (fun c hc => (itostr_digits m.length hM.2.2 c hc).1)
        (ht n _ hN) (ht m _ hM) h
      have hlen : n.length = m.length := by
        rw [← decimalValue_itostr n.length hN.2.2, ← decimalValue_itostr m.length hM.2.2, e1]
      obtain ⟨e3, e4⟩ := List.append_inj e2 hlen
      rw [e3, ih ms (fun x hx => hn x (by simp [hx])) (fun x hx => h' x (by simp [hx])) e4]

/-- C31: the mangled name of a declaration is `_t` followed, for each
declaration on its chain of enclosing declarations from the outermost to the
declaration itself, by the decimal length of the name and the name; the
rendering of the length is a row of digits that stands for the length.  For
names that are not empty and do not start with a digit (identifiers: they
hold no NUL, and their length fits into `int64_t`) the encoding is injective:
declarations with the same mangled name have the same chain of names. -/
theorem mangleName_length_prefixed_injective (D D' : DeclPtr)
    (h : ∀ n ∈ D.chain, IsName n) (h' : ∀ n ∈ D'.chain, IsName n) :
    mangleName D =
      "_t".toList ++ D.chain.flatMap (fun n => itostr (sizeToInt64 n.length) ++ n) ∧
    (∀ n ∈ D.chain, decimalValue (itostr (sizeToInt64 n.length)) = n.length ∧
      ∀ c ∈ itostr (sizeToInt64 n.length), charinfo.isDigit c = true) ∧
    (mangleName D = mangleName D' → D.chain = D'.chain) := by
  have e : ∀ D : DeclPtr, (∀ n ∈ D.chain, IsName n) → mangleName D =
      "_t".toList ++ D.chain.flatMap (fun n => itostr (sizeToInt64 n.length) ++ n) := by
    intro D h
    rw [mangleName, mangleLoop_eq D [] h, List.append_nil]
  refine ⟨e D h, ?_, ?_⟩
  · intro n hn
    exact ⟨decimalValue_itostr _ (h n hn).2.2, fun c hc => (itostr_digits _ (h n hn).2.2 c hc).1⟩
  · intro hm
    rw [e D h, e D' h'] at hm
    exact fragments_injective _ _ h h' (List.append_cancel_left hm)

/-- Witness for C31: the procedure `Sq` of the module `Gcd` and the procedure
`Gcd1` of the module `S`: `_t3Gcd2Sq` and `_t1S4Gcd1`. -/
theorem mangleName_length_prefixed_injective_witness :
    (∀ n ∈ Example.declSq.chain, IsName n) ∧ (∀ n ∈ Example.declGcd1.chain, IsName n) ∧
    mangleName Example.declSq = "_t3Gcd2Sq".toList ∧
    mangleName Example.declGcd1 = "_t1S4Gcd1".toList ∧
    (mangleName Example.declSq = mangleName Example.declGcd1 →
      Example.declSq.chain = Example.declGcd1.chain) := by
  have h1 : ∀ n ∈ Example.declSq.chain, IsName n := by
    intro n hn
    simp [Example.declSq, DeclPtr.chain] at hn
    rcases hn with rfl | rfl
    · exact ⟨⟨'G', ['c', 'd'], rfl, by decide⟩, by decide, by decide⟩
    · exact ⟨⟨'S', ['q'], rfl, by decide⟩, by decide, by decide⟩
  have h2 : ∀ n ∈ Example.declGcd1.chain, IsName n := by
    intro n hn
    simp [Example.declGcd1, DeclPtr.chain] at hn
    rcases hn with rfl | rfl
    · exact ⟨⟨'S', [], rfl, by decide⟩, by decide, by decide⟩
    · exact ⟨⟨'G', ['c', 'd', '1'], rfl, by decide⟩, by decide, by decide⟩
  exact ⟨h1, h2, by decide, by decide,
    (mangleName_length_prefixed_injective Example.declSq Example.declGcd1 h1 h2).2.2⟩

end tinylang

namespace Calc

/-! ## The declaration check of calc -/

/-- The lines `not declared` for the identifiers `l` that are not in `Scope`. -/
theorem count_not_msgs (Scope l : List (List Char)) (ET : ErrorType) (v : List Char) :
    ((l.filter fun x => decide (x ∉ Scope)).map fun x => (ErrorType.Not, x)).count (ET, v) =
      if ET = .Not then (if v ∈ Scope then 0 else l.count v) else 0 := by
  induction l with
  | nil => simp
  | cons x xs ih =>
    by_cases hx : x ∈ Scope
    · rw [List.filter_cons_of_neg (by simpa using hx), ih]
      by_cases hv : v = x
      · subst hv
        simp [hx]
      · simp [List.count_cons, hv, Ne.symm hv]
    · rw [List.filter_cons_of_pos (by simpa using hx), List.map_cons, List.count_cons, ih]
      cases ET <;> by_cases hv : v = x
      · subst hv
        simp
      · simp [hv, Ne.symm hv, List.count_cons]
      · subst hv
        simp [hx, List.count_cons]
      · simp [hv, Ne.symm hv, List.count_cons]

/-- What the visit of an expression does: the scope is kept, one line
`not declared` is written for each identifier factor that is not in the
scope, from left to right, and the flag is set if a line was written or an
operand is missing. -/
theorem DeclCheck.visit_eq : ∀ (E : Expr) (C : DeclCheck),
    DeclCheck.visit E C =
      { Scope := C.Scope
        HasError := C.HasError ||
          !(E.idents.filter fun x => decide (x ∉ C.Scope)).isEmpty || E.missingOperand
        Errs := C.Errs ++
          (E.idents.filter fun x => decide (x ∉ C.Scope)).map fun x => (ErrorType.Not, x) } := by
  intro E
  induction E with
  | nullptr => intro C; simp [DeclCheck.visit, Expr.idents, Expr.missingOperand]
  | Factor K V =>
    intro C
    cases K
    · by_cases h : V ∈ C.Scope <;>
        simp [DeclCheck.visit, Expr.idents, Expr.missingOperand, h, DeclCheck.error]
    · simp [DeclCheck.visit, Expr.idents, Expr.missingOperand]
  | BinaryOp Op L R ihL ihR =>
    intro C
    by_cases hL : L = .nullptr <;> by_cases hR : R = .nullptr
    · subst hL
      subst hR
      simp [DeclCheck.visit, Expr.idents, Expr.missingOperand]
    · subst hL
      simp only [DeclCheck.visit, if_true, if_neg hR]
      rw [ihR]
      simp [Expr.idents, Expr.missingOperand]
    · subst hR
      simp only [DeclCheck.visit, if_true, if_neg hL]
      rw [ihL]
      simp [Expr.idents, Expr.missingOperand]
    · simp only [DeclCheck.visit, if_neg hR, if_neg hL]
      rw [ihL, ihR]
      simp [Expr.idents, Expr.missingOperand, hL, hR, List.filter_append, Bool.or_assoc]
      generalize List.filter (fun x => !decide (x ∈ C.Scope)) L.idents = l1
      generalize List.filter (fun x => !decide (x ∈ C.Scope)) R.idents = l2
      cases l1 <;> cases l2 <;> cases C.HasError <;> cases L.missingOperand <;>
        cases R.missingOperand <;> rfl

/-- What the loop over the with-list does: every name is in the scope
afterwards, one line `already declared` is written for each name that is in
the scope when its turn comes, and the flag is set if a line was written. -/
theorem DeclCheck.declare_spec : ∀ (Vars : List (List Char)) (C : DeclCheck),
    (∀ v, v ∈ (DeclCheck.declare Vars C).Scope ↔ v ∈ C.Scope ∨ v ∈ Vars) ∧
    ∃ new, (DeclCheck.declare Vars C).Errs = C.Errs ++ new ∧
      (DeclCheck.declare Vars C).HasError = (C.HasError || !new.isEmpty) ∧
      ∀ ET v, new.count (ET, v) =
        if ET = .Twice then (if v ∈ C.Scope then Vars.count v else Vars.count v - 1) else 0 := by
  intro Vars
  induction Vars with
  | nil =>
    intro C
    exact ⟨fun v => by simp [DeclCheck.declare], [], by simp [DeclCheck.declare],
      by simp [DeclCheck.declare], fun ET v => by simp⟩
  | cons I Vars ih =>
    intro C
    by_cases hI : I ∈ C.Scope
    · obtain ⟨h1, new, h2, h3, h4⟩ := ih (C.error .Twice I)
      simp only [DeclCheck.declare, if_pos hI]
      refine ⟨fun v => ?_, (ErrorType.Twice, I) :: new, ?_, ?_, fun ET v => ?_⟩
      · rw [h1 v]
        simp only [DeclCheck.error, List.mem_cons]
        constructor
        · rintro (h | h)
          · exact Or.inl h
          · exact Or.inr (Or.inr h)
        · rintro (h | h | h)
          · exact Or.inl h
          · exact Or.inl (h ▸ hI)
          · exact Or.inr h
      · rw [h2]
        simp [DeclCheck.error]
      · rw [h3]
        simp [DeclCheck.error]
      · rw [List.count_cons, h4 ET v]
        simp only [DeclCheck.error]
        cases ET <;> by_cases hv : v = I
        · subst hv
          simp [hI]
        · simp [hv, Ne.symm hv, List.count_cons]
        · simp
        · simp
    · obtain ⟨h1, new, h2, h3, h4⟩ := ih { C with Scope := I :: C.Scope }
      simp only [DeclCheck.declare, if_neg hI]
      refine ⟨fun v => ?_, new, h2, h3, fun ET v => ?_⟩
      · rw [h1 v]
        simp only [List.mem_cons]
        tauto
      · rw [h4 ET v]
        cases ET <;> by_cases hv : v = I
        · subst hv
          simp [hI]
        · simp [hv, Ne.symm hv, List.count_cons]
        · simp
        · simp

/-- C32: the declaration check reports exactly one `already declared` error,
naming the variable, for each occurrence of a name in the with-list beyond
its first, and exactly one `not declared` error for each identifier factor
whose name is not in the with-list; `Sema::semantic` returns true if and only
if at least one error was reported or an operand subtree is missing.  (For
the null pointer nothing is reported and the result is false.) -/
theorem semantic_reports_each_error_once (Tree : AST) :
    (∀ v, (Sema.semantic Tree).2.count (.Twice, v) = Tree.vars.count v - 1) ∧
    (∀ v, (Sema.semantic Tree).2.count (.Not, v) =
      if v ∈ Tree.vars then 0 else Tree.idents.count v) ∧
    ((Sema.semantic Tree).1 = true ↔
      (Sema.semantic Tree).2 ≠ [] ∨ Tree.missingOperand = true) := by
  cases Tree with
  | expr E =>
    by_cases hE : E = .nullptr
    · subst hE
      simp [Sema.semantic, AST.vars, AST.idents, AST.missingOperand, Expr.idents,
        Expr.missingOperand]
    · have hT : AST.expr E ≠ AST.expr .nullptr := fun h => hE (AST.expr.inj h)
      simp only [Sema.semantic, if_neg hT, Sema.check, DeclCheck.visit_eq, DeclCheck.init,
        List.nil_append, AST.vars, AST.idents, AST.missingOperand, Bool.false_or]
      refine ⟨fun v => ?_, fun v => ?_, ?_⟩
      · rw [count_not_msgs]
        simp
      · rw [count_not_msgs]
        simp
      · generalize List.filter (fun x => decide (x ∉ [])) E.idents = l
        cases l <;> simp
  | WithDecl Vars E =>
    obtain ⟨h1, new, h2, h3, h4⟩ := DeclCheck.declare_spec Vars DeclCheck.init
    simp only [DeclCheck.init, List.nil_append, Bool.false_or, List.not_mem_nil, false_or,
      if_false] at h1 h2 h3 h4
    by_cases hE : E = .nullptr
    · subst hE
      simp only [Sema.semantic, Sema.check, DeclCheck.visitWithDecl, if_true, AST.vars,
        AST.idents, AST.missingOperand, Expr.idents, DeclCheck.init, h2]
      refine ⟨fun v => ?_, fun v => ?_, ?_⟩
      · simp [h4]
      · simp [h4]
      · simp
    · simp only [Sema.semantic, Sema.check, DeclCheck.visitWithDecl, if_neg hE, AST.vars,
        AST.idents, AST.missingOperand, DeclCheck.visit_eq, DeclCheck.init, h2, h3]
      refine ⟨fun v => ?_, fun v => ?_, ?_⟩
      · simp only [reduceCtorEq, if_false]
        rw [List.count_append, count_not_msgs, h4]
        simp
      · simp only [reduceCtorEq, if_false]
        rw [List.count_append, count_not_msgs, h4]
        simp [h1]
      · simp only [reduceCtorEq, if_false]
        generalize List.filter (fun x => decide (x ∉ (DeclCheck.declare Vars _).Scope))
          E.idents = l
        cases l <;> cases new <;> simp [hE]

/-- The tree of `with x, y, x, x: x + z * z`: two lines for the second and the
third `x`, two lines for the two `z`, and the result is true. -/
theorem semantic_redeclared :
    Sema.semantic Example.redeclared =
      (true, [(.Twice, ['x']), (.Twice, ['x']), (.Not, ['z']), (.Not, ['z'])]) := by
  decide

end Calc

namespace tinylang

/-! ## Conversion of types -/

/-- A new entry for a declaration that has none keeps the cache sound. -/
theorem TypeCache.Sound.insert {C : TypeCache} (h : C.Sound) (Ty : TypeDeclaration)
    (hU : Ty.failure = none) : TypeCache.Sound ((Ty, Ty.llvmType) :: C) := by
  intro T L hL
  rw [List.lookup_cons] at hL
  by_cases e : T = Ty
  · subst e
    simp at hL
    exact ⟨hU, hL.symm⟩
  · have : (T == Ty) = false := by simpa using e
    rw [this] at hL
    exact h T L hL

/-- A declaration that the cache holds is converted to the entry. -/
theorem TypeCache.Sound.cached {C : TypeCache} (h : C.Sound) {Ty : TypeDeclaration}
    {T : LLVMType} (hc : C.lookup Ty = some T) (R : Except Err (LLVMType × TypeCache))
    (hR : R = .ok (T, C)) :
    (∀ e, Ty.failure = some e → R = .error e) ∧
    (Ty.failure = none → ∃ C', R = .ok (Ty.llvmType, C') ∧ TypeCache.Sound C') := by
  obtain ⟨h1, h2⟩ := h _ _ hc
  refine ⟨fun e he => (by rw [h1] at he; cases he), fun _ => ⟨C, ?_, h⟩⟩
  rw [hR, h2]

mutual
/-- What `convertType` returns, for a sound cache. -/
theorem convertType_spec : ∀ (Ty : TypeDeclaration) (C : TypeCache), C.Sound →
    (∀ e, Ty.failure = some e → convertType Ty C = .error e) ∧
    (Ty.failure = none →
      ∃ C', convertType Ty C = .ok (Ty.llvmType, C') ∧ TypeCache.Sound C')
  | .PervasiveTypeDeclaration Name, C, h => by
    cases hc : C.lookup (.PervasiveTypeDeclaration Name) with
    | some T => exact h.cached hc _ (by simp only [convertType, hc])
    | none =>
      simp only [convertType, hc, TypeDeclaration.failure, TypeDeclaration.llvmType]
      by_cases h1 : Name = "INTEGER".toList
      · rw [if_pos h1, if_pos (Or.inl h1), if_pos h1]
        exact ⟨fun e he => (by cases he), fun _ => ⟨C, rfl, h⟩⟩
      · rw [if_neg h1, if_neg h1]
        by_cases h2 : Name = "BOOLEAN".toList
        · rw [if_pos h2, if_pos (Or.inr h2)]
          exact ⟨fun e he => (by cases he), fun _ => ⟨C, rfl, h⟩⟩
        · rw [if_neg h2, if_neg (fun hh => hh.elim h1 h2)]
          refine ⟨fun e he => ?_, fun he => by cases he⟩
          cases he
          rfl
  | .AliasTypeDeclaration Name Ty, C, h => by
    cases hc : C.lookup (.AliasTypeDeclaration Name Ty) with
    | some T => exact h.cached hc _ (by simp only [convertType, hc])
    | none =>
      obtain ⟨i1, i2⟩ := convertType_spec Ty C h
      refine ⟨fun e he => ?_, fun hu => ?_⟩
      · simp only [convertType, hc, i1 e he]
      · obtain ⟨C1, e1, s1⟩ := i2 hu
        exact ⟨_, by simp only [convertType, hc, e1]; rfl,
          s1.insert (.AliasTypeDeclaration Name Ty) hu⟩
  | .ArrayTypeDeclaration Name Nums Ty, C, h => by
    cases hc : C.lookup (.ArrayTypeDeclaration Name Nums Ty) with
    | some T => exact h.cached hc _ (by simp only [convertType, hc])
    | none =>
      obtain ⟨i1, i2⟩ := convertType_spec Ty C h
      refine ⟨fun e he => ?_, fun hu => ?_⟩
      · simp only [convertType, hc, i1 e he]
      · obtain ⟨C1, e1, s1⟩ := i2 hu
        have := s1.insert (.ArrayTypeDeclaration Name Nums Ty) hu
        cases Nums with
        | none => exact ⟨_, by simp only [convertType, hc, e1]; rfl, this⟩
        | some n => exact ⟨_, by simp only [convertType, hc, e1]; rfl, this⟩
  | .RecordTypeDeclaration Name Fields, C, h => by
    cases hc : C.lookup (.RecordTypeDeclaration Name Fields) with
    | some T => exact h.cached hc _ (by simp only [convertType, hc])
    | none =>
      obtain ⟨i1, i2⟩ := convertFields_spec Fields C h
      cases hF : Fields.failure with
      | some e' =>
        refine ⟨fun e he => ?_, fun hu => ?_⟩
        · simp only [TypeDeclaration.failure, hF] at he
          cases he
          simp only [convertType, hc, i1 e' hF]
        · simp only [TypeDeclaration.failure, hF] at hu
          cases hu
      | none =>
        obtain ⟨C1, e1, s1⟩ := i2 hF
        cases Fields with
        | nil =>
          refine ⟨fun e he => ?_, fun hu => ?_⟩
          · simp only [TypeDeclaration.failure, FieldList.failure] at he
            cases he
            simp only [convertType, hc, convertFields]
          · simp only [TypeDeclaration.failure, FieldList.failure] at hu
            cases hu
        | cons N Ty Rest =>
          have hu' : (TypeDeclaration.RecordTypeDeclaration Name (.cons N Ty Rest)).failure =
              none := by
            simp only [TypeDeclaration.failure, hF]
          refine ⟨fun e he => ?_, fun hu => ?_⟩
          · rw [hu'] at he
            cases he
          · refine ⟨_, ?_, s1.insert _ hu⟩
            simp only [convertType, hc, e1, FieldList.llvmTypes, TypeDeclaration.llvmType]
  | .PointerTypeDeclaration Name Ty, C, h => by
    cases hc : C.lookup (.PointerTypeDeclaration Name Ty) with
    | some T => exact h.cached hc _ (by simp only [convertType, hc])
    | none =>
      refine ⟨fun e he => ?_, fun he => by simp [TypeDeclaration.failure] at he⟩
      simp only [TypeDeclaration.failure, Option.some.injEq] at he
      subst he
      simp only [convertType, hc]
/-- What the loop over the fields returns, for a sound cache. -/
theorem convertFields_spec : ∀ (Fields : FieldList) (C : TypeCache), C.Sound →
    (∀ e, Fields.failure = some e → convertFields Fields C = .error e) ∧
    (Fields.failure = none →
      ∃ C', convertFields Fields C = .ok (Fields.llvmTypes, C') ∧ TypeCache.Sound C')
  | .nil, C, h => by
    simp [convertFields, FieldList.failure, FieldList.llvmTypes, h]
  | .cons N Ty Rest, C, h => by
    obtain ⟨i1, i2⟩ := convertType_spec Ty C h
    cases hT : Ty.failure with
    | some e' =>
      refine ⟨fun e he => ?_, fun hu => ?_⟩
      · simp only [FieldList.failure, hT] at he
        cases he
        simp only [convertFields, i1 e' hT]
      · simp only [FieldList.failure, hT] at hu
        cases hu
    | none =>
      obtain ⟨C1, e1, s1⟩ := i2 hT
      obtain ⟨j1, j2⟩ := convertFields_spec Rest C1 s1
      refine ⟨fun e he => ?_, fun hu => ?_⟩
      · simp only [FieldList.failure, hT] at he
        simp only [convertFields, e1, j1 e he]
      · simp only [FieldList.failure, hT] at hu
        obtain ⟨C2, e2, s2⟩ := j2 hu
        exact ⟨C2, by simp only [convertFields, e1, e2]; rfl, s2⟩
end

mutual
/-- The failure of a conversion is the fatal error or the assertion; the
fatal error is met only in an unsupported declaration, and a conversion
without failure has met no unsupported declaration. -/
theorem TypeDeclaration.failure_cases : ∀ Ty : TypeDeclaration,
    (∀ e, Ty.failure = some e →
      e = .fatalUnsupportedType ∨ e = .assertStructElementsEmpty) ∧
    (Ty.failure = some .fatalUnsupportedType → Ty.Unsupported = true) ∧
    (Ty.failure = none → Ty.Unsupported = false)
  | .PervasiveTypeDeclaration Name => by
    simp only [TypeDeclaration.failure, TypeDeclaration.Unsupported]
    by_cases h1 : Name = "INTEGER".toList
    · subst h1
      simp
    · by_cases h2 : Name = "BOOLEAN".toList
      · subst h2
        simp
      · simp [h1, h2]
  | .AliasTypeDeclaration _ Ty => by
    simpa only [TypeDeclaration.failure, TypeDeclaration.Unsupported] using Ty.failure_cases
  | .ArrayTypeDeclaration _ _ Ty => by
    simpa only [TypeDeclaration.failure, TypeDeclaration.Unsupported] using Ty.failure_cases
  | .RecordTypeDeclaration _ Fields => by
    obtain ⟨a1, a2, a3⟩ := Fields.failure_fields
    simp only [TypeDeclaration.failure, TypeDeclaration.Unsupported]
    cases hF : Fields.failure with
    | some e' =>
      refine ⟨fun e he => ?_, fun he => ?_, fun he => by cases he⟩
      · cases he
        exact a1 e' hF
      · cases he
        exact a2 hF
    | none =>
      cases Fields with
      | nil =>
        refine ⟨fun e he => ?_, fun he => (by cases he), fun he => by cases he⟩
        cases he
        exact Or.inr rfl
      | cons N Ty Rest =>
        exact ⟨fun e he => (by cases he), fun he => (by cases he), fun _ => a3 hF⟩
  | .PointerTypeDeclaration _ _ => by
    simp [TypeDeclaration.failure, TypeDeclaration.Unsupported]
/-- The same for the fields of a record. -/
theorem FieldList.failure_fields : ∀ Fields : FieldList,
    (∀ e, Fields.failure = some e →
      e = .fatalUnsupportedType ∨ e = .assertStructElementsEmpty) ∧
    (Fields.failure = some .fatalUnsupportedType → Fields.Unsupported = true) ∧
    (Fields.failure = none → Fields.Unsupported = false)
  | .nil => by
    simp [FieldList.failure, FieldList.Unsupported]
  | .cons _ Ty Rest => by
    obtain ⟨a1, a2, a3⟩ := Ty.failure_cases
    obtain ⟨b1, b2, b3⟩ := Rest.failure_fields
    simp only [FieldList.failure, FieldList.Unsupported]
    cases hT : Ty.failure with
    | some e' =>
      refine ⟨fun e he => ?_, fun he => ?_, fun he => by cases he⟩
      · cases he
        exact a1 e' hT
      · cases he
        rw [a2 hT]
        rfl
    | none =>
      refine ⟨fun e he => b1 e he, fun he => ?_, fun he => ?_⟩
      · rw [b2 he]
        simp
      · rw [a3 hT, b3 he]
        rfl
end

/-- The cache of a new `CGModule` is sound. -/
theorem TypeCache.sound_nil : TypeCache.Sound [] := by
  intro Ty T h
  simp at h

set_option maxRecDepth 100000 in
/-- How a record type without fields arises: in `TYPE R = RECORD x END;` the
colon behind `x` is missing, `consume(tok::colon)` fails without a
diagnostic, and the error handler of `parseField` stops at once at `END`.
`parseTypeDeclaration` hands the record to the semantic actions with an empty
field list and has reported nothing; a module with this declaration and a
variable of the type is parsed with no diagnostic. -/
theorem parseTypeDeclaration_record_without_fields :
    ((Parser.create "R = RECORD x END;".toList).bind fun P =>
        Parser.parseTypeDeclaration Example.sema 8 P .nil).map
      (fun r => (r.1, r.2.1.Lex.Diags, r.2.2)) =
      some (false, DiagnosticsEngine.mk 0 [],
        .actOnRecordTypeDeclaration .nil 0 (0, 1) .nil) ∧
    Parser.parse (Parser.productions Example.sema 12) 12
        "MODULE m; TYPE R = RECORD x END; VAR r : R; BEGIN END m.".toList =
      some (some (7, 1), DiagnosticsEngine.mk 0 []) := by
  constructor <;> decide!

/-- C39 (fails on the code): on a record type without fields `convertType`
neither ends in the fatal error `Unsupported type` nor succeeds:
`StructType::create(Elements, Name, false)` is called with an empty element
list and its assertion `!Elements.empty()` fails, although the declaration
reaches no pointer type and no unsupported pervasive type.  The outcome of
`convertType` on every declaration is what `failure` says: the conversion
ends in the first failure met in the order of the traversal, and without a
failure it returns the LLVM type of the declaration (and leaves a sound
cache).  Where the assertion is not met the claim holds: the conversion ends
in the fatal error exactly when the declaration, followed through aliases,
array element types and record field types, reaches a pointer type
declaration or a pervasive type other than `INTEGER` and `BOOLEAN`, and
otherwise it succeeds, with 64 bits for `INTEGER`, 1 bit for `BOOLEAN`, `n`
elements for an array whose bound is the integer literal `n` (a value of
`int64_t` that is not negative) and 5 elements for an array with any other
bound.  The cache holds what earlier calls have put into it. -/
theorem convertType_asserts_on_record_without_fields (Ty : TypeDeclaration)
    (C : TypeCache) (h : C.Sound) :
    (∀ Name, (TypeDeclaration.RecordTypeDeclaration Name .nil).Unsupported = false ∧
      convertType (.RecordTypeDeclaration Name .nil) C = .error .assertStructElementsEmpty) ∧
    (∀ e, Ty.failure = some e → convertType Ty C = .error e) ∧
    (Ty.failure = none →
      ∃ C', convertType Ty C = .ok (Ty.llvmType, C') ∧ TypeCache.Sound C') ∧
    (Ty.failure ≠ some .assertStructElementsEmpty →
      (convertType Ty C = .error .fatalUnsupportedType ↔ Ty.Unsupported = true) ∧
      (Ty.Unsupported = false →
        ∃ C', convertType Ty C = .ok (Ty.llvmType, C') ∧ TypeCache.Sound C')) ∧
    (∀ Name, Name = "INTEGER".toList →
      (TypeDeclaration.PervasiveTypeDeclaration Name).llvmType = .IntegerType 64) ∧
    (∀ Name, Name = "BOOLEAN".toList →
      (TypeDeclaration.PervasiveTypeDeclaration Name).llvmType = .IntegerType 1) ∧
    (∀ Name (n : Nat) Elem, n < 2 ^ 63 →
      (TypeDeclaration.ArrayTypeDeclaration Name (some (n : Int)) Elem).llvmType =
        .ArrayType Elem.llvmType n) ∧
    (∀ Name Elem,
      (TypeDeclaration.ArrayTypeDeclaration Name none Elem).llvmType =
        .ArrayType Elem.llvmType 5) := by
  obtain ⟨h1, h2⟩ := convertType_spec Ty C h
  obtain ⟨c1, c2, c3⟩ := Ty.failure_cases
  refine ⟨fun Name => ⟨rfl, ?_⟩, h1, h2, fun hne => ?_, ?_, ?_, ?_, ?_⟩
  · exact (convertType_spec (.RecordTypeDeclaration Name .nil) C h).1 _ rfl
  · cases hF : Ty.failure with
    | none =>
      obtain ⟨C', e, hC'⟩ := h2 hF
      refine ⟨⟨fun he => ?_, fun hu => ?_⟩, fun _ => ⟨C', e, hC'⟩⟩
      · rw [e] at he
        cases he
      · rw [c3 hF] at hu
        cases hu
    | some e =>
      have he : e = .fatalUnsupportedType := by
        rcases c1 e hF with h' | h'
        · exact h'
        · rw [h'] at hF
          exact absurd hF hne
      subst he
      refine ⟨⟨fun _ => c2 hF, fun _ => h1 _ hF⟩, fun hu => ?_⟩
      rw [c2 hF] at hu
      cases hu
  · intro Name hN
    subst hN
    rfl
  · intro Name hN
    subst hN
    rfl
  · intro Name n Elem hn
    simp only [TypeDeclaration.llvmType]
    congr 1
    have : ((n : Int) % 2 ^ 64) = ((n % 2 ^ 64 : Nat) : Int) := by norm_cast
    rw [this, Int.toNat_natCast, Nat.mod_eq_of_lt (by omega)]
  · intro Name Elem
    rfl

/-- Witness for C39: with the empty cache, the record `R` without fields
and the record `Pair` with a field of that type end in the assertion, though
neither reaches an unsupported type; the alias `Line` of an array with a
constant bound of arrays of ten records is converted; the record `Node` with a
pointer field ends in the fatal error. -/
theorem convertType_asserts_on_record_without_fields_witness :
    TypeCache.Sound [] ∧
    convertType Example.EmptyRecord [] = .error .assertStructElementsEmpty ∧
    Example.Pair.Unsupported = false ∧
    convertType Example.Pair [] = .error .assertStructElementsEmpty ∧
    (∃ C', convertType Example.Line [] =
      .ok (.ArrayType (.ArrayType (.StructType "Point".toList
        (.cons (.IntegerType 64) (.cons (.IntegerType 1) .nil))) 10) 5, C')) ∧
    convertType Example.Node [] = .error .fatalUnsupportedType := by
  refine ⟨TypeCache.sound_nil, ?_, by decide, ?_, ?_, ?_⟩
  · exact ((convertType_asserts_on_record_without_fields Example.EmptyRecord []
      TypeCache.sound_nil).1 ['R']).2
  · exact (convertType_asserts_on_record_without_fields Example.Pair []
      TypeCache.sound_nil).2.1 _ (by decide)
  · obtain ⟨C', e, _⟩ := (convertType_asserts_on_record_without_fields Example.Line []
      TypeCache.sound_nil).2.2.1 (by decide)
    have hT : Example.Line.llvmType = .ArrayType (.ArrayType (.StructType "Point".toList
        (.cons (.IntegerType 64) (.cons (.IntegerType 1) .nil))) 10) 5 := by decide
    exact ⟨C', hT ▸ e⟩
  · exact (convertType_asserts_on_record_without_fields Example.Node []
      TypeCache.sound_nil).2.1 _ (by decide)

end tinylang

namespace tinylang

/-! ## Every block is sealed once -/

theorem SealedOnce.of_sameControl {s s' : CGState} (h : SealedOnce s) (hc : SameControl s s') :
    SealedOnce s' := by
  intro b
  rw [hc.1, hc.2.2.2.2 b]
  exact h b

/-- Steps that leave the control flow as it is keep the sealings and the
flags in step. -/
theorem Preserves.sealedOnce {α : Type} {m : M α} (hk : KeepsControl m) :
    Preserves SealedOnce m := by
  intro s hs a s' h
  have hk' := hk s
  rw [h] at hk'
  exact hs.of_sameControl hk'

theorem CGState.addBlockUses_CurrentDef (n : InstId) : ∀ (bs : List BlockId) (t : CGState),
    (bs.foldl (fun t b => t.addBlockUse b n) t).CurrentDef = t.CurrentDef := by
  intro bs
  induction bs with
  | nil => intro t; rfl
  | cons b bs ih => intro t; exact (ih _).trans rfl

/-- `createInst`, also for a branch, leaves the definition tables as they
are. -/
theorem createInst_CurrentDef (BB : BlockId) (atFront : Bool) (op : Opcode) (ty : Ty)
    (operands : List Value) (blocks : List BlockId) (s : CGState) :
    (createInst BB atFront op ty operands blocks s).state.CurrentDef = s.CurrentDef := by
  simp only [createInst, Res.state]
  rw [CGState.addBlockUses_CurrentDef, CGState.addUses_CurrentDef]

/-- A branch adds edges only: the sealings and the flags stay in step. -/
theorem sealedOnce_branch (op : Opcode) (ty : Ty) (operands : List Value)
    (blocks : List BlockId) (es : List Event) (hes : ∀ b, Event.seal b ∉ es)
    {s s' : CGState} (hs : SealedOnce s)
    (h : (do
      let _ ← Insert op ty operands blocks
      M.modify fun t => { t with trace := t.trace ++ es } : M Unit) s = .ok () s') :
    SealedOnce s' := by
  obtain ⟨v, s1, h1, ht, _, _⟩ := Insert_control op ty operands blocks s
  have hd : s1.CurrentDef = s.CurrentDef := by
    have := createInst_CurrentDef s.Curr false op ty operands blocks s
    have e : Insert op ty operands blocks s =
        (match createInst s.Curr false op ty operands blocks s with
          | .ok i t => .ok (.inst i) t
          | .fail e t => .fail e t) := rfl
    rw [e] at h1
    simp only [createInst] at h1 this
    cases h1
    exact this
  change M.bind _ _ s = _ at h
  rw [M.bind_ok h1] at h
  cases h
  intro b
  simp only [List.count_append, hd, ht]
  rw [hs b, List.count_eq_zero_of_not_mem (hes b), Nat.add_zero]

/-- The steps of `run` keep the sealings and the flags in step. -/
theorem stepsKeep_sealedOnce (E : Env) : StepsKeep E SealedOnce where
  newBlock := fun _ hs => hs
  setCurr := fun _ _ hs => hs
  br := fun s s' Dest hs _ _ h => by
    unfold CreateBr at h
    change M.bind M.get _ s = _ at h
    rw [M.bind_get] at h
    exact sealedOnce_branch .Br .void [] [Dest] [.edge s.Curr Dest]
      (fun b hb => by simp at hb) hs h
  condBr := fun s s' C T F hs _ _ _ _ h => by
    unfold CreateCondBr at h
    change M.bind M.get _ s = _ at h
    rw [M.bind_get] at h
    exact sealedOnce_branch .Br .void [C] [F, T] [.edge s.Curr T, .edge s.Curr F]
      (fun b hb => by simp at hb) hs h
  sealBlock := fun fuel BB s hs _ s' h => by
    obtain ⟨hS, s1, hl, rfl⟩ := sealBlock_ok h
    have hk := keepsControl_sealBlockLoop fuel BB (E.order (s.CurrentDef BB).IncompletePhis)
      { s with trace := s.trace ++ [Event.seal BB] }
    rw [hl] at hk
    obtain ⟨k1, _, _, _, k5⟩ := hk
    intro b
    have hb := hs b
    by_cases e : b = BB
    · subst e
      rw [hS] at hb
      simp only [Res.state] at k1
      simp [CGState.updDef, k1, List.count_append, hb]
    · have k5b := k5 b
      simp only [Res.state] at k1 k5b
      simp [CGState.updDef, k1, List.count_append, e, k5b, hb]
  expr := fun fuel e => Preserves.sealedOnce (keepsControl_emitExpr E fuel e)
  assign := fun fuel D Sel X =>
    Preserves.sealedOnce (keepsControl_emitAssignmentStatement E fuel D Sel X)
  ret := fun fuel R => Preserves.sealedOnce (keepsControl_emitReturnStatement E fuel R)
  insertRet := Preserves.sealedOnce (keepsControl_Insert _ _ _)
  fnType := fun l => Preserves.sealedOnce (keepsControl_createFunctionType l)
  argTys := fun _ _ hs => hs
  params := fun l k => Preserves.sealedOnce (keepsControl_runFormalParams l k)
  decls := fun l => Preserves.sealedOnce (keepsControl_runDecls l)

theorem sealedOnce_init : SealedOnce CGState.init := by
  intro b
  rfl

end tinylang

namespace tinylang

/-! ## Termination of the parser -/

namespace Parser

theorem Returns.here {R : Nat → Parser → Prop} {n : Nat} {β : Type} {P : Parser} (hP : R n P) (b : Bool) (out : β) :
    Returns R n (some (b, P, out)) :=
  ⟨b, P, out, rfl, hP⟩

theorem Returns.weaken {R : Nat → Parser → Prop} (hR : TokenSource R) {n m : Nat} {β : Type}
    {r : Option (Bool × Parser × β)} (h : Returns R n r) (hnm : n ≤ m) : Returns R m r := by
  obtain ⟨b, P', out, e, hP'⟩ := h
  exact ⟨b, P', out, e, hR.mono _ _ _ hP' hnm⟩

theorem Returns.branch {R : Nat → Parser → Prop} {n : Nat} {β : Type} {c : Prop} [Decidable c]
    {x y : Option (Bool × Parser × β)} (hx : c → Returns R n x) (hy : ¬c → Returns R n y) :
    Returns R n (if c then x else y) := by
  split
  · exact hx ‹_›
  · exact hy ‹_›

/-- Tokens are left when the lookahead is not `eof`. -/
theorem tokens_left {R : Nat → Parser → Prop} (hR : TokenSource R) {n : Nat} {P : Parser} (hP : R n P)
    (hne : P.Tok.Kind ≠ .eof) : n ≠ 0 := by
  intro h
  subst h
  exact hne (hR.eof P hP)

theorem next_returns {R : Nat → Parser → Prop} (hR : TokenSource R) {n : Nat} {β : Type} {P : Parser}
    {Rest : Parser → Option (Bool × Parser × β)} (hP : R n P)
    (h : ∀ P', R (n - 1) P' → Returns R (n - 1) (Rest P')) : Returns R n (next P Rest) := by
  obtain ⟨P', e, hP'⟩ := hR.advance n P hP
  simp only [next, e]
  exact (h P' hP').weaken hR (Nat.sub_le _ _)

theorem handler_raise {R : Nat → Parser → Prop} {n : Nat} : Handler R n raise :=
  fun P hP => ⟨true, P, rfl, hP⟩

/-- The recovery loops return: every round takes a token. -/
theorem handler_errorhandler {R : Nat → Parser → Prop} (hR : TokenSource R) (Sync : List TokenKind) :
    ∀ (fuel n : Nat), n + 1 ≤ fuel → Handler R n (_errorhandler Sync fuel) := by
  intro fuel
  induction fuel with
  | zero => intro n hf; omega
  | succ f ih =>
    intro n hf P hP
    simp only [_errorhandler]
    split
    · exact ⟨false, P, rfl, hP⟩
    · obtain ⟨P', e, hP'⟩ := hR.advance n P hP
      simp only [e]
      split
      · exact ⟨true, P', rfl, hR.mono _ _ _ hP' (Nat.sub_le _ _)⟩
      · next hne =>
        have hn : n ≠ 0 := by
          intro h0
          subst h0
          exact hne (hR.eof P' hP')
        obtain ⟨b, P'', e', hP''⟩ := ih (n - 1) (by omega) P' hP'
        exact ⟨b, P'', e', hR.mono _ _ _ hP'' (Nat.sub_le _ _)⟩

theorem check_expect_returns {R : Nat → Parser → Prop} (hR : TokenSource R) {n : Nat} {β : Type} {P : Parser}
    {K : TokenKind} {H : Parser → Option (Bool × Parser)} {Out : β}
    {Rest : Parser → Option (Bool × Parser × β)} (hP : R n P) (hK : K ≠ .eof)
    (hH : Handler R n H) (h : P.Tok.Kind = K → n ≠ 0 → Returns R n (Rest P)) :
    Returns R n (check (some (P.expect K)) H Out Rest) := by
  by_cases hk : P.Tok.Kind = K
  · rw [Parser.expect_eq hk]
    exact h hk (tokens_left hR hP (by rw [hk]; exact hK))
  · simp only [expect, if_neg hk, check]
    obtain ⟨b, P', e, hP'⟩ := hH _ (hR.report n P _ hP)
    rw [e]
    exact ⟨b, P', Out, rfl, hP'⟩

theorem check_consume_returns {R : Nat → Parser → Prop} (hR : TokenSource R) {n : Nat} {β : Type} {P : Parser}
    {K : TokenKind} {H : Parser → Option (Bool × Parser)} {Out : β}
    {Rest : Parser → Option (Bool × Parser × β)} (hP : R n P) (hK : K ≠ .eof)
    (hH : Handler R n H) (h : ∀ P', R (n - 1) P' → n ≠ 0 → Returns R (n - 1) (Rest P')) :
    Returns R n (check (P.consume K) H Out Rest) := by
  by_cases hk : P.Tok.Kind = K
  · obtain ⟨P', e, hP'⟩ := hR.advance n P hP
    rw [Parser.consume_eq hk e]
    exact (h P' hP' (tokens_left hR hP (by rw [hk]; exact hK))).weaken hR (Nat.sub_le _ _)
  · rw [Parser.consume_ne hk]
    simp only [check]
    obtain ⟨b, P', e, hP'⟩ := hH _ hP
    rw [e]
    exact ⟨b, P', Out, rfl, hP'⟩

theorem call_returns {R : Nat → Parser → Prop} {n : Nat} {α β : Type} {Step : Option (Bool × Parser × α)}
    {H : Parser → Option (Bool × Parser)} {Out : α → β}
    {Rest : Parser → α → Option (Bool × Parser × β)} (hStep : Returns R n Step)
    (hH : Handler R n H) (h : ∀ P a, R n P → Returns R n (Rest P a)) :
    Returns R n (call Step H Out Rest) := by
  obtain ⟨b, P, a, e, hP⟩ := hStep
  subst e
  cases b with
  | false => exact h P a hP
  | true =>
    simp only [call]
    obtain ⟨b, P', e, hP'⟩ := hH _ hP
    rw [e]
    exact ⟨b, P', Out a, rfl, hP'⟩

theorem fail_returns {R : Nat → Parser → Prop} {n : Nat} {β : Type} {P : Parser} {H : Parser → Option (Bool × Parser)}
    {Out : β} (hP : R n P) (hH : Handler R n H) : Returns R n (fail P H Out) := by
  simp only [fail]
  obtain ⟨b, P', e, hP'⟩ := hH _ hP
  rw [e]
  exact ⟨b, P', Out, rfl, hP'⟩

theorem ReturnsBelow.below {R : Nat → Parser → Prop} {n m : Nat} {α β : Type}
    {f : Parser → α → Option (Bool × Parser × β)} (h : ReturnsBelow R n f) (hmn : m ≤ n) :
    ReturnsBelow R m f :=
  fun k hk => h k (Nat.lt_of_lt_of_le hk hmn)

end Parser

end tinylang

namespace tinylang

namespace Parser

theorem Returns.ite_kind {R : Nat → Parser → Prop} (hR : TokenSource R) {n t : Nat} {β : Type} {P : Parser}
    {K : TokenKind} {x y : Option (Bool × Parser × β)} (hP : R n P) (hK : K ≠ .eof)
    (hx : P.Tok.Kind = K → n ≠ 0 → Returns R t x) (hy : ¬P.Tok.Kind = K → Returns R t y) :
    Returns R t (if P.Tok.Kind = K then x else y) := by
  split
  · next h => exact hx h (tokens_left hR hP (by rw [h]; exact hK))
  · next h => exact hy h

theorem Returns.ite_mem {R : Nat → Parser → Prop} (hR : TokenSource R) {n t : Nat} {β : Type} {P : Parser}
    {L : List TokenKind} {x y : Option (Bool × Parser × β)} (hP : R n P)
    (hL : TokenKind.eof ∉ L)
    (hx : P.Tok.Kind ∈ L → n ≠ 0 → Returns R t x) (hy : ¬P.Tok.Kind ∈ L → Returns R t y) :
    Returns R t (if P.Tok.Kind ∈ L then x else y) := by
  split
  · next h => exact hx h (tokens_left hR hP (fun e => hL (e ▸ h)))
  · next h => exact hy h

/-- After a token that is not `eof`, one token less is left. -/
theorem next_strict {R : Nat → Parser → Prop} (hR : TokenSource R) {n : Nat} {β : Type} {P : Parser}
    {Rest : Parser → Option (Bool × Parser × β)} (hP : R n P)
    (h : ∀ P', R (n - 1) P' → Returns R (n - 1) (Rest P')) :
    Returns R (n - 1) (next P Rest) := by
  obtain ⟨P', e, hP'⟩ := hR.advance n P hP
  simp only [next, e]
  exact h P' hP'

theorem parseIdentListLoop_returns {R : Nat → Parser → Prop} (hR : TokenSource R) : ∀ (c n : Nat), n + 1 ≤ c →
    ∀ P Ids, R n P → Returns R n (parseIdentListLoop c P Ids) := by
  intro c
  induction c with
  | zero => intro n hc; omega
  | succ c ih =>
    intro n hc P Ids hP
    simp only [parseIdentListLoop]
    repeat' first
      | exact ih _ (by omega) _ _ (by assumption)
      | exact Returns.here (by assumption) _ _
      | exact handler_raise
      | exact handler_errorhandler hR _ _ _ (by omega)
      | refine Returns.ite_kind hR (by assumption) (by decide) (fun _ _ => ?_) (fun _ => ?_)
      | refine Returns.ite_mem hR (by assumption) (by decide) (fun _ _ => ?_) (fun _ => ?_)
      | refine Returns.branch (fun _ => ?_) (fun _ => ?_)
      | refine check_expect_returns hR (by assumption) (by decide) ?_ (fun _ _ => ?_)
      | refine check_consume_returns hR (by assumption) (by decide) ?_ (fun _ _ _ => ?_)
      | refine next_returns hR (by assumption) (fun _ _ => ?_)

theorem parseIdentList_returns {R : Nat → Parser → Prop} (hR : TokenSource R) {fuel n : Nat} (hf : n + 1 ≤ fuel)
    {P : Parser} (hP : R n P) {Ids : IdentList} :
    Returns R n (parseIdentList fuel P Ids) := by
  simp only [parseIdentList]
  repeat' first
    | exact parseIdentListLoop_returns hR _ _ (by omega) _ _ (by assumption)
    | exact Returns.here (by assumption) _ _
    | exact handler_raise
    | exact handler_errorhandler hR _ _ _ (by omega)
    | refine Returns.ite_kind hR (by assumption) (by decide) (fun _ _ => ?_) (fun _ => ?_)
    | refine Returns.ite_mem hR (by assumption) (by decide) (fun _ _ => ?_) (fun _ => ?_)
    | refine Returns.branch (fun _ => ?_) (fun _ => ?_)
    | refine check_expect_returns hR (by assumption) (by decide) ?_ (fun _ _ => ?_)
    | refine check_consume_returns hR (by assumption) (by decide) ?_ (fun _ _ _ => ?_)
    | refine next_returns hR (by assumption) (fun _ _ => ?_)
    | refine call_returns ?_ ?_ (fun _ _ _ => ?_)

/-- When the lookahead is an identifier, `parseIdentList` takes it. -/
theorem parseIdentList_strict {R : Nat → Parser → Prop} (hR : TokenSource R) {fuel n : Nat} (hf : n + 1 ≤ fuel)
    {P : Parser} (hP : R n P) (hk : P.Tok.Kind = .identifier) {Ids : IdentList} :
    Returns R (n - 1) (parseIdentList fuel P Ids) := by
  simp only [parseIdentList]
  rw [Parser.expect_eq hk, Parser.check_ok]
  refine next_strict hR hP fun P1 hP1 => ?_
  repeat' first
    | exact parseIdentListLoop_returns hR _ _ (by omega) _ _ (by assumption)
    | exact Returns.here (by assumption) _ _
    | exact handler_raise
    | exact handler_errorhandler hR _ _ _ (by omega)
    | refine Returns.ite_kind hR (by assumption) (by decide) (fun _ _ => ?_) (fun _ => ?_)
    | refine Returns.ite_mem hR (by assumption) (by decide) (fun _ _ => ?_) (fun _ => ?_)
    | refine Returns.branch (fun _ => ?_) (fun _ => ?_)
    | refine check_expect_returns hR (by assumption) (by decide) ?_ (fun _ _ => ?_)
    | refine check_consume_returns hR (by assumption) (by decide) ?_ (fun _ _ _ => ?_)
    | refine next_returns hR (by assumption) (fun _ _ => ?_)
    | refine call_returns ?_ ?_ (fun _ _ _ => ?_)

theorem parseQualidentLoop_returns {R : Nat → Parser → Prop} (hR : TokenSource R) {S : Sema} : ∀ (c n : Nat), n + 1 ≤ c →
    ∀ P D, R n P → Returns R n (parseQualidentLoop S c P D) := by
  intro c
  induction c with
  | zero => intro n hc; omega
  | succ c ih =>
    intro n hc P D hP
    simp only [parseQualidentLoop]
    refine Returns.branch (fun hk => ?_) (fun _ => Returns.here hP _ _)
    have hn : n ≠ 0 := tokens_left hR hP (by rw [hk.1]; decide)
    repeat' first
      | exact ih _ (by omega) _ _ (by assumption)
      | exact Returns.here (by assumption) _ _
      | exact handler_raise
      | exact handler_errorhandler hR _ _ _ (by omega)
      | refine Returns.ite_kind hR (by assumption) (by decide) (fun _ _ => ?_) (fun _ => ?_)
      | refine Returns.ite_mem hR (by assumption) (by decide) (fun _ _ => ?_) (fun _ => ?_)
      | refine Returns.branch (fun _ => ?_) (fun _ => ?_)
      | refine check_expect_returns hR (by assumption) (by decide) ?_ (fun _ _ => ?_)
      | refine check_consume_returns hR (by assumption) (by decide) ?_ (fun _ _ _ => ?_)
      | refine next_returns hR (by assumption) (fun _ _ => ?_)

theorem parseQualident_returns {R : Nat → Parser → Prop} (hR : TokenSource R) {S : Sema} {fuel n : Nat}
    (hf : n + 1 ≤ fuel) {P : Parser} (hP : R n P) :
    Returns R n (parseQualident S fuel P) := by
  simp only [parseQualident]
  repeat' first
    | exact parseQualidentLoop_returns hR _ _ (by omega) _ _ (by assumption)
    | exact Returns.here (by assumption) _ _
    | exact handler_raise
    | exact handler_errorhandler hR _ _ _ (by omega)
    | refine Returns.ite_kind hR (by assumption) (by decide) (fun _ _ => ?_) (fun _ => ?_)
    | refine Returns.ite_mem hR (by assumption) (by decide) (fun _ _ => ?_) (fun _ => ?_)
    | refine Returns.branch (fun _ => ?_) (fun _ => ?_)
    | refine check_expect_returns hR (by assumption) (by decide) ?_ (fun _ _ => ?_)
    | refine check_consume_returns hR (by assumption) (by decide) ?_ (fun _ _ _ => ?_)
    | refine next_returns hR (by assumption) (fun _ _ => ?_)
    | refine call_returns ?_ ?_ (fun _ _ _ => ?_)

theorem parseSelectorsLoop_returns {R : Nat → Parser → Prop} (hR : TokenSource R)
    {pe : Parser → Sema.Expr → Option (Bool × Parser × Sema.Expr)} : ∀ (c n : Nat), n + 1 ≤ c →
    ReturnsBelow R n pe → ∀ P E, R n P → Returns R n (parseSelectorsLoop pe c P E) := by
  intro c
  induction c with
  | zero => intro n hc; omega
  | succ c ih =>
    intro n hc hpe P E hP
    simp only [parseSelectorsLoop]
    refine Returns.ite_mem hR hP (by decide) (fun hm hn => ?_) (fun _ => Returns.here hP _ _)
    repeat' first
      | exact ih _ (by omega) (hpe.below (by omega)) _ _ (by assumption)
      | exact hpe _ (by omega) _ _ (by assumption)
      | exact Returns.here (by assumption) _ _
      | exact handler_raise
      | exact handler_errorhandler hR _ _ _ (by omega)
      | refine Returns.ite_kind hR (by assumption) (by decide) (fun _ _ => ?_) (fun _ => ?_)
      | refine Returns.ite_mem hR (by assumption) (by decide) (fun _ _ => ?_) (fun _ => ?_)
      | refine Returns.branch (fun _ => ?_) (fun _ => ?_)
      | refine check_expect_returns hR (by assumption) (by decide) ?_ (fun _ _ => ?_)
      | refine check_consume_returns hR (by assumption) (by decide) ?_ (fun _ _ _ => ?_)
      | refine next_returns hR (by assumption) (fun _ _ => ?_)
      | refine call_returns ?_ ?_ (fun _ _ _ => ?_)
      | refine fail_returns (by assumption) ?_
      | (exfalso; simp_all; done)

theorem parseSelectors_returns {R : Nat → Parser → Prop} (hR : TokenSource R)
    {pe : Parser → Sema.Expr → Option (Bool × Parser × Sema.Expr)} {fuel n : Nat}
    (hf : n + 1 ≤ fuel) (hpe : ReturnsBelow R n pe) {P : Parser} (hP : R n P) {E : Sema.Expr} :
    Returns R n (parseSelectors pe fuel P E) := by
  simp only [parseSelectors]
  repeat' first
    | exact parseSelectorsLoop_returns hR _ _ (by omega) hpe _ _ (by assumption)
    | exact Returns.here (by assumption) _ _
    | exact handler_raise
    | exact handler_errorhandler hR _ _ _ (by omega)
    | refine Returns.ite_kind hR (by assumption) (by decide) (fun _ _ => ?_) (fun _ => ?_)
    | refine Returns.ite_mem hR (by assumption) (by decide) (fun _ _ => ?_) (fun _ => ?_)
    | refine Returns.branch (fun _ => ?_) (fun _ => ?_)
    | refine check_expect_returns hR (by assumption) (by decide) ?_ (fun _ _ => ?_)
    | refine check_consume_returns hR (by assumption) (by decide) ?_ (fun _ _ _ => ?_)
    | refine next_returns hR (by assumption) (fun _ _ => ?_)
    | refine call_returns ?_ ?_ (fun _ _ _ => ?_)

theorem parseExpListLoop_returns {R : Nat → Parser → Prop} (hR : TokenSource R)
    {pe : Parser → Sema.Expr → Option (Bool × Parser × Sema.Expr)} : ∀ (c n : Nat), n + 1 ≤ c →
    ReturnsBelow R n pe → ∀ P Exprs, R n P → Returns R n (parseExpListLoop pe c P Exprs) := by
  intro c
  induction c with
  | zero => intro n hc; omega
  | succ c ih =>
    intro n hc hpe P Exprs hP
    simp only [parseExpListLoop]
    repeat' first
      | exact ih _ (by omega) (hpe.below (by omega)) _ _ (by assumption)
      | exact hpe _ (by omega) _ _ (by assumption)
      | exact Returns.here (by assumption) _ _
      | exact handler_raise
      | exact handler_errorhandler hR _ _ _ (by omega)
      | refine Returns.ite_kind hR (by assumption) (by decide) (fun _ _ => ?_) (fun _ => ?_)
      | refine Returns.ite_mem hR (by assumption) (by decide) (fun _ _ => ?_) (fun _ => ?_)
      | refine Returns.branch (fun _ => ?_) (fun _ => ?_)
      | refine check_expect_returns hR (by assumption) (by decide) ?_ (fun _ _ => ?_)
      | refine check_consume_returns hR (by assumption) (by decide) ?_ (fun _ _ _ => ?_)
      | refine next_returns hR (by assumption) (fun _ _ => ?_)
      | refine call_returns ?_ ?_ (fun _ _ _ => ?_)

/-- `parseExpList` starts with a call of `parseExpression`: it is called
after a token has been taken. -/
theorem parseExpList_returns {R : Nat → Parser → Prop} (hR : TokenSource R)
    {pe : Parser → Sema.Expr → Option (Bool × Parser × Sema.Expr)} {fuel n : Nat}
    (hf : n + 1 ≤ fuel) (hpe : ReturnsBelow R (n + 1) pe) {P : Parser} (hP : R n P)
    {Exprs : Sema.ExprList} : Returns R n (parseExpList pe fuel P Exprs) := by
  simp only [parseExpList]
  repeat' first
    | exact parseExpListLoop_returns hR _ _ (by omega) (hpe.below (by omega)) _ _ (by assumption)
    | exact hpe _ (by omega) _ _ (by assumption)
    | exact Returns.here (by assumption) _ _
    | exact handler_raise
    | exact handler_errorhandler hR _ _ _ (by omega)
    | refine Returns.ite_kind hR (by assumption) (by decide) (fun _ _ => ?_) (fun _ => ?_)
    | refine Returns.ite_mem hR (by assumption) (by decide) (fun _ _ => ?_) (fun _ => ?_)
    | refine Returns.branch (fun _ => ?_) (fun _ => ?_)
    | refine check_expect_returns hR (by assumption) (by decide) ?_ (fun _ _ => ?_)
    | refine check_consume_returns hR (by assumption) (by decide) ?_ (fun _ _ _ => ?_)
    | refine next_returns hR (by assumption) (fun _ _ => ?_)
    | refine call_returns ?_ ?_ (fun _ _ _ => ?_)

theorem parseFactor_returns {R : Nat → Parser → Prop} (hR : TokenSource R) {S : Sema}
    {pe : Parser → Sema.Expr → Option (Bool × Parser × Sema.Expr)} {fuel : Nat} :
    ∀ (depth n : Nat), n + 1 ≤ depth → n + 1 ≤ fuel → ReturnsBelow R n pe →
    ∀ P E, R n P → Returns R n (parseFactor S pe fuel depth P E) := by
  intro depth
  induction depth with
  | zero => intro n hc; omega
  | succ d ih =>
    intro n hd hf hpe P E hP
    simp only [parseFactor]
    repeat' first
      | exact ih _ (by omega) (by omega) (hpe.below (by omega)) _ _ (by assumption)
      | exact hpe _ (by omega) _ _ (by assumption)
      | exact parseQualident_returns hR (by omega) (by assumption)
      | exact parseSelectors_returns hR (by omega) (hpe.below (by omega)) (by assumption)
      | exact parseExpList_returns hR (by omega) (hpe.below (by omega)) (by assumption)
      | exact Returns.here (by assumption) _ _
      | exact handler_raise
      | exact handler_errorhandler hR _ _ _ (by omega)
      | refine Returns.ite_kind hR (by assumption) (by decide) (fun _ _ => ?_) (fun _ => ?_)
      | refine Returns.ite_mem hR (by assumption) (by decide) (fun _ _ => ?_) (fun _ => ?_)
      | refine Returns.branch (fun _ => ?_) (fun _ => ?_)
      | refine check_expect_returns hR (by assumption) (by decide) ?_ (fun _ _ => ?_)
      | refine check_consume_returns hR (by assumption) (by decide) ?_ (fun _ _ _ => ?_)
      | refine next_returns hR (by assumption) (fun _ _ => ?_)
      | refine call_returns ?_ ?_ (fun _ _ _ => ?_)
      | refine fail_returns (by assumption) ?_

/-- At a multiplication operator, `parseMulOperator` takes it. -/
theorem parseMulOperator_strict {R : Nat → Parser → Prop} (hR : TokenSource R) {fuel n : Nat} {P : Parser} (hP : R n P)
    (hk : P.Tok.Kind ∈ [TokenKind.star, .slash, .kw_AND, .kw_DIV, .kw_MOD])
    {Op : OperatorInfo} : Returns R (n - 1) (parseMulOperator fuel P Op) := by
  simp only [parseMulOperator]
  repeat' first
    | exact next_strict hR hP fun P1 hP1 => Returns.here hP1 _ _
    | split
    | (exfalso; simp_all; done)

theorem parseTermLoop_returns {R : Nat → Parser → Prop} (hR : TokenSource R) {S : Sema}
    {pe : Parser → Sema.Expr → Option (Bool × Parser × Sema.Expr)} {fuel : Nat} :
    ∀ (c n : Nat), n + 1 ≤ c → n + 1 ≤ fuel → ReturnsBelow R n pe →
    ∀ P E, R n P → Returns R n (parseTermLoop S pe fuel c P E) := by
  intro c
  induction c with
  | zero => intro n hc; omega
  | succ c ih =>
    intro n hc hf hpe P E hP
    simp only [parseTermLoop]
    refine Returns.ite_mem hR hP (by decide) (fun hm hn => ?_) (fun _ => Returns.here hP _ _)
    refine Returns.weaken hR (?_ : Returns R (n - 1) _) (Nat.sub_le _ _)
    refine call_returns (parseMulOperator_strict hR hP hm) handler_raise fun P1 Op hP1 => ?_
    repeat' first
      | exact ih _ (by omega) (by omega) (hpe.below (by omega)) _ _ (by assumption)
      | exact parseFactor_returns hR _ _ (by omega) (by omega) (hpe.below (by omega)) _ _ (by assumption)
      | exact Returns.here (by assumption) _ _
      | exact handler_raise
      | exact handler_errorhandler hR _ _ _ (by omega)
      | refine Returns.ite_kind hR (by assumption) (by decide) (fun _ _ => ?_) (fun _ => ?_)
      | refine Returns.ite_mem hR (by assumption) (by decide) (fun _ _ => ?_) (fun _ => ?_)
      | refine Returns.branch (fun _ => ?_) (fun _ => ?_)
      | refine check_expect_returns hR (by assumption) (by decide) ?_ (fun _ _ => ?_)
      | refine check_consume_returns hR (by assumption) (by decide) ?_ (fun _ _ _ => ?_)
      | refine next_returns hR (by assumption) (fun _ _ => ?_)
      | refine call_returns ?_ ?_ (fun _ _ _ => ?_)

theorem parseTerm_returns {R : Nat → Parser → Prop} (hR : TokenSource R) {S : Sema}
    {pe : Parser → Sema.Expr → Option (Bool × Parser × Sema.Expr)} {fuel n : Nat}
    (hf : n + 1 ≤ fuel) (hpe : ReturnsBelow R n pe) {P : Parser} (hP : R n P) {E : Sema.Expr} :
    Returns R n (parseTerm S pe fuel P E) := by
  simp only [parseTerm]
  repeat' first
    | exact parseTermLoop_returns hR _ _ (by omega) (by omega) hpe _ _ (by assumption)
    | exact parseFactor_returns hR _ _ (by omega) (by omega) hpe _ _ (by assumption)
    | exact Returns.here (by assumption) _ _
    | exact handler_raise
    | exact handler_errorhandler hR _ _ _ (by omega)
    | refine Returns.ite_kind hR (by assumption) (by decide) (fun _ _ => ?_) (fun _ => ?_)
    | refine Returns.ite_mem hR (by assumption) (by decide) (fun _ _ => ?_) (fun _ => ?_)
    | refine Returns.branch (fun _ => ?_) (fun _ => ?_)
    | refine check_expect_returns hR (by assumption) (by decide) ?_ (fun _ _ => ?_)
    | refine check_consume_returns hR (by assumption) (by decide) ?_ (fun _ _ _ => ?_)
    | refine next_returns hR (by assumption) (fun _ _ => ?_)
    | refine call_returns ?_ ?_ (fun _ _ _ => ?_)

/-- At an addition operator, `parseAddOperator` takes it. -/
theorem parseAddOperator_strict {R : Nat → Parser → Prop} (hR : TokenSource R) {fuel n : Nat} {P : Parser} (hP : R n P)
    (hk : P.Tok.Kind ∈ [TokenKind.plus, .minus, .kw_OR])
    {Op : OperatorInfo} : Returns R (n - 1) (parseAddOperator fuel P Op) := by
  simp only [parseAddOperator]
  repeat' first
    | exact next_strict hR hP fun P1 hP1 => Returns.here hP1 _ _
    | split
    | (exfalso; simp_all; done)

theorem parseSimpleExpressionLoop_returns {R : Nat → Parser → Prop} (hR : TokenSource R) {S : Sema}
    {pe : Parser → Sema.Expr → Option (Bool × Parser × Sema.Expr)} {fuel : Nat} :
    ∀ (c n : Nat), n + 1 ≤ c → n + 1 ≤ fuel → ReturnsBelow R n pe →
    ∀ P E, R n P → Returns R n (parseSimpleExpressionLoop S pe fuel c P E) := by
  intro c
  induction c with
  | zero => intro n hc; omega
  | succ c ih =>
    intro n hc hf hpe P E hP
    simp only [parseSimpleExpressionLoop]
    refine Returns.ite_mem hR hP (by decide) (fun hm hn => ?_) (fun _ => Returns.here hP _ _)
    refine Returns.weaken hR (?_ : Returns R (n - 1) _) (Nat.sub_le _ _)
    refine call_returns (parseAddOperator_strict hR hP hm) handler_raise fun P1 Op hP1 => ?_
    repeat' first
      | exact ih _ (by omega) (by omega) (hpe.below (by omega)) _ _ (by assumption)
      | exact parseTerm_returns hR (by omega) (hpe.below (by omega)) (by assumption)
      | exact Returns.here (by assumption) _ _
      | exact handler_raise
      | exact handler_errorhandler hR _ _ _ (by omega)
      | refine Returns.ite_kind hR (by assumption) (by decide) (fun _ _ => ?_) (fun _ => ?_)
      | refine Returns.ite_mem hR (by assumption) (by decide) (fun _ _ => ?_) (fun _ => ?_)
      | refine Returns.branch (fun _ => ?_) (fun _ => ?_)
      | refine check_expect_returns hR (by assumption) (by decide) ?_ (fun _ _ => ?_)
      | refine check_consume_returns hR (by assumption) (by decide) ?_ (fun _ _ _ => ?_)
      | refine next_returns hR (by assumption) (fun _ _ => ?_)
      | refine call_returns ?_ ?_ (fun _ _ _ => ?_)

theorem parseSimpleExpressionRest_returns {R : Nat → Parser → Prop} (hR : TokenSource R) {S : Sema}
    {pe : Parser → Sema.Expr → Option (Bool × Parser × Sema.Expr)} {fuel n : Nat}
    (hf : n + 1 ≤ fuel) (hpe : ReturnsBelow R n pe) {P : Parser} (hP : R n P)
    {PrefixOp : OperatorInfo} {E : Sema.Expr} :
    Returns R n (parseSimpleExpressionRest S pe fuel PrefixOp P E) := by
  simp only [parseSimpleExpressionRest]
  repeat' first
    | exact parseSimpleExpressionLoop_returns hR _ _ (by omega) (by omega) hpe _ _ (by assumption)
    | exact parseTerm_returns hR (by omega) hpe (by assumption)
    | exact Returns.here (by assumption) _ _
    | exact handler_raise
    | exact handler_errorhandler hR _ _ _ (by omega)
    | refine Returns.ite_kind hR (by assumption) (by decide) (fun _ _ => ?_) (fun _ => ?_)
    | refine Returns.ite_mem hR (by assumption) (by decide) (fun _ _ => ?_) (fun _ => ?_)
    | refine Returns.branch (fun _ => ?_) (fun _ => ?_)
    | refine check_expect_returns hR (by assumption) (by decide) ?_ (fun _ _ => ?_)
    | refine check_consume_returns hR (by assumption) (by decide) ?_ (fun _ _ _ => ?_)
    | refine next_returns hR (by assumption) (fun _ _ => ?_)
    | refine call_returns ?_ ?_ (fun _ _ _ => ?_)

theorem parseSimpleExpression_returns {R : Nat → Parser → Prop} (hR : TokenSource R) {S : Sema}
    {pe : Parser → Sema.Expr → Option (Bool × Parser × Sema.Expr)} {fuel n : Nat}
    (hf : n + 1 ≤ fuel) (hpe : ReturnsBelow R n pe) {P : Parser} (hP : R n P) {E : Sema.Expr} :
    Returns R n (parseSimpleExpression S pe fuel P E) := by
  simp only [parseSimpleExpression]
  repeat' first
    | exact parseSimpleExpressionRest_returns hR (by omega) (hpe.below (by omega)) (by assumption)
    | exact Returns.here (by assumption) _ _
    | exact handler_raise
    | exact handler_errorhandler hR _ _ _ (by omega)
    | refine Returns.ite_kind hR (by assumption) (by decide) (fun _ _ => ?_) (fun _ => ?_)
    | refine Returns.ite_mem hR (by assumption) (by decide) (fun _ _ => ?_) (fun _ => ?_)
    | refine Returns.branch (fun _ => ?_) (fun _ => ?_)
    | refine check_expect_returns hR (by assumption) (by decide) ?_ (fun _ _ => ?_)
    | refine check_consume_returns hR (by assumption) (by decide) ?_ (fun _ _ _ => ?_)
    | refine next_returns hR (by assumption) (fun _ _ => ?_)

theorem parseRelation_returns {R : Nat → Parser → Prop} (hR : TokenSource R) {fuel n : Nat} (hf : n + 1 ≤ fuel)
    {P : Parser} (hP : R n P) {Op : OperatorInfo} :
    Returns R n (parseRelation fuel P Op) := by
  simp only [parseRelation]
  repeat' first
    | exact Returns.here (by assumption) _ _
    | exact handler_raise
    | exact handler_errorhandler hR _ _ _ (by omega)
    | refine Returns.ite_kind hR (by assumption) (by decide) (fun _ _ => ?_) (fun _ => ?_)
    | refine Returns.ite_mem hR (by assumption) (by decide) (fun _ _ => ?_) (fun _ => ?_)
    | refine Returns.branch (fun _ => ?_) (fun _ => ?_)
    | refine check_expect_returns hR (by assumption) (by decide) ?_ (fun _ _ => ?_)
    | refine check_consume_returns hR (by assumption) (by decide) ?_ (fun _ _ _ => ?_)
    | refine next_returns hR (by assumption) (fun _ _ => ?_)
    | refine call_returns ?_ ?_ (fun _ _ _ => ?_)
    | refine fail_returns (by assumption) ?_

theorem parseExpressionWith_returns {R : Nat → Parser → Prop} (hR : TokenSource R) {S : Sema}
    {pe : Parser → Sema.Expr → Option (Bool × Parser × Sema.Expr)} {fuel n : Nat}
    (hf : n + 1 ≤ fuel) (hpe : ReturnsBelow R n pe) {P : Parser} (hP : R n P) {E : Sema.Expr} :
    Returns R n (parseExpressionWith S pe fuel P E) := by
  simp only [parseExpressionWith]
  repeat' first
    | exact parseSimpleExpression_returns hR (by omega) hpe (by assumption)
    | exact parseRelation_returns hR (by omega) (by assumption)
    | exact Returns.here (by assumption) _ _
    | exact handler_raise
    | exact handler_errorhandler hR _ _ _ (by omega)
    | refine Returns.ite_kind hR (by assumption) (by decide) (fun _ _ => ?_) (fun _ => ?_)
    | refine Returns.ite_mem hR (by assumption) (by decide) (fun _ _ => ?_) (fun _ => ?_)
    | refine Returns.branch (fun _ => ?_) (fun _ => ?_)
    | refine check_expect_returns hR (by assumption) (by decide) ?_ (fun _ _ => ?_)
    | refine check_consume_returns hR (by assumption) (by decide) ?_ (fun _ _ _ => ?_)
    | refine next_returns hR (by assumption) (fun _ _ => ?_)
    | refine call_returns ?_ ?_ (fun _ _ _ => ?_)

/-- `parseExpression` returns: it is entered again only after a token has been
taken, so that the nesting is bounded by the number of tokens. -/
theorem parseExpression_returns {R : Nat → Parser → Prop} (hR : TokenSource R) {S : Sema} : ∀ (n fuel : Nat),
    n + 1 ≤ fuel → ∀ P E, R n P → Returns R n (parseExpression S fuel P E) := by
  intro n
  induction n using Nat.strong_induction_on with
  | _ n ih =>
    intro fuel hf P E hP
    obtain ⟨f, rfl⟩ : ∃ f, fuel = f + 1 := ⟨fuel - 1, by omega⟩
    simp only [parseExpression]
    exact parseExpressionWith_returns hR hf
      (fun k hk P E hP => ih k hk f (by omega) P E hP) hP

theorem parseReturnStatement_returns {R : Nat → Parser → Prop} (hR : TokenSource R) {S : Sema} {fuel n : Nat}
    (hf : n + 1 ≤ fuel) {P : Parser} (hP : R n P) {Stmts : Sema.StmtList} :
    Returns R n (parseReturnStatement S fuel P Stmts) := by
  simp only [parseReturnStatement]
  repeat' first
    | exact parseExpression_returns hR _ _ (by omega) _ _ (by assumption)
    | exact Returns.here (by assumption) _ _
    | exact handler_raise
    | exact handler_errorhandler hR _ _ _ (by omega)
    | refine Returns.ite_kind hR (by assumption) (by decide) (fun _ _ => ?_) (fun _ => ?_)
    | refine Returns.ite_mem hR (by assumption) (by decide) (fun _ _ => ?_) (fun _ => ?_)
    | refine Returns.branch (fun _ => ?_) (fun _ => ?_)
    | refine check_expect_returns hR (by assumption) (by decide) ?_ (fun _ _ => ?_)
    | refine check_consume_returns hR (by assumption) (by decide) ?_ (fun _ _ _ => ?_)
    | refine next_returns hR (by assumption) (fun _ _ => ?_)
    | refine call_returns ?_ ?_ (fun _ _ _ => ?_)

theorem parseWhileStatement_returns {R : Nat → Parser → Prop} (hR : TokenSource R) {S : Sema}
    {pss : Parser → Sema.StmtList → Option (Bool × Parser × Sema.StmtList)} {fuel n : Nat}
    (hf : n + 1 ≤ fuel) (hpss : ReturnsBelow R n pss) {P : Parser} (hP : R n P)
    {Stmts : Sema.StmtList} : Returns R n (parseWhileStatement S pss fuel P Stmts) := by
  simp only [parseWhileStatement]
  repeat' first
    | exact parseExpression_returns hR _ _ (by omega) _ _ (by assumption)
    | exact hpss _ (by omega) _ _ (by assumption)
    | exact Returns.here (by assumption) _ _
    | exact handler_raise
    | exact handler_errorhandler hR _ _ _ (by omega)
    | refine Returns.ite_kind hR (by assumption) (by decide) (fun _ _ => ?_) (fun _ => ?_)
    | refine Returns.ite_mem hR (by assumption) (by decide) (fun _ _ => ?_) (fun _ => ?_)
    | refine Returns.branch (fun _ => ?_) (fun _ => ?_)
    | refine check_expect_returns hR (by assumption) (by decide) ?_ (fun _ _ => ?_)
    | refine check_consume_returns hR (by assumption) (by decide) ?_ (fun _ _ _ => ?_)
    | refine next_returns hR (by assumption) (fun _ _ => ?_)
    | refine call_returns ?_ ?_ (fun _ _ _ => ?_)

theorem parseIfStatement_returns {R : Nat → Parser → Prop} (hR : TokenSource R) {S : Sema}
    {pss : Parser → Sema.StmtList → Option (Bool × Parser × Sema.StmtList)} {fuel n : Nat}
    (hf : n + 1 ≤ fuel) (hpss : ReturnsBelow R n pss) {P : Parser} (hP : R n P)
    {Stmts : Sema.StmtList} : Returns R n (parseIfStatement S pss fuel P Stmts) := by
  simp only [parseIfStatement]
  repeat' first
    | exact parseExpression_returns hR _ _ (by omega) _ _ (by assumption)
    | exact hpss _ (by omega) _ _ (by assumption)
    | exact Returns.here (by assumption) _ _
    | exact handler_raise
    | exact handler_errorhandler hR _ _ _ (by omega)
    | refine Returns.ite_kind hR (by assumption) (by decide) (fun _ _ => ?_) (fun _ => ?_)
    | refine Returns.ite_mem hR (by assumption) (by decide) (fun _ _ => ?_) (fun _ => ?_)
    | refine Returns.branch (fun _ => ?_) (fun _ => ?_)
    | refine check_expect_returns hR (by assumption) (by decide) ?_ (fun _ _ => ?_)
    | refine check_consume_returns hR (by assumption) (by decide) ?_ (fun _ _ _ => ?_)
    | refine next_returns hR (by assumption) (fun _ _ => ?_)
    | refine call_returns ?_ ?_ (fun _ _ _ => ?_)

theorem parseStatement_returns {R : Nat → Parser → Prop} (hR : TokenSource R) {S : Sema}
    {pss : Parser → Sema.StmtList → Option (Bool × Parser × Sema.StmtList)} {fuel n : Nat}
    (hf : n + 1 ≤ fuel) (hpss : ReturnsBelow R n pss) {P : Parser} (hP : R n P)
    {Stmts : Sema.StmtList} : Returns R n (parseStatement S pss fuel P Stmts) := by
  simp only [parseStatement]
  repeat' first
    | exact parseExpression_returns hR _ _ (by omega) _ _ (by assumption)
    | exact parseQualident_returns hR (by omega) (by assumption)
    | exact parseSelectors_returns hR (by omega) (fun k _ P E hP => parseExpression_returns hR k _ (by omega) P E hP) (by assumption)
    | exact parseExpList_returns hR (by omega) (fun k _ P E hP => parseExpression_returns hR k _ (by omega) P E hP) (by assumption)
    | exact parseIfStatement_returns hR (by omega) (hpss.below (by omega)) (by assumption)
    | exact parseWhileStatement_returns hR (by omega) (hpss.below (by omega)) (by assumption)
    | exact parseReturnStatement_returns hR (by omega) (by assumption)
    | exact Returns.here (by assumption) _ _
    | exact handler_raise
    | exact handler_errorhandler hR _ _ _ (by omega)
    | refine Returns.ite_kind hR (by assumption) (by decide) (fun _ _ => ?_) (fun _ => ?_)
    | refine Returns.ite_mem hR (by assumption) (by decide) (fun _ _ => ?_) (fun _ => ?_)
    | refine Returns.branch (fun _ => ?_) (fun _ => ?_)
    | refine check_expect_returns hR (by assumption) (by decide) ?_ (fun _ _ => ?_)
    | refine check_consume_returns hR (by assumption) (by decide) ?_ (fun _ _ _ => ?_)
    | refine next_returns hR (by assumption) (fun _ _ => ?_)
    | refine call_returns ?_ ?_ (fun _ _ _ => ?_)
    | refine fail_returns (by assumption) ?_

theorem parseStatementSequenceLoop_returns {R : Nat → Parser → Prop} (hR : TokenSource R)
    {ps : Parser → Sema.StmtList → Option (Bool × Parser × Sema.StmtList)} :
    ∀ (c n : Nat), n + 1 ≤ c → ReturnsBelow R (n + 1) ps →
    ∀ P Stmts, R n P → Returns R n (parseStatementSequenceLoop ps c P Stmts) := by
  intro c
  induction c with
  | zero => intro n hc; omega
  | succ c ih =>
    intro n hc hps P Stmts hP
    simp only [parseStatementSequenceLoop]
    repeat' first
      | exact ih _ (by omega) (hps.below (by omega)) _ _ (by assumption)
      | exact hps _ (by omega) _ _ (by assumption)
      | exact Returns.here (by assumption) _ _
      | exact handler_raise
      | exact handler_errorhandler hR _ _ _ (by omega)
      | refine Returns.ite_kind hR (by assumption) (by decide) (fun _ _ => ?_) (fun _ => ?_)
      | refine Returns.ite_mem hR (by assumption) (by decide) (fun _ _ => ?_) (fun _ => ?_)
      | refine Returns.branch (fun _ => ?_) (fun _ => ?_)
      | refine check_expect_returns hR (by assumption) (by decide) ?_ (fun _ _ => ?_)
      | refine check_consume_returns hR (by assumption) (by decide) ?_ (fun _ _ _ => ?_)
      | refine next_returns hR (by assumption) (fun _ _ => ?_)
      | refine call_returns ?_ ?_ (fun _ _ _ => ?_)

/-- `parseStatementSequence` returns: it is entered again only after `IF` or
`WHILE` has been taken. -/
theorem parseStatementSequence_returns {R : Nat → Parser → Prop} (hR : TokenSource R) {S : Sema} : ∀ (n fuel : Nat),
    n + 1 ≤ fuel → ∀ P Stmts, R n P → Returns R n (parseStatementSequence S fuel P Stmts) := by
  intro n
  induction n using Nat.strong_induction_on with
  | _ n ih =>
    intro fuel hf P Stmts hP
    obtain ⟨f, rfl⟩ : ∃ f, fuel = f + 1 := ⟨fuel - 1, by omega⟩
    have hps : ReturnsBelow R (n + 1) (parseStatement S (parseStatementSequence S f) (f + 1)) :=
      fun k hk P a hP => parseStatement_returns hR (by omega)
        (fun j hj P a hP => ih j (by omega) f (by omega) P a hP) hP
    simp only [parseStatementSequence]
    repeat' first
      | exact hps _ (by omega) _ _ (by assumption)
      | exact parseStatementSequenceLoop_returns hR _ _ (by omega) hps _ _ (by assumption)
      | exact Returns.here (by assumption) _ _
      | exact handler_raise
      | exact handler_errorhandler hR _ _ _ (by omega)
      | refine Returns.ite_kind hR (by assumption) (by decide) (fun _ _ => ?_) (fun _ => ?_)
      | refine Returns.ite_mem hR (by assumption) (by decide) (fun _ _ => ?_) (fun _ => ?_)
      | refine Returns.branch (fun _ => ?_) (fun _ => ?_)
      | refine check_expect_returns hR (by assumption) (by decide) ?_ (fun _ _ => ?_)
      | refine check_consume_returns hR (by assumption) (by decide) ?_ (fun _ _ _ => ?_)
      | refine next_returns hR (by assumption) (fun _ _ => ?_)
      | refine call_returns ?_ ?_ (fun _ _ _ => ?_)

theorem parseFormalParameterRest_returns {R : Nat → Parser → Prop} (hR : TokenSource R) {S : Sema} {fuel n : Nat}
    (hf : n + 1 ≤ fuel) {P : Parser} (hP : R n P) {IsVar : Bool}
    {Params : Sema.FormalParamList} :
    Returns R n (parseFormalParameterRest S fuel IsVar P Params) := by
  simp only [parseFormalParameterRest]
  repeat' first
    | exact parseIdentList_returns hR (by omega) (by assumption)
    | exact parseQualident_returns hR (by omega) (by assumption)
    | exact Returns.here (by assumption) _ _
    | exact handler_raise
    | exact handler_errorhandler hR _ _ _ (by omega)
    | refine Returns.ite_kind hR (by assumption) (by decide) (fun _ _ => ?_) (fun _ => ?_)
    | refine Returns.ite_mem hR (by assumption) (by decide) (fun _ _ => ?_) (fun _ => ?_)
    | refine Returns.branch (fun _ => ?_) (fun _ => ?_)
    | refine check_expect_returns hR (by assumption) (by decide) ?_ (fun _ _ => ?_)
    | refine check_consume_returns hR (by assumption) (by decide) ?_ (fun _ _ _ => ?_)
    | refine next_returns hR (by assumption) (fun _ _ => ?_)
    | refine call_returns ?_ ?_ (fun _ _ _ => ?_)

theorem parseFormalParameter_returns {R : Nat → Parser → Prop} (hR : TokenSource R) {S : Sema} {fuel n : Nat}
    (hf : n + 1 ≤ fuel) {P : Parser} (hP : R n P) {Params : Sema.FormalParamList} :
    Returns R n (parseFormalParameter S fuel P Params) := by
  simp only [parseFormalParameter]
  repeat' first
    | exact parseFormalParameterRest_returns hR (by omega) (by assumption)
    | exact Returns.here (by assumption) _ _
    | exact handler_raise
    | exact handler_errorhandler hR _ _ _ (by omega)
    | refine Returns.ite_kind hR (by assumption) (by decide) (fun _ _ => ?_) (fun _ => ?_)
    | refine Returns.ite_mem hR (by assumption) (by decide) (fun _ _ => ?_) (fun _ => ?_)
    | refine Returns.branch (fun _ => ?_) (fun _ => ?_)
    | refine check_expect_returns hR (by assumption) (by decide) ?_ (fun _ _ => ?_)
    | refine check_consume_returns hR (by assumption) (by decide) ?_ (fun _ _ _ => ?_)
    | refine next_returns hR (by assumption) (fun _ _ => ?_)

theorem parseFormalParameterListLoop_returns {R : Nat → Parser → Prop} (hR : TokenSource R) {S : Sema} {fuel : Nat} :
    ∀ (c n : Nat), n + 1 ≤ c → n + 1 ≤ fuel →
    ∀ P Params, R n P → Returns R n (parseFormalParameterListLoop S fuel c P Params) := by
  intro c
  induction c with
  | zero => intro n hc; omega
  | succ c ih =>
    intro n hc hf P Params hP
    simp only [parseFormalParameterListLoop]
    repeat' first
      | exact ih _ (by omega) (by omega) _ _ (by assumption)
      | exact parseFormalParameter_returns hR (by omega) (by assumption)
      | exact Returns.here (by assumption) _ _
      | exact handler_raise
      | exact handler_errorhandler hR _ _ _ (by omega)
      | refine Returns.ite_kind hR (by assumption) (by decide) (fun _ _ => ?_) (fun _ => ?_)
      | refine Returns.ite_mem hR (by assumption) (by decide) (fun _ _ => ?_) (fun _ => ?_)
      | refine Returns.branch (fun _ => ?_) (fun _ => ?_)
      | refine check_expect_returns hR (by assumption) (by decide) ?_ (fun _ _ => ?_)
      | refine check_consume_returns hR (by assumption) (by decide) ?_ (fun _ _ _ => ?_)
      | refine next_returns hR (by assumption) (fun _ _ => ?_)
      | refine call_returns ?_ ?_ (fun _ _ _ => ?_)

theorem parseFormalParameterList_returns {R : Nat → Parser → Prop} (hR : TokenSource R) {S : Sema} {fuel n : Nat}
    (hf : n + 1 ≤ fuel) {P : Parser} (hP : R n P) {Params : Sema.FormalParamList} :
    Returns R n (parseFormalParameterList S fuel P Params) := by
  simp only [parseFormalParameterList]
  repeat' first
    | exact parseFormalParameterListLoop_returns hR _ _ (by omega) (by omega) _ _ (by assumption)
    | exact parseFormalParameter_returns hR (by omega) (by assumption)
    | exact Returns.here (by assumption) _ _
    | exact handler_raise
    | exact handler_errorhandler hR _ _ _ (by omega)
    | refine Returns.ite_kind hR (by assumption) (by decide) (fun _ _ => ?_) (fun _ => ?_)
    | refine Returns.ite_mem hR (by assumption) (by decide) (fun _ _ => ?_) (fun _ => ?_)
    | refine Returns.branch (fun _ => ?_) (fun _ => ?_)
    | refine check_expect_returns hR (by assumption) (by decide) ?_ (fun _ _ => ?_)
    | refine check_consume_returns hR (by assumption) (by decide) ?_ (fun _ _ _ => ?_)
    | refine next_returns hR (by assumption) (fun _ _ => ?_)
    | refine call_returns ?_ ?_ (fun _ _ _ => ?_)

theorem parseFormalParameters_returns {R : Nat → Parser → Prop} (hR : TokenSource R) {S : Sema} {fuel n : Nat}
    (hf : n + 1 ≤ fuel) {P : Parser} (hP : R n P) {Params : Sema.FormalParamList}
    {RetType : Sema.Decl} : Returns R n (parseFormalParameters S fuel P Params RetType) := by
  simp only [parseFormalParameters]
  repeat' first
    | exact parseFormalParameterList_returns hR (by omega) (by assumption)
    | exact parseQualident_returns hR (by omega) (by assumption)
    | exact Returns.here (by assumption) _ _
    | exact handler_raise
    | exact handler_errorhandler hR _ _ _ (by omega)
    | refine Returns.ite_kind hR (by assumption) (by decide) (fun _ _ => ?_) (fun _ => ?_)
    | refine Returns.ite_mem hR (by assumption) (by decide) (fun _ _ => ?_) (fun _ => ?_)
    | refine Returns.branch (fun _ => ?_) (fun _ => ?_)
    | refine check_expect_returns hR (by assumption) (by decide) ?_ (fun _ _ => ?_)
    | refine check_consume_returns hR (by assumption) (by decide) ?_ (fun _ _ _ => ?_)
    | refine next_returns hR (by assumption) (fun _ _ => ?_)
    | refine call_returns ?_ ?_ (fun _ _ _ => ?_)

/-- At an identifier, `parseVariableDeclaration` takes it. -/
theorem parseVariableDeclaration_strict {R : Nat → Parser → Prop} (hR : TokenSource R) {S : Sema} {fuel n : Nat}
    (hf : n + 1 ≤ fuel) {P : Parser} (hP : R n P) (hk : P.Tok.Kind = .identifier)
    {Decls : Sema.DeclList} : Returns R (n - 1) (parseVariableDeclaration S fuel P Decls) := by
  simp only [parseVariableDeclaration]
  refine call_returns (parseIdentList_strict hR hf hP hk) (handler_errorhandler hR _ _ _ (by omega))
    fun P1 Ids hP1 => ?_
  repeat' first
    | exact parseQualident_returns hR (by omega) (by assumption)
    | exact Returns.here (by assumption) _ _
    | exact handler_raise
    | exact handler_errorhandler hR _ _ _ (by omega)
    | refine Returns.ite_kind hR (by assumption) (by decide) (fun _ _ => ?_) (fun _ => ?_)
    | refine Returns.ite_mem hR (by assumption) (by decide) (fun _ _ => ?_) (fun _ => ?_)
    | refine Returns.branch (fun _ => ?_) (fun _ => ?_)
    | refine check_expect_returns hR (by assumption) (by decide) ?_ (fun _ _ => ?_)
    | refine check_consume_returns hR (by assumption) (by decide) ?_ (fun _ _ _ => ?_)
    | refine next_returns hR (by assumption) (fun _ _ => ?_)
    | refine call_returns ?_ ?_ (fun _ _ _ => ?_)

theorem parseField_returns {R : Nat → Parser → Prop} (hR : TokenSource R) {S : Sema} {fuel n : Nat}
    (hf : n + 1 ≤ fuel) {P : Parser} (hP : R n P) {Fields : Sema.FieldList} :
    Returns R n (parseField S fuel P Fields) := by
  simp only [parseField]
  repeat' first
    | exact parseIdentList_returns hR (by omega) (by assumption)
    | exact parseQualident_returns hR (by omega) (by assumption)
    | exact Returns.here (by assumption) _ _
    | exact handler_raise
    | exact handler_errorhandler hR _ _ _ (by omega)
    | refine Returns.ite_kind hR (by assumption) (by decide) (fun _ _ => ?_) (fun _ => ?_)
    | refine Returns.ite_mem hR (by assumption) (by decide) (fun _ _ => ?_) (fun _ => ?_)
    | refine Returns.branch (fun _ => ?_) (fun _ => ?_)
    | refine check_expect_returns hR (by assumption) (by decide) ?_ (fun _ _ => ?_)
    | refine check_consume_returns hR (by assumption) (by decide) ?_ (fun _ _ _ => ?_)
    | refine next_returns hR (by assumption) (fun _ _ => ?_)
    | refine call_returns ?_ ?_ (fun _ _ _ => ?_)

theorem parseFieldListLoop_returns {R : Nat → Parser → Prop} (hR : TokenSource R) {S : Sema} {fuel : Nat} :
    ∀ (c n : Nat), n + 1 ≤ c → n + 1 ≤ fuel →
    ∀ P Fields, R n P → Returns R n (parseFieldListLoop S fuel c P Fields) := by
  intro c
  induction c with
  | zero => intro n hc; omega
  | succ c ih =>
    intro n hc hf P Fields hP
    simp only [parseFieldListLoop]
    repeat' first
      | exact ih _ (by omega) (by omega) _ _ (by assumption)
      | exact parseField_returns hR (by omega) (by assumption)
      | exact Returns.here (by assumption) _ _
      | exact handler_raise
      | exact handler_errorhandler hR _ _ _ (by omega)
      | refine Returns.ite_kind hR (by assumption) (by decide) (fun _ _ => ?_) (fun _ => ?_)
      | refine Returns.ite_mem hR (by assumption) (by decide) (fun _ _ => ?_) (fun _ => ?_)
      | refine Returns.branch (fun _ => ?_) (fun _ => ?_)
      | refine check_expect_returns hR (by assumption) (by decide) ?_ (fun _ _ => ?_)
      | refine check_consume_returns hR (by assumption) (by decide) ?_ (fun _ _ _ => ?_)
      | refine next_returns hR (by assumption) (fun _ _ => ?_)
      | refine call_returns ?_ ?_ (fun _ _ _ => ?_)

theorem parseFieldList_returns {R : Nat → Parser → Prop} (hR : TokenSource R) {S : Sema} {fuel n : Nat}
    (hf : n + 1 ≤ fuel) {P : Parser} (hP : R n P) {Fields : Sema.FieldList} :
    Returns R n (parseFieldList S fuel P Fields) := by
  simp only [parseFieldList]
  repeat' first
    | exact parseFieldListLoop_returns hR _ _ (by omega) (by omega) _ _ (by assumption)
    | exact parseField_returns hR (by omega) (by assumption)
    | exact Returns.here (by assumption) _ _
    | exact handler_raise
    | exact handler_errorhandler hR _ _ _ (by omega)
    | refine Returns.ite_kind hR (by assumption) (by decide) (fun _ _ => ?_) (fun _ => ?_)
    | refine Returns.ite_mem hR (by assumption) (by decide) (fun _ _ => ?_) (fun _ => ?_)
    | refine Returns.branch (fun _ => ?_) (fun _ => ?_)
    | refine check_expect_returns hR (by assumption) (by decide) ?_ (fun _ _ => ?_)
    | refine check_consume_returns hR (by assumption) (by decide) ?_ (fun _ _ _ => ?_)
    | refine next_returns hR (by assumption) (fun _ _ => ?_)
    | refine call_returns ?_ ?_ (fun _ _ _ => ?_)

/-- At an identifier, `parseTypeDeclaration` takes it. -/
theorem parseTypeDeclaration_strict {R : Nat → Parser → Prop} (hR : TokenSource R) {S : Sema} {fuel n : Nat}
    (hf : n + 1 ≤ fuel) {P : Parser} (hP : R n P) (hk : P.Tok.Kind = .identifier)
    {Decls : Sema.DeclList} : Returns R (n - 1) (parseTypeDeclaration S fuel P Decls) := by
  simp only [parseTypeDeclaration]
  rw [Parser.expect_eq hk, Parser.check_ok]
  refine next_strict hR hP fun P1 hP1 => ?_
  repeat' first
    | exact parseQualident_returns hR (by omega) (by assumption)
    | exact parseExpression_returns hR _ _ (by omega) _ _ (by assumption)
    | exact parseFieldList_returns hR (by omega) (by assumption)
    | exact Returns.here (by assumption) _ _
    | exact handler_raise
    | exact handler_errorhandler hR _ _ _ (by omega)
    | refine Returns.ite_kind hR (by assumption) (by decide) (fun _ _ => ?_) (fun _ => ?_)
    | refine Returns.ite_mem hR (by assumption) (by decide) (fun _ _ => ?_) (fun _ => ?_)
    | refine Returns.branch (fun _ => ?_) (fun _ => ?_)
    | refine check_expect_returns hR (by assumption) (by decide) ?_ (fun _ _ => ?_)
    | refine check_consume_returns hR (by assumption) (by decide) ?_ (fun _ _ _ => ?_)
    | refine next_returns hR (by assumption) (fun _ _ => ?_)
    | refine call_returns ?_ ?_ (fun _ _ _ => ?_)
    | refine fail_returns (by assumption) ?_

/-- At an identifier, `parseConstantDeclaration` takes it. -/
theorem parseConstantDeclaration_strict {R : Nat → Parser → Prop} (hR : TokenSource R) {S : Sema} {fuel n : Nat}
    (hf : n + 1 ≤ fuel) {P : Parser} (hP : R n P) (hk : P.Tok.Kind = .identifier)
    {Decls : Sema.DeclList} : Returns R (n - 1) (parseConstantDeclaration S fuel P Decls) := by
  simp only [parseConstantDeclaration]
  rw [Parser.expect_eq hk, Parser.check_ok]
  refine next_strict hR hP fun P1 hP1 => ?_
  repeat' first
    | exact parseExpression_returns hR _ _ (by omega) _ _ (by assumption)
    | exact Returns.here (by assumption) _ _
    | exact handler_raise
    | exact handler_errorhandler hR _ _ _ (by omega)
    | refine Returns.ite_kind hR (by assumption) (by decide) (fun _ _ => ?_) (fun _ => ?_)
    | refine Returns.ite_mem hR (by assumption) (by decide) (fun _ _ => ?_) (fun _ => ?_)
    | refine Returns.branch (fun _ => ?_) (fun _ => ?_)
    | refine check_expect_returns hR (by assumption) (by decide) ?_ (fun _ _ => ?_)
    | refine check_consume_returns hR (by assumption) (by decide) ?_ (fun _ _ _ => ?_)
    | refine next_returns hR (by assumption) (fun _ _ => ?_)
    | refine call_returns ?_ ?_ (fun _ _ _ => ?_)

/-- At `PROCEDURE`, `parseProcedureDeclaration` takes it; `parseBlock` is
entered after that. -/
theorem parseProcedureDeclaration_strict {R : Nat → Parser → Prop} (hR : TokenSource R) {S : Sema}
    {pb : Parser → Sema.DeclList → Sema.StmtList →
      Option (Bool × Parser × Sema.DeclList × Sema.StmtList)} {fuel n : Nat}
    (hf : n + 1 ≤ fuel)
    (hpb : ∀ k, k < n → ∀ P D St, R k P → Returns R k (pb P D St)) {P : Parser}
    (hP : R n P) (hk : P.Tok.Kind = .kw_PROCEDURE) {ParentDecls : Sema.DeclList} :
    Returns R (n - 1) (parseProcedureDeclaration S pb fuel P ParentDecls) := by
  have hn : n ≠ 0 := tokens_left hR hP (by rw [hk]; decide)
  obtain ⟨P', e, hP'⟩ := hR.advance n P hP
  simp only [parseProcedureDeclaration]
  rw [Parser.consume_eq hk e, Parser.check_ok]
  repeat' first
    | exact parseFormalParameters_returns hR (by omega) (by assumption)
    | exact hpb _ (by omega) _ _ _ (by assumption)
    | exact Returns.here (by assumption) _ _
    | exact handler_raise
    | exact handler_errorhandler hR _ _ _ (by omega)
    | refine Returns.ite_kind hR (by assumption) (by decide) (fun _ _ => ?_) (fun _ => ?_)
    | refine Returns.ite_mem hR (by assumption) (by decide) (fun _ _ => ?_) (fun _ => ?_)
    | refine Returns.branch (fun _ => ?_) (fun _ => ?_)
    | refine check_expect_returns hR (by assumption) (by decide) ?_ (fun _ _ => ?_)
    | refine check_consume_returns hR (by assumption) (by decide) ?_ (fun _ _ _ => ?_)
    | refine next_returns hR (by assumption) (fun _ _ => ?_)
    | refine call_returns ?_ ?_ (fun _ _ _ => ?_)

/-- The loops of `parseDeclaration` return: every round takes the identifier
that starts the declaration. -/
theorem parseDeclarationLoop_returns {R : Nat → Parser → Prop} (hR : TokenSource R)
    {pd : Parser → Sema.DeclList → Option (Bool × Parser × Sema.DeclList)} :
    ∀ (c n : Nat), n + 1 ≤ c →
    (∀ k, k ≤ n → ∀ P D, R k P → P.Tok.Kind = .identifier → Returns R (k - 1) (pd P D)) →
    ∀ P Decls, R n P → Returns R n (parseDeclarationLoop pd c P Decls) := by
  intro c
  induction c with
  | zero => intro n hc; omega
  | succ c ih =>
    intro n hc hpd P Decls hP
    simp only [parseDeclarationLoop]
    refine Returns.ite_kind hR hP (by decide) (fun hk hn => ?_) (fun _ => Returns.here hP _ _)
    refine Returns.weaken hR (?_ : Returns R (n - 1) _) (Nat.sub_le _ _)
    refine call_returns (hpd n (Nat.le_refl _) P _ hP hk) handler_raise fun P1 D1 hP1 => ?_
    repeat' first
      | exact ih _ (by omega) (fun k hk => hpd k (by omega)) _ _ (by assumption)
      | exact Returns.here (by assumption) _ _
      | exact handler_raise
      | exact handler_errorhandler hR _ _ _ (by omega)
      | refine Returns.ite_kind hR (by assumption) (by decide) (fun _ _ => ?_) (fun _ => ?_)
      | refine Returns.ite_mem hR (by assumption) (by decide) (fun _ _ => ?_) (fun _ => ?_)
      | refine Returns.branch (fun _ => ?_) (fun _ => ?_)
      | refine check_expect_returns hR (by assumption) (by decide) ?_ (fun _ _ => ?_)
      | refine check_consume_returns hR (by assumption) (by decide) ?_ (fun _ _ _ => ?_)

/-- At `CONST`, `TYPE`, `VAR` or `PROCEDURE`, `parseDeclaration` takes the
keyword. -/
theorem parseDeclaration_strict {R : Nat → Parser → Prop} (hR : TokenSource R) {S : Sema}
    {pb : Parser → Sema.DeclList → Sema.StmtList →
      Option (Bool × Parser × Sema.DeclList × Sema.StmtList)} {fuel n : Nat}
    (hf : n + 1 ≤ fuel)
    (hpb : ∀ k, k < n → ∀ P D St, R k P → Returns R k (pb P D St)) {P : Parser}
    (hP : R n P)
    (hk : P.Tok.Kind ∈ [TokenKind.kw_CONST, .kw_PROCEDURE, .kw_TYPE, .kw_VAR])
    {Decls : Sema.DeclList} : Returns R (n - 1) (parseDeclaration S pb fuel P Decls) := by
  have hn : n ≠ 0 := tokens_left hR hP (fun e => by rw [e] at hk; revert hk; decide)
  simp only [parseDeclaration]
  repeat' first
    | refine next_strict hR hP fun P1 hP1 => ?_
    | exact parseProcedureDeclaration_strict hR hf hpb hP (by assumption)
    | exact parseDeclarationLoop_returns hR _ _ (by omega) (fun k hk P D hP hid => parseConstantDeclaration_strict hR (by omega) hP hid) _ _ (by assumption)
    | exact parseDeclarationLoop_returns hR _ _ (by omega) (fun k hk P D hP hid => parseTypeDeclaration_strict hR (by omega) hP hid) _ _ (by assumption)
    | exact parseDeclarationLoop_returns hR _ _ (by omega) (fun k hk P D hP hid => parseVariableDeclaration_strict hR (by omega) hP hid) _ _ (by assumption)
    | exact Returns.here (by assumption) _ _
    | exact handler_raise
    | exact handler_errorhandler hR _ _ _ (by omega)
    | refine Returns.ite_kind hR (by assumption) (by decide) (fun _ _ => ?_) (fun _ => ?_)
    | refine Returns.ite_mem hR (by assumption) (by decide) (fun _ _ => ?_) (fun _ => ?_)
    | refine Returns.branch (fun _ => ?_) (fun _ => ?_)
    | refine check_expect_returns hR (by assumption) (by decide) ?_ (fun _ _ => ?_)
    | refine check_consume_returns hR (by assumption) (by decide) ?_ (fun _ _ _ => ?_)
    | refine next_returns hR (by assumption) (fun _ _ => ?_)
    | refine call_returns ?_ ?_ (fun _ _ _ => ?_)
    | refine fail_returns (by assumption) ?_
    | (exfalso; simp_all; done)

/-- The loop of `parseBlock` returns: every round takes the keyword that
starts the declaration. -/
theorem parseBlockLoop_returns {R : Nat → Parser → Prop} (hR : TokenSource R)
    {pd : Parser → Sema.DeclList → Option (Bool × Parser × Sema.DeclList)} :
    ∀ (c n : Nat), n + 1 ≤ c →
    (∀ k, k ≤ n → ∀ P D, R k P →
      P.Tok.Kind ∈ [TokenKind.kw_CONST, .kw_PROCEDURE, .kw_TYPE, .kw_VAR] →
      Returns R (k - 1) (pd P D)) →
    ∀ P Decls, R n P → Returns R n (parseBlockLoop pd c P Decls) := by
  intro c
  induction c with
  | zero => intro n hc; omega
  | succ c ih =>
    intro n hc hpd P Decls hP
    simp only [parseBlockLoop]
    refine Returns.ite_mem hR hP (by decide) (fun hk hn => ?_) (fun _ => Returns.here hP _ _)
    refine Returns.weaken hR (?_ : Returns R (n - 1) _) (Nat.sub_le _ _)
    refine call_returns (hpd n (Nat.le_refl _) P _ hP hk) handler_raise fun P1 D1 hP1 => ?_
    exact ih _ (by omega) (fun k hk => hpd k (by omega)) _ _ hP1

/-- `parseBlock` returns: it is entered again only after `PROCEDURE` has been
taken. -/
theorem parseBlock_returns {R : Nat → Parser → Prop} (hR : TokenSource R) {S : Sema} : ∀ (n fuel : Nat),
    n + 1 ≤ fuel → ∀ P Decls Stmts, R n P → Returns R n (parseBlock S fuel P Decls Stmts) := by
  intro n
  induction n using Nat.strong_induction_on with
  | _ n ih =>
    intro fuel hf P Decls Stmts hP
    obtain ⟨f, rfl⟩ : ∃ f, fuel = f + 1 := ⟨fuel - 1, by omega⟩
    simp only [parseBlock]
    repeat' first
      | exact parseBlockLoop_returns hR _ _ (by omega) (fun k hk P D hP hm => parseDeclaration_strict hR (by omega) (fun j hj P D St hP => ih j (by omega) f (by omega) P D St hP) hP hm) _ _ (by assumption)
      | exact parseStatementSequence_returns hR _ _ (by omega) _ _ (by assumption)
      | exact Returns.here (by assumption) _ _
      | exact handler_raise
      | exact handler_errorhandler hR _ _ _ (by omega)
      | refine Returns.ite_kind hR (by assumption) (by decide) (fun _ _ => ?_) (fun _ => ?_)
      | refine Returns.ite_mem hR (by assumption) (by decide) (fun _ _ => ?_) (fun _ => ?_)
      | refine Returns.branch (fun _ => ?_) (fun _ => ?_)
      | refine check_expect_returns hR (by assumption) (by decide) ?_ (fun _ _ => ?_)
      | refine check_consume_returns hR (by assumption) (by decide) ?_ (fun _ _ _ => ?_)
      | refine next_returns hR (by assumption) (fun _ _ => ?_)
      | refine call_returns ?_ ?_ (fun _ _ _ => ?_)

theorem parseImportRest_returns {R : Nat → Parser → Prop} (hR : TokenSource R) {fuel n : Nat} (hf : n + 1 ≤ fuel)
    {P : Parser} (hP : R n P) : Returns R n (parseImportRest fuel P) := by
  simp only [parseImportRest]
  repeat' first
    | exact parseIdentList_returns hR (by omega) (by assumption)
    | exact Returns.here (by assumption) _ _
    | exact handler_raise
    | exact handler_errorhandler hR _ _ _ (by omega)
    | refine Returns.ite_kind hR (by assumption) (by decide) (fun _ _ => ?_) (fun _ => ?_)
    | refine Returns.ite_mem hR (by assumption) (by decide) (fun _ _ => ?_) (fun _ => ?_)
    | refine Returns.branch (fun _ => ?_) (fun _ => ?_)
    | refine check_expect_returns hR (by assumption) (by decide) ?_ (fun _ _ => ?_)
    | refine check_consume_returns hR (by assumption) (by decide) ?_ (fun _ _ _ => ?_)
    | refine next_returns hR (by assumption) (fun _ _ => ?_)
    | refine call_returns ?_ ?_ (fun _ _ _ => ?_)

/-- At `IMPORT`, `parseImport` takes it. -/
theorem parseImportRest_strict {R : Nat → Parser → Prop} (hR : TokenSource R) {fuel n : Nat} (hf : n + 1 ≤ fuel)
    {P : Parser} (hP : R n P) (hk : P.Tok.Kind = .kw_IMPORT) :
    Returns R (n - 1) (parseImportRest fuel P) := by
  obtain ⟨P', e, hP'⟩ := hR.advance n P hP
  simp only [parseImportRest]
  rw [Parser.consume_eq hk e, Parser.check_ok]
  repeat' first
    | exact parseIdentList_returns hR (by omega) (by assumption)
    | exact Returns.here (by assumption) _ _
    | exact handler_raise
    | exact handler_errorhandler hR _ _ _ (by omega)
    | refine Returns.ite_kind hR (by assumption) (by decide) (fun _ _ => ?_) (fun _ => ?_)
    | refine Returns.ite_mem hR (by assumption) (by decide) (fun _ _ => ?_) (fun _ => ?_)
    | refine Returns.branch (fun _ => ?_) (fun _ => ?_)
    | refine check_expect_returns hR (by assumption) (by decide) ?_ (fun _ _ => ?_)
    | refine check_consume_returns hR (by assumption) (by decide) ?_ (fun _ _ _ => ?_)
    | refine next_returns hR (by assumption) (fun _ _ => ?_)
    | refine call_returns ?_ ?_ (fun _ _ _ => ?_)

theorem Returns.recovers {R : Nat → Parser → Prop} {n : Nat} {β : Type} {r : Option (Bool × Parser × β)}
    (h : Returns R n r) : Recovers R n (r.map fun x => (x.1, x.2.1)) := by
  obtain ⟨b, P', out, e, hP'⟩ := h
  subst e
  exact ⟨b, P', rfl, hP'⟩

/-- At `FROM` or `IMPORT`, `parseImport` takes the keyword. -/
theorem parseImport_strict {R : Nat → Parser → Prop} (hR : TokenSource R) {fuel n : Nat} (hf : n + 1 ≤ fuel)
    {P : Parser} (hP : R n P) (hk : P.Tok.Kind = .kw_FROM ∨ P.Tok.Kind = .kw_IMPORT) :
    Recovers R (n - 1) (parseImport fuel P) := by
  simp only [parseImport]
  refine Returns.recovers ?_
  by_cases h1 : P.Tok.Kind = .kw_FROM
  · rw [if_pos h1]
    refine next_strict hR hP fun P1 hP1 => ?_
    repeat' first
      | exact parseImportRest_returns hR (by omega) (by assumption)
      | exact Returns.here (by assumption) _ _
      | exact handler_raise
      | exact handler_errorhandler hR _ _ _ (by omega)
      | refine Returns.ite_kind hR (by assumption) (by decide) (fun _ _ => ?_) (fun _ => ?_)
      | refine Returns.ite_mem hR (by assumption) (by decide) (fun _ _ => ?_) (fun _ => ?_)
      | refine Returns.branch (fun _ => ?_) (fun _ => ?_)
      | refine check_expect_returns hR (by assumption) (by decide) ?_ (fun _ _ => ?_)
      | refine check_consume_returns hR (by assumption) (by decide) ?_ (fun _ _ _ => ?_)
      | refine next_returns hR (by assumption) (fun _ _ => ?_)
  · rw [if_neg h1]
    exact parseImportRest_strict hR hf hP (hk.resolve_left h1)

/-- The recovery loop of `parseCompilationUnit` returns. -/
theorem skipToEof_recovers {R : Nat → Parser → Prop} (hR : TokenSource R) : ∀ (fuel n : Nat), n + 1 ≤ fuel →
    ∀ P, R n P → Recovers R n (skipToEof fuel P) := by
  intro fuel
  induction fuel with
  | zero => intro n hf; omega
  | succ f ih =>
    intro n hf P hP
    simp only [skipToEof]
    split
    · exact ⟨false, P, rfl, hP⟩
    · next hne =>
      have hn : n ≠ 0 := tokens_left hR hP hne
      obtain ⟨P', e, hP'⟩ := hR.advance n P hP
      simp only [e]
      obtain ⟨b, P'', e', hP''⟩ := ih (n - 1) (by omega) P' hP'
      exact ⟨b, P'', e', hR.mono _ _ _ hP'' (Nat.sub_le _ _)⟩

/-- The loop over the imports returns: every round takes `FROM` or
`IMPORT`. -/
theorem parseImports_recovers {R : Nat → Parser → Prop} (hR : TokenSource R) {G : Productions} :
    ∀ (c n : Nat), n + 1 ≤ c →
    (∀ k, k ≤ n → ∀ P, R k P → P.Tok.Kind = .kw_FROM ∨ P.Tok.Kind = .kw_IMPORT →
      Recovers R (k - 1) (G.parseImport P)) →
    ∀ P, R n P → Recovers R n (parseImports G c P) := by
  intro c
  induction c with
  | zero => intro n hc; omega
  | succ c ih =>
    intro n hc hG P hP
    simp only [parseImports]
    split
    · next hk =>
      have hn : n ≠ 0 := tokens_left hR hP (by
        rcases hk with h | h <;> rw [h] <;> decide)
      obtain ⟨b, P1, e, hP1⟩ := hG n (Nat.le_refl _) P hP hk
      rw [e]
      cases b with
      | true => exact ⟨true, P1, rfl, hR.mono _ _ _ hP1 (Nat.sub_le _ _)⟩
      | false =>
        obtain ⟨b, P2, e2, hP2⟩ := ih (n - 1) (by omega) (fun k hk => hG k (by omega)) P1 hP1
        exact ⟨b, P2, e2, hR.mono _ _ _ hP2 (Nat.sub_le _ _)⟩
    · exact ⟨false, P, rfl, hP⟩

/-- `parseCompilationUnit` returns when the bound on the iterations of each
loop and on the nesting exceeds the number of tokens. -/
theorem parseCompilationUnit_recovers {R : Nat → Parser → Prop} (hR : TokenSource R) (S : Sema) {fuel n : Nat}
    (hf : n + 1 ≤ fuel) {P : Parser} (hP : R n P) :
    Recovers R n (parseCompilationUnit (productions S fuel) fuel P) := by
  have skip : ∀ P, R n P → Recovers R n (skipToEof fuel P) :=
    fun P hP => skipToEof_recovers hR _ _ hf P hP
  have adv : ∀ P, R n P → ∃ P', P.advance = some P' ∧ R n P' := fun P hP => by
    obtain ⟨P', e, hP'⟩ := hR.advance n P hP
    exact ⟨P', e, hR.mono _ _ _ hP' (Nat.sub_le _ _)⟩
  have cons : ∀ P K, R n P → ∃ b P', P.consume K = some (b, P') ∧ R n P' := by
    intro P K hP
    by_cases hk : P.Tok.Kind = K
    · obtain ⟨P', e, hP'⟩ := adv P hP
      exact ⟨false, P', Parser.consume_eq hk e, hP'⟩
    · exact ⟨true, P, Parser.consume_ne hk, hP⟩
  have expe : ∀ P K, R n P → R n (P.expect K).2 := by
    intro P K hP
    simp only [expect]
    split
    · exact hP
    · exact hR.report _ _ _ hP
  simp only [parseCompilationUnit]
  obtain ⟨b1, P1, e1, hP1⟩ := cons P .kw_MODULE hP
  rw [e1]
  cases b1 with
  | true => exact skip P1 hP1
  | false =>
    have h2 := expe P1 .identifier hP1
    rcases e2 : P1.expect .identifier with ⟨b2, P2⟩
    rw [e2] at h2
    simp only [e2]
    cases b2 with
    | true => exact skip P2 h2
    | false =>
      obtain ⟨P4, e4, hP4⟩ := adv _ (hR.module _ P2 (some (P2.Tok.Ptr, P2.Tok.Length)) h2)
      simp only [e4]
      obtain ⟨b5, P5, e5, hP5⟩ := cons P4 .semi hP4
      rw [e5]
      cases b5 with
      | true => exact skip P5 hP5
      | false =>
        obtain ⟨b6, P6, e6, hP6⟩ := parseImports_recovers hR (G := productions S fuel) fuel n hf
          (fun k hk P hP hm => parseImport_strict hR (show k + 1 ≤ fuel by omega) hP hm) P5 hP5
        simp only [e6]
        cases b6 with
        | true => exact skip P6 hP6
        | false =>
          obtain ⟨b7, P7, e7, hP7⟩ :=
            (parseBlock_returns hR n fuel hf P6 .nil .nil hP6 : Returns R n (parseBlock S _ _ _ _)).recovers
          have e7' : (productions S fuel).parseBlock P6 = some (b7, P7) := e7
          simp only [e7']
          cases b7 with
          | true => exact skip P7 hP7
          | false =>
            have h8 := expe P7 .identifier hP7
            rcases e8 : P7.expect .identifier with ⟨b8, P8⟩
            rw [e8] at h8
            simp only [e8]
            cases b8 with
            | true => exact skip P8 h8
            | false =>
              obtain ⟨P9, e9, hP9⟩ := adv P8 h8
              have e9' : ((productions S fuel).actOnModuleDeclaration P8).advance = some P9 := e9
              simp only [e9']
              obtain ⟨b10, P10, e10, hP10⟩ := cons P9 .period hP9
              rw [e10]
              cases b10 with
              | true => exact skip P10 hP10
              | false => exact ⟨false, P10, rfl, hP10⟩

end Parser

end tinylang

namespace tinylang

/-! ## The lexer as a token source -/

theorem Lexer.comment_mk (B : List Char) (p : Nat) (D : DiagnosticsEngine) :
    ∃ D', Lexer.comment ⟨B, p, D⟩ =
      ⟨B, (Lexer.commentLoop (B.drop (p + 2)) 1 (p + 2)).1, D'⟩ := by
  simp only [Lexer.comment]
  split
  · exact ⟨_, rfl⟩
  · exact ⟨_, rfl⟩

/-- The tokens and the cursor do not depend on what has been reported. -/
theorem Lexer.nextFuel_source : ∀ (fuel : Nat) (B : List Char) (p : Nat)
    (D D' : DiagnosticsEngine) (T : Token),
    (Lexer.nextFuel fuel ⟨B, p, D⟩ T).map (fun r => (r.1.CurBuf, r.1.CurPtr, r.2)) =
      (Lexer.nextFuel fuel ⟨B, p, D'⟩ T).map (fun r => (r.1.CurBuf, r.1.CurPtr, r.2)) := by
  intro fuel
  induction fuel with
  | zero => intro B p D D' T; rfl
  | succ f ih =>
    intro B p D D' T
    rw [Lexer.nextFuel, Lexer.nextFuel]
    have hc : ∀ (q : Nat) (D : DiagnosticsEngine) (k : Nat),
        Lexer.charAt ⟨B, q, D⟩ k = B.getD k (Char.ofNat 0) := fun _ _ _ => rfl
    simp only [hc]
    generalize p + Lexer.span (fun c => c != Char.ofNat 0 && charinfo.isWhitespace c)
      (List.drop p B) = q
    generalize B.getD q (Char.ofNat 0) = c
    generalize B.getD (q + 1) (Char.ofNat 0) = c1
    by_cases c0 : c = Char.ofNat 0
    · rw [if_pos c0, if_pos c0]
      rfl
    rw [if_neg c0, if_neg c0]
    by_cases c2 : charinfo.isIdentifierHead c = true
    · rw [if_pos c2, if_pos c2]
      rfl
    rw [if_neg c2, if_neg c2]
    by_cases c3 : charinfo.isDigit c = true
    · rw [if_pos c3, if_pos c3]
      simp only [Lexer.number, Lexer.formToken, hc]
      split_ifs <;> rfl
    rw [if_neg c3, if_neg c3]
    by_cases c4 : c = '"' ∨ c = '\''
    · rw [if_pos c4, if_pos c4]
      simp only [Lexer.string, Lexer.formToken, hc]
      split_ifs <;> rfl
    rw [if_neg c4, if_neg c4]
    by_cases p0 : c = '='
    · rw [if_pos p0, if_pos p0]
      rfl
    rw [if_neg p0, if_neg p0]
    by_cases p1 : c = '#'
    · rw [if_pos p1, if_pos p1]
      rfl
    rw [if_neg p1, if_neg p1]
    by_cases p2 : c = '+'
    · rw [if_pos p2, if_pos p2]
      rfl
    rw [if_neg p2, if_neg p2]
    by_cases p3 : c = '-'
    · rw [if_pos p3, if_pos p3]
      rfl
    rw [if_neg p3, if_neg p3]
    by_cases p4 : c = '*'
    · rw [if_pos p4, if_pos p4]
      rfl
    rw [if_neg p4, if_neg p4]
    by_cases p5 : c = '/'
    · rw [if_pos p5, if_pos p5]
      rfl
    rw [if_neg p5, if_neg p5]
    by_cases p6 : c = ','
    · rw [if_pos p6, if_pos p6]
      rfl
    rw [if_neg p6, if_neg p6]
    by_cases p7 : c = '.'
    · rw [if_pos p7, if_pos p7]
      rfl
    rw [if_neg p7, if_neg p7]
    by_cases p8 : c = ';'
    · rw [if_pos p8, if_pos p8]
      rfl
    rw [if_neg p8, if_neg p8]
    by_cases p9 : c = ')'
    · rw [if_pos p9, if_pos p9]
      rfl
    rw [if_neg p9, if_neg p9]
    by_cases q0 : c = '('
    · rw [if_pos q0, if_pos q0]
      by_cases r : c1 = '*'
      · rw [if_pos r, if_pos r]
        obtain ⟨D1, e1⟩ := Lexer.comment_mk B q D
        obtain ⟨D2, e2⟩ := Lexer.comment_mk B q D'
        rw [e1, e2]
        exact ih _ _ _ _ _
      · rw [if_neg r, if_neg r]
        rfl
    rw [if_neg q0, if_neg q0]
    by_cases q1 : c = ':'
    · rw [if_pos q1, if_pos q1]
      by_cases r : c1 = '='
      · rw [if_pos r, if_pos r]
        rfl
      · rw [if_neg r, if_neg r]
        rfl
    rw [if_neg q1, if_neg q1]
    by_cases q2 : c = '<'
    · rw [if_pos q2, if_pos q2]
      by_cases r : c1 = '='
      · rw [if_pos r, if_pos r]
        rfl
      · rw [if_neg r, if_neg r]
        rfl
    rw [if_neg q2, if_neg q2]
    by_cases q3 : c = '>'
    · rw [if_pos q3, if_pos q3]
      by_cases r : c1 = '='
      · rw [if_pos r, if_pos r]
        rfl
      · rw [if_neg r, if_neg r]
        rfl
    rw [if_neg q3, if_neg q3]
    rfl

end tinylang

namespace tinylang

namespace Parser

theorem advance_source {P Q : Parser} (h : P.source = Q.source) :
    P.advance.map source = Q.advance.map source := by
  obtain ⟨⟨B, p, D⟩, T, M⟩ := P
  obtain ⟨⟨B', p', D'⟩, T', M'⟩ := Q
  simp only [source, Prod.mk.injEq] at h
  obtain ⟨rfl, rfl, rfl⟩ := h
  have key := Lexer.nextFuel_source (B.length + 1) B p D D' T
  simp only [advance, Lexer.next]
  cases h1 : Lexer.nextFuel (B.length + 1) ⟨B, p, D⟩ T with
  | none =>
    rw [h1] at key
    cases h2 : Lexer.nextFuel (B.length + 1) ⟨B, p, D'⟩ T with
    | none => rfl
    | some r => rw [h2] at key; cases key
  | some r =>
    rw [h1] at key
    cases h2 : Lexer.nextFuel (B.length + 1) ⟨B, p, D'⟩ T with
    | none => rw [h2] at key; cases key
    | some r' =>
      rw [h2] at key
      simp only [Option.map_some', Option.some.injEq, Prod.mk.injEq] at key
      obtain ⟨k1, k2, k3⟩ := key
      simp [source, k1, k2, k3]

theorem advances_source : ∀ (k : Nat) {P Q : Parser}, P.source = Q.source →
    (P.advances k).map source = (Q.advances k).map source := by
  intro k
  induction k with
  | zero => intro P Q h; simp [advances, h]
  | succ k ih =>
    intro P Q h
    have ha := advance_source h
    simp only [advances]
    cases h1 : P.advance with
    | none =>
      rw [h1] at ha
      cases h2 : Q.advance with
      | none => rfl
      | some Q1 => rw [h2] at ha; cases ha
    | some P1 =>
      rw [h1] at ha
      cases h2 : Q.advance with
      | none => rw [h2] at ha; cases ha
      | some Q1 =>
        rw [h2] at ha
        exact ih (Option.some.inj ha)

theorem EndsWithin.of_source {n : Nat} {P Q : Parser} (h : EndsWithin n P)
    (hs : Q.source = P.source) : EndsWithin n Q := by
  intro k
  obtain ⟨P', e, hk⟩ := h k
  have := advances_source k hs
  rw [e] at this
  cases hq : Q.advances k with
  | none => rw [hq] at this; cases this
  | some Q' =>
    rw [hq] at this
    have hsrc : Q'.source = P'.source := Option.some.inj this
    refine ⟨Q', rfl, fun hn => ?_⟩
    have ht : Q'.Tok = P'.Tok := by
      simp only [source, Prod.mk.injEq] at hsrc
      exact hsrc.2.2
    rw [ht]
    exact hk hn

/-- The lexer is a token source in the sense of `TokenSource` on every buffer
on which it reaches the end of the input. -/
theorem tokenSource_endsWithin : TokenSource EndsWithin where
  advance := fun n P h => by
    obtain ⟨P1, e1, _⟩ := h 1
    simp only [advances] at e1
    cases ha : P.advance with
    | none => rw [ha] at e1; cases e1
    | some P' =>
      refine ⟨P', rfl, fun k => ?_⟩
      obtain ⟨P2, e2, hk⟩ := h (k + 1)
      simp only [advances, ha] at e2
      exact ⟨P2, e2, fun hn => hk (by omega)⟩
  eof := fun P h => by
    obtain ⟨P', e, hk⟩ := h 0
    cases e
    exact hk (Nat.le_refl 0)
  mono := fun n m P h hnm k => by
    obtain ⟨P', e, hk⟩ := h k
    exact ⟨P', e, fun hm => hk (Nat.le_trans hnm hm)⟩
  report := fun n P D h => h.of_source rfl
  module := fun n P M h => h.of_source rfl

theorem advances_add : ∀ (a b : Nat) (P : Parser),
    P.advances (a + b) = (P.advances a).bind (advances b) := by
  intro a
  induction a with
  | zero => intro b P; simp [advances]
  | succ a ih =>
    intro b P
    rw [Nat.add_right_comm]
    simp only [advances]
    cases P.advance with
    | none => rfl
    | some P' => exact ih b P'

/-- The lexer ends within `n` tokens when `n` calls of `advance` lead to a
parser at the end of the input: there, `advance` changes nothing. -/
theorem EndsWithin.of_advances {n : Nat} {P Q : Parser} (h : P.advances n = some Q)
    (hfix : Q.advance = some Q) (heof : Q.Tok.Kind = .eof) : EndsWithin n P := by
  have hstay : ∀ k, Q.advances k = some Q := by
    intro k
    induction k with
    | zero => rfl
    | succ k ih => simp only [advances, hfix, ih]
  intro k
  by_cases hk : n ≤ k
  · obtain ⟨j, rfl⟩ : ∃ j, k = n + j := ⟨k - n, by omega⟩
    refine ⟨Q, ?_, fun _ => heof⟩
    rw [advances_add, h]
    exact hstay j
  · obtain ⟨j, rfl⟩ : ∃ j, n = k + j := ⟨n - k, by omega⟩
    rw [advances_add] at h
    cases hq : P.advances k with
    | none => rw [hq] at h; cases h
    | some P' => exact ⟨P', rfl, fun hn => absurd hn hk⟩

end Parser

/-- C35: on a token source that hands out the tokens of a finite sequence,
one per call, and the end of the input on every call after the last,
`Parser::parse` terminates.  With at most `n` tokens left, `n + 1` rounds of
each loop and `n + 1` levels of nesting are enough (`fuel` bounds both in the
model): every round of a loop of the grammar or of a recovery loop, and every
entry of `parseExpression`, `parseFactor`, `parseStatementSequence` and
`parseBlock` from within themselves, comes after a token has been taken.  So
`parseCompilationUnit` returns, and with it `parse`; so do the recursive
productions and the recovery loops, started anywhere in the input. -/
theorem parse_terminates_on_finite_token_sequence (R : Nat → Parser → Prop)
    (hR : TokenSource R) (S : Sema) (n fuel : Nat) (hf : n + 1 ≤ fuel) (P : Parser)
    (hP : R n P) :
    Parser.Recovers R n (Parser.parseCompilationUnit (Parser.productions S fuel) fuel P) ∧
    (∀ Buffer, Parser.create Buffer = some P →
      ∃ r, Parser.parse (Parser.productions S fuel) fuel Buffer = some r) ∧
    (∀ Decls Stmts, Parser.Returns R n (Parser.parseBlock S fuel P Decls Stmts)) ∧
    (∀ Stmts, Parser.Returns R n (Parser.parseStatementSequence S fuel P Stmts)) ∧
    (∀ E, Parser.Returns R n (Parser.parseExpression S fuel P E)) ∧
    (∀ E, Parser.Returns R n
      (Parser.parseFactor S (Parser.parseExpression S fuel) fuel fuel P E)) ∧
    (∀ Sync, Parser.Recovers R n (Parser._errorhandler Sync fuel P)) ∧
    Parser.Recovers R n (Parser.skipToEof fuel P) := by
  have h1 := Parser.parseCompilationUnit_recovers hR S hf hP
  refine ⟨h1, ?_, ?_, ?_, ?_, ?_, ?_, ?_⟩
  · intro Buffer hB
    obtain ⟨b, P', e, _⟩ := h1
    exact ⟨(P'.ModDecl, P'.Lex.Diags), by simp only [Parser.parse, hB, e]⟩
  · exact fun Decls Stmts => Parser.parseBlock_returns hR n fuel hf P Decls Stmts hP
  · exact fun Stmts => Parser.parseStatementSequence_returns hR n fuel hf P Stmts hP
  · exact fun E => Parser.parseExpression_returns hR n fuel hf P E hP
  · exact fun E => Parser.parseFactor_returns hR fuel n hf hf
      (fun k hk P E hP => Parser.parseExpression_returns hR k fuel (by omega) P E hP) P E hP
  · exact fun Sync => Parser.handler_errorhandler hR Sync fuel n hf P hP
  · exact Parser.skipToEof_recovers hR fuel n hf P hP

set_option maxRecDepth 100000 in
/-- Witness for C35: the lexer on the text of a module with a procedure, a
loop and a call, 46 tokens after `MODULE`.  The lexer is a token source as
required, and `parse` returns with the bound 47: the module declaration, and
no error. -/
theorem parse_terminates_on_finite_token_sequence_witness :
    TokenSource Parser.EndsWithin ∧
    Parser.create Example.moduleText =
      some (Parser.mk (Lexer.mk Example.moduleText 6 (DiagnosticsEngine.mk 0 []))
        (Token.mk 0 6 .kw_MODULE) none) ∧
    Parser.EndsWithin 46 (Parser.mk (Lexer.mk Example.moduleText 6 (DiagnosticsEngine.mk 0 []))
        (Token.mk 0 6 .kw_MODULE) none) ∧
    (∃ r, Parser.parse (Parser.productions Example.sema 47) 47 Example.moduleText = some r) ∧
    Parser.parse (Parser.productions Example.sema 47) 47 Example.moduleText =
      some (some (7, 1), DiagnosticsEngine.mk 0 []) := by
  have hc : Parser.create Example.moduleText =
      some (Parser.mk (Lexer.mk Example.moduleText 6 (DiagnosticsEngine.mk 0 []))
        (Token.mk 0 6 .kw_MODULE) none) := by decide!
  have he : Parser.EndsWithin 46
      (Parser.mk (Lexer.mk Example.moduleText 6 (DiagnosticsEngine.mk 0 []))
        (Token.mk 0 6 .kw_MODULE) none) :=
    Parser.EndsWithin.of_advances
      (Q := Parser.mk (Lexer.mk Example.moduleText 138 (DiagnosticsEngine.mk 0 []))
        (Token.mk 137 1 .eof) none)
      (by decide!) (by decide!) rfl
  exact ⟨Parser.tokenSource_endsWithin, hc, he,
    (parse_terminates_on_finite_token_sequence Parser.EndsWithin Parser.tokenSource_endsWithin
      Example.sema 46 47 (by decide) _ he).2.1 _ hc,
    by decide!⟩

end tinylang

namespace tinylang

/-! ## Operations that never fail with the assertion of `sealBlock` -/

theorem NoSealAssert.of_pure {α : Type} (a : α) : NoSealAssert (pure a : M α) :=
  fun _ h => by cases h

theorem NoSealAssert.of_throw {α : Type} (e : Err) (he : e ≠ Err.assertAlreadySealed) :
    NoSealAssert (M.throw e : M α) :=
  fun _ h => he (Option.some.inj h)

theorem NoSealAssert.of_get : NoSealAssert M.get :=
  fun _ h => by cases h

theorem NoSealAssert.of_modify (f : CGState → CGState) : NoSealAssert (M.modify f) :=
  fun _ h => by cases h

theorem NoSealAssert.of_ok {α : Type} {m : M α} (h : ∀ s, ∃ a s', m s = .ok a s') :
    NoSealAssert m := by
  intro s
  obtain ⟨a, s', e⟩ := h s
  rw [e]
  intro h
  cases h

theorem NoSealAssert.of_bind {α β : Type} {x : M α} {f : α → M β} (hx : NoSealAssert x)
    (hf : ∀ a, NoSealAssert (f a)) : NoSealAssert (x >>= f) := by
  intro s
  have h1 := hx s
  show (M.bind x f s).error? ≠ _
  cases h : x s with
  | ok a s1 =>
    rw [M.bind_ok h]
    exact hf a s1
  | fail e s1 =>
    rw [M.bind_fail h]
    rw [h] at h1
    exact h1

theorem NoSealAssert.of_ite {α : Type} {c : Prop} [Decidable c] {x y : M α}
    (hx : NoSealAssert x) (hy : NoSealAssert y) : NoSealAssert (if c then x else y) := by
  split
  · exact hx
  · exact hy

theorem noSealAssert_createInst (BB : BlockId) (atFront : Bool) (op : Opcode) (ty : Ty)
    (operands : List Value) : NoSealAssert (createInst BB atFront op ty operands []) :=
  NoSealAssert.of_ok fun _ => ⟨_, _, rfl⟩

theorem noSealAssert_addIncoming (Phi : InstId) (V : Value) (BB : BlockId) :
    NoSealAssert (addIncoming Phi V BB) := by
  intro s
  unfold addIncoming
  split
  · exact fun h => by cases h
  · exact fun h => by cases h

theorem noSealAssert_writeLocalVariable (BB : BlockId) (D : Decl) (Val : Option Value) :
    NoSealAssert (writeLocalVariable BB D Val) := by
  intro s
  unfold writeLocalVariable
  split
  · exact fun h => by cases h
  · split
    · exact fun h => by cases h
    · exact fun h => by cases h

theorem noSealAssert_forEachPhi (f : InstId → M Value) (hf : ∀ P, NoSealAssert (f P)) :
    ∀ cs : List InstId, NoSealAssert (forEachPhi f cs) := by
  intro cs
  induction cs with
  | nil => exact NoSealAssert.of_pure _
  | cons P Ps ih =>
    unfold forEachPhi
    exact NoSealAssert.of_bind (hf P) (fun _ => ih)

theorem noSealAssert_optimizePhi (fuel : Nat) : ∀ Phi : InstId,
    NoSealAssert (optimizePhi fuel Phi) := by
  induction fuel with
  | zero => intro Phi; exact NoSealAssert.of_throw _ (by decide)
  | succ fuel ih =>
    intro Phi s
    cases hx : s.insts Phi with
    | none => rw [optimizePhi_succ_erased fuel s Phi hx]; exact fun h => by cases h
    | some x =>
      cases hs : sameIncoming Phi x.operands none with
      | none => rw [optimizePhi_succ_keep fuel s Phi x hx hs]; exact fun h => by cases h
      | some Same? =>
        rw [optimizePhi_succ_remove fuel s Phi x Same? hx hs]
        have h2 : NoSealAssert
            (forEachPhi (optimizePhi fuel) (candidatePhis s Phi x.uses) >>=
              fun _ => (pure (Same?.getD (.undef x.ty)) : M Value)) :=
          NoSealAssert.of_bind (noSealAssert_forEachPhi _ ih _) (fun _ => NoSealAssert.of_pure _)
        exact h2 _

theorem noSealAssert_mapType (D : Decl) : NoSealAssert (mapType D) := by
  unfold mapType
  repeat' first
    | exact NoSealAssert.of_throw _ (by decide)
    | exact NoSealAssert.of_pure _
    | split

theorem noSealAssert_addEmptyPhi (BB : BlockId) (D : Decl) : NoSealAssert (addEmptyPhi BB D) := by
  unfold addEmptyPhi
  exact NoSealAssert.of_bind (noSealAssert_mapType D) (fun _ => noSealAssert_createInst _ _ _ _ _)

theorem noSealAssert_addPhiOperandsLoop (rd : BlockId → Decl → M Value)
    (hrd : ∀ BB D, NoSealAssert (rd BB D)) (D : Decl) (Phi : InstId) :
    ∀ Is : List BlockId, NoSealAssert (addPhiOperandsLoop rd D Phi Is) := by
  intro Is
  induction Is with
  | nil => exact NoSealAssert.of_pure _
  | cons I Is ih =>
    unfold addPhiOperandsLoop
    exact NoSealAssert.of_bind (hrd I D) (fun _ =>
      NoSealAssert.of_bind (noSealAssert_addIncoming _ _ _) (fun _ => ih))

theorem noSealAssert_addPhiOperandsWith (rd : BlockId → Decl → M Value)
    (hrd : ∀ BB D, NoSealAssert (rd BB D)) (BB : BlockId) (D : Decl) (Phi : InstId) :
    NoSealAssert (addPhiOperandsWith rd BB D Phi) := by
  unfold addPhiOperandsWith
  repeat' first
    | exact NoSealAssert.of_get
    | exact noSealAssert_addPhiOperandsLoop rd hrd _ _ _
    | exact noSealAssert_optimizePhi _ _
    | apply NoSealAssert.of_bind
    | intro _

theorem noSealAssert_readLocalVariableRecursiveWith (rd : BlockId → Decl → M Value)
    (hrd : ∀ BB D, NoSealAssert (rd BB D)) (BB : BlockId) (D : Decl) :
    NoSealAssert (readLocalVariableRecursiveWith rd BB D) := by
  unfold readLocalVariableRecursiveWith
  repeat' first
    | exact NoSealAssert.of_throw _ (by decide)
    | exact NoSealAssert.of_pure _
    | exact NoSealAssert.of_get
    | exact hrd _ _
    | exact noSealAssert_addEmptyPhi _ _
    | exact noSealAssert_writeLocalVariable _ _ _
    | exact noSealAssert_addPhiOperandsWith rd hrd _ _ _
    | exact NoSealAssert.of_modify _
    | apply NoSealAssert.of_bind
    | split
    | intro _

theorem noSealAssert_readLocalVariable (fuel : Nat) : ∀ (BB : BlockId) (D : Decl),
    NoSealAssert (readLocalVariable fuel BB D) := by
  induction fuel with
  | zero => intro BB D; exact NoSealAssert.of_throw _ (by decide)
  | succ fuel ih =>
    intro BB D
    unfold readLocalVariable
    repeat' first
      | exact NoSealAssert.of_throw _ (by decide)
      | exact NoSealAssert.of_pure _
      | exact NoSealAssert.of_get
      | exact noSealAssert_readLocalVariableRecursiveWith _ ih _ _
      | apply NoSealAssert.of_bind
      | split
      | intro _

theorem noSealAssert_addPhiOperands (fuel : Nat) (BB : BlockId) (D : Decl) (Phi : InstId) :
    NoSealAssert (addPhiOperands fuel BB D Phi) :=
  noSealAssert_addPhiOperandsWith _ (noSealAssert_readLocalVariable fuel) _ _ _

theorem noSealAssert_sealBlockLoop (fuel : Nat) (BB : BlockId) :
    ∀ l : List (InstId × Decl), NoSealAssert (sealBlockLoop fuel BB l) := by
  intro l
  induction l with
  | nil => exact NoSealAssert.of_pure _
  | cons pd rest ih =>
    unfold sealBlockLoop
    exact NoSealAssert.of_bind (noSealAssert_addPhiOperands _ _ _ _) (fun _ => ih)

theorem noSealAssert_Insert (op : Opcode) (ty : Ty) (operands : List Value) :
    NoSealAssert (Insert op ty operands []) := by
  unfold Insert
  repeat' first
    | exact NoSealAssert.of_throw _ (by decide)
    | exact NoSealAssert.of_pure _
    | exact NoSealAssert.of_get
    | assumption
    | exact noSealAssert_mapType _
    | exact noSealAssert_writeLocalVariable _ _ _
    | exact noSealAssert_readLocalVariable _ _ _
    | exact noSealAssert_createInst _ _ _ _ _
    | apply NoSealAssert.of_bind
    | split
    | intro _

theorem noSealAssert_CreateBinOp (E : Env) (op : Opcode) (L R : Value) :
    NoSealAssert (CreateBinOp E op L R) := by
  unfold CreateBinOp
  repeat' first
    | exact NoSealAssert.of_pure _
    | exact NoSealAssert.of_get
    | exact noSealAssert_Insert _ _ _
    | apply NoSealAssert.of_bind
    | split
    | intro _

theorem noSealAssert_CreateLoad (Ty : Ty) (Ptr : Value) : NoSealAssert (CreateLoad Ty Ptr) :=
  noSealAssert_Insert _ _ _

theorem noSealAssert_CreateStore (Val Ptr : Value) : NoSealAssert (CreateStore Val Ptr) :=
  noSealAssert_Insert _ _ _

theorem noSealAssert_CreateInBoundsGEP (E : Env) (Ptr : Value) (IdxList : List Value) :
    NoSealAssert (CreateInBoundsGEP E Ptr IdxList) := by
  unfold CreateInBoundsGEP
  repeat' first
    | exact NoSealAssert.of_pure _
    | exact noSealAssert_Insert _ _ _
    | split

theorem noSealAssert_readVariable (fuel : Nat) (BB : BlockId) (D : Decl) (LoadVal : Bool) :
    NoSealAssert (readVariable fuel BB D LoadVal) := by
  unfold readVariable
  repeat' first
    | exact NoSealAssert.of_throw _ (by decide)
    | exact NoSealAssert.of_pure _
    | exact NoSealAssert.of_get
    | exact noSealAssert_mapType _
    | exact noSealAssert_readLocalVariable _ _ _
    | exact noSealAssert_CreateLoad _ _
    | apply NoSealAssert.of_bind
    | split
    | intro _

theorem noSealAssert_writeVariable (BB : BlockId) (D : Decl) (Val : Value) :
    NoSealAssert (writeVariable BB D Val) := by
  unfold writeVariable
  repeat' first
    | exact NoSealAssert.of_throw _ (by decide)
    | exact NoSealAssert.of_pure _
    | exact NoSealAssert.of_get
    | exact noSealAssert_writeLocalVariable _ _ _
    | exact noSealAssert_CreateStore _ _
    | apply NoSealAssert.of_bind
    | split
    | intro _

theorem noSealAssert_takeIndexSelectors (ee : Expr → M Value)
    (hee : ∀ e, NoSealAssert (ee e)) :
    ∀ l : List Selector, NoSealAssert (takeIndexSelectors ee l) := by
  intro l
  induction l with
  | nil => unfold takeIndexSelectors; exact NoSealAssert.of_pure _
  | cons sel rest ih =>
    cases sel with
    | IndexSelector Index =>
      unfold takeIndexSelectors
      exact NoSealAssert.of_bind (hee _) (fun _ => NoSealAssert.of_bind ih (fun _ => NoSealAssert.of_pure _))
    | FieldSelector Index => unfold takeIndexSelectors; exact NoSealAssert.of_pure _
    | DereferenceSelector => unfold takeIndexSelectors; exact NoSealAssert.of_pure _

theorem noSealAssert_emitSelectors (E : Env) (ee : Expr → M Value)
    (hee : ∀ e, NoSealAssert (ee e)) :
    ∀ (n : Nat) (Val : Value) (l : List Selector), NoSealAssert (emitSelectors E ee n Val l) := by
  intro n
  induction n with
  | zero =>
    intro Val l
    cases l with
    | nil => unfold emitSelectors; exact NoSealAssert.of_pure _
    | cons sel rest => unfold emitSelectors; exact NoSealAssert.of_throw _ (by decide)
  | succ n ih =>
    intro Val l
    cases l with
    | nil => unfold emitSelectors; exact NoSealAssert.of_pure _
    | cons sel rest =>
      cases sel <;> unfold emitSelectors <;>
      repeat' first
        | exact NoSealAssert.of_pure _
        | exact NoSealAssert.of_get
        | exact ih _ _
        | exact noSealAssert_takeIndexSelectors ee hee _
        | exact noSealAssert_CreateInBoundsGEP _ _ _
        | exact noSealAssert_CreateLoad _ _
        | apply NoSealAssert.of_bind
        | split
        | intro _

theorem noSealAssert_emitInfixOp (E : Env) (Op : OpKind) (Left Right : Value) :
    NoSealAssert (emitInfixOp E Op Left Right) := by
  unfold emitInfixOp
  repeat' first
    | exact NoSealAssert.of_throw _ (by decide)
    | exact noSealAssert_CreateBinOp _ _ _ _
    | split

theorem noSealAssert_emitPrefixOp (E : Env) (Op : OpKind) (Result : Value) :
    NoSealAssert (emitPrefixOp E Op Result) := by
  unfold emitPrefixOp
  repeat' first
    | exact NoSealAssert.of_throw _ (by decide)
    | exact NoSealAssert.of_pure _
    | exact NoSealAssert.of_get
    | exact noSealAssert_CreateBinOp _ _ _ _
    | apply NoSealAssert.of_bind
    | split
    | intro _

theorem noSealAssert_emitExpr (E : Env) (fuel : Nat) : ∀ e : Expr,
    NoSealAssert (emitExpr E fuel e) := by
  induction fuel with
  | zero => intro e; exact NoSealAssert.of_throw _ (by decide)
  | succ fuel ih =>
    intro e
    unfold emitExpr
    repeat' first
      | exact NoSealAssert.of_throw _ (by decide)
      | exact NoSealAssert.of_pure _
      | exact NoSealAssert.of_get
      | exact ih _
      | exact noSealAssert_emitInfixOp _ _ _ _
      | exact noSealAssert_emitPrefixOp _ _ _
      | exact noSealAssert_readVariable _ _ _ _
      | exact noSealAssert_emitSelectors E _ ih _ _ _
      | apply NoSealAssert.of_bind
      | split
      | intro _

theorem noSealAssert_assignmentIndexes (ee : Expr → M Value)
    (hee : ∀ e, NoSealAssert (ee e)) :
    ∀ l : List Selector, NoSealAssert (assignmentIndexes ee l) := by
  intro l
  induction l with
  | nil => unfold assignmentIndexes; exact NoSealAssert.of_pure _
  | cons sel rest ih =>
    cases sel <;> unfold assignmentIndexes <;>
    repeat' first
      | exact NoSealAssert.of_throw _ (by decide)
      | exact NoSealAssert.of_pure _
      | exact hee _
      | exact ih
      | apply NoSealAssert.of_bind
      | intro _

theorem noSealAssert_emitAssignmentStatement (E : Env) (fuel : Nat) (D : Decl)
    (Selectors : List Selector) (X : Expr) :
    NoSealAssert (emitAssignmentStatement E fuel D Selectors X) := by
  unfold emitAssignmentStatement
  repeat' first
    | exact NoSealAssert.of_throw _ (by decide)
    | exact NoSealAssert.of_pure _
    | exact NoSealAssert.of_get
    | exact noSealAssert_emitExpr _ _ _
    | exact noSealAssert_writeVariable _ _ _
    | exact noSealAssert_readVariable _ _ _ _
    | exact noSealAssert_assignmentIndexes _ (noSealAssert_emitExpr _ _) _
    | exact noSealAssert_CreateInBoundsGEP _ _ _
    | exact noSealAssert_CreateStore _ _
    | apply NoSealAssert.of_bind
    | split
    | intro _

theorem noSealAssert_emitReturnStatement (E : Env) (fuel : Nat) (RetVal : Option Expr) :
    NoSealAssert (emitReturnStatement E fuel RetVal) := by
  unfold emitReturnStatement
  repeat' first
    | exact NoSealAssert.of_pure _
    | exact noSealAssert_emitExpr _ _ _
    | exact noSealAssert_Insert _ _ _
    | apply NoSealAssert.of_bind
    | split
    | intro _

theorem noSealAssert_createFunctionType : ∀ FormalParams : List Decl,
    NoSealAssert (createFunctionType FormalParams) := by
  intro FormalParams
  induction FormalParams with
  | nil => exact NoSealAssert.of_pure _
  | cons FP rest ih =>
    unfold createFunctionType
    exact NoSealAssert.of_bind (noSealAssert_mapType FP) fun _ =>
      NoSealAssert.of_bind ih fun _ => NoSealAssert.of_pure _

theorem noSealAssert_runFormalParams : ∀ (FormalParams : List Decl) (Idx : Nat),
    NoSealAssert (runFormalParams FormalParams Idx) := by
  intro FormalParams
  induction FormalParams with
  | nil => intro Idx; exact NoSealAssert.of_pure _
  | cons FP rest ih =>
    intro Idx
    unfold runFormalParams
    exact NoSealAssert.of_bind (NoSealAssert.of_modify _) fun _ =>
      NoSealAssert.of_bind NoSealAssert.of_get fun _ =>
        NoSealAssert.of_bind (noSealAssert_writeLocalVariable _ _ _) fun _ => ih _

theorem noSealAssert_runDecls : ∀ Decls : List Decl, NoSealAssert (runDecls Decls) := by
  intro Decls
  induction Decls with
  | nil => exact NoSealAssert.of_pure _
  | cons D rest ih =>
    unfold runDecls
    show NoSealAssert (match D.kind with
      | DeclKind.Var _ => _
      | _ => _)
    split
    · refine NoSealAssert.of_bind (noSealAssert_mapType D) fun _ => ?_
      split
      · exact NoSealAssert.of_bind (noSealAssert_Insert _ _ _) fun _ =>
          NoSealAssert.of_bind NoSealAssert.of_get fun _ =>
            NoSealAssert.of_bind (noSealAssert_writeLocalVariable _ _ _) fun _ => ih
      · exact NoSealAssert.of_bind (NoSealAssert.of_pure _) fun _ => ih
    · exact NoSealAssert.of_bind (NoSealAssert.of_pure _) fun _ => ih

end tinylang

namespace tinylang

/-! ## Lowering of statements: the assertion of `sealBlock` -/

theorem OkOrOther.bind_other {α β : Type} {x : M α} {f : α → M β} {s : CGState}
    {Q : α → CGState → Prop} {R : β → CGState → Prop} (hx : OkOrOther Q (x s))
    (hf : ∀ a s', Q a s' → OkOrOther R (f a s')) : OkOrOther R (M.bind x f s) := by
  unfold M.bind
  cases h : x s with
  | ok a s' =>
    rw [h] at hx
    exact hf a s' hx
  | fail e s' =>
    rw [h] at hx
    exact hx

theorem OkOrOther.mono_other {α : Type} {Q R : α → CGState → Prop} {r : Res α}
    (h : OkOrOther Q r) (hQ : ∀ a s', Q a s' → R a s') : OkOrOther R r := by
  cases r with
  | ok a s' => exact hQ a s' h
  | fail e s' => exact h

theorem OkOrOther.error_ne {α : Type} {Q : α → CGState → Prop} {r : Res α}
    (h : OkOrOther Q r) : r.error? ≠ some Err.assertAlreadySealed := by
  cases r with
  | ok a s' => exact fun e => by cases e
  | fail e s' => exact fun e' => h (Option.some.inj e')

theorem OkOrOther.bind_step {α β : Type} {x : M α} {f : α → M β} {s : CGState}
    {Q : α → CGState → Prop} {R : β → CGState → Prop} (hx : OkOrOther Q (x s))
    (hf : ∀ a s', Q a s' → OkOrOther R (f a s')) : OkOrOther R ((x >>= f) s) :=
  OkOrOther.bind_other hx hf

theorem OkOrOther.get_step {β : Type} {f : CGState → M β} {s : CGState}
    {R : β → CGState → Prop} (hf : OkOrOther R (f s s)) : OkOrOther R ((M.get >>= f) s) :=
  hf

theorem OkOrOther.pure_step {α β : Type} {a : α} {f : α → M β} {s : CGState}
    {R : β → CGState → Prop} (hf : OkOrOther R (f a s)) :
    OkOrOther R ((pure a >>= f) s) :=
  hf

theorem KeepsControl.okOrOther {I : CGState → Prop} {α : Type} {m : M α}
    (h : KeepsControl m) (hn : NoSealAssert m) (hm : Preserves I m) {s0 t : CGState}
    {pend : List BlockId} (hL : Lowering I s0 pend t) :
    OkOrOther (fun _ t' => Lowering I s0 pend t' ∧ t'.Curr = t.Curr) (m t) := by
  have hk := h t
  have hn' := hn t
  cases hmt : m t with
  | ok a t' =>
    rw [hmt] at hk
    exact ⟨hL.frame hk.1 hk.2.1 (hm t hL.inv a t' hmt), hk.2.2.1⟩
  | fail e t' =>
    rw [hmt] at hn'
    exact fun e' => hn' (congrArg some e')

theorem CreateBr_okOrOther {E : Env} {I : CGState → Prop} (K : StepsKeep E I)
    {s0 t : CGState} {pend : List BlockId} (hL : Lowering I s0 pend t) {Dest : BlockId}
    (hd : Dest ∈ pend) :
    OkOrOther (fun _ t' => Lowering I s0 pend t' ∧ t'.Curr = t.Curr) (CreateBr Dest t) := by
  have h := CreateBr_okOrSafe K hL hd
  obtain ⟨t', e, _⟩ := CreateBr_control Dest t
  rw [e] at h ⊢
  exact h

theorem CreateCondBr_okOrOther {E : Env} {I : CGState → Prop} (K : StepsKeep E I)
    {s0 t : CGState} {pend : List BlockId} (hL : Lowering I s0 pend t) (Cond : Value)
    {True False : BlockId} (hT : True ∈ pend) (hF : False ∈ pend) :
    OkOrOther (fun _ t' => Lowering I s0 pend t' ∧ t'.Curr = t.Curr)
      (CreateCondBr Cond True False t) := by
  have h := CreateCondBr_okOrSafe K hL Cond hT hF
  obtain ⟨t', e, _⟩ := CreateCondBr_control Cond True False t
  rw [e] at h ⊢
  exact h

theorem sealBlock_unsealed (E : Env) (fuel : Nat) (BB : BlockId) (s : CGState)
    (h : (s.CurrentDef BB).Sealed = false) :
    (sealBlock E fuel BB s).error? ≠ some Err.assertAlreadySealed := by
  unfold sealBlock
  simp only [M.bind_apply, M.bind_get]
  simp only [h, if_false, Bool.false_eq_true]
  simp only [M.bind_apply, M.bind_pure_left, M.bind_modify]
  have hk := noSealAssert_sealBlockLoop fuel BB (E.order (s.CurrentDef BB).IncompletePhis)
    { s with trace := s.trace ++ [Event.seal BB] }
  cases hl : sealBlockLoop fuel BB (E.order (s.CurrentDef BB).IncompletePhis)
      { s with trace := s.trace ++ [Event.seal BB] } with
  | ok a s1 =>
    rw [M.bind_ok hl]
    simp only [M.modify_apply]
    exact fun e => by cases e
  | fail e s1 =>
    rw [hl] at hk
    rw [M.bind_fail hl]
    exact hk

theorem sealBlock_okOrOther {I : CGState → Prop} (E : Env) (K : StepsKeep E I)
    (F : UnsealedUnflagged I) (fuel : Nat)
    {s0 t : CGState} {pend : List BlockId} (pend' : List BlockId)
    (hL : Lowering I s0 pend t) {X : BlockId} (hX : X ∈ pend)
    (hX' : X = s0.Curr ∨ s0.numBlocks ≤ X) (hp : ∀ p, p ∈ pend' ↔ p ∈ pend ∧ p ≠ X) :
    OkOrOther (fun _ t' => Lowering I s0 pend' t' ∧ t'.Curr = t.Curr)
      (sealBlock E fuel X t) := by
  have h := sealBlock_okOrSafe E K fuel pend' hL hX hX' hp
  have hn := sealBlock_unsealed E fuel X t (F t hL.inv X (hL.unsealed X hX).1)
  cases hm : sealBlock E fuel X t with
  | ok a t' =>
    rw [hm] at h
    exact h
  | fail e t' =>
    rw [hm] at hn
    exact fun e' => hn (congrArg some e')

theorem LowersSealing.okOrOther_step {I : CGState → Prop} {m : M Unit}
    (hm : LowersSealing I m) {s0 t : CGState} {pend : List BlockId} (pend' : List BlockId)
    (hL : Lowering I s0 pend t) (hc : t.Curr ∈ pend)
    (hc' : t.Curr = s0.Curr ∨ s0.numBlocks ≤ t.Curr)
    (hp : ∀ p, p ∈ pend' ↔ p ∈ pend ∧ p ≠ t.Curr) :
    OkOrOther (fun _ t' => Lowering I s0 (t'.Curr :: pend') t' ∧
      (t'.Curr = s0.Curr ∨ s0.numBlocks ≤ t'.Curr) ∧ ∀ p ∈ pend', p ≠ t'.Curr) (m t) :=
  (hm t (hL.controlInv hc) hL.inv).mono_other fun _ _ hs => hL.step hs.1 hs.2 hc' hp

theorem LowersSealing.of_noSealAssert {I : CGState → Prop} {α : Type} {m : M α}
    (h : KeepsControl m) (hn : NoSealAssert m) (hm : Preserves I m) : LowersSealing I m := by
  intro s hs hI
  exact (h.okOrOther hn hm (Lowering.start hs hI)).mono_other fun _ t' ht =>
    ht.1.finish (by intro p; rw [ht.2]; exact List.mem_singleton) (Or.inl ht.2)

theorem LowersSealing.forEachStatement {I : CGState → Prop} {f : Stmt → M Unit}
    (hf : ∀ S, LowersSealing I (f S)) :
    ∀ Stmts : List Stmt, LowersSealing I (forEachStmt f Stmts) := by
  intro Stmts
  induction Stmts with
  | nil =>
    intro s hs hI
    exact ⟨ControlStep.stay hs, hI⟩
  | cons S Ss ih =>
    intro s hs hI
    show OkOrOther _ (M.bind (f S) (fun _ => tinylang.forEachStmt f Ss) s)
    refine OkOrOther.bind_other (hf S s hs hI) ?_
    intro _ s1 h1
    exact (ih s1 h1.1.inv h1.2).mono_other fun _ s2 h2 => ⟨h1.1.followedBy h2.1, h2.2⟩

theorem createBasicBlock_okOrOther {E : Env} {I : CGState → Prop} (K : StepsKeep E I)
    {s0 t : CGState} {pend : List BlockId} (hL : Lowering I s0 pend t) :
    OkOrOther (fun b t' => Lowering I s0 (b :: pend) t' ∧ t'.Curr = t.Curr ∧
      s0.numBlocks ≤ b ∧ ∀ p ∈ pend, p ≠ b) (createBasicBlock t) :=
  createBasicBlock_okOrSafe K hL

theorem setCurr_okOrOther {E : Env} {I : CGState → Prop} (K : StepsKeep E I)
    {s0 t : CGState} {pend : List BlockId} (hL : Lowering I s0 pend t) (BB : BlockId) :
    OkOrOther (fun _ t' => Lowering I s0 pend t' ∧ t'.Curr = BB) (setCurr BB t) :=
  setCurr_okOrSafe K hL BB

theorem KeepsControl.okOrOther_fresh {I : CGState → Prop} {α : Type} {m : M α}
    (h : KeepsControl m) (hn : NoSealAssert m) (hm : Preserves I m) {t : CGState}
    (ht : t.trace = []) (hI : I t) :
    OkOrOther (fun _ t' => t'.trace = [] ∧ I t' ∧ t'.numBlocks = t.numBlocks) (m t) := by
  have hk := h t
  have hn' := hn t
  cases hmt : m t with
  | ok a t' =>
    rw [hmt] at hk
    exact ⟨hk.1.trans ht, hm t hI a t' hmt, hk.2.1⟩
  | fail e t' =>
    rw [hmt] at hn'
    exact fun e' => hn' (congrArg some e')


theorem lowersSealing_emitWhileStatement (E : Env) {I : CGState → Prop}
    (K : StepsKeep E I) (F : UnsealedUnflagged I) (fuel : Nat) {emit' : List Stmt → M Unit}
    (hemit : ∀ Stmts, LowersSealing I (emit' Stmts)) (Cond : Expr) (WhileStmts : List Stmt) :
    LowersSealing I (emitWhileStatement E fuel emit' Cond WhileStmts) := by
  intro s0 h0 hI0
  unfold emitWhileStatement
  have hL0 : Lowering I s0 [s0.Curr] s0 := Lowering.start h0 hI0
  refine OkOrOther.bind_step (createBasicBlock_okOrOther K hL0) ?_
  intro Body t1 ⟨hL1, hc1, hB, hB'⟩
  refine OkOrOther.bind_step (createBasicBlock_okOrOther K hL1) ?_
  intro After t2 ⟨hL2, hc2, hA, hA'⟩
  refine OkOrOther.get_step ?_
  have hcur : t2.Curr = s0.Curr := hc2.trans hc1
  have h1 : s0.Curr ≠ Body := hB' _ (by simp)
  have h2 : s0.Curr ≠ After := hA' _ (by simp)
  have h3 : Body ≠ After := hA' _ (by simp)
  split
  case' isTrue =>
    refine OkOrOther.bind_step
      (Q := fun CondBB t' => Lowering I s0 [CondBB, After, Body] t' ∧ t'.Curr = CondBB ∧
        (CondBB = s0.Curr ∨ s0.numBlocks ≤ CondBB) ∧ CondBB ≠ After ∧ CondBB ≠ Body)
      (by
        refine ⟨hL2.same ?_, rfl, Or.inl hcur, ?_, ?_⟩
        · intro p
          rw [hcur]
          simp only [List.mem_cons, List.mem_singleton, List.not_mem_nil, or_false]
          tauto
        · rw [hcur]
          exact h2
        · rw [hcur]
          exact h1) ?_
  case' isFalse =>
    refine OkOrOther.bind_step (createBasicBlock_okOrOther K hL2) ?_
    intro BB t3 ⟨hL3, hc3, hC, hC'⟩
    have h4 : After ≠ BB := hC' _ (by simp)
    have h5 : Body ≠ BB := hC' _ (by simp)
    have h6 : s0.Curr ≠ BB := hC' _ (by simp)
    refine OkOrOther.bind_step (CreateBr_okOrOther K hL3 (List.mem_cons_self _ _)) ?_
    intro _ t4 ⟨hL4, hc4⟩
    refine OkOrOther.bind_step
      (sealBlock_okOrOther E K F fuel [BB, After, Body] hL4 (X := t2.Curr)
        (by rw [hcur]; simp) (Or.inl hcur)
        (mem_without (by
          intro p hp
          rw [hcur]
          simp only [List.mem_cons, List.mem_singleton, List.not_mem_nil, or_false] at hp ⊢
          rcases hp with hp | hp | hp
          · exact ⟨Or.inl hp, hp ▸ h6.symm⟩
          · exact ⟨Or.inr (Or.inl hp), hp ▸ h2.symm⟩
          · exact ⟨Or.inr (Or.inr (Or.inl hp)), hp ▸ h1.symm⟩)
        (by
          intro p hp
          rw [hcur]
          simp only [List.mem_cons, List.mem_singleton, List.not_mem_nil, or_false] at hp ⊢
          tauto))) ?_
    intro _ t5 ⟨hL5, hc5⟩
    refine OkOrOther.bind_step (setCurr_okOrOther K hL5 BB) ?_
    intro _ t6 ⟨hL6, hc6⟩
    refine OkOrOther.bind_step
      (Q := fun CondBB t' => Lowering I s0 [CondBB, After, Body] t' ∧ t'.Curr = CondBB ∧
        (CondBB = s0.Curr ∨ s0.numBlocks ≤ CondBB) ∧ CondBB ≠ After ∧ CondBB ≠ Body)
      (show _ ∧ _ from ⟨hL6, hc6, Or.inr hC, h4.symm, h5.symm⟩) ?_
  all_goals
    intro CondBB t3 ⟨hL3, hc3, hC, hCA, hCB⟩
    refine OkOrOther.bind_step ((keepsControl_emitExpr E fuel Cond).okOrOther (noSealAssert_emitExpr E fuel Cond) (K.expr fuel Cond) hL3) ?_
    intro C t4 ⟨hL4, hc4⟩
    refine OkOrOther.bind_step (CreateCondBr_okOrOther K hL4 C (by simp) (by simp)) ?_
    intro _ t5 ⟨hL5, hc5⟩
    refine OkOrOther.bind_step (setCurr_okOrOther K hL5 Body) ?_
    intro _ t6 ⟨hL6, hc6⟩
    refine OkOrOther.bind_step
      ((hemit WhileStmts).okOrOther_step [CondBB, After] hL6 ?_ ?_ ?_) ?_
    · rw [hc6]
      simp
    · rw [hc6]
      exact Or.inr hB
    · refine mem_without ?_ ?_
      · intro p hp
        rw [hc6]
        simp only [List.mem_cons, List.mem_singleton, List.not_mem_nil, or_false] at hp ⊢
        rcases hp with hp | hp
        · exact ⟨Or.inl hp, hp ▸ hCB⟩
        · exact ⟨Or.inr (Or.inl hp), hp ▸ h3.symm⟩
      · intro p hp
        rw [hc6]
        simp only [List.mem_cons, List.mem_singleton, List.not_mem_nil, or_false] at hp ⊢
        tauto
    intro _ t7 ⟨hL7, hc7, hp7⟩
    have h7 : CondBB ≠ t7.Curr := hp7 _ (by simp)
    have h8 : After ≠ t7.Curr := hp7 _ (by simp)
    refine OkOrOther.bind_step (CreateBr_okOrOther K hL7 (by simp)) ?_
    intro _ t8 ⟨hL8, hc8⟩
    refine OkOrOther.get_step ?_
    refine OkOrOther.bind_step
      (sealBlock_okOrOther E K F fuel [CondBB, After] hL8 (X := t8.Curr) ?_ ?_ ?_) ?_
    · rw [hc8]
      simp
    · rw [hc8]
      exact hc7
    · refine mem_without ?_ ?_
      · intro p hp
        rw [hc8]
        simp only [List.mem_cons, List.mem_singleton, List.not_mem_nil, or_false] at hp ⊢
        rcases hp with hp | hp
        · exact ⟨Or.inr (Or.inl hp), hp ▸ h7⟩
        · exact ⟨Or.inr (Or.inr hp), hp ▸ h8⟩
      · intro p hp
        rw [hc8]
        simp only [List.mem_cons, List.mem_singleton, List.not_mem_nil, or_false] at hp ⊢
        tauto
    intro _ t9 ⟨hL9, hc9⟩
    refine OkOrOther.bind_step
      (sealBlock_okOrOther E K F fuel [After] hL9 (X := CondBB) (by simp) hC ?_) ?_
    · refine mem_without ?_ ?_
      · intro p hp
        simp only [List.mem_cons, List.mem_singleton, List.not_mem_nil, or_false] at hp ⊢
        exact ⟨Or.inr hp, hp ▸ hCA.symm⟩
      · intro p hp
        simp only [List.mem_cons, List.mem_singleton, List.not_mem_nil, or_false] at hp ⊢
        tauto
    intro _ t10 ⟨hL10, hc10⟩
    exact (setCurr_okOrOther K hL10 After).mono_other fun _ t hh =>
      hh.1.finish (by intro p; rw [hh.2]; exact List.mem_singleton) (Or.inr (hh.2 ▸ hA))

theorem lowersSealing_emitIfStatement (E : Env) {I : CGState → Prop}
    (K : StepsKeep E I) (F : UnsealedUnflagged I) (fuel : Nat) {emit' : List Stmt → M Unit}
    (hemit : ∀ Stmts, LowersSealing I (emit' Stmts)) (Cond : Expr)
    (IfStmts ElseStmts : List Stmt) :
    LowersSealing I (emitIfStatement E fuel emit' Cond IfStmts ElseStmts) := by
  intro s0 h0 hI0
  unfold emitIfStatement
  have hL0 : Lowering I s0 [s0.Curr] s0 := Lowering.start h0 hI0
  cases hE : ElseStmts.isEmpty
  · simp only [Bool.not_false, if_true]
    refine OkOrOther.bind_step (createBasicBlock_okOrOther K hL0) ?_
    intro IfBB t1 ⟨hL1, hc1, hI, hI'⟩
    refine OkOrOther.bind_step (createBasicBlock_okOrOther K hL1) ?_
    intro ElseBB t2 ⟨hL2, hc2, hEl, hEl'⟩
    refine OkOrOther.bind_step (createBasicBlock_okOrOther K hL2) ?_
    intro After t3 ⟨hL3, hc3, hA, hA'⟩
    have hcur : t3.Curr = s0.Curr := hc3.trans (hc2.trans hc1)
    have h1 : s0.Curr ≠ IfBB := hI' _ (by simp)
    have h2 : s0.Curr ≠ ElseBB := hEl' _ (by simp)
    have h3 : s0.Curr ≠ After := hA' _ (by simp)
    have h4 : IfBB ≠ ElseBB := hEl' _ (by simp)
    have h5 : IfBB ≠ After := hA' _ (by simp)
    have h6 : ElseBB ≠ After := hA' _ (by simp)
    refine OkOrOther.bind_step ((keepsControl_emitExpr E fuel Cond).okOrOther (noSealAssert_emitExpr E fuel Cond) (K.expr fuel Cond) hL3) ?_
    intro C t4 ⟨hL4, hc4⟩
    refine OkOrOther.bind_step (CreateCondBr_okOrOther K hL4 C (by simp) (by simp)) ?_
    intro _ t5 ⟨hL5, hc5⟩
    refine OkOrOther.get_step ?_
    have hcur5 : t5.Curr = s0.Curr := hc5.trans (hc4.trans hcur)
    refine OkOrOther.bind_step
      (sealBlock_okOrOther E K F fuel [After, ElseBB, IfBB] hL5 (X := t5.Curr)
        (by rw [hcur5]; simp) (Or.inl hcur5)
        (mem_without (by
          intro p hp
          rw [hcur5]
          simp only [List.mem_cons, List.mem_singleton, List.not_mem_nil, or_false] at hp ⊢
          rcases hp with hp | hp | hp
          · exact ⟨Or.inl hp, hp ▸ h3.symm⟩
          · exact ⟨Or.inr (Or.inl hp), hp ▸ h2.symm⟩
          · exact ⟨Or.inr (Or.inr (Or.inl hp)), hp ▸ h1.symm⟩)
        (by
          intro p hp
          rw [hcur5]
          simp only [List.mem_cons, List.mem_singleton, List.not_mem_nil, or_false] at hp ⊢
          tauto))) ?_
    intro _ t6 ⟨hL6, hc6⟩
    refine OkOrOther.bind_step (setCurr_okOrOther K hL6 IfBB) ?_
    intro _ t7 ⟨hL7, hc7⟩
    refine OkOrOther.bind_step
      ((hemit IfStmts).okOrOther_step [After, ElseBB] hL7 (by rw [hc7]; simp)
        (by rw [hc7]; exact Or.inr hI)
        (mem_without (by
          intro p hp
          rw [hc7]
          simp only [List.mem_cons, List.mem_singleton, List.not_mem_nil, or_false] at hp ⊢
          rcases hp with hp | hp
          · exact ⟨Or.inl hp, hp ▸ h5.symm⟩
          · exact ⟨Or.inr (Or.inl hp), hp ▸ h4.symm⟩)
        (by
          intro p hp
          rw [hc7]
          simp only [List.mem_cons, List.mem_singleton, List.not_mem_nil, or_false] at hp ⊢
          tauto))) ?_
    intro _ t8 ⟨hL8, hc8, hp8⟩
    have h7 : After ≠ t8.Curr := hp8 _ (by simp)
    have h8 : ElseBB ≠ t8.Curr := hp8 _ (by simp)
    refine OkOrOther.get_step ?_
    split
    case' isTrue => refine OkOrOther.bind_step (CreateBr_okOrOther K hL8 (by simp)) ?_
    case' isFalse =>
      refine OkOrOther.bind_step
        (Q := fun _ t' => Lowering I s0 [t8.Curr, After, ElseBB] t' ∧ t'.Curr = t8.Curr)
        (show _ ∧ _ from ⟨hL8, rfl⟩) ?_
    all_goals
      intro _ t9 ⟨hL9, hc9⟩
      refine OkOrOther.bind_step
        (sealBlock_okOrOther E K F fuel [After, ElseBB] hL9 (X := t8.Curr) (by simp) hc8
          (mem_without (by
            intro p hp
            simp only [List.mem_cons, List.mem_singleton, List.not_mem_nil, or_false] at hp ⊢
            rcases hp with hp | hp
            · exact ⟨Or.inr (Or.inl hp), hp ▸ h7⟩
            · exact ⟨Or.inr (Or.inr hp), hp ▸ h8⟩)
          (by
            intro p hp
            simp only [List.mem_cons, List.mem_singleton, List.not_mem_nil, or_false] at hp ⊢
            tauto))) ?_
      intro _ t10 ⟨hL10, hc10⟩
      refine OkOrOther.bind_step (setCurr_okOrOther K hL10 ElseBB) ?_
      intro _ t11 ⟨hL11, hc11⟩
      refine OkOrOther.bind_step
        ((hemit ElseStmts).okOrOther_step [After] hL11 (by rw [hc11]; simp)
          (by rw [hc11]; exact Or.inr hEl)
          (mem_without (by
            intro p hp
            rw [hc11]
            simp only [List.mem_cons, List.mem_singleton, List.not_mem_nil, or_false] at hp ⊢
            exact ⟨Or.inl hp, hp ▸ h6.symm⟩)
          (by
            intro p hp
            rw [hc11]
            simp only [List.mem_cons, List.mem_singleton, List.not_mem_nil, or_false] at hp ⊢
            tauto))) ?_
      intro _ t12 ⟨hL12, hc12, hp12⟩
      have h9 : After ≠ t12.Curr := hp12 _ (by simp)
      refine OkOrOther.get_step ?_
      split
      case' isTrue => refine OkOrOther.bind_step (CreateBr_okOrOther K hL12 (by simp)) ?_
      case' isFalse =>
        refine OkOrOther.bind_step
          (Q := fun _ t' => Lowering I s0 [t12.Curr, After] t' ∧ t'.Curr = t12.Curr)
          (show _ ∧ _ from ⟨hL12, rfl⟩) ?_
      all_goals
        intro _ t13 ⟨hL13, hc13⟩
        refine OkOrOther.bind_step
          (sealBlock_okOrOther E K F fuel [After] hL13 (X := t12.Curr) (by simp) hc12
            (mem_without (by
              intro p hp
              simp only [List.mem_cons, List.mem_singleton, List.not_mem_nil, or_false] at hp ⊢
              exact ⟨Or.inr hp, hp ▸ h9⟩)
            (by
              intro p hp
              simp only [List.mem_cons, List.mem_singleton, List.not_mem_nil, or_false] at hp ⊢
              tauto))) ?_
        intro _ t14 ⟨hL14, hc14⟩
        exact (setCurr_okOrOther K hL14 After).mono_other fun _ t hh =>
          hh.1.finish (by intro p; rw [hh.2]; exact List.mem_singleton) (Or.inr (hh.2 ▸ hA))
  · simp only [Bool.not_true, Bool.false_eq_true, if_false]
    refine OkOrOther.bind_step (createBasicBlock_okOrOther K hL0) ?_
    intro IfBB t1 ⟨hL1, hc1, hI, hI'⟩
    refine OkOrOther.pure_step ?_
    refine OkOrOther.bind_step (createBasicBlock_okOrOther K hL1) ?_
    intro After t3 ⟨hL3, hc3, hA, hA'⟩
    have hcur : t3.Curr = s0.Curr := hc3.trans hc1
    have h1 : s0.Curr ≠ IfBB := hI' _ (by simp)
    have h3 : s0.Curr ≠ After := hA' _ (by simp)
    have h5 : IfBB ≠ After := hA' _ (by simp)
    refine OkOrOther.bind_step ((keepsControl_emitExpr E fuel Cond).okOrOther (noSealAssert_emitExpr E fuel Cond) (K.expr fuel Cond) hL3) ?_
    intro C t4 ⟨hL4, hc4⟩
    refine OkOrOther.bind_step (CreateCondBr_okOrOther K hL4 C (by simp) (by simp)) ?_
    intro _ t5 ⟨hL5, hc5⟩
    refine OkOrOther.get_step ?_
    have hcur5 : t5.Curr = s0.Curr := hc5.trans (hc4.trans hcur)
    refine OkOrOther.bind_step
      (sealBlock_okOrOther E K F fuel [After, IfBB] hL5 (X := t5.Curr)
        (by rw [hcur5]; simp) (Or.inl hcur5)
        (mem_without (by
          intro p hp
          rw [hcur5]
          simp only [List.mem_cons, List.mem_singleton, List.not_mem_nil, or_false] at hp ⊢
          rcases hp with hp | hp
          · exact ⟨Or.inl hp, hp ▸ h3.symm⟩
          · exact ⟨Or.inr (Or.inl hp), hp ▸ h1.symm⟩)
        (by
          intro p hp
          rw [hcur5]
          simp only [List.mem_cons, List.mem_singleton, List.not_mem_nil, or_false] at hp ⊢
          tauto))) ?_
    intro _ t6 ⟨hL6, hc6⟩
    refine OkOrOther.bind_step (setCurr_okOrOther K hL6 IfBB) ?_
    intro _ t7 ⟨hL7, hc7⟩
    refine OkOrOther.bind_step
      ((hemit IfStmts).okOrOther_step [After] hL7 (by rw [hc7]; simp)
        (by rw [hc7]; exact Or.inr hI)
        (mem_without (by
          intro p hp
          rw [hc7]
          simp only [List.mem_cons, List.mem_singleton, List.not_mem_nil, or_false] at hp ⊢
          exact ⟨Or.inl hp, hp ▸ h5.symm⟩)
        (by
          intro p hp
          rw [hc7]
          simp only [List.mem_cons, List.mem_singleton, List.not_mem_nil, or_false] at hp ⊢
          tauto))) ?_
    intro _ t8 ⟨hL8, hc8, hp8⟩
    have h7 : After ≠ t8.Curr := hp8 _ (by simp)
    refine OkOrOther.get_step ?_
    split
    case' isTrue => refine OkOrOther.bind_step (CreateBr_okOrOther K hL8 (by simp)) ?_
    case' isFalse =>
      refine OkOrOther.bind_step
        (Q := fun _ t' => Lowering I s0 [t8.Curr, After] t' ∧ t'.Curr = t8.Curr)
        (show _ ∧ _ from ⟨hL8, rfl⟩) ?_
    all_goals
      intro _ t9 ⟨hL9, hc9⟩
      refine OkOrOther.bind_step
        (sealBlock_okOrOther E K F fuel [After] hL9 (X := t8.Curr) (by simp) hc8
          (mem_without (by
            intro p hp
            simp only [List.mem_cons, List.mem_singleton, List.not_mem_nil, or_false] at hp ⊢
            exact ⟨Or.inr hp, hp ▸ h7⟩)
          (by
            intro p hp
            simp only [List.mem_cons, List.mem_singleton, List.not_mem_nil, or_false] at hp ⊢
            tauto))) ?_
      intro _ t10 ⟨hL10, hc10⟩
      refine OkOrOther.pure_step ?_
      exact (setCurr_okOrOther K hL10 After).mono_other fun _ t hh =>
        hh.1.finish (by intro p; rw [hh.2]; exact List.mem_singleton) (Or.inr (hh.2 ▸ hA))

theorem lowersSealing_emitStmt (E : Env) {I : CGState → Prop} (K : StepsKeep E I) (F : UnsealedUnflagged I)
    (fuel : Nat) {emit' : List Stmt → M Unit}
    (hemit : ∀ Stmts, LowersSealing I (emit' Stmts)) (S : Stmt) :
    LowersSealing I (emitStmt E fuel emit' S) := by
  cases S with
  | AssignmentStatement D Selectors X =>
    exact LowersSealing.of_noSealAssert
      (keepsControl_emitAssignmentStatement E fuel D Selectors X) (noSealAssert_emitAssignmentStatement E fuel D Selectors X) (K.assign fuel D Selectors X)
  | ProcedureCallStatement =>
    exact LowersSealing.of_noSealAssert (KeepsControl.throw _) (NoSealAssert.of_throw _ (by decide))
      (fun _ _ _ _ h => by cases h)
  | IfStatement Cond IfStmts ElseStmts =>
    exact lowersSealing_emitIfStatement E K F fuel hemit Cond IfStmts ElseStmts
  | WhileStatement Cond WhileStmts =>
    exact lowersSealing_emitWhileStatement E K F fuel hemit Cond WhileStmts
  | ReturnStatement RetVal =>
    exact LowersSealing.of_noSealAssert (keepsControl_emitReturnStatement E fuel RetVal) (noSealAssert_emitReturnStatement E fuel RetVal)
      (K.ret fuel RetVal)

theorem lowersSealing_emit (E : Env) {I : CGState → Prop} (K : StepsKeep E I) (F : UnsealedUnflagged I) (fuel : Nat) :
    ∀ Stmts : List Stmt, LowersSealing I (emit E fuel Stmts) := by
  induction fuel with
  | zero =>
    intro Stmts
    exact LowersSealing.of_noSealAssert (KeepsControl.throw _) (NoSealAssert.of_throw _ (by decide)) (fun _ _ _ _ h => by cases h)
  | succ fuel ih =>
    intro Stmts
    exact LowersSealing.forEachStatement (fun S => lowersSealing_emitStmt E K F fuel ih S) Stmts

theorem run_okOrOther (E : Env) {I : CGState → Prop} (K : StepsKeep E I) (F : UnsealedUnflagged I)
    (hI : I CGState.init) (fuel : Nat) (Proc : ProcedureDeclaration) :
    OkOrOther (fun _ t => I t ∧ NoEdgeAfterSeal t.trace ∧
      ∀ b, b < t.numBlocks → Event.seal b ∈ t.trace) (run E fuel Proc) := by
  unfold run runM
  have hthrow : ∀ (k : Unit → M Unit),
      OkOrOther (fun _ t => I t ∧ NoEdgeAfterSeal t.trace ∧
        ∀ b, b < t.numBlocks → Event.seal b ∈ t.trace)
        ((M.throw Err.fatalUnsupportedType >>= k) CGState.init) :=
    fun _ => (show Err.fatalUnsupportedType ≠ Err.assertAlreadySealed by decide)
  suffices hrest : ∀ (u : Unit),
      OkOrOther (fun _ t => I t ∧ NoEdgeAfterSeal t.trace ∧
        ∀ b, b < t.numBlocks → Event.seal b ∈ t.trace)
      ((pure u >>= fun _ => do
        let ParamTypes ← createFunctionType Proc.FormalParams
        M.modify fun t => { t with argTys := ParamTypes }
        let BB ← createBasicBlock
        setCurr BB
        runFormalParams Proc.FormalParams 0
        runDecls Proc.Decls
        emit E fuel Proc.Stmts
        let s ← M.get
        if (s.getTerminator s.Curr).isNone then do
          let _ ← Insert .Ret .void [] []
          pure ()
        sealBlock E fuel s.Curr : M Unit) CGState.init) by
    rcases hR : Proc.RetType with _ | _ | ty
    · exact hrest ()
    · exact hthrow _
    · exact hrest ()
  intro u
  refine OkOrOther.pure_step ?_
  refine OkOrOther.bind_step
    ((keepsControl_createFunctionType Proc.FormalParams).okOrOther_fresh (noSealAssert_createFunctionType Proc.FormalParams)
      (K.fnType Proc.FormalParams) rfl hI) ?_
  intro ParamTypes t1 ⟨h1, hI1, hn1⟩
  refine OkOrOther.bind_step
    (Q := fun _ t => t.trace = [] ∧ I t ∧ t.numBlocks = 0)
    (show _ ∧ _ from ⟨h1, K.argTys t1 ParamTypes hI1, hn1⟩) ?_
  intro _ t2 ⟨h2, hI2, hn2⟩
  refine OkOrOther.bind_step
    (Q := fun BB t => t.trace = [] ∧ I t ∧ BB = 0 ∧ t.numBlocks = 1)
    (show _ ∧ _ from ⟨h2, K.newBlock t2 hI2, hn2, by show t2.numBlocks + 1 = 1; rw [hn2]⟩) ?_
  intro BB t3 ⟨h3, hI3, hBB, hn3⟩
  refine OkOrOther.bind_step
    (Q := fun _ t => ControlInv t ∧ I t ∧ t.Curr = 0 ∧ t.numBlocks = 1) ?_ ?_
  · show ControlInv { t3 with Curr := BB } ∧ _
    refine ⟨⟨?_, ?_, ?_, ?_⟩, K.setCurr t3 BB hI3, hBB, hn3⟩
    · show NoEdgeAfterSeal t3.trace
      rw [h3]
      exact List.Pairwise.nil
    · show Event.seal BB ∉ t3.trace
      rw [h3]
      exact List.not_mem_nil _
    · show BB < t3.numBlocks
      rw [hBB, hn3]
      exact Nat.zero_lt_one
    · intro b hb
      have hb' : Event.seal b ∈ t3.trace := hb
      rw [h3] at hb'
      exact absurd hb' (List.not_mem_nil _)
  intro _ s0 ⟨h0, hI0, hc0, hn0⟩
  have hL0 : Lowering I s0 [s0.Curr] s0 := Lowering.start h0 hI0
  refine OkOrOther.bind_step
    ((keepsControl_runFormalParams Proc.FormalParams 0).okOrOther (noSealAssert_runFormalParams Proc.FormalParams 0)
      (K.params Proc.FormalParams 0) hL0) ?_
  intro _ t5 ⟨hL5, hc5⟩
  refine OkOrOther.bind_step
    ((keepsControl_runDecls Proc.Decls).okOrOther (noSealAssert_runDecls Proc.Decls) (K.decls Proc.Decls) hL5) ?_
  intro _ t6 ⟨hL6, hc6⟩
  refine OkOrOther.bind_step
    ((lowersSealing_emit E K F fuel Proc.Stmts).okOrOther_step [] hL6
      (by rw [hc6, hc5]; simp) (Or.inl (hc6.trans hc5))
      (by
        intro p
        rw [hc6, hc5]
        simp only [List.mem_singleton, List.not_mem_nil, false_iff, not_and, not_not]
        exact fun h => h)) ?_
  intro _ t7 ⟨hL7, hc7, _⟩
  refine OkOrOther.get_step ?_
  dsimp only
  split
  case' isTrue =>
    refine OkOrOther.bind_step
      ((keepsControl_Insert .Ret .void []).okOrOther (noSealAssert_Insert .Ret .void []) K.insertRet hL7) ?_
    intro _ t8 ⟨hL8, hc8⟩
    refine OkOrOther.pure_step ?_
  case' isFalse =>
    refine OkOrOther.pure_step ?_
    have hL8 := hL7
  all_goals
    refine (sealBlock_okOrOther E K F fuel [] hL8 (X := t7.Curr) (by simp) hc7
      (by
        intro p
        simp only [List.mem_singleton, List.not_mem_nil, false_iff, not_and, not_not]
        exact fun h => h)).mono_other fun _ t hh => ⟨hh.1.inv, hh.1.noEdge, ?_⟩
    intro b hb
    rcases hh.1.closed b (by
      rw [hc0, hn0]
      rcases Nat.eq_zero_or_pos b with h | h
      · exact Or.inl h
      · exact Or.inr h) hb with h | h
    · exact absurd h (List.not_mem_nil _)
    · exact h

end tinylang

namespace tinylang

theorem unsealedUnflagged_sealedOnce : UnsealedUnflagged SealedOnce := by
  intro t ht b hb
  have h := ht b
  rw [List.count_eq_zero_of_not_mem hb] at h
  cases hS : (t.CurrentDef b).Sealed with
  | false => rfl
  | true =>
    rw [hS] at h
    cases h

/-- C34: the assertion of `sealBlock` that the block has not been sealed yet
never fires during `run`, whatever the procedure and however the run ends;
and when the lowering of the procedure completes, every basic block created
during `run` has been sealed exactly once: for every block of the function
there is exactly one sealing among the events of the run, and its flag
`Sealed` is set, so that no block is left unsealed. -/
theorem run_seals_every_block_once (E : Env) (fuel : Nat) (Proc : ProcedureDeclaration) :
    (run E fuel Proc).error? ≠ some Err.assertAlreadySealed ∧
    ((run E fuel Proc).error? = none → ∀ b : BlockId, b < (run E fuel Proc).state.numBlocks →
      (run E fuel Proc).state.trace.count (Event.seal b) = 1 ∧
        ((run E fuel Proc).state.CurrentDef b).Sealed = true) := by
  have hr := run_okOrOther E (stepsKeep_sealedOnce E) unsealedUnflagged_sealedOnce
    sealedOnce_init fuel Proc
  refine ⟨hr.error_ne, ?_⟩
  intro h b hb
  cases hrun : run E fuel Proc with
  | fail e t =>
    rw [hrun] at h
    cases h
  | ok a t =>
    rw [hrun] at hr hb
    obtain ⟨h1, _, h3⟩ := hr
    have hm := h3 b hb
    have hc := h1 b
    have hpos : 0 < t.trace.count (Event.seal b) := List.count_pos_iff.2 hm
    simp only [Res.state]
    cases hS : (t.CurrentDef b).Sealed with
    | false =>
      rw [hS] at hc
      rw [hc] at hpos
      cases hpos
    | true =>
      rw [hS] at hc
      exact ⟨by simpa using hc, rfl⟩

set_option maxRecDepth 100000 in
/-- Witness for C34: `IF c THEN x := 1 ELSE x := 1 END; WHILE x < 10 DO
x := x + 1 END` is lowered into six blocks; block 3, the block behind the `IF`
that becomes the condition block of the loop, is sealed once, after the
back-branch. -/
theorem run_seals_every_block_once_witness :
    (run llvmEnv 30 Example.ifSameValueThenWhile).error? = none ∧
    (run llvmEnv 30 Example.ifSameValueThenWhile).state.numBlocks = 6 ∧
    (run llvmEnv 30 Example.ifSameValueThenWhile).state.trace.count (Event.seal 3) = 1 ∧
    ((run llvmEnv 30 Example.ifSameValueThenWhile).state.CurrentDef 3).Sealed = true :=
  ⟨by decide!, by decide!,
    (run_seals_every_block_once llvmEnv 30 Example.ifSameValueThenWhile).2 (by decide!) 3
      (by decide!)⟩

end tinylang

namespace tinylang

/-! ## Sealing a block whose predecessors all yield the same definition -/

theorem CGState.getSinglePredecessor_congr {s s' : CGState} {b : BlockId}
    (h : s'.predecessors b = s.predecessors b) :
    s'.getSinglePredecessor b = s.getSinglePredecessor b := by
  unfold CGState.getSinglePredecessor
  rw [h]

theorem CGState.visibleDef_congr {s s' : CGState} (hd : s'.CurrentDef = s.CurrentDef)
    (hp : ∀ b, s'.predecessors b = s.predecessors b) :
    ∀ (n : Nat) (b : BlockId) (d : Decl), s'.visibleDef n b d = s.visibleDef n b d := by
  intro n
  induction n with
  | zero => intro b d; rfl
  | succ n ih =>
    intro b d
    simp only [CGState.visibleDef, hd, CGState.getSinglePredecessor_congr (hp b), ih]

theorem CGState.visibleDef_own (s : CGState) (n : Nat) (b : BlockId) (d : Decl) (v : Value)
    (h : (s.CurrentDef b).Defs d = some v) : s.visibleDef (n + 1) b d = some v := by
  simp only [CGState.visibleDef, h]

/-- What a read finds without creating a phi is, after the replacement, what
the replacement makes of it. -/
theorem CGState.Substituted.visible {σ : Value → Value} {s s' : CGState}
    (h : s.Substituted σ s') :
    ∀ (n : Nat) (b : BlockId) (d : Decl) (w : Value), s.visibleDef n b d = some w →
      s'.visibleDef n b d = some (σ w) := by
  intro n
  induction n with
  | zero => intro b d w hw; cases hw
  | succ n ih =>
    intro b d w hw
    cases hd : (s.CurrentDef b).Defs d with
    | some v0 =>
      rw [s.visibleDef_own n b d v0 hd] at hw
      cases hw
      exact s'.visibleDef_own n b d _ (h.defs b d _ hd)
    | none =>
      rcases h.fresh b d hd with hn | ⟨v', hv', hvis⟩
      · simp only [CGState.visibleDef, hd] at hw
        simp only [CGState.visibleDef, hn, h.sealed b,
          CGState.getSinglePredecessor_congr (h.preds b)]
        split at hw
        · next hS =>
          rw [if_pos hS]
          split at hw
          · next p hp =>
            exact ih p d w hw
          · cases hw
        · cases hw
      · rw [s'.visibleDef_own n b d v' hv', hvis (n + 1) w hw]

theorem CGState.Substituted.noChange (s : CGState) (hfin : s.Finite) : s.Substituted id s :=
  { fin := hfin
    le := Nat.le_refl _
    gone := fun _ _ h => h
    ops := fun j y y' hy hy' k w hk => by
      rw [hy] at hy'
      cases hy'
      exact hk
    kind := fun _ y hy => Or.inl ⟨y, hy, rfl⟩
    defs := fun _ _ _ h => h
    fresh := fun _ _ h => Or.inl h
    sealed := fun _ => rfl
    preds := fun _ => rfl
    moved := fun i h => absurd rfl h
    const := fun _ _ => rfl }

theorem CGState.Substituted.live_below {σ : Value → Value} {s s' : CGState}
    (h : s.Substituted σ s') {j : InstId} {y : Instruction} (hy : s.insts j = some y) :
    j < s.numInsts := by
  by_contra hn
  rw [h.fin j (Nat.le_of_not_lt hn)] at hy
  cases hy

theorem CGState.Substituted.composed {σ τ : Value → Value} {s t u : CGState}
    (h1 : s.Substituted σ t) (h2 : t.Substituted τ u) : s.Substituted (τ ∘ σ) u :=
  { fin := h1.fin
    le := Nat.le_trans h1.le h2.le
    gone := fun j hj hn => h2.gone j (Nat.lt_of_lt_of_le hj h1.le) (h1.gone j hj hn)
    ops := fun j y y'' hy hy'' k w hk => by
      cases ht : t.insts j with
      | none =>
        rw [h2.gone j (Nat.lt_of_lt_of_le (h1.live_below hy) h1.le) ht] at hy''
        cases hy''
      | some y' => exact h2.ops j y' y'' ht hy'' k _ (h1.ops j y y' hy ht k w hk)
    kind := fun j y hy => by
      rcases h1.kind j y hy with ⟨y', hy', e⟩ | ⟨hn, hp⟩
      · rcases h2.kind j y' hy' with ⟨y'', hy'', e'⟩ | ⟨hn, hp⟩
        · exact Or.inl ⟨y'', hy'', e'.trans e⟩
        · exact Or.inr ⟨hn, e ▸ hp⟩
      · exact Or.inr ⟨h2.gone j (Nat.lt_of_lt_of_le (h1.live_below hy) h1.le) hn, hp⟩
    defs := fun b d w hw => h2.defs b d _ (h1.defs b d w hw)
    fresh := fun b d hd => by
      rcases h1.fresh b d hd with hn | ⟨v', hv', hvis⟩
      · rcases h2.fresh b d hn with hn2 | ⟨v'', hv'', hvis2⟩
        · exact Or.inl hn2
        · exact Or.inr ⟨v'', hv'', fun n w hw => hvis2 n _ (h1.visible n b d w hw)⟩
      · exact Or.inr ⟨τ v', h2.defs b d v' hv', fun n w hw => by
          rw [hvis n w hw]
          rfl⟩
    sealed := fun b => (h2.sealed b).trans (h1.sealed b)
    preds := fun b => (h2.preds b).trans (h1.preds b)
    moved := fun i hi => by
      by_cases h : σ (.inst i) = .inst i
      · refine h2.moved i ?_
        intro h'
        apply hi
        show τ (σ (.inst i)) = .inst i
        rw [h, h']
      · obtain ⟨a, b⟩ := h1.moved i h
        exact ⟨h2.gone i b a, Nat.lt_of_lt_of_le b h2.le⟩
    const := fun w hw => by
      show τ (σ w) = w
      rw [h1.const w hw, h2.const w hw] }

/-- A value whose instruction is still there has not been replaced. -/
theorem CGState.Substituted.kept {σ : Value → Value} {s s' : CGState}
    (h : s.Substituted σ s') (w : Value) (hw : ∀ i, w = .inst i → s'.insts i ≠ none) :
    σ w = w := by
  by_cases hi : ∃ i, w = .inst i
  · obtain ⟨i, rfl⟩ := hi
    by_contra hne
    exact hw i rfl (h.moved i hne).1
  · exact h.const w (fun i hw' => hi ⟨i, hw'⟩)

/-- A value that has not been erased is not replaced. -/
theorem CGState.Substituted.unmoved {σ : Value → Value} {s s' : CGState}
    (h : s.Substituted σ s') (w : Value)
    (hw : ∀ i, w = .inst i → s'.insts i = none → s'.numInsts ≤ i) : σ w = w := by
  by_cases hi : ∃ i, w = .inst i
  · obtain ⟨i, rfl⟩ := hi
    by_contra hne
    exact absurd (h.moved i hne).2 (Nat.not_lt.2 (hw i rfl (h.moved i hne).1))
  · exact h.const w (fun i hw' => hi ⟨i, hw'⟩)

/-- A value that has not been erased at the end had not been erased before. -/
theorem CGState.Substituted.unerased {σ : Value → Value} {s s' : CGState}
    (h : s.Substituted σ s') (w : Value)
    (hw : ∀ i, w = .inst i → s'.insts i = none → s'.numInsts ≤ i) :
    ∀ i, w = .inst i → s.insts i = none → s.numInsts ≤ i := by
  intro i hi hn
  by_contra hlt
  have hlt' : i < s.numInsts := Nat.lt_of_not_le hlt
  exact absurd (Nat.lt_of_lt_of_le hlt' h.le) (Nat.not_lt.2 (hw i hi (h.gone i hlt' hn)))

/-- When `readLocalVariableRecursive` returns, the block either was unsealed
and has got an empty phi, or was sealed with a single predecessor in which the
read has gone on. -/
theorem readLocalVariableRecursiveWith_pred {rd : BlockId → Decl → M Value} {BB : BlockId}
    {D : Decl} {s s' : CGState} {v : Value}
    (h : readLocalVariableRecursiveWith rd BB D s = .ok v s') :
    ((s.CurrentDef BB).Sealed = false ∧ ∃ ty, v = .inst s.numInsts ∧
      s' = s.withEmptyPhi BB D ty) ∨
    ((s.CurrentDef BB).Sealed = true ∧ ∃ PredBB s1, s.getSinglePredecessor BB = some PredBB ∧
      rd PredBB D s = .ok v s1 ∧ s' = s1.setDef BB D v) := by
  rcases readLocalVariableRecursiveWith_ok h with h1 | ⟨hS, _⟩
  · exact Or.inl h1
  · right
    refine ⟨hS, ?_⟩
    unfold readLocalVariableRecursiveWith at h
    obtain ⟨s0, s0', hg, h⟩ := M.do_eq_ok.1 h
    cases hg
    dsimp only at h
    rw [hS] at h
    simp only [Bool.not_true, Bool.false_eq_true, if_false] at h
    cases hp : s.getSinglePredecessor BB with
    | some PredBB =>
      simp only [hp] at h
      obtain ⟨V, s1, h1, h⟩ := M.do_eq_ok.1 h
      obtain ⟨_, s2, hm, h⟩ := M.do_eq_ok.1 h
      cases hm
      obtain ⟨_, s4, hw, h⟩ := M.do_eq_ok.1 h
      obtain ⟨V', hV, hs4⟩ := writeLocalVariable_ok hw
      cases hV
      cases h
      exact ⟨PredBB, s1, rfl, h1, hs4⟩
    | none =>
      simp only [hp] at h
      obtain ⟨Phi, s1, h1, h⟩ := M.do_eq_ok.1 h
      obtain ⟨_, s2, hw, h⟩ := M.do_eq_ok.1 h
      obtain ⟨V', hV, _⟩ := writeLocalVariable_ok hw
      cases hV

theorem CGState.termParent_congr {s s' : CGState} {j : InstId}
    (h : (s'.insts j).map Instruction.withoutUses = (s.insts j).map Instruction.withoutUses) :
    s'.termParent j = s.termParent j := by
  unfold CGState.termParent
  cases h1 : s'.insts j <;> cases h2 : s.insts j <;> rw [h1, h2] at h <;>
    simp [Instruction.withoutUses] at h ⊢
  rw [h.1, h.2.2.2.2]

/-- A read only adds: an empty phi to an unsealed block, and to the blocks it
has gone through the definition that was visible there. -/
theorem readLocalVariable_substituted (fuel : Nat) :
    ∀ (BB : BlockId) (D : Decl) (s s' : CGState) (v : Value), s.Finite →
    readLocalVariable fuel BB D s = .ok v s' →
    s.Substituted id s' ∧ s'.Finite ∧ (∀ j, j < s.numInsts → s'.insts j = s.insts j) ∧
      (∀ n w, s.visibleDef n BB D = some w → w = v) ∧
      (s'.CurrentDef BB).Defs D = some v := by
  induction fuel with
  | zero =>
    intro BB D s s' v _ h
    cases h
  | succ fuel ih =>
    intro BB D s s' v hfin h
    rcases readLocalVariable_ok h with ⟨hd, e⟩ | ⟨hd, hr⟩
    · subst e
      refine ⟨CGState.Substituted.noChange _ hfin, hfin, fun _ _ => rfl, ?_, hd⟩
      intro n w hw
      cases n with
      | zero => cases hw
      | succ n =>
        rw [s'.visibleDef_own n BB D v hd] at hw
        cases hw
        rfl
    · have hvis0 : (s.CurrentDef BB).Sealed = false → ∀ n w, s.visibleDef n BB D ≠ some w := by
        intro hS n w hw
        cases n with
        | zero => cases hw
        | succ n =>
          simp only [CGState.visibleDef, hd, hS] at hw
          cases hw
      rcases readLocalVariableRecursiveWith_pred hr with ⟨hS, ty, hv, e⟩ | ⟨hS, P, s1, hp, h1, e⟩
      · subst e
        subst hv
        have hi : ∀ j, j < s.numInsts → (s.withEmptyPhi BB D ty).insts j = s.insts j := by
          intro j hj
          simp only [CGState.withEmptyPhi, Nat.ne_of_lt hj, if_false]
        refine ⟨?_, ?_, hi, fun n w hw => absurd hw (hvis0 hS n w), ?_⟩
        · refine
            { fin := hfin
              le := Nat.le_succ _
              gone := fun j hj hn => by rw [hi j hj]; exact hn
              ops := ?_
              kind := fun j y hy => Or.inl ⟨y, by
                have hj : j < s.numInsts := by
                  by_contra hn
                  rw [hfin j (Nat.le_of_not_lt hn)] at hy
                  cases hy
                rw [hi j hj]
                exact hy, rfl⟩
              defs := ?_
              fresh := ?_
              sealed := ?_
              preds := ?_
              moved := fun i h => absurd rfl h
              const := fun _ _ => rfl }
          · intro j y y' hy hy' k w hk
            have hj : j < s.numInsts := by
              by_contra hn
              rw [hfin j (Nat.le_of_not_lt hn)] at hy
              cases hy
            rw [hi j hj, hy] at hy'
            cases hy'
            exact hk
          · intro b d w hw
            simp only [CGState.withEmptyPhi]
            by_cases hb : b = BB
            · subst hb
              simp only [if_true]
              by_cases hdd : d = D
              · subst hdd
                rw [hd] at hw
                cases hw
              · simp only [hdd, if_false]
                exact hw
            · simp only [hb, if_false]
              exact hw
          · intro b d hn
            simp only [CGState.withEmptyPhi]
            by_cases hb : b = BB
            · subst hb
              simp only [if_true]
              by_cases hdd : d = D
              · subst hdd
                right
                exact ⟨.inst s.numInsts, by simp, fun n w hw => absurd hw (hvis0 hS n w)⟩
              · left
                simp only [hdd, if_false]
                exact hn
            · left
              simp only [hb, if_false]
              exact hn
          · intro b
            simp only [CGState.withEmptyPhi]
            by_cases hb : b = BB
            · subst hb
              simp
            · simp [hb]
          · intro b
            refine CGState.predecessors_congr rfl ?_
            intro j _
            by_cases hj : j = s.numInsts
            · subst hj
              simp [CGState.termParent, CGState.withEmptyPhi, hfin _ (Nat.le_refl _),
                Opcode.isTerminator]
            · refine CGState.termParent_congr ?_
              simp only [CGState.withEmptyPhi, hj, if_false]
        · intro j hj
          have hj' : s.numInsts + 1 ≤ j := hj
          simp only [CGState.withEmptyPhi, Nat.ne_of_gt (Nat.lt_of_succ_le hj'), if_false]
          exact hfin j (Nat.le_of_succ_le hj')
        · simp [CGState.withEmptyPhi]
      · subst e
        obtain ⟨i1, i2, i3, i4, i5⟩ := ih P D s s1 v hfin h1
        have hvis : ∀ n w, s.visibleDef n BB D = some w → w = v := by
          intro n w hw
          cases n with
          | zero => cases hw
          | succ n =>
            simp only [CGState.visibleDef, hd, hS, hp, if_true] at hw
            exact i4 n w hw
        refine ⟨?_, i2, i3, hvis, by simp [CGState.setDef, CGState.updDef]⟩
        refine
          { fin := hfin
            le := i1.le
            gone := i1.gone
            ops := i1.ops
            kind := i1.kind
            defs := ?_
            fresh := ?_
            sealed := ?_
            preds := i1.preds
            moved := fun i h => absurd rfl h
            const := fun _ _ => rfl }
        · intro b d w hw
          have := i1.defs b d w hw
          simp only [CGState.setDef, CGState.updDef]
          by_cases hb : b = BB
          · subst hb
            simp only [if_true]
            by_cases hdd : d = D
            · subst hdd
              rw [hd] at hw
              cases hw
            · simp only [hdd, if_false]
              exact this
          · simp only [hb, if_false]
            exact this
        · intro b d hn
          simp only [CGState.setDef, CGState.updDef]
          by_cases hb : b = BB
          · subst hb
            simp only [if_true]
            by_cases hdd : d = D
            · subst hdd
              right
              exact ⟨v, by simp, fun n w hw => (hvis n w hw).symm⟩
            · simp only [hdd, if_false]
              exact i1.fresh b d hn
          · simp only [hb, if_false]
            exact i1.fresh b d hn
        · intro b
          rw [← i1.sealed b]
          simp only [CGState.setDef, CGState.updDef]
          by_cases hb : b = BB
          · subst hb
            simp
          · simp [hb]

theorem CGState.termParent_shape {s s' : CGState} {j : InstId}
    (h1 : ∀ y, s.insts j = some y → ∃ y', s'.insts j = some y' ∧ y'.op = y.op ∧
      y'.parent = y.parent)
    (h2 : s.insts j = none → s'.insts j = none) : s'.termParent j = s.termParent j := by
  unfold CGState.termParent
  cases hy : s.insts j with
  | none => rw [h2 hy]
  | some y =>
    obtain ⟨y', e, e1, e2⟩ := h1 y hy
    rw [e]
    simp only [e1, e2]

theorem List.getElem?_append_some {α : Type} (l l2 : List α) (k : Nat) (w : α)
    (h : l[k]? = some w) : (l ++ l2)[k]? = some w := by
  obtain ⟨hk, _⟩ := List.getElem?_eq_some.1 h
  rw [List.getElem?_append_left hk]
  exact h

/-- `addIncoming` adds one operand to the phi and changes nothing else but
use lists. -/
theorem addIncoming_substituted {Phi : InstId} {V : Value} {I : BlockId} {s s' : CGState}
    (hfin : s.Finite) (h : addIncoming Phi V I s = .ok () s') :
    s.Substituted id s' ∧ s'.Finite ∧ s'.CurrentDef = s.CurrentDef ∧
      s'.numInsts = s.numInsts ∧
      (∀ j, j ≠ Phi → (s'.insts j).map Instruction.withoutUses =
        (s.insts j).map Instruction.withoutUses) ∧
      ∃ x x', s.insts Phi = some x ∧ s'.insts Phi = some x' ∧
        x'.operands = x.operands ++ [V] ∧ x'.op = x.op ∧ x'.parent = x.parent := by
  obtain ⟨x, x1, hx, hx1, hs'⟩ := addIncoming_ok h
  obtain ⟨f1, f2, _, _, _, f6⟩ :=
    (s.setInst Phi (some x1)).addUse_frame V (Phi, x.operands.length)
  rw [← hs'] at f1 f2 f6
  have hdef : s'.CurrentDef = s.CurrentDef := by
    rw [hs', CGState.addUse_CurrentDef]
    rfl
  have hother : ∀ j, j ≠ Phi → (s'.insts j).map Instruction.withoutUses =
      (s.insts j).map Instruction.withoutUses := by
    intro j hj
    rw [f1 j]
    simp only [CGState.setInst, hj, if_false]
  have hphi : ∃ x', s'.insts Phi = some x' ∧ x'.withoutUses = x1.withoutUses := by
    have := f1 Phi
    simp only [CGState.setInst, if_true, Option.map_some'] at this
    cases h' : s'.insts Phi with
    | none => rw [h'] at this; cases this
    | some x' =>
      rw [h'] at this
      exact ⟨x', rfl, by simpa using this⟩
  obtain ⟨x', hx', ex'⟩ := hphi
  have eops : x'.operands = x.operands ++ [V] := by
    have := congrArg Instruction.operands ex'
    simp only [Instruction.withoutUses] at this
    rw [this, hx1]
  have eop : x'.op = x.op := by
    have := congrArg Instruction.op ex'
    simp only [Instruction.withoutUses] at this
    rw [this, hx1]
  have epar : x'.parent = x.parent := by
    have := congrArg Instruction.parent ex'
    simp only [Instruction.withoutUses] at this
    rw [this, hx1]
  have hshape : ∀ j y, s.insts j = some y → ∃ y', s'.insts j = some y' ∧ y'.op = y.op ∧
      y'.parent = y.parent ∧ ∀ (k : Nat) (w : Value), y.operands[k]? = some w →
        y'.operands[k]? = some w := by
    intro j y hy
    by_cases hj : j = Phi
    · subst hj
      rw [hx] at hy
      cases hy
      refine ⟨x', hx', eop, epar, ?_⟩
      intro k w hk
      rw [eops]
      exact List.getElem?_append_some _ _ k w hk
    · have := hother j hj
      rw [hy] at this
      cases h' : s'.insts j with
      | none => rw [h'] at this; cases this
      | some y' =>
        rw [h'] at this
        simp only [Option.map_some', Option.some.injEq] at this
        have e1 := congrArg Instruction.operands this
        have e2 := congrArg Instruction.op this
        have e3 := congrArg Instruction.parent this
        simp only [Instruction.withoutUses] at e1 e2 e3
        exact ⟨y', rfl, e2, e3, fun k w hk => by rw [e1]; exact hk⟩
  have hnone : ∀ j, s.insts j = none → s'.insts j = none := by
    intro j hj
    have hne : j ≠ Phi := by
      intro e
      rw [e, hx] at hj
      cases hj
    have := hother j hne
    rw [hj] at this
    cases h' : s'.insts j with
    | none => rfl
    | some y' => rw [h'] at this; cases this
  refine ⟨?_, ?_, hdef, f2, hother, x, x', hx, hx', eops, eop, epar⟩
  · exact
      { fin := hfin
        le := Nat.le_of_eq f2.symm
        gone := fun j _ hn => hnone j hn
        ops := fun j y y' hy hy' k w hk => by
          obtain ⟨y'', e, _, _, hk'⟩ := hshape j y hy
          rw [e] at hy'
          cases hy'
          exact hk' k w hk
        kind := fun j y hy => by
          obtain ⟨y', e, e1, _⟩ := hshape j y hy
          exact Or.inl ⟨y', e, e1⟩
        defs := fun b d w hw => by rw [hdef]; exact hw
        fresh := fun b d hn => Or.inl (by rw [hdef]; exact hn)
        sealed := fun b => by rw [hdef]
        preds := fun b => CGState.predecessors_congr (congrFun f6 b) fun j _ =>
          CGState.termParent_shape
            (fun y hy => by
              obtain ⟨y', e, e1, e2, _⟩ := hshape j y hy
              exact ⟨y', e, e1, e2⟩)
            (hnone j)
        moved := fun i h => absurd rfl h
        const := fun _ _ => rfl }
  · intro j hj
    rw [f2] at hj
    exact hnone j (hfin j hj)

theorem CGState.Rewrites.staysFinite {s s' : CGState} (h : s.Rewrites s') (hfin : s.Finite) :
    s'.Finite := by
  intro j hj
  rw [h.1] at hj
  cases hy : s'.insts j with
  | none => rfl
  | some y' =>
    obtain ⟨y, hy0, _⟩ := h.2.2.2.1 j y' hy
    rw [hfin j hj] at hy0
    cases hy0

/-- `replaceAllUsesWith` and `eraseFromParent` on a phi. -/
theorem CGState.replace_erase_substituted (s : CGState) (Q : InstId) (x : Instruction)
    (Same : Value) (hfin : s.Finite) (hx : s.insts Q = some x) (hop : x.op = Opcode.PHI) :
    s.Substituted (CGState.substValue Q Same)
        ((s.replaceAllUsesWith Q Same).eraseFromParent Q) ∧
      s.Rewrites ((s.replaceAllUsesWith Q Same).eraseFromParent Q) := by
  obtain ⟨a1, a2, a3, a4⟩ := s.replace_erase_spec Q x Same hx
  have r1 : s.Rewrites (s.replaceAllUsesWith Q Same) := s.rewrites_replaceAllUsesWith _ _
  have r2 : s.Rewrites ((s.replaceAllUsesWith Q Same).eraseFromParent Q) :=
    r1.andNext (CGState.rewrites_eraseFromParent _ _
      (r1.phiOrGone (fun y hy => by rw [hx] at hy; cases hy; exact hop)))
  refine ⟨?_, r2⟩
  exact
    { fin := hfin
      le := Nat.le_of_eq r2.1.symm
      gone := fun j _ hn => a3 j hn
      ops := fun j y y' hy hy' k w hk => by
        have hj : j ≠ Q := by
          intro e
          rw [e, a1] at hy'
          cases hy'
        obtain ⟨y'', e, _, _, _, _, eo⟩ := a2 j y hj hy
        rw [e] at hy'
        cases hy'
        rw [eo, List.getElem?_map, hk]
        rfl
      kind := fun j y hy => by
        by_cases hj : j = Q
        · subst hj
          rw [hx] at hy
          cases hy
          exact Or.inr ⟨a1, hop⟩
        · obtain ⟨y', e, e1, _⟩ := a2 j y hj hy
          exact Or.inl ⟨y', e, e1⟩
      defs := fun b d w hw => by rw [a4, hw]; rfl
      fresh := fun b d hn => Or.inl (by rw [a4, hn]; rfl)
      sealed := fun b => (r2.2.2.2.2.2 b).2.1
      preds := fun b => r2.predecessors_eq b
      moved := fun i hi => by
        have : i = Q := by
          by_contra hne
          apply hi
          unfold CGState.substValue
          rw [if_neg]
          intro e
          cases e
          exact hne rfl
        subst this
        refine ⟨a1, ?_⟩
        rw [r2.1]
        by_contra hn
        rw [hfin i (Nat.le_of_not_lt hn)] at hx
        cases hx
      const := fun w hw => by
        unfold CGState.substValue
        rw [if_neg (hw Q)] }

theorem forEachPhi_substituted (f : InstId → M Value) : ∀ (cs : List InstId),
    (∀ P ∈ cs, ∀ s, s.Finite → (∀ x, s.insts P = some x → x.op = Opcode.PHI) →
      ∀ v s', f P s = .ok v s' → (∃ σ, s.Substituted σ s') ∧ s.Rewrites s') →
    ∀ s, s.Finite → (∀ P ∈ cs, ∀ x, s.insts P = some x → x.op = Opcode.PHI) →
    ∀ u s', forEachPhi f cs s = .ok u s' → (∃ σ, s.Substituted σ s') ∧ s.Rewrites s' := by
  intro cs
  induction cs with
  | nil =>
    intro _ s hfin _ u s' h
    cases h
    exact ⟨⟨id, CGState.Substituted.noChange s hfin⟩, CGState.Rewrites.idle s⟩
  | cons P Ps ih =>
    intro hf s hfin hs u s' h
    unfold forEachPhi at h
    obtain ⟨v, s1, h1, h2⟩ := M.do_eq_ok.1 h
    obtain ⟨⟨σ, q1⟩, r1⟩ :=
      hf P (List.mem_cons_self _ _) s hfin (hs P (List.mem_cons_self _ _)) v s1 h1
    obtain ⟨⟨τ, q2⟩, r2⟩ := ih (fun Q hQ => hf Q (List.mem_cons_of_mem _ hQ)) s1
      (r1.staysFinite hfin) (fun Q hQ => r1.phiOrGone (hs Q (List.mem_cons_of_mem _ hQ))) u s' h2
    exact ⟨⟨_, q1.composed q2⟩, r1.andNext r2⟩

/-- When `optimizePhi` returns, values have only been replaced the way
`replaceAllUsesWith` does it. -/
theorem optimizePhi_substituted (fuel : Nat) : ∀ (Phi : InstId) (s : CGState), s.Finite →
    (∀ x, s.insts Phi = some x → x.op = Opcode.PHI) →
    ∀ v s', optimizePhi fuel Phi s = .ok v s' → (∃ σ, s.Substituted σ s') ∧ s.Rewrites s' := by
  induction fuel with
  | zero =>
    intro Phi s _ _ v s' h
    cases h
  | succ fuel ih =>
    intro Phi s hfin hphi v s' h
    cases hx : s.insts Phi with
    | none =>
      rw [optimizePhi_succ_erased fuel s Phi hx] at h
      cases h
    | some x =>
      cases hs : sameIncoming Phi x.operands none with
      | none =>
        rw [optimizePhi_succ_keep fuel s Phi x hx hs] at h
        cases h
        exact ⟨⟨id, CGState.Substituted.noChange _ hfin⟩, CGState.Rewrites.idle _⟩
      | some Same? =>
        rw [optimizePhi_succ_remove fuel s Phi x Same? hx hs] at h
        obtain ⟨u, s2, h1, h2⟩ := M.bind_eq_ok.1 h
        cases h2
        obtain ⟨q1, r1⟩ := s.replace_erase_substituted Phi x (Same?.getD (.undef x.ty)) hfin hx
          (hphi x hx)
        obtain ⟨⟨τ, q2⟩, r2⟩ := forEachPhi_substituted _ _
          (fun P _ t ht hP w t' hw => ih P t ht hP w t' hw) _ (r1.staysFinite hfin)
          (fun P hP => r1.phiOrGone (fun y hy => by
            have := candidatePhis_isPHI s Phi x.uses P hP
            simp only [CGState.isPHI, hy] at this
            simpa using this)) u _ h1
        exact ⟨⟨_, q1.composed q2⟩, r1.andNext r2⟩

theorem addPhiOperands_ok {fuel : Nat} {BB : BlockId} {D : Decl} {Phi : InstId}
    {s s' : CGState} {v : Value} (h : addPhiOperands fuel BB D Phi s = .ok v s') :
    ∃ s1, addPhiOperandsLoop (readLocalVariable fuel) D Phi (s.predecessors BB) s = .ok () s1 ∧
      optimizePhi (s1.numInsts + 1) Phi s1 = .ok v s' := by
  unfold addPhiOperands addPhiOperandsWith at h
  obtain ⟨s0, s0', hg, h2⟩ := M.do_eq_ok.1 h
  rw [(M.get_ok hg).1, (M.get_ok hg).2] at h2
  obtain ⟨_, s1, hl, h3⟩ := M.do_eq_ok.1 h2
  obtain ⟨s1', s1'', hg', h4⟩ := M.do_eq_ok.1 h3
  rw [(M.get_ok hg').1, (M.get_ok hg').2] at h4
  exact ⟨s1, hl, h4⟩

/-- The loop of `addPhiOperands` only adds: operands to the phi, and what the
reads add. -/
theorem addPhiOperandsLoop_substituted (fuel : Nat) (D : Decl) (Phi : InstId) :
    ∀ (preds : List BlockId) (s s' : CGState), s.Finite → Phi < s.numInsts →
    addPhiOperandsLoop (readLocalVariable fuel) D Phi preds s = .ok () s' →
    s.Substituted id s' ∧ s'.Finite ∧
      ∀ x', s'.insts Phi = some x' → ∃ x, s.insts Phi = some x ∧ x'.op = x.op := by
  intro preds
  induction preds with
  | nil =>
    intro s s' hfin _ h
    cases h
    exact ⟨CGState.Substituted.noChange _ hfin, hfin, fun x' hx' => ⟨x', hx', rfl⟩⟩
  | cons p ps ih =>
    intro s s' hfin hlt h
    unfold addPhiOperandsLoop at h
    obtain ⟨V, s1, h1, h⟩ := M.do_eq_ok.1 h
    obtain ⟨_, s2, h2, h⟩ := M.do_eq_ok.1 h
    obtain ⟨q1, fin1, e1, _, _⟩ := readLocalVariable_substituted fuel p D s s1 V hfin h1
    obtain ⟨q2, fin2, _, n2, _, x, x', hx, hx', _, eop, _⟩ := addIncoming_substituted fin1 h2
    obtain ⟨q3, fin3, k3⟩ := ih s2 s' fin2 (by rw [n2]; exact Nat.lt_of_lt_of_le hlt q1.le) h
    refine ⟨(q1.composed q2).composed q3, fin3, ?_⟩
    intro y hy
    obtain ⟨y2, hy2, e⟩ := k3 y hy
    rw [hx'] at hy2
    cases hy2
    rw [e1 Phi hlt] at hx
    exact ⟨x, hx, e.trans eop⟩

/-- The loop of `addPhiOperands` when the reads in all predecessors find the
same value `w` without creating a phi: the phi gets `w` once for every
predecessor, and every predecessor records `w`. -/
theorem addPhiOperandsLoop_visible (fuel : Nat) (D : Decl) (Phi : InstId) (w : Value) :
    ∀ (preds : List BlockId) (s s' : CGState) (x : Instruction), s.Finite →
    s.insts Phi = some x → (∀ p ∈ preds, ∃ n, s.visibleDef n p D = some w) →
    addPhiOperandsLoop (readLocalVariable fuel) D Phi preds s = .ok () s' →
    s.Substituted id s' ∧ s'.Finite ∧
      (∃ x', s'.insts Phi = some x' ∧
        x'.operands = x.operands ++ List.replicate preds.length w ∧ x'.op = x.op) ∧
      ∀ p ∈ preds, (s'.CurrentDef p).Defs D = some w := by
  intro preds
  induction preds with
  | nil =>
    intro s s' x hfin hx _ h
    cases h
    exact ⟨CGState.Substituted.noChange _ hfin, hfin, ⟨x, hx, by simp, rfl⟩,
      fun _ hp => absurd hp (List.not_mem_nil _)⟩
  | cons p ps ih =>
    intro s s' x hfin hx hvis h
    unfold addPhiOperandsLoop at h
    obtain ⟨V, s1, h1, ha⟩ := M.do_eq_ok.1 h
    obtain ⟨_, s2, h2, hb⟩ := M.do_eq_ok.1 ha
    clear h ha
    obtain ⟨q1, fin1, e1, v1, d1⟩ := readLocalVariable_substituted fuel p D s s1 V hfin h1
    obtain ⟨n, hn⟩ := hvis p (List.mem_cons_self _ _)
    have hV : w = V := v1 n w hn
    subst hV
    have hlt : Phi < s.numInsts := q1.live_below hx
    obtain ⟨q2, fin2, hdef2, _, _, x0, x', hx0, hx', eops, eop, _⟩ :=
      addIncoming_substituted fin1 h2
    rw [e1 Phi hlt, hx] at hx0
    cases hx0
    have q12 := q1.composed q2
    obtain ⟨q3, fin3, ⟨x'', hx'', eops', eop'⟩, k3⟩ := ih s2 s' x' fin2 hx'
      (fun p' hp' => by
        obtain ⟨m, hm⟩ := hvis p' (List.mem_cons_of_mem _ hp')
        exact ⟨m, q12.visible m p' D w hm⟩) hb
    refine ⟨q12.composed q3, fin3, ⟨x'', hx'', ?_, eop'.trans eop⟩, ?_⟩
    · rw [eops', eops, List.length_cons, List.replicate_succ, List.append_assoc]
      rfl
    · intro p' hp'
      rcases List.mem_cons.1 hp' with e | hp''
      · subst e
        have : (s2.CurrentDef p').Defs D = some w := by rw [hdef2]; exact d1
        exact q3.defs p' D w this
      · exact k3 p' hp''

theorem sameIncoming_replicate_self (Phi : InstId) :
    ∀ n, sameIncoming Phi (List.replicate n (.inst Phi)) none = some none := by
  intro n
  induction n with
  | zero => rfl
  | succ n ih => simp [List.replicate_succ, sameIncoming, ih]

/-- `addPhiOperands` when it returns, values have only been replaced the
way `replaceAllUsesWith` does it. -/
theorem addPhiOperands_substituted {fuel : Nat} {BB : BlockId} {D : Decl} {Phi : InstId}
    {s s' : CGState} {v : Value} (hfin : s.Finite) (hlt : Phi < s.numInsts)
    (hphi : ∀ x, s.insts Phi = some x → x.op = Opcode.PHI)
    (h : addPhiOperands fuel BB D Phi s = .ok v s') :
    (∃ σ, s.Substituted σ s') ∧ s'.Finite := by
  obtain ⟨s1, hl, ho⟩ := addPhiOperands_ok h
  obtain ⟨q1, fin1, k1⟩ := addPhiOperandsLoop_substituted fuel D Phi _ s s1 hfin hlt hl
  obtain ⟨⟨τ, q2⟩, r2⟩ := optimizePhi_substituted _ Phi s1 fin1
    (fun x' hx' => by
      obtain ⟨x, hx, e⟩ := k1 x' hx'
      rw [e]
      exact hphi x hx) v s' ho
  exact ⟨⟨_, q1.composed q2⟩, r2.staysFinite fin1⟩

/-- `addPhiOperands` on an empty phi of a block with at least one
predecessor, when the reads in all predecessors find the same value `w`
without creating a phi: the phi is erased, and what was the phi is now the
value `W` that all predecessors record, which is `w` unless `w` has been
erased. -/
theorem addPhiOperands_same {fuel : Nat} {BB : BlockId} {D : Decl} {Phi : InstId}
    {s s' : CGState} {v w : Value} {x : Instruction} (hfin : s.Finite)
    (hx : s.insts Phi = some x) (hop : x.op = Opcode.PHI) (hempty : x.operands = [])
    (hpreds : s.predecessors BB ≠ [])
    (hvis : ∀ p ∈ s.predecessors BB, ∃ n, s.visibleDef n p D = some w)
    (h : addPhiOperands fuel BB D Phi s = .ok v s') :
    s'.insts Phi = none ∧ Phi < s'.numInsts ∧ s'.Finite ∧ (∃ σ, s.Substituted σ s') ∧
      ∃ W, (∀ p ∈ s.predecessors BB, (s'.CurrentDef p).Defs D = some W) ∧
        (∀ j y y', s.insts j = some y → s'.insts j = some y' → ∀ (k : Nat),
          y.operands[k]? = some (.inst Phi) → y'.operands[k]? = some W) ∧
        (∀ b d, (s.CurrentDef b).Defs d = some (.inst Phi) →
          (s'.CurrentDef b).Defs d = some W) ∧
        ((∀ i, w = .inst i → s'.insts i = none → s'.numInsts ≤ i) → W = w) := by
  obtain ⟨s1, hl, ho⟩ := addPhiOperands_ok h
  obtain ⟨q1, fin1, ⟨x1, hx1, eops, eop⟩, d1⟩ :=
    addPhiOperandsLoop_visible fuel D Phi w _ s s1 x hfin hx hvis hl
  rw [hempty, List.nil_append] at eops
  obtain ⟨m, hm⟩ : ∃ m, (s.predecessors BB).length = m + 1 := by
    cases hp : s.predecessors BB with
    | nil => exact absurd hp hpreds
    | cons p ps => exact ⟨ps.length, rfl⟩
  have hsame : ∃ Same? : Option Value, sameIncoming Phi x1.operands none = some Same? ∧
      CGState.substValue Phi (Same?.getD (.undef x1.ty)) w = Same?.getD (.undef x1.ty) ∧
      (w ≠ .inst Phi → Same?.getD (.undef x1.ty) = w) := by
    by_cases hw : w = .inst Phi
    · refine ⟨none, ?_, ?_, fun h' => absurd hw h'⟩
      · rw [eops, hw]
        exact sameIncoming_replicate_self Phi _
      · unfold CGState.substValue
        rw [if_pos hw]
    · refine ⟨some w, ?_, ?_, fun _ => rfl⟩
      · rw [eops, hm]
        exact sameIncoming_replicate Phi w hw m
      · unfold CGState.substValue
        rw [if_neg hw]
        rfl
  obtain ⟨Same?, hs, hsub, hne⟩ := hsame
  rw [optimizePhi_succ_remove _ s1 Phi x1 Same? hx1 hs] at ho
  obtain ⟨u, s2, h1, h2⟩ := M.bind_eq_ok.1 ho
  cases h2
  obtain ⟨q2, r2⟩ := s1.replace_erase_substituted Phi x1 (Same?.getD (.undef x1.ty)) fin1 hx1
    (eop.trans hop)
  obtain ⟨a1, _, _, _⟩ := s1.replace_erase_spec Phi x1 (Same?.getD (.undef x1.ty)) hx1
  obtain ⟨⟨τ, q3⟩, r3⟩ := forEachPhi_substituted _ _
    (fun P _ t ht hP w' t' hw' => optimizePhi_substituted _ P t ht hP w' t' hw') _
    (r2.staysFinite fin1)
    (fun P hP => r2.phiOrGone (fun y hy => by
      have := candidatePhis_isPHI s1 Phi x1.uses P hP
      simp only [CGState.isPHI, hy] at this
      simpa using this)) u _ h1
  have hlt1 : Phi < s1.numInsts := by
    by_contra hn
    rw [fin1 Phi (Nat.le_of_not_lt hn)] at hx1
    cases hx1
  have hlt2 : Phi < ((s1.replaceAllUsesWith Phi (Same?.getD (.undef x1.ty))).eraseFromParent
      Phi).numInsts := Nat.lt_of_lt_of_le hlt1 q2.le
  have hgone : s'.insts Phi = none := q3.gone Phi hlt2 a1
  have q := (q1.composed q2).composed q3
  have hσ : (τ ∘ (CGState.substValue Phi (Same?.getD (.undef x1.ty)) ∘ id)) (.inst Phi) =
      τ (Same?.getD (.undef x1.ty)) := by
    show τ (CGState.substValue Phi _ (.inst Phi)) = _
    unfold CGState.substValue
    rw [if_pos rfl]
  refine ⟨hgone, Nat.lt_of_lt_of_le hlt2 q3.le, r3.staysFinite (r2.staysFinite fin1), ⟨_, q⟩,
    τ (Same?.getD (.undef x1.ty)), ?_, ?_, ?_, ?_⟩
  · intro p hp
    have := q3.defs p D _ (q2.defs p D _ (d1 p hp))
    rw [hsub] at this
    exact this
  · intro j y y' hy hy' k hk
    have := q.ops j y y' hy hy' k _ hk
    rw [hσ] at this
    exact this
  · intro b d hd
    have := q.defs b d _ hd
    rw [hσ] at this
    exact this
  · intro hw
    have hwne : w ≠ .inst Phi := fun e =>
      absurd (Nat.lt_of_lt_of_le hlt2 q3.le) (Nat.not_lt.2 (hw Phi e hgone))
    rw [hne hwne]
    exact q3.unmoved w hw

/-- When `addPhiOperands` returns for a block with a predecessor, the phi
was an instruction of the function: `addIncoming` has been called on it. -/
theorem addPhiOperands_live {fuel : Nat} {BB : BlockId} {D : Decl} {Phi : InstId}
    {s s' : CGState} {v : Value} (hfin : s.Finite) (hlt : Phi < s.numInsts)
    (hpreds : s.predecessors BB ≠ []) (h : addPhiOperands fuel BB D Phi s = .ok v s') :
    ∃ x, s.insts Phi = some x := by
  obtain ⟨s1, hl, _⟩ := addPhiOperands_ok h
  cases hp : s.predecessors BB with
  | nil => exact absurd hp hpreds
  | cons p ps =>
    rw [hp] at hl
    unfold addPhiOperandsLoop at hl
    obtain ⟨V, t1, h1, ha⟩ := M.do_eq_ok.1 hl
    obtain ⟨_, t2, h2, _⟩ := M.do_eq_ok.1 ha
    obtain ⟨_, fin1, e1, _, _⟩ := readLocalVariable_substituted fuel p D s t1 V hfin h1
    obtain ⟨_, _, _, _, _, x0, _, hx0, _⟩ := addIncoming_substituted fin1 h2
    rw [e1 Phi hlt] at hx0
    exact ⟨x0, hx0⟩

/-- The loop of `sealBlock`, for the incomplete phi `Phi` of the variable `D`
when the reads of `D` in all predecessors find the same value `V` without
creating a phi. -/
theorem sealBlockLoop_merges (fuel : Nat) (BB : BlockId) (snap : List (InstId × Decl))
    (Phi : InstId) (D : Decl) :
    ∀ (rest : List (InstId × Decl)) (s s' : CGState), PhiInv none s →
    Event.seal BB ∈ s.trace → (s.CurrentDef BB).IncompletePhis = snap →
    (∀ p ∈ rest, p ∈ snap) → (rest.map Prod.fst).Nodup →
    (∀ p ∈ rest, ∀ x, s.insts p.1 = some x → x.blocks = []) →
    (∀ p ∈ snap, p.1 ∉ rest.map Prod.fst →
      ∀ x, s.insts p.1 = some x → x.blocks = s.predecessors BB) →
    s.predecessors BB ≠ [] →
    sealBlockLoop fuel BB rest s = .ok () s' →
    (∃ σ, s.Substituted σ s') ∧
    ((Phi, D) ∈ rest → ∀ V, (∀ p ∈ s.predecessors BB, ∃ n, s.visibleDef n p D = some V) →
      (∃ x, s.insts Phi = some x) ∧ s'.insts Phi = none ∧
      ∃ W, (∀ p ∈ s.predecessors BB, (s'.CurrentDef p).Defs D = some W) ∧
        (∀ j y y', s.insts j = some y → s'.insts j = some y' → ∀ (k : Nat),
          y.operands[k]? = some (.inst Phi) → y'.operands[k]? = some W) ∧
        (∀ b d, (s.CurrentDef b).Defs d = some (.inst Phi) →
          (s'.CurrentDef b).Defs d = some W) ∧
        ((∀ i, V = .inst i → s'.insts i = none → s'.numInsts ≤ i) → W = V)) := by
  intro rest
  induction rest with
  | nil =>
    intro s s' hs _ _ _ _ _ _ _ h
    cases h
    exact ⟨⟨id, CGState.Substituted.noChange _ hs.fresh⟩, fun hm => absurd hm (List.not_mem_nil _)⟩
  | cons PD rest ih =>
    intro s s' hs hseal hsnap hsub hnd hempty hdone hpreds h
    unfold sealBlockLoop at h
    obtain ⟨v, s2, h1, h⟩ := M.do_eq_ok.1 h
    have hPD : (PD.1, PD.2) ∈ (s.CurrentDef BB).IncompletePhis := by
      rw [hsnap]
      exact hsub PD (List.mem_cons_self _ _)
    obtain ⟨p1, p2, p3⟩ := hs.pending BB PD.1 PD.2 hPD
    obtain ⟨i2, f2, hfill⟩ := addPhiOperands_spec fuel BB PD.2 PD.1 hs hseal p2
      (fun x hx => ⟨(p3 x hx).1, (p3 x hx).2, hempty PD (List.mem_cons_self _ _) x hx⟩) h1
    rw [List.map_cons, List.nodup_cons] at hnd
    have hsnap2 : (s2.CurrentDef BB).IncompletePhis = snap :=
      ((f2.2.2.2.2 BB).1 p1).trans hsnap
    have hpr : s2.predecessors BB = s.predecessors BB := f2.2.2.1 BB
    obtain ⟨⟨σ1, q1⟩, fin2⟩ := addPhiOperands_substituted hs.fresh p2
      (fun x hx => (p3 x hx).1) h1
    obtain ⟨⟨σ2, q2⟩, tgt⟩ := ih s2 s' i2 (by rw [f2.2.2.2.1]; exact hseal) hsnap2
      (fun p hp => hsub p (List.mem_cons_of_mem _ hp)) hnd.2
      (by
        intro p hp x' hx'
        have hne : p.1 ≠ PD.1 := fun he => hnd.1 (he ▸ List.mem_map_of_mem Prod.fst hp)
        have hp' : (p.1, p.2) ∈ (s.CurrentDef BB).IncompletePhis := by
          rw [hsnap]
          exact hsub p (List.mem_cons_of_mem _ hp)
        obtain ⟨x, hx, e⟩ := f2.2.1 p.1 x' (hs.pending BB p.1 p.2 hp').2.1 hne hx'
        rw [e]
        exact hempty p (List.mem_cons_of_mem _ hp) x hx)
      (by
        intro p hp hnot x' hx'
        by_cases he : p.1 = PD.1
        · rw [he] at hx'
          exact hfill x' hx'
        · have hp' : (p.1, p.2) ∈ (s.CurrentDef BB).IncompletePhis := by
            rw [hsnap]
            exact hp
          obtain ⟨x, hx, e⟩ := f2.2.1 p.1 x' (hs.pending BB p.1 p.2 hp').2.1 he hx'
          rw [e, f2.2.2.1]
          refine hdone p hp ?_ x hx
          rw [List.map_cons, List.mem_cons]
          rintro (h' | h')
          · exact he h'
          · exact hnot h')
      (by rw [hpr]; exact hpreds)
      h
    refine ⟨⟨_, q1.composed q2⟩, ?_⟩
    intro hmem V hvis
    have hmid : ∀ j y y', s.insts j = some y → s'.insts j = some y' →
        ∃ y2, s2.insts j = some y2 := by
      intro j y y' hy hy'
      cases h2j : s2.insts j with
      | some y2 => exact ⟨y2, rfl⟩
      | none =>
        have := q2.gone j (Nat.lt_of_lt_of_le (q1.live_below hy) q1.le) h2j
        rw [this] at hy'
        cases hy'
    by_cases he : PD.1 = Phi
    · have hPDeq : PD = (Phi, D) := by
        rcases List.mem_cons.1 hmem with e | hm
        · exact e.symm
        · exact absurd (he ▸ List.mem_map_of_mem Prod.fst hm) hnd.1
      subst hPDeq
      obtain ⟨x, hx⟩ := addPhiOperands_live hs.fresh p2 hpreds h1
      have hop := (p3 x hx).1
      have hops : x.operands = [] := by
        have hl := hs.len Phi x hx hop
        rw [hempty (Phi, D) (List.mem_cons_self _ _) x hx] at hl
        exact List.length_eq_zero.1 hl
      obtain ⟨g1, g2, _, _, W1, w1, w2, w3, w4⟩ :=
        addPhiOperands_same hs.fresh hx hop hops hpreds hvis h1
      refine ⟨⟨x, hx⟩, q2.gone Phi g2 g1, σ2 W1, ?_, ?_, ?_, ?_⟩
      · intro p hp
        exact q2.defs p D W1 (w1 p hp)
      · intro j y y' hy hy' k hk
        obtain ⟨y2, hy2⟩ := hmid j y y' hy hy'
        exact q2.ops j y2 y' hy2 hy' k W1 (w2 j y y2 hy hy2 k hk)
      · intro b d hd
        exact q2.defs b d W1 (w3 b d hd)
      · intro hV
        rw [w4 (q2.unerased V hV)]
        exact q2.unmoved V hV
    · have hmem' : (Phi, D) ∈ rest := by
        rcases List.mem_cons.1 hmem with e | hm
        · exact absurd (by rw [← e]) he
        · exact hm
      obtain ⟨⟨x2, hx2⟩, g1, W, w1, w2, w3, w4⟩ := tgt hmem' (σ1 V) (by
        intro p hp
        rw [hpr] at hp
        obtain ⟨n, hn⟩ := hvis p hp
        exact ⟨n, q1.visible n p D V hn⟩)
      have hlive : ∃ x, s.insts Phi = some x := by
        cases hx : s.insts Phi with
        | some x => exact ⟨x, rfl⟩
        | none =>
          have hlt : Phi < s.numInsts := by
            have hm : (Phi, D) ∈ (s.CurrentDef BB).IncompletePhis := by
              rw [hsnap]
              exact hsub _ hmem
            exact (hs.pending BB Phi D hm).2.1
          have := q1.gone Phi hlt hx
          rw [this] at hx2
          cases hx2
      have hfix : σ1 (.inst Phi) = .inst Phi := by
        refine q1.unmoved _ ?_
        intro i hi hn
        cases hi
        rw [hx2] at hn
        cases hn
      refine ⟨hlive, g1, W, ?_, ?_, ?_, ?_⟩
      · intro p hp
        exact w1 p (by rw [hpr]; exact hp)
      · intro j y y' hy hy' k hk
        obtain ⟨y2, hy2⟩ := hmid j y y' hy hy'
        have := q1.ops j y y2 hy hy2 k _ hk
        rw [hfix] at this
        exact w2 j y2 y' hy2 hy' k this
      · intro b d hd
        have := q1.defs b d _ hd
        rw [hfix] at this
        exact w3 b d this
      · intro hV
        have e : σ1 V = V := q1.unmoved V (q2.unerased V hV)
        have := w4 (by rw [e]; exact hV)
        rw [this, e]

/-- Sealing a block with an incomplete phi `Phi` of the variable `D` when
the reads of `D` in all predecessors find the same value `V` without creating
a phi.  When `sealBlock` returns, `Phi` has been erased, and there is a value
`W` that every predecessor records for `D` and that every operand and every
recorded definition holds that was `Phi`; `W` is `V` unless `V` has been
erased.  Every instruction that is not a phi is still there. -/
theorem sealBlock_merges {E : Env} {fuel : Nat} {BB : BlockId} {D : Decl} {Phi : InstId}
    {V : Value} {s s' : CGState} (hs : PhiInv none s)
    (hc : ∀ b, Event.seal b ∈ s.trace → (s.CurrentDef b).Sealed = true)
    (hphi : (Phi, D) ∈ (s.CurrentDef BB).IncompletePhis)
    (hpreds : s.predecessors BB ≠ [])
    (hvis : ∀ p ∈ s.predecessors BB, ∃ n, s.visibleDef n p D = some V)
    (h : sealBlock E fuel BB s = .ok () s') :
    (∃ x, s.insts Phi = some x) ∧ s'.insts Phi = none ∧
      (∃ W, (∀ p ∈ s.predecessors BB, (s'.CurrentDef p).Defs D = some W) ∧
        (∀ j y, s.insts j = some y →
          (y.op ≠ Opcode.PHI → ∃ y', s'.insts j = some y' ∧ y'.op = y.op) ∧
          ∀ y', s'.insts j = some y' → ∀ (k : Nat),
            y.operands[k]? = some (.inst Phi) → y'.operands[k]? = some W) ∧
        (∀ b d, (s.CurrentDef b).Defs d = some (.inst Phi) →
          (s'.CurrentDef b).Defs d = some W) ∧
        ((∀ i, V = .inst i → s'.insts i = none → s'.numInsts ≤ i) → W = V)) ∧
      (s'.CurrentDef BB).Sealed = true ∧ (s'.CurrentDef BB).IncompletePhis = [] := by
  obtain ⟨hS, s1, hl, hs'⟩ := sealBlock_ok h
  have hnot : Event.seal BB ∉ s.trace := by
    intro hm
    rw [hc BB hm] at hS
    cases hS
  have hperm := E.order_perm (s.CurrentDef BB).IncompletePhis
  have hvc : ∀ n b d, CGState.visibleDef { s with trace := s.trace ++ [Event.seal BB] } n b d =
      s.visibleDef n b d := CGState.visibleDef_congr rfl (fun _ => rfl)
  obtain ⟨⟨σ, q⟩, tgt⟩ := sealBlockLoop_merges fuel BB (s.CurrentDef BB).IncompletePhis Phi D
    (E.order (s.CurrentDef BB).IncompletePhis) { s with trace := s.trace ++ [Event.seal BB] } s1
    (hs.appendTrace _) (by simp) rfl (fun p hp => hperm.mem_iff.1 hp)
    ((hperm.map Prod.fst).nodup_iff.2 (hs.nodup BB))
    (by
      intro p hp x hx
      have hp' : (p.1, p.2) ∈ (s.CurrentDef BB).IncompletePhis := hperm.mem_iff.1 hp
      obtain ⟨_, _, p3⟩ := hs.pending BB p.1 p.2 hp'
      obtain ⟨hop, hpar⟩ := p3 x hx
      rcases hs.blocks p.1 x hx hop (by simp) with ⟨h1, _⟩ | ⟨h1, _⟩
      · rw [hpar] at h1
        exact absurd h1 hnot
      · exact h1)
    (by
      intro p hp hnot'
      exact absurd (List.mem_map_of_mem Prod.fst (hperm.mem_iff.2 hp)) hnot')
    hpreds hl
  obtain ⟨hlive, g1, W, w1, w2, w3, w4⟩ := tgt (hperm.mem_iff.2 hphi) V (by
    intro p hp
    obtain ⟨n, hn⟩ := hvis p hp
    exact ⟨n, (hvc n p D).trans hn⟩)
  have hi : s'.insts = s1.insts := by rw [hs']; rfl
  have hn : s'.numInsts = s1.numInsts := by rw [hs']; rfl
  have hd : ∀ b d, (s'.CurrentDef b).Defs d = (s1.CurrentDef b).Defs d := by
    intro b d
    rw [hs']
    unfold CGState.updDef
    dsimp only
    split <;> rfl
  refine ⟨hlive, by rw [hi]; exact g1, ⟨W, ?_, ?_, ?_, ?_⟩, ?_, ?_⟩
  · intro p hp
    rw [hd]
    exact w1 p hp
  · intro j y hy
    refine ⟨?_, ?_⟩
    · intro hne
      rcases q.kind j y hy with ⟨y', hy', e⟩ | ⟨_, hp⟩
      · exact ⟨y', by rw [hi]; exact hy', e⟩
      · exact absurd hp hne
    · intro y' hy' k hk
      rw [hi] at hy'
      exact w2 j y y' hy hy' k hk
  · intro b d hdef
    rw [hd]
    exact w3 b d hdef
  · intro hV
    refine w4 ?_
    intro i hi' hn'
    have := hV i hi' (by rw [hi]; exact hn')
    rw [hn] at this
    exact this
  · rw [hs']
    simp [CGState.updDef]
  · rw [hs']
    simp [CGState.updDef]

/-! ### When sealing returns -/

theorem CGState.visibleDef_pred {s : CGState} {n : Nat} {b : BlockId} {d : Decl} {v : Value}
    (hd : (s.CurrentDef b).Defs d = none) :
    s.visibleDef (n + 1) b d = some v ↔ (s.CurrentDef b).Sealed = true ∧
      ∃ p, s.getSinglePredecessor b = some p ∧ s.visibleDef n p d = some v := by
  simp only [CGState.visibleDef, hd]
  cases hS : (s.CurrentDef b).Sealed
  · simp
  · cases hg : s.getSinglePredecessor b with
    | none => simp
    | some p => simp

theorem CGState.visibleDef_succ (s : CGState) : ∀ (n : Nat) (b : BlockId) (d : Decl) (v : Value),
    s.visibleDef n b d = some v → s.visibleDef (n + 1) b d = some v := by
  intro n
  induction n with
  | zero => intro b d v h; cases h
  | succ n ih =>
    intro b d v h
    cases hd : (s.CurrentDef b).Defs d with
    | some v0 =>
      rw [s.visibleDef_own n b d v0 hd] at h
      rw [s.visibleDef_own (n + 1) b d v0 hd]
      exact h
    | none =>
      obtain ⟨hS, p, hp, hv⟩ := (CGState.visibleDef_pred hd).1 h
      exact (CGState.visibleDef_pred hd).2 ⟨hS, p, hp, ih p d v hv⟩

theorem CGState.visibleDef_le (s : CGState) {n m : Nat} (h : n ≤ m) (b : BlockId) (d : Decl)
    (v : Value) (hv : s.visibleDef n b d = some v) : s.visibleDef m b d = some v := by
  induction h with
  | refl => exact hv
  | step _ ih => exact s.visibleDef_succ _ b d v ih

/-- A read that finds a value within the depth of its recursion returns it
and creates no instruction. -/
theorem readLocalVariable_visible {D : Decl} {V : Value} (hD : D.isVarOrParam = true) :
    ∀ (n fuel : Nat) (BB : BlockId) (s : CGState), s.visibleDef n BB D = some V → n ≤ fuel →
    ∃ s', readLocalVariable fuel BB D s = .ok V s' ∧ s'.insts = s.insts := by
  intro n
  induction n with
  | zero => intro fuel BB s h; cases h
  | succ n ih =>
    intro fuel BB s h hle
    obtain ⟨f, rfl⟩ : ∃ f, fuel = f + 1 := ⟨fuel - 1, by omega⟩
    cases hd : (s.CurrentDef BB).Defs D with
    | some v0 =>
      rw [s.visibleDef_own n BB D v0 hd] at h
      rw [Option.some.inj h] at hd
      exact ⟨s, readLocalVariable_defined f BB D V s hD hd, rfl⟩
    | none =>
      obtain ⟨hS, p, hp, hv⟩ := (CGState.visibleDef_pred hd).1 h
      obtain ⟨s1, h1, e1⟩ := ih f p s hv (by omega)
      refine ⟨s1.setDef BB D V, ?_, e1⟩
      unfold readLocalVariable
      simp [hD, hd, M.bind, M.get, readLocalVariableRecursiveWith, hS, hp, h1,
        writeLocalVariable]

theorem addIncoming_frame {Phi : InstId} {V : Value} (BB : BlockId) {s : CGState}
    {x : Instruction} (hx : s.insts Phi = some x) (hV : V ≠ .inst Phi) :
    ∃ s1, addIncoming Phi V BB s = .ok () s1 ∧
      s1.insts Phi = some { x with operands := x.operands ++ [V], blocks := x.blocks ++ [BB] } ∧
      (∀ j, j ≠ Phi → V ≠ .inst j → s1.insts j = s.insts j) ∧
      ∀ j, s1.isPHI j = s.isPHI j := by
  refine ⟨(s.setInst Phi (some { x with operands := x.operands ++ [V], blocks := x.blocks ++ [BB] })).addUse V (Phi, x.operands.length), by simp only [addIncoming, hx], ?_⟩
  cases V with
  | inst i =>
    have hi : i ≠ Phi := fun h => hV (by rw [h])
    simp only [CGState.addUse, CGState.setInst, hi, if_false]
    cases hy : s.insts i with
    | none =>
      refine ⟨by simp, ?_, ?_⟩
      · intro j hj _
        simp [hj]
      · intro j
        by_cases hj : j = Phi
        · subst hj
          simp [CGState.isPHI, hx]
        · simp [CGState.isPHI, hj]
    | some y =>
      refine ⟨by simp [Ne.symm hi], ?_, ?_⟩
      · intro j hj hVj
        have hji : j ≠ i := fun h => hVj (by rw [h])
        simp [hj, hji]
      · intro j
        by_cases hj : j = Phi
        · subst hj
          simp [CGState.isPHI, hx, Ne.symm hi]
        · by_cases hji : j = i
          · subst hji
            simp [CGState.isPHI, hy]
          · simp [CGState.isPHI, hj, hji]
  | constInt _ _ | undef _ | poison _ | global _ | arg _ =>
    refine ⟨by simp [CGState.addUse, CGState.setInst], ?_, ?_⟩
    · intro j hj _
      simp [CGState.addUse, CGState.setInst, hj]
    · intro j
      by_cases hj : j = Phi
      · subst hj
        simp [CGState.isPHI, CGState.addUse, CGState.setInst, hx]
      · simp [CGState.isPHI, CGState.addUse, CGState.setInst, hj]

/-- The loop of `addPhiOperands` returns when the read in every predecessor
finds the value `V` within the depth of its recursion and the phi is an
instruction of the function. -/
theorem addPhiOperandsLoop_returns {fuel : Nat} {D : Decl} {Phi : InstId} {V : Value}
    (hD : D.isVarOrParam = true) (hV : V ≠ .inst Phi) :
    ∀ (preds : List BlockId) (s : CGState) (x : Instruction), s.Finite →
    s.insts Phi = some x →
    (∀ p ∈ preds, ∃ n, n ≤ fuel ∧ s.visibleDef n p D = some V) →
    ∃ s1, addPhiOperandsLoop (readLocalVariable fuel) D Phi preds s = .ok () s1 ∧
      (∃ x1, s1.insts Phi = some x1 ∧ x1.uses = x.uses) ∧
      (∀ j, j ≠ Phi → V ≠ .inst j → s1.insts j = s.insts j) ∧
      ∀ j, s1.isPHI j = s.isPHI j := by
  intro preds
  induction preds with
  | nil =>
    intro s x _ hx _
    exact ⟨s, rfl, ⟨x, hx, rfl⟩, fun _ _ _ => rfl, fun _ => rfl⟩
  | cons p ps ih =>
    intro s x hfin hx hvis
    obtain ⟨n, hn, hv⟩ := hvis p (List.mem_cons_self _ _)
    obtain ⟨t1, h1, e1⟩ := readLocalVariable_visible hD n fuel p s hv hn
    obtain ⟨q1, fin1, _, _, _⟩ := readLocalVariable_substituted fuel p D s t1 V hfin h1
    have hx1 : t1.insts Phi = some x := by rw [e1]; exact hx
    obtain ⟨t2, h2, a2, b2, c2⟩ := addIncoming_frame p hx1 hV
    obtain ⟨q2, fin2, _⟩ := addIncoming_substituted fin1 h2
    have q12 := q1.composed q2
    obtain ⟨s1, h3, ⟨x1, hx1', eu⟩, b3, c3⟩ := ih t2 _ fin2 a2 (fun p' hp' => by
      obtain ⟨m, hm, hv'⟩ := hvis p' (List.mem_cons_of_mem _ hp')
      exact ⟨m, hm, q12.visible m p' D V hv'⟩)
    refine ⟨s1, ?_, ⟨x1, hx1', eu⟩, ?_, ?_⟩
    · unfold addPhiOperandsLoop
      show M.bind _ _ s = _
      rw [M.bind_ok h1]
      show M.bind _ _ t1 = _
      rw [M.bind_ok h2]
      exact h3
    · intro j hj hVj
      rw [b3 j hj hVj, b2 j hj hVj, e1]
    · intro j
      rw [c3 j, c2 j]
      unfold CGState.isPHI
      rw [e1]

theorem candidatePhis_eq_nil {s : CGState} {Phi : InstId} {uses : List Use} :
    candidatePhis s Phi uses = [] ↔
      ∀ Q k, (Q, k) ∈ uses → s.isPHI Q = true → Q = Phi := by
  rw [List.eq_nil_iff_forall_not_mem]
  constructor
  · intro h Q k hk hQ
    by_contra hne
    exact h Q ((mem_candidatePhis s Phi uses Q).2 ⟨hne, hQ, k, hk⟩)
  · intro h Q hQ
    obtain ⟨hne, hphi, k, hk⟩ := (mem_candidatePhis s Phi uses Q).1 hQ
    exact hne (h Q k hk hphi)

/-- `addPhiOperands` returns on an empty phi without a phi among its users
when the block has a predecessor and the read in every predecessor finds the
value `V` within the depth of its recursion: it has replaced the phi by `V`
and erased it, and has left the other instructions as they were but for
this. -/
theorem addPhiOperands_returns {fuel : Nat} (BB : BlockId) {D : Decl} {Phi : InstId}
    {V : Value} {s : CGState} {x : Instruction} (hfin : s.Finite)
    (hx : s.insts Phi = some x) (hop : x.op = Opcode.PHI) (hempty : x.operands = [])
    (hcand : candidatePhis s Phi x.uses = []) (hD : D.isVarOrParam = true)
    (hV : V ≠ .inst Phi) (hpreds : s.predecessors BB ≠ [])
    (hvis : ∀ p ∈ s.predecessors BB, ∃ n, n ≤ fuel ∧ s.visibleDef n p D = some V) :
    ∃ s', addPhiOperands fuel BB D Phi s = .ok V s' ∧
      s.Substituted (CGState.substValue Phi V) s' ∧ s'.Finite ∧
      (∀ j y, j ≠ Phi → V ≠ .inst j → s.insts j = some y →
        ∃ y', s'.insts j = some y' ∧ y'.op = y.op ∧
          y'.operands = y.operands.map (CGState.substValue Phi V) ∧
          ∀ u ∈ y'.uses, u ∈ y.uses) ∧
      ∀ j, s'.isPHI j = true → s.isPHI j = true := by
  obtain ⟨s1, hl, ⟨x1, hx1, eu⟩, b1, c1⟩ :=
    addPhiOperandsLoop_returns hD hV (s.predecessors BB) s x hfin hx hvis
  obtain ⟨q1, fin1, ⟨x1', hx1', eops, eop⟩, _⟩ :=
    addPhiOperandsLoop_visible fuel D Phi V _ s s1 x hfin hx
      (fun p hp => by
        obtain ⟨n, _, hn⟩ := hvis p hp
        exact ⟨n, hn⟩) hl
  rw [hx1] at hx1'
  cases hx1'
  rw [hempty, List.nil_append] at eops
  obtain ⟨m, hm⟩ : ∃ m, (s.predecessors BB).length = m + 1 := by
    cases hp : s.predecessors BB with
    | nil => exact absurd hp hpreds
    | cons p ps => exact ⟨ps.length, rfl⟩
  have hsame : sameIncoming Phi x1.operands none = some (some V) := by
    rw [eops, hm]
    exact sameIncoming_replicate Phi V hV m
  have hcand1 : candidatePhis s1 Phi x1.uses = [] := by
    rw [candidatePhis_eq_nil] at hcand ⊢
    intro Q k hk hQ
    rw [eu] at hk
    rw [c1] at hQ
    exact hcand Q k hk hQ
  have hopt : optimizePhi (s1.numInsts + 1) Phi s1 =
      .ok V ((s1.replaceAllUsesWith Phi V).eraseFromParent Phi) := by
    rw [optimizePhi_succ_remove _ s1 Phi _ (some V) hx1 hsame]
    simp only [hcand1]
    rfl
  have hadd : addPhiOperands fuel BB D Phi s =
      .ok V ((s1.replaceAllUsesWith Phi V).eraseFromParent Phi) := by
    unfold addPhiOperands addPhiOperandsWith
    show M.bind M.get _ _ = _
    rw [M.bind_get]
    show M.bind (addPhiOperandsLoop (readLocalVariable fuel) D Phi (s.predecessors BB)) _
      _ = _
    rw [M.bind_ok hl]
    show M.bind M.get _ _ = _
    rw [M.bind_get]
    exact hopt
  obtain ⟨q2, r2⟩ := s1.replace_erase_substituted Phi x1 V fin1 hx1 (eop.trans hop)
  have hlive : ∃ z, (s1.replaceAllUsesWith Phi V).insts Phi = some z := by
    simp [CGState.replaceAllUsesWith, hx1]
  obtain ⟨z, hz⟩ := hlive
  refine ⟨_, hadd, ?_, r2.staysFinite fin1, ?_, ?_⟩
  · have := q1.composed q2
    rw [Function.comp_id] at this
    exact this
  · intro j y hj hVj hy
    have hy1 : s1.insts j = some y := by rw [b1 j hj hVj]; exact hy
    have hVj' : ¬ V = Value.inst j := hVj
    simp only [CGState.eraseFromParent, hz, hj, if_false]
    simp only [CGState.replaceAllUsesWith, hy1, Option.map_some']
    refine ⟨_, rfl, rfl, rfl, ?_⟩
    intro u hu
    simp only [hj, hVj', if_false] at hu
    exact (List.mem_filter.1 hu).1
  · intro j hj
    rw [← c1 j]
    by_cases hjP : j = Phi
    · subst hjP
      simp [CGState.isPHI, CGState.insts_eraseFromParent_self _ j z hz] at hj
    · unfold CGState.isPHI at hj ⊢
      simp only [CGState.eraseFromParent, hz, hjP, if_false] at hj
      simp only [CGState.replaceAllUsesWith] at hj
      cases h1 : s1.insts j with
      | none => rw [h1] at hj; simp at hj
      | some y => rw [h1] at hj; simpa using hj

/-- The loop of `sealBlock` returns when each of the incomplete phis is an
empty phi without a phi among its users, and the reads of its variable in the
predecessors all find, within the depth of their recursion, the same value,
which is none of the incomplete phis.  Values other than the incomplete phis
are not replaced. -/
theorem sealBlockLoop_returns (fuel : Nat) (BB : BlockId) :
    ∀ (rest : List (InstId × Decl)) (s : CGState), s.Finite → (rest.map Prod.fst).Nodup →
    s.predecessors BB ≠ [] →
    (∀ Q d, (Q, d) ∈ rest → d.isVarOrParam = true ∧
      (∃ x, s.insts Q = some x ∧ x.op = Opcode.PHI ∧ x.operands = [] ∧
        candidatePhis s Q x.uses = []) ∧
      ∃ W, (∀ Q' d', (Q', d') ∈ rest → W ≠ .inst Q') ∧
        ∀ p ∈ s.predecessors BB, ∃ n, n ≤ fuel ∧ s.visibleDef n p d = some W) →
    ∃ s', sealBlockLoop fuel BB rest s = .ok () s' ∧
      ∃ σ, s.Substituted σ s' ∧ ∀ v, (∀ Q d, (Q, d) ∈ rest → v ≠ .inst Q) → σ v = v := by
  intro rest
  induction rest with
  | nil =>
    intro s hfin _ _ _
    exact ⟨s, rfl, id, CGState.Substituted.noChange _ hfin, fun _ _ => rfl⟩
  | cons PD rest ih =>
    intro s hfin hnd hpreds hall
    obtain ⟨P, D⟩ := PD
    rw [List.map_cons, List.nodup_cons] at hnd
    obtain ⟨hD, ⟨x, hx, hop, hempty, hcand⟩, W, hW, hvis⟩ := hall P D (List.mem_cons_self _ _)
    have hWP : W ≠ .inst P := hW P D (List.mem_cons_self _ _)
    obtain ⟨s2, h2, q, fin2, frame, hphi⟩ :=
      addPhiOperands_returns BB hfin hx hop hempty hcand hD hWP hpreds hvis
    have hpr : s2.predecessors BB = s.predecessors BB := q.preds BB
    obtain ⟨s', h3, τ, q', hτ⟩ := ih s2 fin2 hnd.2 (by rw [hpr]; exact hpreds) (by
      intro Q d hQ
      have hQ' : (Q, d) ∈ (P, D) :: rest := List.mem_cons_of_mem _ hQ
      obtain ⟨hD', ⟨y, hy, hop', hempty', hcand'⟩, W', hW', hvis'⟩ := hall Q d hQ'
      have hQm : Q ∈ rest.map Prod.fst := List.mem_map_of_mem Prod.fst hQ
      have hne : Q ≠ P := fun he => hnd.1 (by rw [← he]; exact hQm)
      obtain ⟨y', hy', eop, eops, huses⟩ := frame Q y hne (hW Q d hQ') hy
      refine ⟨hD', ⟨y', hy', eop.trans hop', by rw [eops, hempty']; rfl, ?_⟩, W',
        fun Q' d' h' => hW' Q' d' (List.mem_cons_of_mem _ h'), ?_⟩
      · rw [candidatePhis_eq_nil] at hcand' ⊢
        intro R k hk hR
        exact hcand' R k (huses _ hk) (hphi R hR)
      · intro p hp
        rw [hpr] at hp
        obtain ⟨n, hn, hv⟩ := hvis' p hp
        refine ⟨n, hn, ?_⟩
        have := q.visible n p d W' hv
        rw [this]
        unfold CGState.substValue
        rw [if_neg (hW' P D (List.mem_cons_self _ _))])
    refine ⟨s', ?_, τ ∘ CGState.substValue P W, q.composed q', ?_⟩
    · unfold sealBlockLoop
      show M.bind _ _ s = _
      rw [M.bind_ok h2]
      exact h3
    · intro v hv
      show τ (CGState.substValue P W v) = v
      unfold CGState.substValue
      rw [if_neg (hv P D (List.mem_cons_self _ _))]
      exact hτ v (fun Q d h' => hv Q d (List.mem_cons_of_mem _ h'))

/-- `sealBlock` returns on an unsealed block with a predecessor when each
of its incomplete phis is an empty phi without a phi among its users, and the
reads of its variable in the predecessors all find, within the depth of their
recursion, the same value, which is none of the incomplete phis.  What a
predecessor records afterwards for a variable is the value that was visible
there, if that is none of the incomplete phis. -/
theorem sealBlock_returns (E : Env) (fuel : Nat) {BB : BlockId} {s : CGState}
    (hfin : s.Finite) (hU : (s.CurrentDef BB).Sealed = false)
    (hnd : ((s.CurrentDef BB).IncompletePhis.map Prod.fst).Nodup)
    (hpreds : s.predecessors BB ≠ [])
    (hall : ∀ Q d, (Q, d) ∈ (s.CurrentDef BB).IncompletePhis → d.isVarOrParam = true ∧
      (∃ x, s.insts Q = some x ∧ x.op = Opcode.PHI ∧ x.operands = [] ∧
        candidatePhis s Q x.uses = []) ∧
      ∃ W, (∀ Q' d', (Q', d') ∈ (s.CurrentDef BB).IncompletePhis → W ≠ .inst Q') ∧
        ∀ p ∈ s.predecessors BB, ∃ n, n ≤ fuel ∧ s.visibleDef n p d = some W) :
    ∃ s', sealBlock E fuel BB s = .ok () s' ∧
      ∀ p d n V W, (∀ Q d', (Q, d') ∈ (s.CurrentDef BB).IncompletePhis → V ≠ .inst Q) →
        s.visibleDef n p d = some V → (s'.CurrentDef p).Defs d = some W → W = V := by
  have hperm := E.order_perm (s.CurrentDef BB).IncompletePhis
  have hvc : ∀ n b d, CGState.visibleDef { s with trace := s.trace ++ [Event.seal BB] } n b d =
      s.visibleDef n b d := CGState.visibleDef_congr rfl (fun _ => rfl)
  obtain ⟨s1, hl, σ, q, hσ⟩ := sealBlockLoop_returns fuel BB
    (E.order (s.CurrentDef BB).IncompletePhis) { s with trace := s.trace ++ [Event.seal BB] }
    hfin ((hperm.map Prod.fst).nodup_iff.2 hnd) hpreds (by
      intro Q d hQ
      obtain ⟨hD, ⟨x, hx, hop, he, hcand⟩, W, hW, hv⟩ := hall Q d (hperm.mem_iff.1 hQ)
      refine ⟨hD, ⟨x, hx, hop, he, hcand⟩, W,
        fun Q' d' h' => hW Q' d' (hperm.mem_iff.1 h'), ?_⟩
      intro p hp
      obtain ⟨n, hn, hvn⟩ := hv p hp
      exact ⟨n, hn, (hvc n p d).trans hvn⟩)
  refine ⟨s1.updDef BB fun bd => { bd with IncompletePhis := [], Sealed := true }, ?_, ?_⟩
  · unfold sealBlock
    show M.bind M.get _ s = _
    rw [M.bind_get]
    simp only [hU, Bool.false_eq_true, if_false]
    show M.bind (pure PUnit.unit) _ s = _
    rw [M.bind_pure_left]
    show M.bind (M.modify _) _ s = _
    rw [M.bind_modify]
    show M.bind (sealBlockLoop fuel BB _) _ _ = _
    rw [M.bind_ok hl]
    rfl
  · intro p d n V W hV hv hW
    have hW1 : (s1.CurrentDef p).Defs d = some W := by
      unfold CGState.updDef at hW
      dsimp only at hW
      split at hW <;> exact hW
    have h1 := q.visible n p d V ((hvc n p d).trans hv)
    rw [hσ V (fun Q d' h' => hV Q d' (hperm.mem_iff.1 h'))] at h1
    cases n with
    | zero => cases hv
    | succ n =>
      rw [s1.visibleDef_own n p d W hW1] at h1
      exact Option.some.inj h1

theorem Res.ok_of_no_error {r : Res Unit} (h : r.error? = none) : r = .ok () r.state := by
  cases r with
  | ok a s => rfl
  | fail e s => cases h

/-- The block in which `emitStmt(IfStatement *)` ends is the block `after.if`
that it has created. -/
theorem emitIfStatement_curr {E : Env} {fuel : Nat} {emit' : List Stmt → M Unit} {Cond : Expr}
    {IfStmts ElseStmts : List Stmt} {s0 s1 : CGState}
    (h : emitIfStatement E fuel emit' Cond IfStmts ElseStmts s0 = .ok () s1) :
    s1.Curr = s0.numBlocks + (if ElseStmts.isEmpty then 1 else 2) := by
  unfold emitIfStatement at h
  cases hE : ElseStmts.isEmpty
  · simp only [hE, Bool.not_false, if_true] at h
    obtain ⟨IfBB, t1, h1, h⟩ := M.do_eq_ok.1 h
    cases h1
    obtain ⟨ElseBB, t2, h2, h⟩ := M.do_eq_ok.1 h
    cases h2
    obtain ⟨After, t3, h3, h⟩ := M.do_eq_ok.1 h
    cases h3
    iterate 4
      all_goals
        repeat (first
          | (obtain ⟨_, _, _, h⟩ := M.do_eq_ok.1 h)
          | (split at h))
    all_goals
      cases h
      simp
  · simp only [hE, Bool.not_true, Bool.false_eq_true, if_false] at h
    obtain ⟨IfBB, t1, h1, h⟩ := M.do_eq_ok.1 h
    cases h1
    obtain ⟨ElseBB, t2, h2, h⟩ := M.do_eq_ok.1 h
    cases h2
    obtain ⟨After, t3, h3, h⟩ := M.do_eq_ok.1 h
    cases h3
    iterate 4
      all_goals
        repeat (first
          | (obtain ⟨_, _, _, h⟩ := M.do_eq_ok.1 h)
          | (split at h))
    all_goals
      cases h
      simp

/-- The state in which `run` starts to emit the statements satisfies the
invariants that hold between two statements. -/
theorem Example.atBody_inv (Proc : ProcedureDeclaration) (s : CGState)
    (h : (do
      let ParamTypes ← createFunctionType Proc.FormalParams
      M.modify fun t => { t with argTys := ParamTypes }
      let BB ← createBasicBlock
      setCurr BB
      runFormalParams Proc.FormalParams 0
      runDecls Proc.Decls : M Unit) CGState.init = .ok () s) :
    ControlInv s ∧ PhiInv none s ∧ Closed s := by
  obtain ⟨tys, t1, h1, h⟩ := M.do_eq_ok.1 h
  obtain ⟨_, t2, h2, h⟩ := M.do_eq_ok.1 h
  cases h2
  obtain ⟨BB, t3, h3, h⟩ := M.do_eq_ok.1 h
  cases h3
  obtain ⟨_, t4, h4, h⟩ := M.do_eq_ok.1 h
  cases h4
  obtain ⟨_, t5, h5, h⟩ := M.do_eq_ok.1 h
  have K := stepsKeep_phis llvmEnv
  have I1 := K.fnType _ _ phiInv_init _ _ h1
  have I5 := K.params _ _ _ (K.setCurr _ t1.numBlocks (K.newBlock _ (K.argTys t1 tys I1))) _ _ h5
  have I6 := K.decls _ _ I5 _ _ h
  have c1 : SameControl CGState.init t1 := by
    have := keepsControl_createFunctionType Proc.FormalParams CGState.init
    rw [h1] at this
    exact this
  have c5 : SameControl
      { t1 with argTys := tys, numBlocks := t1.numBlocks + 1, Curr := t1.numBlocks } t5 := by
    have := keepsControl_runFormalParams Proc.FormalParams 0
      { t1 with argTys := tys, numBlocks := t1.numBlocks + 1, Curr := t1.numBlocks }
    rw [h5] at this
    exact this
  have c6 : SameControl t5 s := by
    have := keepsControl_runDecls Proc.Decls t5
    rw [h] at this
    exact this
  have ht : s.trace = [] := c6.1.trans (c5.1.trans c1.1)
  have hn1 : t1.numBlocks = 0 := c1.2.1
  have hn : s.numBlocks = 0 + 1 := by
    have e5 : t5.numBlocks = t1.numBlocks + 1 := c5.2.1
    rw [c6.2.1, e5, hn1]
  have hcur : s.Curr = 0 := by
    have e5 : t5.Curr = t1.numBlocks := c5.2.2.1
    rw [c6.2.2.1, e5, hn1]
  refine ⟨⟨?_, ?_, ?_, ?_⟩, I6⟩
  · rw [NoEdgeAfterSeal, ht]
    exact List.Pairwise.nil
  · rw [ht]
    exact List.not_mem_nil _
  · rw [hcur, hn]
    exact Nat.zero_lt_one
  · intro b hb
    rw [ht] at hb
    cases hb

/-- C14 (as corrected): the phi of the block after an `IF`.  Let
`emitStmt(IfStatement *)`, started between two statements in state `s0`, have
returned in state `s1`; let the statements `Post` that follow the `IF` have
been lowered from there to state `s`, with the block after the `IF` still the
current block; and let `Phi` be an incomplete phi of that block for the
variable `D`, as a read of `D` in the block creates it.  Let the block have a
predecessor, and let the reads of `D` in all its predecessors find the same
value `V` without creating a phi: in the definitions of the predecessor, or
through sealed blocks with a single predecessor.  Then the block is the block
`after.if` that the `IF` has created, and it is not sealed.  Whenever
`sealBlock` returns on it, `Phi` was a phi of the block and has been erased,
the block is sealed without incomplete phi, and there is a value `W` that
every predecessor records for `D`, and that is every operand and every
recorded definition that was `Phi` (the instructions that are not phi nodes,
as the one of a `RETURN`, are all still there); `W` is `V` when `V` is not an
instruction that has been erased.  And `sealBlock` does return, with `V` for
`W`, when every incomplete phi of the block stands for a variable or
parameter, is an instruction without a phi among its users, and the reads of
its variable in the predecessors all find, within the depth `fuel'` of their
recursion, the same value, which is none of the incomplete phis of the
block. -/
theorem emitStmt_if_merges_same_value (E : Env) (fuel fuel' : Nat) (Cond : Expr)
    (IfStmts ElseStmts Post : List Stmt) (D : Decl) (Phi : InstId) (V : Value)
    (s0 s1 s : CGState) (h0 : ControlInv s0) (hI : PhiInv none s0 ∧ Closed s0)
    (hif : emitStmt E fuel (emit E fuel) (.IfStatement Cond IfStmts ElseStmts) s0 = .ok () s1)
    (hpost : forEachStmt (emitStmt E fuel (emit E fuel)) Post s1 = .ok () s)
    (hcurr : s.Curr = s1.Curr)
    (hphi : (Phi, D) ∈ (s.CurrentDef s.Curr).IncompletePhis)
    (hpreds : s.predecessors s.Curr ≠ [])
    (hvis : ∀ p ∈ s.predecessors s.Curr, ∃ n, s.visibleDef n p D = some V) :
    s.Curr = s0.numBlocks + (if ElseStmts.isEmpty then 1 else 2) ∧
    (s.CurrentDef s.Curr).Sealed = false ∧
    (∀ s', sealBlock E fuel' s.Curr s = .ok () s' →
      (∃ x, s.insts Phi = some x ∧ x.op = Opcode.PHI ∧ x.parent = s.Curr) ∧
      s'.insts Phi = none ∧
      (s'.CurrentDef s.Curr).Sealed = true ∧ (s'.CurrentDef s.Curr).IncompletePhis = [] ∧
      ∃ W, (∀ p ∈ s.predecessors s.Curr, (s'.CurrentDef p).Defs D = some W) ∧
        (∀ j y, s.insts j = some y →
          (y.op ≠ Opcode.PHI → ∃ y', s'.insts j = some y' ∧ y'.op = y.op) ∧
          ∀ y', s'.insts j = some y' → ∀ (k : Nat),
            y.operands[k]? = some (.inst Phi) → y'.operands[k]? = some W) ∧
        (∀ b d, (s.CurrentDef b).Defs d = some (.inst Phi) →
          (s'.CurrentDef b).Defs d = some W) ∧
        ((∀ i, V = .inst i → s'.insts i ≠ none) → W = V)) ∧
    ((∀ Q d, (Q, d) ∈ (s.CurrentDef s.Curr).IncompletePhis → d.isVarOrParam = true ∧
        (∃ x, s.insts Q = some x ∧ candidatePhis s Q x.uses = []) ∧
        ∃ W, (∀ Q' d', (Q', d') ∈ (s.CurrentDef s.Curr).IncompletePhis → W ≠ .inst Q') ∧
          ∀ p ∈ s.predecessors s.Curr, ∃ n, n ≤ fuel' ∧ s.visibleDef n p d = some W) →
      ∃ s', sealBlock E fuel' s.Curr s = .ok () s' ∧ s'.insts Phi = none ∧
        (∀ p ∈ s.predecessors s.Curr, (s'.CurrentDef p).Defs D = some V) ∧
        (∀ j y, s.insts j = some y →
          (y.op ≠ Opcode.PHI → ∃ y', s'.insts j = some y' ∧ y'.op = y.op) ∧
          ∀ y', s'.insts j = some y' → ∀ (k : Nat),
            y.operands[k]? = some (.inst Phi) → y'.operands[k]? = some V) ∧
        (∀ b d, (s.CurrentDef b).Defs d = some (.inst Phi) →
          (s'.CurrentDef b).Defs d = some V)) := by
  have K := stepsKeep_phis E
  have hL := lowersSafely_emit E K fuel
  have h1 := lowersSafely_emitStmt E K fuel hL (.IfStatement Cond IfStmts ElseStmts) s0 h0 hI
  rw [hif] at h1
  obtain ⟨c1, hI1⟩ := h1
  have h2 := LowersSafely.forEachStmt (fun S => lowersSafely_emitStmt E K fuel hL S) Post s1
    c1.inv hI1
  rw [hpost] at h2
  obtain ⟨c2, hI2⟩ := h2
  have hmerge : s1.Curr = s0.numBlocks + (if ElseStmts.isEmpty then 1 else 2) :=
    emitIfStatement_curr hif
  have hU : (s.CurrentDef s.Curr).Sealed = false := by
    cases hS : (s.CurrentDef s.Curr).Sealed with
    | false => rfl
    | true =>
      rw [(hI2.1.sealed _ hS).2] at hphi
      cases hphi
  refine ⟨hcurr.trans hmerge, hU, ?_, ?_⟩
  · intro s' hs'
    obtain ⟨⟨x, hx⟩, g1, ⟨W, w1, w2, w3, w4⟩, g2, g3⟩ :=
      sealBlock_merges hI2.1 hI2.2.1 hphi hpreds hvis hs'
    have p3 := (hI2.1.pending _ Phi D hphi).2.2 x hx
    refine ⟨⟨x, hx, p3.1, p3.2⟩, g1, g2, g3, W, w1, w2, w3, ?_⟩
    intro hV
    exact w4 (fun i hi hn => absurd hn (hV i hi))
  · intro hall
    obtain ⟨s', hs', hfact⟩ := sealBlock_returns E fuel' hI2.1.fresh hU
      (hI2.1.nodup _) hpreds (by
        intro Q d hQ
        obtain ⟨hD, ⟨x, hx, hcand⟩, W, hW, hv⟩ := hall Q d hQ
        have p3 := (hI2.1.pending _ Q d hQ).2.2 x hx
        have hbl : x.blocks = [] := by
          rcases hI2.1.blocks Q x hx p3.1 (by simp) with ⟨k1, _⟩ | ⟨k1, _⟩
          · rw [p3.2] at k1
            exact absurd k1 c2.inv.2.1
          · exact k1
        have hops : x.operands = [] :=
          List.length_eq_zero.1 (by rw [hI2.1.len Q x hx p3.1, hbl]; rfl)
        exact ⟨hD, ⟨x, hx, p3.1, hops, hcand⟩, W, hW, hv⟩)
    obtain ⟨_, g1, ⟨W, w1, w2, w3, _⟩, _, _⟩ :=
      sealBlock_merges hI2.1 hI2.2.1 hphi hpreds hvis hs'
    obtain ⟨p, hp⟩ := List.exists_mem_of_ne_nil _ hpreds
    obtain ⟨n, hn⟩ := hvis p hp
    obtain ⟨_, _, W0, hW0, hv0⟩ := hall Phi D hphi
    obtain ⟨n0, _, hn0⟩ := hv0 p hp
    have hVW0 : V = W0 := by
      have a := s.visibleDef_le (Nat.le_max_left n n0) p D V hn
      have b := s.visibleDef_le (Nat.le_max_right n n0) p D W0 hn0
      rw [a] at b
      exact Option.some.inj b
    have hWV : W = V := hfact p D n V W (by rw [hVW0]; exact hW0) hn (w1 p hp)
    rw [hWV] at w1 w2 w3
    exact ⟨s', hs', g1, w1, w2, w3⟩

/-- The theorem above on `IF c THEN x := 1 ELSE x := 1 END; RETURN x + a`,
from the state in which `run` starts to emit the statements.  The block
after the `IF` is block 3 with the predecessors 2 and 1; it has the
incomplete phis 3 for `x` and 4 for `a`, and instruction 5 is the sum of the
two.  Both predecessors define `x` as the constant 1.  Sealing the block
returns, phi 3 is gone, and the first operand of the sum is the constant. -/
theorem emitStmt_if_merges_same_value_witness :
    ControlInv (Example.atBody Example.ifSameValueThenSum) ∧
    (Example.afterStmts llvmEnv 19 Example.ifSameValueThenSum).Curr = 3 ∧
    (Example.afterStmts llvmEnv 19 Example.ifSameValueThenSum).predecessors 3 = [2, 1] ∧
    ((Example.afterStmts llvmEnv 19 Example.ifSameValueThenSum).CurrentDef 3).IncompletePhis =
      [(3, Example.x), (4, Example.a)] ∧
    ((Example.afterStmts llvmEnv 19 Example.ifSameValueThenSum).CurrentDef 2).Defs Example.x =
      some (.constInt 64 1) ∧
    ((Example.afterStmts llvmEnv 19 Example.ifSameValueThenSum).CurrentDef 1).Defs Example.x =
      some (.constInt 64 1) ∧
    (Example.afterStmts llvmEnv 19 Example.ifSameValueThenSum).insts 5 =
      some (Instruction.mk .Add (.int 64) [.inst 3, .inst 4] [] 3 [(6, 0)]) ∧
    ∃ s', sealBlock llvmEnv 20 3 (Example.afterStmts llvmEnv 19 Example.ifSameValueThenSum) =
        .ok () s' ∧ s'.insts 3 = none ∧
      ∃ y', s'.insts 5 = some y' ∧ y'.op = .Add ∧ y'.operands[0]? = some (.constInt 64 1) := by
  have hinv := Example.atBody_inv Example.ifSameValueThenSum
    (Example.atBody Example.ifSameValueThenSum) (Res.ok_of_no_error (by decide!))
  have hcur : (Example.afterStmts llvmEnv 19 Example.ifSameValueThenSum).Curr = 3 := by
    decide!
  have hpr : (Example.afterStmts llvmEnv 19 Example.ifSameValueThenSum).predecessors 3 =
      [2, 1] := by decide!
  have hinc : ((Example.afterStmts llvmEnv 19 Example.ifSameValueThenSum).CurrentDef
      3).IncompletePhis = [(3, Example.x), (4, Example.a)] := by decide!
  have h5 : (Example.afterStmts llvmEnv 19 Example.ifSameValueThenSum).insts 5 =
      some (Instruction.mk .Add (.int 64) [.inst 3, .inst 4] [] 3 [(6, 0)]) := by decide!
  refine ⟨hinv.1, hcur, hpr, hinc, by decide!, by decide!, h5, ?_⟩
  obtain ⟨_, _, _, hret⟩ := emitStmt_if_merges_same_value llvmEnv 19 20
    (Example.var Example.c) [Example.setConst Example.x 1] [Example.setConst Example.x 1]
    [.ReturnStatement (some (.InfixExpression (Example.var Example.x) (Example.var Example.a)
      .plus))]
    Example.x 3 (.constInt 64 1) (Example.atBody Example.ifSameValueThenSum)
    (Example.afterFirstStmt llvmEnv 19 Example.ifSameValueThenSum)
    (Example.afterStmts llvmEnv 19 Example.ifSameValueThenSum)
    hinv.1 hinv.2 (Res.ok_of_no_error (by decide!)) (Res.ok_of_no_error (by decide!))
    (by decide!) (by decide!) (by decide!)
    (by
      intro p hp
      rw [hcur, hpr] at hp
      have : p = 2 ∨ p = 1 := by simpa using hp
      rcases this with rfl | rfl
      · exact ⟨1, by decide!⟩
      · exact ⟨1, by decide!⟩)
  obtain ⟨s', hs', g1, _, w2, _⟩ := hret (by
    intro Q d hQ
    rw [hcur, hinc] at hQ
    have : (Q = 3 ∧ d = Example.x) ∨ (Q = 4 ∧ d = Example.a) := by simpa using hQ
    rcases this with ⟨rfl, rfl⟩ | ⟨rfl, rfl⟩
    · refine ⟨rfl, ⟨Instruction.mk .PHI (.int 64) [] [] 3 [(5, 0)], by decide!, by decide!⟩,
        .constInt 64 1, fun _ _ _ => by simp, ?_⟩
      intro p hp
      rw [hcur, hpr] at hp
      have : p = 2 ∨ p = 1 := by simpa using hp
      rcases this with rfl | rfl
      · exact ⟨1, by decide, by decide!⟩
      · exact ⟨1, by decide, by decide!⟩
    · refine ⟨rfl, ⟨Instruction.mk .PHI (.int 64) [] [] 3 [(5, 1)], by decide!, by decide!⟩,
        .arg 1, fun _ _ _ => by simp, ?_⟩
      intro p hp
      rw [hcur, hpr] at hp
      have : p = 2 ∨ p = 1 := by simpa using hp
      rcases this with rfl | rfl
      · exact ⟨2, by decide, by decide!⟩
      · exact ⟨2, by decide, by decide!⟩)
  rw [hcur] at hs'
  obtain ⟨k1, k2⟩ := w2 5 _ h5
  obtain ⟨y', hy', e⟩ := k1 (by decide)
  exact ⟨s', hs', g1, y', hy', e, k2 y' hy' 0 rfl⟩

end tinylang
